import Mathlib

/-!
# PersistentQueue: a shallow embedding of the four queue variants

The four queues of the repository (`MSQueue.h`, `DurableQueue.h`, `LogQueue.h`,
`RelaxedQueue.h`) are embedded as state-passing functions over explicit heaps.

* A pointer is an address `Nat` into a heap (`List` of objects); a nullable
  pointer is an `Option Nat`.  `new` appends an object to the heap.
* Every `while (true)` retry loop is a function recursive on an iteration
  budget; running out of budget is `Err.fuel`.
* Dereferencing a null or dangling pointer, or indexing an array outside its
  bounds, is `Err.fault`.
* The embedding is sequential: an atomic `load` reads the current state and
  `compare_exchange_strong` compares with the current state.
* `BARRIER`, `BARRIER_OPT` (cache-line write-back and store fence) do not change
  the volatile state and are left out of the state transformers; the places
  where the source issues them are marked in comments.
-/

namespace PersistentQueue

/-! ## Shared constants (`Utilities.h`, `<climits>`) -/

/-- Ways in which a modelled call fails to return a result. -/
inductive Err where
  | fault
  | fuel
  deriving DecidableEq, Repr

instance instDecEqExcept {ε α : Type} [DecidableEq ε] [DecidableEq α] :
    DecidableEq (Except ε α)
  | .ok a, .ok b => if h : a = b then isTrue (by rw [h]) else isFalse (by intro e; cases e; exact h rfl)
  | .error a, .error b =>
    if h : a = b then isTrue (by rw [h]) else isFalse (by intro e; cases e; exact h rfl)
  | .ok _, .error _ => isFalse (by intro e; cases e)
  | .error _, .ok _ => isFalse (by intro e; cases e)

def INT_MIN : Int := -2147483648

def INT_MAX : Int := 2147483647

def MAX_THREADS : Nat := 144

def PADDING : Nat := 512

/-! ## Next-pointer chains

`Linked nx a l` says that following `nx` from `a` visits exactly the addresses
of `l`, in order, and then reaches a null pointer. -/

def Linked (nx : Nat → Option Nat) : Nat → List Nat → Prop
  | a, [] => nx a = none
  | a, b :: l => nx a = some b ∧ Linked nx b l

/-- Last address of the chain that starts at `a` and continues with `l`. -/
def chainLast : Nat → List Nat → Nat
  | a, [] => a
  | _, b :: l => chainLast b l

/-- `Linked` is decidable: it unfolds to equations between next pointers. -/
instance instDecidableLinked (nx : Nat → Option Nat) :
    (a : Nat) → (l : List Nat) → Decidable (Linked nx a l)
  | a, [] => inferInstanceAs (Decidable (nx a = none))
  | _, b :: l => @instDecidableAnd _ _ _ (instDecidableLinked nx b l)

/-! ## Volatile queue (`MSQueue.h`) -/

namespace MSQueue

/-- Embeds `MSQueue::Node`. -/
structure Node where
  value : Int
  next : Option Nat
  deriving DecidableEq, Repr

end MSQueue

/-- Embeds the `MSQueue` object together with the heap of its nodes. -/
structure MSQueue where
  mem : List MSQueue.Node
  head : Nat
  tail : Nat
  deriving DecidableEq, Repr

namespace MSQueue

/-- Embeds the constructor `MSQueue() {head = tail = new Node(INT_MAX);}`. -/
def new : MSQueue := ⟨[⟨INT_MAX, none⟩], 0, 0⟩

/-- Dereference of a node pointer. -/
def load (q : MSQueue) (p : Nat) : Except Err Node :=
  match q.mem[p]? with
  | some n => .ok n
  | none => .error .fault

/-- Embeds `p->next.compare_exchange_strong(expected, desired)`. -/
def casNext (q : MSQueue) (p : Nat) (expected desired : Option Nat) :
    Except Err (Bool × MSQueue) :=
  match q.mem[p]? with
  | some n =>
    if n.next = expected then
      .ok (true, { q with mem := q.mem.set p { n with next := desired } })
    else .ok (false, q)
  | none => .error .fault

/-- Embeds `tail.compare_exchange_strong(expected, desired)`. -/
def casTail (q : MSQueue) (expected desired : Nat) : Bool × MSQueue :=
  if q.tail = expected then (true, { q with tail := desired }) else (false, q)

/-- Embeds `head.compare_exchange_strong(expected, desired)`. -/
def casHead (q : MSQueue) (expected desired : Nat) : Bool × MSQueue :=
  if q.head = expected then (true, { q with head := desired }) else (false, q)

/-- The retry loop of `MSQueue::enq` for the already allocated `node`. -/
def enqLoop (node : Nat) : Nat → MSQueue → Except Err MSQueue
  | 0, _ => .error .fuel
  | fuel + 1, q =>
    let last := q.tail
    match q.load last with
    | .error e => .error e
    | .ok lastNode =>
      let next := lastNode.next
      if last = q.tail then
        match next with
        | none =>
          match q.casNext last next (some node) with
          | .error e => .error e
          | .ok (true, q1) => .ok (q1.casTail last node).2
          | .ok (false, q1) => enqLoop node fuel q1
        | some nx => enqLoop node fuel (q.casTail last nx).2
      else enqLoop node fuel q

/-- Embeds `MSQueue::enq`: allocate `new Node(value)`, then run the loop. -/
def enq (fuel : Nat) (value : Int) (q : MSQueue) : Except Err MSQueue :=
  enqLoop q.mem.length fuel { q with mem := q.mem ++ [⟨value, none⟩] }

/-- Embeds `MSQueue::deq`. -/
def deq : Nat → MSQueue → Except Err (Int × MSQueue)
  | 0, _ => .error .fuel
  | fuel + 1, q =>
    let first := q.head
    let last := q.tail
    match q.load first with
    | .error e => .error e
    | .ok firstNode =>
      let next := firstNode.next
      if first = q.head then
        if first = last then
          match next with
          | none => .ok (INT_MIN, q)
          | some nx => deq fuel (q.casTail last nx).2
        else
          match next with
          | none => .error .fault
          | some nx =>
            match q.load nx with
            | .error e => .error e
            | .ok nextNode =>
              let value := nextNode.value
              match q.casHead first nx with
              | (true, q1) => .ok (value, q1)
              | (false, q1) => deq fuel q1
      else deq fuel q

end MSQueue

/-- A call on the volatile queue. -/
inductive MSOp where
  | enq (v : Int)
  | deq
  deriving DecidableEq, Repr

/-- Runs a sequence of calls, collecting what the `deq` calls return. -/
def MSQueue.run (fuel : Nat) : List MSOp → MSQueue → Except Err (List Int × MSQueue)
  | [], q => .ok ([], q)
  | .enq v :: ops, q =>
    match q.enq fuel v with
    | .error e => .error e
    | .ok q1 => MSQueue.run fuel ops q1
  | .deq :: ops, q =>
    match q.deq fuel with
    | .error e => .error e
    | .ok (r, q1) =>
      match MSQueue.run fuel ops q1 with
      | .error e => .error e
      | .ok (rs, q2) => .ok (r :: rs, q2)

/-- Sequential FIFO queue in the words of the specification: `pend` holds the
enqueued values not yet returned, oldest first; a `deq` yields the oldest one, or
`none` when every enqueued value has already been returned. -/
def fifoSpec : List Int → List MSOp → List (Option Int)
  | _, [] => []
  | pend, .enq v :: ops => fifoSpec (pend ++ [v]) ops
  | [], .deq :: ops => none :: fifoSpec [] ops
  | v :: pend, .deq :: ops => some v :: fifoSpec pend ops

/-- What the caller of `deq` sees for an outcome of the sequential queue. -/
def sentinel : Option Int → Int
  | none => INT_MIN
  | some v => v

/-! ## Per-thread arrays

`removedValues` and `logs` are arrays of `MAX_THREADS * PADDING` pointers; thread
`t` uses the element `t * PADDING`.  An array is embedded as a function from
indices to nullable pointers; an index outside the array is a fault. -/

/-- Index `threadID * PADDING` of a per-thread array, checked against the bounds
of the array. -/
def slot (threadID : Int) : Except Err Nat :=
  if 0 ≤ threadID * PADDING ∧ threadID * PADDING < MAX_THREADS * PADDING then
    .ok (threadID * PADDING).toNat
  else .error .fault

/-! ## Durable queue (`DurableQueue.h`) -/

namespace DurableQueue

/-- Embeds `DurableQueue::NodeWithID`. -/
structure NodeWithID where
  value : Int
  next : Option Nat
  threadID : Int
  deriving DecidableEq, Repr

end DurableQueue

/-- Embeds the `DurableQueue` object: the heap of nodes, the heap of `T` cells
allocated by `deq`, the array `removedValues`, and `head`, `tail`. -/
structure DurableQueue where
  mem : List DurableQueue.NodeWithID
  cells : List Int
  removedValues : Nat → Option Nat
  head : Nat
  tail : Nat

namespace DurableQueue

/-- Embeds the constructor: a dummy node `NodeWithID(INT_MAX)` and an array of
null pointers. -/
def new : DurableQueue := ⟨[⟨INT_MAX, none, -1⟩], [], fun _ => none, 0, 0⟩

/-- Dereference of a node pointer. -/
def load (q : DurableQueue) (p : Nat) : Except Err NodeWithID :=
  match q.mem[p]? with
  | some n => .ok n
  | none => .error .fault

/-- Embeds `p->next.compare_exchange_strong(expected, desired)`. -/
def casNext (q : DurableQueue) (p : Nat) (expected desired : Option Nat) :
    Except Err (Bool × DurableQueue) :=
  match q.mem[p]? with
  | some n =>
    if n.next = expected then
      .ok (true, { q with mem := q.mem.set p { n with next := desired } })
    else .ok (false, q)
  | none => .error .fault

/-- Embeds `p->threadID.compare_exchange_strong(expected, desired)`. -/
def casThreadID (q : DurableQueue) (p : Nat) (expected desired : Int) :
    Except Err (Bool × DurableQueue) :=
  match q.mem[p]? with
  | some n =>
    if n.threadID = expected then
      .ok (true, { q with mem := q.mem.set p { n with threadID := desired } })
    else .ok (false, q)
  | none => .error .fault

/-- Embeds `tail.compare_exchange_strong(expected, desired)`. -/
def casTail (q : DurableQueue) (expected desired : Nat) : Bool × DurableQueue :=
  if q.tail = expected then (true, { q with tail := desired }) else (false, q)

/-- Embeds `head.compare_exchange_strong(expected, desired)`. -/
def casHead (q : DurableQueue) (expected desired : Nat) : Bool × DurableQueue :=
  if q.head = expected then (true, { q with head := desired }) else (false, q)

/-- Embeds the store `*address = value` through a nullable `T*`. -/
def storeAt (q : DurableQueue) (address : Option Nat) (value : Int) : Except Err DurableQueue :=
  match address with
  | none => .error .fault
  | some c =>
    if c < q.cells.length then .ok { q with cells := q.cells.set c value }
    else .error .fault

/-- Embeds the read `removedValues[threadID * PADDING]`. -/
def removedPtr (q : DurableQueue) (threadID : Int) : Except Err (Option Nat) :=
  match slot threadID with
  | .error e => .error e
  | .ok i => .ok (q.removedValues i)

/-- Embeds `*removedValues[threadID * PADDING] = value`. -/
def storeRemoved (q : DurableQueue) (threadID : Int) (value : Int) : Except Err DurableQueue :=
  match q.removedPtr threadID with
  | .error e => .error e
  | .ok address => q.storeAt address value

/-- The retry loop of `DurableQueue::enq` for the already allocated `node`. -/
def enqLoop (node : Nat) : Nat → DurableQueue → Except Err DurableQueue
  | 0, _ => .error .fuel
  | fuel + 1, q =>
    let last := q.tail
    match q.load last with
    | .error e => .error e
    | .ok lastNode =>
      let next := lastNode.next
      if last = q.tail then
        match next with
        | none =>
          match q.casNext last next (some node) with
          | .error e => .error e
          | .ok (true, q1) =>
            -- BARRIER_OPT(&last->next)
            .ok (q1.casTail last node).2
          | .ok (false, q1) => enqLoop node fuel q1
        | some nx =>
          -- BARRIER_OPT(&last->next)
          enqLoop node fuel (q.casTail last nx).2
      else enqLoop node fuel q

/-- Embeds `DurableQueue::enq`: allocate `new NodeWithID(value)` (flushed by
`BARRIER(node)`), then run the loop. -/
def enq (fuel : Nat) (value : Int) (q : DurableQueue) : Except Err DurableQueue :=
  enqLoop q.mem.length fuel { q with mem := q.mem ++ [⟨value, none, -1⟩] }

/-- The retry loop of `DurableQueue::deq`. -/
def deqLoop (threadID : Int) : Nat → DurableQueue → Except Err (Int × DurableQueue)
  | 0, _ => .error .fuel
  | fuel + 1, q =>
    let first := q.head
    let last := q.tail
    match q.load first with
    | .error e => .error e
    | .ok firstNode =>
      let next := firstNode.next
      if first = q.head then
        if first = last then
          match next with
          | none =>
            match q.storeRemoved threadID INT_MIN with
            | .error e => .error e
            | .ok q1 =>
              -- BARRIER(removedValues[threadID * PADDING])
              .ok (INT_MIN, q1)
          | some nx =>
            -- BARRIER_OPT(&last->next)
            deqLoop threadID fuel (q.casTail last nx).2
        else
          match next with
          | none => .error .fault
          | some nx =>
            match q.load nx with
            | .error e => .error e
            | .ok nextNode =>
              let value := nextNode.value
              let valid : Int := -1
              match q.casThreadID nx valid threadID with
              | .error e => .error e
              | .ok (true, q1) =>
                -- BARRIER(&next->threadID)
                match q1.storeRemoved threadID value with
                | .error e => .error e
                | .ok q2 =>
                  -- BARRIER_OPT(removedValues[threadID * PADDING])
                  .ok (value, (q2.casHead first nx).2)
              | .ok (false, q1) =>
                match q1.load nx with
                | .error e => .error e
                | .ok winner =>
                  match q1.removedPtr winner.threadID with
                  | .error e => .error e
                  | .ok address =>
                    if q1.head = first then
                      -- BARRIER(&next->threadID)
                      match q1.storeAt address value with
                      | .error e => .error e
                      | .ok q2 =>
                        -- BARRIER_OPT(address)
                        deqLoop threadID fuel (q2.casHead first nx).2
                    else deqLoop threadID fuel q1
      else deqLoop threadID fuel q

/-- Embeds `DurableQueue::deq`: allocate the cell `new T(INT_MAX)`, publish it in
`removedValues[threadID * PADDING]`, then run the loop. -/
def deq (fuel : Nat) (threadID : Int) (q : DurableQueue) : Except Err (Int × DurableQueue) :=
  let newRemovedValue := q.cells.length
  -- BARRIER(newRemovedValue)
  match slot threadID with
  | .error e => .error e
  | .ok i =>
    -- BARRIER(&removedValues[threadID * PADDING])
    deqLoop threadID fuel
      { q with cells := q.cells ++ [INT_MAX],
               removedValues := Function.update q.removedValues i (some newRemovedValue) }

end DurableQueue

/-! ## Detectable queue (`LogQueue.h`) -/

namespace LogQueue

/-- Embeds `enum Action {none, insert, remove}`. -/
inductive Action where
  | none
  | insert
  | remove
  deriving DecidableEq, Repr

/-- Embeds `LogQueue::LogEntry`. -/
structure LogEntry where
  operationNum : Int
  action : Action
  status : Bool
  node : Option Nat
  deriving DecidableEq, Repr

/-- Embeds `LogQueue::NodeWithLog`; `logEnq`, `logDeq` are pointers into the
heap of log entries. -/
structure NodeWithLog where
  value : Int
  next : Option Nat
  logEnq : Option Nat
  logDeq : Option Nat
  deriving DecidableEq, Repr

end LogQueue

/-- Embeds the `LogQueue` object: the heap of nodes, the heap of log entries,
the heap of per-thread arrays, the pointer `logs` to the current array, and
`head`, `tail`.  (`createNewArray` swaps the array by a compare-and-swap on
`&this->logs`, so the array is held through a pointer.) -/
structure LogQueue where
  mem : List LogQueue.NodeWithLog
  entries : List LogQueue.LogEntry
  arrays : List (Nat → Option Nat)
  logs : Nat
  head : Nat
  tail : Nat

namespace LogQueue

/-- Embeds the constructor: a dummy node `NodeWithLog(INT_MAX)` and an array of
null pointers. -/
def new : LogQueue := ⟨[⟨INT_MAX, none, none, none⟩], [], [fun _ => none], 0, 0, 0⟩

/-- Dereference of a node pointer. -/
def load (q : LogQueue) (p : Nat) : Except Err NodeWithLog :=
  match q.mem[p]? with
  | some n => .ok n
  | none => .error .fault

/-- Dereference of a nullable log-entry pointer. -/
def entry (q : LogQueue) (p : Option Nat) : Except Err LogEntry :=
  match p with
  | none => .error .fault
  | some e =>
    match q.entries[e]? with
    | some x => .ok x
    | none => .error .fault

/-- Embeds the store `p->status = s` through a nullable log-entry pointer. -/
def setStatus (q : LogQueue) (p : Option Nat) (s : Bool) : Except Err LogQueue :=
  match p with
  | none => .error .fault
  | some e =>
    match q.entries[e]? with
    | some x => .ok { q with entries := q.entries.set e { x with status := s } }
    | none => .error .fault

/-- Embeds the store `p->node = n` through a nullable log-entry pointer. -/
def setNode (q : LogQueue) (p : Option Nat) (n : Option Nat) : Except Err LogQueue :=
  match p with
  | none => .error .fault
  | some e =>
    match q.entries[e]? with
    | some x => .ok { q with entries := q.entries.set e { x with node := n } }
    | none => .error .fault

/-- Embeds `p->next.compare_exchange_strong(expected, desired)`. -/
def casNext (q : LogQueue) (p : Nat) (expected desired : Option Nat) :
    Except Err (Bool × LogQueue) :=
  match q.mem[p]? with
  | some n =>
    if n.next = expected then
      .ok (true, { q with mem := q.mem.set p { n with next := desired } })
    else .ok (false, q)
  | none => .error .fault

/-- Embeds `p->logDeq.compare_exchange_strong(expected, desired)`. -/
def casLogDeq (q : LogQueue) (p : Nat) (expected desired : Option Nat) :
    Except Err (Bool × LogQueue) :=
  match q.mem[p]? with
  | some n =>
    if n.logDeq = expected then
      .ok (true, { q with mem := q.mem.set p { n with logDeq := desired } })
    else .ok (false, q)
  | none => .error .fault

/-- Embeds `tail.compare_exchange_strong(expected, desired)`. -/
def casTail (q : LogQueue) (expected desired : Nat) : Bool × LogQueue :=
  if q.tail = expected then (true, { q with tail := desired }) else (false, q)

/-- Embeds `head.compare_exchange_strong(expected, desired)`. -/
def casHead (q : LogQueue) (expected desired : Nat) : Bool × LogQueue :=
  if q.head = expected then (true, { q with head := desired }) else (false, q)

/-- Embeds the read `arr[i]` of the per-thread array at address `arr`. -/
def readArray (q : LogQueue) (arr : Nat) (i : Nat) : Except Err (Option Nat) :=
  match q.arrays[arr]? with
  | some f => if i < MAX_THREADS * PADDING then .ok (f i) else .error .fault
  | none => .error .fault

/-- Embeds the read `logs[threadID * PADDING]`. -/
def logPtr (q : LogQueue) (threadID : Int) : Except Err (Option Nat) :=
  match slot threadID with
  | .error e => .error e
  | .ok i => q.readArray q.logs i

/-- Embeds the store `logs[threadID * PADDING] = log`. -/
def setLog (q : LogQueue) (threadID : Int) (log : Option Nat) : Except Err LogQueue :=
  match slot threadID with
  | .error e => .error e
  | .ok i =>
    match q.arrays[q.logs]? with
    | some f => .ok { q with arrays := q.arrays.set q.logs (Function.update f i log) }
    | none => .error .fault

/-- Embeds `LogQueue::createDeqLog`; returns the pointer to the new entry. -/
def createDeqLog (q : LogQueue) (threadID : Int) (operationNumber : Int) :
    Except Err (Nat × LogQueue) :=
  let log := q.entries.length
  -- BARRIER(log)
  match setLog { q with entries := q.entries ++ [⟨operationNumber, .remove, false, none⟩] }
      threadID (some log) with
  | .error e => .error e
  | .ok q1 =>
    -- BARRIER(&logs[threadID * PADDING])
    .ok (log, q1)

/-- Embeds `LogQueue::createEnqLogAndNode`; returns the pointer to the new node. -/
def createEnqLogAndNode (q : LogQueue) (value : Int) (threadID : Int) (operationNumber : Int) :
    Except Err (Nat × LogQueue) :=
  let log := q.entries.length
  let node := q.mem.length
  -- log->node = node; node->logEnq = log; BARRIER_OPT(node); BARRIER(log)
  match setLog
      { q with entries := q.entries ++ [⟨operationNumber, .insert, false, some node⟩],
               mem := q.mem ++ [⟨value, none, some log, none⟩] }
      threadID (some log) with
  | .error e => .error e
  | .ok q1 =>
    -- BARRIER(&logs[threadID * PADDING])
    .ok (node, q1)

/-- The retry loop of `LogQueue::enq` for the already allocated `node`. -/
def enqLoop (node : Nat) : Nat → LogQueue → Except Err LogQueue
  | 0, _ => .error .fuel
  | fuel + 1, q =>
    let last := q.tail
    match q.load last with
    | .error e => .error e
    | .ok lastNode =>
      let next := lastNode.next
      if last = q.tail then
        match next with
        | none =>
          match q.casNext last next (some node) with
          | .error e => .error e
          | .ok (true, q1) =>
            -- BARRIER_OPT(&last->next)
            .ok (q1.casTail last node).2
          | .ok (false, q1) => enqLoop node fuel q1
        | some nx =>
          -- BARRIER_OPT(&last->next)
          enqLoop node fuel (q.casTail last nx).2
      else enqLoop node fuel q

/-- Embeds `LogQueue::enq`. -/
def enq (fuel : Nat) (value : Int) (threadID : Int) (operationNumber : Int) (q : LogQueue) :
    Except Err LogQueue :=
  match q.createEnqLogAndNode value threadID operationNumber with
  | .error e => .error e
  | .ok (node, q0) => enqLoop node fuel q0

/-- The retry loop of `LogQueue::deq` for the already created entry `log`. -/
def deqLoop (threadID : Int) (log : Nat) : Nat → LogQueue → Except Err (Int × LogQueue)
  | 0, _ => .error .fuel
  | fuel + 1, q =>
    let first := q.head
    let last := q.tail
    match q.load first with
    | .error e => .error e
    | .ok firstNode =>
      let next := firstNode.next
      if first = q.head then
        if first = last then
          match next with
          | none =>
            -- logs[threadID * PADDING]->status = true
            match q.logPtr threadID with
            | .error e => .error e
            | .ok p =>
              match q.setStatus p true with
              | .error e => .error e
              | .ok q1 =>
                -- BARRIER(&(logs[threadID * PADDING]->status))
                .ok (INT_MIN, q1)
          | some nx =>
            -- BARRIER_OPT(&last->next)
            deqLoop threadID log fuel (q.casTail last nx).2
        else
          match next with
          | none => .error .fault
          | some nx =>
            let valid : Option Nat := none
            match q.casLogDeq nx valid (some log) with
            | .error e => .error e
            | .ok (true, q1) =>
              -- BARRIER(&next->logDeq); next->logDeq.load()->node = next
              match q1.load nx with
              | .error e => .error e
              | .ok nextNode =>
                match q1.setNode nextNode.logDeq (some nx) with
                | .error e => .error e
                | .ok q2 =>
                  -- BARRIER_OPT(&next->logDeq.load()->node)
                  let q3 := (q2.casHead first nx).2
                  match q3.load nx with
                  | .error e => .error e
                  | .ok n => .ok (n.value, q3)
            | .ok (false, q1) =>
              if q1.head = first then
                match q1.load nx with
                | .error e => .error e
                | .ok nextNode =>
                  match q1.setNode nextNode.logDeq (some nx) with
                  | .error e => .error e
                  | .ok q2 =>
                    -- BARRIER_OPT(&next->logDeq.load()->node)
                    deqLoop threadID log fuel (q2.casHead first nx).2
              else deqLoop threadID log fuel q1
      else deqLoop threadID log fuel q

/-- Embeds `LogQueue::deq`. -/
def deq (fuel : Nat) (threadID : Int) (operationNumber : Int) (q : LogQueue) :
    Except Err (Int × LogQueue) :=
  match q.createDeqLog threadID operationNumber with
  | .error e => .error e
  | .ok (log, q0) => deqLoop threadID log fuel q0

/-! ### Recovery

In `updateHead` the source assigns `temp->logDeq.load()->node = next`, but no
variable `next` is declared at that point of the function.  The value the name
stands for is a parameter `nextName` of the embedding, a function of `temp` and
of `temp->next.load()`; the readings "`temp`" and "`temp->next.load()`" are
`nextIsTemp` and `nextIsSuccessor`. -/

/-- Reading of the undeclared name `next` in `updateHead` as the node `temp`. -/
def nextIsTemp : Nat → Option Nat → Option Nat := fun temp _ => some temp

/-- Reading of the undeclared name `next` in `updateHead` as `temp->next.load()`. -/
def nextIsSuccessor : Nat → Option Nat → Option Nat := fun _ succ => succ

/-- The loop of `LogQueue::updateHead`, with `temp` the loop variable. -/
def updateHeadLoop (nextName : Nat → Option Nat → Option Nat) (start : Nat) :
    Nat → Option Nat → LogQueue → Except Err LogQueue
  | 0, _, _ => .error .fuel
  | fuel + 1, temp, q =>
    match temp with
    | none => .ok q
    | some t =>
      match q.load t with
      | .error e => .error e
      | .ok tempNode =>
        match tempNode.logDeq with
        | none => .ok q
        | some _ =>
          match tempNode.next with
          | none => updateHeadLoop nextName start fuel tempNode.next q
          | some nx =>
            match q.load nx with
            | .error e => .error e
            | .ok nextNode =>
              if nextNode.logDeq = none then
                -- BARRIER(&temp->logDeq)
                match q.setNode tempNode.logDeq (nextName t tempNode.next) with
                | .error e => .error e
                | .ok q1 =>
                  -- BARRIER_OPT(&temp->logDeq->node)
                  .ok (q1.casHead start t).2
              else updateHeadLoop nextName start fuel tempNode.next q

/-- Embeds `LogQueue::updateHead`. -/
def updateHead (nextName : Nat → Option Nat → Option Nat) (fuel : Nat) (start : Nat)
    (q : LogQueue) : Except Err LogQueue :=
  match q.load start with
  | .error e => .error e
  | .ok startNode => updateHeadLoop nextName start fuel startNode.next q

/-- The loop of `LogQueue::updateTailAndStatus`, with `temp` the loop variable. -/
def updateTailLoop (prevTail : Nat) : Nat → Nat → LogQueue → Except Err LogQueue
  | 0, _, _ => .error .fuel
  | fuel + 1, temp, q =>
    match q.load temp with
    | .error e => .error e
    | .ok tempNode =>
      match tempNode.next with
      | none => .ok (q.casTail prevTail temp).2
      | some nx =>
        match q.load nx with
        | .error e => .error e
        | .ok nextNode =>
          match nextNode.next with
          | none =>
            -- BARRIER(&temp->next)
            match q.setStatus nextNode.logEnq true with
            | .error e => .error e
            | .ok q1 => .ok (q1.casTail prevTail nx).2
          | some _ =>
            match q.setStatus nextNode.logEnq true with
            | .error e => .error e
            | .ok q1 => updateTailLoop prevTail fuel nx q1

/-- Embeds `LogQueue::updateTailAndStatus`. -/
def updateTailAndStatus (fuel : Nat) (start prevTail : Nat) (q : LogQueue) :
    Except Err LogQueue :=
  match q.load start with
  | .error e => .error e
  | .ok startNode =>
    match q.setStatus startNode.logEnq true with
    | .error e => .error e
    | .ok q1 => updateTailLoop prevTail fuel start q1

/-- Embeds `LogQueue::finishInsert` for the log entry at address `entry`. -/
def finishInsert (entry : Nat) : Nat → LogQueue → Except Err LogQueue
  | 0, _ => .error .fuel
  | fuel + 1, q =>
    let last := q.tail
    match q.load last with
    | .error e => .error e
    | .ok lastNode =>
      let next := lastNode.next
      match q.entry (some entry) with
      | .error e => .error e
      | .ok ent =>
        if ent.status ≠ true then
          if last = q.tail then
            match next with
            | none =>
              match q.casNext last none ent.node with
              | .error e => .error e
              | .ok (true, q1) =>
                -- BARRIER(&last->next); last->next.load()->logEnq.load()->status = true
                match q1.load last with
                | .error e => .error e
                | .ok lastNode1 =>
                  match lastNode1.next with
                  | none => .error .fault
                  | some ln =>
                    match q1.load ln with
                    | .error e => .error e
                    | .ok linked =>
                      match q1.setStatus linked.logEnq true with
                      | .error e => .error e
                      | .ok q2 =>
                        match q2.entry (some entry) with
                        | .error e => .error e
                        | .ok ent2 =>
                          match ent2.node with
                          | none => .error .fault
                          | some en => .ok (q2.casTail last en).2
              | .ok (false, q1) => finishInsert entry fuel q1
            | some nx =>
              -- BARRIER(&last->next); last->next.load()->logEnq.load()->status = true
              match q.load nx with
              | .error e => .error e
              | .ok linked =>
                match q.setStatus linked.logEnq true with
                | .error e => .error e
                | .ok q1 => finishInsert entry fuel (q1.casTail last nx).2
          else finishInsert entry fuel q
        else finishInsert entry fuel q

/-- Embeds `LogQueue::finishRemove` for the log entry at address `entry`. -/
def finishRemove (entry : Nat) : Nat → LogQueue → Except Err LogQueue
  | 0, _ => .error .fuel
  | fuel + 1, q =>
    let first := q.head
    let last := q.tail
    match q.load first with
    | .error e => .error e
    | .ok firstNode =>
      let next := firstNode.next
      match q.entry (some entry) with
      | .error e => .error e
      | .ok ent =>
        if ent.node = none ∨ ent.status ≠ true then
          if first = q.head then
            if first = last then
              match next with
              | none =>
                match q.setStatus (some entry) true with
                | .error e => .error e
                | .ok q1 =>
                  -- BARRIER(&entry->status)
                  .ok q1
              | some nx =>
                -- BARRIER(&last->next); last->next.load()->logEnq->status = true
                match q.load nx with
                | .error e => .error e
                | .ok linked =>
                  match q.setStatus linked.logEnq true with
                  | .error e => .error e
                  | .ok q1 => finishRemove entry fuel (q1.casTail last nx).2
            else
              match next with
              | none => .error .fault
              | some nx =>
                match q.casLogDeq nx none (some entry) with
                | .error e => .error e
                | .ok (true, q1) =>
                  -- BARRIER(&next->logDeq); next->logDeq->node = next
                  match q1.load nx with
                  | .error e => .error e
                  | .ok nextNode =>
                    match q1.setNode nextNode.logDeq (some nx) with
                    | .error e => .error e
                    | .ok q2 =>
                      -- BARRIER_OPT(&next->logDeq->node)
                      .ok (q2.casHead first nx).2
                | .ok (false, q1) =>
                  if q1.head = first then
                    match q1.load nx with
                    | .error e => .error e
                    | .ok nextNode =>
                      match q1.setNode nextNode.logDeq (some nx) with
                      | .error e => .error e
                      | .ok q2 =>
                        -- BARRIER_OPT(&next->logDeq->node)
                        finishRemove entry fuel (q2.casHead first nx).2
                  else finishRemove entry fuel q1
          else finishRemove entry fuel q
        else finishRemove entry fuel q

/-- The `for` loop of `LogQueue::finishPrevOperations` over the thread
indices `is`. -/
def finishPrevLoop (fuel : Nat) (detectableOps : Nat) :
    List Nat → LogQueue → Except Err LogQueue
  | [], q => .ok q
  | i :: is, q =>
    match q.readArray detectableOps (i * PADDING) with
    | .error e => .error e
    | .ok none => finishPrevLoop fuel detectableOps is q
    | .ok (some e) =>
      match q.entry (some e) with
      | .error err => .error err
      | .ok ent =>
        match ent.action with
        | .insert =>
          match finishInsert e fuel q with
          | .error err => .error err
          | .ok q1 => finishPrevLoop fuel detectableOps is q1
        | .remove =>
          match finishRemove e fuel q with
          | .error err => .error err
          | .ok q1 => finishPrevLoop fuel detectableOps is q1
        | .none => finishPrevLoop fuel detectableOps is q

/-- Embeds `LogQueue::finishPrevOperations`. -/
def finishPrevOperations (fuel : Nat) (detectableOps : Nat) (q : LogQueue) :
    Except Err LogQueue :=
  finishPrevLoop fuel detectableOps (List.range MAX_THREADS) q

/-- Embeds `LogQueue::createNewArray`: allocate an array of null pointers and
install it by `CAS(&this->logs, detectableOps, newLogs)`. -/
def createNewArray (detectableOps : Nat) (q : LogQueue) : LogQueue :=
  let newLogs := q.arrays.length
  let q1 := { q with arrays := q.arrays ++ [fun _ => none] }
  if q1.logs = detectableOps then { q1 with logs := newLogs } else q1

/-- Embeds `LogQueue::recover`. -/
def recover (nextName : Nat → Option Nat → Option Nat) (fuel : Nat) (detectableOps : Nat)
    (q : LogQueue) : Except Err LogQueue :=
  match updateHead nextName fuel q.head q with
  | .error e => .error e
  | .ok q1 =>
    match updateTailAndStatus fuel q1.head q1.tail q1 with
    | .error e => .error e
    | .ok q2 =>
      match finishPrevOperations fuel detectableOps q2 with
      | .error e => .error e
      | .ok q3 => .ok (createNewArray detectableOps q3)

end LogQueue

/-! ## Buffered-Relaxed queue (`RelaxedQueue.h`) -/

/-- Value of a 32-bit two's complement `int` after an arithmetic step on
`std::atomic<int>`, which wraps around. -/
def wrapInt32 (x : Int) : Int := (x + 2147483648) % 4294967296 - 2147483648

namespace RelaxedQueue

/-- The fields that class `Invalid` adds to its base class `Node`. -/
structure InvalidPart where
  counter : Int
  tail : Option Nat
  head : Option Nat
  deriving DecidableEq, Repr

/-- An object of class `RelaxedQueue::Node` or of its subclass `Invalid`;
`invalid` is `some _` exactly for objects of dynamic type `Invalid`. -/
structure Node where
  value : Int
  next : Option Nat
  invalid : Option InvalidPart
  deriving DecidableEq, Repr

/-- Embeds `RelaxedQueue::LastNVMData`. -/
structure LastNVMData where
  NVMTail : Option Nat
  NVMHead : Option Nat
  counter : Int
  deriving DecidableEq, Repr

end RelaxedQueue

/-- Embeds the `RelaxedQueue` object: the heap of nodes and markers, the heap
of snapshots, `head`, `tail`, the pointer `data` and the `counter`. -/
structure RelaxedQueue where
  mem : List RelaxedQueue.Node
  snaps : List RelaxedQueue.LastNVMData
  head : Nat
  tail : Nat
  data : Nat
  counter : Int
  deriving DecidableEq, Repr

namespace RelaxedQueue

/-- Embeds the constructor: a dummy node `Node(INT_MAX)`, a first snapshot of
version `-1` that points at the dummy, and `counter = 0`. -/
def new : RelaxedQueue := ⟨[⟨INT_MAX, none, none⟩], [⟨some 0, some 0, -1⟩], 0, 0, 0, 0⟩

/-- Dereference of a node pointer. -/
def load (q : RelaxedQueue) (p : Nat) : Except Err Node :=
  match q.mem[p]? with
  | some n => .ok n
  | none => .error .fault

/-- Dereference of a nullable node pointer. -/
def loadPtr (q : RelaxedQueue) (p : Option Nat) : Except Err Node :=
  match p with
  | none => .error .fault
  | some a => q.load a

/-- Dereference of a pointer to an `Invalid` object. -/
def loadInvalid (q : RelaxedQueue) (p : Nat) : Except Err InvalidPart :=
  match q.mem[p]? with
  | some n =>
    match n.invalid with
    | some i => .ok i
    | none => .error .fault
  | none => .error .fault

/-- Embeds `dynamic_cast<Invalid*>(n) != nullptr` for a non-null `n`. -/
def isInvalid (q : RelaxedQueue) (n : Nat) : Except Err Bool :=
  match q.mem[n]? with
  | some x => .ok x.invalid.isSome
  | none => .error .fault

/-- Embeds `p->next.compare_exchange_strong(expected, desired)` through a
nullable pointer `p`. -/
def casNext (q : RelaxedQueue) (p : Option Nat) (expected desired : Option Nat) :
    Except Err (Bool × RelaxedQueue) :=
  match p with
  | none => .error .fault
  | some a =>
    match q.mem[a]? with
    | some n =>
      if n.next = expected then
        .ok (true, { q with mem := q.mem.set a { n with next := desired } })
      else .ok (false, q)
    | none => .error .fault

/-- Embeds `i->head.compare_exchange_strong(expected, desired)` on a marker. -/
def casInvalidHead (q : RelaxedQueue) (i : Nat) (expected desired : Option Nat) :
    Except Err (Bool × RelaxedQueue) :=
  match q.mem[i]? with
  | some n =>
    match n.invalid with
    | some iv =>
      if iv.head = expected then
        .ok (true, { q with mem := q.mem.set i { n with invalid := some { iv with head := desired } } })
      else .ok (false, q)
    | none => .error .fault
  | none => .error .fault

/-- Embeds a store to the `Invalid` fields of the marker `i`. -/
def setInvalid (q : RelaxedQueue) (i : Nat) (f : InvalidPart → InvalidPart) :
    Except Err RelaxedQueue :=
  match q.mem[i]? with
  | some n =>
    match n.invalid with
    | some iv => .ok { q with mem := q.mem.set i { n with invalid := some (f iv) } }
    | none => .error .fault
  | none => .error .fault

/-- Embeds `tail.compare_exchange_strong(expected, desired)`. -/
def casTail (q : RelaxedQueue) (expected desired : Nat) : Bool × RelaxedQueue :=
  if q.tail = expected then (true, { q with tail := desired }) else (false, q)

/-- Embeds `head.compare_exchange_strong(expected, desired)`. -/
def casHead (q : RelaxedQueue) (expected desired : Nat) : Bool × RelaxedQueue :=
  if q.head = expected then (true, { q with head := desired }) else (false, q)

/-- Embeds `data.compare_exchange_strong(expected, desired)`. -/
def casData (q : RelaxedQueue) (expected desired : Nat) : Bool × RelaxedQueue :=
  if q.data = expected then (true, { q with data := desired }) else (false, q)

/-- The cooperation of a reader with the marker `n` found in a `next` field:
`currI->head.compare_exchange_strong(valid, head)` followed by
`currI->tail.load()->next.compare_exchange_strong(n, nullptr)`. -/
def helpMarker (q : RelaxedQueue) (n : Nat) : Except Err RelaxedQueue :=
  match q.casInvalidHead n none (some q.head) with
  | .error e => .error e
  | .ok (_, q1) =>
    match q1.loadInvalid n with
    | .error e => .error e
    | .ok currI =>
      match q1.casNext currI.tail (some n) none with
      | .error e => .error e
      | .ok (_, q2) => .ok q2

/-- The retry loop of `RelaxedQueue::enq` for the already allocated `node`. -/
def enqLoop (node : Nat) : Nat → RelaxedQueue → Except Err RelaxedQueue
  | 0, _ => .error .fuel
  | fuel + 1, q =>
    let last := q.tail
    match q.load last with
    | .error e => .error e
    | .ok lastNode =>
      let next := lastNode.next
      if last = q.tail then
        match next with
        | none =>
          match q.casNext (some last) next (some node) with
          | .error e => .error e
          | .ok (true, q1) => .ok (q1.casTail last node).2
          | .ok (false, q1) => enqLoop node fuel q1
        | some n =>
          match q.isInvalid n with
          | .error e => .error e
          | .ok true =>
            match q.helpMarker n with
            | .error e => .error e
            | .ok q1 => enqLoop node fuel q1
          | .ok false => enqLoop node fuel (q.casTail last n).2
      else enqLoop node fuel q

/-- Embeds `RelaxedQueue::enq`: allocate `new Node(value)`, then run the loop. -/
def enq (fuel : Nat) (value : Int) (q : RelaxedQueue) : Except Err RelaxedQueue :=
  enqLoop q.mem.length fuel { q with mem := q.mem ++ [⟨value, none, none⟩] }

/-- Embeds `RelaxedQueue::deq`. -/
def deq : Nat → RelaxedQueue → Except Err (Int × RelaxedQueue)
  | 0, _ => .error .fuel
  | fuel + 1, q =>
    let first := q.head
    let last := q.tail
    match q.load first with
    | .error e => .error e
    | .ok firstNode =>
      let next := firstNode.next
      if first = q.head then
        if first = last then
          match next with
          | none => .ok (INT_MIN, q)
          | some n =>
            match q.isInvalid n with
            | .error e => .error e
            | .ok true =>
              match q.helpMarker n with
              | .error e => .error e
              | .ok q1 => .ok (INT_MIN, q1)
            | .ok false => deq fuel (q.casTail last n).2
        else
          match next with
          | none => .error .fault
          | some nx =>
            match q.load nx with
            | .error e => .error e
            | .ok nextNode =>
              let value := nextNode.value
              match q.casHead first nx with
              | (true, q1) => .ok (value, q1)
              | (false, q1) => deq fuel q1
      else deq fuel q

/-- The loop of `RelaxedQueue::blockTheTail`, after `currData` has been loaded
and `currentCounter` fetched. -/
def blockLoop (invalid : Nat) (currData : Nat) (currentCounter : Int) :
    Nat → RelaxedQueue → Except Err (Bool × RelaxedQueue)
  | 0, _ => .error .fuel
  | fuel + 1, q =>
    match q.snaps[currData]? with
    | none => .error .fault
    | some cd =>
      if cd.counter > currentCounter then .ok (false, q)
      else
        match q.setInvalid invalid (fun iv => { iv with counter := currentCounter }) with
        | .error e => .error e
        | .ok q0 =>
          let last := q0.tail
          match q0.load last with
          | .error e => .error e
          | .ok lastNode =>
            let next := lastNode.next
            if last = q0.tail then
              match next with
              | none =>
                match q0.setInvalid invalid (fun iv => { iv with tail := some last }) with
                | .error e => .error e
                | .ok q1 =>
                  match q1.casNext (some last) next (some invalid) with
                  | .error e => .error e
                  | .ok (true, q2) =>
                    match q2.casInvalidHead invalid none (some q2.head) with
                    | .error e => .error e
                    | .ok (_, q3) =>
                      match q3.casNext (some last) (some invalid) none with
                      | .error e => .error e
                      | .ok (_, q4) => .ok (true, q4)
                  | .ok (false, q2) => blockLoop invalid currData currentCounter fuel q2
              | some n =>
                match q0.isInvalid n with
                | .error e => .error e
                | .ok true =>
                  match q0.loadInvalid n with
                  | .error e => .error e
                  | .ok currI =>
                    if currI.counter > currentCounter ∨ currI.head = none then
                      match q0.helpMarker n with
                      | .error e => .error e
                      | .ok q1 =>
                        match q1.loadInvalid n with
                        | .error e => .error e
                        | .ok src =>
                          match q1.setInvalid invalid (fun _ => src) with
                          | .error e => .error e
                          | .ok q2 => .ok (true, q2)
                    else
                      match q0.helpMarker n with
                      | .error e => .error e
                      | .ok q1 => blockLoop invalid currData currentCounter fuel q1
                | .ok false =>
                  blockLoop invalid currData currentCounter fuel (q0.casTail last n).2
            else blockLoop invalid currData currentCounter fuel q0

/-- Embeds `RelaxedQueue::blockTheTail`: load `data`, then
`atomic_fetch_add(&counter, 1)`, then the loop. -/
def blockTheTail (fuel : Nat) (invalid : Nat) (q : RelaxedQueue) :
    Except Err (Bool × RelaxedQueue) :=
  let currData := q.data
  let currentCounter := q.counter
  blockLoop invalid currData currentCounter fuel { q with counter := wrapInt32 (q.counter + 1) }

/-- The loop of `RelaxedQueue::makeDurble`, with `temp` the loop variable; the
result is the list of the addresses passed to `BARRIER(next)`, in order.
Flushing through a null pointer is a fault. -/
def makeDurbleLoop (q : RelaxedQueue) (finish : Option Nat) :
    Nat → Nat → Except Err (List Nat)
  | 0, _ => .error .fuel
  | fuel + 1, temp =>
    if some temp = finish then .ok []
    else
      match q.load temp with
      | .error e => .error e
      | .ok tempNode =>
        match tempNode.next with
        | none => .error .fault
        | some nx =>
          match makeDurbleLoop q finish fuel nx with
          | .error e => .error e
          | .ok flushed => .ok (nx :: flushed)

/-- Embeds `RelaxedQueue::makeDurble(start, end)`; the result is the list of
all addresses passed to `BARRIER`, in order. -/
def makeDurble (fuel : Nat) (start finish : Option Nat) (q : RelaxedQueue) :
    Except Err (List Nat) :=
  match start with
  | none => .error .fault
  | some s =>
    match makeDurbleLoop q finish fuel s with
    | .error e => .error e
    | .ok flushed => .ok (s :: flushed)

/-- The loop of `RelaxedQueue::sync` for the already allocated marker
`invalid`; the first component of the result lists the addresses flushed by
the calls of `makeDurble`. -/
def syncLoop (invalid : Nat) : Nat → RelaxedQueue → Except Err (List Nat × RelaxedQueue)
  | 0, _ => .error .fuel
  | fuel + 1, q =>
    let currData := q.data
    match blockTheTail (fuel + 1) invalid q with
    | .error e => .error e
    | .ok (false, q1) => .ok ([], q1)
    | .ok (true, q1) =>
      match q1.snaps[currData]?, q1.loadInvalid invalid with
      | none, _ => .error .fault
      | _, .error e => .error e
      | some cd, .ok iv =>
        match makeDurble (fuel + 1) cd.NVMTail iv.tail q1 with
        | .error e => .error e
        | .ok flushed =>
          let potential := q1.snaps.length
          let q2 := { q1 with snaps := q1.snaps ++ [LastNVMData.mk iv.tail iv.head iv.counter] }
          -- BARRIER(potential)
          match q2.casData currData potential with
          | (true, q3) =>
            -- BARRIER(data)
            .ok (flushed, q3)
          | (false, q3) =>
            match syncLoop invalid fuel q3 with
            | .error e => .error e
            | .ok (more, q4) => .ok (flushed ++ more, q4)

/-- Embeds `RelaxedQueue::sync`: allocate `new Invalid(0)`, then run the loop. -/
def sync (fuel : Nat) (threadID : Int) (q : RelaxedQueue) :
    Except Err (List Nat × RelaxedQueue) :=
  let _ := threadID
  syncLoop q.mem.length fuel { q with mem := q.mem ++ [⟨0, none, some ⟨0, none, none⟩⟩] }

end RelaxedQueue

/-! ## Abstraction of a heap state by the list of queued values -/

/-- The heap with next-pointer map `nx`, value map `val` and `len` allocated
nodes holds the queue `pend`: the nodes after `head` are `post`, in order, they
carry the values `pend`, no node occurs twice, and `tail` is the last node of
the chain. -/
structure Chain (nx : Nat → Option Nat) (val : Nat → Option Int) (len head tail : Nat)
    (post : List Nat) (pend : List Int) : Prop where
  linked : Linked nx head post
  bound : ∀ a ∈ head :: post, a < len
  nodup : (head :: post).Nodup
  last : chainLast head post = tail
  vals : post.map val = pend.map some

/-- Next pointer stored at an address of the volatile queue's heap. -/
def MSQueue.nxt (q : MSQueue) (a : Nat) : Option Nat := (q.mem[a]?).bind (·.next)

/-- Value stored at an address of the volatile queue's heap. -/
def MSQueue.val (q : MSQueue) (a : Nat) : Option Int := (q.mem[a]?).map (·.value)

/-- The volatile queue `q` holds the values `pend`, in the nodes `post`. -/
def MSQueue.Abs (q : MSQueue) (post : List Nat) (pend : List Int) : Prop :=
  Chain q.nxt q.val q.mem.length q.head q.tail post pend

/-- Next pointer stored at an address of the durable queue's heap. -/
def DurableQueue.nxt (q : DurableQueue) (a : Nat) : Option Nat := (q.mem[a]?).bind (·.next)

/-- Value stored at an address of the durable queue's heap. -/
def DurableQueue.val (q : DurableQueue) (a : Nat) : Option Int := (q.mem[a]?).map (·.value)

/-- The durable queue `q` holds the values `pend`, in the nodes `post`, none of
which has been claimed by a dequeuer. -/
def DurableQueue.Abs (q : DurableQueue) (post : List Nat) (pend : List Int) : Prop :=
  Chain q.nxt q.val q.mem.length q.head q.tail post pend ∧
    ∀ a ∈ post, (q.mem[a]?).map (·.threadID) = some (-1)

/-- A call on a queue, with the thread id and operation number that the
detectable queue takes (the durable queue takes the thread id on `deq`, the
volatile queue neither). -/
inductive Call where
  | enq (v : Int) (threadID : Int) (operationNumber : Int)
  | deq (threadID : Int) (operationNumber : Int)
  deriving DecidableEq, Repr

/-- The same call on the volatile queue. -/
def Call.toMS : Call → MSOp
  | .enq v _ _ => .enq v
  | .deq _ _ => .deq

/-- Thread id of a call. -/
def Call.threadID : Call → Int
  | .enq _ t _ => t
  | .deq t _ => t

/-- Runs a sequence of calls on the durable queue, collecting what the `deq`
calls return. -/
def DurableQueue.run (fuel : Nat) :
    List Call → DurableQueue → Except Err (List Int × DurableQueue)
  | [], q => .ok ([], q)
  | .enq v _ _ :: ops, q =>
    match q.enq fuel v with
    | .error e => .error e
    | .ok q1 => DurableQueue.run fuel ops q1
  | .deq t _ :: ops, q =>
    match q.deq fuel t with
    | .error e => .error e
    | .ok (r, q1) =>
      match DurableQueue.run fuel ops q1 with
      | .error e => .error e
      | .ok (rs, q2) => .ok (r :: rs, q2)

/-- Next pointer stored at an address of the detectable queue's heap. -/
def LogQueue.nxt (q : LogQueue) (a : Nat) : Option Nat := (q.mem[a]?).bind (·.next)

/-- Value stored at an address of the detectable queue's heap. -/
def LogQueue.val (q : LogQueue) (a : Nat) : Option Int := (q.mem[a]?).map (·.value)

/-- The detectable queue `q` holds the values `pend`, in the nodes `post`, none
of which has been claimed by a dequeuer, and its `logs` pointer is valid. -/
def LogQueue.Abs (q : LogQueue) (post : List Nat) (pend : List Int) : Prop :=
  Chain q.nxt q.val q.mem.length q.head q.tail post pend ∧
    (∀ a ∈ post, (q.mem[a]?).map (·.logDeq) = some none) ∧
    q.logs < q.arrays.length

/-- Runs a sequence of calls on the detectable queue, collecting what the
`deq` calls return. -/
def LogQueue.run (fuel : Nat) : List Call → LogQueue → Except Err (List Int × LogQueue)
  | [], q => .ok ([], q)
  | .enq v t n :: ops, q =>
    match q.enq fuel v t n with
    | .error e => .error e
    | .ok q1 => LogQueue.run fuel ops q1
  | .deq t n :: ops, q =>
    match q.deq fuel t n with
    | .error e => .error e
    | .ok (r, q1) =>
      match LogQueue.run fuel ops q1 with
      | .error e => .error e
      | .ok (rs, q2) => .ok (r :: rs, q2)

/-- A call on the Buffered-Relaxed queue. -/
inductive ROp where
  | enq (v : Int)
  | deq
  | sync (threadID : Int)
  deriving DecidableEq, Repr

/-- The same call on the volatile queue; `sync` has no counterpart. -/
def ROp.toMS : ROp → Option MSOp
  | .enq v => some (.enq v)
  | .deq => some .deq
  | .sync _ => none

/-- Number of `sync` calls in a sequence of calls. -/
def syncCount : List ROp → Nat
  | [] => 0
  | .sync _ :: ops => syncCount ops + 1
  | _ :: ops => syncCount ops

/-- Runs a sequence of calls on the Buffered-Relaxed queue, collecting what the
`deq` calls return. -/
def RelaxedQueue.run (fuel : Nat) :
    List ROp → RelaxedQueue → Except Err (List Int × RelaxedQueue)
  | [], q => .ok ([], q)
  | .enq v :: ops, q =>
    match q.enq fuel v with
    | .error e => .error e
    | .ok q1 => RelaxedQueue.run fuel ops q1
  | .deq :: ops, q =>
    match q.deq fuel with
    | .error e => .error e
    | .ok (r, q1) =>
      match RelaxedQueue.run fuel ops q1 with
      | .error e => .error e
      | .ok (rs, q2) => .ok (r :: rs, q2)
  | .sync t :: ops, q =>
    match q.sync fuel t with
    | .error e => .error e
    | .ok (_, q1) => RelaxedQueue.run fuel ops q1

/-- Next pointer stored at an address of the Buffered-Relaxed queue's heap. -/
def RelaxedQueue.nxt (q : RelaxedQueue) (a : Nat) : Option Nat := (q.mem[a]?).bind (·.next)

/-- Value stored at an address of the Buffered-Relaxed queue's heap. -/
def RelaxedQueue.val (q : RelaxedQueue) (a : Nat) : Option Int := (q.mem[a]?).map (·.value)

/-- The Buffered-Relaxed queue `q` holds the values `pend`, in the nodes `post`,
and the tail `s` of its current snapshot reaches the queue's tail through the
nodes `l`. -/
structure RelaxedQueue.Abs (q : RelaxedQueue) (post : List Nat) (pend : List Int)
    (s : Nat) (l : List Nat) : Prop where
  chain : Chain q.nxt q.val q.mem.length q.head q.tail post pend
  snap : ∃ cd, q.snaps[q.data]? = some cd ∧ cd.NVMTail = some s
  path : Linked q.nxt s l
  pathBound : ∀ a ∈ s :: l, a < q.mem.length
  pathLast : chainLast s l = q.tail

/-- The queue `q` has gone through `n` calls of `sync`, none of which met a
wrapped counter: the current snapshot has version `n - 1` and `counter` is `n`
as a 32-bit `int`. -/
def RelaxedQueue.Count (q : RelaxedQueue) (n : Nat) : Prop :=
  (∃ cd, q.snaps[q.data]? = some cd ∧ cd.counter = (n : Int) - 1) ∧
    q.counter = wrapInt32 n

/-- State of the detectable queue after thread 2 has run `enq(1)`, `deq`, `enq(2)`
and a recovery was interrupted after `updateHead` and `updateTailAndStatus`:
`head` is the node holding 1, its successor holds 2, and the insert entries of
both nodes have `status = true`. -/
def LogQueue.completedInsert : LogQueue :=
  { mem := [⟨INT_MAX, some 1, none, none⟩, ⟨1, some 2, some 0, some 1⟩, ⟨2, none, some 2, none⟩],
    entries := [⟨0, .insert, true, some 1⟩, ⟨1, .remove, false, some 1⟩,
                ⟨2, .insert, true, some 2⟩],
    arrays := [Function.update (Function.update (Function.update (fun _ => none)
                1024 (some 0)) 1024 (some 1)) 1024 (some 2)],
    logs := 0, head := 1, tail := 2 }

/-! ## Detectable queue: status of the insert entries -/

/-- Status of the `logEnq` entry of the node at address `a`; `none` when there
is no such node or the node has no `logEnq` entry. -/
def LogQueue.enqStatus (q : LogQueue) (a : Nat) : Option Bool :=
  (q.mem[a]?).bind fun n => n.logEnq.bind fun e => (q.entries[e]?).map (·.status)

/-- State of the detectable queue after the complete calls `calls` on a fresh
queue, each with one round of its retry loop (the fresh queue if a call does
not return). -/
def LogQueue.afterCalls (calls : List Call) : LogQueue :=
  match LogQueue.run 1 calls LogQueue.new with
  | .ok (_, q) => q
  | .error _ => LogQueue.new

/-- State in which, after the complete calls `calls`, a thread has started
`deq(threadID, operationNumber)` and stopped right after its successful
compare-and-swap on `next->logDeq`: the successor of `head` is claimed by the
thread's entry, the entry's `node` is still null and `head` has not moved. -/
def LogQueue.claimedFirst (calls : List Call) (threadID operationNumber : Int) : LogQueue :=
  let q := LogQueue.afterCalls calls
  match q.createDeqLog threadID operationNumber, q.nxt q.head with
  | .ok (log, q1), some nx =>
    match q1.casLogDeq nx none (some log) with
    | .ok (_, q2) => q2
    | .error _ => q
  | _, _ => q

/-! ## Durable queue: the prologue and the program points of a dequeue -/

/-- The statements of `DurableQueue::deq` before its retry loop: allocate the
cell `new T(INT_MAX)` and publish it in `removedValues[threadID * PADDING]`
(each followed by a `BARRIER`). -/
def DurableQueue.deqPrologue (threadID : Int) (q : DurableQueue) : Except Err DurableQueue :=
  let newRemovedValue := q.cells.length
  match slot threadID with
  | .error e => .error e
  | .ok i =>
    .ok { q with cells := q.cells ++ [INT_MAX],
                 removedValues := Function.update q.removedValues i (some newRemovedValue) }

/-- The states at the program points of `DurableQueue::deq` that follow a
successful `next->threadID.compare_exchange_strong(valid, threadID)`, from the
state `q1` right after it: after the CAS, after `BARRIER(&next->threadID)`, after
`*removedValues[threadID * PADDING] = value`, after `BARRIER_OPT` of the cell, and
after `head.compare_exchange_strong(first, next)`, where the call returns. -/
def DurableQueue.claimedPoints (threadID : Int) (first nx : Nat) (value : Int)
    (q1 : DurableQueue) : Except Err (List DurableQueue) :=
  match q1.storeRemoved threadID value with
  | .error e => .error e
  | .ok q2 => .ok [q1, q1, q2, q2, (q2.casHead first nx).2]

/-- The retry loop of `DurableQueue::deq`, returning with the result the states
at the program points between the successful CAS on `next->threadID` and the
return (none when the call returns `INT_MIN` for an empty queue). -/
def DurableQueue.deqLoopPoints (threadID : Int) :
    Nat → DurableQueue → Except Err (Int × List DurableQueue)
  | 0, _ => .error .fuel
  | fuel + 1, q =>
    let first := q.head
    let last := q.tail
    match q.load first with
    | .error e => .error e
    | .ok firstNode =>
      let next := firstNode.next
      if first = q.head then
        if first = last then
          match next with
          | none =>
            match q.storeRemoved threadID INT_MIN with
            | .error e => .error e
            | .ok _ => .ok (INT_MIN, [])
          | some nx => deqLoopPoints threadID fuel (q.casTail last nx).2
        else
          match next with
          | none => .error .fault
          | some nx =>
            match q.load nx with
            | .error e => .error e
            | .ok nextNode =>
              let value := nextNode.value
              let valid : Int := -1
              match q.casThreadID nx valid threadID with
              | .error e => .error e
              | .ok (true, q1) =>
                match DurableQueue.claimedPoints threadID first nx value q1 with
                | .error e => .error e
                | .ok points => .ok (value, points)
              | .ok (false, q1) =>
                match q1.load nx with
                | .error e => .error e
                | .ok winner =>
                  match q1.removedPtr winner.threadID with
                  | .error e => .error e
                  | .ok address =>
                    if q1.head = first then
                      match q1.storeAt address value with
                      | .error e => .error e
                      | .ok q2 => deqLoopPoints threadID fuel (q2.casHead first nx).2
                    else deqLoopPoints threadID fuel q1
      else deqLoopPoints threadID fuel q

/-- The call `deq(threadID)` with the program points after its successful CAS:
`deqPrologue`, then `deqLoopPoints`. -/
def DurableQueue.deqPoints (fuel : Nat) (threadID : Int) (q : DurableQueue) :
    Except Err (Int × List DurableQueue) :=
  match q.deqPrologue threadID with
  | .error e => .error e
  | .ok q0 => DurableQueue.deqLoopPoints threadID fuel q0

/-- Content of the cell that `removedValues[threadID * PADDING]` points to. -/
def DurableQueue.removedCell (q : DurableQueue) (threadID : Int) : Option Int :=
  match q.removedPtr threadID with
  | .ok (some c) => q.cells[c]?
  | _ => none

/-- The `threadID` field stored at an address of the durable queue's heap. -/
def DurableQueue.tid (q : DurableQueue) (a : Nat) : Option Int :=
  (q.mem[a]?).map (·.threadID)

/-- What a sequence of calls issued by threads may do to the `threadID` stored at
an address: leave it as it is, or take an absent or unclaimed (`-1`) node to an
unclaimed node or to a node that carries the thread id of one of the `deq`
calls. -/
def DurableQueue.TidStep (calls : List Call) (q q' : DurableQueue) : Prop :=
  ∀ a, q'.tid a = q.tid a ∨
    ((q.tid a = none ∨ q.tid a = some (-1)) ∧
      (q'.tid a = some (-1) ∨ ∃ t op, Call.deq t op ∈ calls ∧ q'.tid a = some t))

/-! ## Durable queue: a dequeue stopped after its claim -/

/-- State of the durable queue after the complete calls `calls` on a fresh
queue, each with one round of its retry loop (the fresh queue if a call does
not return). -/
def DurableQueue.afterCalls (calls : List Call) : DurableQueue :=
  match DurableQueue.run 1 calls DurableQueue.new with
  | .ok (_, q) => q
  | .error _ => DurableQueue.new

/-- State in which, after the complete calls `calls`, thread `threadID` has
started `deq` and stopped right after its successful compare-and-swap on
`next->threadID`: the successor of `head` carries the thread id, the thread's
cell still holds `INT_MAX` and `head` has not moved. -/
def DurableQueue.claimedFirst (calls : List Call) (threadID : Int) : DurableQueue :=
  let q := DurableQueue.afterCalls calls
  match q.deqPrologue threadID, q.nxt q.head with
  | .ok q1, some nx =>
    match q1.casThreadID nx (-1) threadID with
    | .ok (_, q2) => q2
    | .error _ => q
  | _, _ => q

/-! ## Reachability along next pointers -/

/-- Following `nx` from `a` visits the addresses of `l`, in order (the chain may
continue after them). -/
def Seg (nx : Nat → Option Nat) : Nat → List Nat → Prop
  | _, [] => True
  | a, b :: l => nx a = some b ∧ Seg nx b l

/-- Address `b` is reachable from `a` by following next pointers (in zero or more
steps). -/
def Reachable (nx : Nat → Option Nat) (a b : Nat) : Prop :=
  ∃ l, Seg nx a l ∧ chainLast a l = b

/-! ## Persistent image of the nodes of the Buffered-Relaxed queue

`BARRIER(node)` is an atomic checkpoint of the node: the image keeps, for each
address, the content that the node had at its last `BARRIER`. -/

/-- Content of each node at its last `BARRIER`; `none` for an address that was
never flushed. -/
abbrev RelaxedQueue.Image := Nat → Option RelaxedQueue.Node

/-- `BARRIER` on each address of `flushed`, in the heap of `q`. -/
def RelaxedQueue.checkpoint (q : RelaxedQueue) (flushed : List Nat)
    (img : RelaxedQueue.Image) : RelaxedQueue.Image :=
  fun a => if a ∈ flushed then q.mem[a]? else img a

/-- Image after the constructor: `BARRIER(dummy)`. -/
def RelaxedQueue.newImage : RelaxedQueue.Image :=
  RelaxedQueue.new.checkpoint [0] (fun _ => none)

/-- The loop of `RelaxedQueue::sync` (as `syncLoop`), with the image of the
nodes: the addresses that `makeDurble` passes to `BARRIER` are checkpointed in
the heap that `makeDurble` runs in. -/
def RelaxedQueue.syncLoopP (invalid : Nat) :
    Nat → RelaxedQueue → RelaxedQueue.Image → Except Err (RelaxedQueue × RelaxedQueue.Image)
  | 0, _, _ => .error .fuel
  | fuel + 1, q, img =>
    let currData := q.data
    match RelaxedQueue.blockTheTail (fuel + 1) invalid q with
    | .error e => .error e
    | .ok (false, q1) => .ok (q1, img)
    | .ok (true, q1) =>
      match q1.snaps[currData]?, q1.loadInvalid invalid with
      | none, _ => .error .fault
      | _, .error e => .error e
      | some cd, .ok iv =>
        match RelaxedQueue.makeDurble (fuel + 1) cd.NVMTail iv.tail q1 with
        | .error e => .error e
        | .ok flushed =>
          let img1 := q1.checkpoint flushed img
          let potential := q1.snaps.length
          let q2 := { q1 with snaps := q1.snaps ++
            [RelaxedQueue.LastNVMData.mk iv.tail iv.head iv.counter] }
          match q2.casData currData potential with
          | (true, q3) => .ok (q3, img1)
          | (false, q3) => RelaxedQueue.syncLoopP invalid fuel q3 img1

/-- Embeds `RelaxedQueue::sync` with the image of the nodes. -/
def RelaxedQueue.syncP (fuel : Nat) (threadID : Int) (q : RelaxedQueue)
    (img : RelaxedQueue.Image) : Except Err (RelaxedQueue × RelaxedQueue.Image) :=
  let _ := threadID
  RelaxedQueue.syncLoopP q.mem.length fuel
    { q with mem := q.mem ++ [⟨0, none, some ⟨0, none, none⟩⟩] } img

/-- Runs a sequence of calls with the image of the nodes; `enq` and `deq` of the
Buffered-Relaxed queue execute no `BARRIER`. -/
def RelaxedQueue.runP (fuel : Nat) :
    List ROp → RelaxedQueue → RelaxedQueue.Image →
      Except Err (List Int × RelaxedQueue × RelaxedQueue.Image)
  | [], q, img => .ok ([], q, img)
  | .enq v :: ops, q, img =>
    match q.enq fuel v with
    | .error e => .error e
    | .ok q1 => RelaxedQueue.runP fuel ops q1 img
  | .deq :: ops, q, img =>
    match q.deq fuel with
    | .error e => .error e
    | .ok (r, q1) =>
      match RelaxedQueue.runP fuel ops q1 img with
      | .error e => .error e
      | .ok (rs, q2, img2) => .ok (r :: rs, q2, img2)
  | .sync t :: ops, q, img =>
    match q.syncP fuel t img with
    | .error e => .error e
    | .ok (q1, img1) => RelaxedQueue.runP fuel ops q1 img1

/-- No `next` field of the heap holds the address of an `Invalid` object (and
every `next` field that is not null holds the address of a node). -/
def RelaxedQueue.NoMarker (q : RelaxedQueue) : Prop :=
  ∀ a b, q.nxt a = some b → q.isInvalid b = .ok false

/-- The image `img` is up to date on the node `a`: it holds the value of `a`
and, when `withNext`, the `next` pointer of `a`. -/
def RelaxedQueue.UpToDate (q : RelaxedQueue) (img : RelaxedQueue.Image) (a : Nat)
    (withNext : Prop) : Prop :=
  (img a).map (·.value) = q.val a ∧ (withNext → (img a).bind (·.next) = q.nxt a)

/-- Invariant of the single-threaded runs with image: the queue holds `pend` in
the nodes `post`, the tail `s` of the snapshot reaches the tail through `l`, no
`next` field holds a marker, `head` is a node, and the image is up to date on
every node that is not in `l`, except for the `next` pointer of `s`. -/
structure RelaxedQueue.Durable (q : RelaxedQueue) (img : RelaxedQueue.Image)
    (post : List Nat) (pend : List Int) (s : Nat) (l : List Nat) : Prop where
  abs : q.Abs post pend s l
  noMarker : q.NoMarker
  headNode : q.isInvalid q.head = .ok false
  image : ∀ a, q.isInvalid a = .ok false → a ∉ l → q.UpToDate img a (a ≠ s)

/-! ## Interleaved executions of `sync`

A thread that executes `RelaxedQueue::sync` is embedded as a program counter with
the local variables of `sync`, `blockTheTail` and `makeDurble`; one step executes
one statement of the source on the shared queue.  A statement that reads `head`
for the new value of a compare-and-swap, or that reads several fields of a
marker, is one step.  A schedule is the list of the indices of the threads that
step, in order. -/

/-- Program points of `sync` (with `blockTheTail` and `makeDurble` inlined); each
names the statement that the next step executes. -/
inductive SyncPc where
  /-- Executes `Invalid* invalid = new Invalid(currentCounter)`. -/
  | allocMarker
  /-- Executes `LastNVMData* currData = data.load()` of `sync`. -/
  | loadData
  /-- Executes `LastNVMData* currData = data.load()` of `blockTheTail`. -/
  | blockLoadData
  /-- Executes `int currentCounter = atomic_fetch_add(&counter, 1)`. -/
  | fetchAdd
  /-- Executes `if (currData->counter > currentCounter) return false`. -/
  | check
  /-- Executes `invalid->counter = currentCounter`. -/
  | setCounter
  /-- Executes `Node* last = tail.load()`. -/
  | loadTail
  /-- Executes `Node* next = last->next.load()`. -/
  | loadNext
  /-- Executes `if (last == tail.load())` and the tests of `next`. -/
  | recheck
  /-- Executes `invalid->tail = last`. -/
  | setTail
  /-- Executes `last->next.compare_exchange_strong(next, invalid)`. -/
  | block
  /-- Executes `invalid->head.compare_exchange_strong(valid, head)`. -/
  | ownHead
  /-- Executes `last->next.compare_exchange_strong(invalidNode, nullptr)`. -/
  | unblock
  /-- Executes `if (currI->counter > currentCounter || currI->head == nullptr)`. -/
  | inspect
  /-- Executes `currI->head.compare_exchange_strong(valid, head)`; `ride` tells
  whether the test of `inspect` held. -/
  | helpHead (ride : Bool)
  /-- Executes `currI->tail.load()->next.compare_exchange_strong(n, nullptr)`. -/
  | helpUnblock (ride : Bool)
  /-- Executes `*invalid = *currI; return true`. -/
  | copy
  /-- Executes `tail.compare_exchange_strong(last, next)`. -/
  | helpTail
  /-- Enters `makeDurble(currData->NVMTail.load(), invalid->tail.load())`:
  `temp = start; BARRIER(temp)`. -/
  | durableStart
  /-- Executes one round of the loop of `makeDurble`. -/
  | durableLoop
  /-- Executes the allocation and initialisation of `potential`. -/
  | allocSnapshot
  /-- Executes `data.compare_exchange_strong(currData, potential)`. -/
  | install
  /-- The call has returned. -/
  | done
  deriving DecidableEq, Repr

/-- A thread inside `sync`: program point and local variables. -/
structure SyncThread where
  pc : SyncPc
  invalid : Nat
  currData : Nat
  blockData : Nat
  currentCounter : Int
  last : Nat
  next : Option Nat
  temp : Nat
  finish : Option Nat
  potential : Nat
  deriving DecidableEq, Repr

namespace SyncThread

/-- A thread about to call `sync`. -/
def init : SyncThread := ⟨.allocMarker, 0, 0, 0, 0, 0, none, 0, none, 0⟩

/-- One step of a thread on the shared queue `q`. -/
def step (q : RelaxedQueue) (th : SyncThread) : Except Err (RelaxedQueue × SyncThread) :=
  match th.pc with
  | .allocMarker =>
    .ok ({ q with mem := q.mem ++ [⟨0, none, some ⟨0, none, none⟩⟩] },
         { th with invalid := q.mem.length, pc := .loadData })
  | .loadData => .ok (q, { th with currData := q.data, pc := .blockLoadData })
  | .blockLoadData => .ok (q, { th with blockData := q.data, pc := .fetchAdd })
  | .fetchAdd =>
    .ok ({ q with counter := wrapInt32 (q.counter + 1) },
         { th with currentCounter := q.counter, pc := .check })
  | .check =>
    match q.snaps[th.blockData]? with
    | none => .error .fault
    | some cd =>
      if cd.counter > th.currentCounter then .ok (q, { th with pc := .done })
      else .ok (q, { th with pc := .setCounter })
  | .setCounter =>
    match q.setInvalid th.invalid (fun iv => { iv with counter := th.currentCounter }) with
    | .error e => .error e
    | .ok q1 => .ok (q1, { th with pc := .loadTail })
  | .loadTail => .ok (q, { th with last := q.tail, pc := .loadNext })
  | .loadNext =>
    match q.load th.last with
    | .error e => .error e
    | .ok lastNode => .ok (q, { th with next := lastNode.next, pc := .recheck })
  | .recheck =>
    if th.last = q.tail then
      match th.next with
      | none => .ok (q, { th with pc := .setTail })
      | some n =>
        match q.isInvalid n with
        | .error e => .error e
        | .ok true => .ok (q, { th with pc := .inspect })
        | .ok false => .ok (q, { th with pc := .helpTail })
    else .ok (q, { th with pc := .check })
  | .setTail =>
    match q.setInvalid th.invalid (fun iv => { iv with tail := some th.last }) with
    | .error e => .error e
    | .ok q1 => .ok (q1, { th with pc := .block })
  | .block =>
    match q.casNext (some th.last) th.next (some th.invalid) with
    | .error e => .error e
    | .ok (true, q1) => .ok (q1, { th with pc := .ownHead })
    | .ok (false, q1) => .ok (q1, { th with pc := .check })
  | .ownHead =>
    match q.casInvalidHead th.invalid none (some q.head) with
    | .error e => .error e
    | .ok (_, q1) => .ok (q1, { th with pc := .unblock })
  | .unblock =>
    match q.casNext (some th.last) (some th.invalid) none with
    | .error e => .error e
    | .ok (_, q1) => .ok (q1, { th with pc := .durableStart })
  | .inspect =>
    match th.next with
    | none => .error .fault
    | some n =>
      match q.loadInvalid n with
      | .error e => .error e
      | .ok currI =>
        if currI.counter > th.currentCounter ∨ currI.head = none then
          .ok (q, { th with pc := .helpHead true })
        else .ok (q, { th with pc := .helpHead false })
  | .helpHead ride =>
    match th.next with
    | none => .error .fault
    | some n =>
      match q.casInvalidHead n none (some q.head) with
      | .error e => .error e
      | .ok (_, q1) => .ok (q1, { th with pc := .helpUnblock ride })
  | .helpUnblock ride =>
    match th.next with
    | none => .error .fault
    | some n =>
      match q.loadInvalid n with
      | .error e => .error e
      | .ok currI =>
        match q.casNext currI.tail (some n) none with
        | .error e => .error e
        | .ok (_, q1) => .ok (q1, { th with pc := if ride then .copy else .check })
  | .copy =>
    match th.next with
    | none => .error .fault
    | some n =>
      match q.loadInvalid n with
      | .error e => .error e
      | .ok src =>
        match q.setInvalid th.invalid (fun _ => src) with
        | .error e => .error e
        | .ok q1 => .ok (q1, { th with pc := .durableStart })
  | .helpTail =>
    match th.next with
    | none => .error .fault
    | some n => .ok ((q.casTail th.last n).2, { th with pc := .check })
  | .durableStart =>
    match q.snaps[th.currData]?, q.loadInvalid th.invalid with
    | none, _ => .error .fault
    | _, .error e => .error e
    | some cd, .ok iv =>
      match cd.NVMTail with
      | none => .error .fault
      | some start => .ok (q, { th with temp := start, finish := iv.tail, pc := .durableLoop })
  | .durableLoop =>
    if some th.temp = th.finish then .ok (q, { th with pc := .allocSnapshot })
    else
      match q.load th.temp with
      | .error e => .error e
      | .ok tempNode =>
        match tempNode.next with
        | none => .error .fault
        | some nx => .ok (q, { th with temp := nx })
  | .allocSnapshot =>
    match q.loadInvalid th.invalid with
    | .error e => .error e
    | .ok iv =>
      .ok ({ q with snaps := q.snaps ++ [RelaxedQueue.LastNVMData.mk iv.tail iv.head iv.counter] },
           { th with potential := q.snaps.length, pc := .install })
  | .install =>
    match q.casData th.currData th.potential with
    | (true, q1) => .ok (q1, { th with pc := .done })
    | (false, q1) => .ok (q1, { th with pc := .loadData })
  | .done => .ok (q, th)

end SyncThread

/-- The shared queue and the threads that execute `sync` on it. -/
structure SyncSystem where
  queue : RelaxedQueue
  threads : List SyncThread
  deriving DecidableEq, Repr

namespace SyncSystem

/-- Thread `i` takes one step. -/
def step (s : SyncSystem) (i : Nat) : Except Err SyncSystem :=
  match s.threads[i]? with
  | none => .error .fault
  | some th =>
    match th.step s.queue with
    | .error e => .error e
    | .ok (q1, th1) => .ok { queue := q1, threads := s.threads.set i th1 }

/-- Runs a schedule. -/
def run : List Nat → SyncSystem → Except Err SyncSystem
  | [], s => .ok s
  | i :: schedule, s =>
    match s.step i with
    | .error e => .error e
    | .ok s1 => run schedule s1

/-- Program point of thread `i`. -/
def pcOf (s : SyncSystem) (i : Nat) : Option SyncPc := (s.threads[i]?).map (·.pc)

/-- Version of the snapshot that `data` points at. -/
def version (s : SyncSystem) : Option Int := (s.queue.snaps[s.queue.data]?).map (·.counter)

end SyncSystem


/-- State of the Buffered-Relaxed queue in which, after the complete calls
`ops` on a fresh queue, a thread has started `sync` and stopped right after the
compare-and-swap that links its marker into `tail->next` (eleven steps of the
thread): the marker's `tail` is set and its `head` is still null. -/
def RelaxedQueue.blocked (ops : List ROp) : RelaxedQueue :=
  match RelaxedQueue.run (ops.length + 1) ops RelaxedQueue.new with
  | .ok (_, q) =>
    match SyncSystem.run (List.replicate 11 0) ⟨q, [SyncThread.init]⟩ with
    | .ok s => s.queue
    | .error _ => q
  | .error _ => RelaxedQueue.new


/-! ## Histories and linearizability

A concurrent execution is observed through its history: the sequence of the
invocations and responses of the calls.  A history is linearizable (with
respect to the sequential FIFO queue) when the atomic queue can produce it: an
object on which every call takes effect at one instant between its invocation
and its response, by applying the call to a sequential queue. -/

/-- An invocation of `op` by thread `t`, or the response `r` to the call of
thread `t` (`none` for `enq`, which returns nothing; the returned value for
`deq`). -/
inductive Event where
  | inv (t : Nat) (op : MSOp)
  | ret (t : Nat) (r : Option Int)
  deriving DecidableEq, Repr

/-- Effect of a call on the sequential FIFO queue: the new content and the
response; `deq` on the empty queue returns `INT_MIN`. -/
def applyOp : MSOp → List Int → List Int × Option Int
  | .enq v, q => (q ++ [v], none)
  | .deq, [] => ([], some INT_MIN)
  | .deq, x :: q => (q, some x)

/-- State of a thread towards the atomic queue: no call, a call that has not
taken effect yet, or a call that has taken effect with response `r`. -/
inductive LinStatus where
  | idle
  | pending (op : MSOp)
  | done (r : Option Int)
  deriving DecidableEq, Repr

/-- Configuration of the atomic queue. -/
structure LinConfig where
  content : List Int
  status : Nat → LinStatus

/-- The atomic queue produces the history `h` and ends in configuration `c`. -/
inductive Atomic : List Event → LinConfig → Prop where
  | init : Atomic [] ⟨[], fun _ => .idle⟩
  | inv {h : List Event} {c : LinConfig} (t : Nat) (op : MSOp) :
      Atomic h c → c.status t = .idle →
      Atomic (h ++ [.inv t op]) ⟨c.content, Function.update c.status t (.pending op)⟩
  | lin {h : List Event} {c : LinConfig} (t : Nat) (op : MSOp) :
      Atomic h c → c.status t = .pending op →
      Atomic h ⟨(applyOp op c.content).1,
        Function.update c.status t (.done (applyOp op c.content).2)⟩
  | ret {h : List Event} {c : LinConfig} (t : Nat) (r : Option Int) :
      Atomic h c → c.status t = .done r →
      Atomic (h ++ [.ret t r]) ⟨c.content, Function.update c.status t .idle⟩

/-- The history `h` is linearizable with respect to the sequential FIFO queue. -/
def Linearizable (h : List Event) : Prop := ∃ c, Atomic h c

/-- The values of the invocations of `enq` in a history, in their order. -/
def enqueued : List Event → List Int
  | [] => []
  | .inv _ (.enq v) :: h => v :: enqueued h
  | _ :: h => enqueued h

/-- The values that the `deq` calls of a history have returned, in their order. -/
def returned : List Event → List Int
  | [] => []
  | .ret _ (some r) :: h => r :: returned h
  | _ :: h => returned h

/-- No duplication: every value other than `INT_MIN` (which `deq` returns for the
empty queue) has been returned at most as often as it has been passed to `enq`:
the multiset of the values returned by `deq` calls that found the queue non-empty
is a subset, with multiplicity, of the multiset of the values enqueued. -/
def NoDuplication (h : List Event) : Prop :=
  ∀ v : Int, v ≠ INT_MIN → (returned h).count v ≤ (enqueued h).count v

/-! ## The common scheme of `enq` and `deq`

The four variants follow one scheme, which is embedded here once, statement by
statement, as a step relation on the shared list and the local variables of the
threads; the step models of the variants below are mapped onto it.  A variant
either takes a node by the compare-and-swap on `head` (`claim = false`:
`MSQueue`, `RelaxedQueue`) or by a compare-and-swap on a field of the node
(`claim = true`: `threadID` in `DurableQueue`, `logDeq` in `LogQueue`) before
`head` moves, and reads the value to return before (`late = false`) or after
(`late = true`: `LogQueue`) it takes the node. -/

/-- A node of the scheme: value, `next`, and whether a dequeuer has claimed it. -/
structure GNode where
  value : Int
  next : Option Nat
  claimed : Bool
  deriving DecidableEq, Repr

/-- Program points of the scheme; each names the statement that the next step
executes. -/
inductive GPc where
  | idle
  /-- Executes `node = new Node(value)`. -/
  | eAlloc
  /-- Executes `last = tail.load()`. -/
  | eReadTail
  /-- Executes `next = last->next.load()`. -/
  | eReadNext
  /-- Executes `if (last == tail.load())` and the test `next == nullptr`. -/
  | eCheck
  /-- Executes `last->next.compare_exchange_strong(next, node)`. -/
  | eLink
  /-- Executes `tail.compare_exchange_strong(last, node)`. -/
  | eSwing
  /-- Executes `tail.compare_exchange_strong(last, next)`. -/
  | eHelp
  /-- Executes `return` of `enq`. -/
  | eRet
  /-- Executes `first = head.load()`. -/
  | dReadHead
  /-- Executes `last = tail.load()`. -/
  | dReadTail
  /-- Executes `next = first->next.load()`. -/
  | dReadNext
  /-- Executes `if (first == head.load())` and the tests `first == last`,
  `next == nullptr`. -/
  | dCheck
  /-- Executes `tail.compare_exchange_strong(last, next)`. -/
  | dHelpTail
  /-- Executes `value = next->value`. -/
  | dReadValue
  /-- Executes the compare-and-swap that takes the node: on `head`, or on the
  claim field of `next`. -/
  | dTake
  /-- Executes `head.compare_exchange_strong(first, next)` of the claiming thread. -/
  | dOwnHead
  /-- Executes `if (head.load() == first)` of a thread whose claim failed. -/
  | dHelpCheck
  /-- Executes `head.compare_exchange_strong(first, next)` of a helping thread. -/
  | dHelpHead
  /-- Executes `return INT_MIN`. -/
  | dRetEmpty
  /-- Executes `return value`. -/
  | dRetVal
  deriving DecidableEq, Repr

/-- Local variables of a thread of the scheme. -/
structure GThread where
  pc : GPc
  arg : Int
  node : Nat
  first : Nat
  last : Nat
  next : Option Nat
  value : Int
  deriving DecidableEq, Repr

/-- State of the scheme: the heap of nodes, `head`, `tail`, the threads and the
history. -/
structure GState where
  mem : List GNode
  head : Nat
  tail : Nat
  thr : Nat → GThread
  hist : List Event

/-- What a thread does next: start a call, or execute its next statement. -/
inductive GAction where
  | call (op : MSOp)
  | step
  deriving DecidableEq, Repr

namespace GState

/-- Initial state: the dummy node, all threads idle. -/
def init : GState :=
  ⟨[⟨INT_MAX, none, false⟩], 0, 0, fun _ => ⟨.idle, 0, 0, 0, 0, none, 0⟩, []⟩

/-- Value stored at an address (0 for an address that is not allocated). -/
def valAt (mem : List GNode) (a : Nat) : Int := ((mem[a]?).map (·.value)).getD 0

/-- Thread `t` continues as `th`. -/
def setThr (σ : GState) (t : Nat) (th : GThread) : GState :=
  { σ with thr := Function.update σ.thr t th }

/-- One action of thread `t`; `none` when the action is not enabled or the
statement dereferences a pointer that is null or dangling. -/
def step (claim late : Bool) (σ : GState) (t : Nat) : GAction → Option GState
  | .call op =>
    let th := σ.thr t
    if th.pc = .idle then
      match op with
      | .enq v =>
        some { σ.setThr t { th with pc := .eAlloc, arg := v } with
               hist := σ.hist ++ [.inv t (.enq v)] }
      | .deq =>
        some { σ.setThr t { th with pc := .dReadHead } with hist := σ.hist ++ [.inv t .deq] }
    else none
  | .step =>
    let th := σ.thr t
    match th.pc with
    | .idle => none
    | .eAlloc =>
      some { σ.setThr t { th with pc := .eReadTail, node := σ.mem.length } with
             mem := σ.mem ++ [⟨th.arg, none, false⟩] }
    | .eReadTail => some (σ.setThr t { th with pc := .eReadNext, last := σ.tail })
    | .eReadNext =>
      match σ.mem[th.last]? with
      | none => none
      | some n => some (σ.setThr t { th with pc := .eCheck, next := n.next })
    | .eCheck =>
      if th.last = σ.tail then
        match th.next with
        | none => some (σ.setThr t { th with pc := .eLink })
        | some _ => some (σ.setThr t { th with pc := .eHelp })
      else some (σ.setThr t { th with pc := .eReadTail })
    | .eLink =>
      match σ.mem[th.last]? with
      | none => none
      | some n =>
        if n.next = th.next then
          some { σ.setThr t { th with pc := .eSwing } with
                 mem := σ.mem.set th.last { n with next := some th.node } }
        else some (σ.setThr t { th with pc := .eReadTail })
    | .eSwing =>
      some { σ.setThr t { th with pc := .eRet } with
             tail := if σ.tail = th.last then th.node else σ.tail }
    | .eHelp =>
      match th.next with
      | none => none
      | some x =>
        some { σ.setThr t { th with pc := .eReadTail } with
               tail := if σ.tail = th.last then x else σ.tail }
    | .eRet =>
      some { σ.setThr t { th with pc := .idle } with hist := σ.hist ++ [.ret t none] }
    | .dReadHead => some (σ.setThr t { th with pc := .dReadTail, first := σ.head })
    | .dReadTail => some (σ.setThr t { th with pc := .dReadNext, last := σ.tail })
    | .dReadNext =>
      match σ.mem[th.first]? with
      | none => none
      | some n => some (σ.setThr t { th with pc := .dCheck, next := n.next })
    | .dCheck =>
      if th.first = σ.head then
        if th.first = th.last then
          match th.next with
          | none => some (σ.setThr t { th with pc := .dRetEmpty })
          | some _ => some (σ.setThr t { th with pc := .dHelpTail })
        else some (σ.setThr t { th with pc := if late then .dTake else .dReadValue })
      else some (σ.setThr t { th with pc := .dReadHead })
    | .dHelpTail =>
      match th.next with
      | none => none
      | some x =>
        some { σ.setThr t { th with pc := .dReadHead } with
               tail := if σ.tail = th.last then x else σ.tail }
    | .dReadValue =>
      match th.next with
      | none => none
      | some x => some (σ.setThr t { th with pc := .dTake, value := valAt σ.mem x })
    | .dTake =>
      match th.next with
      | none => none
      | some x =>
        if claim then
          match σ.mem[x]? with
          | none => none
          | some n =>
            if n.claimed = false then
              some { σ.setThr t { th with pc := .dOwnHead,
                                          value := if late then n.value else th.value } with
                     mem := σ.mem.set x { n with claimed := true } }
            else some (σ.setThr t { th with pc := .dHelpCheck })
        else if σ.head = th.first then
          some { σ.setThr t { th with pc := .dRetVal } with head := x }
        else some (σ.setThr t { th with pc := .dReadHead })
    | .dOwnHead =>
      match th.next with
      | none => none
      | some x =>
        some { σ.setThr t { th with pc := .dRetVal } with
               head := if σ.head = th.first then x else σ.head }
    | .dHelpCheck =>
      if σ.head = th.first then some (σ.setThr t { th with pc := .dHelpHead })
      else some (σ.setThr t { th with pc := .dReadHead })
    | .dHelpHead =>
      match th.next with
      | none => none
      | some x =>
        some { σ.setThr t { th with pc := .dReadHead } with
               head := if σ.head = th.first then x else σ.head }
    | .dRetEmpty =>
      some { σ.setThr t { th with pc := .idle } with hist := σ.hist ++ [.ret t (some INT_MIN)] }
    | .dRetVal =>
      some { σ.setThr t { th with pc := .idle } with hist := σ.hist ++ [.ret t (some th.value)] }

end GState

/-- Reachability: `GReach claim late σ σ1` holds when the scheme goes from `σ` to `σ1` by finitely many
actions of its threads. -/
inductive GReach (claim late : Bool) : GState → GState → Prop where
  | refl (σ : GState) : GReach claim late σ σ
  | tail {σ σ1 σ2 : GState} (t : Nat) (a : GAction) :
      GReach claim late σ σ1 → σ1.step claim late t a = some σ2 → GReach claim late σ σ2


/-! ### Invariant of the scheme -/

namespace GState

/-- Next pointer stored at an address. -/
def nxtAt (mem : List GNode) (a : Nat) : Option Nat := (mem[a]?).bind (·.next)

/-- Claim flag stored at an address. -/
def claimedAt (mem : List GNode) (a : Nat) : Bool := ((mem[a]?).map (·.claimed)).getD false

end GState

/-- At these program points an enqueuer holds a node that it has allocated and
not linked yet. -/
def GPc.holds : GPc → Bool
  | .eReadTail | .eReadNext | .eCheck | .eLink | .eHelp => true
  | _ => false

/-- What the local variables of a thread know about the list `chain` of the
linked nodes, in which `head` has index `hi` and `tail` index `ti`. -/
def TInv (late : Bool) (mem : List GNode) (chain : List Nat) (hi ti : Nat)
    (th : GThread) : Prop :=
  match th.pc with
  | .eReadNext => ∃ li, chain[li]? = some th.last ∧ li ≤ ti
  | .eCheck => ∃ li, chain[li]? = some th.last ∧ li ≤ ti ∧
      ∀ x, th.next = some x → chain[li + 1]? = some x
  | .eLink => ∃ li, chain[li]? = some th.last ∧ li ≤ ti ∧ th.next = none
  | .eHelp => ∃ li x, chain[li]? = some th.last ∧ li ≤ ti ∧ th.next = some x ∧
      chain[li + 1]? = some x
  | .eSwing => ∃ li, chain[li]? = some th.last ∧ chain[li + 1]? = some th.node
  | .dReadTail => ∃ fi, chain[fi]? = some th.first ∧ fi ≤ hi
  | .dReadNext => ∃ fi li, chain[fi]? = some th.first ∧ fi ≤ hi ∧
      chain[li]? = some th.last ∧ fi ≤ li ∧ li ≤ ti
  | .dCheck => ∃ fi li, chain[fi]? = some th.first ∧ fi ≤ hi ∧
      chain[li]? = some th.last ∧ fi ≤ li ∧ li ≤ ti ∧
      (∀ x, th.next = some x → chain[fi + 1]? = some x) ∧ (fi < li → th.next ≠ none)
  | .dHelpTail => ∃ li x, chain[li]? = some th.last ∧ li ≤ ti ∧ th.next = some x ∧
      chain[li + 1]? = some x
  | .dReadValue => ∃ fi x, chain[fi]? = some th.first ∧ fi ≤ hi ∧ fi < ti ∧
      th.next = some x ∧ chain[fi + 1]? = some x
  | .dTake => ∃ fi x, chain[fi]? = some th.first ∧ fi ≤ hi ∧ fi < ti ∧
      th.next = some x ∧ chain[fi + 1]? = some x ∧
      (late = false → th.value = GState.valAt mem x)
  | .dOwnHead => ∃ fi x, chain[fi]? = some th.first ∧ fi ≤ hi ∧ fi < ti ∧
      th.next = some x ∧ chain[fi + 1]? = some x ∧ GState.claimedAt mem x = true
  | .dHelpCheck => ∃ fi x, chain[fi]? = some th.first ∧ fi ≤ hi ∧ fi < ti ∧
      th.next = some x ∧ chain[fi + 1]? = some x ∧ GState.claimedAt mem x = true
  | .dHelpHead => ∃ fi x, chain[fi]? = some th.first ∧ fi ≤ hi ∧ fi < ti ∧
      th.next = some x ∧ chain[fi + 1]? = some x ∧ GState.claimedAt mem x = true
  | _ => True

/-- Index in `chain` of the first node that no dequeuer has taken. -/
def qfront (claim : Bool) (mem : List GNode) (chain : List Nat) (hi : Nat) : Nat :=
  if claim && (match chain[hi + 1]? with
      | some a => GState.claimedAt mem a
      | none => false) then hi + 2 else hi + 1

/-- Content of the queue: the values of the nodes that no dequeuer has taken. -/
def qcontent (claim : Bool) (mem : List GNode) (chain : List Nat) (hi : Nat) : List Int :=
  (chain.drop (qfront claim mem chain hi)).map (GState.valAt mem)

/-- State of a thread towards the atomic queue; `e` tells, for a dequeuer that
has read `next == nullptr` and not tested `head` yet, whether its call is
counted as having taken effect. -/
def linStatus (th : GThread) (e : Bool) : LinStatus :=
  match th.pc with
  | .idle => .idle
  | .eAlloc | .eReadTail | .eReadNext | .eCheck | .eLink | .eHelp => .pending (.enq th.arg)
  | .eSwing | .eRet => .done none
  | .dReadHead | .dReadTail | .dReadNext | .dHelpTail | .dReadValue | .dTake
  | .dHelpCheck | .dHelpHead => .pending .deq
  | .dCheck => if e then .done (some INT_MIN) else .pending .deq
  | .dOwnHead | .dRetVal => .done (some th.value)
  | .dRetEmpty => .done (some INT_MIN)

/-- Structure of the shared list: `chain` lists the linked nodes in order. -/
structure GStruct (claim late : Bool) (σ : GState) (chain : List Nat) (hi ti : Nat) :
    Prop where
  nodup : chain.Nodup
  bound : ∀ a ∈ chain, a < σ.mem.length
  links : ∀ i a, chain[i]? = some a → GState.nxtAt σ.mem a = chain[i + 1]?
  head : chain[hi]? = some σ.head
  tail : chain[ti]? = some σ.tail
  hle : hi ≤ ti
  lag : chain.length ≤ ti + 2
  fresh : ∀ i a, chain[i]? = some a → hi + 1 < i → GState.claimedAt σ.mem a = false
  past : claim = true → ∀ i a, chain[i]? = some a → 0 < i → i ≤ hi →
    GState.claimedAt σ.mem a = true
  noclaim : claim = false → ∀ a, GState.claimedAt σ.mem a = false
  unlinked : ∀ t, (σ.thr t).pc.holds = true → (σ.thr t).node ∉ chain ∧
    σ.mem[(σ.thr t).node]? = some ⟨(σ.thr t).arg, none, false⟩
  distinct : ∀ t t2, t ≠ t2 → (σ.thr t).pc.holds = true → (σ.thr t2).pc.holds = true →
    (σ.thr t).node ≠ (σ.thr t2).node
  tinv : ∀ t, TInv late σ.mem chain hi ti (σ.thr t)

/-- The atomic queue produces the history of `σ` with the content of the list,
whichever of the dequeuers that have read `next == nullptr` (and not tested
`head` yet) are counted as having taken effect. -/
def GLin (claim : Bool) (σ : GState) (chain : List Nat) (hi : Nat) : Prop :=
  ∀ E : Nat → Bool,
    (∀ t, E t = true → (σ.thr t).pc = .dCheck ∧ (σ.thr t).next = none) →
    Atomic σ.hist ⟨qcontent claim σ.mem chain hi, fun t => linStatus (σ.thr t) (E t)⟩

/-- Invariant of the scheme: the shared list is well formed and the history is
one of the atomic queue. -/
def GInv (claim late : Bool) (σ : GState) : Prop :=
  ∃ chain hi ti, GStruct claim late σ chain hi ti ∧ GLin claim σ chain hi


/-! ## Interleaved executions of `enq` and `deq`

Every variant is embedded once more as a step relation: a thread executes one
statement of `enq` or `deq` per step, on the shared state of the sequential
embedding and with the primitives of that embedding, and any thread may take
the next step.  `head`, `tail`, `next`, `threadID` and `logDeq` are
`std::atomic` and are accessed with the default memory order, which is
sequentially consistent, so an execution is an interleaving of the accesses; a
step makes at most one access to them (the dynamic type that `dynamic_cast`
inspects never changes, and a `value` is written before its node can be
reached).  A compare-and-swap is one step.  A failing `compare_exchange_strong`
also stores the value that it found into its first argument; no statement reads
that variable again before it is assigned, so the store is omitted.  The
flushes (`BARRIER`, `BARRIER_OPT`) do not change the volatile state and are
omitted.  A step that dereferences a null or dangling pointer is a fault, which
ends the run. -/

/-- Parameters and local variables of a thread inside a call: `arg` is the
parameter `value` of `enq`, `value` the local `value` of `deq` (in `LogQueue`,
which has no such local, the value that `return next->value` has read); a
variant uses the variables that its source declares. -/
structure QThread (Pc : Type) where
  pc : Pc
  arg : Int
  threadID : Int
  operationNumber : Int
  node : Nat
  first : Nat
  last : Nat
  next : Option Nat
  value : Int
  newRemovedValue : Nat
  address : Option Nat
  log : Nat

/-- A queue object of type `Q`, the threads that call it, and the history of
their invocations and responses. -/
structure QSystem (Q Pc : Type) where
  queue : Q
  threads : Nat → QThread Pc
  hist : List Event

/-- What a thread does next: invoke a call, or execute its next statement. -/
inductive Act where
  | call (c : Call)
  | step
  deriving DecidableEq, Repr

namespace QSystem

/-- Thread `t` has executed a statement: the shared state is `q`, and the thread
continues as `th`. -/
def next {Q Pc : Type} (s : QSystem Q Pc) (t : Nat) (q : Q) (th : QThread Pc) :
    QSystem Q Pc :=
  { s with queue := q, threads := Function.update s.threads t th }

/-- Thread `t` invokes or returns: the event `e` is recorded, and the thread
continues as `th`. -/
def emit {Q Pc : Type} (s : QSystem Q Pc) (t : Nat) (e : Event) (th : QThread Pc) :
    QSystem Q Pc :=
  { s with threads := Function.update s.threads t th, hist := s.hist ++ [e] }

/-- Runs a schedule: each element names the thread that acts and its action. -/
def run {Q Pc : Type} (step : QSystem Q Pc → Nat → Act → Except Err (QSystem Q Pc)) :
    List (Nat × Act) → QSystem Q Pc → Except Err (QSystem Q Pc)
  | [], s => .ok s
  | (t, a) :: rest, s =>
    match step s t a with
    | .error e => .error e
    | .ok s1 => run step rest s1

end QSystem

/-- The local variables of a thread that the scheme knows. -/
def QThread.toG {Pc : Type} (f : Pc → GPc) (th : QThread Pc) : GThread :=
  ⟨f th.pc, th.arg, th.node, th.first, th.last, th.next, th.value⟩

/-! ### Volatile queue -/

namespace MSQueue

/-- Program points of `MSQueue::enq` and `MSQueue::deq`; each names the
statement that the next step executes. -/
inductive Pc where
  | idle
  /-- Executes `Node* node = new Node(value);`. -/
  | enqNew
  /-- Executes `Node* last = tail.load();`. -/
  | enqLoadTail
  /-- Executes `Node* next = last->next.load();`. -/
  | enqLoadNext
  /-- Executes `if (last == tail.load())` and the test `if (next == nullptr)`. -/
  | enqCheck
  /-- Executes `if (last->next.compare_exchange_strong(next, node))`. -/
  | enqCasNext
  /-- Executes `tail.compare_exchange_strong(last, node);`. -/
  | enqCasTail
  /-- Executes `tail.compare_exchange_strong(last, next);`. -/
  | enqHelp
  /-- Executes `return;`. -/
  | enqReturn
  /-- Executes `Node* first = head.load();`. -/
  | deqLoadHead
  /-- Executes `Node* last = tail.load();`. -/
  | deqLoadTail
  /-- Executes `Node* next = first->next.load();`. -/
  | deqLoadNext
  /-- Executes `if (first == head.load())` and the tests `if (first == last)`,
  `if (next == nullptr)`. -/
  | deqCheck
  /-- Executes `tail.compare_exchange_strong(last, next);`. -/
  | deqHelp
  /-- Executes `T value = next->value;`. -/
  | deqLoadValue
  /-- Executes `if (head.compare_exchange_strong(first, next))`. -/
  | deqCasHead
  /-- Executes `return INT_MIN;`. -/
  | deqReturnEmpty
  /-- Executes `return value;`. -/
  | deqReturnValue
  deriving DecidableEq, Repr

/-- Initial system: the constructed queue, every thread outside a call. -/
def start : QSystem MSQueue Pc :=
  ⟨MSQueue.new, fun _ => ⟨.idle, 0, 0, 0, 0, 0, 0, none, 0, 0, none, 0⟩, []⟩

/-- One action of thread `t`.  An invocation by a thread that is inside a call,
and a step of a thread that is outside a call, leave the system as it is. -/
def step (s : QSystem MSQueue Pc) (t : Nat) : Act → Except Err (QSystem MSQueue Pc)
  | .call c =>
    let th := s.threads t
    if th.pc = .idle then
      match c.toMS with
      | .enq v => .ok (s.emit t (.inv t (.enq v)) { th with pc := .enqNew, arg := v })
      | .deq => .ok (s.emit t (.inv t .deq) { th with pc := .deqLoadHead })
    else .ok s
  | .step =>
    let th := s.threads t
    let q := s.queue
    match th.pc with
    | .idle => .ok s
    | .enqNew =>
      .ok (s.next t { q with mem := q.mem ++ [⟨th.arg, none⟩] }
        { th with pc := .enqLoadTail, node := q.mem.length })
    | .enqLoadTail => .ok (s.next t q { th with pc := .enqLoadNext, last := q.tail })
    | .enqLoadNext =>
      match q.load th.last with
      | .error e => .error e
      | .ok lastNode => .ok (s.next t q { th with pc := .enqCheck, next := lastNode.next })
    | .enqCheck =>
      if th.last = q.tail then
        match th.next with
        | none => .ok (s.next t q { th with pc := .enqCasNext })
        | some _ => .ok (s.next t q { th with pc := .enqHelp })
      else .ok (s.next t q { th with pc := .enqLoadTail })
    | .enqCasNext =>
      match q.casNext th.last th.next (some th.node) with
      | .error e => .error e
      | .ok (true, q1) => .ok (s.next t q1 { th with pc := .enqCasTail })
      | .ok (false, q1) => .ok (s.next t q1 { th with pc := .enqLoadTail })
    | .enqCasTail => .ok (s.next t (q.casTail th.last th.node).2 { th with pc := .enqReturn })
    | .enqHelp =>
      match th.next with
      | none => .error .fault
      | some nx => .ok (s.next t (q.casTail th.last nx).2 { th with pc := .enqLoadTail })
    | .enqReturn => .ok (s.emit t (.ret t none) { th with pc := .idle })
    | .deqLoadHead => .ok (s.next t q { th with pc := .deqLoadTail, first := q.head })
    | .deqLoadTail => .ok (s.next t q { th with pc := .deqLoadNext, last := q.tail })
    | .deqLoadNext =>
      match q.load th.first with
      | .error e => .error e
      | .ok firstNode => .ok (s.next t q { th with pc := .deqCheck, next := firstNode.next })
    | .deqCheck =>
      if th.first = q.head then
        if th.first = th.last then
          match th.next with
          | none => .ok (s.next t q { th with pc := .deqReturnEmpty })
          | some _ => .ok (s.next t q { th with pc := .deqHelp })
        else .ok (s.next t q { th with pc := .deqLoadValue })
      else .ok (s.next t q { th with pc := .deqLoadHead })
    | .deqHelp =>
      match th.next with
      | none => .error .fault
      | some nx => .ok (s.next t (q.casTail th.last nx).2 { th with pc := .deqLoadHead })
    | .deqLoadValue =>
      match th.next with
      | none => .error .fault
      | some nx =>
        match q.load nx with
        | .error e => .error e
        | .ok nextNode => .ok (s.next t q { th with pc := .deqCasHead, value := nextNode.value })
    | .deqCasHead =>
      match th.next with
      | none => .error .fault
      | some nx =>
        match q.casHead th.first nx with
        | (true, q1) => .ok (s.next t q1 { th with pc := .deqReturnValue })
        | (false, q1) => .ok (s.next t q1 { th with pc := .deqLoadHead })
    | .deqReturnEmpty => .ok (s.emit t (.ret t (some INT_MIN)) { th with pc := .idle })
    | .deqReturnValue => .ok (s.emit t (.ret t (some th.value)) { th with pc := .idle })

/-- The program point of the scheme that a program point stands for. -/
def Pc.toG : Pc → GPc
  | .idle => .idle
  | .enqNew => .eAlloc
  | .enqLoadTail => .eReadTail
  | .enqLoadNext => .eReadNext
  | .enqCheck => .eCheck
  | .enqCasNext => .eLink
  | .enqCasTail => .eSwing
  | .enqHelp => .eHelp
  | .enqReturn => .eRet
  | .deqLoadHead => .dReadHead
  | .deqLoadTail => .dReadTail
  | .deqLoadNext => .dReadNext
  | .deqCheck => .dCheck
  | .deqHelp => .dHelpTail
  | .deqLoadValue => .dReadValue
  | .deqCasHead => .dTake
  | .deqReturnEmpty => .dRetEmpty
  | .deqReturnValue => .dRetVal

/-- The state of the scheme that a system stands for. -/
def proj (s : QSystem MSQueue Pc) : GState :=
  ⟨s.queue.mem.map fun n => ⟨n.value, n.next, false⟩, s.queue.head, s.queue.tail,
    fun t => (s.threads t).toG Pc.toG, s.hist⟩

end MSQueue

/-! ### Durable queue

The statements of `deq` that touch only `removedValues` and the cells that it
points to are one step each: they change neither the list nor what a call
returns. -/

namespace DurableQueue

/-- Program points of `DurableQueue::enq` and `DurableQueue::deq`; each names
the statement that the next step executes. -/
inductive Pc where
  | idle
  /-- Executes `NodeWithID* node = new NodeWithID(value);`. -/
  | enqNew
  /-- Executes `NodeWithID* last = tail.load();`. -/
  | enqLoadTail
  /-- Executes `NodeWithID* next = last->next.load();`. -/
  | enqLoadNext
  /-- Executes `if (last == tail.load())` and the test `if (next == nullptr)`. -/
  | enqCheck
  /-- Executes `if (last->next.compare_exchange_strong(next, node))`. -/
  | enqCasNext
  /-- Executes `tail.compare_exchange_strong(last, node);`. -/
  | enqCasTail
  /-- Executes `tail.compare_exchange_strong(last, next);`. -/
  | enqHelp
  /-- Executes `return;`. -/
  | enqReturn
  /-- Executes `T* newRemovedValue = new T(INT_MAX);`. -/
  | deqNewCell
  /-- Executes `removedValues[threadID * PADDING] = newRemovedValue;`. -/
  | deqPublish
  /-- Executes `NodeWithID* first = head.load();`. -/
  | deqLoadHead
  /-- Executes `NodeWithID* last = tail.load();`. -/
  | deqLoadTail
  /-- Executes `NodeWithID* next = first->next.load();`. -/
  | deqLoadNext
  /-- Executes `if (first == head.load())` and the tests `if (first == last)`,
  `if (next == nullptr)`. -/
  | deqCheck
  /-- Executes `*removedValues[threadID * PADDING] = INT_MIN;`. -/
  | deqStoreEmpty
  /-- Executes `return INT_MIN;`. -/
  | deqReturnEmpty
  /-- Executes `tail.compare_exchange_strong(last, next);`. -/
  | deqHelp
  /-- Executes `T value = next->value;`. -/
  | deqLoadValue
  /-- Executes `if (next->threadID.compare_exchange_strong(valid, threadID))`
  with `valid = -1`. -/
  | deqCasThreadID
  /-- Executes `*removedValues[threadID * PADDING] = value;`. -/
  | deqStoreValue
  /-- Executes `head.compare_exchange_strong(first, next);` of the thread that
  has stamped the node. -/
  | deqCasHead
  /-- Executes `return value;`. -/
  | deqReturnValue
  /-- Executes `T* address = removedValues[next->threadID * PADDING];`. -/
  | deqLoadAddress
  /-- Executes `if (head.load() == first)`. -/
  | deqCheckSame
  /-- Executes `*address = value;`. -/
  | deqStoreHelp
  /-- Executes `head.compare_exchange_strong(first, next);` of a helping thread. -/
  | deqHelpHead
  deriving DecidableEq, Repr

/-- Initial system: the constructed queue, every thread outside a call. -/
def start : QSystem DurableQueue Pc :=
  ⟨DurableQueue.new, fun _ => ⟨.idle, 0, 0, 0, 0, 0, 0, none, 0, 0, none, 0⟩, []⟩

/-- One action of thread `t`.  An invocation by a thread that is inside a call,
and a step of a thread that is outside a call, leave the system as it is. -/
def step (s : QSystem DurableQueue Pc) (t : Nat) :
    Act → Except Err (QSystem DurableQueue Pc)
  | .call c =>
    let th := s.threads t
    if th.pc = .idle then
      match c with
      | .enq v _ _ => .ok (s.emit t (.inv t (.enq v)) { th with pc := .enqNew, arg := v })
      | .deq threadID _ =>
        .ok (s.emit t (.inv t .deq) { th with pc := .deqNewCell, threadID := threadID })
    else .ok s
  | .step =>
    let th := s.threads t
    let q := s.queue
    match th.pc with
    | .idle => .ok s
    | .enqNew =>
      -- BARRIER(node)
      .ok (s.next t { q with mem := q.mem ++ [⟨th.arg, none, -1⟩] }
        { th with pc := .enqLoadTail, node := q.mem.length })
    | .enqLoadTail => .ok (s.next t q { th with pc := .enqLoadNext, last := q.tail })
    | .enqLoadNext =>
      match q.load th.last with
      | .error e => .error e
      | .ok lastNode => .ok (s.next t q { th with pc := .enqCheck, next := lastNode.next })
    | .enqCheck =>
      if th.last = q.tail then
        match th.next with
        | none => .ok (s.next t q { th with pc := .enqCasNext })
        | some _ => .ok (s.next t q { th with pc := .enqHelp })
      else .ok (s.next t q { th with pc := .enqLoadTail })
    | .enqCasNext =>
      match q.casNext th.last th.next (some th.node) with
      | .error e => .error e
      | .ok (true, q1) =>
        -- BARRIER_OPT(&last->next)
        .ok (s.next t q1 { th with pc := .enqCasTail })
      | .ok (false, q1) => .ok (s.next t q1 { th with pc := .enqLoadTail })
    | .enqCasTail => .ok (s.next t (q.casTail th.last th.node).2 { th with pc := .enqReturn })
    | .enqHelp =>
      match th.next with
      | none => .error .fault
      | some nx =>
        -- BARRIER_OPT(&last->next)
        .ok (s.next t (q.casTail th.last nx).2 { th with pc := .enqLoadTail })
    | .enqReturn => .ok (s.emit t (.ret t none) { th with pc := .idle })
    | .deqNewCell =>
      -- BARRIER(newRemovedValue)
      .ok (s.next t { q with cells := q.cells ++ [INT_MAX] }
        { th with pc := .deqPublish, newRemovedValue := q.cells.length })
    | .deqPublish =>
      match slot th.threadID with
      | .error e => .error e
      | .ok i =>
        -- BARRIER(&removedValues[threadID * PADDING])
        .ok (s.next t
          { q with removedValues := Function.update q.removedValues i (some th.newRemovedValue) }
          { th with pc := .deqLoadHead })
    | .deqLoadHead => .ok (s.next t q { th with pc := .deqLoadTail, first := q.head })
    | .deqLoadTail => .ok (s.next t q { th with pc := .deqLoadNext, last := q.tail })
    | .deqLoadNext =>
      match q.load th.first with
      | .error e => .error e
      | .ok firstNode => .ok (s.next t q { th with pc := .deqCheck, next := firstNode.next })
    | .deqCheck =>
      if th.first = q.head then
        if th.first = th.last then
          match th.next with
          | none => .ok (s.next t q { th with pc := .deqStoreEmpty })
          | some _ => .ok (s.next t q { th with pc := .deqHelp })
        else .ok (s.next t q { th with pc := .deqLoadValue })
      else .ok (s.next t q { th with pc := .deqLoadHead })
    | .deqStoreEmpty =>
      match q.storeRemoved th.threadID INT_MIN with
      | .error e => .error e
      | .ok q1 =>
        -- BARRIER(removedValues[threadID * PADDING])
        .ok (s.next t q1 { th with pc := .deqReturnEmpty })
    | .deqReturnEmpty => .ok (s.emit t (.ret t (some INT_MIN)) { th with pc := .idle })
    | .deqHelp =>
      match th.next with
      | none => .error .fault
      | some nx =>
        -- BARRIER_OPT(&last->next)
        .ok (s.next t (q.casTail th.last nx).2 { th with pc := .deqLoadHead })
    | .deqLoadValue =>
      match th.next with
      | none => .error .fault
      | some nx =>
        match q.load nx with
        | .error e => .error e
        | .ok nextNode =>
          .ok (s.next t q { th with pc := .deqCasThreadID, value := nextNode.value })
    | .deqCasThreadID =>
      match th.next with
      | none => .error .fault
      | some nx =>
        let valid : Int := -1
        match q.casThreadID nx valid th.threadID with
        | .error e => .error e
        | .ok (true, q1) =>
          -- BARRIER(&next->threadID)
          .ok (s.next t q1 { th with pc := .deqStoreValue })
        | .ok (false, q1) => .ok (s.next t q1 { th with pc := .deqLoadAddress })
    | .deqStoreValue =>
      match q.storeRemoved th.threadID th.value with
      | .error e => .error e
      | .ok q1 =>
        -- BARRIER_OPT(removedValues[threadID * PADDING])
        .ok (s.next t q1 { th with pc := .deqCasHead })
    | .deqCasHead =>
      match th.next with
      | none => .error .fault
      | some nx => .ok (s.next t (q.casHead th.first nx).2 { th with pc := .deqReturnValue })
    | .deqReturnValue => .ok (s.emit t (.ret t (some th.value)) { th with pc := .idle })
    | .deqLoadAddress =>
      match th.next with
      | none => .error .fault
      | some nx =>
        match q.load nx with
        | .error e => .error e
        | .ok winner =>
          match q.removedPtr winner.threadID with
          | .error e => .error e
          | .ok address => .ok (s.next t q { th with pc := .deqCheckSame, address := address })
    | .deqCheckSame =>
      if q.head = th.first then .ok (s.next t q { th with pc := .deqStoreHelp })
      else .ok (s.next t q { th with pc := .deqLoadHead })
    | .deqStoreHelp =>
      -- BARRIER(&next->threadID)
      match q.storeAt th.address th.value with
      | .error e => .error e
      | .ok q1 =>
        -- BARRIER_OPT(address)
        .ok (s.next t q1 { th with pc := .deqHelpHead })
    | .deqHelpHead =>
      match th.next with
      | none => .error .fault
      | some nx => .ok (s.next t (q.casHead th.first nx).2 { th with pc := .deqLoadHead })

/-- The program point of the scheme that a program point stands for; the
statements on `removedValues` stand for the point of the statement that
follows them. -/
def Pc.toG : Pc → GPc
  | .idle => .idle
  | .enqNew => .eAlloc
  | .enqLoadTail => .eReadTail
  | .enqLoadNext => .eReadNext
  | .enqCheck => .eCheck
  | .enqCasNext => .eLink
  | .enqCasTail => .eSwing
  | .enqHelp => .eHelp
  | .enqReturn => .eRet
  | .deqNewCell => .dReadHead
  | .deqPublish => .dReadHead
  | .deqLoadHead => .dReadHead
  | .deqLoadTail => .dReadTail
  | .deqLoadNext => .dReadNext
  | .deqCheck => .dCheck
  | .deqStoreEmpty => .dRetEmpty
  | .deqReturnEmpty => .dRetEmpty
  | .deqHelp => .dHelpTail
  | .deqLoadValue => .dReadValue
  | .deqCasThreadID => .dTake
  | .deqStoreValue => .dOwnHead
  | .deqCasHead => .dOwnHead
  | .deqReturnValue => .dRetVal
  | .deqLoadAddress => .dHelpCheck
  | .deqCheckSame => .dHelpCheck
  | .deqStoreHelp => .dHelpHead
  | .deqHelpHead => .dHelpHead

/-- The program points of `deq` after `removedValues[threadID * PADDING]` has
been assigned. -/
def Pc.published : Pc → Bool
  | .idle | .enqNew | .enqLoadTail | .enqLoadNext | .enqCheck | .enqCasNext | .enqCasTail
  | .enqHelp | .enqReturn | .deqNewCell | .deqPublish => false
  | _ => true

/-- The state of the scheme that a system stands for: a node is claimed when
its `threadID` is not `-1`. -/
def proj (s : QSystem DurableQueue Pc) : GState :=
  ⟨s.queue.mem.map fun n => ⟨n.value, n.next, decide (n.threadID ≠ -1)⟩, s.queue.head,
    s.queue.tail, fun t => (s.threads t).toG Pc.toG, s.hist⟩

/-- A thread that has assigned `removedValues[threadID * PADDING]` has a thread
id inside the array. -/
def Published (s : QSystem DurableQueue Pc) : Prop :=
  ∀ t, (s.threads t).pc.published = true → (s.threads t).threadID ≠ -1

end DurableQueue

/-! ### Detectable queue

The calls of `createEnqLogAndNode` and `createDeqLog`, which work on objects
that no other thread can reach yet and on `logs`, and the statements of `deq` that
touch only the log entries, are one step each: they change neither the list nor
what a call returns. -/

namespace LogQueue

/-- Program points of `LogQueue::enq` and `LogQueue::deq`; each names the
statement that the next step executes. -/
inductive Pc where
  | idle
  /-- Executes `NodeWithLog* node = createEnqLogAndNode(value, threadID,
  operationNumber);`. -/
  | enqCreate
  /-- Executes `NodeWithLog* last = tail.load();`. -/
  | enqLoadTail
  /-- Executes `NodeWithLog* next = last->next.load();`. -/
  | enqLoadNext
  /-- Executes `if (last == tail.load())` and the test `if (next == nullptr)`. -/
  | enqCheck
  /-- Executes `if (last->next.compare_exchange_strong(next, node))`. -/
  | enqCasNext
  /-- Executes `tail.compare_exchange_strong(last, node);`. -/
  | enqCasTail
  /-- Executes `tail.compare_exchange_strong(last, next);`. -/
  | enqHelp
  /-- Executes `return;`. -/
  | enqReturn
  /-- Executes `LogEntry* log = createDeqLog(threadID, operationNumber);`. -/
  | deqCreate
  /-- Executes `NodeWithLog* first = head.load();`. -/
  | deqLoadHead
  /-- Executes `NodeWithLog* last = tail.load();`. -/
  | deqLoadTail
  /-- Executes `NodeWithLog* next = first->next.load();`. -/
  | deqLoadNext
  /-- Executes `if (first == head.load())` and the tests `if (first == last)`,
  `if (next == nullptr)`. -/
  | deqCheck
  /-- Executes `logs[threadID * PADDING]->status = true;`. -/
  | deqSetStatus
  /-- Executes `return INT_MIN;`. -/
  | deqReturnEmpty
  /-- Executes `tail.compare_exchange_strong(last, next);`. -/
  | deqHelp
  /-- Executes `if (next->logDeq.compare_exchange_strong(valid, log))` with
  `valid = nullptr`. -/
  | deqCasLogDeq
  /-- Executes `next->logDeq.load()->node = next;` of the thread whose entry is in
  the node. -/
  | deqSetNode
  /-- Executes `head.compare_exchange_strong(first, next);` of that thread. -/
  | deqCasHead
  /-- Executes `return next->value;`. -/
  | deqReturnValue
  /-- Executes `if (head.load() == first)`. -/
  | deqCheckSame
  /-- Executes `next->logDeq.load()->node = next;` of a helping thread. -/
  | deqHelpSetNode
  /-- Executes `head.compare_exchange_strong(first, next);` of a helping thread. -/
  | deqHelpHead
  deriving DecidableEq, Repr

/-- Initial system: the constructed queue, every thread outside a call. -/
def start : QSystem LogQueue Pc :=
  ⟨LogQueue.new, fun _ => ⟨.idle, 0, 0, 0, 0, 0, 0, none, 0, 0, none, 0⟩, []⟩

/-- One action of thread `t`.  An invocation by a thread that is inside a call,
and a step of a thread that is outside a call, leave the system as it is. -/
def step (s : QSystem LogQueue Pc) (t : Nat) : Act → Except Err (QSystem LogQueue Pc)
  | .call c =>
    let th := s.threads t
    if th.pc = .idle then
      match c with
      | .enq v threadID operationNumber =>
        .ok (s.emit t (.inv t (.enq v))
          { th with pc := .enqCreate, arg := v, threadID := threadID,
                    operationNumber := operationNumber })
      | .deq threadID operationNumber =>
        .ok (s.emit t (.inv t .deq)
          { th with pc := .deqCreate, threadID := threadID,
                    operationNumber := operationNumber })
    else .ok s
  | .step =>
    let th := s.threads t
    let q := s.queue
    match th.pc with
    | .idle => .ok s
    | .enqCreate =>
      match q.createEnqLogAndNode th.arg th.threadID th.operationNumber with
      | .error e => .error e
      | .ok (node, q1) => .ok (s.next t q1 { th with pc := .enqLoadTail, node := node })
    | .enqLoadTail => .ok (s.next t q { th with pc := .enqLoadNext, last := q.tail })
    | .enqLoadNext =>
      match q.load th.last with
      | .error e => .error e
      | .ok lastNode => .ok (s.next t q { th with pc := .enqCheck, next := lastNode.next })
    | .enqCheck =>
      if th.last = q.tail then
        match th.next with
        | none => .ok (s.next t q { th with pc := .enqCasNext })
        | some _ => .ok (s.next t q { th with pc := .enqHelp })
      else .ok (s.next t q { th with pc := .enqLoadTail })
    | .enqCasNext =>
      match q.casNext th.last th.next (some th.node) with
      | .error e => .error e
      | .ok (true, q1) =>
        -- BARRIER_OPT(&last->next)
        .ok (s.next t q1 { th with pc := .enqCasTail })
      | .ok (false, q1) => .ok (s.next t q1 { th with pc := .enqLoadTail })
    | .enqCasTail => .ok (s.next t (q.casTail th.last th.node).2 { th with pc := .enqReturn })
    | .enqHelp =>
      match th.next with
      | none => .error .fault
      | some nx =>
        -- BARRIER_OPT(&last->next)
        .ok (s.next t (q.casTail th.last nx).2 { th with pc := .enqLoadTail })
    | .enqReturn => .ok (s.emit t (.ret t none) { th with pc := .idle })
    | .deqCreate =>
      match q.createDeqLog th.threadID th.operationNumber with
      | .error e => .error e
      | .ok (log, q1) => .ok (s.next t q1 { th with pc := .deqLoadHead, log := log })
    | .deqLoadHead => .ok (s.next t q { th with pc := .deqLoadTail, first := q.head })
    | .deqLoadTail => .ok (s.next t q { th with pc := .deqLoadNext, last := q.tail })
    | .deqLoadNext =>
      match q.load th.first with
      | .error e => .error e
      | .ok firstNode => .ok (s.next t q { th with pc := .deqCheck, next := firstNode.next })
    | .deqCheck =>
      if th.first = q.head then
        if th.first = th.last then
          match th.next with
          | none => .ok (s.next t q { th with pc := .deqSetStatus })
          | some _ => .ok (s.next t q { th with pc := .deqHelp })
        else .ok (s.next t q { th with pc := .deqCasLogDeq })
      else .ok (s.next t q { th with pc := .deqLoadHead })
    | .deqSetStatus =>
      match q.logPtr th.threadID with
      | .error e => .error e
      | .ok p =>
        match q.setStatus p true with
        | .error e => .error e
        | .ok q1 =>
          -- BARRIER(&(logs[threadID * PADDING]->status))
          .ok (s.next t q1 { th with pc := .deqReturnEmpty })
    | .deqReturnEmpty => .ok (s.emit t (.ret t (some INT_MIN)) { th with pc := .idle })
    | .deqHelp =>
      match th.next with
      | none => .error .fault
      | some nx =>
        -- BARRIER_OPT(&last->next)
        .ok (s.next t (q.casTail th.last nx).2 { th with pc := .deqLoadHead })
    | .deqCasLogDeq =>
      match th.next with
      | none => .error .fault
      | some nx =>
        let valid : Option Nat := none
        match q.casLogDeq nx valid (some th.log) with
        | .error e => .error e
        | .ok (true, q1) =>
          -- BARRIER(&next->logDeq)
          .ok (s.next t q1 { th with pc := .deqSetNode })
        | .ok (false, q1) => .ok (s.next t q1 { th with pc := .deqCheckSame })
    | .deqSetNode =>
      match th.next with
      | none => .error .fault
      | some nx =>
        match q.load nx with
        | .error e => .error e
        | .ok nextNode =>
          match q.setNode nextNode.logDeq (some nx) with
          | .error e => .error e
          | .ok q1 =>
            -- BARRIER_OPT(&next->logDeq.load()->node)
            .ok (s.next t q1 { th with pc := .deqCasHead })
    | .deqCasHead =>
      match th.next with
      | none => .error .fault
      | some nx => .ok (s.next t (q.casHead th.first nx).2 { th with pc := .deqReturnValue })
    | .deqReturnValue =>
      match th.next with
      | none => .error .fault
      | some nx =>
        match q.load nx with
        | .error e => .error e
        | .ok nextNode =>
          .ok (s.emit t (.ret t (some nextNode.value))
            { th with pc := .idle, value := nextNode.value })
    | .deqCheckSame =>
      if q.head = th.first then .ok (s.next t q { th with pc := .deqHelpSetNode })
      else .ok (s.next t q { th with pc := .deqLoadHead })
    | .deqHelpSetNode =>
      match th.next with
      | none => .error .fault
      | some nx =>
        match q.load nx with
        | .error e => .error e
        | .ok nextNode =>
          match q.setNode nextNode.logDeq (some nx) with
          | .error e => .error e
          | .ok q1 =>
            -- BARRIER_OPT(&next->logDeq.load()->node)
            .ok (s.next t q1 { th with pc := .deqHelpHead })
    | .deqHelpHead =>
      match th.next with
      | none => .error .fault
      | some nx => .ok (s.next t (q.casHead th.first nx).2 { th with pc := .deqLoadHead })

/-- The program point of the scheme that a program point stands for; the
statements on the log entries stand for the point of the statement that follows
them. -/
def Pc.toG : Pc → GPc
  | .idle => .idle
  | .enqCreate => .eAlloc
  | .enqLoadTail => .eReadTail
  | .enqLoadNext => .eReadNext
  | .enqCheck => .eCheck
  | .enqCasNext => .eLink
  | .enqCasTail => .eSwing
  | .enqHelp => .eHelp
  | .enqReturn => .eRet
  | .deqCreate => .dReadHead
  | .deqLoadHead => .dReadHead
  | .deqLoadTail => .dReadTail
  | .deqLoadNext => .dReadNext
  | .deqCheck => .dCheck
  | .deqSetStatus => .dRetEmpty
  | .deqReturnEmpty => .dRetEmpty
  | .deqHelp => .dHelpTail
  | .deqCasLogDeq => .dTake
  | .deqSetNode => .dOwnHead
  | .deqCasHead => .dOwnHead
  | .deqReturnValue => .dRetVal
  | .deqCheckSame => .dHelpCheck
  | .deqHelpSetNode => .dHelpHead
  | .deqHelpHead => .dHelpHead

/-- The program points of a thread whose entry is in the node `next`, up to its
`return next->value`. -/
def Pc.claimed : Pc → Bool
  | .deqSetNode | .deqCasHead | .deqReturnValue => true
  | _ => false

/-- The value that `p->value` reads (0 through a null or dangling pointer). -/
def valueAt (q : LogQueue) (p : Option Nat) : Int :=
  match p with
  | some x => ((q.mem[x]?).map (·.value)).getD 0
  | none => 0

/-- The local variables of a thread that the scheme knows; the value that a
thread is going to return by `return next->value` is the value of its node. -/
def threadG (q : LogQueue) (th : QThread Pc) : GThread :=
  ⟨th.pc.toG, th.arg, th.node, th.first, th.last, th.next,
    if th.pc.claimed then q.valueAt th.next else th.value⟩

/-- The state of the scheme that a system stands for: a node is claimed when
its `logDeq` is not null. -/
def proj (s : QSystem LogQueue Pc) : GState :=
  ⟨s.queue.mem.map fun n => ⟨n.value, n.next, n.logDeq.isSome⟩, s.queue.head,
    s.queue.tail, fun t => threadG s.queue (s.threads t), s.hist⟩

/-- The node of a thread whose entry is in a node is allocated. -/
def Claimed (s : QSystem LogQueue Pc) : Prop :=
  ∀ t, (s.threads t).pc.claimed = true →
    ∃ x, (s.threads t).next = some x ∧ x < s.queue.mem.length

end LogQueue

/-! ### Buffered-Relaxed queue

Only `sync` creates `Invalid` objects, so the branches of `enq` and `deq` that
cooperate with a marker are not taken in an execution of `enq` and `deq` calls;
the cooperation is one step here. -/

namespace RelaxedQueue

/-- Program points of `RelaxedQueue::enq` and `RelaxedQueue::deq`; each names
the statement that the next step executes. -/
inductive Pc where
  | idle
  /-- Executes `Node* node = new Node(value);`. -/
  | enqNew
  /-- Executes `Node* last = tail.load();`. -/
  | enqLoadTail
  /-- Executes `Node* next = last->next.load();`. -/
  | enqLoadNext
  /-- Executes `if (last == tail.load())` and the tests `if (next == nullptr)`,
  `if (currI != nullptr)` with `currI = dynamic_cast<Invalid*>(n)`. -/
  | enqCheck
  /-- Executes `if (last->next.compare_exchange_strong(next, node))`. -/
  | enqCasNext
  /-- Executes `tail.compare_exchange_strong(last, node);`. -/
  | enqCasTail
  /-- Executes `currI->head.compare_exchange_strong(valid, head);`,
  `currI->tail.load()->next.compare_exchange_strong(n, nullptr);` and `continue;`. -/
  | enqMarker
  /-- Executes `tail.compare_exchange_strong(last, next);`. -/
  | enqHelp
  /-- Executes `return;`. -/
  | enqReturn
  /-- Executes `Node* first = head.load();`. -/
  | deqLoadHead
  /-- Executes `Node* last = tail.load();`. -/
  | deqLoadTail
  /-- Executes `Node* next = first->next.load();`. -/
  | deqLoadNext
  /-- Executes `if (first == head.load())` and the tests `if (first == last)`,
  `if (next == nullptr)`, `if (currI != nullptr)` with
  `currI = dynamic_cast<Invalid*>(n)`. -/
  | deqCheck
  /-- Executes `currI->head.compare_exchange_strong(valid, head);` and
  `currI->tail.load()->next.compare_exchange_strong(n, nullptr);`. -/
  | deqMarker
  /-- Executes `tail.compare_exchange_strong(last, next);`. -/
  | deqHelp
  /-- Executes `T value = next->value;`. -/
  | deqLoadValue
  /-- Executes `if (head.compare_exchange_strong(first, next))`. -/
  | deqCasHead
  /-- Executes `return INT_MIN;`. -/
  | deqReturnEmpty
  /-- Executes `return value;`. -/
  | deqReturnValue
  deriving DecidableEq, Repr

/-- Initial system: the constructed queue, every thread outside a call. -/
def start : QSystem RelaxedQueue Pc :=
  ⟨RelaxedQueue.new, fun _ => ⟨.idle, 0, 0, 0, 0, 0, 0, none, 0, 0, none, 0⟩, []⟩

/-- One action of thread `t`.  An invocation by a thread that is inside a call,
and a step of a thread that is outside a call, leave the system as it is. -/
def step (s : QSystem RelaxedQueue Pc) (t : Nat) :
    Act → Except Err (QSystem RelaxedQueue Pc)
  | .call c =>
    let th := s.threads t
    if th.pc = .idle then
      match c.toMS with
      | .enq v => .ok (s.emit t (.inv t (.enq v)) { th with pc := .enqNew, arg := v })
      | .deq => .ok (s.emit t (.inv t .deq) { th with pc := .deqLoadHead })
    else .ok s
  | .step =>
    let th := s.threads t
    let q := s.queue
    match th.pc with
    | .idle => .ok s
    | .enqNew =>
      .ok (s.next t { q with mem := q.mem ++ [⟨th.arg, none, none⟩] }
        { th with pc := .enqLoadTail, node := q.mem.length })
    | .enqLoadTail => .ok (s.next t q { th with pc := .enqLoadNext, last := q.tail })
    | .enqLoadNext =>
      match q.load th.last with
      | .error e => .error e
      | .ok lastNode => .ok (s.next t q { th with pc := .enqCheck, next := lastNode.next })
    | .enqCheck =>
      if th.last = q.tail then
        match th.next with
        | none => .ok (s.next t q { th with pc := .enqCasNext })
        | some n =>
          match q.isInvalid n with
          | .error e => .error e
          | .ok true => .ok (s.next t q { th with pc := .enqMarker })
          | .ok false => .ok (s.next t q { th with pc := .enqHelp })
      else .ok (s.next t q { th with pc := .enqLoadTail })
    | .enqCasNext =>
      match q.casNext (some th.last) th.next (some th.node) with
      | .error e => .error e
      | .ok (true, q1) => .ok (s.next t q1 { th with pc := .enqCasTail })
      | .ok (false, q1) => .ok (s.next t q1 { th with pc := .enqLoadTail })
    | .enqCasTail => .ok (s.next t (q.casTail th.last th.node).2 { th with pc := .enqReturn })
    | .enqMarker =>
      match th.next with
      | none => .error .fault
      | some n =>
        match q.helpMarker n with
        | .error e => .error e
        | .ok q1 => .ok (s.next t q1 { th with pc := .enqLoadTail })
    | .enqHelp =>
      match th.next with
      | none => .error .fault
      | some nx => .ok (s.next t (q.casTail th.last nx).2 { th with pc := .enqLoadTail })
    | .enqReturn => .ok (s.emit t (.ret t none) { th with pc := .idle })
    | .deqLoadHead => .ok (s.next t q { th with pc := .deqLoadTail, first := q.head })
    | .deqLoadTail => .ok (s.next t q { th with pc := .deqLoadNext, last := q.tail })
    | .deqLoadNext =>
      match q.load th.first with
      | .error e => .error e
      | .ok firstNode => .ok (s.next t q { th with pc := .deqCheck, next := firstNode.next })
    | .deqCheck =>
      if th.first = q.head then
        if th.first = th.last then
          match th.next with
          | none => .ok (s.next t q { th with pc := .deqReturnEmpty })
          | some n =>
            match q.isInvalid n with
            | .error e => .error e
            | .ok true => .ok (s.next t q { th with pc := .deqMarker })
            | .ok false => .ok (s.next t q { th with pc := .deqHelp })
        else .ok (s.next t q { th with pc := .deqLoadValue })
      else .ok (s.next t q { th with pc := .deqLoadHead })
    | .deqMarker =>
      match th.next with
      | none => .error .fault
      | some n =>
        match q.helpMarker n with
        | .error e => .error e
        | .ok q1 => .ok (s.next t q1 { th with pc := .deqReturnEmpty })
    | .deqHelp =>
      match th.next with
      | none => .error .fault
      | some nx => .ok (s.next t (q.casTail th.last nx).2 { th with pc := .deqLoadHead })
    | .deqLoadValue =>
      match q.loadPtr th.next with
      | .error e => .error e
      | .ok nextNode => .ok (s.next t q { th with pc := .deqCasHead, value := nextNode.value })
    | .deqCasHead =>
      match th.next with
      | none => .error .fault
      | some nx =>
        match q.casHead th.first nx with
        | (true, q1) => .ok (s.next t q1 { th with pc := .deqReturnValue })
        | (false, q1) => .ok (s.next t q1 { th with pc := .deqLoadHead })
    | .deqReturnEmpty => .ok (s.emit t (.ret t (some INT_MIN)) { th with pc := .idle })
    | .deqReturnValue => .ok (s.emit t (.ret t (some th.value)) { th with pc := .idle })

/-- The program point of the scheme that a program point stands for (the
cooperation with a marker has none; it stands for the point that follows it). -/
def Pc.toG : Pc → GPc
  | .idle => .idle
  | .enqNew => .eAlloc
  | .enqLoadTail => .eReadTail
  | .enqLoadNext => .eReadNext
  | .enqCheck => .eCheck
  | .enqCasNext => .eLink
  | .enqCasTail => .eSwing
  | .enqMarker => .eReadTail
  | .enqHelp => .eHelp
  | .enqReturn => .eRet
  | .deqLoadHead => .dReadHead
  | .deqLoadTail => .dReadTail
  | .deqLoadNext => .dReadNext
  | .deqCheck => .dCheck
  | .deqMarker => .dRetEmpty
  | .deqHelp => .dHelpTail
  | .deqLoadValue => .dReadValue
  | .deqCasHead => .dTake
  | .deqReturnEmpty => .dRetEmpty
  | .deqReturnValue => .dRetVal

/-- The program points of the cooperation with a marker. -/
def Pc.marker : Pc → Bool
  | .enqMarker | .deqMarker => true
  | _ => false

/-- The state of the scheme that a system stands for. -/
def proj (s : QSystem RelaxedQueue Pc) : GState :=
  ⟨s.queue.mem.map fun n => ⟨n.value, n.next, false⟩, s.queue.head, s.queue.tail,
    fun t => (s.threads t).toG Pc.toG, s.hist⟩

/-- No object is an `Invalid`, and no thread cooperates with a marker. -/
def Unmarked (s : QSystem RelaxedQueue Pc) : Prop :=
  (∀ (a : Nat) (n : Node), s.queue.mem[a]? = some n → n.invalid = none) ∧
    ∀ t, (s.threads t).pc.marker = false

end RelaxedQueue

/-- A schedule of two threads: thread 0 calls `enq(5)` and runs until it has
linked its node, thread 1 calls `deq` and runs to its end, then thread 0 finishes. -/
def overlapSchedule : List (Nat × Act) :=
  [(0, .call (.enq 5 0 0))] ++ List.replicate 5 (0, Act.step) ++ [(1, .call (.deq 1 0))]
    ++ List.replicate 24 (1, Act.step) ++ List.replicate 3 (0, Act.step)

/-! ## Interleaved executions of `enq`, `deq` and `sync` on the Buffered-Relaxed queue

The Buffered-Relaxed queue is embedded once more as a step relation in which
every thread may call `enq`, `deq` and `sync` (with `blockTheTail` and
`makeDurble` inlined), any number of times, and any thread may take the next
step.  A step makes at most one access to a variable that another thread may
write: `head`, `tail`, `data`, `counter`, the `next` field of a node and the
fields of an `Invalid` object.  A statement that makes several such accesses is
several steps, and the value that an earlier access has read is kept in a
variable of the thread until the later access uses it:

* `currI->head.compare_exchange_strong(valid, head)` reads `head` and then
  executes the compare-and-swap;
* `currI->tail.load()->next.compare_exchange_strong(n, nullptr)` reads
  `currI->tail` and then executes the compare-and-swap;
* `if (currI->counter > currentCounter || currI->head == nullptr)` reads
  `currI->counter` and, when the first test fails, `currI->head`;
* `*invalid = *currI` reads and stores `counter`, then `tail`, then `head`.

The dynamic type that `dynamic_cast` inspects never changes, a snapshot is
written before `data` can point at it, and only the owner of a marker writes
the `tail` and `counter` of it, so these reads share the step of a neighbouring
access.  The flushes do not change the volatile state and are omitted.  A step
that dereferences a null or dangling pointer is a fault, which ends the run. -/

/-- The accesses of the cooperation with a marker `currI`, which a thread has
found as `n` in a `next` field. -/
inductive HelpStep where
  /-- Reads `head`, the second argument of the compare-and-swap. -/
  | loadHead
  /-- Executes `currI->head.compare_exchange_strong(valid, head)`. -/
  | casHead
  /-- Executes `currI->tail.load()`. -/
  | loadTail
  /-- Executes `->next.compare_exchange_strong(n, nullptr)`. -/
  | unblock
  deriving DecidableEq, Repr

/-- Program points of a thread of the Buffered-Relaxed queue; each names the
access that the next step executes. -/
inductive RPc where
  | idle
  /-- Executes `Node* node = new Node(value)` of `enq`. -/
  | enqNew
  /-- Executes `Node* last = tail.load()` of `enq`. -/
  | enqLoadTail
  /-- Executes `Node* next = last->next.load()` of `enq`. -/
  | enqLoadNext
  /-- Executes `if (last == tail.load())` and the tests `if (next == nullptr)`,
  `if (currI != nullptr)` of `enq`. -/
  | enqCheck
  /-- Executes `if (last->next.compare_exchange_strong(next, node))`. -/
  | enqCasNext
  /-- Executes `tail.compare_exchange_strong(last, node)`. -/
  | enqCasTail
  /-- Executes an access of the cooperation in `enq`, which ends with `continue`. -/
  | enqCoop (h : HelpStep)
  /-- Executes `tail.compare_exchange_strong(last, next)` of `enq`. -/
  | enqHelp
  /-- Executes `return` of `enq`. -/
  | enqReturn
  /-- Executes `Node* first = head.load()`. -/
  | deqLoadHead
  /-- Executes `Node* last = tail.load()` of `deq`. -/
  | deqLoadTail
  /-- Executes `Node* next = first->next.load()`. -/
  | deqLoadNext
  /-- Executes `if (first == head.load())` and the tests `if (first == last)`,
  `if (next == nullptr)`, `if (currI != nullptr)` of `deq`. -/
  | deqCheck
  /-- Executes an access of the cooperation in `deq`, which ends with
  `return INT_MIN`. -/
  | deqCoop (h : HelpStep)
  /-- Executes `tail.compare_exchange_strong(last, next)` of `deq`. -/
  | deqHelp
  /-- Executes `T value = next->value`. -/
  | deqLoadValue
  /-- Executes `if (head.compare_exchange_strong(first, next))`. -/
  | deqCasHead
  /-- Executes `return INT_MIN`. -/
  | deqReturnEmpty
  /-- Executes `return value`. -/
  | deqReturnValue
  /-- Executes `Invalid* invalid = new Invalid(currentCounter)` of `sync`. -/
  | allocMarker
  /-- Executes `LastNVMData* currData = data.load()` of `sync`. -/
  | loadData
  /-- Executes `LastNVMData* currData = data.load()` of `blockTheTail`. -/
  | blockLoadData
  /-- Executes `int currentCounter = atomic_fetch_add(&counter, 1)`. -/
  | fetchAdd
  /-- Executes `if (currData->counter > currentCounter) return false`, and
  `if (result == false) return` of `sync` when the test holds. -/
  | check
  /-- Executes `invalid->counter = currentCounter`. -/
  | setCounter
  /-- Executes `Node* last = tail.load()` of `blockTheTail`. -/
  | loadTail
  /-- Executes `Node* next = last->next.load()` of `blockTheTail`. -/
  | loadNext
  /-- Executes `if (last == tail.load())` and the tests `if (next == nullptr)`,
  `if (currI != nullptr)` of `blockTheTail`. -/
  | recheck
  /-- Executes `invalid->tail = last`. -/
  | setTail
  /-- Executes `if (last->next.compare_exchange_strong(next, invalid))`. -/
  | block
  /-- Reads `head`, the second argument of
  `invalid->head.compare_exchange_strong(valid, head)`. -/
  | ownLoadHead
  /-- Executes `invalid->head.compare_exchange_strong(valid, head)`. -/
  | ownCasHead
  /-- Executes `last->next.compare_exchange_strong(invalidNode, nullptr)` and
  `return true`. -/
  | unblock
  /-- Reads `currI->counter` and tests `currI->counter > currentCounter`. -/
  | inspectCounter
  /-- Reads `currI->head` and tests `currI->head == nullptr`. -/
  | inspectHead
  /-- Executes an access of the cooperation in `blockTheTail`; `ride` tells
  whether the test `currI->counter > currentCounter || currI->head == nullptr`
  held. -/
  | coop (ride : Bool) (h : HelpStep)
  /-- Reads `i.counter` in `*invalid = *currI`. -/
  | copyLoadCounter
  /-- Executes `counter = i.counter`. -/
  | copyStoreCounter
  /-- Executes `i.tail.load()`. -/
  | copyLoadTail
  /-- Executes `tail = i.tail.load()`. -/
  | copyStoreTail
  /-- Executes `i.head.load()`. -/
  | copyLoadHead
  /-- Executes `head = i.head.load()` and `return true`. -/
  | copyStoreHead
  /-- Executes `tail.compare_exchange_strong(last, next)` of `blockTheTail`. -/
  | helpTail
  /-- Enters `makeDurble(currData->NVMTail.load(), invalid->tail.load())`:
  `temp = start; BARRIER(temp)`. -/
  | durableStart
  /-- Executes one round of the loop of `makeDurble`. -/
  | durableLoop
  /-- Executes the allocation and initialisation of `potential`. -/
  | allocSnapshot
  /-- Executes `if (data.compare_exchange_strong(currData, potential))`. -/
  | install
  /-- Executes `return` of `sync`. -/
  | syncReturn
  deriving DecidableEq, Repr

/-- Parameters and local variables of a thread: `arg` is the parameter `value`
of `enq`, `blockData` the variable `currData` of `blockTheTail`, `finish` the
parameter `end` of `makeDurble`; `seenHead`, `seenTail` and `seenCounter` hold
the value that the first access of a statement has read until the second access
of the statement uses it. -/
structure RThread where
  pc : RPc
  arg : Int
  node : Nat
  first : Nat
  last : Nat
  next : Option Nat
  value : Int
  invalid : Nat
  currData : Nat
  blockData : Nat
  currentCounter : Int
  temp : Nat
  finish : Option Nat
  potential : Nat
  seenHead : Option Nat
  seenTail : Option Nat
  seenCounter : Int
  deriving DecidableEq, Repr

/-- A thread outside a call. -/
def RThread.init : RThread :=
  ⟨.idle, 0, 0, 0, 0, none, 0, 0, 0, 0, 0, 0, none, 0, none, none, 0⟩

/-- One access of the cooperation with the marker `n`; the last component is
the access that follows, if any. -/
def RelaxedQueue.coop (q : RelaxedQueue) (th : RThread) (n : Nat) :
    HelpStep → Except Err (RelaxedQueue × RThread × Option HelpStep)
  | .loadHead => .ok (q, { th with seenHead := some q.head }, some .casHead)
  | .casHead =>
    match q.casInvalidHead n none th.seenHead with
    | .error e => .error e
    | .ok (_, q1) => .ok (q1, th, some .loadTail)
  | .loadTail =>
    match q.loadInvalid n with
    | .error e => .error e
    | .ok currI => .ok (q, { th with seenTail := currI.tail }, some .unblock)
  | .unblock =>
    match q.casNext th.seenTail (some n) none with
    | .error e => .error e
    | .ok (_, q1) => .ok (q1, th, none)

/-- The shared queue and the threads that call it. -/
structure RSystem where
  queue : RelaxedQueue
  threads : Nat → RThread

/-- What a thread does next: invoke a call, or execute its next access. -/
inductive RAct where
  | call (op : ROp)
  | step
  deriving DecidableEq, Repr

namespace RSystem

/-- Initial system: the constructed queue, every thread outside a call. -/
def start : RSystem := ⟨RelaxedQueue.new, fun _ => RThread.init⟩

/-- Thread `t` has executed an access: the shared state is `q`, and the thread
continues as `th`. -/
def next (s : RSystem) (t : Nat) (q : RelaxedQueue) (th : RThread) : RSystem :=
  ⟨q, Function.update s.threads t th⟩

/-- One action of thread `t`.  An invocation by a thread that is inside a call,
and a step of a thread that is outside a call, leave the system as it is. -/
def step (s : RSystem) (t : Nat) : RAct → Except Err RSystem
  | .call op =>
    let th := s.threads t
    if th.pc = .idle then
      match op with
      | .enq v => .ok (s.next t s.queue { th with pc := .enqNew, arg := v })
      | .deq => .ok (s.next t s.queue { th with pc := .deqLoadHead })
      | .sync _ => .ok (s.next t s.queue { th with pc := .allocMarker })
    else .ok s
  | .step =>
    let th := s.threads t
    let q := s.queue
    match th.pc with
    | .idle => .ok s
    | .enqNew =>
      .ok (s.next t { q with mem := q.mem ++ [⟨th.arg, none, none⟩] }
        { th with pc := .enqLoadTail, node := q.mem.length })
    | .enqLoadTail => .ok (s.next t q { th with pc := .enqLoadNext, last := q.tail })
    | .enqLoadNext =>
      match q.load th.last with
      | .error e => .error e
      | .ok lastNode => .ok (s.next t q { th with pc := .enqCheck, next := lastNode.next })
    | .enqCheck =>
      if th.last = q.tail then
        match th.next with
        | none => .ok (s.next t q { th with pc := .enqCasNext })
        | some n =>
          match q.isInvalid n with
          | .error e => .error e
          | .ok true => .ok (s.next t q { th with pc := .enqCoop .loadHead })
          | .ok false => .ok (s.next t q { th with pc := .enqHelp })
      else .ok (s.next t q { th with pc := .enqLoadTail })
    | .enqCasNext =>
      match q.casNext (some th.last) th.next (some th.node) with
      | .error e => .error e
      | .ok (true, q1) => .ok (s.next t q1 { th with pc := .enqCasTail })
      | .ok (false, q1) => .ok (s.next t q1 { th with pc := .enqLoadTail })
    | .enqCasTail => .ok (s.next t (q.casTail th.last th.node).2 { th with pc := .enqReturn })
    | .enqCoop h =>
      match th.next with
      | none => .error .fault
      | some n =>
        match q.coop th n h with
        | .error e => .error e
        | .ok (q1, th1, some h1) => .ok (s.next t q1 { th1 with pc := .enqCoop h1 })
        | .ok (q1, th1, none) => .ok (s.next t q1 { th1 with pc := .enqLoadTail })
    | .enqHelp =>
      match th.next with
      | none => .error .fault
      | some nx => .ok (s.next t (q.casTail th.last nx).2 { th with pc := .enqLoadTail })
    | .enqReturn => .ok (s.next t q { th with pc := .idle })
    | .deqLoadHead => .ok (s.next t q { th with pc := .deqLoadTail, first := q.head })
    | .deqLoadTail => .ok (s.next t q { th with pc := .deqLoadNext, last := q.tail })
    | .deqLoadNext =>
      match q.load th.first with
      | .error e => .error e
      | .ok firstNode => .ok (s.next t q { th with pc := .deqCheck, next := firstNode.next })
    | .deqCheck =>
      if th.first = q.head then
        if th.first = th.last then
          match th.next with
          | none => .ok (s.next t q { th with pc := .deqReturnEmpty })
          | some n =>
            match q.isInvalid n with
            | .error e => .error e
            | .ok true => .ok (s.next t q { th with pc := .deqCoop .loadHead })
            | .ok false => .ok (s.next t q { th with pc := .deqHelp })
        else .ok (s.next t q { th with pc := .deqLoadValue })
      else .ok (s.next t q { th with pc := .deqLoadHead })
    | .deqCoop h =>
      match th.next with
      | none => .error .fault
      | some n =>
        match q.coop th n h with
        | .error e => .error e
        | .ok (q1, th1, some h1) => .ok (s.next t q1 { th1 with pc := .deqCoop h1 })
        | .ok (q1, th1, none) => .ok (s.next t q1 { th1 with pc := .deqReturnEmpty })
    | .deqHelp =>
      match th.next with
      | none => .error .fault
      | some nx => .ok (s.next t (q.casTail th.last nx).2 { th with pc := .deqLoadHead })
    | .deqLoadValue =>
      match q.loadPtr th.next with
      | .error e => .error e
      | .ok nextNode => .ok (s.next t q { th with pc := .deqCasHead, value := nextNode.value })
    | .deqCasHead =>
      match th.next with
      | none => .error .fault
      | some nx =>
        match q.casHead th.first nx with
        | (true, q1) => .ok (s.next t q1 { th with pc := .deqReturnValue })
        | (false, q1) => .ok (s.next t q1 { th with pc := .deqLoadHead })
    | .deqReturnEmpty => .ok (s.next t q { th with pc := .idle })
    | .deqReturnValue => .ok (s.next t q { th with pc := .idle })
    | .allocMarker =>
      .ok (s.next t { q with mem := q.mem ++ [⟨0, none, some ⟨0, none, none⟩⟩] }
        { th with pc := .loadData, invalid := q.mem.length })
    | .loadData => .ok (s.next t q { th with pc := .blockLoadData, currData := q.data })
    | .blockLoadData => .ok (s.next t q { th with pc := .fetchAdd, blockData := q.data })
    | .fetchAdd =>
      .ok (s.next t { q with counter := wrapInt32 (q.counter + 1) }
        { th with pc := .check, currentCounter := q.counter })
    | .check =>
      match q.snaps[th.blockData]? with
      | none => .error .fault
      | some cd =>
        if cd.counter > th.currentCounter then .ok (s.next t q { th with pc := .syncReturn })
        else .ok (s.next t q { th with pc := .setCounter })
    | .setCounter =>
      match q.setInvalid th.invalid (fun iv => { iv with counter := th.currentCounter }) with
      | .error e => .error e
      | .ok q1 => .ok (s.next t q1 { th with pc := .loadTail })
    | .loadTail => .ok (s.next t q { th with pc := .loadNext, last := q.tail })
    | .loadNext =>
      match q.load th.last with
      | .error e => .error e
      | .ok lastNode => .ok (s.next t q { th with pc := .recheck, next := lastNode.next })
    | .recheck =>
      if th.last = q.tail then
        match th.next with
        | none => .ok (s.next t q { th with pc := .setTail })
        | some n =>
          match q.isInvalid n with
          | .error e => .error e
          | .ok true => .ok (s.next t q { th with pc := .inspectCounter })
          | .ok false => .ok (s.next t q { th with pc := .helpTail })
      else .ok (s.next t q { th with pc := .check })
    | .setTail =>
      match q.setInvalid th.invalid (fun iv => { iv with tail := some th.last }) with
      | .error e => .error e
      | .ok q1 => .ok (s.next t q1 { th with pc := .block })
    | .block =>
      match q.casNext (some th.last) th.next (some th.invalid) with
      | .error e => .error e
      | .ok (true, q1) => .ok (s.next t q1 { th with pc := .ownLoadHead })
      | .ok (false, q1) => .ok (s.next t q1 { th with pc := .check })
    | .ownLoadHead => .ok (s.next t q { th with pc := .ownCasHead, seenHead := some q.head })
    | .ownCasHead =>
      match q.casInvalidHead th.invalid none th.seenHead with
      | .error e => .error e
      | .ok (_, q1) => .ok (s.next t q1 { th with pc := .unblock })
    | .unblock =>
      match q.casNext (some th.last) (some th.invalid) none with
      | .error e => .error e
      | .ok (_, q1) => .ok (s.next t q1 { th with pc := .durableStart })
    | .inspectCounter =>
      match th.next with
      | none => .error .fault
      | some n =>
        match q.loadInvalid n with
        | .error e => .error e
        | .ok currI =>
          if currI.counter > th.currentCounter then
            .ok (s.next t q { th with pc := .coop true .loadHead })
          else .ok (s.next t q { th with pc := .inspectHead })
    | .inspectHead =>
      match th.next with
      | none => .error .fault
      | some n =>
        match q.loadInvalid n with
        | .error e => .error e
        | .ok currI =>
          if currI.head = none then .ok (s.next t q { th with pc := .coop true .loadHead })
          else .ok (s.next t q { th with pc := .coop false .loadHead })
    | .coop ride h =>
      match th.next with
      | none => .error .fault
      | some n =>
        match q.coop th n h with
        | .error e => .error e
        | .ok (q1, th1, some h1) => .ok (s.next t q1 { th1 with pc := .coop ride h1 })
        | .ok (q1, th1, none) =>
          .ok (s.next t q1 { th1 with pc := if ride then .copyLoadCounter else .check })
    | .copyLoadCounter =>
      match th.next with
      | none => .error .fault
      | some n =>
        match q.loadInvalid n with
        | .error e => .error e
        | .ok currI => .ok (s.next t q { th with pc := .copyStoreCounter, seenCounter := currI.counter })
    | .copyStoreCounter =>
      match q.setInvalid th.invalid (fun iv => { iv with counter := th.seenCounter }) with
      | .error e => .error e
      | .ok q1 => .ok (s.next t q1 { th with pc := .copyLoadTail })
    | .copyLoadTail =>
      match th.next with
      | none => .error .fault
      | some n =>
        match q.loadInvalid n with
        | .error e => .error e
        | .ok currI => .ok (s.next t q { th with pc := .copyStoreTail, seenTail := currI.tail })
    | .copyStoreTail =>
      match q.setInvalid th.invalid (fun iv => { iv with tail := th.seenTail }) with
      | .error e => .error e
      | .ok q1 => .ok (s.next t q1 { th with pc := .copyLoadHead })
    | .copyLoadHead =>
      match th.next with
      | none => .error .fault
      | some n =>
        match q.loadInvalid n with
        | .error e => .error e
        | .ok currI => .ok (s.next t q { th with pc := .copyStoreHead, seenHead := currI.head })
    | .copyStoreHead =>
      match q.setInvalid th.invalid (fun iv => { iv with head := th.seenHead }) with
      | .error e => .error e
      | .ok q1 => .ok (s.next t q1 { th with pc := .durableStart })
    | .helpTail =>
      match th.next with
      | none => .error .fault
      | some n => .ok (s.next t (q.casTail th.last n).2 { th with pc := .check })
    | .durableStart =>
      match q.snaps[th.currData]?, q.loadInvalid th.invalid with
      | none, _ => .error .fault
      | _, .error e => .error e
      | some cd, .ok iv =>
        match cd.NVMTail with
        | none => .error .fault
        | some start =>
          .ok (s.next t q { th with pc := .durableLoop, temp := start, finish := iv.tail })
    | .durableLoop =>
      if some th.temp = th.finish then .ok (s.next t q { th with pc := .allocSnapshot })
      else
        match q.load th.temp with
        | .error e => .error e
        | .ok tempNode =>
          match tempNode.next with
          | none => .error .fault
          | some nx => .ok (s.next t q { th with temp := nx })
    | .allocSnapshot =>
      match q.loadInvalid th.invalid with
      | .error e => .error e
      | .ok iv =>
        .ok (s.next t
          { q with snaps := q.snaps ++ [RelaxedQueue.LastNVMData.mk iv.tail iv.head iv.counter] }
          { th with pc := .install, potential := q.snaps.length })
    | .install =>
      match q.casData th.currData th.potential with
      | (true, q1) => .ok (s.next t q1 { th with pc := .syncReturn })
      | (false, q1) => .ok (s.next t q1 { th with pc := .loadData })
    | .syncReturn => .ok (s.next t q { th with pc := .idle })

/-- Runs a schedule: each element names the thread that acts and its action. -/
def run : List (Nat × RAct) → RSystem → Except Err RSystem
  | [], s => .ok s
  | (t, a) :: rest, s =>
    match step s t a with
    | .error e => .error e
    | .ok s1 => run rest s1

end RSystem

/-- What a state shows of a thread inside `blockTheTail` and of its marker: the
program point, the marker `invalid`, the node `last`, its `next` field, `head`
of the queue, and the `Invalid` fields of the marker. -/
structure BlockView where
  pc : RPc
  invalid : Nat
  last : Nat
  lastNext : Option Nat
  head : Nat
  marker : Option RelaxedQueue.InvalidPart
  deriving DecidableEq, Repr

/-- The view of thread `t`. -/
def RSystem.blockView (s : RSystem) (t : Nat) : BlockView :=
  let th := s.threads t
  ⟨th.pc, th.invalid, th.last, s.queue.nxt th.last, s.queue.head,
    (s.queue.mem[th.invalid]?).bind (·.invalid)⟩

/-- The view of thread `t` after the first `k` actions of a schedule. -/
def RSystem.viewAfter (schedule : List (Nat × RAct)) (k t : Nat) : Option BlockView :=
  match RSystem.run (schedule.take k) RSystem.start with
  | .ok s => some (s.blockView t)
  | .error _ => none

/-- A schedule of three threads.  Thread 2 completes `enq(1)`.  Thread 0 calls
`sync` and runs until it has allocated `potential`.  Thread 1 completes a call
of `sync`, and thread 2 completes a call of `deq`, which returns 1.  Then
thread 0 runs to the end of its call: its compare-and-swap on `data` fails, and
it passes the same marker to `blockTheTail` once more. -/
def staleSchedule : List (Nat × RAct) :=
  [(2, .call (.enq 1))] ++ List.replicate 7 (2, RAct.step)
    ++ [(0, .call (.sync 0))] ++ List.replicate 18 (0, RAct.step)
    ++ [(1, .call (.sync 1))] ++ List.replicate 20 (1, RAct.step)
    ++ [(2, .call .deq)] ++ List.replicate 7 (2, RAct.step)
    ++ List.replicate 20 (0, RAct.step)

/-! ### Versions of the snapshots -/

/-- The program points of `blockTheTail` after `atomic_fetch_add(&counter, 1)`. -/
def RPc.inBlock : RPc → Bool
  | .check | .setCounter | .loadTail | .loadNext | .recheck | .setTail | .block
  | .ownLoadHead | .ownCasHead | .unblock | .inspectCounter | .inspectHead | .coop _ _
  | .copyLoadCounter | .copyStoreCounter | .copyLoadTail | .copyStoreTail | .copyLoadHead
  | .copyStoreHead | .helpTail => true
  | _ => false

/-- The program points of `sync` between a call of `blockTheTail` that has
returned true and the compare-and-swap on `data`. -/
def RPc.afterBlock : RPc → Bool
  | .durableStart | .durableLoop | .allocSnapshot | .install => true
  | _ => false

/-- The `counter` field of the marker at an address. -/
def RelaxedQueue.markerCounter (q : RelaxedQueue) (a : Nat) : Option Int :=
  (q.mem[a]?).bind fun n => n.invalid.map (·.counter)

/-- The action is an `atomic_fetch_add(&counter, 1)` that finds `counter` at
`INT_MAX`, so that `counter` wraps around. -/
def RSystem.wraps (s : RSystem) (t : Nat) (a : RAct) : Bool :=
  decide (a = .step ∧ (s.threads t).pc = .fetchAdd ∧ s.queue.counter = INT_MAX)

/-- In the run of the schedule from `s`, `counter` does not overflow. -/
def RSystem.noOverflow : List (Nat × RAct) → RSystem → Bool
  | [], _ => true
  | (t, a) :: rest, s =>
    !s.wraps t a &&
      match s.step t a with
      | .ok s1 => RSystem.noOverflow rest s1
      | .error _ => true

/-- The queue `q1` has the `counter`, the snapshots and the `data` of `q`, and
each of its markers has the version that it has in `q`, or a version that
satisfies `extra`. -/
def RelaxedQueue.SameVersions (q q1 : RelaxedQueue) (extra : Int → Prop) : Prop :=
  q1.counter = q.counter ∧ q1.snaps = q.snaps ∧ q1.data = q.data ∧
    ∀ (a : Nat) (c : Int), q1.markerCounter a = some c → q.markerCounter a = some c ∨ extra c

/-- What the local variables of a thread know about the versions: the snapshot
that `blockTheTail` has loaded from `data` is older than the value fetched from
`counter`, which is below `counter`. -/
def TVer (q : RelaxedQueue) (th : RThread) : Prop :=
  (th.pc = .fetchAdd ∨ th.pc.inBlock = true → th.blockData < q.snaps.length) ∧
  (th.pc.inBlock = true →
    (∀ cd, q.snaps[th.blockData]? = some cd → cd.counter < th.currentCounter) ∧
      0 ≤ th.currentCounter ∧ th.currentCounter < q.counter) ∧
  (th.pc = .copyStoreCounter → th.seenCounter < q.counter) ∧
  (th.pc.afterBlock = true → 1 ≤ q.counter) ∧
  (th.pc = .install → th.potential < q.snaps.length)

/-- Invariant of the versions: every snapshot is older than `counter`, and so is
every marker that has been given a version. -/
structure Versions (s : RSystem) : Prop where
  pos : 0 ≤ s.queue.counter
  top : s.queue.counter ≤ INT_MAX
  data : s.queue.data < s.queue.snaps.length
  snaps : ∀ (i : Nat) (cd : RelaxedQueue.LastNVMData), s.queue.snaps[i]? = some cd →
    cd.counter < s.queue.counter
  markers : ∀ (a : Nat) (c : Int), s.queue.markerCounter a = some c →
    c < s.queue.counter ∨ c = 0
  threads : ∀ t, TVer s.queue (s.threads t)

/-! ### The list of the regular nodes

A marker is linked behind the last node of the list and removed again, so the
list of the regular nodes is the list of the Michael-Scott queue: to see it, a
`next` pointer to a marker is read as null.  A thread inside `sync` then is a
thread that holds a node which it never links: its marker. -/

namespace RelaxedQueue

/-- The object at address `a` is an `Invalid`. -/
def isMarker (q : RelaxedQueue) (a : Nat) : Bool :=
  match q.mem[a]? with
  | some n => n.invalid.isSome
  | none => false

/-- A `next` pointer as the list of the regular nodes has it: a pointer to a
marker counts as null. -/
def hide (q : RelaxedQueue) : Option Nat → Option Nat
  | some a => if q.isMarker a then none else some a
  | none => none

/-- The heap as the list of the regular nodes has it. -/
def regularMem (q : RelaxedQueue) : List GNode :=
  q.mem.map fun n => ⟨n.value, q.hide n.next, false⟩

end RelaxedQueue

/-- The program points of `sync` at which the thread has allocated its marker
and has not reached `return`. -/
def RPc.inSync : RPc → Bool
  | .loadData | .blockLoadData | .fetchAdd | .check | .setCounter | .loadTail | .loadNext
  | .recheck | .setTail | .block | .ownLoadHead | .ownCasHead | .unblock | .inspectCounter
  | .inspectHead | .coop _ _ | .copyLoadCounter | .copyStoreCounter | .copyLoadTail
  | .copyStoreTail | .copyLoadHead | .copyStoreHead | .helpTail | .durableStart
  | .durableLoop | .allocSnapshot | .install => true
  | _ => false

/-- The program point of the scheme that a program point stands for.  The loop
of `blockTheTail` reads `tail` and `next` as the loop of `enq` does; the other
points of `sync`, and the cooperation with a marker, stand for the point at
which a thread holds a node and is about to read `tail`. -/
def RPc.toG : RPc → GPc
  | .idle => .idle
  | .enqNew => .eAlloc
  | .enqLoadTail => .eReadTail
  | .enqLoadNext => .eReadNext
  | .enqCheck => .eCheck
  | .enqCasNext => .eLink
  | .enqCasTail => .eSwing
  | .enqCoop _ => .eReadTail
  | .enqHelp => .eHelp
  | .enqReturn => .eRet
  | .deqLoadHead => .dReadHead
  | .deqLoadTail => .dReadTail
  | .deqLoadNext => .dReadNext
  | .deqCheck => .dCheck
  | .deqCoop _ => .dRetEmpty
  | .deqHelp => .dHelpTail
  | .deqLoadValue => .dReadValue
  | .deqCasHead => .dTake
  | .deqReturnEmpty => .dRetEmpty
  | .deqReturnValue => .dRetVal
  | .allocMarker => .eAlloc
  | .syncReturn => .eRet
  | .loadNext => .eReadNext
  | .recheck => .eCheck
  | .setTail => .eLink
  | .block => .eLink
  | .helpTail => .eHelp
  | _ => .eReadTail

/-- The program points that execute a compare-and-swap which expects the null
pointer that the thread has read into `next`. -/
def RPc.blank : RPc → Bool
  | .enqCasNext | .setTail | .block => true
  | _ => false

/-- The program points at which `next` is known to point at a marker: the
cooperation with that marker, and the test that precedes it in `blockTheTail`. -/
def RPc.helping : RPc → Bool
  | .enqCoop _ | .deqCoop _ | .coop _ _ | .inspectCounter | .inspectHead => true
  | _ => false

/-- The thread of the scheme that a thread stands for: inside `sync` the node
that it holds is its marker. -/
def RThread.toG (q : RelaxedQueue) (th : RThread) : GThread :=
  ⟨th.pc.toG, if th.pc.inSync then 0 else th.arg, if th.pc.inSync then th.invalid else th.node,
    th.first, th.last, q.hide th.next, th.value⟩

/-- The state of the scheme that a system stands for. -/
def RSystem.regular (s : RSystem) : GState :=
  ⟨s.queue.regularMem, s.queue.head, s.queue.tail, fun t => (s.threads t).toG s.queue, []⟩

/-- What the local variables of a thread know about markers. -/
def RThread.Ok (q : RelaxedQueue) (th : RThread) : Prop :=
  (∀ x, th.next = some x → x < q.mem.length) ∧
  (th.pc.inSync = true → q.isMarker th.invalid = true) ∧
  (th.pc.toG.holds = true → th.pc.inSync = false →
    th.node < q.mem.length ∧ q.isMarker th.node = false) ∧
  (th.pc.blank = true → th.next = none) ∧
  (th.pc.helping = true → ∃ n, th.next = some n ∧ q.isMarker n = true)

/-- Markers in the heap: every `next` pointer is allocated, a marker has no
successor, and a marker is linked behind `tail` only. -/
structure QStruct (q : RelaxedQueue) : Prop where
  valid : ∀ (a : Nat) (n : RelaxedQueue.Node) (x : Nat), q.mem[a]? = some n → n.next = some x →
    x < q.mem.length
  marker : ∀ (a : Nat) (n : RelaxedQueue.Node), q.mem[a]? = some n → n.invalid.isSome = true →
    n.next = none ∧ n.value = 0
  atTail : ∀ (a m : Nat), q.nxt a = some m → q.isMarker m = true → a = q.tail

/-- Markers and the list `chain` of the linked regular nodes. -/
structure RStruct (s : RSystem) (chain : List Nat) : Prop where
  queue : QStruct s.queue
  regular : ∀ a ∈ chain, s.queue.isMarker a = false
  threads : ∀ t, (s.threads t).Ok s.queue

/-- Invariant of the interleaved executions: the regular nodes form the list of
the scheme, and a marker is linked behind `tail` only. -/
def RInv (s : RSystem) : Prop :=
  ∃ chain hi ti, GStruct false false s.regular chain hi ti ∧ RStruct s chain

/-- The queue `q1` has the list of regular nodes, the markers, `head` and
`tail` of `q`. -/
def RelaxedQueue.Shape (q q1 : RelaxedQueue) : Prop :=
  q1.mem.length = q.mem.length ∧ (∀ a, q1.isMarker a = q.isMarker a) ∧
    q1.regularMem = q.regularMem ∧ q1.head = q.head ∧ q1.tail = q.tail

/-! ## Durable queue: claims of nodes in interleaved executions -/

namespace DurableQueue

/-- The program points of `deq`. -/
def Pc.inDeq : Pc → Bool
  | .idle | .enqNew | .enqLoadTail | .enqLoadNext | .enqCheck | .enqCasNext | .enqCasTail
  | .enqHelp | .enqReturn => false
  | _ => true

/-- The claim that an action of thread `t` makes in state `s`: the address of
the node and the thread id written, when the action executes
`next->threadID.compare_exchange_strong(valid, threadID)` of `deq` and the node
holds `-1`; nothing for every other action. -/
def claimOf (s : QSystem DurableQueue Pc) (t : Nat) : Act → List (Nat × Int)
  | .call _ => []
  | .step =>
    match (s.threads t).pc, (s.threads t).next with
    | .deqCasThreadID, some nx =>
      if s.queue.tid nx = some (-1) then [(nx, (s.threads t).threadID)] else []
    | _, _ => []

/-- The claims made along a schedule that starts in `s`, in the order in which
they are made. -/
def claimsOf : List (Nat × Act) → QSystem DurableQueue Pc → List (Nat × Int)
  | [], _ => []
  | (t, a) :: rest, s =>
    match step s t a with
    | .error _ => []
    | .ok s1 => claimOf s t a ++ claimsOf rest s1

/-- What one action of thread `t`, leading from `s` to `s1`, does to the
`threadID` stored at address `a`: it leaves it as it is; or the action is the
allocation `new NodeWithID(value)` of `enq`, the address was absent and now
holds `-1`; or the action is the compare-and-swap of `deq` on the node `next`
at this address, which held `-1` and now holds the thread id of the call, a
value other than `-1`. -/
def TidAct (s s1 : QSystem DurableQueue Pc) (t : Nat) (a : Nat) : Prop :=
  s1.queue.tid a = s.queue.tid a ∨
  (s.queue.tid a = none ∧ s1.queue.tid a = some (-1) ∧ (s.threads t).pc = .enqNew) ∨
  (s.queue.tid a = some (-1) ∧ s1.queue.tid a = some (s.threads t).threadID ∧
    (s.threads t).threadID ≠ -1 ∧ (s.threads t).pc = .deqCasThreadID ∧
    (s.threads t).next = some a)

end DurableQueue

/-- A schedule in which two calls of `deq` reach the same node: thread 0 runs
`enq(7)` to its end; thread 1 invokes `deq` with thread id 1 and thread 2
invokes `deq` with thread id 2, and each runs up to the compare-and-swap on
`next->threadID` of the node that holds 7. -/
def DurableQueue.raceSchedule : List (Nat × Act) :=
  [(0, .call (.enq 7 0 0))] ++ List.replicate 7 (0, .step) ++
    [(1, .call (.deq 1 0))] ++ List.replicate 7 (1, .step) ++
    [(2, .call (.deq 2 0))] ++ List.replicate 7 (2, .step)

/-- After `raceSchedule`, thread 2 and then thread 1 execute the
compare-and-swap. -/
def DurableQueue.contendSchedule : List (Nat × Act) :=
  DurableQueue.raceSchedule ++ [(2, .step), (1, .step)]

/-- Thread 2 and thread 1 run their calls to the end. -/
def DurableQueue.finishSchedule : List (Nat × Act) :=
  List.replicate 3 (2, .step) ++ List.replicate 8 (1, .step)

/-! ### The tails that `sync` samples

The `next` pointers to regular nodes are never changed once they are set, and
`tail` moves along them.  Every tail that a marker or a snapshot records
therefore reaches, along these pointers, every tail that is sampled later. -/

namespace RelaxedQueue

/-- The `tail` field of the marker at an address. -/
def markerTail (q : RelaxedQueue) (a : Nat) : Option Nat :=
  (q.mem[a]?).bind fun n => n.invalid.bind (·.tail)

/-- The `NVMTail` field of the snapshot at an address. -/
def snapTail (q : RelaxedQueue) (i : Nat) : Option Nat :=
  (q.snaps[i]?).bind (·.NVMTail)

/-- Address `y` is reached from `x` along `next` pointers to regular nodes. -/
def Up (q : RelaxedQueue) (x y : Nat) : Prop :=
  Reachable (GState.nxtAt q.regularMem) x y

/-- The queue `q1` extends `q`: the objects of `q` keep their class, the `next`
pointers to regular nodes and the snapshots of `q` are kept, `tail` has moved
along `next` pointers, and the `tail` field of a marker has moved along `next`
pointers. -/
structure Grows (q q1 : RelaxedQueue) : Prop where
  marker : ∀ a, a < q.mem.length → q1.isMarker a = q.isMarker a
  link : ∀ a b, GState.nxtAt q.regularMem a = some b → GState.nxtAt q1.regularMem a = some b
  tail : q1.Up q.tail q1.tail
  snaps : ∀ i, i < q.snaps.length → q1.snaps[i]? = q.snaps[i]?
  markers : ∀ m y0, q.markerTail m = some y0 → ∃ y, q1.markerTail m = some y ∧ q1.Up y0 y

end RelaxedQueue

/-- The program points of `sync` at which `currData` holds a snapshot that was
loaded from `data`. -/
def RPc.loaded : RPc → Bool
  | .blockLoadData | .fetchAdd | .check | .setCounter | .loadTail | .loadNext | .recheck
  | .setTail | .block | .ownLoadHead | .ownCasHead | .unblock | .inspectCounter
  | .inspectHead | .coop _ _ | .copyLoadCounter | .copyStoreCounter | .copyLoadTail
  | .copyStoreTail | .copyLoadHead | .copyStoreHead | .helpTail | .durableStart
  | .durableLoop | .allocSnapshot | .install => true
  | _ => false

/-- The program points of `blockTheTail` at which `last` holds the tail that
the current round of the loop has read. -/
def RPc.ranged : RPc → Bool
  | .loadNext | .recheck | .setTail | .block | .ownLoadHead | .ownCasHead | .unblock
  | .inspectCounter | .inspectHead | .coop _ _ | .copyLoadCounter | .copyStoreCounter
  | .copyLoadTail | .copyStoreTail => true
  | _ => false

/-- The program points of `blockTheTail` after `invalid->tail = last`. -/
def RPc.owning : RPc → Bool
  | .block | .ownLoadHead | .ownCasHead | .unblock => true
  | _ => false

/-- The program points of `blockTheTail` between the compare-and-swap that links
the marker of the thread and the compare-and-swap that removes it. -/
def RPc.linking : RPc → Bool
  | .ownLoadHead | .ownCasHead | .unblock => true
  | _ => false

/-- The program points of `blockTheTail` at which `next` holds a marker of
another thread whose `tail` field is still to be read. -/
def RPc.watching : RPc → Bool
  | .inspectCounter | .inspectHead | .coop _ _ | .copyLoadCounter | .copyStoreCounter
  | .copyLoadTail => true
  | _ => false

/-- The program points of `sync` at which the marker of the thread holds the
tail of the round: after `blockTheTail` has written it and before the snapshot
is allocated. -/
def RPc.sampled : RPc → Bool
  | .copyLoadHead | .copyStoreHead | .durableStart | .durableLoop | .allocSnapshot => true
  | _ => false

/-- What the local variables of a thread inside `sync` know about tails. -/
structure TTail (q : RelaxedQueue) (th : RThread) : Prop where
  loaded : th.pc.loaded = true → th.currData < q.snaps.length
  last : th.pc.ranged = true → q.Up th.last q.tail
  snap : th.pc.ranged = true → ∀ a, q.snapTail th.currData = some a → q.Up a th.last
  own : th.pc.ranged = true → ∀ y, q.markerTail th.invalid = some y → q.Up y th.last
  owning : th.pc.owning = true → q.markerTail th.invalid = some th.last
  recheck : th.pc = .recheck → ∀ n, th.next = some n → q.isMarker n = true →
    ∃ y, q.markerTail n = some y ∧ q.Up th.last y
  watching : th.pc.watching = true →
    ∃ n y, th.next = some n ∧ q.markerTail n = some y ∧ q.Up th.last y
  seen : th.pc = .copyStoreTail → ∃ y, th.seenTail = some y ∧ q.Up th.last y ∧ q.Up y q.tail
  sampled : th.pc.sampled = true →
    ∃ a y, q.snapTail th.currData = some a ∧ q.markerTail th.invalid = some y ∧ q.Up a y
  install : th.pc = .install →
    ∃ a b, q.snapTail th.currData = some a ∧ q.snapTail th.potential = some b ∧ q.Up a b

/-- Invariant of the sampled tails: the tail of every snapshot and of every
marker reaches `tail`; a marker that is linked belongs to a thread that stands
between the compare-and-swap that linked it and the one that removes it. -/
structure Tails (s : RSystem) : Prop where
  data : s.queue.data < s.queue.snaps.length
  snaps : ∀ i, i < s.queue.snaps.length →
    ∃ a, s.queue.snapTail i = some a ∧ s.queue.Up a s.queue.tail
  markers : ∀ m y, s.queue.markerTail m = some y → s.queue.Up y s.queue.tail
  linked : ∀ a m, s.queue.nxt a = some m → s.queue.isMarker m = true →
    ∃ u, (s.threads u).pc.linking = true ∧ (s.threads u).invalid = m ∧
      (s.threads u).last = a
  threads : ∀ t, TTail s.queue (s.threads t)

/-- What the sampled tails use of the list of the regular nodes: the markers of
two threads inside `sync` differ, and a compare-and-swap on `tail` that
succeeds moves `tail` along a `next` pointer to a regular node. -/
structure RFacts (s : RSystem) : Prop where
  ok : ∀ u, (s.threads u).Ok s.queue
  queue : QStruct s.queue
  distinct : ∀ u v, u ≠ v → (s.threads u).pc.inSync = true →
    (s.threads v).pc.inSync = true → (s.threads u).invalid ≠ (s.threads v).invalid
  swing : ∀ u, (s.threads u).pc = .enqCasTail →
    GState.nxtAt s.queue.regularMem (s.threads u).last = some (s.threads u).node
  help : ∀ u x, (s.threads u).pc = .enqHelp ∨ (s.threads u).pc = .deqHelp ∨
      (s.threads u).pc = .helpTail → (s.threads u).next = some x →
    GState.nxtAt s.queue.regularMem (s.threads u).last = some x

/-- Thread 0 runs `enq(1)` to its end, then thread 1 runs `sync` to its end. -/
def syncOnceSchedule : List (Nat × RAct) :=
  [(0, .call (.enq 1))] ++ List.replicate 7 (0, .step) ++
    [(1, .call (.sync 1))] ++ List.replicate 20 (1, .step)

/-- Thread 0 calls `enq(2)`, thread 2 calls `enq(3)` and thread 1 calls `sync`
again.  Thread 1 runs up to the first access of `blockTheTail` to `tail`; the
two calls of `enq` then run in turns, until the node of thread 0 and the node of
thread 2 are linked and thread 2 is about to move `tail`; thread 1 then runs
`sync` to its end, moving `tail` on the way. -/
def syncAgainSchedule : List (Nat × RAct) :=
  [(0, .call (.enq 2)), (2, .call (.enq 3)), (1, .call (.sync 1))] ++
    List.replicate 6 (1, .step) ++
    (List.replicate 9 [(0, RAct.step), (2, RAct.step)]).flatten ++
    List.replicate 22 (1, .step)
/-! ## Lemmas on chains -/

theorem chainLast_mem (a : Nat) (l : List Nat) : chainLast a l ∈ a :: l := by
  induction l generalizing a with
  | nil => simp [chainLast]
  | cons b l ih =>
    simp only [chainLast]
    exact List.mem_cons_of_mem _ (ih b)

theorem chainLast_snoc (a n : Nat) (l : List Nat) : chainLast a (l ++ [n]) = n := by
  induction l generalizing a with
  | nil => simp [chainLast]
  | cons b l ih => simpa [chainLast] using ih b

theorem Linked.last_none {nx : Nat → Option Nat} {a : Nat} {l : List Nat}
    (h : Linked nx a l) : nx (chainLast a l) = none := by
  induction l generalizing a with
  | nil => simpa [Linked, chainLast] using h
  | cons b l ih => exact ih h.2

theorem Linked.congr {nx nx' : Nat → Option Nat} {a : Nat} {l : List Nat}
    (h : Linked nx a l) (hf : ∀ x ∈ a :: l, nx' x = nx x) : Linked nx' a l := by
  induction l generalizing a with
  | nil =>
    simp only [Linked] at h ⊢
    rw [hf a (by simp), h]
  | cons b l ih =>
    refine ⟨?_, ih h.2 ?_⟩
    · rw [hf a (by simp), h.1]
    · intro x hx
      exact hf x (List.mem_cons_of_mem _ hx)

theorem Linked.snoc_link {nx nx' : Nat → Option Nat} {a n : Nat} {l : List Nat}
    (h : Linked nx a l) (h1 : nx' (chainLast a l) = some n) (h2 : nx' n = none)
    (hf : ∀ x ∈ a :: l, x ≠ chainLast a l → nx' x = nx x) : Linked nx' a (l ++ [n]) := by
  induction l generalizing a with
  | nil =>
    simp only [chainLast] at h1
    exact ⟨h1, h2⟩
  | cons b l ih =>
    have hne : a ≠ chainLast a (b :: l) := by
      intro e
      have := h.last_none
      rw [← e, h.1] at this
      cases this
    refine ⟨?_, ih h.2 h1 ?_⟩
    · rw [hf a (by simp) hne, h.1]
    · intro x hx hxl
      exact hf x (List.mem_cons_of_mem _ hx) hxl

theorem Chain.snoc_chain {nx nx' : Nat → Option Nat} {val val' : Nat → Option Int}
    {len head tail : Nat} {post : List Nat} {pend : List Int} {v : Int}
    (h : Chain nx val len head tail post pend)
    (h1 : nx' tail = some len) (h2 : nx' len = none)
    (hf : ∀ x, x < len → x ≠ tail → nx' x = nx x)
    (hv : val' len = some v) (hvf : ∀ x, x < len → val' x = val x) :
    Chain nx' val' (len + 1) head len (post ++ [len]) (pend ++ [v]) := by
  refine ⟨?_, ?_, ?_, ?_, ?_⟩
  · refine h.linked.snoc_link (by rw [h.last]; exact h1) h2 ?_
    intro x hx hxl
    rw [h.last] at hxl
    exact hf x (h.bound x hx) hxl
  · intro a ha
    rw [← List.cons_append, List.mem_append] at ha
    rcases ha with ha | ha
    · exact Nat.lt_succ_of_lt (h.bound a ha)
    · simp at ha; omega
  · rw [← List.cons_append]
    refine List.Nodup.append h.nodup (List.nodup_singleton _) ?_
    intro a ha hb
    simp at hb
    have := h.bound a ha
    omega
  · exact chainLast_snoc _ _ _
  · simp only [List.map_append, List.map_cons, List.map_nil, hv]
    congr 1
    rw [← h.vals]
    apply List.map_congr_left
    intro a ha
    exact hvf a (h.bound a (List.mem_cons_of_mem _ ha))

theorem Chain.frame {nx nx' : Nat → Option Nat} {val val' : Nat → Option Int}
    {len len' head tail : Nat} {post : List Nat} {pend : List Int}
    (h : Chain nx val len head tail post pend) (hlen : len ≤ len')
    (hf : ∀ x, x < len → nx' x = nx x) (hvf : ∀ x, x < len → val' x = val x) :
    Chain nx' val' len' head tail post pend := by
  refine ⟨h.linked.congr fun x hx => hf x (h.bound x hx), ?_, h.nodup, h.last, ?_⟩
  · intro a ha
    exact lt_of_lt_of_le (h.bound a ha) hlen
  · rw [← h.vals]
    apply List.map_congr_left
    intro a ha
    exact hvf a (h.bound a (List.mem_cons_of_mem _ ha))

theorem Chain.nil_inv {nx : Nat → Option Nat} {val : Nat → Option Int}
    {len head tail : Nat} {pend : List Int}
    (h : Chain nx val len head tail [] pend) : nx head = none ∧ head = tail ∧ pend = [] := by
  refine ⟨h.linked, h.last, ?_⟩
  have := h.vals
  simpa using this.symm

theorem Chain.cons_inv {nx : Nat → Option Nat} {val : Nat → Option Int}
    {len head tail b : Nat} {post : List Nat} {pend : List Int}
    (h : Chain nx val len head tail (b :: post) pend) :
    nx head = some b ∧ head ≠ tail ∧ b < len ∧ b ∉ post ∧
      ∃ v pend', pend = v :: pend' ∧ val b = some v ∧ Chain nx val len b tail post pend' := by
  have hne : head ≠ tail := by
    intro e
    have := h.linked.last_none
    rw [h.last, ← e, h.linked.1] at this
    cases this
  have hb : b < len := h.bound b (by simp)
  have hnd : (b :: post).Nodup := (List.nodup_cons.1 h.nodup).2
  refine ⟨h.linked.1, hne, hb, (List.nodup_cons.1 hnd).1, ?_⟩
  have hv := h.vals
  cases pend with
  | nil => simp at hv
  | cons v pend' =>
    simp only [List.map_cons, List.cons.injEq] at hv
    refine ⟨v, pend', rfl, hv.1, h.linked.2, ?_, hnd, h.last, hv.2⟩
    intro a ha
    exact h.bound a (List.mem_cons_of_mem _ ha)

/-! ## Lemmas on heaps -/

theorem heap_set_self {α : Type} (l : List α) (t : Nat) (y : α) (ht : t < l.length) :
    (l.set t y)[t]? = some y := by
  rw [List.getElem?_set]
  simp [ht]

theorem heap_set_other {α : Type} (l : List α) (t a : Nat) (y : α) (h : a ≠ t) :
    (l.set t y)[a]? = l[a]? := by
  rw [List.getElem?_set]
  simp [Ne.symm h]

theorem heap_push_old {α : Type} (l : List α) (a : Nat) (x : α) (h : a < l.length) :
    (l ++ [x])[a]? = l[a]? :=
  List.getElem?_append_left h

theorem heap_push_new {α : Type} (l : List α) (x : α) : (l ++ [x])[l.length]? = some x := by
  simp

theorem heap_get {α : Type} (l : List α) (a : Nat) (h : a < l.length) :
    ∃ x, l[a]? = some x :=
  ⟨_, List.getElem?_eq_getElem h⟩

theorem heap_lt {α : Type} {l : List α} {a : Nat} {x : α} (h : l[a]? = some x) :
    a < l.length := by
  by_contra hc
  rw [List.getElem?_eq_none (by omega)] at h
  cases h

theorem heap_set_push_self {α : Type} (l : List α) (t : Nat) (x y : α) (ht : t < l.length) :
    (l.set t x ++ [y])[t]? = some x := by
  rw [List.getElem?_append_left (by simpa using ht)]
  exact heap_set_self l t x ht

theorem heap_set_same {α : Type} (l : List α) (t : Nat) (x : α) (h : l[t]? = some x) :
    l.set t x = l := by
  apply List.ext_getElem?
  intro a
  by_cases ha : a = t
  · subst ha
    rw [heap_set_self l a x (heap_lt h), h]
  · rw [heap_set_other l t a x ha]

/-! ## Volatile queue -/

theorem Chain.tail_lt {nx : Nat → Option Nat} {val : Nat → Option Int}
    {len head tail : Nat} {post : List Nat} {pend : List Int}
    (h : Chain nx val len head tail post pend) : tail < len :=
  h.bound tail (h.last ▸ chainLast_mem head post)

theorem Chain.tail_none {nx : Nat → Option Nat} {val : Nat → Option Int}
    {len head tail : Nat} {post : List Nat} {pend : List Int}
    (h : Chain nx val len head tail post pend) : nx tail = none :=
  h.last ▸ h.linked.last_none

theorem MSQueue.ms_new_abs : MSQueue.new.Abs [] [] :=
  ⟨rfl, by simp [MSQueue.new], by simp, rfl, rfl⟩

theorem MSQueue.ms_enq_eval {q : MSQueue} {n : MSQueue.Node} (fuel : Nat) (v : Int)
    (hn1 : q.mem[q.tail]? = some n) (hn2 : n.next = none) :
    q.enq (fuel + 1) v = .ok ⟨(q.mem ++ [MSQueue.Node.mk v none]).set q.tail { n with next := some q.mem.length },
      q.head, q.mem.length⟩ := by
  have ht : q.tail < q.mem.length := by
    by_contra hc
    rw [List.getElem?_eq_none (by omega)] at hn1
    cases hn1
  simp [MSQueue.enq, MSQueue.enqLoop, MSQueue.load, MSQueue.casNext, MSQueue.casTail,
      List.getElem?_append_left ht, hn1, hn2]

theorem MSQueue.ms_enq_abs {q : MSQueue} {post : List Nat} {pend : List Int}
    (h : q.Abs post pend) (fuel : Nat) (v : Int) :
    ∃ q', q.enq (fuel + 1) v = .ok q' ∧ q'.Abs (post ++ [q.mem.length]) (pend ++ [v]) := by
  have ht : q.tail < q.mem.length := h.tail_lt
  have hn : q.nxt q.tail = none := h.tail_none
  obtain ⟨n, hn1⟩ : ∃ n, q.mem[q.tail]? = some n := ⟨_, List.getElem?_eq_getElem ht⟩
  have hn2 : n.next = none := by simpa [MSQueue.nxt, hn1] using hn
  refine ⟨_, MSQueue.ms_enq_eval fuel v hn1 hn2, ?_⟩
  have hlen : ((q.mem ++ [MSQueue.Node.mk v none]).set q.tail { n with next := some q.mem.length }).length
      = q.mem.length + 1 := by simp
  unfold MSQueue.Abs
  rw [hlen]
  have ht' : q.tail < (q.mem ++ [MSQueue.Node.mk v none]).length := by simp; omega
  refine Chain.snoc_chain h ?_ ?_ ?_ ?_ ?_
  · simp only [MSQueue.nxt, heap_set_self _ _ _ ht', Option.bind]
  · simp only [MSQueue.nxt, heap_set_other _ _ _ _ (Nat.ne_of_gt ht), heap_push_new, Option.bind]
  · intro x hx hxt
    simp only [MSQueue.nxt, heap_set_other _ _ _ _ hxt, heap_push_old _ _ _ hx]
  · simp only [MSQueue.val, heap_set_other _ _ _ _ (Nat.ne_of_gt ht), heap_push_new, Option.map]
  · intro x hx
    by_cases hxt : x = q.tail
    · subst hxt
      simp only [MSQueue.val, heap_set_self _ _ _ ht', hn1, Option.map]
    · simp only [MSQueue.val, heap_set_other _ _ _ _ hxt, heap_push_old _ _ _ hx]

theorem MSQueue.ms_deq_abs_nil {q : MSQueue} {pend : List Int}
    (h : q.Abs [] pend) (fuel : Nat) : q.deq (fuel + 1) = .ok (INT_MIN, q) ∧ pend = [] := by
  obtain ⟨h1, h2, h3⟩ := h.nil_inv
  obtain ⟨n, hn⟩ := heap_get q.mem q.head (h.bound _ (by simp))
  have hn2 : n.next = none := by simpa [MSQueue.nxt, hn] using h1
  refine ⟨?_, h3⟩
  rw [h2] at hn
  simp [MSQueue.deq, MSQueue.load, hn, hn2, h2]

theorem MSQueue.ms_deq_abs_cons {q : MSQueue} {b : Nat} {post : List Nat} {pend : List Int}
    (h : q.Abs (b :: post) pend) (fuel : Nat) :
    ∃ v pend', pend = v :: pend' ∧ q.deq (fuel + 1) = .ok (v, { q with head := b }) ∧
      MSQueue.Abs { q with head := b } post pend' := by
  obtain ⟨h1, h2, h3, -, v, pend', h4, h5, h6⟩ := h.cons_inv
  obtain ⟨n, hn⟩ := heap_get q.mem q.head (h.bound _ (by simp))
  obtain ⟨m, hm⟩ := heap_get q.mem b h3
  have hn2 : n.next = some b := by simpa [MSQueue.nxt, hn] using h1
  have hm2 : m.value = v := by simpa [MSQueue.val, hm] using h5
  refine ⟨v, pend', h4, ?_, h6⟩
  simp [MSQueue.deq, MSQueue.load, MSQueue.casHead, hn, hn2, h2, hm, hm2]

theorem MSQueue.ms_run_abs {q : MSQueue} {post : List Nat} {pend : List Int}
    (h : q.Abs post pend) (fuel : Nat) (ops : List MSOp) :
    ∃ q' post' pend', q.run (fuel + 1) ops = .ok ((fifoSpec pend ops).map sentinel, q') ∧
      q'.Abs post' pend' := by
  induction ops generalizing q post pend with
  | nil => exact ⟨q, post, pend, by simp [MSQueue.run, fifoSpec], h⟩
  | cons o ops ih =>
    cases o with
    | enq v =>
      obtain ⟨q1, e1, a1⟩ := MSQueue.ms_enq_abs h fuel v
      obtain ⟨q2, post2, pend2, e2, a2⟩ := ih a1
      exact ⟨q2, post2, pend2, by simp [MSQueue.run, e1, e2, fifoSpec], a2⟩
    | deq =>
      cases post with
      | nil =>
        obtain ⟨e1, rfl⟩ := MSQueue.ms_deq_abs_nil h fuel
        obtain ⟨q2, post2, pend2, e2, a2⟩ := ih h
        exact ⟨q2, post2, pend2, by simp [MSQueue.run, e1, e2, fifoSpec, sentinel], a2⟩
      | cons b post =>
        obtain ⟨v, pend1, rfl, e1, a1⟩ := MSQueue.ms_deq_abs_cons h fuel
        obtain ⟨q2, post2, pend2, e2, a2⟩ := ih a1
        exact ⟨q2, post2, pend2, by simp [MSQueue.run, e1, e2, fifoSpec, sentinel], a2⟩

/-! ## Durable queue -/

theorem slot_eq {t : Int} (h0 : 0 ≤ t) (h1 : t < MAX_THREADS) :
    slot t = .ok (t * PADDING).toNat := by
  unfold slot
  rw [if_pos]
  constructor
  · exact Int.mul_nonneg h0 (by decide)
  · exact Int.mul_lt_mul_of_pos_right h1 (by decide)

theorem DurableQueue.dq_new_abs : DurableQueue.new.Abs [] [] :=
  ⟨⟨rfl, by simp [DurableQueue.new], by simp, rfl, rfl⟩, by simp⟩

theorem DurableQueue.dq_enq_eval {q : DurableQueue} {n : DurableQueue.NodeWithID} (fuel : Nat)
    (v : Int) (hn1 : q.mem[q.tail]? = some n) (hn2 : n.next = none) :
    q.enq (fuel + 1) v = .ok
      { q with mem := (q.mem ++ [DurableQueue.NodeWithID.mk v none (-1)]).set q.tail
                        { n with next := some q.mem.length },
               tail := q.mem.length } := by
  have ht : q.tail < q.mem.length := heap_lt hn1
  simp [DurableQueue.enq, DurableQueue.enqLoop, DurableQueue.load, DurableQueue.casNext,
    DurableQueue.casTail, List.getElem?_append_left ht, hn1, hn2]

theorem DurableQueue.dq_enq_abs {q : DurableQueue} {post : List Nat} {pend : List Int}
    (h : q.Abs post pend) (fuel : Nat) (v : Int) :
    ∃ q', q.enq (fuel + 1) v = .ok q' ∧ q'.Abs (post ++ [q.mem.length]) (pend ++ [v]) := by
  have ht : q.tail < q.mem.length := h.1.tail_lt
  have hn : q.nxt q.tail = none := h.1.tail_none
  obtain ⟨n, hn1⟩ := heap_get q.mem q.tail ht
  have hn2 : n.next = none := by simpa [DurableQueue.nxt, hn1] using hn
  refine ⟨_, DurableQueue.dq_enq_eval fuel v hn1 hn2, ?_, ?_⟩
  · have hlen : ((q.mem ++ [DurableQueue.NodeWithID.mk v none (-1)]).set q.tail
        { n with next := some q.mem.length }).length = q.mem.length + 1 := by simp
    have ht' : q.tail < (q.mem ++ [DurableQueue.NodeWithID.mk v none (-1)]).length := by
      simp; omega
    show Chain _ _ _ _ _ _ _
    simp only [hlen]
    refine Chain.snoc_chain h.1 ?_ ?_ ?_ ?_ ?_
    · simp only [DurableQueue.nxt, heap_set_self _ _ _ ht', Option.bind]
    · simp only [DurableQueue.nxt, heap_set_other _ _ _ _ (Nat.ne_of_gt ht), heap_push_new,
        Option.bind]
    · intro x hx hxt
      simp only [DurableQueue.nxt, heap_set_other _ _ _ _ hxt, heap_push_old _ _ _ hx]
    · simp only [DurableQueue.val, heap_set_other _ _ _ _ (Nat.ne_of_gt ht), heap_push_new,
        Option.map]
    · intro x hx
      by_cases hxt : x = q.tail
      · subst hxt
        simp only [DurableQueue.val, heap_set_self _ _ _ ht', hn1, Option.map]
      · simp only [DurableQueue.val, heap_set_other _ _ _ _ hxt, heap_push_old _ _ _ hx]
  · intro a ha
    have ht' : q.tail < (q.mem ++ [DurableQueue.NodeWithID.mk v none (-1)]).length := by
      simp; omega
    rcases List.mem_append.1 ha with ha | ha
    · have hlt : a < q.mem.length := h.1.bound a (List.mem_cons_of_mem _ ha)
      by_cases hxt : a = q.tail
      · subst hxt
        have := h.2 _ ha
        simp only [hn1, Option.map, Option.some.injEq] at this
        simp only [heap_set_self _ _ _ ht', Option.map, this]
      · simp only [heap_set_other _ _ _ _ hxt, heap_push_old _ _ _ hlt]
        exact h.2 a ha
    · simp at ha
      subst ha
      simp only [heap_set_other _ _ _ _ (Nat.ne_of_gt ht), heap_push_new, Option.map]

theorem DurableQueue.dq_deq_eval_nil {q : DurableQueue} {pend : List Int} {t : Int}
    (h : q.Abs [] pend) (h0 : 0 ≤ t) (h1 : t < MAX_THREADS) (fuel : Nat) :
    q.deq (fuel + 1) t = .ok (INT_MIN,
      { q with cells := (q.cells ++ [INT_MAX]).set q.cells.length INT_MIN,
               removedValues :=
                 Function.update q.removedValues (t * PADDING).toNat (some q.cells.length) })
      ∧ pend = [] := by
  obtain ⟨h1', h2, h3⟩ := h.1.nil_inv
  obtain ⟨n, hn⟩ := heap_get q.mem q.head (h.1.bound _ (by simp))
  have hn2 : n.next = none := by simpa [DurableQueue.nxt, hn] using h1'
  refine ⟨?_, h3⟩
  rw [h2] at hn
  simp [DurableQueue.deq, DurableQueue.deqLoop, DurableQueue.load, DurableQueue.storeRemoved,
    DurableQueue.removedPtr, DurableQueue.storeAt, slot_eq h0 h1, hn, hn2, h2]

theorem DurableQueue.dq_deq_eval_cons {q : DurableQueue} {b : Nat} {post : List Nat}
    {pend : List Int} {t : Int} {m : DurableQueue.NodeWithID}
    (h : q.Abs (b :: post) pend) (hm : q.mem[b]? = some m)
    (h0 : 0 ≤ t) (h1 : t < MAX_THREADS) (fuel : Nat) :
    q.deq (fuel + 1) t = .ok (m.value,
      { mem := q.mem.set b { m with threadID := t },
        cells := (q.cells ++ [INT_MAX]).set q.cells.length m.value,
        removedValues :=
          Function.update q.removedValues (t * PADDING).toNat (some q.cells.length),
        head := b, tail := q.tail }) := by
  obtain ⟨h1', h2, h3, -, v, pend', h4, h5, h6⟩ := h.1.cons_inv
  obtain ⟨n, hn⟩ := heap_get q.mem q.head (h.1.bound _ (by simp))
  have hn2 : n.next = some b := by simpa [DurableQueue.nxt, hn] using h1'
  have hm3 : m.threadID = -1 := by simpa [hm] using h.2 b (by simp)
  simp [DurableQueue.deq, DurableQueue.deqLoop, DurableQueue.load, DurableQueue.storeRemoved,
    DurableQueue.removedPtr, DurableQueue.storeAt, DurableQueue.casThreadID,
    DurableQueue.casHead, slot_eq h0 h1, hn, hn2, h2, hm, hm3]

theorem fifoSpec_deq (pend : List Int) (ops : List MSOp) :
    fifoSpec pend (MSOp.deq :: ops) = pend.head? :: fifoSpec pend.tail ops := by
  cases pend <;> simp [fifoSpec]

theorem DurableQueue.dq_deq_spec {q : DurableQueue} {post : List Nat} {pend : List Int} {t : Int}
    (h : q.Abs post pend) (h0 : 0 ≤ t) (h1 : t < MAX_THREADS) (fuel : Nat) :
    ∃ q', q.deq (fuel + 1) t = .ok (sentinel pend.head?, q') ∧ q'.Abs post.tail pend.tail ∧
      ∃ c, q'.removedValues (t * PADDING).toNat = some c ∧
        q'.cells[c]? = some (sentinel pend.head?) := by
  cases post with
  | nil =>
    obtain ⟨e, rfl⟩ := DurableQueue.dq_deq_eval_nil h h0 h1 fuel
    refine ⟨_, e, ⟨h.1, h.2⟩, q.cells.length, by simp, ?_⟩
    simp [sentinel]
  | cons b post =>
    obtain ⟨h1', h2, h3, hb, v, pend', rfl, h5, h6⟩ := h.1.cons_inv
    obtain ⟨m, hm⟩ := heap_get q.mem b h3
    have hmv : m.value = v := by simpa [DurableQueue.val, hm] using h5
    have e := DurableQueue.dq_deq_eval_cons h hm h0 h1 fuel
    rw [hmv] at e
    refine ⟨_, e, ⟨?_, ?_⟩, q.cells.length, by simp, by simp [sentinel]⟩
    · show Chain _ _ _ _ _ _ _
      refine Chain.frame h6 (by simp) ?_ ?_
      · intro x _
        by_cases hx : x = b
        · subst hx
          simp [DurableQueue.nxt, heap_set_self _ _ _ h3, hm]
        · simp [DurableQueue.nxt, heap_set_other _ _ _ _ hx]
      · intro x _
        by_cases hx : x = b
        · subst hx
          simp [DurableQueue.val, heap_set_self _ _ _ h3, hm, hmv]
        · simp [DurableQueue.val, heap_set_other _ _ _ _ hx]
    · intro a ha
      have hab : a ≠ b := fun e => hb (e ▸ ha)
      simp only [List.tail_cons] at ha
      simp only [heap_set_other _ _ _ _ hab]
      exact h.2 a (List.mem_cons_of_mem _ ha)

theorem DurableQueue.dq_run_abs {q : DurableQueue} {post : List Nat} {pend : List Int}
    (h : q.Abs post pend) (fuel : Nat) (ops : List Call)
    (ht : ∀ c ∈ ops, 0 ≤ c.threadID ∧ c.threadID < MAX_THREADS) :
    ∃ q' post' pend', q.run (fuel + 1) ops
        = .ok ((fifoSpec pend (ops.map Call.toMS)).map sentinel, q') ∧
      q'.Abs post' pend' := by
  induction ops generalizing q post pend with
  | nil => exact ⟨q, post, pend, by simp [DurableQueue.run, fifoSpec], h⟩
  | cons o ops ih =>
    have ht' : ∀ c ∈ ops, 0 ≤ c.threadID ∧ c.threadID < MAX_THREADS :=
      fun c hc => ht c (List.mem_cons_of_mem _ hc)
    cases o with
    | enq v t n =>
      obtain ⟨q1, e1, a1⟩ := DurableQueue.dq_enq_abs h fuel v
      obtain ⟨q2, post2, pend2, e2, a2⟩ := ih a1 ht'
      exact ⟨q2, post2, pend2, by simp [DurableQueue.run, e1, e2, fifoSpec, Call.toMS], a2⟩
    | deq t n =>
      have hb : 0 ≤ t ∧ t < MAX_THREADS := ht (Call.deq t n) (by simp)
      obtain ⟨q1, e1, a1, -⟩ := DurableQueue.dq_deq_spec h hb.1 hb.2 fuel
      obtain ⟨q2, post2, pend2, e2, a2⟩ := ih a1 ht'
      exact ⟨q2, post2, pend2,
        by simp [DurableQueue.run, e1, e2, fifoSpec_deq, Call.toMS], a2⟩

/-! ## Detectable queue: normal operation -/

theorem slot_lt {t : Int} (h0 : 0 ≤ t) (h1 : t < MAX_THREADS) :
    (t * PADDING).toNat < MAX_THREADS * PADDING := by
  simp only [MAX_THREADS, PADDING] at *
  omega

theorem LogQueue.lq_new_abs : LogQueue.new.Abs [] [] :=
  ⟨⟨rfl, by simp [LogQueue.new], by simp, rfl, rfl⟩, by simp, by simp [LogQueue.new]⟩

theorem LogQueue.lq_enq_eval {q : LogQueue} {n : LogQueue.NodeWithLog} {f : Nat → Option Nat}
    {t : Int} (fuel : Nat) (v op : Int) (hn1 : q.mem[q.tail]? = some n) (hn2 : n.next = none)
    (hf : q.arrays[q.logs]? = some f) (h0 : 0 ≤ t) (h1 : t < MAX_THREADS) :
    q.enq (fuel + 1) v t op = .ok
      { mem := (q.mem ++ [LogQueue.NodeWithLog.mk v none (some q.entries.length) none]).set
                  q.tail { n with next := some q.mem.length },
        entries := q.entries ++ [LogQueue.LogEntry.mk op .insert false (some q.mem.length)],
        arrays := q.arrays.set q.logs
                    (Function.update f (t * PADDING).toNat (some q.entries.length)),
        logs := q.logs, head := q.head, tail := q.mem.length } := by
  have ht : q.tail < q.mem.length := heap_lt hn1
  simp [LogQueue.enq, LogQueue.createEnqLogAndNode, LogQueue.setLog, LogQueue.enqLoop,
    LogQueue.load, LogQueue.casNext, LogQueue.casTail, List.getElem?_append_left ht, hn1, hn2,
    hf, slot_eq h0 h1]

theorem LogQueue.lq_deq_eval_nil {q : LogQueue} {pend : List Int} {f : Nat → Option Nat} {t : Int}
    (h : q.Abs [] pend) (hf : q.arrays[q.logs]? = some f)
    (h0 : 0 ≤ t) (h1 : t < MAX_THREADS) (fuel : Nat) (op : Int) :
    q.deq (fuel + 1) t op = .ok (INT_MIN,
      { q with entries := q.entries ++ [LogQueue.LogEntry.mk op .remove true none],
               arrays := q.arrays.set q.logs
                    (Function.update f (t * PADDING).toNat (some q.entries.length)) })
      ∧ pend = [] := by
  obtain ⟨h1', h2, h3⟩ := h.1.nil_inv
  obtain ⟨n, hn⟩ := heap_get q.mem q.head (h.1.bound _ (by simp))
  have hn2 : n.next = none := by simpa [LogQueue.nxt, hn] using h1'
  have hl : q.logs < q.arrays.length := h.2.2
  refine ⟨?_, h3⟩
  rw [h2] at hn
  simp [LogQueue.deq, LogQueue.createDeqLog, LogQueue.setLog, LogQueue.deqLoop, LogQueue.load,
    LogQueue.logPtr, LogQueue.readArray, LogQueue.setStatus, slot_eq h0 h1, slot_lt h0 h1,
    hn, hn2, h2, hf, hl]

theorem LogQueue.lq_deq_eval_cons {q : LogQueue} {b : Nat} {post : List Nat}
    {pend : List Int} {f : Nat → Option Nat} {t : Int} {m : LogQueue.NodeWithLog}
    (h : q.Abs (b :: post) pend) (hm : q.mem[b]? = some m) (hf : q.arrays[q.logs]? = some f)
    (h0 : 0 ≤ t) (h1 : t < MAX_THREADS) (fuel : Nat) (op : Int) :
    q.deq (fuel + 1) t op = .ok (m.value,
      { mem := q.mem.set b { m with logDeq := some q.entries.length },
        entries := q.entries ++ [LogQueue.LogEntry.mk op .remove false (some b)],
        arrays := q.arrays.set q.logs
                    (Function.update f (t * PADDING).toNat (some q.entries.length)),
        logs := q.logs, head := b, tail := q.tail }) := by
  obtain ⟨h1', h2, h3, -, v, pend', h4, h5, h6⟩ := h.1.cons_inv
  obtain ⟨n, hn⟩ := heap_get q.mem q.head (h.1.bound _ (by simp))
  have hn2 : n.next = some b := by simpa [LogQueue.nxt, hn] using h1'
  have hm3 : m.logDeq = none := by simpa [hm] using h.2.1 b (by simp)
  simp [LogQueue.deq, LogQueue.createDeqLog, LogQueue.setLog, LogQueue.deqLoop, LogQueue.load,
    LogQueue.casLogDeq, LogQueue.setNode, LogQueue.casHead, slot_eq h0 h1,
    hn, hn2, h2, hm, hm3, hf, h3]

theorem LogQueue.lq_enq_abs {q : LogQueue} {post : List Nat} {pend : List Int} {t : Int}
    (h : q.Abs post pend) (h0 : 0 ≤ t) (h1 : t < MAX_THREADS) (fuel : Nat) (v op : Int) :
    ∃ q', q.enq (fuel + 1) v t op = .ok q' ∧ q'.Abs (post ++ [q.mem.length]) (pend ++ [v]) := by
  have ht : q.tail < q.mem.length := h.1.tail_lt
  have hn : q.nxt q.tail = none := h.1.tail_none
  obtain ⟨n, hn1⟩ := heap_get q.mem q.tail ht
  obtain ⟨f, hf⟩ := heap_get q.arrays q.logs h.2.2
  have hn2 : n.next = none := by simpa [LogQueue.nxt, hn1] using hn
  have ht' : q.tail <
      (q.mem ++ [LogQueue.NodeWithLog.mk v none (some q.entries.length) none]).length := by
    simp; omega
  refine ⟨_, LogQueue.lq_enq_eval fuel v op hn1 hn2 hf h0 h1, ?_, ?_, ?_⟩
  · have hlen : ((q.mem ++ [LogQueue.NodeWithLog.mk v none (some q.entries.length) none]).set
        q.tail { n with next := some q.mem.length }).length = q.mem.length + 1 := by simp
    show Chain _ _ _ _ _ _ _
    simp only [hlen]
    refine Chain.snoc_chain h.1 ?_ ?_ ?_ ?_ ?_
    · simp only [LogQueue.nxt, heap_set_self _ _ _ ht', Option.bind]
    · simp only [LogQueue.nxt, heap_set_other _ _ _ _ (Nat.ne_of_gt ht), heap_push_new,
        Option.bind]
    · intro x hx hxt
      simp only [LogQueue.nxt, heap_set_other _ _ _ _ hxt, heap_push_old _ _ _ hx]
    · simp only [LogQueue.val, heap_set_other _ _ _ _ (Nat.ne_of_gt ht), heap_push_new,
        Option.map]
    · intro x hx
      by_cases hxt : x = q.tail
      · subst hxt
        simp only [LogQueue.val, heap_set_self _ _ _ ht', hn1, Option.map]
      · simp only [LogQueue.val, heap_set_other _ _ _ _ hxt, heap_push_old _ _ _ hx]
  · intro a ha
    rcases List.mem_append.1 ha with ha | ha
    · have hlt : a < q.mem.length := h.1.bound a (List.mem_cons_of_mem _ ha)
      by_cases hxt : a = q.tail
      · subst hxt
        have := h.2.1 _ ha
        simp only [hn1, Option.map, Option.some.injEq] at this
        simp only [heap_set_self _ _ _ ht', Option.map, this]
      · simp only [heap_set_other _ _ _ _ hxt, heap_push_old _ _ _ hlt]
        exact h.2.1 a ha
    · simp at ha
      subst ha
      simp only [heap_set_other _ _ _ _ (Nat.ne_of_gt ht), heap_push_new, Option.map]
  · simpa using h.2.2

theorem LogQueue.lq_deq_spec {q : LogQueue} {post : List Nat} {pend : List Int} {t : Int}
    (h : q.Abs post pend) (h0 : 0 ≤ t) (h1 : t < MAX_THREADS) (fuel : Nat) (op : Int) :
    ∃ q', q.deq (fuel + 1) t op = .ok (sentinel pend.head?, q') ∧ q'.Abs post.tail pend.tail := by
  obtain ⟨f, hf⟩ := heap_get q.arrays q.logs h.2.2
  cases post with
  | nil =>
    obtain ⟨e, rfl⟩ := LogQueue.lq_deq_eval_nil h hf h0 h1 fuel op
    exact ⟨_, e, h.1, h.2.1, by simpa using h.2.2⟩
  | cons b post =>
    obtain ⟨h1', h2, h3, hb, v, pend', rfl, h5, h6⟩ := h.1.cons_inv
    obtain ⟨m, hm⟩ := heap_get q.mem b h3
    have hmv : m.value = v := by simpa [LogQueue.val, hm] using h5
    have e := LogQueue.lq_deq_eval_cons h hm hf h0 h1 fuel op
    rw [hmv] at e
    refine ⟨_, e, ?_, ?_, by simpa using h.2.2⟩
    · show Chain _ _ _ _ _ _ _
      refine Chain.frame h6 (by simp) ?_ ?_
      · intro x _
        by_cases hx : x = b
        · subst hx
          simp [LogQueue.nxt, heap_set_self _ _ _ h3, hm]
        · simp [LogQueue.nxt, heap_set_other _ _ _ _ hx]
      · intro x _
        by_cases hx : x = b
        · subst hx
          simp [LogQueue.val, heap_set_self _ _ _ h3, hm, hmv]
        · simp [LogQueue.val, heap_set_other _ _ _ _ hx]
    · intro a ha
      have hab : a ≠ b := fun e => hb (e ▸ ha)
      simp only [List.tail_cons] at ha
      simp only [heap_set_other _ _ _ _ hab]
      exact h.2.1 a (List.mem_cons_of_mem _ ha)

theorem LogQueue.lq_run_abs {q : LogQueue} {post : List Nat} {pend : List Int}
    (h : q.Abs post pend) (fuel : Nat) (ops : List Call)
    (ht : ∀ c ∈ ops, 0 ≤ c.threadID ∧ c.threadID < MAX_THREADS) :
    ∃ q' post' pend', q.run (fuel + 1) ops
        = .ok ((fifoSpec pend (ops.map Call.toMS)).map sentinel, q') ∧
      q'.Abs post' pend' := by
  induction ops generalizing q post pend with
  | nil => exact ⟨q, post, pend, by simp [LogQueue.run, fifoSpec], h⟩
  | cons o ops ih =>
    have ht' : ∀ c ∈ ops, 0 ≤ c.threadID ∧ c.threadID < MAX_THREADS :=
      fun c hc => ht c (List.mem_cons_of_mem _ hc)
    cases o with
    | enq v t n =>
      have hb : 0 ≤ t ∧ t < MAX_THREADS := ht (Call.enq v t n) (by simp)
      obtain ⟨q1, e1, a1⟩ := LogQueue.lq_enq_abs h hb.1 hb.2 fuel v n
      obtain ⟨q2, post2, pend2, e2, a2⟩ := ih a1 ht'
      exact ⟨q2, post2, pend2, by simp [LogQueue.run, e1, e2, fifoSpec, Call.toMS], a2⟩
    | deq t n =>
      have hb : 0 ≤ t ∧ t < MAX_THREADS := ht (Call.deq t n) (by simp)
      obtain ⟨q1, e1, a1⟩ := LogQueue.lq_deq_spec h hb.1 hb.2 fuel n
      obtain ⟨q2, post2, pend2, e2, a2⟩ := ih a1 ht'
      exact ⟨q2, post2, pend2,
        by simp [LogQueue.run, e1, e2, fifoSpec_deq, Call.toMS], a2⟩

/-! ## Buffered-Relaxed queue -/

theorem RelaxedQueue.rq_block_eval {q : RelaxedQueue} {n : RelaxedQueue.Node}
    {cd : RelaxedQueue.LastNVMData} (fuel : Nat)
    (hn1 : q.mem[q.tail]? = some n) (hn2 : n.next = none)
    (hcd : q.snaps[q.data]? = some cd) (hle : cd.counter ≤ q.counter) :
    RelaxedQueue.blockTheTail (fuel + 1) q.mem.length
        { q with mem := q.mem ++ [⟨0, none, some ⟨0, none, none⟩⟩] } = .ok (true,
      { q with mem := q.mem ++ [⟨0, none, some ⟨q.counter, some q.tail, some q.head⟩⟩],
               counter := wrapInt32 (q.counter + 1) }) := by
  have ht : q.tail < q.mem.length := heap_lt hn1
  have hne : q.mem.length ≠ q.tail := Nat.ne_of_gt ht
  simp [RelaxedQueue.blockTheTail, RelaxedQueue.blockLoop, RelaxedQueue.setInvalid,
    RelaxedQueue.load, RelaxedQueue.casNext, RelaxedQueue.casInvalidHead, hcd,
    not_lt.2 hle, List.getElem?_append_left ht, hn1, hn2, hne, List.getElem?_set, ht,
    heap_set_push_self _ _ _ _ ht]
  have hnn : ({ value := n.value, next := none, invalid := n.invalid } : RelaxedQueue.Node) = n := by
    cases n
    simp only [RelaxedQueue.Node.mk.injEq, true_and] at hn2 ⊢
    exact ⟨hn2.symm, trivial⟩
  rw [hnn, heap_set_same _ _ _ hn1]

theorem RelaxedQueue.rq_makeDurble_path {q : RelaxedQueue} {s t : Nat} {l : List Nat}
    (hp : Linked q.nxt s l) (hl : chainLast s l = t) (hb : ∀ a ∈ s :: l, a < q.mem.length)
    (fuel : Nat) (hf : l.length < fuel) :
    RelaxedQueue.makeDurbleLoop q (some t) fuel s = .ok l := by
  induction l generalizing s fuel with
  | nil =>
    obtain ⟨k, rfl⟩ : ∃ k, fuel = k + 1 := ⟨fuel - 1, by omega⟩
    simp only [chainLast] at hl
    simp [RelaxedQueue.makeDurbleLoop, hl]
  | cons b l ih =>
    obtain ⟨k, rfl⟩ : ∃ k, fuel = k + 1 := ⟨fuel - 1, by omega⟩
    have hne : s ≠ t := by
      intro e
      have := hp.last_none
      rw [hl, ← e, hp.1] at this
      cases this
    obtain ⟨m, hm⟩ := heap_get q.mem s (hb s (by simp))
    have hm2 : m.next = some b := by simpa [RelaxedQueue.nxt, hm] using hp.1
    have hrec := ih hp.2 hl (fun a ha => hb a (List.mem_cons_of_mem _ ha)) k
      (by simp at hf; omega)
    simp [RelaxedQueue.makeDurbleLoop, hne, RelaxedQueue.load, hm, hm2, hrec]

theorem RelaxedQueue.rq_sync_eval_ok {q : RelaxedQueue} {n : RelaxedQueue.Node}
    {cd : RelaxedQueue.LastNVMData} {s : Nat} {l : List Nat} (fuel : Nat) (t : Int)
    (hn1 : q.mem[q.tail]? = some n) (hn2 : n.next = none)
    (hcd : q.snaps[q.data]? = some cd) (hle : cd.counter ≤ q.counter)
    (hs : cd.NVMTail = some s) (hp : Linked q.nxt s l) (hl : chainLast s l = q.tail)
    (hb : ∀ a ∈ s :: l, a < q.mem.length) (hf : l.length ≤ fuel) :
    q.sync (fuel + 1) t = .ok (s :: l,
      { mem := q.mem ++ [⟨0, none, some ⟨q.counter, some q.tail, some q.head⟩⟩],
        snaps := q.snaps ++ [⟨some q.tail, some q.head, q.counter⟩],
        head := q.head, tail := q.tail, data := q.snaps.length,
        counter := wrapInt32 (q.counter + 1) }) := by
  have hd : q.data < q.snaps.length := heap_lt hcd
  have hwalk : RelaxedQueue.makeDurbleLoop
      { q with mem := q.mem ++ [⟨0, none, some ⟨q.counter, some q.tail, some q.head⟩⟩],
               counter := wrapInt32 (q.counter + 1) } (some q.tail) (fuel + 1) s = .ok l := by
    refine RelaxedQueue.rq_makeDurble_path (hp.congr ?_) hl ?_ (fuel + 1) (by omega)
    · intro x hx
      simp only [RelaxedQueue.nxt, heap_push_old _ _ _ (hb x hx)]
    · intro a ha
      have := hb a ha
      simp only [List.length_append, List.length_singleton]
      omega
  simp only [RelaxedQueue.sync, RelaxedQueue.syncLoop]
  rw [RelaxedQueue.rq_block_eval fuel hn1 hn2 hcd hle]
  simp [hcd, RelaxedQueue.loadInvalid, RelaxedQueue.makeDurble, hs, hwalk, RelaxedQueue.casData]

theorem RelaxedQueue.rq_sync_eval_stale {q : RelaxedQueue} {cd : RelaxedQueue.LastNVMData}
    (fuel : Nat) (t : Int) (hcd : q.snaps[q.data]? = some cd) (hgt : q.counter < cd.counter) :
    q.sync (fuel + 1) t = .ok ([],
      { q with mem := q.mem ++ [⟨0, none, some ⟨0, none, none⟩⟩],
               counter := wrapInt32 (q.counter + 1) }) := by
  simp [RelaxedQueue.sync, RelaxedQueue.syncLoop, RelaxedQueue.blockTheTail,
    RelaxedQueue.blockLoop, hcd, hgt]

theorem RelaxedQueue.rq_new_abs : RelaxedQueue.new.Abs [] [] 0 [] :=
  ⟨⟨rfl, by simp [RelaxedQueue.new], by simp, rfl, rfl⟩, ⟨_, rfl, rfl⟩, rfl,
    by simp [RelaxedQueue.new], rfl⟩

theorem RelaxedQueue.rq_new_count : RelaxedQueue.new.Count 0 :=
  ⟨⟨_, rfl, rfl⟩, rfl⟩

theorem RelaxedQueue.rq_enq_eval {q : RelaxedQueue} {n : RelaxedQueue.Node} (fuel : Nat)
    (v : Int) (hn1 : q.mem[q.tail]? = some n) (hn2 : n.next = none) :
    q.enq (fuel + 1) v = .ok
      { q with mem := (q.mem ++ [RelaxedQueue.Node.mk v none none]).set q.tail
                        { n with next := some q.mem.length },
               tail := q.mem.length } := by
  have ht : q.tail < q.mem.length := heap_lt hn1
  simp [RelaxedQueue.enq, RelaxedQueue.enqLoop, RelaxedQueue.load, RelaxedQueue.casNext,
    RelaxedQueue.casTail, List.getElem?_append_left ht, hn1, hn2]

theorem RelaxedQueue.rq_enq_abs {q : RelaxedQueue} {post : List Nat} {pend : List Int}
    {s : Nat} {l : List Nat} (h : q.Abs post pend s l) (fuel : Nat) (v : Int) :
    ∃ q', q.enq (fuel + 1) v = .ok q' ∧
      q'.Abs (post ++ [q.mem.length]) (pend ++ [v]) s (l ++ [q.mem.length]) ∧
      q'.snaps = q.snaps ∧ q'.data = q.data ∧ q'.counter = q.counter := by
  have ht : q.tail < q.mem.length := h.chain.tail_lt
  have hn : q.nxt q.tail = none := h.chain.tail_none
  obtain ⟨n, hn1⟩ := heap_get q.mem q.tail ht
  have hn2 : n.next = none := by simpa [RelaxedQueue.nxt, hn1] using hn
  have ht' : q.tail < (q.mem ++ [RelaxedQueue.Node.mk v none none]).length := by
    simp; omega
  have hlen : ((q.mem ++ [RelaxedQueue.Node.mk v none none]).set q.tail
      { n with next := some q.mem.length }).length = q.mem.length + 1 := by simp
  have e1 : ∀ x, x < q.mem.length → x ≠ q.tail →
      (((q.mem ++ [RelaxedQueue.Node.mk v none none]).set q.tail
        { n with next := some q.mem.length })[x]?).bind (·.next) = q.nxt x := by
    intro x hx hxt
    simp only [RelaxedQueue.nxt, heap_set_other _ _ _ _ hxt, heap_push_old _ _ _ hx]
  have e2 : (((q.mem ++ [RelaxedQueue.Node.mk v none none]).set q.tail
        { n with next := some q.mem.length })[q.tail]?).bind (·.next) = some q.mem.length := by
    simp only [heap_set_self _ _ _ ht', Option.bind]
  have e3 : (((q.mem ++ [RelaxedQueue.Node.mk v none none]).set q.tail
        { n with next := some q.mem.length })[q.mem.length]?).bind (·.next) = none := by
    simp only [heap_set_other _ _ _ _ (Nat.ne_of_gt ht), heap_push_new, Option.bind]
  refine ⟨_, RelaxedQueue.rq_enq_eval fuel v hn1 hn2, ⟨?_, h.snap, ?_, ?_, ?_⟩, rfl, rfl, rfl⟩
  · show Chain _ _ _ _ _ _ _
    simp only [hlen]
    refine Chain.snoc_chain h.chain e2 e3 e1 ?_ ?_
    · simp only [RelaxedQueue.val, heap_set_other _ _ _ _ (Nat.ne_of_gt ht), heap_push_new,
        Option.map]
    · intro x hx
      by_cases hxt : x = q.tail
      · subst hxt
        simp only [RelaxedQueue.val, heap_set_self _ _ _ ht', hn1, Option.map]
      · simp only [RelaxedQueue.val, heap_set_other _ _ _ _ hxt, heap_push_old _ _ _ hx]
  · refine h.path.snoc_link (by rw [h.pathLast]; exact e2) e3 ?_
    intro x hx hxl
    rw [h.pathLast] at hxl
    exact e1 x (h.pathBound x hx) hxl
  · intro a ha
    rw [← List.cons_append, List.mem_append] at ha
    simp only [hlen]
    rcases ha with ha | ha
    · exact Nat.lt_succ_of_lt (h.pathBound a ha)
    · simp at ha; omega
  · exact chainLast_snoc _ _ _

theorem RelaxedQueue.rq_deq_spec {q : RelaxedQueue} {post : List Nat} {pend : List Int}
    {s : Nat} {l : List Nat} (h : q.Abs post pend s l) (fuel : Nat) :
    ∃ q', q.deq (fuel + 1) = .ok (sentinel pend.head?, q') ∧ q'.Abs post.tail pend.tail s l ∧
      q'.snaps = q.snaps ∧ q'.data = q.data ∧ q'.counter = q.counter := by
  cases post with
  | nil =>
    obtain ⟨h1, h2, rfl⟩ := h.chain.nil_inv
    obtain ⟨n, hn⟩ := heap_get q.mem q.head (h.chain.bound _ (by simp))
    have hn2 : n.next = none := by simpa [RelaxedQueue.nxt, hn] using h1
    refine ⟨q, ?_, h, rfl, rfl, rfl⟩
    rw [h2] at hn
    simp [RelaxedQueue.deq, RelaxedQueue.load, hn, hn2, h2, sentinel]
  | cons b post =>
    obtain ⟨h1, h2, h3, -, v, pend', rfl, h5, h6⟩ := h.chain.cons_inv
    obtain ⟨n, hn⟩ := heap_get q.mem q.head (h.chain.bound _ (by simp))
    obtain ⟨m, hm⟩ := heap_get q.mem b h3
    have hn2 : n.next = some b := by simpa [RelaxedQueue.nxt, hn] using h1
    have hm2 : m.value = v := by simpa [RelaxedQueue.val, hm] using h5
    refine ⟨{ q with head := b }, ?_, ⟨h6, h.snap, h.path, h.pathBound, h.pathLast⟩,
      rfl, rfl, rfl⟩
    simp [RelaxedQueue.deq, RelaxedQueue.load, RelaxedQueue.casHead, hn, hn2, h2, hm, hm2,
      sentinel]

theorem wrapInt32_small (n : Nat) (h : n < 2147483648) : wrapInt32 n = n := by
  unfold wrapInt32
  omega

theorem wrapInt32_succ (n : Nat) : wrapInt32 (wrapInt32 n + 1) = wrapInt32 ((n + 1 : Nat) : Int) := by
  unfold wrapInt32
  push_cast
  omega

theorem RelaxedQueue.rq_sync_spec {q : RelaxedQueue} {post : List Nat} {pend : List Int}
    {s : Nat} {l : List Nat} (h : q.Abs post pend s l) (fuel : Nat) (hf : l.length ≤ fuel)
    (t : Int) :
    ∃ fl q' s' l', q.sync (fuel + 1) t = .ok (fl, q') ∧ q'.Abs post pend s' l' ∧
      l'.length ≤ l.length ∧ q'.head = q.head ∧ q'.tail = q.tail ∧
      (∀ a, a < q.mem.length → q'.mem[a]? = q.mem[a]?) ∧
      (∀ n, q.Count n → n < 2147483648 →
        q'.Count (n + 1) ∧ fl = s :: l ∧ q'.data = q.snaps.length ∧
        q'.snaps = q.snaps ++ [⟨some q.tail, some q.head, q.counter⟩] ∧
        q'.counter = wrapInt32 (q.counter + 1)) ∧
      (∀ cd, q.snaps[q.data]? = some cd → q.counter < cd.counter →
        q'.data = q.data ∧ q'.snaps = q.snaps) := by
  have ht : q.tail < q.mem.length := h.chain.tail_lt
  have hn : q.nxt q.tail = none := h.chain.tail_none
  obtain ⟨n, hn1⟩ := heap_get q.mem q.tail ht
  have hn2 : n.next = none := by simpa [RelaxedQueue.nxt, hn1] using hn
  obtain ⟨cd, hcd, hs⟩ := h.snap
  have hd : q.data < q.snaps.length := heap_lt hcd
  by_cases hle : cd.counter ≤ q.counter
  · have e := RelaxedQueue.rq_sync_eval_ok fuel t hn1 hn2 hcd hle hs h.path h.pathLast
      h.pathBound hf
    refine ⟨_, _, q.tail, [], e, ⟨?_, ⟨_, heap_push_new _ _, rfl⟩, ?_, ?_, rfl⟩, by simp, rfl,
      rfl, ?_, ?_, ?_⟩
    · show Chain _ _ _ _ _ _ _
      refine Chain.frame h.chain (by simp) ?_ ?_
      · intro x hx
        simp only [RelaxedQueue.nxt, heap_push_old _ _ _ hx]
      · intro x hx
        simp only [RelaxedQueue.val, heap_push_old _ _ _ hx]
    · show RelaxedQueue.nxt _ q.tail = none
      simp only [RelaxedQueue.nxt, heap_push_old _ _ _ ht]
      exact hn
    · intro a ha
      simp only [List.mem_singleton] at ha
      subst ha
      simp only [List.length_append, List.length_singleton]
      omega
    · intro a ha
      exact heap_push_old _ _ _ ha
    · intro k hk hk2
      refine ⟨⟨⟨_, heap_push_new _ _, ?_⟩, ?_⟩, rfl, rfl, rfl, rfl⟩
      · show q.counter = ((k + 1 : Nat) : Int) - 1
        rw [hk.2, wrapInt32_small k hk2]
        push_cast
        ring
      · show wrapInt32 (q.counter + 1) = _
        rw [hk.2, wrapInt32_succ]
    · intro cd' hcd' hlt
      rw [hcd] at hcd'
      cases hcd'
      omega
  · have hgt : q.counter < cd.counter := not_le.1 hle
    have e := RelaxedQueue.rq_sync_eval_stale fuel t hcd hgt
    refine ⟨_, _, s, l, e, ⟨?_, ⟨cd, hcd, hs⟩, ?_, ?_, h.pathLast⟩, le_refl _, rfl, rfl,
      ?_, ?_, ?_⟩
    · show Chain _ _ _ _ _ _ _
      refine Chain.frame h.chain (by simp) ?_ ?_
      · intro x hx
        simp only [RelaxedQueue.nxt, heap_push_old _ _ _ hx]
      · intro x hx
        simp only [RelaxedQueue.val, heap_push_old _ _ _ hx]
    · refine h.path.congr ?_
      intro x hx
      simp only [RelaxedQueue.nxt, heap_push_old _ _ _ (h.pathBound x hx)]
    · intro a ha
      have := h.pathBound a ha
      simp only [List.length_append, List.length_singleton]
      omega
    · intro a ha
      exact heap_push_old _ _ _ ha
    · intro k hk hk2
      exfalso
      obtain ⟨⟨cd', hcd', hc⟩, hq⟩ := hk
      rw [hcd] at hcd'
      cases hcd'
      rw [hq, wrapInt32_small k hk2, hc] at hgt
      omega
    · intro _ _ _
      exact ⟨rfl, rfl⟩

theorem RelaxedQueue.rq_count_congr {q q' : RelaxedQueue} {n : Nat} (h : q.Count n)
    (h1 : q'.snaps = q.snaps) (h2 : q'.data = q.data) (h3 : q'.counter = q.counter) :
    q'.Count n := by
  unfold RelaxedQueue.Count at *
  rw [h1, h2, h3]
  exact h

theorem RelaxedQueue.rq_run_abs {q : RelaxedQueue} {post : List Nat} {pend : List Int}
    {s : Nat} {l : List Nat} (h : q.Abs post pend s l) (fuel : Nat) (ops : List ROp)
    (hf : l.length + ops.length < fuel) :
    ∃ q' post' pend' s' l',
      q.run fuel ops = .ok ((fifoSpec pend (ops.filterMap ROp.toMS)).map sentinel, q') ∧
      q'.Abs post' pend' s' l' ∧ l'.length ≤ l.length + ops.length ∧
      (∀ n, q.Count n → n + syncCount ops ≤ 2147483648 → q'.Count (n + syncCount ops)) := by
  obtain ⟨k, rfl⟩ : ∃ k, fuel = k + 1 := ⟨fuel - 1, by omega⟩
  induction ops generalizing q post pend s l with
  | nil =>
    exact ⟨q, post, pend, s, l, by simp [RelaxedQueue.run, fifoSpec], h, by simp,
      fun n hn _ => hn⟩
  | cons o ops ih =>
    simp only [List.length_cons] at hf
    cases o with
    | enq v =>
      obtain ⟨q1, e1, a1, c1, c2, c3⟩ := RelaxedQueue.rq_enq_abs h k v
      obtain ⟨q2, post2, pend2, s2, l2, e2, a2, b2, n2⟩ := ih a1 (by simp; omega)
      refine ⟨q2, post2, pend2, s2, l2,
        by simp [RelaxedQueue.run, e1, e2, fifoSpec, ROp.toMS], a2, ?_, ?_⟩
      · simp only [List.length_append, List.length_singleton, List.length_cons,
          List.length_nil] at b2 ⊢
        omega
      · intro n hn hle
        exact n2 n (RelaxedQueue.rq_count_congr hn c1 c2 c3) hle
    | deq =>
      obtain ⟨q1, e1, a1, c1, c2, c3⟩ := RelaxedQueue.rq_deq_spec h k
      obtain ⟨q2, post2, pend2, s2, l2, e2, a2, b2, n2⟩ := ih a1 (by omega)
      refine ⟨q2, post2, pend2, s2, l2,
        by simp [RelaxedQueue.run, e1, e2, fifoSpec_deq, ROp.toMS], a2, ?_, ?_⟩
      · simp only [List.length_cons]
        omega
      · intro n hn hle
        exact n2 n (RelaxedQueue.rq_count_congr hn c1 c2 c3) hle
    | sync t =>
      obtain ⟨fl, q1, s1, l1, e1, a1, b1, -, -, -, n1, -⟩ :=
        RelaxedQueue.rq_sync_spec h k (by omega) t
      obtain ⟨q2, post2, pend2, s2, l2, e2, a2, b2, n2⟩ := ih a1 (by omega)
      refine ⟨q2, post2, pend2, s2, l2,
        by simp [RelaxedQueue.run, e1, e2, ROp.toMS], a2, ?_, ?_⟩
      · simp only [List.length_cons]
        omega
      · intro n hn hle
        simp only [syncCount] at hle ⊢
        have := n2 (n + 1) (n1 n hn (by omega)).1 (by omega)
        rw [show n + (syncCount ops + 1) = n + 1 + syncCount ops by omega]
        exact this

theorem syncCount_replicate (n : Nat) (t : Int) :
    syncCount (List.replicate n (ROp.sync t)) = n := by
  induction n with
  | zero => rfl
  | succ n ih => simp only [List.replicate, syncCount, ih]

/-! ## Detectable queue: recovery -/

theorem LogQueue.lq_finishInsert_spin {q : LogQueue} {e : Nat} {n : LogQueue.NodeWithLog}
    {ent : LogQueue.LogEntry} (hn : q.mem[q.tail]? = some n) (he : q.entries[e]? = some ent)
    (hs : ent.status = true) (fuel : Nat) :
    LogQueue.finishInsert e fuel q = .error .fuel := by
  induction fuel with
  | zero => rfl
  | succ k ih => simp [LogQueue.finishInsert, LogQueue.load, LogQueue.entry, hn, he, hs, ih]

theorem LogQueue.lq_finishPrevLoop_skip {q : LogQueue} {logs i : Nat} (fuel : Nat)
    (is : List Nat) (h : q.readArray logs (i * PADDING) = .ok none) :
    LogQueue.finishPrevLoop fuel logs (i :: is) q = LogQueue.finishPrevLoop fuel logs is q := by
  simp [LogQueue.finishPrevLoop, h]

theorem LogQueue.lq_finishPrevLoop_spin {q : LogQueue} {logs i e : Nat}
    {n : LogQueue.NodeWithLog} {ent : LogQueue.LogEntry} (fuel : Nat) (is : List Nat)
    (h : q.readArray logs (i * PADDING) = .ok (some e)) (he : q.entries[e]? = some ent)
    (ha : ent.action = .insert) (hs : ent.status = true) (hn : q.mem[q.tail]? = some n) :
    LogQueue.finishPrevLoop fuel logs (i :: is) q = .error .fuel := by
  simp [LogQueue.finishPrevLoop, h, LogQueue.entry, he, ha,
    LogQueue.lq_finishInsert_spin hn he hs fuel]

theorem LogQueue.lq_recover_stuck {q q1 q2 : LogQueue} {logs fuel : Nat}
    {nextName : Nat → Option Nat → Option Nat}
    (h1 : LogQueue.updateHead nextName fuel q.head q = .ok q1)
    (h2 : LogQueue.updateTailAndStatus fuel q1.head q1.tail q1 = .ok q2)
    (h3 : LogQueue.finishPrevOperations fuel logs q2 = .error .fuel) :
    LogQueue.recover nextName fuel logs q = .error .fuel := by
  simp [LogQueue.recover, h1, h2, h3]

/-- In contrast to the fresh queue: when `head` has moved past the initial dummy
(thread 2 ran `enq(1)`, `deq`), `recover` finishes the interrupted `enq(5, 2, 2)`
of thread 2: the node is linked after the old tail, `tail` points at it and the
entry's status is true. -/
theorem LogQueue.lq_recover_links_after_dequeue (nextName : Nat → Option Nat → Option Nat) :
    ∃ rs q0 n q q',
      LogQueue.run 1 [Call.enq 1 2 0, Call.deq 2 1] LogQueue.new = .ok (rs, q0) ∧
      q0.createEnqLogAndNode 5 2 2 = .ok (n, q) ∧
      LogQueue.recover nextName 1 q.logs q = .ok q' ∧
      q'.nxt q.tail = some n ∧ q'.nxt n = none ∧ q'.tail = n ∧ q'.head = q.head ∧
      q'.entries[2]? = some ⟨2, .insert, true, some n⟩ :=
  ⟨_, _, _, _, _, rfl, rfl, rfl, by decide, by decide, by decide, by decide, by decide⟩

/-! ## Sequential specification -/

theorem fifoSpec_sentinel (pend : List Int) (ops : List MSOp)
    (hp : ∀ v ∈ pend, v ≠ INT_MIN) (hv : ∀ v, MSOp.enq v ∈ ops → v ≠ INT_MIN) :
    List.Forall₂ (fun r o => (∀ v, o = some v → r = v) ∧ (r = INT_MIN ↔ o = none))
      ((fifoSpec pend ops).map sentinel) (fifoSpec pend ops) := by
  induction ops generalizing pend with
  | nil => simp [fifoSpec]
  | cons o ops ih =>
    have hv' : ∀ v, MSOp.enq v ∈ ops → v ≠ INT_MIN := fun v hm => hv v (List.mem_cons_of_mem _ hm)
    cases o with
    | enq v =>
      simp only [fifoSpec]
      apply ih _ _ hv'
      intro w hw
      rcases List.mem_append.1 hw with hw | hw
      · exact hp w hw
      · simp at hw
        subst hw
        exact hv w (by simp)
    | deq =>
      cases pend with
      | nil =>
        simp only [fifoSpec, List.map_cons]
        exact List.Forall₂.cons ⟨by simp, by simp [sentinel]⟩ (ih _ hp hv')
      | cons w pend =>
        simp only [fifoSpec, List.map_cons]
        refine List.Forall₂.cons ⟨by simp [sentinel], ?_⟩ (ih _ ?_ hv')
        · simp [sentinel, hp w (by simp)]
        · intro x hx
          exact hp x (List.mem_cons_of_mem _ hx)

/-! ## Durable queue: prologue and program points of a dequeue -/

theorem DurableQueue.dq_deq_prologue (fuel : Nat) (t : Int) (q : DurableQueue) :
    q.deq fuel t = match q.deqPrologue t with
      | .error e => .error e
      | .ok q0 => DurableQueue.deqLoop t fuel q0 := by
  unfold DurableQueue.deq DurableQueue.deqPrologue
  cases slot t <;> rfl

/-- The last program point of `deqLoopPoints` is the state in which `deqLoop`
returns, with the same result. -/
theorem DurableQueue.dq_deqLoopPoints_last (t : Int) (fuel : Nat) (q : DurableQueue)
    (r : Int) (pts : List DurableQueue)
    (h : DurableQueue.deqLoopPoints t fuel q = .ok (r, pts)) :
    ∃ p, DurableQueue.deqLoop t fuel q = .ok (r, p) ∧ ∀ x, pts.getLast? = some x → x = p := by
  induction fuel generalizing q with
  | zero => simp [DurableQueue.deqLoopPoints] at h
  | succ k ih =>
    simp only [DurableQueue.deqLoopPoints, DurableQueue.claimedPoints, if_true] at h
    simp only [DurableQueue.deqLoop, if_true]
    cases hl : q.load q.head with
    | error e => simp [hl] at h
    | ok firstNode =>
      simp only [hl] at h ⊢
      by_cases hft : q.head = q.tail
      · simp only [hft, if_true] at h ⊢
        cases hnx : firstNode.next with
        | none =>
          simp only [hnx] at h ⊢
          cases hs : q.storeRemoved t INT_MIN with
          | error e => simp [hs] at h
          | ok q1 =>
            simp [hs] at h
            obtain ⟨rfl, rfl⟩ := h
            exact ⟨q1, rfl, by simp⟩
        | some nx =>
          simp only [hnx] at h ⊢
          exact ih _ h
      · simp only [hft, if_false] at h ⊢
        cases hnx : firstNode.next with
        | none => simp [hnx] at h
        | some nx =>
          simp only [hnx] at h ⊢
          cases hl2 : q.load nx with
          | error e => simp [hl2] at h
          | ok nextNode =>
            simp only [hl2] at h ⊢
            cases hc : q.casThreadID nx (-1) t with
            | error e => simp [hc] at h
            | ok res =>
              obtain ⟨b, q1⟩ := res
              cases b with
              | true =>
                simp only [hc] at h ⊢
                cases hs : q1.storeRemoved t nextNode.value with
                | error e => simp [hs] at h
                | ok q2 =>
                  simp only [hs, Except.ok.injEq, Prod.mk.injEq] at h ⊢
                  obtain ⟨rfl, rfl⟩ := h
                  exact ⟨_, ⟨rfl, rfl⟩, by simp⟩
              | false =>
                simp only [hc] at h ⊢
                cases hl3 : q1.load nx with
                | error e => simp [hl3] at h
                | ok winner =>
                  simp only [hl3] at h ⊢
                  cases hr : q1.removedPtr winner.threadID with
                  | error e => simp [hr] at h
                  | ok address =>
                    simp only [hr] at h ⊢
                    by_cases hh : q1.head = q.head
                    · simp only [hh, if_true] at h ⊢
                      cases hst : q1.storeAt address nextNode.value with
                      | error e => simp [hst] at h
                      | ok q2 =>
                        simp only [hst] at h ⊢
                        exact ih _ h
                    · simp only [hh, if_false] at h ⊢
                      exact ih _ h

theorem DurableQueue.dq_deqPoints_last (t : Int) (fuel : Nat) (q : DurableQueue)
    (r : Int) (pts : List DurableQueue) (h : q.deqPoints fuel t = .ok (r, pts)) :
    ∃ p, q.deq fuel t = .ok (r, p) ∧ ∀ x, pts.getLast? = some x → x = p := by
  rw [DurableQueue.dq_deq_prologue]
  unfold DurableQueue.deqPoints at h
  cases hq : q.deqPrologue t with
  | error e => simp [hq] at h
  | ok q0 =>
    simp only [hq] at h ⊢
    exact DurableQueue.dq_deqLoopPoints_last t fuel q0 r pts h

theorem DurableQueue.dq_deqPoints_eval_nil {q : DurableQueue} {pend : List Int} {t : Int}
    (h : q.Abs [] pend) (h0 : 0 ≤ t) (h1 : t < MAX_THREADS) (fuel : Nat) :
    q.deqPoints (fuel + 1) t = .ok (INT_MIN, []) := by
  obtain ⟨h1', h2, h3⟩ := h.1.nil_inv
  obtain ⟨n, hn⟩ := heap_get q.mem q.head (h.1.bound _ (by simp))
  have hn2 : n.next = none := by simpa [DurableQueue.nxt, hn] using h1'
  rw [h2] at hn
  simp [DurableQueue.deqPoints, DurableQueue.deqPrologue, DurableQueue.deqLoopPoints,
    DurableQueue.load, DurableQueue.storeRemoved, DurableQueue.removedPtr,
    DurableQueue.storeAt, slot_eq h0 h1, hn, hn2, h2]

theorem DurableQueue.dq_deqPoints_eval_cons {q : DurableQueue} {b : Nat} {post : List Nat}
    {pend : List Int} {t : Int} {m : DurableQueue.NodeWithID}
    (h : q.Abs (b :: post) pend) (hm : q.mem[b]? = some m)
    (h0 : 0 ≤ t) (h1 : t < MAX_THREADS) (fuel : Nat) :
    q.deqPoints (fuel + 1) t = .ok (m.value,
      [ { mem := q.mem.set b { m with threadID := t },
          cells := q.cells ++ [INT_MAX],
          removedValues :=
            Function.update q.removedValues (t * PADDING).toNat (some q.cells.length),
          head := q.head, tail := q.tail },
        { mem := q.mem.set b { m with threadID := t },
          cells := q.cells ++ [INT_MAX],
          removedValues :=
            Function.update q.removedValues (t * PADDING).toNat (some q.cells.length),
          head := q.head, tail := q.tail },
        { mem := q.mem.set b { m with threadID := t },
          cells := (q.cells ++ [INT_MAX]).set q.cells.length m.value,
          removedValues :=
            Function.update q.removedValues (t * PADDING).toNat (some q.cells.length),
          head := q.head, tail := q.tail },
        { mem := q.mem.set b { m with threadID := t },
          cells := (q.cells ++ [INT_MAX]).set q.cells.length m.value,
          removedValues :=
            Function.update q.removedValues (t * PADDING).toNat (some q.cells.length),
          head := q.head, tail := q.tail },
        { mem := q.mem.set b { m with threadID := t },
          cells := (q.cells ++ [INT_MAX]).set q.cells.length m.value,
          removedValues :=
            Function.update q.removedValues (t * PADDING).toNat (some q.cells.length),
          head := b, tail := q.tail } ]) := by
  obtain ⟨h1', h2, h3, -, v, pend', h4, h5, h6⟩ := h.1.cons_inv
  obtain ⟨n, hn⟩ := heap_get q.mem q.head (h.1.bound _ (by simp))
  have hn2 : n.next = some b := by simpa [DurableQueue.nxt, hn] using h1'
  have hm3 : m.threadID = -1 := by simpa [hm] using h.2 b (by simp)
  simp [DurableQueue.deqPoints, DurableQueue.deqPrologue, DurableQueue.deqLoopPoints,
    DurableQueue.claimedPoints, DurableQueue.load, DurableQueue.storeRemoved,
    DurableQueue.removedPtr, DurableQueue.storeAt, DurableQueue.casThreadID,
    DurableQueue.casHead, slot_eq h0 h1, hn, hn2, h2, hm, hm3]

/-! ## Durable queue: writes to `threadID` -/

theorem DurableQueue.dq_casTail_mem (q : DurableQueue) (e d : Nat) :
    (q.casTail e d).2.mem = q.mem := by
  unfold DurableQueue.casTail
  split <;> rfl

theorem DurableQueue.dq_casHead_mem (q : DurableQueue) (e d : Nat) :
    (q.casHead e d).2.mem = q.mem := by
  unfold DurableQueue.casHead
  split <;> rfl

theorem DurableQueue.dq_storeAt_mem {q q' : DurableQueue} {p : Option Nat} {v : Int}
    (h : q.storeAt p v = .ok q') : q'.mem = q.mem := by
  unfold DurableQueue.storeAt at h
  split at h
  · simp at h
  · split at h
    · simp at h; subst h; rfl
    · simp at h

theorem DurableQueue.dq_storeRemoved_mem {q q' : DurableQueue} {t v : Int}
    (h : q.storeRemoved t v = .ok q') : q'.mem = q.mem := by
  unfold DurableQueue.storeRemoved at h
  split at h
  · simp at h
  · exact DurableQueue.dq_storeAt_mem h

theorem DurableQueue.dq_casNext_tid {q q' : DurableQueue} {p : Nat} {e d : Option Nat} {b : Bool}
    (h : q.casNext p e d = .ok (b, q')) (a : Nat) : q'.tid a = q.tid a := by
  unfold DurableQueue.casNext at h
  split at h
  · rename_i n hn
    split at h
    · simp at h
      obtain ⟨-, rfl⟩ := h
      by_cases ha : a = p
      · subst ha
        simp [DurableQueue.tid, heap_set_self _ _ _ (heap_lt hn), hn]
      · simp [DurableQueue.tid, heap_set_other _ _ _ _ ha]
    · simp at h
      obtain ⟨-, rfl⟩ := h
      rfl
  · simp at h

theorem DurableQueue.dq_casThreadID_tid {q q' : DurableQueue} {p : Nat} {t : Int} {b : Bool}
    (h : q.casThreadID p (-1) t = .ok (b, q')) (a : Nat) :
    q'.tid a = q.tid a ∨ (q.tid a = some (-1) ∧ q'.tid a = some t) := by
  unfold DurableQueue.casThreadID at h
  split at h
  · rename_i n hn
    split at h
    · rename_i hv
      simp at h
      obtain ⟨-, rfl⟩ := h
      by_cases ha : a = p
      · subst ha
        right
        simp [DurableQueue.tid, heap_set_self _ _ _ (heap_lt hn), hn, hv]
      · left
        simp [DurableQueue.tid, heap_set_other _ _ _ _ ha]
    · simp at h
      obtain ⟨-, rfl⟩ := h
      exact Or.inl rfl
  · simp at h

theorem DurableQueue.dq_tid_congr {q q' : DurableQueue} (h : q'.mem = q.mem) (a : Nat) :
    q'.tid a = q.tid a := by
  simp [DurableQueue.tid, h]

theorem DurableQueue.dq_enqLoop_tid (node : Nat) (fuel : Nat) (q q' : DurableQueue)
    (h : DurableQueue.enqLoop node fuel q = .ok q') (a : Nat) : q'.tid a = q.tid a := by
  induction fuel generalizing q with
  | zero => simp [DurableQueue.enqLoop] at h
  | succ k ih =>
    simp only [DurableQueue.enqLoop, if_true] at h
    cases hl : q.load q.tail with
    | error e => simp [hl] at h
    | ok lastNode =>
      simp only [hl] at h
      cases hnx : lastNode.next with
      | none =>
        simp only [hnx] at h
        cases hc : q.casNext q.tail none (some node) with
        | error e => simp [hc] at h
        | ok res =>
          obtain ⟨b, q1⟩ := res
          have h1 := DurableQueue.dq_casNext_tid hc a
          cases b with
          | true =>
            simp only [hc, Except.ok.injEq] at h
            subst h
            rw [DurableQueue.dq_tid_congr (DurableQueue.dq_casTail_mem _ _ _), h1]
          | false =>
            simp only [hc] at h
            rw [ih _ h, h1]
      | some nx =>
        simp only [hnx] at h
        rw [ih _ h, DurableQueue.dq_tid_congr (DurableQueue.dq_casTail_mem _ _ _)]

theorem DurableQueue.dq_deqLoop_tid (t : Int) (fuel : Nat) (q : DurableQueue) (r : Int)
    (q' : DurableQueue) (h : DurableQueue.deqLoop t fuel q = .ok (r, q')) (a : Nat) :
    q'.tid a = q.tid a ∨ (q.tid a = some (-1) ∧ q'.tid a = some t) := by
  induction fuel generalizing q with
  | zero => simp [DurableQueue.deqLoop] at h
  | succ k ih =>
    simp only [DurableQueue.deqLoop, if_true] at h
    cases hl : q.load q.head with
    | error e => simp [hl] at h
    | ok firstNode =>
      simp only [hl] at h
      by_cases hft : q.head = q.tail
      · simp only [hft, if_true] at h
        cases hnx : firstNode.next with
        | none =>
          simp only [hnx] at h
          cases hs : q.storeRemoved t INT_MIN with
          | error e => simp [hs] at h
          | ok q1 =>
            simp [hs] at h
            obtain ⟨-, rfl⟩ := h
            exact Or.inl (DurableQueue.dq_tid_congr (DurableQueue.dq_storeRemoved_mem hs) a)
        | some nx =>
          simp only [hnx] at h
          have := ih _ h
          rwa [DurableQueue.dq_tid_congr (DurableQueue.dq_casTail_mem _ _ _)] at this
      · simp only [hft, if_false] at h
        cases hnx : firstNode.next with
        | none => simp [hnx] at h
        | some nx =>
          simp only [hnx] at h
          cases hl2 : q.load nx with
          | error e => simp [hl2] at h
          | ok nextNode =>
            simp only [hl2] at h
            cases hc : q.casThreadID nx (-1) t with
            | error e => simp [hc] at h
            | ok res =>
              obtain ⟨b, q1⟩ := res
              have h1 := DurableQueue.dq_casThreadID_tid hc a
              cases b with
              | true =>
                simp only [hc] at h
                cases hs : q1.storeRemoved t nextNode.value with
                | error e => simp [hs] at h
                | ok q2 =>
                  simp only [hs, Except.ok.injEq, Prod.mk.injEq] at h
                  obtain ⟨-, rfl⟩ := h
                  rw [DurableQueue.dq_tid_congr (DurableQueue.dq_casHead_mem _ _ _),
                    DurableQueue.dq_tid_congr (DurableQueue.dq_storeRemoved_mem hs)]
                  exact h1
              | false =>
                simp only [hc] at h
                cases hl3 : q1.load nx with
                | error e => simp [hl3] at h
                | ok winner =>
                  simp only [hl3] at h
                  cases hr : q1.removedPtr winner.threadID with
                  | error e => simp [hr] at h
                  | ok address =>
                    simp only [hr] at h
                    have key : ∀ q2 : DurableQueue, q2.mem = q1.mem →
                        DurableQueue.deqLoop t k q2 = .ok (r, q') →
                        q'.tid a = q.tid a ∨ (q.tid a = some (-1) ∧ q'.tid a = some t) := by
                      intro q2 hm h2
                      have h3 := ih _ h2
                      rw [DurableQueue.dq_tid_congr hm] at h3
                      rcases h1 with h1 | ⟨h1a, h1b⟩
                      · rwa [h1] at h3
                      · rcases h3 with h3 | ⟨h3a, h3b⟩
                        · exact Or.inr ⟨h1a, h3.trans h1b⟩
                        · exact Or.inr ⟨h1a, h3b⟩
                    by_cases hh : q1.head = q.head
                    · simp only [hh, if_true] at h
                      cases hst : q1.storeAt address nextNode.value with
                      | error e => simp [hst] at h
                      | ok q2 =>
                        simp only [hst] at h
                        exact key _ ((DurableQueue.dq_casHead_mem _ _ _).trans
                          (DurableQueue.dq_storeAt_mem hst)) h
                    · simp only [hh, if_false] at h
                      exact key _ rfl h

theorem DurableQueue.dq_enq_tid (fuel : Nat) (v : Int) (q q' : DurableQueue)
    (h : q.enq fuel v = .ok q') (a : Nat) :
    q'.tid a = q.tid a ∨ (q.tid a = none ∧ q'.tid a = some (-1)) := by
  unfold DurableQueue.enq at h
  rw [DurableQueue.dq_enqLoop_tid _ _ _ _ h a]
  rcases Nat.lt_trichotomy a q.mem.length with ha | ha | ha
  · left
    simp [DurableQueue.tid, heap_push_old _ _ _ ha]
  · right
    subst ha
    simp [DurableQueue.tid]
  · left
    simp [DurableQueue.tid, List.getElem?_eq_none (Nat.le_of_lt ha),
      List.getElem?_eq_none (show (q.mem ++ [DurableQueue.NodeWithID.mk v none (-1)]).length ≤ a
        by simp; omega)]

theorem DurableQueue.dq_deq_tid (fuel : Nat) (t : Int) (q : DurableQueue) (r : Int)
    (q' : DurableQueue) (h : q.deq fuel t = .ok (r, q')) (a : Nat) :
    q'.tid a = q.tid a ∨ (q.tid a = some (-1) ∧ q'.tid a = some t) := by
  rw [DurableQueue.dq_deq_prologue] at h
  unfold DurableQueue.deqPrologue at h
  cases hs : slot t with
  | error e => simp [hs] at h
  | ok i =>
    simp only [hs] at h
    exact DurableQueue.dq_deqLoop_tid t fuel _ r q' h a

theorem DurableQueue.dq_run_tidStep (fuel : Nat) (calls : List Call) (q : DurableQueue)
    (rs : List Int) (q' : DurableQueue) (h : q.run fuel calls = .ok (rs, q')) :
    DurableQueue.TidStep calls q q' := by
  induction calls generalizing q rs with
  | nil =>
    simp [DurableQueue.run] at h
    obtain ⟨-, rfl⟩ := h
    exact fun a => Or.inl rfl
  | cons c calls ih =>
    have lift : ∀ q1 : DurableQueue, DurableQueue.TidStep calls q1 q' →
        (∀ a, q1.tid a = q.tid a ∨ (q.tid a = none ∧ q1.tid a = some (-1)) ∨
          (q.tid a = some (-1) ∧ ∃ t op, c = Call.deq t op ∧ q1.tid a = some t)) →
        DurableQueue.TidStep (c :: calls) q q' := by
      intro q1 h2 h1 a
      rcases h2 a with h2 | ⟨h2a, h2b⟩
      · rcases h1 a with h1 | ⟨h1a, h1b⟩ | ⟨h1a, t, op, hc, h1b⟩
        · exact Or.inl (h2.trans h1)
        · exact Or.inr ⟨Or.inl h1a, Or.inl (h2.trans h1b)⟩
        · exact Or.inr ⟨Or.inr h1a, Or.inr ⟨t, op, by simp [hc], h2.trans h1b⟩⟩
      · have hq : q.tid a = none ∨ q.tid a = some (-1) := by
          rcases h1 a with h1 | ⟨h1a, h1b⟩ | ⟨h1a, t, op, hc, h1b⟩
          · rwa [h1] at h2a
          · exact Or.inl h1a
          · exact Or.inr h1a
        refine Or.inr ⟨hq, ?_⟩
        rcases h2b with h2b | ⟨t, op, hm, h2b⟩
        · exact Or.inl h2b
        · exact Or.inr ⟨t, op, List.mem_cons_of_mem _ hm, h2b⟩
    cases c with
    | enq v t op =>
      simp only [DurableQueue.run] at h
      cases he : q.enq fuel v with
      | error e => simp [he] at h
      | ok q1 =>
        simp only [he] at h
        refine lift q1 (ih _ _ h) ?_
        intro a
        rcases DurableQueue.dq_enq_tid fuel v q q1 he a with h1 | h1
        · exact Or.inl h1
        · exact Or.inr (Or.inl h1)
    | deq t op =>
      simp only [DurableQueue.run] at h
      cases he : q.deq fuel t with
      | error e => simp [he] at h
      | ok res =>
        obtain ⟨r, q1⟩ := res
        simp only [he] at h
        cases hr : DurableQueue.run fuel calls q1 with
        | error e => simp [hr] at h
        | ok res2 =>
          obtain ⟨rs2, q2⟩ := res2
          simp only [hr, Except.ok.injEq, Prod.mk.injEq] at h
          obtain ⟨-, rfl⟩ := h
          refine lift q1 (ih _ _ hr) ?_
          intro a
          rcases DurableQueue.dq_deq_tid fuel t q r q1 he a with h1 | ⟨h1a, h1b⟩
          · exact Or.inl h1
          · exact Or.inr (Or.inr ⟨h1a, t, op, rfl, h1b⟩)

/-! ## Buffered-Relaxed queue: the two outcomes of a solo `sync` -/

theorem Linked.seg {nx : Nat → Option Nat} {a : Nat} {l : List Nat} (h : Linked nx a l) :
    Seg nx a l := by
  induction l generalizing a with
  | nil => trivial
  | cons b l ih => exact ⟨h.1, ih h.2⟩

theorem Seg.congr_seg {nx nx' : Nat → Option Nat} {a : Nat} {l : List Nat}
    (h : Seg nx a l) (hf : ∀ x ∈ a :: l, nx' x = nx x) : Seg nx' a l := by
  induction l generalizing a with
  | nil => trivial
  | cons b l ih =>
    refine ⟨?_, ih h.2 ?_⟩
    · rw [hf a (by simp), h.1]
    · intro x hx
      exact hf x (List.mem_cons_of_mem _ hx)

theorem RelaxedQueue.rq_sync_cases {q : RelaxedQueue} {post : List Nat} {pend : List Int}
    {s : Nat} {l : List Nat} (h : q.Abs post pend s l) (fuel : Nat) (hf : l.length ≤ fuel)
    (t : Int) :
    ∃ cd, q.snaps[q.data]? = some cd ∧ cd.NVMTail = some s ∧
      ((cd.counter ≤ q.counter ∧ q.sync (fuel + 1) t = .ok (s :: l,
          { mem := q.mem ++ [⟨0, none, some ⟨q.counter, some q.tail, some q.head⟩⟩],
            snaps := q.snaps ++ [⟨some q.tail, some q.head, q.counter⟩],
            head := q.head, tail := q.tail, data := q.snaps.length,
            counter := wrapInt32 (q.counter + 1) })) ∨
       (q.counter < cd.counter ∧ q.sync (fuel + 1) t = .ok ([],
          { q with mem := q.mem ++ [⟨0, none, some ⟨0, none, none⟩⟩],
                   counter := wrapInt32 (q.counter + 1) }))) := by
  have ht : q.tail < q.mem.length := h.chain.tail_lt
  have hn : q.nxt q.tail = none := h.chain.tail_none
  obtain ⟨n, hn1⟩ := heap_get q.mem q.tail ht
  have hn2 : n.next = none := by simpa [RelaxedQueue.nxt, hn1] using hn
  obtain ⟨cd, hcd, hs⟩ := h.snap
  refine ⟨cd, hcd, hs, ?_⟩
  by_cases hle : cd.counter ≤ q.counter
  · exact Or.inl ⟨hle, RelaxedQueue.rq_sync_eval_ok fuel t hn1 hn2 hcd hle hs h.path
      h.pathLast h.pathBound hf⟩
  · exact Or.inr ⟨not_le.1 hle, RelaxedQueue.rq_sync_eval_stale fuel t hcd (not_le.1 hle)⟩


/-! ## Buffered-Relaxed queue: the image of the nodes -/

theorem RelaxedQueue.rq_syncLoopP_queue (invalid : Nat) (fuel : Nat) (q : RelaxedQueue)
    (img : RelaxedQueue.Image) :
    (RelaxedQueue.syncLoopP invalid fuel q img).map Prod.fst =
      (RelaxedQueue.syncLoop invalid fuel q).map Prod.snd := by
  induction fuel generalizing q img with
  | zero => rfl
  | succ fuel ih =>
    simp only [RelaxedQueue.syncLoopP, RelaxedQueue.syncLoop]
    cases hb : RelaxedQueue.blockTheTail (fuel + 1) invalid q with
    | error e => rfl
    | ok r =>
      obtain ⟨b, q1⟩ := r
      cases b with
      | false => rfl
      | true =>
        simp only
        cases hiv : q1.loadInvalid invalid with
        | error e => cases hcd : q1.snaps[q.data]? <;> rfl
        | ok iv =>
          cases hcd : q1.snaps[q.data]? with
          | none => rfl
          | some cd =>
            simp only
            cases hm : RelaxedQueue.makeDurble (fuel + 1) cd.NVMTail iv.tail q1 with
            | error e => rfl
            | ok flushed =>
              simp only [RelaxedQueue.casData]
              by_cases hd : q1.data = q.data
              · simp [hd, Except.map]
              · simp only [hd, if_false]
                have := ih { q1 with snaps := q1.snaps ++
                  [RelaxedQueue.LastNVMData.mk iv.tail iv.head iv.counter] }
                  (q1.checkpoint flushed img)
                revert this
                cases RelaxedQueue.syncLoopP invalid fuel _ _ <;>
                  cases RelaxedQueue.syncLoop invalid fuel _ <;>
                  simp [Except.map]

theorem RelaxedQueue.rq_syncP_queue (fuel : Nat) (t : Int) (q : RelaxedQueue)
    (img : RelaxedQueue.Image) :
    (q.syncP fuel t img).map Prod.fst = (q.sync fuel t).map Prod.snd :=
  RelaxedQueue.rq_syncLoopP_queue _ _ _ _

theorem RelaxedQueue.rq_runP_queue (fuel : Nat) (ops : List ROp) (q : RelaxedQueue)
    (img : RelaxedQueue.Image) :
    (q.runP fuel ops img).map (fun x => (x.1, x.2.1)) = q.run fuel ops := by
  induction ops generalizing q img with
  | nil => rfl
  | cons o ops ih =>
    cases o with
    | enq v =>
      simp only [RelaxedQueue.runP, RelaxedQueue.run]
      cases q.enq fuel v with
      | error e => rfl
      | ok q1 => exact ih q1 img
    | deq =>
      simp only [RelaxedQueue.runP, RelaxedQueue.run]
      cases q.deq fuel with
      | error e => rfl
      | ok r =>
        obtain ⟨r, q1⟩ := r
        simp only
        rw [← ih q1 img]
        cases RelaxedQueue.runP fuel ops q1 img <;> rfl
    | sync t =>
      simp only [RelaxedQueue.runP, RelaxedQueue.run]
      have := RelaxedQueue.rq_syncP_queue fuel t q img
      revert this
      cases h1 : q.syncP fuel t img with
      | error e =>
        cases h2 : q.sync fuel t with
        | error e2 =>
          intro h
          simp only [Except.map, Except.error.injEq] at h
          subst h
          rfl
        | ok r2 => intro h; simp [Except.map] at h
      | ok r =>
        cases h2 : q.sync fuel t with
        | error e2 => intro h; simp [Except.map] at h
        | ok r2 =>
          intro h
          simp only [Except.map, Except.ok.injEq] at h
          obtain ⟨q1, img1⟩ := r
          obtain ⟨fl, q2⟩ := r2
          simp only at h
          subst h
          exact ih q1 img1

theorem chainLast_not_mem (a : Nat) (l : List Nat) (h : chainLast a l ∉ l) :
    chainLast a l = a := by
  cases l with
  | nil => rfl
  | cons b l => exact absurd (chainLast_mem b l) h

theorem Linked.pointed {nx : Nat → Option Nat} {a : Nat} {l : List Nat} (h : Linked nx a l) :
    ∀ b ∈ l, ∃ c, nx c = some b := by
  induction l generalizing a with
  | nil => intro b hb; cases hb
  | cons x l ih =>
    intro b hb
    rcases List.mem_cons.1 hb with rfl | hb
    · exact ⟨a, h.1⟩
    · exact ih h.2 b hb

theorem RelaxedQueue.rq_isNode_iff (q : RelaxedQueue) (a : Nat) :
    q.isInvalid a = .ok false ↔ ∃ m, q.mem[a]? = some m ∧ m.invalid = none := by
  unfold RelaxedQueue.isInvalid
  cases h : q.mem[a]? with
  | none => simp
  | some m => cases hm : m.invalid <;> simp [hm]

theorem RelaxedQueue.rq_push_nxt {q q' : RelaxedQueue} {x : RelaxedQueue.Node}
    (hm : q'.mem = q.mem ++ [x]) {a : Nat} (ha : a < q.mem.length) : q'.nxt a = q.nxt a := by
  simp only [RelaxedQueue.nxt, hm, heap_push_old _ _ _ ha]

theorem RelaxedQueue.rq_push_val {q q' : RelaxedQueue} {x : RelaxedQueue.Node}
    (hm : q'.mem = q.mem ++ [x]) {a : Nat} (ha : a < q.mem.length) : q'.val a = q.val a := by
  simp only [RelaxedQueue.val, hm, heap_push_old _ _ _ ha]

theorem RelaxedQueue.rq_push_isNode {q q' : RelaxedQueue} {x : RelaxedQueue.Node}
    (hm : q'.mem = q.mem ++ [x]) (hx : x.invalid ≠ none) (a : Nat) :
    q'.isInvalid a = .ok false ↔ q.isInvalid a = .ok false := by
  rw [RelaxedQueue.rq_isNode_iff, RelaxedQueue.rq_isNode_iff, hm]
  rcases Nat.lt_trichotomy a q.mem.length with ha | ha | ha
  · rw [heap_push_old _ _ _ ha]
  · subst ha
    rw [heap_push_new, List.getElem?_eq_none (le_refl _)]
    constructor
    · rintro ⟨m, hm1, hm2⟩
      cases hm1
      exact absurd hm2 hx
    · rintro ⟨m, hm1, -⟩
      cases hm1
  · rw [List.getElem?_eq_none (by simp; omega), List.getElem?_eq_none (by omega)]

theorem RelaxedQueue.rq_isNode_lt {q : RelaxedQueue} {a : Nat} (h : q.isInvalid a = .ok false) :
    a < q.mem.length := by
  obtain ⟨m, hm, -⟩ := (RelaxedQueue.rq_isNode_iff q a).1 h
  exact heap_lt hm

theorem RelaxedQueue.rq_noMarker_push {q q' : RelaxedQueue} {x : RelaxedQueue.Node}
    (h : q.NoMarker) (hm : q'.mem = q.mem ++ [x]) (hx1 : x.next = none)
    (hx2 : x.invalid ≠ none) : q'.NoMarker := by
  intro a b hab
  rcases Nat.lt_trichotomy a q.mem.length with ha | ha | ha
  · rw [RelaxedQueue.rq_push_nxt hm ha] at hab
    exact (RelaxedQueue.rq_push_isNode hm hx2 b).2 (h a b hab)
  · subst ha
    simp [RelaxedQueue.nxt, hm, hx1] at hab
  · rw [RelaxedQueue.nxt, hm, List.getElem?_eq_none (by simp; omega)] at hab
    cases hab

theorem RelaxedQueue.rq_abs_push {q q' : RelaxedQueue} {x : RelaxedQueue.Node}
    {post : List Nat} {pend : List Int} {s : Nat} {l : List Nat} (h : q.Abs post pend s l)
    (hm : q'.mem = q.mem ++ [x]) (hh : q'.head = q.head) (ht : q'.tail = q.tail) :
    Chain q'.nxt q'.val q'.mem.length q'.head q'.tail post pend ∧ Linked q'.nxt s l ∧
      (∀ a ∈ s :: l, a < q'.mem.length) ∧ q'.nxt q.tail = none ∧ q.tail < q'.mem.length := by
  have hlen : q'.mem.length = q.mem.length + 1 := by simp [hm]
  refine ⟨?_, ?_, ?_, ?_, ?_⟩
  · rw [hh, ht]
    exact Chain.frame h.chain (by omega) (fun x hx => RelaxedQueue.rq_push_nxt hm hx)
      (fun x hx => RelaxedQueue.rq_push_val hm hx)
  · exact h.path.congr fun x hx => RelaxedQueue.rq_push_nxt hm (h.pathBound x hx)
  · intro a ha
    have := h.pathBound a ha
    omega
  · rw [RelaxedQueue.rq_push_nxt hm h.chain.tail_lt]
    exact h.chain.tail_none
  · have := h.chain.tail_lt
    omega

theorem RelaxedQueue.rq_deq_eval_nil {q : RelaxedQueue} {pend : List Int} {s : Nat}
    {l : List Nat} (h : q.Abs [] pend s l) (fuel : Nat) :
    q.deq (fuel + 1) = .ok (INT_MIN, q) := by
  obtain ⟨h1, h2, rfl⟩ := h.chain.nil_inv
  obtain ⟨n, hn⟩ := heap_get q.mem q.head (h.chain.bound _ (by simp))
  have hn2 : n.next = none := by simpa [RelaxedQueue.nxt, hn] using h1
  rw [h2] at hn
  simp [RelaxedQueue.deq, RelaxedQueue.load, hn, hn2, h2]

theorem RelaxedQueue.rq_deq_eval_cons {q : RelaxedQueue} {b : Nat} {post : List Nat}
    {pend : List Int} {s : Nat} {l : List Nat} (h : q.Abs (b :: post) pend s l) (fuel : Nat) :
    ∃ v, q.deq (fuel + 1) = .ok (v, { q with head := b }) ∧ q.nxt q.head = some b := by
  obtain ⟨h1, h2, h3, -, v, pend', rfl, h5, h6⟩ := h.chain.cons_inv
  obtain ⟨n, hn⟩ := heap_get q.mem q.head (h.chain.bound _ (by simp))
  obtain ⟨m, hm⟩ := heap_get q.mem b h3
  have hn2 : n.next = some b := by simpa [RelaxedQueue.nxt, hn] using h1
  refine ⟨m.value, ?_, h1⟩
  simp [RelaxedQueue.deq, RelaxedQueue.load, RelaxedQueue.casHead, hn, hn2, h2, hm]

theorem RelaxedQueue.rq_syncP_eval_ok {q : RelaxedQueue} {n : RelaxedQueue.Node}
    {cd : RelaxedQueue.LastNVMData} {s : Nat} {l : List Nat} (fuel : Nat) (t : Int)
    (img : RelaxedQueue.Image)
    (hn1 : q.mem[q.tail]? = some n) (hn2 : n.next = none)
    (hcd : q.snaps[q.data]? = some cd) (hle : cd.counter ≤ q.counter)
    (hs : cd.NVMTail = some s) (hp : Linked q.nxt s l) (hl : chainLast s l = q.tail)
    (hb : ∀ a ∈ s :: l, a < q.mem.length) (hf : l.length ≤ fuel) :
    q.syncP (fuel + 1) t img = .ok
      ({ mem := q.mem ++ [⟨0, none, some ⟨q.counter, some q.tail, some q.head⟩⟩],
         snaps := q.snaps ++ [⟨some q.tail, some q.head, q.counter⟩],
         head := q.head, tail := q.tail, data := q.snaps.length,
         counter := wrapInt32 (q.counter + 1) },
       RelaxedQueue.checkpoint
         { q with mem := q.mem ++ [⟨0, none, some ⟨q.counter, some q.tail, some q.head⟩⟩],
                  counter := wrapInt32 (q.counter + 1) } (s :: l) img) := by
  have hd : q.data < q.snaps.length := heap_lt hcd
  have hwalk : RelaxedQueue.makeDurbleLoop
      { q with mem := q.mem ++ [⟨0, none, some ⟨q.counter, some q.tail, some q.head⟩⟩],
               counter := wrapInt32 (q.counter + 1) } (some q.tail) (fuel + 1) s = .ok l := by
    refine RelaxedQueue.rq_makeDurble_path (hp.congr ?_) hl ?_ (fuel + 1) (by omega)
    · intro x hx
      simp only [RelaxedQueue.nxt, heap_push_old _ _ _ (hb x hx)]
    · intro a ha
      have := hb a ha
      simp only [List.length_append, List.length_singleton]
      omega
  simp only [RelaxedQueue.syncP, RelaxedQueue.syncLoopP]
  rw [RelaxedQueue.rq_block_eval fuel hn1 hn2 hcd hle]
  simp [hcd, RelaxedQueue.loadInvalid, RelaxedQueue.makeDurble, hs, hwalk, RelaxedQueue.casData]

theorem RelaxedQueue.rq_syncP_eval_stale {q : RelaxedQueue} {cd : RelaxedQueue.LastNVMData}
    (fuel : Nat) (t : Int) (img : RelaxedQueue.Image)
    (hcd : q.snaps[q.data]? = some cd) (hgt : q.counter < cd.counter) :
    q.syncP (fuel + 1) t img = .ok
      ({ q with mem := q.mem ++ [⟨0, none, some ⟨0, none, none⟩⟩],
                counter := wrapInt32 (q.counter + 1) }, img) := by
  simp [RelaxedQueue.syncP, RelaxedQueue.syncLoopP, RelaxedQueue.blockTheTail,
    RelaxedQueue.blockLoop, hcd, hgt]

theorem RelaxedQueue.rq_durable_new :
    RelaxedQueue.new.Durable RelaxedQueue.newImage [] [] 0 [] := by
  refine ⟨RelaxedQueue.rq_new_abs, ?_, rfl, ?_⟩
  · intro a b hab
    rcases a with _ | a
    · simp [RelaxedQueue.nxt, RelaxedQueue.new] at hab
    · simp [RelaxedQueue.nxt, RelaxedQueue.new] at hab
  · intro a ha _
    have hlt := RelaxedQueue.rq_isNode_lt ha
    have h0 : a = 0 := by
      simp [RelaxedQueue.new] at hlt
      exact hlt
    subst h0
    exact ⟨rfl, fun h => absurd rfl h⟩

theorem RelaxedQueue.rq_durable_enq {q : RelaxedQueue} {img : RelaxedQueue.Image}
    {post : List Nat} {pend : List Int} {s : Nat} {l : List Nat}
    (h : q.Durable img post pend s l) (fuel : Nat) (v : Int) :
    ∃ q', q.enq (fuel + 1) v = .ok q' ∧
      q'.Durable img (post ++ [q.mem.length]) (pend ++ [v]) s (l ++ [q.mem.length]) := by
  have ht : q.tail < q.mem.length := h.abs.chain.tail_lt
  have hn : q.nxt q.tail = none := h.abs.chain.tail_none
  obtain ⟨n, hn1⟩ := heap_get q.mem q.tail ht
  have hn2 : n.next = none := by simpa [RelaxedQueue.nxt, hn1] using hn
  have e := RelaxedQueue.rq_enq_eval fuel v hn1 hn2
  obtain ⟨q', e', a', -⟩ := RelaxedQueue.rq_enq_abs h.abs fuel v
  have hmem : q'.mem = (q.mem ++ [RelaxedQueue.Node.mk v none none]).set q.tail
      (RelaxedQueue.Node.mk n.value (some q.mem.length) n.invalid) := by
    rw [e] at e'
    injection e' with e'
    rw [← e']
  have hh : q'.head = q.head := by
    rw [e] at e'
    injection e' with e'
    rw [← e']
  have ht' : q.tail < (q.mem ++ [RelaxedQueue.Node.mk v none none]).length := by
    simp; omega
  -- lookups in the new heap
  have look : ∀ x, x ≠ q.tail → x < q.mem.length → q'.mem[x]? = q.mem[x]? := by
    intro x hx hlt
    rw [hmem, heap_set_other _ _ _ _ hx, heap_push_old _ _ _ hlt]
  have lookT : q'.mem[q.tail]? =
      some (RelaxedQueue.Node.mk n.value (some q.mem.length) n.invalid) := by
    rw [hmem]
    exact heap_set_self _ _ _ ht'
  have lookN : q'.mem[q.mem.length]? = some (RelaxedQueue.Node.mk v none none) := by
    rw [hmem, heap_set_other _ _ _ _ (Nat.ne_of_gt ht), heap_push_new]
  have hlen : q'.mem.length = q.mem.length + 1 := by
    rw [hmem]
    simp
  have node : ∀ x, x < q.mem.length →
      (q'.isInvalid x = .ok false ↔ q.isInvalid x = .ok false) := by
    intro x hx
    rw [RelaxedQueue.rq_isNode_iff, RelaxedQueue.rq_isNode_iff]
    by_cases hxt : x = q.tail
    · subst hxt
      rw [lookT, hn1]
      constructor
      · rintro ⟨m, hm1, hm2⟩
        cases hm1
        exact ⟨n, rfl, hm2⟩
      · rintro ⟨m, hm1, hm2⟩
        cases hm1
        exact ⟨_, rfl, hm2⟩
    · rw [look x hxt hx]
  have nodeN : q'.isInvalid q.mem.length = .ok false :=
    (RelaxedQueue.rq_isNode_iff _ _).2 ⟨_, lookN, rfl⟩
  refine ⟨q', e', a', ?_, ?_, ?_⟩
  · intro a b hab
    rcases Nat.lt_trichotomy a q.mem.length with ha | ha | ha
    · by_cases hat : a = q.tail
      · subst hat
        simp only [RelaxedQueue.nxt, lookT, Option.bind, Option.some.injEq] at hab
        subst hab
        exact nodeN
      · have hab' : q.nxt a = some b := by
          simpa only [RelaxedQueue.nxt, look a hat ha] using hab
        have hb := h.noMarker a b hab'
        exact (node b (RelaxedQueue.rq_isNode_lt hb)).2 hb
    · subst ha
      simp [RelaxedQueue.nxt, lookN] at hab
    · rw [RelaxedQueue.nxt, List.getElem?_eq_none (by omega)] at hab
      cases hab
  · rw [hh]
    exact (node _ (RelaxedQueue.rq_isNode_lt h.headNode)).2 h.headNode
  · intro a ha hal
    rw [List.mem_append, not_or] at hal
    have hne : a ≠ q.mem.length := by
      intro e
      apply hal.2
      simp [e]
    have hlt : a < q.mem.length := by
      have := RelaxedQueue.rq_isNode_lt ha
      omega
    obtain ⟨u1, u2⟩ := h.image a ((node a hlt).1 ha) hal.1
    have hv : q'.val a = q.val a := by
      by_cases hat : a = q.tail
      · subst hat
        simp only [RelaxedQueue.val, lookT, hn1, Option.map]
      · simp only [RelaxedQueue.val, look a hat hlt]
    refine ⟨by rw [hv]; exact u1, ?_⟩
    intro has
    have hat : a ≠ q.tail := by
      intro e
      apply has
      rw [e, ← h.abs.pathLast]
      apply chainLast_not_mem
      rw [h.abs.pathLast, ← e]
      exact hal.1
    have hx : q'.nxt a = q.nxt a := by
      simp only [RelaxedQueue.nxt, look a hat hlt]
    rw [hx]
    exact u2 has

theorem RelaxedQueue.rq_durable_deq {q : RelaxedQueue} {img : RelaxedQueue.Image}
    {post : List Nat} {pend : List Int} {s : Nat} {l : List Nat}
    (h : q.Durable img post pend s l) (fuel : Nat) :
    ∃ r q', q.deq (fuel + 1) = .ok (r, q') ∧ q'.Durable img post.tail pend.tail s l := by
  obtain ⟨q', e', a', -⟩ := RelaxedQueue.rq_deq_spec h.abs fuel
  cases post with
  | nil =>
    have e := RelaxedQueue.rq_deq_eval_nil h.abs fuel
    rw [e] at e'
    injection e' with e'
    injection e' with e1 e2
    subst e2
    exact ⟨_, q, e, a', h.noMarker, h.headNode, h.image⟩
  | cons b post =>
    obtain ⟨v, e, hb⟩ := RelaxedQueue.rq_deq_eval_cons h.abs fuel
    rw [e] at e'
    injection e' with e'
    injection e' with e1 e2
    subst e2
    exact ⟨_, _, e, a', h.noMarker, h.noMarker _ _ hb, h.image⟩

theorem RelaxedQueue.rq_durable_sync {q : RelaxedQueue} {img : RelaxedQueue.Image}
    {post : List Nat} {pend : List Int} {s : Nat} {l : List Nat}
    (h : q.Durable img post pend s l) (fuel : Nat) (hf : l.length ≤ fuel) (t : Int) :
    ∃ q' img' s' l', q.syncP (fuel + 1) t img = .ok (q', img') ∧
      q'.Durable img' post pend s' l' ∧ l'.length ≤ l.length ∧
      ((q'.data = q.data ∧ ∃ cd, q.snaps[q.data]? = some cd ∧ q.counter < cd.counter) ∨
       (q'.data ≠ q.data ∧
         q'.snaps[q'.data]? = some ⟨some q.tail, some q.head, q.counter⟩ ∧
         q'.head = q.head ∧ q'.tail = q.tail ∧ s' = q.tail ∧ l' = [])) := by
  have ht : q.tail < q.mem.length := h.abs.chain.tail_lt
  have hn : q.nxt q.tail = none := h.abs.chain.tail_none
  obtain ⟨n, hn1⟩ := heap_get q.mem q.tail ht
  have hn2 : n.next = none := by simpa [RelaxedQueue.nxt, hn1] using hn
  obtain ⟨cd, hcd, hs⟩ := h.abs.snap
  have hd : q.data < q.snaps.length := heap_lt hcd
  by_cases hle : cd.counter ≤ q.counter
  · have e := RelaxedQueue.rq_syncP_eval_ok fuel t img hn1 hn2 hcd hle hs h.abs.path
      h.abs.pathLast h.abs.pathBound hf
    have hm : ∀ x : RelaxedQueue.Node, x = ⟨0, none, some ⟨q.counter, some q.tail, some q.head⟩⟩ →
        x.next = none ∧ x.invalid ≠ none := by
      rintro x rfl
      exact ⟨rfl, by simp⟩
    obtain ⟨c1, c2, c3, c4, c5⟩ := @RelaxedQueue.rq_abs_push q
      { mem := q.mem ++ [⟨0, none, some ⟨q.counter, some q.tail, some q.head⟩⟩],
        snaps := q.snaps ++ [⟨some q.tail, some q.head, q.counter⟩],
        head := q.head, tail := q.tail, data := q.snaps.length,
        counter := wrapInt32 (q.counter + 1) } _ post pend s l h.abs rfl rfl rfl
    refine ⟨_, _, q.tail, [], e, ⟨⟨c1, ⟨_, heap_push_new _ _, rfl⟩, c4, ?_, rfl⟩, ?_, ?_, ?_⟩,
      by simp, Or.inr ⟨?_, heap_push_new _ _, rfl, rfl, rfl, rfl⟩⟩
    · intro a ha
      simp only [List.mem_singleton] at ha
      subst ha
      exact c5
    · exact RelaxedQueue.rq_noMarker_push h.noMarker rfl rfl (by simp)
    · exact (RelaxedQueue.rq_push_isNode rfl (by simp) _).2 h.headNode
    · intro a ha _
      have ha' := (RelaxedQueue.rq_push_isNode rfl (by simp) a).1 ha
      have hlt := RelaxedQueue.rq_isNode_lt ha'
      by_cases hin : a ∈ s :: l
      · refine ⟨?_, fun _ => ?_⟩
        · simp only [RelaxedQueue.checkpoint, hin, if_true, RelaxedQueue.val]
        · simp only [RelaxedQueue.checkpoint, hin, if_true, RelaxedQueue.nxt]
      · rw [List.mem_cons, not_or] at hin
        obtain ⟨u1, u2⟩ := h.image a ha' hin.2
        refine ⟨?_, fun _ => ?_⟩
        · simp only [RelaxedQueue.checkpoint, List.mem_cons, hin.1, hin.2, or_self, if_false]
          rw [u1]
          exact (RelaxedQueue.rq_push_val rfl hlt).symm
        · simp only [RelaxedQueue.checkpoint, List.mem_cons, hin.1, hin.2, or_self, if_false]
          rw [u2 hin.1]
          exact (RelaxedQueue.rq_push_nxt rfl hlt).symm
    · show q.snaps.length ≠ q.data
      omega
  · have hgt : q.counter < cd.counter := not_le.1 hle
    have e := RelaxedQueue.rq_syncP_eval_stale fuel t img hcd hgt
    obtain ⟨c1, c2, c3, c4, c5⟩ := @RelaxedQueue.rq_abs_push q
      { q with mem := q.mem ++ [⟨0, none, some ⟨0, none, none⟩⟩],
               counter := wrapInt32 (q.counter + 1) } _ post pend s l h.abs rfl rfl rfl
    refine ⟨_, _, s, l, e, ⟨⟨c1, ⟨cd, hcd, hs⟩, c2, c3, h.abs.pathLast⟩, ?_, ?_, ?_⟩,
      le_refl _, Or.inl ⟨rfl, cd, hcd, hgt⟩⟩
    · exact RelaxedQueue.rq_noMarker_push h.noMarker rfl rfl (by simp)
    · exact (RelaxedQueue.rq_push_isNode rfl (by simp) _).2 h.headNode
    · intro a ha hal
      have ha' := (RelaxedQueue.rq_push_isNode rfl (by simp) a).1 ha
      have hlt := RelaxedQueue.rq_isNode_lt ha'
      obtain ⟨u1, u2⟩ := h.image a ha' hal
      refine ⟨?_, fun hs' => ?_⟩
      · rw [u1]
        exact (RelaxedQueue.rq_push_val rfl hlt).symm
      · rw [u2 hs']
        exact (RelaxedQueue.rq_push_nxt rfl hlt).symm

theorem RelaxedQueue.rq_runP_durable {q : RelaxedQueue} {img : RelaxedQueue.Image}
    {post : List Nat} {pend : List Int} {s : Nat} {l : List Nat}
    (h : q.Durable img post pend s l) (fuel : Nat) (ops : List ROp)
    (hf : l.length + ops.length < fuel) :
    ∃ r q' img' post' pend' s' l', q.runP fuel ops img = .ok (r, q', img') ∧
      q'.Durable img' post' pend' s' l' ∧ l'.length ≤ l.length + ops.length := by
  obtain ⟨k, rfl⟩ : ∃ k, fuel = k + 1 := ⟨fuel - 1, by omega⟩
  induction ops generalizing q img post pend s l with
  | nil => exact ⟨[], q, img, post, pend, s, l, rfl, h, by simp⟩
  | cons o ops ih =>
    simp only [List.length_cons] at hf
    cases o with
    | enq v =>
      obtain ⟨q1, e1, d1⟩ := RelaxedQueue.rq_durable_enq h k v
      obtain ⟨r, q2, img2, post2, pend2, s2, l2, e2, d2, b2⟩ := ih d1 (by simp; omega)
      refine ⟨r, q2, img2, post2, pend2, s2, l2, by simp [RelaxedQueue.runP, e1, e2], d2, ?_⟩
      simp only [List.length_append, List.length_singleton, List.length_cons,
        List.length_nil] at b2 ⊢
      omega
    | deq =>
      obtain ⟨r1, q1, e1, d1⟩ := RelaxedQueue.rq_durable_deq h k
      obtain ⟨r, q2, img2, post2, pend2, s2, l2, e2, d2, b2⟩ := ih d1 (by omega)
      refine ⟨r1 :: r, q2, img2, post2, pend2, s2, l2, by simp [RelaxedQueue.runP, e1, e2],
        d2, ?_⟩
      simp only [List.length_cons]
      omega
    | sync t =>
      obtain ⟨q1, img1, s1, l1, e1, d1, b1, -⟩ := RelaxedQueue.rq_durable_sync h k (by omega) t
      obtain ⟨r, q2, img2, post2, pend2, s2, l2, e2, d2, b2⟩ := ih d1 (by omega)
      refine ⟨r, q2, img2, post2, pend2, s2, l2, by simp [RelaxedQueue.runP, e1, e2], d2, ?_⟩
      simp only [List.length_cons]
      omega

theorem RelaxedQueue.rq_runP_count (fuel : Nat) (ops : List ROp) (hf : ops.length < fuel)
    {r : List Int} {q : RelaxedQueue} {img : RelaxedQueue.Image}
    (h : RelaxedQueue.new.runP fuel ops RelaxedQueue.newImage = .ok (r, q, img))
    (hc : syncCount ops ≤ 2147483648) : q.Count (syncCount ops) := by
  obtain ⟨q1, post1, pend1, s1, l1, e1, -, -, c1⟩ :=
    RelaxedQueue.rq_run_abs RelaxedQueue.rq_new_abs fuel ops (by simpa using hf)
  have hl := RelaxedQueue.rq_runP_queue fuel ops RelaxedQueue.new RelaxedQueue.newImage
  rw [h, e1] at hl
  simp only [Except.map, Except.ok.injEq, Prod.mk.injEq] at hl
  have := c1 0 RelaxedQueue.rq_new_count (by omega)
  rw [← hl.2] at this
  simpa using this

theorem RelaxedQueue.rq_durable_chain_node {q : RelaxedQueue} {img : RelaxedQueue.Image}
    {post : List Nat} {pend : List Int} {s : Nat} {l : List Nat}
    (h : q.Durable img post pend s l) : ∀ a ∈ q.head :: post, q.isInvalid a = .ok false := by
  intro a ha
  rcases List.mem_cons.1 ha with rfl | ha
  · exact h.headNode
  · obtain ⟨c, hc⟩ := h.abs.chain.linked.pointed a ha
    exact h.noMarker c a hc

/-! ## Interleaved executions of `sync`: a thread that runs alone -/

/-- The step model agrees with `sync` when one thread runs alone: on a fresh
queue, and on the queue after `enq(1); enq(2); sync; deq; enq(3)`, the seventeen
(resp. eighteen) steps of a solo thread end in `done` with the queue that `sync`
returns. -/
theorem SyncSystem.solo_examples :
    (SyncSystem.run (List.replicate 17 0) ⟨RelaxedQueue.new, [SyncThread.init]⟩).map
        (fun s => (s.queue, s.pcOf 0)) =
      (RelaxedQueue.new.sync 3 0).map (fun r => (r.2, some SyncPc.done)) ∧
    ((RelaxedQueue.new.run 6 [.enq 1, .enq 2, .sync 0, .deq, .enq 3]).bind fun r =>
        (SyncSystem.run (List.replicate 18 0) ⟨r.2, [SyncThread.init]⟩).map
          (fun s => (s.queue, s.pcOf 0))) =
      ((RelaxedQueue.new.run 6 [.enq 1, .enq 2, .sync 0, .deq, .enq 3]).bind fun r =>
        (r.2.sync 3 0).map (fun r => (r.2, some SyncPc.done))) := by
  constructor <;> decide

theorem SyncSystem.run_append (a b : List Nat) (s : SyncSystem) :
    SyncSystem.run (a ++ b) s = (SyncSystem.run a s).bind (SyncSystem.run b) := by
  induction a generalizing s with
  | nil => rfl
  | cons i a ih =>
    simp only [List.cons_append, SyncSystem.run]
    cases s.step i with
    | error e => rfl
    | ok s1 => exact ih s1

theorem SyncSystem.solo_block {q : RelaxedQueue} {n : RelaxedQueue.Node}
    {cd : RelaxedQueue.LastNVMData}
    (hn1 : q.mem[q.tail]? = some n) (hn2 : n.next = none)
    (hcd : q.snaps[q.data]? = some cd) (hle : cd.counter ≤ q.counter) :
    SyncSystem.run (List.replicate 13 0) ⟨q, [SyncThread.init]⟩ = .ok
      ⟨{ q with mem := q.mem ++ [⟨0, none, some ⟨q.counter, some q.tail, some q.head⟩⟩],
                counter := wrapInt32 (q.counter + 1) },
       [⟨.durableStart, q.mem.length, q.data, q.data, q.counter, q.tail, none, 0, none, 0⟩]⟩ := by
  have ht : q.tail < q.mem.length := heap_lt hn1
  have hne : q.mem.length ≠ q.tail := Nat.ne_of_gt ht
  have hnn : ({ value := n.value, next := none, invalid := n.invalid } : RelaxedQueue.Node) = n := by
    cases n
    simp only [RelaxedQueue.Node.mk.injEq, true_and] at hn2 ⊢
    exact ⟨hn2.symm, trivial⟩
  simp [List.replicate, SyncSystem.run, SyncSystem.step, SyncThread.step, SyncThread.init,
    RelaxedQueue.setInvalid, RelaxedQueue.load, RelaxedQueue.casNext,
    RelaxedQueue.casInvalidHead, hcd, not_lt.2 hle, List.getElem?_append_left ht, hn1, hn2,
    hne, List.getElem?_set, ht, heap_set_push_self _ _ _ _ ht]
  rw [hnn, heap_set_same _ _ _ hn1]

theorem SyncSystem.solo_durable (q : RelaxedQueue) (th : SyncThread) (t : Nat)
    (l : List Nat) (s : Nat) (hpc : th.pc = .durableLoop) (htemp : th.temp = s)
    (hfin : th.finish = some t) (hp : Linked q.nxt s l) (hl : chainLast s l = t)
    (hb : ∀ a ∈ s :: l, a < q.mem.length) :
    SyncSystem.run (List.replicate (l.length + 1) 0) ⟨q, [th]⟩ = .ok
      ⟨q, [{ th with temp := t, pc := .allocSnapshot }]⟩ := by
  induction l generalizing s th with
  | nil =>
    simp only [chainLast] at hl
    subst hl
    obtain ⟨pc, invalid, currData, blockData, currentCounter, last, next, temp, finish,
      potential⟩ := th
    simp only at hpc htemp hfin
    subst hpc htemp hfin
    simp [List.replicate, SyncSystem.run, SyncSystem.step, SyncThread.step]
  | cons b l ih =>
    have hne : s ≠ t := by
      intro e
      have := hp.last_none
      rw [hl, ← e, hp.1] at this
      cases this
    obtain ⟨m, hm⟩ := heap_get q.mem s (hb s (by simp))
    have hm2 : m.next = some b := by simpa [RelaxedQueue.nxt, hm] using hp.1
    have hrec := ih { th with temp := b } b hpc rfl hfin hp.2 hl
      (fun a ha => hb a (List.mem_cons_of_mem _ ha))
    obtain ⟨pc, invalid, currData, blockData, currentCounter, last, next, temp, finish,
      potential⟩ := th
    simp only at hpc htemp hfin hrec
    subst hpc htemp hfin
    rw [List.length_cons, List.replicate_succ, SyncSystem.run]
    simp only [SyncSystem.step, SyncThread.step, List.getElem?_cons_zero, Option.some.injEq,
      hne, if_false, RelaxedQueue.load, hm, hm2, List.set_cons_zero]
    exact hrec

/-- A thread that runs `sync` alone, step by step, on a state that holds a queue
reaches `done` after at most `17 + l.length` steps, in the queue state that the
function `sync` returns. -/
theorem SyncSystem.solo_refines_sync {q : RelaxedQueue} {post : List Nat} {pend : List Int}
    {s : Nat} {l : List Nat} (h : q.Abs post pend s l) (t : Int) :
    ∃ k fl s', k ≤ 17 + l.length ∧
      SyncSystem.run (List.replicate k 0) ⟨q, [SyncThread.init]⟩ = .ok s' ∧
      s'.pcOf 0 = some .done ∧ q.sync (l.length + 1) t = .ok (fl, s'.queue) := by
  have ht : q.tail < q.mem.length := h.chain.tail_lt
  have hn : q.nxt q.tail = none := h.chain.tail_none
  obtain ⟨n, hn1⟩ := heap_get q.mem q.tail ht
  have hn2 : n.next = none := by simpa [RelaxedQueue.nxt, hn1] using hn
  obtain ⟨cd, hcd, hs⟩ := h.snap
  by_cases hle : cd.counter ≤ q.counter
  · have e := RelaxedQueue.rq_sync_eval_ok l.length t hn1 hn2 hcd hle hs h.path h.pathLast
      h.pathBound (le_refl _)
    have e1 := SyncSystem.solo_block hn1 hn2 hcd hle
    obtain ⟨c1, c2, c3, c4, c5⟩ := @RelaxedQueue.rq_abs_push q
      { q with mem := q.mem ++ [⟨0, none, some ⟨q.counter, some q.tail, some q.head⟩⟩],
               counter := wrapInt32 (q.counter + 1) } _ post pend s l h rfl rfl rfl
    have e2 := SyncSystem.solo_durable
      { q with mem := q.mem ++ [⟨0, none, some ⟨q.counter, some q.tail, some q.head⟩⟩],
               counter := wrapInt32 (q.counter + 1) }
      ⟨.durableLoop, q.mem.length, q.data, q.data, q.counter, q.tail, none, s, some q.tail, 0⟩
      q.tail l s rfl rfl rfl c2 h.pathLast c3
    refine ⟨17 + l.length, s :: l,
      ⟨{ mem := q.mem ++ [⟨0, none, some ⟨q.counter, some q.tail, some q.head⟩⟩],
         snaps := q.snaps ++ [⟨some q.tail, some q.head, q.counter⟩],
         head := q.head, tail := q.tail, data := q.snaps.length,
         counter := wrapInt32 (q.counter + 1) },
       [⟨.done, q.mem.length, q.data, q.data, q.counter, q.tail, none, q.tail, some q.tail,
          q.snaps.length⟩]⟩, le_refl _, ?_, ?_, e⟩
    · have e3 : SyncSystem.run (List.replicate 1 0)
          ⟨{ q with mem := q.mem ++ [⟨0, none, some ⟨q.counter, some q.tail, some q.head⟩⟩],
                    counter := wrapInt32 (q.counter + 1) },
           [⟨.durableStart, q.mem.length, q.data, q.data, q.counter, q.tail, none, 0, none, 0⟩]⟩
          = .ok
          ⟨{ q with mem := q.mem ++ [⟨0, none, some ⟨q.counter, some q.tail, some q.head⟩⟩],
                    counter := wrapInt32 (q.counter + 1) },
           [⟨.durableLoop, q.mem.length, q.data, q.data, q.counter, q.tail, none, s,
              some q.tail, 0⟩]⟩ := by
        simp [List.replicate, SyncSystem.run, SyncSystem.step, SyncThread.step, hcd, hs,
          RelaxedQueue.loadInvalid]
      rw [show 17 + l.length = 13 + (1 + ((l.length + 1) + 2)) by omega,
        List.replicate_add, SyncSystem.run_append, e1]
      simp only [Except.bind]
      rw [List.replicate_add, SyncSystem.run_append, e3]
      simp only [Except.bind]
      rw [List.replicate_add, SyncSystem.run_append, e2]
      simp [List.replicate, SyncSystem.run, SyncSystem.step, SyncThread.step,
        RelaxedQueue.loadInvalid, RelaxedQueue.casData, Except.bind]
    · rfl
  · have hgt : q.counter < cd.counter := not_le.1 hle
    have e := RelaxedQueue.rq_sync_eval_stale l.length t hcd hgt
    refine ⟨5, [],
      ⟨{ q with mem := q.mem ++ [⟨0, none, some ⟨0, none, none⟩⟩],
                counter := wrapInt32 (q.counter + 1) },
       [⟨.done, q.mem.length, q.data, q.data, q.counter, 0, none, 0, none, 0⟩]⟩,
      by omega, ?_, ?_, e⟩
    · simp [List.replicate, SyncSystem.run, SyncSystem.step, SyncThread.step, SyncThread.init,
        hcd, hgt]
    · rfl


/-! ## Detectable queue: `updateTailAndStatus` -/

theorem LogQueue.lq_enqStatus_some {q : LogQueue} {a : Nat} (h : (q.enqStatus a).isSome) :
    ∃ n e x, q.mem[a]? = some n ∧ n.logEnq = some e ∧ q.entries[e]? = some x := by
  unfold LogQueue.enqStatus at h
  cases hn : q.mem[a]? with
  | none => simp [hn] at h
  | some n =>
    cases he : n.logEnq with
    | none => simp [hn, he] at h
    | some e =>
      cases hx : q.entries[e]? with
      | none => simp [hn, he, hx] at h
      | some x => exact ⟨n, e, x, rfl, he, hx⟩

theorem LogQueue.lq_setStatus_enq {q : LogQueue} {b : Nat} {n : LogQueue.NodeWithLog}
    (hn : q.mem[b]? = some n) (hs : (q.enqStatus b).isSome) :
    ∃ q1, q.setStatus n.logEnq true = .ok q1 ∧ q1.mem = q.mem ∧ q1.head = q.head ∧
      q1.tail = q.tail ∧ q1.enqStatus b = some true ∧
      ∀ a, q1.enqStatus a = some true ∨ q1.enqStatus a = q.enqStatus a := by
  obtain ⟨n', e, x, hn', he, hx⟩ := LogQueue.lq_enqStatus_some hs
  rw [hn] at hn'
  cases hn'
  have hlt : e < q.entries.length := heap_lt hx
  refine ⟨{ q with entries := q.entries.set e { x with status := true } }, ?_, rfl, rfl, rfl,
    ?_, ?_⟩
  · simp [LogQueue.setStatus, he, hx]
  · simp only [LogQueue.enqStatus, hn, he, Option.bind, heap_set_self _ _ _ hlt, Option.map]
  · intro a
    simp only [LogQueue.enqStatus]
    cases ha : q.mem[a]? with
    | none => exact Or.inr rfl
    | some m =>
      cases hm : m.logEnq with
      | none => exact Or.inr (by simp [hm])
      | some e' =>
        by_cases hee : e' = e
        · subst hee
          left
          simp only [Option.bind, hm, heap_set_self _ _ _ hlt, Option.map]
        · right
          simp only [Option.bind, hm, heap_set_other _ _ _ _ hee]

theorem LogQueue.lq_updateTailLoop (prevTail : Nat) (post : List Nat) :
    ∀ (temp : Nat) (q : LogQueue) (fuel : Nat), Linked q.nxt temp post →
      (∀ a ∈ temp :: post, (q.enqStatus a).isSome) → post.length < fuel →
      ∃ q', LogQueue.updateTailLoop prevTail fuel temp q = .ok q' ∧ q'.mem = q.mem ∧
        q'.head = q.head ∧
        q'.tail = (if q.tail = prevTail then chainLast temp post else q.tail) ∧
        (∀ a, q'.enqStatus a = some true ∨ q'.enqStatus a = q.enqStatus a) ∧
        ∀ a ∈ post, q'.enqStatus a = some true := by
  induction post with
  | nil =>
    intro temp q fuel hl hs hf
    obtain ⟨k, rfl⟩ : ∃ k, fuel = k + 1 := ⟨fuel - 1, by simp at hf; omega⟩
    obtain ⟨n, e, x, hn, -, -⟩ := LogQueue.lq_enqStatus_some (hs temp (by simp))
    have hnx : n.next = none := by simpa [Linked, LogQueue.nxt, hn] using hl
    refine ⟨(q.casTail prevTail temp).2, ?_, ?_, ?_, ?_, ?_, fun a ha => by cases ha⟩
    · simp [LogQueue.updateTailLoop, LogQueue.load, hn, hnx]
    · unfold LogQueue.casTail; split <;> rfl
    · unfold LogQueue.casTail; split <;> rfl
    · unfold LogQueue.casTail
      by_cases h : q.tail = prevTail <;> simp [h, chainLast]
    · intro a
      right
      unfold LogQueue.casTail; split <;> rfl
  | cons b rest ih =>
    intro temp q fuel hl hs hf
    obtain ⟨k, rfl⟩ : ∃ k, fuel = k + 1 := ⟨fuel - 1, by simp at hf; omega⟩
    obtain ⟨n, e, x, hn, -, -⟩ := LogQueue.lq_enqStatus_some (hs temp (by simp))
    have hnx : n.next = some b := by simpa [LogQueue.nxt, hn] using hl.1
    have hsb : (q.enqStatus b).isSome := hs b (by simp)
    obtain ⟨m, e', x', hm, -, -⟩ := LogQueue.lq_enqStatus_some hsb
    obtain ⟨q1, e1, m1, h1, t1, sb, mono⟩ := LogQueue.lq_setStatus_enq hm hsb
    have hnxt : ∀ a, q1.nxt a = q.nxt a := fun a => by simp only [LogQueue.nxt, m1]
    cases rest with
    | nil =>
      have hmx : m.next = none := by simpa [Linked, LogQueue.nxt, hm] using hl.2
      refine ⟨(q1.casTail prevTail b).2, ?_, ?_, ?_, ?_, ?_, ?_⟩
      · simp [LogQueue.updateTailLoop, LogQueue.load, hn, hnx, hm, hmx, e1]
      · unfold LogQueue.casTail; split <;> exact m1
      · unfold LogQueue.casTail; split <;> exact h1
      · unfold LogQueue.casTail
        by_cases h : q.tail = prevTail <;> simp [h, t1, chainLast]
      · intro a
        have : (q1.casTail prevTail b).2.enqStatus a = q1.enqStatus a := by
          unfold LogQueue.casTail; split <;> rfl
        rw [this]
        exact mono a
      · intro a ha
        simp only [List.mem_singleton] at ha
        subst ha
        have : (q1.casTail prevTail a).2.enqStatus a = q1.enqStatus a := by
          unfold LogQueue.casTail; split <;> rfl
        rw [this]
        exact sb
    | cons c rest' =>
      have hmx : m.next = some c := by simpa [LogQueue.nxt, hm] using hl.2.1
      have hl1 : Linked q1.nxt b (c :: rest') := hl.2.congr fun a _ => hnxt a
      have hs1 : ∀ a ∈ b :: c :: rest', (q1.enqStatus a).isSome := by
        intro a ha
        have := hs a (List.mem_cons_of_mem _ ha)
        rcases mono a with h | h
        · rw [h]; rfl
        · rw [h]; exact this
      obtain ⟨q', e', m', h', t', mono', all'⟩ := ih b q1 k hl1 hs1 (by simp at hf ⊢; omega)
      refine ⟨q', ?_, m'.trans m1, h'.trans h1, ?_, ?_, ?_⟩
      · simp [LogQueue.updateTailLoop, LogQueue.load, hn, hnx, hm, hmx, e1, e']
      · rw [t', t1]
        rfl
      · intro a
        rcases mono' a with h | h
        · exact Or.inl h
        · rw [h]; exact mono a
      · intro a ha
        rcases List.mem_cons.1 ha with rfl | ha
        · rcases mono' a with h | h
          · exact h
          · rw [h]; exact sb
        · exact all' a ha

/-! ## Detectable queue: a dequeue that finds the first node claimed -/

theorem LogQueue.lq_deq_help_nil {q : LogQueue} {h n : LogQueue.NodeWithLog} {N eA : Nat}
    {entA : LogQueue.LogEntry} {f : Nat → Option Nat} {t : Int}
    (hh : q.mem[q.head]? = some h) (hhn : h.next = some N) (hne : q.head ≠ q.tail)
    (hN : q.mem[N]? = some n) (hA : n.logDeq = some eA) (hentA : q.entries[eA]? = some entA)
    (hnn : n.next = none) (hNt : q.tail = N) (hf : q.arrays[q.logs]? = some f)
    (h0 : 0 ≤ t) (h1 : t < MAX_THREADS) (fuel : Nat) (op : Int) :
    q.deq (fuel + 2) t op = .ok (INT_MIN,
      { q with
        entries := (q.entries.set eA (LogQueue.LogEntry.mk entA.operationNum entA.action
                      entA.status (some N))) ++ [LogQueue.LogEntry.mk op .remove true none],
        arrays := q.arrays.set q.logs
                    (Function.update f (t * PADDING).toNat (some q.entries.length)),
        head := N }) := by
  have hlt : eA < q.entries.length := heap_lt hentA
  have hl : q.logs < q.arrays.length := heap_lt hf
  subst hNt
  simp [LogQueue.deq, LogQueue.createDeqLog, LogQueue.setLog, LogQueue.deqLoop, LogQueue.load,
    LogQueue.casLogDeq, LogQueue.setNode, LogQueue.casHead, LogQueue.casTail,
    LogQueue.logPtr, LogQueue.readArray, LogQueue.setStatus, slot_eq h0 h1, slot_lt h0 h1,
    hh, hhn, hne, hN, hA, hentA, hnn, hf, hl, hlt, List.getElem?_append_left hlt,
    List.set_append_left _ _ hlt]

theorem LogQueue.lq_deq_help_cons {q : LogQueue} {h n m : LogQueue.NodeWithLog} {N M eA : Nat}
    {entA : LogQueue.LogEntry} {f : Nat → Option Nat} {t : Int}
    (hh : q.mem[q.head]? = some h) (hhn : h.next = some N) (hne : q.head ≠ q.tail)
    (hN : q.mem[N]? = some n) (hA : n.logDeq = some eA) (hentA : q.entries[eA]? = some entA)
    (hnn : n.next = some M) (hNt : N ≠ q.tail) (hM : q.mem[M]? = some m)
    (hmd : m.logDeq = none) (hf : q.arrays[q.logs]? = some f)
    (h0 : 0 ≤ t) (h1 : t < MAX_THREADS) (fuel : Nat) (op : Int) :
    q.deq (fuel + 2) t op = .ok (m.value,
      { mem := q.mem.set M { m with logDeq := some q.entries.length },
        entries := (q.entries.set eA (LogQueue.LogEntry.mk entA.operationNum entA.action
                      entA.status (some N))) ++ [LogQueue.LogEntry.mk op .remove false (some M)],
        arrays := q.arrays.set q.logs
                    (Function.update f (t * PADDING).toNat (some q.entries.length)),
        logs := q.logs, head := M, tail := q.tail }) := by
  have hlt : eA < q.entries.length := heap_lt hentA
  have hl : q.logs < q.arrays.length := heap_lt hf
  have hMlt : M < q.mem.length := heap_lt hM
  simp [LogQueue.deq, LogQueue.createDeqLog, LogQueue.setLog, LogQueue.deqLoop, LogQueue.load,
    LogQueue.casLogDeq, LogQueue.setNode, LogQueue.casHead, LogQueue.casTail,
    slot_eq h0 h1, slot_lt h0 h1,
    hh, hhn, hne, hN, hA, hentA, hnn, hNt, hM, hmd, hf, hl, hlt, hMlt,
    List.getElem?_append_left hlt, List.set_append_left _ _ hlt]

/-! ## Durable queue: a dequeue that finds the first node claimed -/

theorem slot_ne {a b : Int} (ha0 : 0 ≤ a) (hb0 : 0 ≤ b) (hab : a ≠ b) :
    (a * PADDING).toNat ≠ (b * PADDING).toNat := by
  simp only [PADDING] at *
  omega

theorem DurableQueue.dq_deq_help_nil {q : DurableQueue} {h n : DurableQueue.NodeWithID}
    {N ca : Nat} {a b : Int}
    (hh : q.mem[q.head]? = some h) (hhn : h.next = some N) (hne : q.head ≠ q.tail)
    (hN : q.mem[N]? = some n) (hna : n.threadID = a) (ha : a ≠ -1)
    (ha0 : 0 ≤ a) (ha1 : a < MAX_THREADS)
    (hca : q.removedValues (a * PADDING).toNat = some ca) (hcl : ca < q.cells.length)
    (hnn : n.next = none) (hNt : q.tail = N)
    (hb0 : 0 ≤ b) (hb1 : b < MAX_THREADS) (hab : a ≠ b) (fuel : Nat) :
    q.deq (fuel + 2) b = .ok (INT_MIN,
      { q with cells := (q.cells.set ca n.value) ++ [INT_MIN],
               removedValues :=
                 Function.update q.removedValues (b * PADDING).toNat (some q.cells.length),
               head := N }) := by
  have hs := slot_ne ha0 hb0 hab
  subst hNt
  subst hna
  simp [DurableQueue.deq, DurableQueue.deqLoop, DurableQueue.load, DurableQueue.casThreadID,
    DurableQueue.removedPtr, DurableQueue.storeAt, DurableQueue.storeRemoved,
    DurableQueue.casHead, DurableQueue.casTail, slot_eq hb0 hb1, slot_eq ha0 ha1,
    hh, hhn, hne, hN, ha, hca, hcl, hnn, Function.update_noteq hs,
    List.set_append_left _ _ hcl, Nat.lt_succ_of_lt hcl]

theorem DurableQueue.dq_deq_help_cons {q : DurableQueue} {h n m : DurableQueue.NodeWithID}
    {N M ca : Nat} {a b : Int}
    (hh : q.mem[q.head]? = some h) (hhn : h.next = some N) (hne : q.head ≠ q.tail)
    (hN : q.mem[N]? = some n) (hna : n.threadID = a) (ha : a ≠ -1)
    (ha0 : 0 ≤ a) (ha1 : a < MAX_THREADS)
    (hca : q.removedValues (a * PADDING).toNat = some ca) (hcl : ca < q.cells.length)
    (hnn : n.next = some M) (hNt : N ≠ q.tail) (hM : q.mem[M]? = some m)
    (hmt : m.threadID = -1)
    (hb0 : 0 ≤ b) (hb1 : b < MAX_THREADS) (hab : a ≠ b) (fuel : Nat) :
    q.deq (fuel + 2) b = .ok (m.value,
      { mem := q.mem.set M { m with threadID := b },
        cells := (q.cells.set ca n.value) ++ [m.value],
        removedValues :=
          Function.update q.removedValues (b * PADDING).toNat (some q.cells.length),
        head := M, tail := q.tail }) := by
  have hs := slot_ne ha0 hb0 hab
  have hMlt : M < q.mem.length := heap_lt hM
  subst hna
  simp [DurableQueue.deq, DurableQueue.deqLoop, DurableQueue.load, DurableQueue.casThreadID,
    DurableQueue.removedPtr, DurableQueue.storeAt, DurableQueue.storeRemoved,
    DurableQueue.casHead, DurableQueue.casTail, slot_eq hb0 hb1, slot_eq ha0 ha1,
    hh, hhn, hne, hN, ha, hca, hcl, hnn, hNt, hM, hmt, hMlt, Function.update_noteq hs,
    List.set_append_left _ _ hcl, Nat.lt_succ_of_lt hcl]

/-! ## Buffered-Relaxed queue: operations that meet a marker -/

theorem RelaxedQueue.rq_helpMarker_eval {q : RelaxedQueue} {l mk : RelaxedQueue.Node}
    {iv : RelaxedQueue.InvalidPart} {m t : Nat}
    (hL : q.mem[t]? = some l) (hln : l.next = some m) (hne : m ≠ t)
    (hm : q.mem[m]? = some mk) (hiv : mk.invalid = some iv) (hit : iv.tail = some t) :
    q.helpMarker m = .ok
      { q with mem := (q.mem.set m
                        (RelaxedQueue.Node.mk mk.value mk.next
                          (some ⟨iv.counter, iv.tail,
                            if iv.head = none then some q.head else iv.head⟩))).set t
                        (RelaxedQueue.Node.mk l.value none l.invalid) } := by
  have ht : t < q.mem.length := heap_lt hL
  have hmlt : m < q.mem.length := heap_lt hm
  obtain ⟨c, tl, hd⟩ := iv
  simp only at hit
  subst hit
  cases hd with
  | none =>
    have h1 : (q.mem.set m (RelaxedQueue.Node.mk mk.value mk.next
        (some ⟨c, some t, some q.head⟩)))[m]? = some (RelaxedQueue.Node.mk mk.value
          mk.next (some ⟨c, some t, some q.head⟩)) := heap_set_self _ _ _ hmlt
    have h2 : (q.mem.set m (RelaxedQueue.Node.mk mk.value mk.next
        (some ⟨c, some t, some q.head⟩)))[t]? = some l := by
      rw [heap_set_other _ _ _ _ (Ne.symm hne), hL]
    simp only [RelaxedQueue.helpMarker, RelaxedQueue.casInvalidHead, hm, hiv, if_true,
      RelaxedQueue.loadInvalid, h1, RelaxedQueue.casNext, h2, hln]
  | some x =>
    have hmk : RelaxedQueue.Node.mk mk.value mk.next (some ⟨c, some t, some x⟩) = mk := by
      cases mk
      simp only at hiv
      subst hiv
      rfl
    simp only [RelaxedQueue.helpMarker, RelaxedQueue.casInvalidHead, hm, hiv,
      RelaxedQueue.loadInvalid, RelaxedQueue.casNext, hL, hln, if_true, hmk,
      heap_set_same _ _ _ hm, reduceCtorEq, if_false]

theorem RelaxedQueue.rq_enq_marker {q : RelaxedQueue} {l mk : RelaxedQueue.Node}
    {iv : RelaxedQueue.InvalidPart} {m : Nat}
    (hL : q.mem[q.tail]? = some l) (hln : l.next = some m) (hli : l.invalid = none)
    (hm : q.mem[m]? = some mk) (hiv : mk.invalid = some iv) (hit : iv.tail = some q.tail)
    (fuel : Nat) (v : Int) :
    q.enq (fuel + 2) v = .ok
      { q with mem := (((q.mem ++ [RelaxedQueue.Node.mk v none none]).set m
                        (RelaxedQueue.Node.mk mk.value mk.next
                          (some ⟨iv.counter, iv.tail,
                            if iv.head = none then some q.head else iv.head⟩))).set q.tail
                        (RelaxedQueue.Node.mk l.value none l.invalid)).set q.tail
                        (RelaxedQueue.Node.mk l.value (some q.mem.length) l.invalid),
               tail := q.mem.length } := by
  have ht : q.tail < q.mem.length := heap_lt hL
  have hmlt : m < q.mem.length := heap_lt hm
  have hne : m ≠ q.tail := by
    intro e
    rw [e, hL] at hm
    cases hm
    rw [hli] at hiv
    cases hiv
  have hL0 : (q.mem ++ [RelaxedQueue.Node.mk v none none])[q.tail]? = some l := by
    rw [heap_push_old _ _ _ ht, hL]
  have hm0 : (q.mem ++ [RelaxedQueue.Node.mk v none none])[m]? = some mk := by
    rw [heap_push_old _ _ _ hmlt, hm]
  have hhelp := @RelaxedQueue.rq_helpMarker_eval
    { q with mem := q.mem ++ [RelaxedQueue.Node.mk v none none] } l mk iv m q.tail
    hL0 hln hne hm0 hiv hit
  have hlen : q.tail < ((q.mem ++ [RelaxedQueue.Node.mk v none none]).set m
      (RelaxedQueue.Node.mk mk.value mk.next
        (some ⟨iv.counter, iv.tail, if iv.head = none then some q.head else iv.head⟩))).length := by
    simp; omega
  have hL1 := heap_set_self ((q.mem ++ [RelaxedQueue.Node.mk v none none]).set m
      (RelaxedQueue.Node.mk mk.value mk.next
        (some ⟨iv.counter, iv.tail, if iv.head = none then some q.head else iv.head⟩))) q.tail
      (RelaxedQueue.Node.mk l.value none l.invalid) hlen
  have hmi : (RelaxedQueue.isInvalid { q with mem := q.mem ++ [RelaxedQueue.Node.mk v none none] } m)
      = .ok true := by
    simp only [RelaxedQueue.isInvalid, hm0, hiv, Option.isSome]
  simp only [RelaxedQueue.enq]
  rw [RelaxedQueue.enqLoop]
  simp only [RelaxedQueue.load, hL0, hln, if_true, hmi, hhelp]
  rw [RelaxedQueue.enqLoop]
  simp only [RelaxedQueue.load, hL1, if_true, RelaxedQueue.casNext, RelaxedQueue.casTail]

theorem RelaxedQueue.rq_deq_marker {q : RelaxedQueue} {l mk : RelaxedQueue.Node}
    {iv : RelaxedQueue.InvalidPart} {m : Nat}
    (hL : q.mem[q.tail]? = some l) (hln : l.next = some m) (hli : l.invalid = none)
    (hm : q.mem[m]? = some mk) (hiv : mk.invalid = some iv) (hit : iv.tail = some q.tail)
    (hht : q.head = q.tail) (fuel : Nat) :
    q.deq (fuel + 1) = .ok (INT_MIN,
      { q with mem := (q.mem.set m
                        (RelaxedQueue.Node.mk mk.value mk.next
                          (some ⟨iv.counter, iv.tail,
                            if iv.head = none then some q.head else iv.head⟩))).set q.tail
                        (RelaxedQueue.Node.mk l.value none l.invalid) }) := by
  have hne : m ≠ q.tail := by
    intro e
    rw [e, hL] at hm
    cases hm
    rw [hli] at hiv
    cases hiv
  have hhelp := RelaxedQueue.rq_helpMarker_eval hL hln hne hm hiv hit
  have hmi : q.isInvalid m = .ok true := by
    simp only [RelaxedQueue.isInvalid, hm, hiv, Option.isSome]
  rw [hht] at hhelp
  rw [RelaxedQueue.deq]
  simp only [RelaxedQueue.load, hht, hL, hln, if_true, hmi, hhelp]

/-! ## One round of the retry loop suffices on a state that holds a queue -/

theorem MSQueue.ms_solo {q : MSQueue} {post : List Nat} {pend : List Int}
    (h : q.Abs post pend) (k : Nat) (v : Int) :
    (∃ q', q.enq 1 v = .ok q' ∧ q.enq (k + 1) v = .ok q') ∧
      ∃ r q', q.deq 1 = .ok (r, q') ∧ q.deq (k + 1) = .ok (r, q') := by
  obtain ⟨n, hn1⟩ := heap_get q.mem q.tail h.tail_lt
  have hn2 : n.next = none := by simpa [MSQueue.nxt, hn1] using h.tail_none
  refine ⟨⟨_, MSQueue.ms_enq_eval 0 v hn1 hn2, MSQueue.ms_enq_eval k v hn1 hn2⟩, ?_⟩
  cases post with
  | nil => exact ⟨_, _, (MSQueue.ms_deq_abs_nil h 0).1, (MSQueue.ms_deq_abs_nil h k).1⟩
  | cons b post =>
    obtain ⟨v0, p0, e0, d0, -⟩ := MSQueue.ms_deq_abs_cons h 0
    obtain ⟨v1, p1, e1, d1, -⟩ := MSQueue.ms_deq_abs_cons h k
    rw [e0] at e1
    cases e1
    exact ⟨_, _, d0, d1⟩

theorem DurableQueue.dq_solo {q : DurableQueue} {post : List Nat} {pend : List Int} {t : Int}
    (h : q.Abs post pend) (h0 : 0 ≤ t) (h1 : t < MAX_THREADS) (k : Nat) (v : Int) :
    (∃ q', q.enq 1 v = .ok q' ∧ q.enq (k + 1) v = .ok q') ∧
      ∃ r q', q.deq 1 t = .ok (r, q') ∧ q.deq (k + 1) t = .ok (r, q') := by
  obtain ⟨n, hn1⟩ := heap_get q.mem q.tail h.1.tail_lt
  have hn2 : n.next = none := by simpa [DurableQueue.nxt, hn1] using h.1.tail_none
  refine ⟨⟨_, DurableQueue.dq_enq_eval 0 v hn1 hn2, DurableQueue.dq_enq_eval k v hn1 hn2⟩, ?_⟩
  cases post with
  | nil =>
    exact ⟨_, _, (DurableQueue.dq_deq_eval_nil h h0 h1 0).1,
      (DurableQueue.dq_deq_eval_nil h h0 h1 k).1⟩
  | cons b post =>
    obtain ⟨-, -, h3, -⟩ := h.1.cons_inv
    obtain ⟨m, hm⟩ := heap_get q.mem b h3
    exact ⟨_, _, DurableQueue.dq_deq_eval_cons h hm h0 h1 0,
      DurableQueue.dq_deq_eval_cons h hm h0 h1 k⟩

theorem LogQueue.lq_solo {q : LogQueue} {post : List Nat} {pend : List Int} {t : Int}
    (h : q.Abs post pend) (h0 : 0 ≤ t) (h1 : t < MAX_THREADS) (k : Nat) (v op : Int) :
    (∃ q', q.enq 1 v t op = .ok q' ∧ q.enq (k + 1) v t op = .ok q') ∧
      ∃ r q', q.deq 1 t op = .ok (r, q') ∧ q.deq (k + 1) t op = .ok (r, q') := by
  obtain ⟨n, hn1⟩ := heap_get q.mem q.tail h.1.tail_lt
  have hn2 : n.next = none := by simpa [LogQueue.nxt, hn1] using h.1.tail_none
  obtain ⟨f, hf⟩ := heap_get q.arrays q.logs h.2.2
  refine ⟨⟨_, LogQueue.lq_enq_eval 0 v op hn1 hn2 hf h0 h1,
    LogQueue.lq_enq_eval k v op hn1 hn2 hf h0 h1⟩, ?_⟩
  cases post with
  | nil =>
    exact ⟨_, _, (LogQueue.lq_deq_eval_nil h hf h0 h1 0 op).1,
      (LogQueue.lq_deq_eval_nil h hf h0 h1 k op).1⟩
  | cons b post =>
    obtain ⟨-, -, h3, -⟩ := h.1.cons_inv
    obtain ⟨m, hm⟩ := heap_get q.mem b h3
    exact ⟨_, _, LogQueue.lq_deq_eval_cons h hm hf h0 h1 0 op,
      LogQueue.lq_deq_eval_cons h hm hf h0 h1 k op⟩

theorem RelaxedQueue.rq_solo {q : RelaxedQueue} {post : List Nat} {pend : List Int}
    {s : Nat} {l : List Nat} (h : q.Abs post pend s l) (k : Nat) (v : Int) :
    (∃ q', q.enq 1 v = .ok q' ∧ q.enq (k + 1) v = .ok q') ∧
      ∃ r q', q.deq 1 = .ok (r, q') ∧ q.deq (k + 1) = .ok (r, q') := by
  obtain ⟨n, hn1⟩ := heap_get q.mem q.tail h.chain.tail_lt
  have hn2 : n.next = none := by simpa [RelaxedQueue.nxt, hn1] using h.chain.tail_none
  refine ⟨⟨_, RelaxedQueue.rq_enq_eval 0 v hn1 hn2, RelaxedQueue.rq_enq_eval k v hn1 hn2⟩, ?_⟩
  cases post with
  | nil =>
    exact ⟨_, _, RelaxedQueue.rq_deq_eval_nil h 0, RelaxedQueue.rq_deq_eval_nil h k⟩
  | cons b post =>
    obtain ⟨v0, e0, -⟩ := RelaxedQueue.rq_deq_eval_cons h 0
    obtain ⟨v1, e1, -⟩ := RelaxedQueue.rq_deq_eval_cons h k
    have : v0 = v1 := by
      obtain ⟨-, -, h3, -⟩ := h.chain.cons_inv
      obtain ⟨m, hm⟩ := heap_get q.mem b h3
      obtain ⟨n', hn'⟩ := heap_get q.mem q.head (h.chain.bound _ (by simp))
      have hx : n'.next = some b := by
        simpa [RelaxedQueue.nxt, hn'] using h.chain.cons_inv.1
      have hne := h.chain.cons_inv.2.1
      simp [RelaxedQueue.deq, RelaxedQueue.load, RelaxedQueue.casHead, hn', hx, hne, hm] at e0 e1
      rw [← e0, ← e1]
    subst this
    exact ⟨_, _, e0, e1⟩


/-! ## Linearizability of the common scheme -/

theorem GState.lin_setThr_same (σ : GState) (t : Nat) (th : GThread) :
    (σ.setThr t th).thr t = th := by
  simp [GState.setThr]

theorem GState.lin_setThr_other (σ : GState) {t t2 : Nat} (th : GThread) (h : t2 ≠ t) :
    (σ.setThr t th).thr t2 = σ.thr t2 := by
  simp [GState.setThr, Function.update_noteq h]

theorem lin_get_append {chain : List Nat} {x : Nat} {i a : Nat}
    (h : chain[i]? = some a) : (chain ++ [x])[i]? = some a := by
  have hi : i < chain.length := by
    by_contra hc
    rw [List.getElem?_eq_none (by omega)] at h
    cases h
  rw [List.getElem?_append_left hi, h]

theorem lin_nodup_index {chain : List Nat} (hn : chain.Nodup) {i j a : Nat}
    (hi : chain[i]? = some a) (hj : chain[j]? = some a) : i = j := by
  have hil : i < chain.length := by
    by_contra hc
    rw [List.getElem?_eq_none (by omega)] at hi
    cases hi
  have hjl : j < chain.length := by
    by_contra hc
    rw [List.getElem?_eq_none (by omega)] at hj
    cases hj
  rw [List.getElem?_eq_getElem hil] at hi
  rw [List.getElem?_eq_getElem hjl] at hj
  have h : chain[i] = chain[j] := by
    injection hi with hi
    injection hj with hj
    rw [hi, hj]
  exact (List.Nodup.getElem_inj_iff hn).1 h

theorem lin_get_mem {chain : List Nat} {i a : Nat} (h : chain[i]? = some a) : a ∈ chain :=
  List.mem_iff_getElem?.2 ⟨i, h⟩

theorem lin_get_lt {chain : List Nat} {i a : Nat} (h : chain[i]? = some a) :
    i < chain.length := by
  by_contra hc
  rw [List.getElem?_eq_none (by omega)] at h
  cases h

/-- What a thread knows stays true when the list grows at its end, `head` and
`tail` advance, values stay and claims are only added. -/
theorem TInv.mono {late : Bool} {mem mem1 : List GNode} {chain chain1 : List Nat}
    {hi ti hi1 ti1 : Nat} {th : GThread} (h : TInv late mem chain hi ti th)
    (hc : ∀ (i a : Nat), chain[i]? = some a → chain1[i]? = some a)
    (hh : hi ≤ hi1) (ht : ti ≤ ti1)
    (hv : ∀ a ∈ chain, GState.valAt mem1 a = GState.valAt mem a)
    (hk : ∀ a ∈ chain, GState.claimedAt mem a = true → GState.claimedAt mem1 a = true) :
    TInv late mem1 chain1 hi1 ti1 th := by
  unfold TInv at h ⊢
  cases hpc : th.pc <;> simp only [hpc] at h ⊢
  · obtain ⟨li, h1, h2⟩ := h
    exact ⟨li, hc _ _ h1, by omega⟩
  · obtain ⟨li, h1, h2, h3⟩ := h
    exact ⟨li, hc _ _ h1, by omega, fun x hx => hc _ _ (h3 x hx)⟩
  · obtain ⟨li, h1, h2, h3⟩ := h
    exact ⟨li, hc _ _ h1, by omega, h3⟩
  · obtain ⟨li, h1, h2⟩ := h
    exact ⟨li, hc _ _ h1, hc _ _ h2⟩
  · obtain ⟨li, x, h1, h2, h3, h4⟩ := h
    exact ⟨li, x, hc _ _ h1, by omega, h3, hc _ _ h4⟩
  · obtain ⟨fi, h1, h2⟩ := h
    exact ⟨fi, hc _ _ h1, by omega⟩
  · obtain ⟨fi, li, h1, h2, h3, h4, h5⟩ := h
    exact ⟨fi, li, hc _ _ h1, by omega, hc _ _ h3, h4, by omega⟩
  · obtain ⟨fi, li, h1, h2, h3, h4, h5, h6, h7⟩ := h
    exact ⟨fi, li, hc _ _ h1, by omega, hc _ _ h3, h4, by omega,
      fun x hx => hc _ _ (h6 x hx), h7⟩
  · obtain ⟨li, x, h1, h2, h3, h4⟩ := h
    exact ⟨li, x, hc _ _ h1, by omega, h3, hc _ _ h4⟩
  · obtain ⟨fi, x, h1, h2, h3, h4, h5⟩ := h
    exact ⟨fi, x, hc _ _ h1, by omega, by omega, h4, hc _ _ h5⟩
  · obtain ⟨fi, x, h1, h2, h3, h4, h5, h6⟩ := h
    exact ⟨fi, x, hc _ _ h1, by omega, by omega, h4, hc _ _ h5,
      fun hl => by rw [h6 hl, hv x (lin_get_mem h5)]⟩
  · obtain ⟨fi, x, h1, h2, h3, h4, h5, h6⟩ := h
    exact ⟨fi, x, hc _ _ h1, by omega, by omega, h4, hc _ _ h5, hk x (lin_get_mem h5) h6⟩
  · obtain ⟨fi, x, h1, h2, h3, h4, h5, h6⟩ := h
    exact ⟨fi, x, hc _ _ h1, by omega, by omega, h4, hc _ _ h5, hk x (lin_get_mem h5) h6⟩
  · obtain ⟨fi, x, h1, h2, h3, h4, h5, h6⟩ := h
    exact ⟨fi, x, hc _ _ h1, by omega, by omega, h4, hc _ _ h5, hk x (lin_get_mem h5) h6⟩

/-! ### Fields of a node under the stores of the scheme -/

theorem GState.lin_fields_congr {mem mem1 : List GNode} {a : Nat} (h : mem1[a]? = mem[a]?) :
    GState.valAt mem1 a = GState.valAt mem a ∧ GState.nxtAt mem1 a = GState.nxtAt mem a ∧
      GState.claimedAt mem1 a = GState.claimedAt mem a := by
  simp [GState.valAt, GState.nxtAt, GState.claimedAt, h]

theorem GState.lin_set_next {mem : List GNode} {p : Nat} {n : GNode} (x : Option Nat)
    (hp : mem[p]? = some n) (a : Nat) :
    GState.valAt (mem.set p { n with next := x }) a = GState.valAt mem a ∧
      GState.claimedAt (mem.set p { n with next := x }) a = GState.claimedAt mem a ∧
      GState.nxtAt (mem.set p { n with next := x }) a
        = if a = p then x else GState.nxtAt mem a := by
  by_cases ha : a = p
  · subst ha
    simp [GState.valAt, GState.nxtAt, GState.claimedAt, heap_set_self _ _ _ (heap_lt hp), hp]
  · simp [GState.valAt, GState.nxtAt, GState.claimedAt, heap_set_other _ _ _ _ ha, ha]

theorem GState.lin_set_claimed {mem : List GNode} {p : Nat} {n : GNode}
    (hp : mem[p]? = some n) (a : Nat) :
    GState.valAt (mem.set p { n with claimed := true }) a = GState.valAt mem a ∧
      GState.nxtAt (mem.set p { n with claimed := true }) a = GState.nxtAt mem a ∧
      GState.claimedAt (mem.set p { n with claimed := true }) a
        = if a = p then true else GState.claimedAt mem a := by
  by_cases ha : a = p
  · subst ha
    simp [GState.valAt, GState.nxtAt, GState.claimedAt, heap_set_self _ _ _ (heap_lt hp), hp]
  · simp [GState.valAt, GState.nxtAt, GState.claimedAt, heap_set_other _ _ _ _ ha, ha]

theorem GState.lin_nxtAt_of {mem : List GNode} {a : Nat} {n : GNode} (h : mem[a]? = some n) :
    GState.nxtAt mem a = n.next ∧ GState.valAt mem a = n.value ∧
      GState.claimedAt mem a = n.claimed := by
  simp [GState.valAt, GState.nxtAt, GState.claimedAt, h]

/-! ### The structure of the list under a step -/

/-- The structure is kept when the facts on the list are established again and
the acting thread `t`, which continues as `th1`, respects the other threads. -/
theorem GStruct.rebuild {claim late : Bool} {σ : GState} {chain : List Nat} {hi ti : Nat}
    (h : GStruct claim late σ chain hi ti)
    {mem1 : List GNode} {head1 tail1 : Nat} {hist1 : List Event} {chain1 : List Nat}
    {hi1 ti1 : Nat} (t : Nat) (th1 : GThread)
    (nodup : chain1.Nodup) (bound : ∀ a ∈ chain1, a < mem1.length)
    (links : ∀ (i a : Nat), chain1[i]? = some a → GState.nxtAt mem1 a = chain1[i + 1]?)
    (head : chain1[hi1]? = some head1) (tail : chain1[ti1]? = some tail1)
    (hle : hi1 ≤ ti1) (lag : chain1.length ≤ ti1 + 2)
    (fresh : ∀ (i a : Nat), chain1[i]? = some a → hi1 + 1 < i →
      GState.claimedAt mem1 a = false)
    (past : claim = true → ∀ (i a : Nat), chain1[i]? = some a → 0 < i → i ≤ hi1 →
      GState.claimedAt mem1 a = true)
    (noclaim : claim = false → ∀ a, GState.claimedAt mem1 a = false)
    (hc : ∀ (i a : Nat), chain[i]? = some a → chain1[i]? = some a)
    (hh : hi ≤ hi1) (ht : ti ≤ ti1)
    (hv : ∀ a ∈ chain, GState.valAt mem1 a = GState.valAt σ.mem a)
    (hk : ∀ a ∈ chain, GState.claimedAt σ.mem a = true → GState.claimedAt mem1 a = true)
    (hkeep : ∀ t1, t1 ≠ t → (σ.thr t1).pc.holds = true →
      (σ.thr t1).node ∉ chain1 ∧ mem1[(σ.thr t1).node]? = σ.mem[(σ.thr t1).node]?)
    (hown : th1.pc.holds = true → th1.node ∉ chain1 ∧
      mem1[th1.node]? = some ⟨th1.arg, none, false⟩ ∧
      ∀ t1, t1 ≠ t → (σ.thr t1).pc.holds = true → (σ.thr t1).node ≠ th1.node)
    (htinv : TInv late mem1 chain1 hi1 ti1 th1) :
    GStruct claim late ⟨mem1, head1, tail1, Function.update σ.thr t th1, hist1⟩
      chain1 hi1 ti1 := by
  refine ⟨nodup, bound, links, head, tail, hle, lag, fresh, past, noclaim, ?_, ?_, ?_⟩
  · intro t1
    by_cases ht1 : t1 = t
    · subst ht1
      simp only [Function.update_same]
      intro hp
      exact ⟨(hown hp).1, (hown hp).2.1⟩
    · simp only [Function.update_noteq ht1]
      intro hp
      refine ⟨(hkeep t1 ht1 hp).1, ?_⟩
      rw [(hkeep t1 ht1 hp).2]
      exact (h.unlinked t1 hp).2
  · intro t1 t2 hne
    by_cases ht1 : t1 = t
    · subst ht1
      have ht2 : t2 ≠ t1 := fun e => hne e.symm
      simp only [Function.update_same, Function.update_noteq ht2]
      intro hp1 hp2 e
      exact (hown hp1).2.2 t2 ht2 hp2 e.symm
    · by_cases ht2 : t2 = t
      · subst ht2
        simp only [Function.update_same, Function.update_noteq ht1]
        intro hp1 hp2 e
        exact (hown hp2).2.2 t1 ht1 hp1 e
      · simp only [Function.update_noteq ht1, Function.update_noteq ht2]
        exact h.distinct t1 t2 hne
  · intro t1
    by_cases ht1 : t1 = t
    · subst ht1
      simp only [Function.update_same]
      exact htinv
    · simp only [Function.update_noteq ht1]
      exact (h.tinv t1).mono hc hh ht hv hk

/-- A step that changes only the local variables of the acting thread. -/
theorem GStruct.local_step {claim late : Bool} {σ : GState} {chain : List Nat} {hi ti : Nat}
    (h : GStruct claim late σ chain hi ti) (t : Nat) (th1 : GThread) (hist1 : List Event)
    (hown : th1.pc.holds = true →
      (σ.thr t).pc.holds = true ∧ th1.node = (σ.thr t).node ∧ th1.arg = (σ.thr t).arg)
    (htinv : TInv late σ.mem chain hi ti th1) :
    GStruct claim late ⟨σ.mem, σ.head, σ.tail, Function.update σ.thr t th1, hist1⟩
      chain hi ti := by
  refine h.rebuild t th1 h.nodup h.bound h.links h.head h.tail h.hle h.lag h.fresh h.past
    h.noclaim (fun _ _ e => e) (le_refl _) (le_refl _) (fun _ _ => rfl) (fun _ _ e => e)
    (fun t1 _ hp => ⟨(h.unlinked t1 hp).1, rfl⟩) ?_ htinv
  intro hp
  obtain ⟨h1, h2, h3⟩ := hown hp
  rw [h2, h3]
  exact ⟨(h.unlinked t h1).1, (h.unlinked t h1).2,
    fun t1 hne hp1 => h.distinct t1 t hne hp1 h1⟩

/-- The step `tail.compare_exchange_strong(last, x)` that succeeds. -/
theorem GStruct.tail_step {claim late : Bool} {σ : GState} {chain : List Nat} {hi ti : Nat}
    (h : GStruct claim late σ chain hi ti) (t : Nat) (th1 : GThread) (x : Nat)
    (hx : chain[ti + 1]? = some x)
    (hown : th1.pc.holds = true →
      (σ.thr t).pc.holds = true ∧ th1.node = (σ.thr t).node ∧ th1.arg = (σ.thr t).arg)
    (htinv : TInv late σ.mem chain hi (ti + 1) th1) :
    GStruct claim late ⟨σ.mem, σ.head, x, Function.update σ.thr t th1, σ.hist⟩
      chain hi (ti + 1) := by
  refine h.rebuild t th1 h.nodup h.bound h.links h.head hx (by have := h.hle; omega)
    (by have := h.lag; omega) h.fresh h.past
    h.noclaim (fun _ _ e => e) (le_refl _) (by omega) (fun _ _ => rfl) (fun _ _ e => e)
    (fun t1 _ hp => ⟨(h.unlinked t1 hp).1, rfl⟩) ?_ htinv
  intro hp
  obtain ⟨h1, h2, h3⟩ := hown hp
  rw [h2, h3]
  exact ⟨(h.unlinked t h1).1, (h.unlinked t h1).2,
    fun t1 hne hp1 => h.distinct t1 t hne hp1 h1⟩

/-- The step `head.compare_exchange_strong(first, x)` that succeeds. -/
theorem GStruct.head_step {claim late : Bool} {σ : GState} {chain : List Nat} {hi ti : Nat}
    (h : GStruct claim late σ chain hi ti) (t : Nat) (th1 : GThread) (x : Nat)
    (hx : chain[hi + 1]? = some x) (hlt : hi < ti)
    (hcl : claim = true → GState.claimedAt σ.mem x = true)
    (hown : th1.pc.holds = true →
      (σ.thr t).pc.holds = true ∧ th1.node = (σ.thr t).node ∧ th1.arg = (σ.thr t).arg)
    (htinv : TInv late σ.mem chain (hi + 1) ti th1) :
    GStruct claim late ⟨σ.mem, x, σ.tail, Function.update σ.thr t th1, σ.hist⟩
      chain (hi + 1) ti := by
  refine h.rebuild t th1 h.nodup h.bound h.links hx h.tail (by omega)
    h.lag (fun i a e hlt => h.fresh i a e (by omega)) ?_
    h.noclaim (fun _ _ e => e) (by omega) (le_refl _) (fun _ _ => rfl) (fun _ _ e => e)
    (fun t1 _ hp => ⟨(h.unlinked t1 hp).1, rfl⟩) ?_ htinv
  · intro hc i a e h0 hle
    by_cases hi1 : i = hi + 1
    · subst hi1
      rw [hx] at e
      injection e with e
      subst e
      exact hcl hc
    · exact h.past hc i a e h0 (by omega)
  · intro hp
    obtain ⟨h1, h2, h3⟩ := hown hp
    rw [h2, h3]
    exact ⟨(h.unlinked t h1).1, (h.unlinked t h1).2,
      fun t1 hne hp1 => h.distinct t1 t hne hp1 h1⟩

/-- The step `node = new Node(value)`. -/
theorem GStruct.alloc_step {claim late : Bool} {σ : GState} {chain : List Nat} {hi ti : Nat}
    (h : GStruct claim late σ chain hi ti) (t : Nat) (th1 : GThread) (v : Int)
    (hn : th1.node = σ.mem.length) (hv : th1.arg = v)
    (htinv : TInv late (σ.mem ++ [⟨v, none, false⟩]) chain hi ti th1) :
    GStruct claim late
      ⟨σ.mem ++ [⟨v, none, false⟩], σ.head, σ.tail, Function.update σ.thr t th1, σ.hist⟩
      chain hi ti := by
  subst hv
  have hold : ∀ a, a < σ.mem.length →
      (σ.mem ++ [(⟨th1.arg, none, false⟩ : GNode)])[a]? = σ.mem[a]? :=
    fun a ha => heap_push_old _ _ _ ha
  have hf := fun a (ha : a ∈ chain) => GState.lin_fields_congr (hold a (h.bound a ha))
  refine h.rebuild t th1 h.nodup ?_ ?_ h.head h.tail h.hle h.lag ?_ ?_ ?_
    (fun _ _ e => e) (le_refl _) (le_refl _) (fun a ha => (hf a ha).1)
    (fun a ha e => by rw [(hf a ha).2.2]; exact e) ?_ ?_ htinv
  · intro a ha
    have := h.bound a ha
    simp only [List.length_append, List.length_singleton]
    omega
  · intro i a e
    rw [(hf a (lin_get_mem e)).2.1]
    exact h.links i a e
  · intro i a e hlt
    rw [(hf a (lin_get_mem e)).2.2]
    exact h.fresh i a e hlt
  · intro hc i a e h0 hle
    rw [(hf a (lin_get_mem e)).2.2]
    exact h.past hc i a e h0 hle
  · intro hc a
    by_cases ha : a < σ.mem.length
    · rw [(GState.lin_fields_congr (hold a ha)).2.2]
      exact h.noclaim hc a
    · by_cases ha1 : a = σ.mem.length
      · subst ha1
        simp [GState.claimedAt]
      · simp only [GState.claimedAt]
        rw [List.getElem?_eq_none (by simp only [List.length_append, List.length_singleton]; omega)]
        rfl
  · intro t1 _ hp
    exact ⟨(h.unlinked t1 hp).1, hold _ (heap_lt (h.unlinked t1 hp).2)⟩
  · intro _
    rw [hn]
    refine ⟨fun hm => absurd (h.bound _ hm) (lt_irrefl _), heap_push_new _ _, ?_⟩
    intro t1 _ hp e
    have := heap_lt (h.unlinked t1 hp).2
    omega

/-- The step `last->next.compare_exchange_strong(nullptr, node)` that succeeds:
the node of the thread becomes the last node of the list. -/
theorem GStruct.link_step {claim late : Bool} {σ : GState} {chain : List Nat} {hi ti : Nat}
    (h : GStruct claim late σ chain hi ti) (t : Nat) (th1 : GThread) (li last : Nat)
    (n : GNode) (hl : chain[li]? = some last) (hli : li ≤ ti) (hm : σ.mem[last]? = some n)
    (hnn : n.next = none) (hold : (σ.thr t).pc.holds = true) (hnew : th1.pc.holds = false)
    (htinv : TInv late (σ.mem.set last { n with next := some (σ.thr t).node })
      (chain ++ [(σ.thr t).node]) hi ti th1) :
    chain.length = li + 1 ∧
    GStruct claim late
      ⟨σ.mem.set last { n with next := some (σ.thr t).node }, σ.head, σ.tail,
        Function.update σ.thr t th1, σ.hist⟩
      (chain ++ [(σ.thr t).node]) hi ti := by
  have hlen : chain.length = li + 1 := by
    have h1 := h.links li last hl
    rw [(GState.lin_nxtAt_of hm).1, hnn] at h1
    have h2 := lin_get_lt hl
    by_contra hc
    have h3 : li + 1 < chain.length := by omega
    rw [List.getElem?_eq_getElem h3] at h1
    cases h1
  refine ⟨hlen, ?_⟩
  obtain ⟨hnc, hnm⟩ := h.unlinked t hold
  have hne : (σ.thr t).node ≠ last := fun e => hnc (e ▸ lin_get_mem hl)
  have hf := GState.lin_set_next (some (σ.thr t).node) hm
  have hget : ∀ (i a : Nat), (chain ++ [(σ.thr t).node])[i]? = some a →
      (i < chain.length ∧ chain[i]? = some a) ∨ (i = chain.length ∧ a = (σ.thr t).node) := by
    intro i a e
    by_cases hi1 : i < chain.length
    · rw [List.getElem?_append_left hi1] at e
      exact Or.inl ⟨hi1, e⟩
    · by_cases hi2 : i = chain.length
      · subst hi2
        rw [List.getElem?_append_right (le_refl _)] at e
        simp only [Nat.sub_self, List.getElem?_cons_zero] at e
        injection e with e
        exact Or.inr ⟨rfl, e.symm⟩
      · rw [List.getElem?_eq_none (by simp only [List.length_append, List.length_singleton]; omega)] at e
        cases e
  refine h.rebuild t th1 ?_ ?_ ?_ (lin_get_append h.head) (lin_get_append h.tail) h.hle ?_ ?_ ?_ ?_
    (fun _ _ e => lin_get_append e) (le_refl _) (le_refl _) (fun a _ => (hf a).1)
    (fun a _ e => by rw [(hf a).2.1]; exact e) ?_ ?_ htinv
  · rw [List.nodup_append]
    refine ⟨h.nodup, List.nodup_singleton _, ?_⟩
    intro a ha hb
    rw [List.mem_singleton] at hb
    subst hb
    exact hnc ha
  · intro a ha
    rw [List.length_set]
    rw [List.mem_append, List.mem_singleton] at ha
    rcases ha with ha | ha
    · exact h.bound a ha
    · subst ha
      exact heap_lt hnm
  · intro i a e
    rw [(hf a).2.2]
    rcases hget i a e with ⟨hi1, e1⟩ | ⟨hi1, e1⟩
    · by_cases hal : a = last
      · subst hal
        have := lin_nodup_index h.nodup e1 hl
        subst this
        rw [if_pos rfl, ← hlen, List.getElem?_append_right (le_refl _)]
        simp
      · rw [if_neg hal, h.links i a e1]
        have hi2 : i + 1 < chain.length := by
          by_contra hc
          have : i = li := by omega
          subst this
          rw [hl] at e1
          injection e1 with e1
          exact hal e1.symm
        rw [List.getElem?_append_left hi2]
    · subst hi1
      subst e1
      rw [if_neg hne, (GState.lin_nxtAt_of hnm).1]
      rw [List.getElem?_eq_none (by simp only [List.length_append, List.length_singleton]; omega)]
  · simp only [List.length_append, List.length_singleton]
    omega
  · intro i a e hlt
    rw [(hf a).2.1]
    rcases hget i a e with ⟨_, e1⟩ | ⟨_, e1⟩
    · exact h.fresh i a e1 hlt
    · subst e1
      exact (GState.lin_nxtAt_of hnm).2.2
  · intro hc i a e h0 hle
    rw [(hf a).2.1]
    rcases hget i a e with ⟨_, e1⟩ | ⟨hi1, _⟩
    · exact h.past hc i a e1 h0 hle
    · have := lin_get_lt h.head
      omega
  · intro hc a
    rw [(hf a).2.1]
    exact h.noclaim hc a
  · intro t1 hne1 hp
    obtain ⟨hc1, hm1⟩ := h.unlinked t1 hp
    refine ⟨?_, ?_⟩
    · rw [List.mem_append, List.mem_singleton]
      rintro (hx | hx)
      · exact hc1 hx
      · exact h.distinct t1 t hne1 hp hold hx
    · exact heap_set_other _ _ _ _ (fun e => hc1 (e ▸ lin_get_mem hl))
  · intro hp
    rw [hnew] at hp
    cases hp

/-- The compare-and-swap on the claim field of `x` that succeeds. -/
theorem GStruct.claim_step {claim late : Bool} {σ : GState} {chain : List Nat} {hi ti : Nat}
    (h : GStruct claim late σ chain hi ti) (hcl : claim = true) (t : Nat) (th1 : GThread)
    (x : Nat) (n : GNode) (hx : chain[hi + 1]? = some x) (hm : σ.mem[x]? = some n)
    (hown : th1.pc.holds = true →
      (σ.thr t).pc.holds = true ∧ th1.node = (σ.thr t).node ∧ th1.arg = (σ.thr t).arg)
    (htinv : TInv late (σ.mem.set x { n with claimed := true }) chain hi ti th1) :
    GStruct claim late
      ⟨σ.mem.set x { n with claimed := true }, σ.head, σ.tail, Function.update σ.thr t th1,
        σ.hist⟩ chain hi ti := by
  have hf := GState.lin_set_claimed hm
  have hxm := lin_get_mem hx
  have hmem : ∀ t1, (σ.thr t1).pc.holds = true →
      (σ.mem.set x { n with claimed := true })[(σ.thr t1).node]? = σ.mem[(σ.thr t1).node]? :=
    fun t1 hp => heap_set_other _ _ _ _ (fun e => (h.unlinked t1 hp).1 (e ▸ hxm))
  refine h.rebuild t th1 h.nodup ?_ ?_ h.head h.tail h.hle h.lag ?_ ?_ ?_
    (fun _ _ e => e) (le_refl _) (le_refl _) (fun a _ => (hf a).1) ?_ ?_ ?_ htinv
  · intro a ha
    rw [List.length_set]
    exact h.bound a ha
  · intro i a e
    rw [(hf a).2.1]
    exact h.links i a e
  · intro i a e hlt
    rw [(hf a).2.2]
    have : a ≠ x := by
      intro e1
      subst e1
      have := lin_nodup_index h.nodup e hx
      omega
    rw [if_neg this]
    exact h.fresh i a e hlt
  · intro hc i a e h0 hle
    rw [(hf a).2.2]
    split
    · rfl
    · exact h.past hc i a e h0 hle
  · intro hc
    rw [hcl] at hc
    cases hc
  · intro a _ e
    rw [(hf a).2.2]
    split
    · rfl
    · exact e
  · intro t1 _ hp
    exact ⟨(h.unlinked t1 hp).1, hmem t1 hp⟩
  · intro hp
    obtain ⟨h1, h2, h3⟩ := hown hp
    rw [h2, h3, hmem t h1]
    exact ⟨(h.unlinked t h1).1, (h.unlinked t h1).2,
      fun t1 hne hp1 => h.distinct t1 t hne hp1 h1⟩

/-! ### The content of the queue under a step -/

theorem qcontent_congr {claim : Bool} {mem mem1 : List GNode} {chain : List Nat} {hi : Nat}
    (hv : ∀ a ∈ chain, GState.valAt mem1 a = GState.valAt mem a)
    (hk : ∀ a ∈ chain, GState.claimedAt mem1 a = GState.claimedAt mem a) :
    qcontent claim mem1 chain hi = qcontent claim mem chain hi := by
  have hf : qfront claim mem1 chain hi = qfront claim mem chain hi := by
    unfold qfront
    cases e : chain[hi + 1]? with
    | none => rfl
    | some a => simp only [hk a (lin_get_mem e)]
  unfold qcontent
  rw [hf]
  apply List.map_congr_left
  intro a ha
  exact hv a (List.mem_of_mem_drop ha)

theorem qfront_le {claim : Bool} {mem : List GNode} {chain : List Nat} {hi : Nat}
    (h : hi < chain.length) : qfront claim mem chain hi ≤ chain.length := by
  unfold qfront
  cases e : chain[hi + 1]? with
  | none =>
    simp only [Bool.and_false, Bool.false_eq_true, if_false]
    omega
  | some a =>
    have := lin_get_lt e
    split <;> omega

theorem qfront_ge {claim : Bool} {mem : List GNode} {chain : List Nat} {hi : Nat} :
    hi + 1 ≤ qfront claim mem chain hi := by
  unfold qfront
  split <;> omega

theorem qcontent_empty {claim : Bool} {mem : List GNode} {chain : List Nat} {hi : Nat}
    (h : chain.length ≤ hi + 1) : qcontent claim mem chain hi = [] := by
  unfold qcontent
  rw [List.drop_eq_nil_of_le (le_trans h qfront_ge)]
  rfl

theorem qcontent_link {claim : Bool} {mem : List GNode} {chain : List Nat} {hi : Nat}
    {p x : Nat} {n : GNode} {v : Int} (hp : mem[p]? = some n) (hh : hi < chain.length)
    (hx : mem[x]? = some ⟨v, none, false⟩) :
    qcontent claim (mem.set p { n with next := some x }) (chain ++ [x]) hi
      = qcontent claim mem chain hi ++ [v] := by
  have hf := GState.lin_set_next (some x) hp
  have hfront : qfront claim (mem.set p { n with next := some x }) (chain ++ [x]) hi
      = qfront claim mem chain hi := by
    unfold qfront
    by_cases h1 : hi + 1 < chain.length
    · rw [List.getElem?_append_left h1]
      cases e : chain[hi + 1]? with
      | none => rfl
      | some a => simp only [(hf a).2.1]
    · have h2 : hi + 1 = chain.length := by omega
      rw [h2, List.getElem?_append_right (le_refl _), List.getElem?_eq_none (le_refl _)]
      simp only [Nat.sub_self, List.getElem?_cons_zero, (hf x).2.1,
        (GState.lin_nxtAt_of hx).2.2, Bool.and_false]
  unfold qcontent
  rw [hfront, List.drop_append_of_le_length (qfront_le hh), List.map_append]
  congr 1
  · apply List.map_congr_left
    intro a _
    exact (hf a).1
  · simp only [List.map_cons, List.map_nil, (hf x).1, (GState.lin_nxtAt_of hx).2.1]

theorem qcontent_take {mem : List GNode} {chain : List Nat} {hi x : Nat}
    (hx : chain[hi + 1]? = some x) :
    qcontent false mem chain hi = GState.valAt mem x :: qcontent false mem chain (hi + 1) := by
  have h1 := lin_get_lt hx
  unfold qcontent qfront
  simp only [Bool.false_and, Bool.false_eq_true, if_false]
  rw [List.drop_eq_getElem_cons h1, List.map_cons]
  rw [List.getElem?_eq_getElem h1] at hx
  injection hx with hx
  rw [hx]

theorem qcontent_claim {mem : List GNode} {chain : List Nat} {hi x : Nat} {n : GNode}
    (hx : chain[hi + 1]? = some x) (hm : mem[x]? = some n) (hc : n.claimed = false) :
    qcontent true mem chain hi
      = n.value :: qcontent true (mem.set x { n with claimed := true }) chain hi := by
  have h1 := lin_get_lt hx
  have hf := GState.lin_set_claimed hm
  unfold qcontent qfront
  simp only [hx, Bool.true_and, (hf x).2.2, if_true, (GState.lin_nxtAt_of hm).2.2, hc,
    Bool.false_eq_true, if_false]
  rw [List.drop_eq_getElem_cons h1, List.map_cons]
  rw [List.getElem?_eq_getElem h1] at hx
  injection hx with hx
  rw [hx, (GState.lin_nxtAt_of hm).2.1]
  congr 1
  apply List.map_congr_left
  intro a _
  exact ((hf a).1).symm

theorem qcontent_head {mem : List GNode} {chain : List Nat} {hi x : Nat}
    (hx : chain[hi + 1]? = some x) (hc : GState.claimedAt mem x = true)
    (hfresh : ∀ (i a : Nat), chain[i]? = some a → hi + 1 < i → GState.claimedAt mem a = false) :
    qcontent true mem chain (hi + 1) = qcontent true mem chain hi := by
  unfold qcontent qfront
  simp only [hx, Bool.true_and, hc, if_true]
  cases e : chain[hi + 1 + 1]? with
  | none => rfl
  | some a => simp only [hfresh _ a e (by omega), Bool.false_eq_true, if_false]

/-! ### The history under a step -/

theorem lin_config_eq {c : List Int} {f g : Nat → LinStatus} (h : ∀ t, f t = g t) :
    (⟨c, f⟩ : LinConfig) = ⟨c, g⟩ := by
  have : f = g := funext h
  rw [this]

/-- A step without an event that is not the instant at which a call takes
effect: the thread `t` continues as `th1`, whose status is the one that `t` had
when it was counted by `e`. -/
theorem GLin.silent_step {claim : Bool} {σ : GState} {chain : List Nat} {hi : Nat}
    (h : GLin claim σ chain hi) (t : Nat) (th1 : GThread) (e : Bool)
    {mem1 : List GNode} {head1 tail1 : Nat} {chain1 : List Nat} {hi1 : Nat}
    (he : e = true → (σ.thr t).pc = .dCheck ∧ (σ.thr t).next = none)
    (hst : ∀ e1, (e1 = true → th1.pc = .dCheck ∧ th1.next = none) →
      linStatus th1 e1 = linStatus (σ.thr t) e)
    (hq : qcontent claim mem1 chain1 hi1 = qcontent claim σ.mem chain hi) :
    GLin claim ⟨mem1, head1, tail1, Function.update σ.thr t th1, σ.hist⟩ chain1 hi1 := by
  intro E hE
  have hv : ∀ t1, Function.update E t e t1 = true →
      (σ.thr t1).pc = .dCheck ∧ (σ.thr t1).next = none := by
    intro t1
    by_cases ht : t1 = t
    · subst ht
      simp only [Function.update_same]
      exact he
    · simp only [Function.update_noteq ht]
      intro h1
      have := hE t1 h1
      simp only [Function.update_noteq ht] at this
      exact this
  have := h _ hv
  show Atomic σ.hist ⟨qcontent claim mem1 chain1 hi1, _⟩
  rw [hq]
  refine (lin_config_eq ?_) ▸ this
  intro t1
  by_cases ht : t1 = t
  · subst ht
    simp only [Function.update_same]
    refine (hst _ ?_).symm
    intro h1
    have := hE t1 h1
    simp only [Function.update_same] at this
    exact this
  · simp only [Function.update_noteq ht]

/-- The invocation of a call. -/
theorem GLin.call_step {claim : Bool} {σ : GState} {chain : List Nat} {hi : Nat}
    (h : GLin claim σ chain hi) (t : Nat) (th1 : GThread) (op : MSOp)
    (hidle : (σ.thr t).pc = .idle)
    (hst : ∀ e1, linStatus th1 e1 = .pending op) (hpc : th1.pc ≠ .dCheck) :
    GLin claim ⟨σ.mem, σ.head, σ.tail, Function.update σ.thr t th1, σ.hist ++ [.inv t op]⟩
      chain hi := by
  intro E hE
  have hv : ∀ t1, E t1 = true → (σ.thr t1).pc = .dCheck ∧ (σ.thr t1).next = none := by
    intro t1 h1
    have := hE t1 h1
    by_cases ht : t1 = t
    · subst ht
      simp only [Function.update_same] at this
      exact absurd this.1 hpc
    · simp only [Function.update_noteq ht] at this
      exact this
  have := Atomic.inv t op (h E hv) (by simp only [linStatus, hidle])
  refine (lin_config_eq ?_) ▸ this
  intro t1
  by_cases ht : t1 = t
  · subst ht
    simp only [Function.update_same, hst]
  · simp only [Function.update_noteq ht]

/-- The response of a call. -/
theorem GLin.ret_step {claim : Bool} {σ : GState} {chain : List Nat} {hi : Nat}
    (h : GLin claim σ chain hi) (t : Nat) (th1 : GThread) (r : Option Int)
    (hidle : th1.pc = .idle) (hst : ∀ e1, linStatus (σ.thr t) e1 = .done r) :
    GLin claim ⟨σ.mem, σ.head, σ.tail, Function.update σ.thr t th1, σ.hist ++ [.ret t r]⟩
      chain hi := by
  intro E hE
  have hv : ∀ t1, Function.update E t false t1 = true →
      (σ.thr t1).pc = .dCheck ∧ (σ.thr t1).next = none := by
    intro t1
    by_cases ht : t1 = t
    · subst ht
      simp only [Function.update_same]
      intro h1
      cases h1
    · simp only [Function.update_noteq ht]
      intro h1
      have := hE t1 h1
      simp only [Function.update_noteq ht] at this
      exact this
  have := Atomic.ret t r (h _ hv) (by simp only [Function.update_same, hst])
  refine (lin_config_eq ?_) ▸ this
  intro t1
  by_cases ht : t1 = t
  · subst ht
    simp only [Function.update_same, linStatus, hidle]
  · simp only [Function.update_noteq ht]

/-- The instant at which the call `op` of thread `t` takes effect. -/
theorem GLin.effect_step {claim : Bool} {σ : GState} {chain : List Nat} {hi : Nat}
    (h : GLin claim σ chain hi) (t : Nat) (th1 : GThread) (op : MSOp)
    {mem1 : List GNode} {head1 tail1 : Nat} {chain1 : List Nat} {hi1 : Nat}
    (hold : ∀ e1, linStatus (σ.thr t) e1 = .pending op)
    (hnew : ∀ e1, linStatus th1 e1 = .done (applyOp op (qcontent claim σ.mem chain hi)).2)
    (hq : qcontent claim mem1 chain1 hi1 = (applyOp op (qcontent claim σ.mem chain hi)).1) :
    GLin claim ⟨mem1, head1, tail1, Function.update σ.thr t th1, σ.hist⟩ chain1 hi1 := by
  intro E hE
  have hv : ∀ t1, Function.update E t false t1 = true →
      (σ.thr t1).pc = .dCheck ∧ (σ.thr t1).next = none := by
    intro t1
    by_cases ht : t1 = t
    · subst ht
      simp only [Function.update_same]
      intro h1
      cases h1
    · simp only [Function.update_noteq ht]
      intro h1
      have := hE t1 h1
      simp only [Function.update_noteq ht] at this
      exact this
  have := Atomic.lin t op (h _ hv) (by simp only [Function.update_same, hold])
  show Atomic σ.hist ⟨qcontent claim mem1 chain1 hi1, _⟩
  rw [hq]
  refine (lin_config_eq ?_) ▸ this
  intro t1
  by_cases ht : t1 = t
  · subst ht
    simp only [Function.update_same, hnew]
  · simp only [Function.update_noteq ht]

/-- The step of a dequeuer that reads `next == nullptr`: the list is empty, and
the call may be counted as having taken effect at this instant or not. -/
theorem GLin.empty_step {claim : Bool} {σ : GState} {chain : List Nat} {hi : Nat}
    (h : GLin claim σ chain hi) (t : Nat) (th1 : GThread)
    (hold : ∀ e1, linStatus (σ.thr t) e1 = .pending .deq)
    (hpc : th1.pc = .dCheck) (hq : qcontent claim σ.mem chain hi = []) :
    GLin claim ⟨σ.mem, σ.head, σ.tail, Function.update σ.thr t th1, σ.hist⟩ chain hi := by
  intro E hE
  have hv : ∀ t1, Function.update E t false t1 = true →
      (σ.thr t1).pc = .dCheck ∧ (σ.thr t1).next = none := by
    intro t1
    by_cases ht : t1 = t
    · subst ht
      simp only [Function.update_same]
      intro h1
      cases h1
    · simp only [Function.update_noteq ht]
      intro h1
      have := hE t1 h1
      simp only [Function.update_noteq ht] at this
      exact this
  cases hEt : E t with
  | false =>
    refine (lin_config_eq ?_) ▸ (h _ hv)
    intro t1
    by_cases ht : t1 = t
    · subst ht
      simp only [Function.update_same]
      rw [hold]
      simp only [linStatus, hpc, hEt, Bool.false_eq_true, if_false]
    · simp only [Function.update_noteq ht]
  | true =>
    have := Atomic.lin t .deq (h _ hv) (by simp only [Function.update_same, hold])
    simp only [hq, applyOp] at this
    show Atomic σ.hist ⟨qcontent claim σ.mem chain hi, _⟩
    rw [hq]
    refine (lin_config_eq ?_) ▸ this
    intro t1
    by_cases ht : t1 = t
    · subst ht
      simp only [Function.update_same, linStatus, hpc, hEt, if_true]
    · simp only [Function.update_noteq ht]

/-! ### Every step of the scheme keeps the invariant -/

theorem GInv.init (claim late : Bool) : GInv claim late GState.init := by
  refine ⟨[0], 0, 0, ?_, ?_⟩
  · refine ⟨by simp, ?_, ?_, rfl, rfl, le_refl _, by simp, ?_, ?_, ?_, ?_, ?_, ?_⟩
    · intro a ha
      simp only [List.mem_singleton] at ha
      subst ha
      simp [GState.init]
    · intro i a e
      cases i with
      | zero =>
        simp only [List.getElem?_cons_zero, Option.some.injEq] at e
        subst e
        rfl
      | succ i => simp at e
    · intro i a e hlt
      cases i with
      | zero => omega
      | succ i => simp at e
    · intro _ i a _ h0 hle
      omega
    · intro _ a
      cases a with
      | zero => rfl
      | succ a => rfl
    · intro t hp
      simp [GState.init, GPc.holds] at hp
    · intro t t1 _ hp
      simp [GState.init, GPc.holds] at hp
    · intro t
      simp [GState.init, TInv]
  · intro E hE
    have hf : ∀ t, E t = false := by
      intro t
      cases e : E t with
      | false => rfl
      | true =>
        have := (hE t e).1
        simp [GState.init] at this
    have : qcontent claim GState.init.mem [0] 0 = [] := qcontent_empty (by simp)
    rw [this]
    have hst : ∀ t, LinStatus.idle = linStatus (GState.init.thr t) (E t) := fun t => rfl
    exact (lin_config_eq hst) ▸ Atomic.init

theorem GInv.step_call {claim late : Bool} {σ σ1 : GState} {t : Nat} {op : MSOp}
    (h : GInv claim late σ) (hs : σ.step claim late t (.call op) = some σ1) :
    GInv claim late σ1 := by
  obtain ⟨chain, hi, ti, hS, hL⟩ := h
  simp only [GState.step] at hs
  split at hs
  · rename_i hpc
    cases op with
    | enq v =>
      simp only [GState.setThr, Option.some.injEq] at hs
      subst hs
      refine ⟨chain, hi, ti, hS.local_step t _ _ ?_ ?_, hL.call_step t _ _ hpc ?_ ?_⟩
      · intro hp
        simp [GPc.holds] at hp
      · simp [TInv]
      · intro _
        simp [linStatus]
      · simp
    | deq =>
      simp only [GState.setThr, Option.some.injEq] at hs
      subst hs
      refine ⟨chain, hi, ti, hS.local_step t _ _ ?_ ?_, hL.call_step t _ _ hpc ?_ ?_⟩
      · intro hp
        simp [GPc.holds] at hp
      · simp [TInv]
      · intro _
        simp [linStatus]
      · simp
  · cases hs

theorem GInv.step_eAlloc {claim late : Bool} {σ σ1 : GState} {t : Nat}
    (h : GInv claim late σ) (hpc : (σ.thr t).pc = .eAlloc)
    (hs : σ.step claim late t .step = some σ1) : GInv claim late σ1 := by
  obtain ⟨chain, hi, ti, hS, hL⟩ := h
  simp only [GState.step, hpc, GState.setThr, Option.some.injEq] at hs
  subst hs
  refine ⟨chain, hi, ti, hS.alloc_step t _ _ rfl rfl ?_,
    hL.silent_step t _ false (fun e => by cases e) ?_ ?_⟩
  · simp [TInv]
  · intro e1 _
    simp [linStatus, hpc]
  · apply qcontent_congr
    · intro a ha
      exact (GState.lin_fields_congr (heap_push_old _ _ _ (hS.bound a ha))).1
    · intro a ha
      exact (GState.lin_fields_congr (heap_push_old _ _ _ (hS.bound a ha))).2.2

theorem GInv.step_eReadTail {claim late : Bool} {σ σ1 : GState} {t : Nat}
    (h : GInv claim late σ) (hpc : (σ.thr t).pc = .eReadTail)
    (hs : σ.step claim late t .step = some σ1) : GInv claim late σ1 := by
  obtain ⟨chain, hi, ti, hS, hL⟩ := h
  simp only [GState.step, hpc, GState.setThr, Option.some.injEq] at hs
  subst hs
  refine ⟨chain, hi, ti, hS.local_step t _ _ ?_ ?_,
    hL.silent_step t _ false (fun e => by cases e) ?_ rfl⟩
  · intro _
    simp [hpc, GPc.holds]
  · simp only [TInv]
    exact ⟨ti, hS.tail, le_refl _⟩
  · intro e1 _
    simp [linStatus, hpc]

theorem GStruct.end_of_list {claim late : Bool} {σ : GState} {chain : List Nat} {hi ti : Nat}
    (h : GStruct claim late σ chain hi ti) {i a : Nat} {n : GNode}
    (hl : chain[i]? = some a) (hm : σ.mem[a]? = some n) (hnn : n.next = none) :
    chain.length = i + 1 := by
  have h1 := h.links i a hl
  rw [(GState.lin_nxtAt_of hm).1, hnn] at h1
  have h2 := lin_get_lt hl
  by_contra hc
  have h3 : i + 1 < chain.length := by omega
  rw [List.getElem?_eq_getElem h3] at h1
  cases h1

theorem GInv.step_eReadNext {claim late : Bool} {σ σ1 : GState} {t : Nat}
    (h : GInv claim late σ) (hpc : (σ.thr t).pc = .eReadNext)
    (hs : σ.step claim late t .step = some σ1) : GInv claim late σ1 := by
  obtain ⟨chain, hi, ti, hS, hL⟩ := h
  have ht := hS.tinv t
  simp only [TInv, hpc] at ht
  obtain ⟨li, hl, hli⟩ := ht
  cases hm : σ.mem[(σ.thr t).last]? with
  | none =>
    simp only [GState.step, hpc, hm] at hs
    cases hs
  | some n =>
    simp only [GState.step, hpc, hm, GState.setThr, Option.some.injEq] at hs
    subst hs
    refine ⟨chain, hi, ti, hS.local_step t _ _ ?_ ?_,
      hL.silent_step t _ false (fun e => by cases e) ?_ rfl⟩
    · intro _
      simp [hpc, GPc.holds]
    · simp only [TInv]
      refine ⟨li, hl, hli, ?_⟩
      intro x hx
      rw [← hS.links li _ hl, (GState.lin_nxtAt_of hm).1, hx]
    · intro e1 _
      simp [linStatus, hpc]

theorem GInv.step_eCheck {claim late : Bool} {σ σ1 : GState} {t : Nat}
    (h : GInv claim late σ) (hpc : (σ.thr t).pc = .eCheck)
    (hs : σ.step claim late t .step = some σ1) : GInv claim late σ1 := by
  obtain ⟨chain, hi, ti, hS, hL⟩ := h
  have ht := hS.tinv t
  simp only [TInv, hpc] at ht
  obtain ⟨li, hl, hli, hx⟩ := ht
  simp only [GState.step, hpc] at hs
  split at hs
  · split at hs
    · rename_i hn
      simp only [GState.setThr, Option.some.injEq] at hs
      subst hs
      refine ⟨chain, hi, ti, hS.local_step t _ _ ?_ ?_,
        hL.silent_step t _ false (fun e => by cases e) ?_ rfl⟩
      · intro _
        simp [hpc, GPc.holds]
      · simp only [TInv]
        exact ⟨li, hl, hli, hn⟩
      · intro e1 _
        simp [linStatus, hpc]
    · rename_i x hn
      simp only [GState.setThr, Option.some.injEq] at hs
      subst hs
      refine ⟨chain, hi, ti, hS.local_step t _ _ ?_ ?_,
        hL.silent_step t _ false (fun e => by cases e) ?_ rfl⟩
      · intro _
        simp [hpc, GPc.holds]
      · simp only [TInv]
        exact ⟨li, x, hl, hli, hn, hx x hn⟩
      · intro e1 _
        simp [linStatus, hpc]
  · simp only [GState.setThr, Option.some.injEq] at hs
    subst hs
    refine ⟨chain, hi, ti, hS.local_step t _ _ ?_ ?_,
      hL.silent_step t _ false (fun e => by cases e) ?_ rfl⟩
    · intro _
      simp [hpc, GPc.holds]
    · simp only [TInv]
    · intro e1 _
      simp [linStatus, hpc]

theorem GInv.step_eLink {claim late : Bool} {σ σ1 : GState} {t : Nat}
    (h : GInv claim late σ) (hpc : (σ.thr t).pc = .eLink)
    (hs : σ.step claim late t .step = some σ1) : GInv claim late σ1 := by
  obtain ⟨chain, hi, ti, hS, hL⟩ := h
  have ht := hS.tinv t
  simp only [TInv, hpc] at ht
  obtain ⟨li, hl, hli, hx⟩ := ht
  have hold : (σ.thr t).pc.holds = true := by simp [hpc, GPc.holds]
  cases hm : σ.mem[(σ.thr t).last]? with
  | none =>
    simp only [GState.step, hpc, hm] at hs
    cases hs
  | some n =>
    simp only [GState.step, hpc, hm, hx] at hs
    split at hs
    · rename_i hnn
      simp only [GState.setThr, Option.some.injEq] at hs
      subst hs
      have hlen := hS.end_of_list hl hm hnn
      refine ⟨chain ++ [(σ.thr t).node], hi, ti,
        (hS.link_step t _ li _ n hl hli hm hnn hold ?_ ?_).2,
        hL.effect_step t _ (.enq (σ.thr t).arg) ?_ ?_ ?_⟩
      · simp [GPc.holds]
      · simp only [TInv]
        refine ⟨li, lin_get_append hl, ?_⟩
        rw [← hlen, List.getElem?_append_right (le_refl _)]
        simp
      · intro _
        simp [linStatus, hpc]
      · intro _
        simp [linStatus, applyOp]
      · simp only [applyOp]
        exact qcontent_link hm (lin_get_lt hS.head) (hS.unlinked t hold).2
    · simp only [GState.setThr, Option.some.injEq] at hs
      subst hs
      refine ⟨chain, hi, ti, hS.local_step t _ _ ?_ ?_,
        hL.silent_step t _ false (fun e => by cases e) ?_ rfl⟩
      · intro _
        simp [hpc, GPc.holds]
      · simp only [TInv]
      · intro e1 _
        simp [linStatus, hpc]

/-- A step `tail.compare_exchange_strong(last, x)`, succeeding or not, after
which the thread continues at a program point that knows nothing of the list. -/
theorem GInv.swing_tail {claim late : Bool} {σ : GState} {chain : List Nat} {hi ti : Nat}
    (hS : GStruct claim late σ chain hi ti) (hL : GLin claim σ chain hi) (t : Nat)
    (th1 : GThread) (li x : Nat) (hl : chain[li]? = some (σ.thr t).last)
    (hx : chain[li + 1]? = some x)
    (hown : th1.pc.holds = true →
      (σ.thr t).pc.holds = true ∧ th1.node = (σ.thr t).node ∧ th1.arg = (σ.thr t).arg)
    (htinv : ∀ ti1, TInv late σ.mem chain hi ti1 th1)
    (hst : ∀ e1, (e1 = true → th1.pc = .dCheck ∧ th1.next = none) →
      linStatus th1 e1 = linStatus (σ.thr t) false) :
    GInv claim late ⟨σ.mem, σ.head, if σ.tail = (σ.thr t).last then x else σ.tail,
      Function.update σ.thr t th1, σ.hist⟩ := by
  by_cases hc : σ.tail = (σ.thr t).last
  · rw [if_pos hc]
    have : li = ti := lin_nodup_index hS.nodup hl (hc ▸ hS.tail)
    subst this
    exact ⟨chain, hi, li + 1, hS.tail_step t _ x hx hown (htinv _),
      hL.silent_step t _ false (fun e => by cases e) hst rfl⟩
  · rw [if_neg hc]
    exact ⟨chain, hi, ti, hS.local_step t _ _ hown (htinv _),
      hL.silent_step t _ false (fun e => by cases e) hst rfl⟩

theorem GInv.step_eSwing {claim late : Bool} {σ σ1 : GState} {t : Nat}
    (h : GInv claim late σ) (hpc : (σ.thr t).pc = .eSwing)
    (hs : σ.step claim late t .step = some σ1) : GInv claim late σ1 := by
  obtain ⟨chain, hi, ti, hS, hL⟩ := h
  have ht := hS.tinv t
  simp only [TInv, hpc] at ht
  obtain ⟨li, hl, hx⟩ := ht
  simp only [GState.step, hpc, GState.setThr, Option.some.injEq] at hs
  subst hs
  refine GInv.swing_tail hS hL t _ li _ hl hx ?_ ?_ ?_
  · intro hp
    simp [GPc.holds] at hp
  · intro _
    simp only [TInv]
  · intro e1 _
    simp [linStatus, hpc]

theorem GInv.step_eHelp {claim late : Bool} {σ σ1 : GState} {t : Nat}
    (h : GInv claim late σ) (hpc : (σ.thr t).pc = .eHelp)
    (hs : σ.step claim late t .step = some σ1) : GInv claim late σ1 := by
  obtain ⟨chain, hi, ti, hS, hL⟩ := h
  have ht := hS.tinv t
  simp only [TInv, hpc] at ht
  obtain ⟨li, x, hl, _, hn, hx⟩ := ht
  simp only [GState.step, hpc, hn, GState.setThr, Option.some.injEq] at hs
  subst hs
  refine GInv.swing_tail hS hL t _ li _ hl hx ?_ ?_ ?_
  · intro _
    simp [hpc, GPc.holds]
  · intro _
    simp only [TInv]
  · intro e1 _
    simp [linStatus, hpc]

theorem GInv.step_eRet {claim late : Bool} {σ σ1 : GState} {t : Nat}
    (h : GInv claim late σ) (hpc : (σ.thr t).pc = .eRet)
    (hs : σ.step claim late t .step = some σ1) : GInv claim late σ1 := by
  obtain ⟨chain, hi, ti, hS, hL⟩ := h
  simp only [GState.step, hpc, GState.setThr, Option.some.injEq] at hs
  subst hs
  refine ⟨chain, hi, ti, hS.local_step t _ _ ?_ ?_, hL.ret_step t _ none rfl ?_⟩
  · intro hp
    simp [GPc.holds] at hp
  · simp only [TInv]
  · intro _
    simp [linStatus, hpc]

theorem GInv.step_dReadHead {claim late : Bool} {σ σ1 : GState} {t : Nat}
    (h : GInv claim late σ) (hpc : (σ.thr t).pc = .dReadHead)
    (hs : σ.step claim late t .step = some σ1) : GInv claim late σ1 := by
  obtain ⟨chain, hi, ti, hS, hL⟩ := h
  simp only [GState.step, hpc, GState.setThr, Option.some.injEq] at hs
  subst hs
  refine ⟨chain, hi, ti, hS.local_step t _ _ ?_ ?_,
    hL.silent_step t _ false (fun e => by cases e) ?_ rfl⟩
  · intro hp
    simp [GPc.holds] at hp
  · simp only [TInv]
    exact ⟨hi, hS.head, le_refl _⟩
  · intro e1 _
    simp [linStatus, hpc]

theorem GInv.step_dReadTail {claim late : Bool} {σ σ1 : GState} {t : Nat}
    (h : GInv claim late σ) (hpc : (σ.thr t).pc = .dReadTail)
    (hs : σ.step claim late t .step = some σ1) : GInv claim late σ1 := by
  obtain ⟨chain, hi, ti, hS, hL⟩ := h
  have ht := hS.tinv t
  simp only [TInv, hpc] at ht
  obtain ⟨fi, hf, hfi⟩ := ht
  simp only [GState.step, hpc, GState.setThr, Option.some.injEq] at hs
  subst hs
  refine ⟨chain, hi, ti, hS.local_step t _ _ ?_ ?_,
    hL.silent_step t _ false (fun e => by cases e) ?_ rfl⟩
  · intro hp
    simp [GPc.holds] at hp
  · simp only [TInv]
    exact ⟨fi, ti, hf, hfi, hS.tail, le_trans hfi hS.hle, le_refl _⟩
  · intro e1 _
    simp [linStatus, hpc]

theorem GInv.step_dReadNext {claim late : Bool} {σ σ1 : GState} {t : Nat}
    (h : GInv claim late σ) (hpc : (σ.thr t).pc = .dReadNext)
    (hs : σ.step claim late t .step = some σ1) : GInv claim late σ1 := by
  obtain ⟨chain, hi, ti, hS, hL⟩ := h
  have ht := hS.tinv t
  simp only [TInv, hpc] at ht
  obtain ⟨fi, li, hf, hfi, hl, hfl, hli⟩ := ht
  cases hm : σ.mem[(σ.thr t).first]? with
  | none =>
    simp only [GState.step, hpc, hm] at hs
    cases hs
  | some n =>
    simp only [GState.step, hpc, hm, GState.setThr, Option.some.injEq] at hs
    subst hs
    have hlk := hS.links fi _ hf
    rw [(GState.lin_nxtAt_of hm).1] at hlk
    refine ⟨chain, hi, ti, hS.local_step t _ _ ?_ ?_, ?_⟩
    · intro hp
      simp [GPc.holds] at hp
    · simp only [TInv]
      refine ⟨fi, li, hf, hfi, hl, hfl, hli, ?_, ?_⟩
      · intro x hx
        rw [← hlk, hx]
      · intro hlt hnn
        have h1 := lin_get_lt hl
        rw [hnn, List.getElem?_eq_getElem (by omega)] at hlk
        cases hlk
    · cases hnn : n.next with
      | none =>
        refine hL.empty_step t _ ?_ rfl ?_
        · intro _
          simp [linStatus, hpc]
        · apply qcontent_empty
          have := hS.end_of_list hf hm hnn
          omega
      | some x =>
        refine hL.silent_step t _ false (fun e => by cases e) ?_ rfl
        intro e1 he1
        cases e1 with
        | false => simp [linStatus, hpc]
        | true =>
          have := (he1 rfl).2
          simp at this

theorem GInv.step_dCheck {claim late : Bool} {σ σ1 : GState} {t : Nat}
    (h : GInv claim late σ) (hpc : (σ.thr t).pc = .dCheck)
    (hs : σ.step claim late t .step = some σ1) : GInv claim late σ1 := by
  obtain ⟨chain, hi, ti, hS, hL⟩ := h
  have ht := hS.tinv t
  simp only [TInv, hpc] at ht
  obtain ⟨fi, li, hf, hfi, hl, hfl, hli, hx, hnn⟩ := ht
  simp only [GState.step, hpc] at hs
  split at hs
  · split at hs
    · rename_i hfl1
      split at hs
      · rename_i hn
        simp only [GState.setThr, Option.some.injEq] at hs
        subst hs
        refine ⟨chain, hi, ti, hS.local_step t _ _ ?_ ?_,
          hL.silent_step t _ true (fun _ => ⟨hpc, hn⟩) ?_ rfl⟩
        · intro hp
          simp [GPc.holds] at hp
        · simp only [TInv]
        · intro e1 _
          simp [linStatus, hpc]
      · rename_i x hn
        simp only [GState.setThr, Option.some.injEq] at hs
        subst hs
        have hfl2 : fi = li := lin_nodup_index hS.nodup hf (hfl1 ▸ hl)
        subst hfl2
        refine ⟨chain, hi, ti, hS.local_step t _ _ ?_ ?_,
          hL.silent_step t _ false (fun e => by cases e) ?_ rfl⟩
        · intro hp
          simp [GPc.holds] at hp
        · simp only [TInv]
          exact ⟨fi, x, hl, hli, hn, hx x hn⟩
        · intro e1 _
          simp [linStatus, hpc]
    · rename_i hfl1
      simp only [GState.setThr, Option.some.injEq] at hs
      subst hs
      have hlt : fi < li := by
        rcases Nat.lt_or_ge fi li with h1 | h1
        · exact h1
        · have h2 : fi = li := by omega
          subst h2
          rw [hf] at hl
          injection hl with hl
          exact absurd hl hfl1
      obtain ⟨x, hn1⟩ := Option.ne_none_iff_exists.1 (hnn hlt)
      have hn : (σ.thr t).next = some x := hn1.symm
      refine ⟨chain, hi, ti, hS.local_step t _ _ ?_ ?_,
        hL.silent_step t _ false (fun e => by cases e) ?_ rfl⟩
      · intro hp
        cases late <;> simp [GPc.holds] at hp
      · cases late
        · simp only [TInv, Bool.false_eq_true, if_false]
          exact ⟨fi, x, hf, hfi, by omega, hn, hx x hn⟩
        · simp only [TInv, if_true]
          exact ⟨fi, x, hf, hfi, by omega, hn, hx x hn, fun e => by cases e⟩
      · intro e1 _
        cases late <;> simp [linStatus, hpc]
  · simp only [GState.setThr, Option.some.injEq] at hs
    subst hs
    refine ⟨chain, hi, ti, hS.local_step t _ _ ?_ ?_,
      hL.silent_step t _ false (fun e => by cases e) ?_ rfl⟩
    · intro hp
      simp [GPc.holds] at hp
    · simp only [TInv]
    · intro e1 _
      simp [linStatus, hpc]

theorem GInv.step_dHelpTail {claim late : Bool} {σ σ1 : GState} {t : Nat}
    (h : GInv claim late σ) (hpc : (σ.thr t).pc = .dHelpTail)
    (hs : σ.step claim late t .step = some σ1) : GInv claim late σ1 := by
  obtain ⟨chain, hi, ti, hS, hL⟩ := h
  have ht := hS.tinv t
  simp only [TInv, hpc] at ht
  obtain ⟨li, x, hl, _, hn, hx⟩ := ht
  simp only [GState.step, hpc, hn, GState.setThr, Option.some.injEq] at hs
  subst hs
  refine GInv.swing_tail hS hL t _ li _ hl hx ?_ ?_ ?_
  · intro hp
    simp [GPc.holds] at hp
  · intro _
    simp only [TInv]
  · intro e1 _
    simp [linStatus, hpc]

theorem GInv.step_dReadValue {claim late : Bool} {σ σ1 : GState} {t : Nat}
    (h : GInv claim late σ) (hpc : (σ.thr t).pc = .dReadValue)
    (hs : σ.step claim late t .step = some σ1) : GInv claim late σ1 := by
  obtain ⟨chain, hi, ti, hS, hL⟩ := h
  have ht := hS.tinv t
  simp only [TInv, hpc] at ht
  obtain ⟨fi, x, hf, hfi, hft, hn, hx⟩ := ht
  simp only [GState.step, hpc, hn, GState.setThr, Option.some.injEq] at hs
  subst hs
  refine ⟨chain, hi, ti, hS.local_step t _ _ ?_ ?_,
    hL.silent_step t _ false (fun e => by cases e) ?_ rfl⟩
  · intro hp
    simp [GPc.holds] at hp
  · simp only [TInv]
    exact ⟨fi, x, hf, hfi, hft, rfl, hx, fun _ => rfl⟩
  · intro e1 _
    simp [linStatus, hpc]

theorem GInv.step_dRetEmpty {claim late : Bool} {σ σ1 : GState} {t : Nat}
    (h : GInv claim late σ) (hpc : (σ.thr t).pc = .dRetEmpty)
    (hs : σ.step claim late t .step = some σ1) : GInv claim late σ1 := by
  obtain ⟨chain, hi, ti, hS, hL⟩ := h
  simp only [GState.step, hpc, GState.setThr, Option.some.injEq] at hs
  subst hs
  refine ⟨chain, hi, ti, hS.local_step t _ _ ?_ ?_, hL.ret_step t _ _ rfl ?_⟩
  · intro hp
    simp [GPc.holds] at hp
  · simp only [TInv]
  · intro _
    simp [linStatus, hpc]

theorem GInv.step_dRetVal {claim late : Bool} {σ σ1 : GState} {t : Nat}
    (h : GInv claim late σ) (hpc : (σ.thr t).pc = .dRetVal)
    (hs : σ.step claim late t .step = some σ1) : GInv claim late σ1 := by
  obtain ⟨chain, hi, ti, hS, hL⟩ := h
  simp only [GState.step, hpc, GState.setThr, Option.some.injEq] at hs
  subst hs
  refine ⟨chain, hi, ti, hS.local_step t _ _ ?_ ?_, hL.ret_step t _ _ rfl ?_⟩
  · intro hp
    simp [GPc.holds] at hp
  · simp only [TInv]
  · intro _
    simp [linStatus, hpc]

theorem GInv.step_dHelpCheck {claim late : Bool} {σ σ1 : GState} {t : Nat}
    (h : GInv claim late σ) (hpc : (σ.thr t).pc = .dHelpCheck)
    (hs : σ.step claim late t .step = some σ1) : GInv claim late σ1 := by
  obtain ⟨chain, hi, ti, hS, hL⟩ := h
  have ht := hS.tinv t
  simp only [TInv, hpc] at ht
  simp only [GState.step, hpc] at hs
  split at hs
  · simp only [GState.setThr, Option.some.injEq] at hs
    subst hs
    refine ⟨chain, hi, ti, hS.local_step t _ _ ?_ ?_,
      hL.silent_step t _ false (fun e => by cases e) ?_ rfl⟩
    · intro hp
      simp [GPc.holds] at hp
    · simp only [TInv]
      exact ht
    · intro e1 _
      simp [linStatus, hpc]
  · simp only [GState.setThr, Option.some.injEq] at hs
    subst hs
    refine ⟨chain, hi, ti, hS.local_step t _ _ ?_ ?_,
      hL.silent_step t _ false (fun e => by cases e) ?_ rfl⟩
    · intro hp
      simp [GPc.holds] at hp
    · simp only [TInv]
    · intro e1 _
      simp [linStatus, hpc]

/-- A step `head.compare_exchange_strong(first, x)` on a claimed node `x`,
succeeding or not, after which the thread continues at a program point that
knows nothing of the list. -/
theorem GInv.swing_head {claim late : Bool} {σ : GState} {chain : List Nat} {hi ti : Nat}
    (hS : GStruct claim late σ chain hi ti) (hL : GLin claim σ chain hi) (t : Nat)
    (th1 : GThread) (fi x : Nat) (hf : chain[fi]? = some (σ.thr t).first)
    (hft : fi < ti) (hx : chain[fi + 1]? = some x) (hc : GState.claimedAt σ.mem x = true)
    (hown : th1.pc.holds = true →
      (σ.thr t).pc.holds = true ∧ th1.node = (σ.thr t).node ∧ th1.arg = (σ.thr t).arg)
    (htinv : ∀ hi1, TInv late σ.mem chain hi1 ti th1)
    (hst : ∀ e1, (e1 = true → th1.pc = .dCheck ∧ th1.next = none) →
      linStatus th1 e1 = linStatus (σ.thr t) false) :
    GInv claim late ⟨σ.mem, if σ.head = (σ.thr t).first then x else σ.head, σ.tail,
      Function.update σ.thr t th1, σ.hist⟩ := by
  by_cases hh : σ.head = (σ.thr t).first
  · rw [if_pos hh]
    have : fi = hi := lin_nodup_index hS.nodup hf (hh ▸ hS.head)
    subst this
    have hcl : claim = true := by
      cases claim with
      | true => rfl
      | false =>
        rw [hS.noclaim rfl x] at hc
        cases hc
    subst hcl
    exact ⟨chain, fi + 1, ti, hS.head_step t _ x hx hft (fun _ => hc) hown (htinv _),
      hL.silent_step t _ false (fun e => by cases e) hst (qcontent_head hx hc hS.fresh)⟩
  · rw [if_neg hh]
    exact ⟨chain, hi, ti, hS.local_step t _ _ hown (htinv _),
      hL.silent_step t _ false (fun e => by cases e) hst rfl⟩

theorem GInv.step_dOwnHead {claim late : Bool} {σ σ1 : GState} {t : Nat}
    (h : GInv claim late σ) (hpc : (σ.thr t).pc = .dOwnHead)
    (hs : σ.step claim late t .step = some σ1) : GInv claim late σ1 := by
  obtain ⟨chain, hi, ti, hS, hL⟩ := h
  have ht := hS.tinv t
  simp only [TInv, hpc] at ht
  obtain ⟨fi, x, hf, _, hft, hn, hx, hc⟩ := ht
  simp only [GState.step, hpc, hn, GState.setThr, Option.some.injEq] at hs
  subst hs
  refine GInv.swing_head hS hL t _ fi _ hf hft hx hc ?_ ?_ ?_
  · intro hp
    simp [GPc.holds] at hp
  · intro _
    simp only [TInv]
  · intro e1 _
    simp [linStatus, hpc]

theorem GInv.step_dHelpHead {claim late : Bool} {σ σ1 : GState} {t : Nat}
    (h : GInv claim late σ) (hpc : (σ.thr t).pc = .dHelpHead)
    (hs : σ.step claim late t .step = some σ1) : GInv claim late σ1 := by
  obtain ⟨chain, hi, ti, hS, hL⟩ := h
  have ht := hS.tinv t
  simp only [TInv, hpc] at ht
  obtain ⟨fi, x, hf, _, hft, hn, hx, hc⟩ := ht
  simp only [GState.step, hpc, hn, GState.setThr, Option.some.injEq] at hs
  subst hs
  refine GInv.swing_head hS hL t _ fi _ hf hft hx hc ?_ ?_ ?_
  · intro hp
    simp [GPc.holds] at hp
  · intro _
    simp only [TInv]
  · intro e1 _
    simp [linStatus, hpc]

theorem GInv.step_dTake {claim late : Bool} {σ σ1 : GState} {t : Nat}
    (hlate : late = true → claim = true)
    (h : GInv claim late σ) (hpc : (σ.thr t).pc = .dTake)
    (hs : σ.step claim late t .step = some σ1) : GInv claim late σ1 := by
  obtain ⟨chain, hi, ti, hS, hL⟩ := h
  have ht := hS.tinv t
  simp only [TInv, hpc] at ht
  obtain ⟨fi, x, hf, hfi, hft, hn, hx, hv⟩ := ht
  cases claim with
  | true =>
    cases hm : σ.mem[x]? with
    | none =>
      simp only [GState.step, hpc, hn, hm, if_true] at hs
      cases hs
    | some n =>
      simp only [GState.step, hpc, hn, hm, if_true] at hs
      split at hs
      · rename_i hnc
        simp only [GState.setThr, Option.some.injEq] at hs
        subst hs
        have hfh : fi = hi := by
          by_contra hne
          have := hS.past rfl (fi + 1) x hx (by omega) (by omega)
          rw [(GState.lin_nxtAt_of hm).2.2, hnc] at this
          cases this
        subst hfh
        refine ⟨chain, fi, ti, hS.claim_step rfl t _ x n hx hm ?_ ?_,
          hL.effect_step t _ .deq ?_ ?_ ?_⟩
        · intro hp
          simp [GPc.holds] at hp
        · simp only [TInv]
          refine ⟨fi, x, hf, hfi, hft, rfl, hx, ?_⟩
          rw [(GState.lin_set_claimed hm x).2.2, if_pos rfl]
        · intro _
          simp [linStatus, hpc]
        · intro _
          rw [qcontent_claim hx hm hnc]
          simp only [linStatus, applyOp]
          cases late with
          | true => simp
          | false =>
            simp only [Bool.false_eq_true, if_false]
            rw [hv rfl, (GState.lin_nxtAt_of hm).2.1]
        · rw [qcontent_claim hx hm hnc]
          rfl
      · rename_i hnc
        simp only [GState.setThr, Option.some.injEq] at hs
        subst hs
        refine ⟨chain, hi, ti, hS.local_step t _ _ ?_ ?_,
          hL.silent_step t _ false (fun e => by cases e) ?_ rfl⟩
        · intro hp
          simp [GPc.holds] at hp
        · simp only [TInv]
          refine ⟨fi, x, hf, hfi, hft, rfl, hx, ?_⟩
          rw [(GState.lin_nxtAt_of hm).2.2]
          cases hc : n.claimed with
          | true => rfl
          | false => exact absurd hc hnc
        · intro e1 _
          simp [linStatus, hpc]
  | false =>
    have hl : late = false := by
      cases late with
      | false => rfl
      | true => exact absurd (hlate rfl) (by simp)
    subst hl
    simp only [GState.step, hpc, hn, Bool.false_eq_true, if_false] at hs
    split at hs
    · rename_i hh
      simp only [GState.setThr, Option.some.injEq] at hs
      subst hs
      have hfh : fi = hi := lin_nodup_index hS.nodup hf (hh ▸ hS.head)
      subst hfh
      refine ⟨chain, fi + 1, ti,
        hS.head_step t _ x hx hft (fun e => by cases e) ?_ ?_,
        hL.effect_step t _ .deq ?_ ?_ ?_⟩
      · intro hp
        simp [GPc.holds] at hp
      · simp only [TInv]
      · intro _
        simp [linStatus, hpc]
      · intro _
        rw [qcontent_take hx]
        simp only [linStatus, applyOp]
        rw [hv rfl]
      · rw [qcontent_take hx]
        rfl
    · simp only [GState.setThr, Option.some.injEq] at hs
      subst hs
      refine ⟨chain, hi, ti, hS.local_step t _ _ ?_ ?_,
        hL.silent_step t _ false (fun e => by cases e) ?_ rfl⟩
      · intro hp
        simp [GPc.holds] at hp
      · simp only [TInv]
      · intro e1 _
        simp [linStatus, hpc]

/-- Every action of the scheme keeps the invariant. -/
theorem GInv.step {claim late : Bool} {σ σ1 : GState} {t : Nat} {a : GAction}
    (hlate : late = true → claim = true) (h : GInv claim late σ)
    (hs : σ.step claim late t a = some σ1) : GInv claim late σ1 := by
  cases a with
  | call op => exact h.step_call hs
  | step =>
    cases hpc : (σ.thr t).pc with
    | idle =>
      simp only [GState.step, hpc] at hs
      cases hs
    | eAlloc => exact h.step_eAlloc hpc hs
    | eReadTail => exact h.step_eReadTail hpc hs
    | eReadNext => exact h.step_eReadNext hpc hs
    | eCheck => exact h.step_eCheck hpc hs
    | eLink => exact h.step_eLink hpc hs
    | eSwing => exact h.step_eSwing hpc hs
    | eHelp => exact h.step_eHelp hpc hs
    | eRet => exact h.step_eRet hpc hs
    | dReadHead => exact h.step_dReadHead hpc hs
    | dReadTail => exact h.step_dReadTail hpc hs
    | dReadNext => exact h.step_dReadNext hpc hs
    | dCheck => exact h.step_dCheck hpc hs
    | dHelpTail => exact h.step_dHelpTail hpc hs
    | dReadValue => exact h.step_dReadValue hpc hs
    | dTake => exact h.step_dTake hlate hpc hs
    | dOwnHead => exact h.step_dOwnHead hpc hs
    | dHelpCheck => exact h.step_dHelpCheck hpc hs
    | dHelpHead => exact h.step_dHelpHead hpc hs
    | dRetEmpty => exact h.step_dRetEmpty hpc hs
    | dRetVal => exact h.step_dRetVal hpc hs

theorem GInv.reach {claim late : Bool} {σ σ1 : GState} (hlate : late = true → claim = true)
    (h : GInv claim late σ) (hr : GReach claim late σ σ1) : GInv claim late σ1 := by
  induction hr with
  | refl => exact h
  | tail t a _ hs ih => exact ih.step hlate hs

theorem GInv.hist_linearizable {claim late : Bool} {σ : GState} (h : GInv claim late σ) :
    Linearizable σ.hist := by
  obtain ⟨chain, hi, ti, _, hL⟩ := h
  exact ⟨_, hL (fun _ => false) (fun _ e => by cases e)⟩

/-- Every history of the scheme is linearizable. -/
theorem GReach.linearizable {claim late : Bool} {σ : GState}
    (hlate : late = true → claim = true) (hr : GReach claim late GState.init σ) :
    Linearizable σ.hist :=
  ((GInv.init claim late).reach hlate hr).hist_linearizable

/-! ### Consequences of linearizability -/

theorem enqueued_append (h1 h2 : List Event) :
    enqueued (h1 ++ h2) = enqueued h1 ++ enqueued h2 := by
  induction h1 with
  | nil => rfl
  | cons e h1 ih =>
    cases e with
    | inv t op =>
      cases op with
      | enq v => simp [enqueued, ih]
      | deq => simp [enqueued, ih]
    | ret t r => simp [enqueued, ih]

theorem returned_append (h1 h2 : List Event) :
    returned (h1 ++ h2) = returned h1 ++ returned h2 := by
  induction h1 with
  | nil => rfl
  | cons e h1 ih =>
    cases e with
    | inv t op => simp [returned, ih]
    | ret t r =>
      cases r with
      | none => simp [returned, ih]
      | some r => simp [returned, ih]

theorem lin_remove {D : List (Nat × Int)} {t : Nat} {x : Int} (h : (t, x) ∈ D) :
    ∃ D1 : List (Nat × Int), (∀ t1 r1, t1 ≠ t → (t1, r1) ∈ D → (t1, r1) ∈ D1) ∧
      ∀ v : Int, (D.map Prod.snd).count v
        = (D1.map Prod.snd).count v + (if x = v then 1 else 0) := by
  obtain ⟨l1, l2, e⟩ := List.append_of_mem h
  subst e
  refine ⟨l1 ++ l2, ?_, ?_⟩
  · intro t1 r1 ht hm
    simp only [List.mem_append, List.mem_cons, Prod.mk.injEq] at hm ⊢
    rcases hm with hm | hm | hm
    · exact Or.inl hm
    · exact absurd hm.1 ht
    · exact Or.inr hm
  · intro v
    simp only [List.map_append, List.map_cons, List.count_append, List.count_cons, beq_iff_eq]
    omega

/-- In a history of the atomic queue, the values returned, those taken by calls
that have not returned yet, those in the queue and those of the pending `enq`
calls are among the values of the invocations of `enq`, with multiplicity. -/
theorem Atomic.balance {h : List Event} {c : LinConfig} (ha : Atomic h c) :
    ∃ D P : List (Nat × Int),
      (∀ t r, c.status t = .done (some r) → r ≠ INT_MIN → (t, r) ∈ D) ∧
      (∀ t v, c.status t = .pending (.enq v) → (t, v) ∈ P) ∧
      ∀ v : Int, v ≠ INT_MIN →
        (returned h).count v + (D.map Prod.snd).count v + c.content.count v
          + (P.map Prod.snd).count v ≤ (enqueued h).count v := by
  induction ha with
  | init =>
    refine ⟨[], [], ?_, ?_, ?_⟩
    · intro t r h1
      cases h1
    · intro t v h1
      cases h1
    · intro v _
      simp [returned, enqueued]
  | @inv h c t op _ hidle ih =>
    obtain ⟨D, P, hD, hP, hc⟩ := ih
    cases op with
    | enq w =>
      refine ⟨D, (t, w) :: P, ?_, ?_, ?_⟩
      · intro t1 r h1 hr
        by_cases ht : t1 = t
        · subst ht
          simp only [Function.update_same] at h1
          cases h1
        · simp only [Function.update_noteq ht] at h1
          exact hD t1 r h1 hr
      · intro t1 v h1
        by_cases ht : t1 = t
        · subst ht
          simp only [Function.update_same, LinStatus.pending.injEq, MSOp.enq.injEq] at h1
          subst h1
          exact List.mem_cons_self _ _
        · simp only [Function.update_noteq ht] at h1
          exact List.mem_cons_of_mem _ (hP t1 v h1)
      · intro v hv
        have := hc v hv
        simp only [returned_append, enqueued_append, returned, enqueued, List.append_nil,
          List.map_cons, List.count_cons, List.count_append, List.count_nil, beq_iff_eq]
        omega
    | deq =>
      refine ⟨D, P, ?_, ?_, ?_⟩
      · intro t1 r h1 hr
        by_cases ht : t1 = t
        · subst ht
          simp only [Function.update_same] at h1
          cases h1
        · simp only [Function.update_noteq ht] at h1
          exact hD t1 r h1 hr
      · intro t1 v h1
        by_cases ht : t1 = t
        · subst ht
          simp only [Function.update_same] at h1
          cases h1
        · simp only [Function.update_noteq ht] at h1
          exact hP t1 v h1
      · intro v hv
        have := hc v hv
        simp only [returned_append, enqueued_append, returned, enqueued, List.append_nil]
        exact this
  | @lin h c t op _ hpend ih =>
    obtain ⟨D, P, hD, hP, hc⟩ := ih
    cases op with
    | enq w =>
      obtain ⟨P1, hP1, hcnt⟩ := lin_remove (hP t w hpend)
      refine ⟨D, P1, ?_, ?_, ?_⟩
      · intro t1 r h1 hr
        by_cases ht : t1 = t
        · subst ht
          simp only [Function.update_same, applyOp] at h1
          cases h1
        · simp only [Function.update_noteq ht] at h1
          exact hD t1 r h1 hr
      · intro t1 v h1
        by_cases ht : t1 = t
        · subst ht
          simp only [Function.update_same] at h1
          cases h1
        · simp only [Function.update_noteq ht] at h1
          exact hP1 t1 v ht (hP t1 v h1)
      · intro v hv
        have := hc v hv
        rw [hcnt v] at this
        simp only [applyOp, List.count_append, List.count_cons, List.count_nil, beq_iff_eq]
        omega
    | deq =>
      cases hq : c.content with
      | nil =>
        refine ⟨D, P, ?_, ?_, ?_⟩
        · intro t1 r h1 hr
          by_cases ht : t1 = t
          · subst ht
            simp only [Function.update_same, hq, applyOp, LinStatus.done.injEq,
              Option.some.injEq] at h1
            exact absurd h1.symm hr
          · simp only [Function.update_noteq ht] at h1
            exact hD t1 r h1 hr
        · intro t1 v h1
          by_cases ht : t1 = t
          · subst ht
            simp only [Function.update_same] at h1
            cases h1
          · simp only [Function.update_noteq ht] at h1
            exact hP t1 v h1
        · intro v hv
          have := hc v hv
          rw [hq] at this
          simp only [hq, applyOp]
          exact this
      | cons x rest =>
        refine ⟨(t, x) :: D, P, ?_, ?_, ?_⟩
        · intro t1 r h1 hr
          by_cases ht : t1 = t
          · subst ht
            simp only [Function.update_same, hq, applyOp, LinStatus.done.injEq,
              Option.some.injEq] at h1
            subst h1
            exact List.mem_cons_self _ _
          · simp only [Function.update_noteq ht] at h1
            exact List.mem_cons_of_mem _ (hD t1 r h1 hr)
        · intro t1 v h1
          by_cases ht : t1 = t
          · subst ht
            simp only [Function.update_same] at h1
            cases h1
          · simp only [Function.update_noteq ht] at h1
            exact hP t1 v h1
        · intro v hv
          have := hc v hv
          rw [hq] at this
          simp only [hq, applyOp, List.map_cons, List.count_cons, beq_iff_eq] at this ⊢
          omega
  | @ret h c t r _ hdone ih =>
    obtain ⟨D, P, hD, hP, hc⟩ := ih
    have hD1 : ∀ (D1 : List (Nat × Int)), (∀ t1 r1, t1 ≠ t → (t1, r1) ∈ D → (t1, r1) ∈ D1) →
        ∀ t1 r1, Function.update c.status t LinStatus.idle t1 = .done (some r1) →
          r1 ≠ INT_MIN → (t1, r1) ∈ D1 := by
      intro D1 hsub t1 r1 h1 hr
      by_cases ht : t1 = t
      · subst ht
        simp only [Function.update_same] at h1
        cases h1
      · simp only [Function.update_noteq ht] at h1
        exact hsub t1 r1 ht (hD t1 r1 h1 hr)
    have hP1 : ∀ t1 v, Function.update c.status t LinStatus.idle t1 = .pending (.enq v) →
        (t1, v) ∈ P := by
      intro t1 v h1
      by_cases ht : t1 = t
      · subst ht
        simp only [Function.update_same] at h1
        cases h1
      · simp only [Function.update_noteq ht] at h1
        exact hP t1 v h1
    cases r with
    | none =>
      refine ⟨D, P, hD1 D (fun _ _ _ e => e), hP1, ?_⟩
      intro v hv
      have := hc v hv
      simp only [returned_append, enqueued_append, returned, enqueued, List.append_nil]
      exact this
    | some x =>
      by_cases hx : x = INT_MIN
      · refine ⟨D, P, hD1 D (fun _ _ _ e => e), hP1, ?_⟩
        intro v hv
        have := hc v hv
        have hxv : ¬ x = v := fun e => hv (e ▸ hx)
        simp only [returned_append, enqueued_append, returned, enqueued, List.append_nil,
          List.count_append, List.count_cons, List.count_nil, beq_iff_eq, hxv, if_false]
        omega
      · obtain ⟨D2, hD2, hcnt⟩ := lin_remove (hD t x hdone hx)
        refine ⟨D2, P, hD1 _ hD2, hP1, ?_⟩
        · intro v hv
          have := hc v hv
          rw [hcnt v] at this
          simp only [returned_append, enqueued_append, returned, enqueued, List.append_nil,
            List.count_append, List.count_cons, List.count_nil, beq_iff_eq]
          omega

/-- A linearizable history has no duplication. -/
theorem Linearizable.noDuplication {h : List Event} (hl : Linearizable h) :
    NoDuplication h := by
  obtain ⟨c, ha⟩ := hl
  obtain ⟨D, P, _, _, hc⟩ := ha.balance
  intro v hv
  have := hc v hv
  omega

/-! ### From the variants to the scheme -/

theorem GState.lin_ext {a b : GState} (hm : a.mem = b.mem) (hh : a.head = b.head)
    (ht : a.tail = b.tail) (hthr : ∀ t, a.thr t = b.thr t) (hhist : a.hist = b.hist) :
    a = b := by
  cases a
  cases b
  simp only at hm hh ht hthr hhist
  have : ∀ {f g : Nat → GThread}, (∀ t, f t = g t) → f = g := fun h => funext h
  rw [hm, hh, ht, this hthr, hhist]

/-- A system whose steps are steps of the scheme, or leave the state of the
scheme as it is, reaches only states of the scheme. -/
theorem QSystem.lin_of_sim {Q Pc : Type}
    (step : QSystem Q Pc → Nat → Act → Except Err (QSystem Q Pc))
    (proj : QSystem Q Pc → GState) (CI : QSystem Q Pc → Prop) (claim late : Bool)
    (hsim : ∀ s t a s1, CI s → step s t a = .ok s1 →
      CI s1 ∧ (proj s1 = proj s ∨ ∃ b, (proj s).step claim late t b = some (proj s1)))
    (sched : List (Nat × Act)) :
    ∀ s0 s, CI s0 → GReach claim late GState.init (proj s0) →
      QSystem.run step sched s0 = .ok s →
      CI s ∧ GReach claim late GState.init (proj s) := by
  induction sched with
  | nil =>
    intro s0 s h0 hr hs
    simp only [QSystem.run, Except.ok.injEq] at hs
    subst hs
    exact ⟨h0, hr⟩
  | cons ta rest ih =>
    intro s0 s h0 hr hs
    obtain ⟨t, a⟩ := ta
    simp only [QSystem.run] at hs
    cases h1 : step s0 t a with
    | error e =>
      rw [h1] at hs
      cases hs
    | ok s1 =>
      rw [h1] at hs
      obtain ⟨hc, hp⟩ := hsim s0 t a s1 h0 h1
      refine ih s1 s hc ?_ hs
      rcases hp with hp | ⟨b, hp⟩
      · rw [hp]
        exact hr
      · exact GReach.tail t b hr hp

theorem MSQueue.ms_proj_next (s : QSystem MSQueue MSQueue.Pc) (t : Nat) (q : MSQueue)
    (th : QThread MSQueue.Pc) :
    MSQueue.proj (s.next t q th)
      = ⟨q.mem.map fun n => ⟨n.value, n.next, false⟩, q.head, q.tail,
          Function.update (MSQueue.proj s).thr t (th.toG MSQueue.Pc.toG), s.hist⟩ := by
  apply GState.lin_ext <;> try rfl
  intro t1
  by_cases h : t1 = t
  · subst h
    simp [MSQueue.proj, QSystem.next]
  · simp [MSQueue.proj, QSystem.next, Function.update_noteq h]

theorem MSQueue.ms_proj_emit (s : QSystem MSQueue MSQueue.Pc) (t : Nat) (e : Event)
    (th : QThread MSQueue.Pc) :
    MSQueue.proj (s.emit t e th)
      = ⟨(MSQueue.proj s).mem, (MSQueue.proj s).head, (MSQueue.proj s).tail,
          Function.update (MSQueue.proj s).thr t (th.toG MSQueue.Pc.toG), s.hist ++ [e]⟩ := by
  apply GState.lin_ext <;> try rfl
  intro t1
  by_cases h : t1 = t
  · subst h
    simp [MSQueue.proj, QSystem.emit]
  · simp [MSQueue.proj, QSystem.emit, Function.update_noteq h]

theorem MSQueue.ms_sim (s : QSystem MSQueue MSQueue.Pc) (t : Nat) (a : Act)
    (s1 : QSystem MSQueue MSQueue.Pc) (hs : MSQueue.step s t a = .ok s1) :
    MSQueue.proj s1 = MSQueue.proj s ∨
      ∃ b, (MSQueue.proj s).step false false t b = some (MSQueue.proj s1) := by
  have hthr : (MSQueue.proj s).thr t = (s.threads t).toG MSQueue.Pc.toG := rfl
  cases a with
  | call c =>
    simp only [MSQueue.step] at hs
    split at hs
    · rename_i hpc
      cases hc : c.toMS with
      | enq v =>
        simp only [hc, Except.ok.injEq] at hs
        subst hs
        refine Or.inr ⟨.call (.enq v), ?_⟩
        rw [MSQueue.ms_proj_emit]
        simp [GState.step, hthr, QThread.toG, hpc, MSQueue.Pc.toG, GState.setThr, MSQueue.proj]
      | deq =>
        simp only [hc, Except.ok.injEq] at hs
        subst hs
        refine Or.inr ⟨.call .deq, ?_⟩
        rw [MSQueue.ms_proj_emit]
        simp [GState.step, hthr, QThread.toG, hpc, MSQueue.Pc.toG, GState.setThr, MSQueue.proj]
    · simp only [Except.ok.injEq] at hs
      subst hs
      exact Or.inl rfl
  | step =>
    cases hpc : (s.threads t).pc with
    | idle =>
      simp only [MSQueue.step, hpc, Except.ok.injEq] at hs
      subst hs
      exact Or.inl rfl
    | enqNew =>
      simp only [MSQueue.step, hpc, Except.ok.injEq] at hs
      subst hs
      refine Or.inr ⟨.step, ?_⟩
      rw [MSQueue.ms_proj_next]
      simp [GState.step, hthr, QThread.toG, hpc, MSQueue.Pc.toG, GState.setThr, MSQueue.proj]
    | enqLoadTail =>
      simp only [MSQueue.step, hpc, Except.ok.injEq] at hs
      subst hs
      refine Or.inr ⟨.step, ?_⟩
      rw [MSQueue.ms_proj_next]
      simp [GState.step, hthr, QThread.toG, hpc, MSQueue.Pc.toG, GState.setThr, MSQueue.proj]
    | enqLoadNext =>
      simp only [MSQueue.step, hpc, MSQueue.load] at hs
      cases hm : s.queue.mem[(s.threads t).last]? with
      | none =>
        simp only [hm] at hs
        cases hs
      | some n =>
        simp only [hm, Except.ok.injEq] at hs
        subst hs
        refine Or.inr ⟨.step, ?_⟩
        rw [MSQueue.ms_proj_next]
        simp [GState.step, hthr, QThread.toG, hpc, MSQueue.Pc.toG, GState.setThr, MSQueue.proj, hm]
    | enqCheck =>
      simp only [MSQueue.step, hpc] at hs
      refine Or.inr ⟨.step, ?_⟩
      split at hs
      · rename_i h1
        split at hs
        · rename_i h2
          simp only [Except.ok.injEq] at hs
          subst hs
          rw [MSQueue.ms_proj_next]
          simp [GState.step, hthr, QThread.toG, hpc, MSQueue.Pc.toG, GState.setThr,
            MSQueue.proj, h1, h2]
        · rename_i x h2
          simp only [Except.ok.injEq] at hs
          subst hs
          rw [MSQueue.ms_proj_next]
          simp [GState.step, hthr, QThread.toG, hpc, MSQueue.Pc.toG, GState.setThr,
            MSQueue.proj, h1, h2]
      · rename_i h1
        simp only [Except.ok.injEq] at hs
        subst hs
        rw [MSQueue.ms_proj_next]
        simp [GState.step, hthr, QThread.toG, hpc, MSQueue.Pc.toG, GState.setThr,
          MSQueue.proj, h1]
    | enqCasNext =>
      simp only [MSQueue.step, hpc, MSQueue.casNext] at hs
      refine Or.inr ⟨.step, ?_⟩
      cases hm : s.queue.mem[(s.threads t).last]? with
      | none =>
        simp only [hm] at hs
        cases hs
      | some n =>
        simp only [hm] at hs
        by_cases h1 : n.next = (s.threads t).next
        · simp only [h1, if_true, Except.ok.injEq] at hs
          subst hs
          rw [MSQueue.ms_proj_next]
          simp [GState.step, hthr, QThread.toG, hpc, MSQueue.Pc.toG, GState.setThr,
            MSQueue.proj, hm, h1, List.map_set]
        · simp only [h1, if_false, Except.ok.injEq] at hs
          subst hs
          rw [MSQueue.ms_proj_next]
          simp [GState.step, hthr, QThread.toG, hpc, MSQueue.Pc.toG, GState.setThr,
            MSQueue.proj, hm, h1]
    | enqCasTail =>
      simp only [MSQueue.step, hpc, MSQueue.casTail, Except.ok.injEq] at hs
      subst hs
      refine Or.inr ⟨.step, ?_⟩
      rw [MSQueue.ms_proj_next]
      by_cases h1 : s.queue.tail = (s.threads t).last <;>
        simp [GState.step, hthr, QThread.toG, hpc, MSQueue.Pc.toG, GState.setThr,
          MSQueue.proj, h1]
    | enqHelp =>
      simp only [MSQueue.step, hpc, MSQueue.casTail] at hs
      refine Or.inr ⟨.step, ?_⟩
      cases h2 : (s.threads t).next with
      | none =>
        simp only [h2] at hs
        cases hs
      | some x =>
        simp only [h2, Except.ok.injEq] at hs
        subst hs
        rw [MSQueue.ms_proj_next]
        by_cases h1 : s.queue.tail = (s.threads t).last <;>
          simp [GState.step, hthr, QThread.toG, hpc, MSQueue.Pc.toG, GState.setThr,
            MSQueue.proj, h1, h2]
    | enqReturn =>
      simp only [MSQueue.step, hpc, Except.ok.injEq] at hs
      subst hs
      refine Or.inr ⟨.step, ?_⟩
      rw [MSQueue.ms_proj_emit]
      simp [GState.step, hthr, QThread.toG, hpc, MSQueue.Pc.toG, GState.setThr, MSQueue.proj]
    | deqLoadHead =>
      simp only [MSQueue.step, hpc, Except.ok.injEq] at hs
      subst hs
      refine Or.inr ⟨.step, ?_⟩
      rw [MSQueue.ms_proj_next]
      simp [GState.step, hthr, QThread.toG, hpc, MSQueue.Pc.toG, GState.setThr, MSQueue.proj]
    | deqLoadTail =>
      simp only [MSQueue.step, hpc, Except.ok.injEq] at hs
      subst hs
      refine Or.inr ⟨.step, ?_⟩
      rw [MSQueue.ms_proj_next]
      simp [GState.step, hthr, QThread.toG, hpc, MSQueue.Pc.toG, GState.setThr, MSQueue.proj]
    | deqLoadNext =>
      simp only [MSQueue.step, hpc, MSQueue.load] at hs
      cases hm : s.queue.mem[(s.threads t).first]? with
      | none =>
        simp only [hm] at hs
        cases hs
      | some n =>
        simp only [hm, Except.ok.injEq] at hs
        subst hs
        refine Or.inr ⟨.step, ?_⟩
        rw [MSQueue.ms_proj_next]
        simp [GState.step, hthr, QThread.toG, hpc, MSQueue.Pc.toG, GState.setThr,
          MSQueue.proj, hm]
    | deqCheck =>
      simp only [MSQueue.step, hpc] at hs
      refine Or.inr ⟨.step, ?_⟩
      split at hs
      · rename_i h1
        split at hs
        · rename_i h3
          have h4 : s.queue.head = (s.threads t).last := h1 ▸ h3
          split at hs
          · rename_i h2
            simp only [Except.ok.injEq] at hs
            subst hs
            rw [MSQueue.ms_proj_next]
            simp [GState.step, hthr, QThread.toG, hpc, MSQueue.Pc.toG, GState.setThr,
              MSQueue.proj, h1, h2, h4]
          · rename_i x h2
            simp only [Except.ok.injEq] at hs
            subst hs
            rw [MSQueue.ms_proj_next]
            simp [GState.step, hthr, QThread.toG, hpc, MSQueue.Pc.toG, GState.setThr,
              MSQueue.proj, h1, h2, h4]
        · rename_i h3
          have h4 : ¬ s.queue.head = (s.threads t).last := h1 ▸ h3
          simp only [Except.ok.injEq] at hs
          subst hs
          rw [MSQueue.ms_proj_next]
          simp [GState.step, hthr, QThread.toG, hpc, MSQueue.Pc.toG, GState.setThr,
            MSQueue.proj, h1, h4]
      · rename_i h1
        simp only [Except.ok.injEq] at hs
        subst hs
        rw [MSQueue.ms_proj_next]
        simp [GState.step, hthr, QThread.toG, hpc, MSQueue.Pc.toG, GState.setThr,
          MSQueue.proj, h1]
    | deqHelp =>
      simp only [MSQueue.step, hpc, MSQueue.casTail] at hs
      refine Or.inr ⟨.step, ?_⟩
      cases h2 : (s.threads t).next with
      | none =>
        simp only [h2] at hs
        cases hs
      | some x =>
        simp only [h2, Except.ok.injEq] at hs
        subst hs
        rw [MSQueue.ms_proj_next]
        by_cases h1 : s.queue.tail = (s.threads t).last <;>
          simp [GState.step, hthr, QThread.toG, hpc, MSQueue.Pc.toG, GState.setThr,
            MSQueue.proj, h1, h2]
    | deqLoadValue =>
      simp only [MSQueue.step, hpc, MSQueue.load] at hs
      refine Or.inr ⟨.step, ?_⟩
      cases h2 : (s.threads t).next with
      | none =>
        simp only [h2] at hs
        cases hs
      | some x =>
        simp only [h2] at hs
        cases hm : s.queue.mem[x]? with
        | none =>
          simp only [hm] at hs
          cases hs
        | some n =>
          simp only [hm, Except.ok.injEq] at hs
          subst hs
          rw [MSQueue.ms_proj_next]
          simp [GState.step, hthr, QThread.toG, hpc, MSQueue.Pc.toG, GState.setThr,
            MSQueue.proj, h2, hm, GState.valAt]
    | deqCasHead =>
      simp only [MSQueue.step, hpc, MSQueue.casHead] at hs
      refine Or.inr ⟨.step, ?_⟩
      cases h2 : (s.threads t).next with
      | none =>
        simp only [h2] at hs
        cases hs
      | some x =>
        simp only [h2] at hs
        by_cases h1 : s.queue.head = (s.threads t).first
        · simp only [h1, if_true, Except.ok.injEq] at hs
          subst hs
          rw [MSQueue.ms_proj_next]
          simp [GState.step, hthr, QThread.toG, hpc, MSQueue.Pc.toG, GState.setThr,
            MSQueue.proj, h1, h2]
        · simp only [h1, if_false, Except.ok.injEq] at hs
          subst hs
          rw [MSQueue.ms_proj_next]
          simp [GState.step, hthr, QThread.toG, hpc, MSQueue.Pc.toG, GState.setThr,
            MSQueue.proj, h1, h2]
    | deqReturnEmpty =>
      simp only [MSQueue.step, hpc, Except.ok.injEq] at hs
      subst hs
      refine Or.inr ⟨.step, ?_⟩
      rw [MSQueue.ms_proj_emit]
      simp [GState.step, hthr, QThread.toG, hpc, MSQueue.Pc.toG, GState.setThr, MSQueue.proj]
    | deqReturnValue =>
      simp only [MSQueue.step, hpc, Except.ok.injEq] at hs
      subst hs
      refine Or.inr ⟨.step, ?_⟩
      rw [MSQueue.ms_proj_emit]
      simp [GState.step, hthr, QThread.toG, hpc, MSQueue.Pc.toG, GState.setThr, MSQueue.proj]

theorem DurableQueue.dq_proj_next (s : QSystem DurableQueue DurableQueue.Pc) (t : Nat)
    (q : DurableQueue) (th : QThread DurableQueue.Pc) :
    DurableQueue.proj (s.next t q th)
      = ⟨q.mem.map fun n => ⟨n.value, n.next, decide (n.threadID ≠ -1)⟩, q.head, q.tail,
          Function.update (DurableQueue.proj s).thr t (th.toG DurableQueue.Pc.toG), s.hist⟩ := by
  apply GState.lin_ext <;> try rfl
  intro t1
  by_cases h : t1 = t
  · subst h
    simp [DurableQueue.proj, QSystem.next]
  · simp [DurableQueue.proj, QSystem.next, Function.update_noteq h]

theorem DurableQueue.dq_proj_emit (s : QSystem DurableQueue DurableQueue.Pc) (t : Nat)
    (e : Event) (th : QThread DurableQueue.Pc) :
    DurableQueue.proj (s.emit t e th)
      = ⟨(DurableQueue.proj s).mem, (DurableQueue.proj s).head, (DurableQueue.proj s).tail,
          Function.update (DurableQueue.proj s).thr t (th.toG DurableQueue.Pc.toG),
          s.hist ++ [e]⟩ := by
  apply GState.lin_ext <;> try rfl
  intro t1
  by_cases h : t1 = t
  · subst h
    simp [DurableQueue.proj, QSystem.emit]
  · simp [DurableQueue.proj, QSystem.emit, Function.update_noteq h]

/-- A step on `removedValues` or on a cell leaves the state of the scheme as it is. -/
theorem DurableQueue.dq_proj_stutter (s : QSystem DurableQueue DurableQueue.Pc) (t : Nat)
    (q : DurableQueue) (th : QThread DurableQueue.Pc) (hm : q.mem = s.queue.mem)
    (hh : q.head = s.queue.head) (ht : q.tail = s.queue.tail)
    (hth : th.toG DurableQueue.Pc.toG = (s.threads t).toG DurableQueue.Pc.toG) :
    DurableQueue.proj (s.next t q th) = DurableQueue.proj s := by
  rw [DurableQueue.dq_proj_next, hm, hh, ht, hth]
  apply GState.lin_ext <;> try rfl
  intro t1
  by_cases h : t1 = t
  · subst h
    simp [DurableQueue.proj]
  · simp [DurableQueue.proj, Function.update_noteq h]

theorem DurableQueue.dq_published_next {s : QSystem DurableQueue DurableQueue.Pc}
    (h : DurableQueue.Published s) (t : Nat) (q : DurableQueue)
    (th : QThread DurableQueue.Pc)
    (hth : th.pc.published = true → th.threadID ≠ -1) :
    DurableQueue.Published (s.next t q th) := by
  intro t1
  by_cases ht : t1 = t
  · subst ht
    simp only [QSystem.next, Function.update_same]
    exact hth
  · simp only [QSystem.next, Function.update_noteq ht]
    exact h t1

theorem DurableQueue.dq_published_emit {s : QSystem DurableQueue DurableQueue.Pc}
    (h : DurableQueue.Published s) (t : Nat) (e : Event)
    (th : QThread DurableQueue.Pc)
    (hth : th.pc.published = true → th.threadID ≠ -1) :
    DurableQueue.Published (s.emit t e th) := by
  intro t1
  by_cases ht : t1 = t
  · subst ht
    simp only [QSystem.emit, Function.update_same]
    exact hth
  · simp only [QSystem.emit, Function.update_noteq ht]
    exact h t1

theorem DurableQueue.dq_pub_not (th : QThread DurableQueue.Pc) (h : th.pc.published = false) :
    th.pc.published = true → th.threadID ≠ -1 := by
  intro hp
  rw [h] at hp
  cases hp

theorem DurableQueue.dq_pub_old {s : QSystem DurableQueue DurableQueue.Pc} {t : Nat}
    (h : DurableQueue.Published s) (hold : (s.threads t).pc.published = true)
    (th : QThread DurableQueue.Pc) (htid : th.threadID = (s.threads t).threadID) :
    th.pc.published = true → th.threadID ≠ -1 := by
  intro _
  rw [htid]
  exact h t hold

theorem DurableQueue.dq_slot_ne {threadID : Int} {i : Nat} (h : slot threadID = .ok i) :
    threadID ≠ -1 := by
  intro e
  subst e
  simp [slot, PADDING, MAX_THREADS] at h

theorem DurableQueue.dq_storeAt_frame {q q1 : DurableQueue} {address : Option Nat} {v : Int}
    (h : q.storeAt address v = .ok q1) :
    q1.mem = q.mem ∧ q1.head = q.head ∧ q1.tail = q.tail := by
  unfold DurableQueue.storeAt at h
  cases address with
  | none => cases h
  | some c =>
    simp only at h
    split at h
    · simp only [Except.ok.injEq] at h
      subst h
      exact ⟨rfl, rfl, rfl⟩
    · cases h

theorem DurableQueue.dq_storeRemoved_frame {q q1 : DurableQueue} {threadID v : Int}
    (h : q.storeRemoved threadID v = .ok q1) :
    q1.mem = q.mem ∧ q1.head = q.head ∧ q1.tail = q.tail := by
  unfold DurableQueue.storeRemoved DurableQueue.removedPtr at h
  cases hs : slot threadID with
  | error e =>
    simp only [hs] at h
    cases h
  | ok i =>
    simp only [hs] at h
    exact DurableQueue.dq_storeAt_frame h

/-- Every step of the durable queue is a step of the scheme in which a node is
taken by a claim and the value is read before, or leaves the state of the
scheme as it is. -/
theorem DurableQueue.dq_sim (s : QSystem DurableQueue DurableQueue.Pc) (t : Nat) (a : Act)
    (s1 : QSystem DurableQueue DurableQueue.Pc) (hci : DurableQueue.Published s)
    (hs : DurableQueue.step s t a = .ok s1) :
    DurableQueue.Published s1 ∧ (DurableQueue.proj s1 = DurableQueue.proj s ∨
      ∃ b, (DurableQueue.proj s).step true false t b = some (DurableQueue.proj s1)) := by
  have hthr : (DurableQueue.proj s).thr t = (s.threads t).toG DurableQueue.Pc.toG := rfl
  cases a with
  | call c =>
    simp only [DurableQueue.step] at hs
    split at hs
    · rename_i hpc
      cases c with
      | enq v tid op =>
        simp only [Except.ok.injEq] at hs
        subst hs
        refine ⟨DurableQueue.dq_published_emit hci _ _ _ (DurableQueue.dq_pub_not _ rfl),
          Or.inr ⟨.call (.enq v), ?_⟩⟩
        rw [DurableQueue.dq_proj_emit]
        simp [GState.step, hthr, QThread.toG, hpc, DurableQueue.Pc.toG, GState.setThr,
          DurableQueue.proj]
      | deq tid op =>
        simp only [Except.ok.injEq] at hs
        subst hs
        refine ⟨DurableQueue.dq_published_emit hci _ _ _ (DurableQueue.dq_pub_not _ rfl),
          Or.inr ⟨.call .deq, ?_⟩⟩
        rw [DurableQueue.dq_proj_emit]
        simp [GState.step, hthr, QThread.toG, hpc, DurableQueue.Pc.toG, GState.setThr,
          DurableQueue.proj]
    · simp only [Except.ok.injEq] at hs
      subst hs
      exact ⟨hci, Or.inl rfl⟩
  | step =>
    cases hpc : (s.threads t).pc with
    | idle =>
      simp only [DurableQueue.step, hpc, Except.ok.injEq] at hs
      subst hs
      exact ⟨hci, Or.inl rfl⟩
    | enqNew =>
      simp only [DurableQueue.step, hpc] at hs
      simp only [Except.ok.injEq] at hs
      subst hs
      refine ⟨DurableQueue.dq_published_next hci _ _ _ (DurableQueue.dq_pub_not _ rfl), Or.inr ⟨.step, ?_⟩⟩
      rw [DurableQueue.dq_proj_next]
      simp [GState.step, hthr, QThread.toG, hpc, DurableQueue.Pc.toG, GState.setThr,
        DurableQueue.proj]
    | enqLoadTail =>
      simp only [DurableQueue.step, hpc] at hs
      simp only [Except.ok.injEq] at hs
      subst hs
      refine ⟨DurableQueue.dq_published_next hci _ _ _ (DurableQueue.dq_pub_not _ rfl), Or.inr ⟨.step, ?_⟩⟩
      rw [DurableQueue.dq_proj_next]
      simp [GState.step, hthr, QThread.toG, hpc, DurableQueue.Pc.toG, GState.setThr,
        DurableQueue.proj]
    | enqLoadNext =>
      simp only [DurableQueue.step, hpc, DurableQueue.load] at hs
      cases hm : s.queue.mem[(s.threads t).last]? with
      | none =>
        simp only [hm] at hs
        cases hs
      | some n =>
        simp only [hm] at hs
        simp only [Except.ok.injEq] at hs
        subst hs
        refine ⟨DurableQueue.dq_published_next hci _ _ _ (DurableQueue.dq_pub_not _ rfl), Or.inr ⟨.step, ?_⟩⟩
        rw [DurableQueue.dq_proj_next]
        simp [GState.step, hthr, QThread.toG, hpc, DurableQueue.Pc.toG, GState.setThr,
          DurableQueue.proj, hm]
    | enqCheck =>
      simp only [DurableQueue.step, hpc] at hs
      split at hs
      · rename_i h1
        split at hs
        · rename_i h2
          simp only [Except.ok.injEq] at hs
          subst hs
          refine ⟨DurableQueue.dq_published_next hci _ _ _ (DurableQueue.dq_pub_not _ rfl), Or.inr ⟨.step, ?_⟩⟩
          rw [DurableQueue.dq_proj_next]
          simp [GState.step, hthr, QThread.toG, hpc, DurableQueue.Pc.toG, GState.setThr,
            DurableQueue.proj, h1, h2]
        · rename_i x h2
          simp only [Except.ok.injEq] at hs
          subst hs
          refine ⟨DurableQueue.dq_published_next hci _ _ _ (DurableQueue.dq_pub_not _ rfl), Or.inr ⟨.step, ?_⟩⟩
          rw [DurableQueue.dq_proj_next]
          simp [GState.step, hthr, QThread.toG, hpc, DurableQueue.Pc.toG, GState.setThr,
            DurableQueue.proj, h1, h2]
      · rename_i h1
        simp only [Except.ok.injEq] at hs
        subst hs
        refine ⟨DurableQueue.dq_published_next hci _ _ _ (DurableQueue.dq_pub_not _ rfl), Or.inr ⟨.step, ?_⟩⟩
        rw [DurableQueue.dq_proj_next]
        simp [GState.step, hthr, QThread.toG, hpc, DurableQueue.Pc.toG, GState.setThr,
          DurableQueue.proj, h1]
    | enqCasNext =>
      simp only [DurableQueue.step, hpc, DurableQueue.casNext] at hs
      cases hm : s.queue.mem[(s.threads t).last]? with
      | none =>
        simp only [hm] at hs
        cases hs
      | some n =>
        simp only [hm] at hs
        by_cases h1 : n.next = (s.threads t).next
        · simp only [h1, if_true] at hs
          simp only [Except.ok.injEq] at hs
          subst hs
          refine ⟨DurableQueue.dq_published_next hci _ _ _ (DurableQueue.dq_pub_not _ rfl), Or.inr ⟨.step, ?_⟩⟩
          rw [DurableQueue.dq_proj_next]
          simp [GState.step, hthr, QThread.toG, hpc, DurableQueue.Pc.toG, GState.setThr,
            DurableQueue.proj, hm, h1, List.map_set]
        · simp only [h1, if_false] at hs
          simp only [Except.ok.injEq] at hs
          subst hs
          refine ⟨DurableQueue.dq_published_next hci _ _ _ (DurableQueue.dq_pub_not _ rfl), Or.inr ⟨.step, ?_⟩⟩
          rw [DurableQueue.dq_proj_next]
          simp [GState.step, hthr, QThread.toG, hpc, DurableQueue.Pc.toG, GState.setThr,
            DurableQueue.proj, hm, h1]
    | enqCasTail =>
      simp only [DurableQueue.step, hpc, DurableQueue.casTail, Except.ok.injEq] at hs
      subst hs
      refine ⟨DurableQueue.dq_published_next hci _ _ _ (DurableQueue.dq_pub_not _ rfl), Or.inr ⟨.step, ?_⟩⟩
      rw [DurableQueue.dq_proj_next]
      by_cases h1 : s.queue.tail = (s.threads t).last <;>
        simp [GState.step, hthr, QThread.toG, hpc, DurableQueue.Pc.toG, GState.setThr,
          DurableQueue.proj, h1]
    | enqHelp =>
      simp only [DurableQueue.step, hpc, DurableQueue.casTail] at hs
      cases h2 : (s.threads t).next with
      | none =>
        simp only [h2] at hs
        cases hs
      | some x =>
        simp only [h2, Except.ok.injEq] at hs
        subst hs
        refine ⟨DurableQueue.dq_published_next hci _ _ _ (DurableQueue.dq_pub_not _ rfl), Or.inr ⟨.step, ?_⟩⟩
        rw [DurableQueue.dq_proj_next]
        by_cases h1 : s.queue.tail = (s.threads t).last <;>
          simp [GState.step, hthr, QThread.toG, hpc, DurableQueue.Pc.toG, GState.setThr,
            DurableQueue.proj, h1, h2]
    | enqReturn =>
      simp only [DurableQueue.step, hpc] at hs
      simp only [Except.ok.injEq] at hs
      subst hs
      refine ⟨DurableQueue.dq_published_emit hci _ _ _ (DurableQueue.dq_pub_not _ rfl), Or.inr ⟨.step, ?_⟩⟩
      rw [DurableQueue.dq_proj_emit]
      simp [GState.step, hthr, QThread.toG, hpc, DurableQueue.Pc.toG, GState.setThr,
        DurableQueue.proj]
    | deqNewCell =>
      simp only [DurableQueue.step, hpc, Except.ok.injEq] at hs
      subst hs
      refine ⟨DurableQueue.dq_published_next hci _ _ _ (DurableQueue.dq_pub_not _ rfl), Or.inl ?_⟩
      refine DurableQueue.dq_proj_stutter s t _ _ rfl rfl rfl ?_
      simp [QThread.toG, hpc, DurableQueue.Pc.toG]
    | deqPublish =>
      simp only [DurableQueue.step, hpc] at hs
      cases hq : slot (s.threads t).threadID with
      | error e =>
        simp only [hq] at hs
        cases hs
      | ok i =>
        simp only [hq, Except.ok.injEq] at hs
        subst hs
        refine ⟨DurableQueue.dq_published_next hci _ _ _
          (fun _ => DurableQueue.dq_slot_ne hq), Or.inl ?_⟩
        refine DurableQueue.dq_proj_stutter s t _ _ rfl rfl rfl ?_
        simp [QThread.toG, hpc, DurableQueue.Pc.toG]
    | deqLoadHead =>
      simp only [DurableQueue.step, hpc] at hs
      simp only [Except.ok.injEq] at hs
      subst hs
      refine ⟨DurableQueue.dq_published_next hci _ _ _ (DurableQueue.dq_pub_old hci (by rw [hpc]; rfl) _ rfl), Or.inr ⟨.step, ?_⟩⟩
      rw [DurableQueue.dq_proj_next]
      simp [GState.step, hthr, QThread.toG, hpc, DurableQueue.Pc.toG, GState.setThr,
        DurableQueue.proj]
    | deqLoadTail =>
      simp only [DurableQueue.step, hpc] at hs
      simp only [Except.ok.injEq] at hs
      subst hs
      refine ⟨DurableQueue.dq_published_next hci _ _ _ (DurableQueue.dq_pub_old hci (by rw [hpc]; rfl) _ rfl), Or.inr ⟨.step, ?_⟩⟩
      rw [DurableQueue.dq_proj_next]
      simp [GState.step, hthr, QThread.toG, hpc, DurableQueue.Pc.toG, GState.setThr,
        DurableQueue.proj]
    | deqLoadNext =>
      simp only [DurableQueue.step, hpc, DurableQueue.load] at hs
      cases hm : s.queue.mem[(s.threads t).first]? with
      | none =>
        simp only [hm] at hs
        cases hs
      | some n =>
        simp only [hm] at hs
        simp only [Except.ok.injEq] at hs
        subst hs
        refine ⟨DurableQueue.dq_published_next hci _ _ _ (DurableQueue.dq_pub_old hci (by rw [hpc]; rfl) _ rfl), Or.inr ⟨.step, ?_⟩⟩
        rw [DurableQueue.dq_proj_next]
        simp [GState.step, hthr, QThread.toG, hpc, DurableQueue.Pc.toG, GState.setThr,
          DurableQueue.proj, hm]
    | deqCheck =>
      simp only [DurableQueue.step, hpc] at hs
      split at hs
      · rename_i h1
        split at hs
        · rename_i h3
          have h4 : s.queue.head = (s.threads t).last := h1 ▸ h3
          split at hs
          · rename_i h2
            simp only [Except.ok.injEq] at hs
            subst hs
            refine ⟨DurableQueue.dq_published_next hci _ _ _ (DurableQueue.dq_pub_old hci (by rw [hpc]; rfl) _ rfl), Or.inr ⟨.step, ?_⟩⟩
            rw [DurableQueue.dq_proj_next]
            simp [GState.step, hthr, QThread.toG, hpc, DurableQueue.Pc.toG, GState.setThr,
              DurableQueue.proj, h1, h2, h4]
          · rename_i x h2
            simp only [Except.ok.injEq] at hs
            subst hs
            refine ⟨DurableQueue.dq_published_next hci _ _ _ (DurableQueue.dq_pub_old hci (by rw [hpc]; rfl) _ rfl), Or.inr ⟨.step, ?_⟩⟩
            rw [DurableQueue.dq_proj_next]
            simp [GState.step, hthr, QThread.toG, hpc, DurableQueue.Pc.toG, GState.setThr,
              DurableQueue.proj, h1, h2, h4]
        · rename_i h3
          have h4 : ¬ s.queue.head = (s.threads t).last := h1 ▸ h3
          simp only [Except.ok.injEq] at hs
          subst hs
          refine ⟨DurableQueue.dq_published_next hci _ _ _ (DurableQueue.dq_pub_old hci (by rw [hpc]; rfl) _ rfl), Or.inr ⟨.step, ?_⟩⟩
          rw [DurableQueue.dq_proj_next]
          simp [GState.step, hthr, QThread.toG, hpc, DurableQueue.Pc.toG, GState.setThr,
            DurableQueue.proj, h1, h4]
      · rename_i h1
        simp only [Except.ok.injEq] at hs
        subst hs
        refine ⟨DurableQueue.dq_published_next hci _ _ _ (DurableQueue.dq_pub_old hci (by rw [hpc]; rfl) _ rfl), Or.inr ⟨.step, ?_⟩⟩
        rw [DurableQueue.dq_proj_next]
        simp [GState.step, hthr, QThread.toG, hpc, DurableQueue.Pc.toG, GState.setThr,
          DurableQueue.proj, h1]
    | deqStoreEmpty =>
      simp only [DurableQueue.step, hpc] at hs
      cases hq : s.queue.storeRemoved (s.threads t).threadID INT_MIN with
      | error e =>
        simp only [hq] at hs
        cases hs
      | ok q1 =>
        simp only [hq, Except.ok.injEq] at hs
        subst hs
        obtain ⟨hm, hh, ht⟩ := DurableQueue.dq_storeRemoved_frame hq
        refine ⟨DurableQueue.dq_published_next hci _ _ _ (DurableQueue.dq_pub_old hci (by rw [hpc]; rfl) _ rfl), Or.inl ?_⟩
        refine DurableQueue.dq_proj_stutter s t _ _ hm hh ht ?_
        simp [QThread.toG, hpc, DurableQueue.Pc.toG]
    | deqReturnEmpty =>
      simp only [DurableQueue.step, hpc] at hs
      simp only [Except.ok.injEq] at hs
      subst hs
      refine ⟨DurableQueue.dq_published_emit hci _ _ _ (DurableQueue.dq_pub_not _ rfl), Or.inr ⟨.step, ?_⟩⟩
      rw [DurableQueue.dq_proj_emit]
      simp [GState.step, hthr, QThread.toG, hpc, DurableQueue.Pc.toG, GState.setThr,
        DurableQueue.proj]
    | deqHelp =>
      simp only [DurableQueue.step, hpc, DurableQueue.casTail] at hs
      cases h2 : (s.threads t).next with
      | none =>
        simp only [h2] at hs
        cases hs
      | some x =>
        simp only [h2, Except.ok.injEq] at hs
        subst hs
        refine ⟨DurableQueue.dq_published_next hci _ _ _ (DurableQueue.dq_pub_old hci (by rw [hpc]; rfl) _ rfl), Or.inr ⟨.step, ?_⟩⟩
        rw [DurableQueue.dq_proj_next]
        by_cases h1 : s.queue.tail = (s.threads t).last <;>
          simp [GState.step, hthr, QThread.toG, hpc, DurableQueue.Pc.toG, GState.setThr,
            DurableQueue.proj, h1, h2]
    | deqLoadValue =>
      simp only [DurableQueue.step, hpc, DurableQueue.load] at hs
      cases h2 : (s.threads t).next with
      | none =>
        simp only [h2] at hs
        cases hs
      | some x =>
        simp only [h2] at hs
        cases hm : s.queue.mem[x]? with
        | none =>
          simp only [hm] at hs
          cases hs
        | some n =>
          simp only [hm] at hs
          simp only [Except.ok.injEq] at hs
          subst hs
          refine ⟨DurableQueue.dq_published_next hci _ _ _ (DurableQueue.dq_pub_old hci (by rw [hpc]; rfl) _ rfl), Or.inr ⟨.step, ?_⟩⟩
          rw [DurableQueue.dq_proj_next]
          simp [GState.step, hthr, QThread.toG, hpc, DurableQueue.Pc.toG, GState.setThr,
            DurableQueue.proj, h2, hm, GState.valAt]
    | deqCasThreadID =>
      simp only [DurableQueue.step, hpc, DurableQueue.casThreadID] at hs
      have htid : (s.threads t).threadID ≠ -1 := hci t (by rw [hpc]; rfl)
      cases h2 : (s.threads t).next with
      | none =>
        simp only [h2] at hs
        cases hs
      | some x =>
        simp only [h2] at hs
        cases hm : s.queue.mem[x]? with
        | none =>
          simp only [hm] at hs
          cases hs
        | some n =>
          simp only [hm] at hs
          by_cases h1 : n.threadID = -1
          · simp only [h1, if_true] at hs
            simp only [Except.ok.injEq] at hs
            subst hs
            refine ⟨DurableQueue.dq_published_next hci _ _ _ (DurableQueue.dq_pub_old hci (by rw [hpc]; rfl) _ rfl), Or.inr ⟨.step, ?_⟩⟩
            rw [DurableQueue.dq_proj_next]
            simp [GState.step, hthr, QThread.toG, hpc, DurableQueue.Pc.toG, GState.setThr,
              DurableQueue.proj, h2, hm, h1, htid, List.map_set]
          · simp only [h1, if_false] at hs
            simp only [Except.ok.injEq] at hs
            subst hs
            refine ⟨DurableQueue.dq_published_next hci _ _ _ (DurableQueue.dq_pub_old hci (by rw [hpc]; rfl) _ rfl), Or.inr ⟨.step, ?_⟩⟩
            rw [DurableQueue.dq_proj_next]
            simp [GState.step, hthr, QThread.toG, hpc, DurableQueue.Pc.toG, GState.setThr,
              DurableQueue.proj, h2, hm, h1]
    | deqStoreValue =>
      simp only [DurableQueue.step, hpc] at hs
      cases hq : s.queue.storeRemoved (s.threads t).threadID (s.threads t).value with
      | error e =>
        simp only [hq] at hs
        cases hs
      | ok q1 =>
        simp only [hq, Except.ok.injEq] at hs
        subst hs
        obtain ⟨hm, hh, ht⟩ := DurableQueue.dq_storeRemoved_frame hq
        refine ⟨DurableQueue.dq_published_next hci _ _ _ (DurableQueue.dq_pub_old hci (by rw [hpc]; rfl) _ rfl), Or.inl ?_⟩
        refine DurableQueue.dq_proj_stutter s t _ _ hm hh ht ?_
        simp [QThread.toG, hpc, DurableQueue.Pc.toG]
    | deqCasHead =>
      simp only [DurableQueue.step, hpc, DurableQueue.casHead] at hs
      cases h2 : (s.threads t).next with
      | none =>
        simp only [h2] at hs
        cases hs
      | some x =>
        simp only [h2, Except.ok.injEq] at hs
        subst hs
        refine ⟨DurableQueue.dq_published_next hci _ _ _ (DurableQueue.dq_pub_old hci (by rw [hpc]; rfl) _ rfl), Or.inr ⟨.step, ?_⟩⟩
        rw [DurableQueue.dq_proj_next]
        by_cases h1 : s.queue.head = (s.threads t).first <;>
          simp [GState.step, hthr, QThread.toG, hpc, DurableQueue.Pc.toG, GState.setThr,
            DurableQueue.proj, h1, h2]
    | deqReturnValue =>
      simp only [DurableQueue.step, hpc] at hs
      simp only [Except.ok.injEq] at hs
      subst hs
      refine ⟨DurableQueue.dq_published_emit hci _ _ _ (DurableQueue.dq_pub_not _ rfl), Or.inr ⟨.step, ?_⟩⟩
      rw [DurableQueue.dq_proj_emit]
      simp [GState.step, hthr, QThread.toG, hpc, DurableQueue.Pc.toG, GState.setThr,
        DurableQueue.proj]
    | deqLoadAddress =>
      simp only [DurableQueue.step, hpc, DurableQueue.load] at hs
      cases h2 : (s.threads t).next with
      | none =>
        simp only [h2] at hs
        cases hs
      | some x =>
        simp only [h2] at hs
        cases hm : s.queue.mem[x]? with
        | none =>
          simp only [hm] at hs
          cases hs
        | some n =>
          simp only [hm] at hs
          cases hq : s.queue.removedPtr n.threadID with
          | error e =>
            simp only [hq] at hs
            cases hs
          | ok address =>
            simp only [hq, Except.ok.injEq] at hs
            subst hs
            refine ⟨DurableQueue.dq_published_next hci _ _ _ (DurableQueue.dq_pub_old hci (by rw [hpc]; rfl) _ rfl), Or.inl ?_⟩
            refine DurableQueue.dq_proj_stutter s t _ _ rfl rfl rfl ?_
            simp [QThread.toG, hpc, DurableQueue.Pc.toG, h2]
    | deqCheckSame =>
      simp only [DurableQueue.step, hpc] at hs
      split at hs
      · rename_i h1
        simp only [Except.ok.injEq] at hs
        subst hs
        refine ⟨DurableQueue.dq_published_next hci _ _ _ (DurableQueue.dq_pub_old hci (by rw [hpc]; rfl) _ rfl), Or.inr ⟨.step, ?_⟩⟩
        rw [DurableQueue.dq_proj_next]
        simp [GState.step, hthr, QThread.toG, hpc, DurableQueue.Pc.toG, GState.setThr,
          DurableQueue.proj, h1]
      · rename_i h1
        simp only [Except.ok.injEq] at hs
        subst hs
        refine ⟨DurableQueue.dq_published_next hci _ _ _ (DurableQueue.dq_pub_old hci (by rw [hpc]; rfl) _ rfl), Or.inr ⟨.step, ?_⟩⟩
        rw [DurableQueue.dq_proj_next]
        simp [GState.step, hthr, QThread.toG, hpc, DurableQueue.Pc.toG, GState.setThr,
          DurableQueue.proj, h1]
    | deqStoreHelp =>
      simp only [DurableQueue.step, hpc] at hs
      cases hq : s.queue.storeAt (s.threads t).address (s.threads t).value with
      | error e =>
        simp only [hq] at hs
        cases hs
      | ok q1 =>
        simp only [hq, Except.ok.injEq] at hs
        subst hs
        obtain ⟨hm, hh, ht⟩ := DurableQueue.dq_storeAt_frame hq
        refine ⟨DurableQueue.dq_published_next hci _ _ _ (DurableQueue.dq_pub_old hci (by rw [hpc]; rfl) _ rfl), Or.inl ?_⟩
        refine DurableQueue.dq_proj_stutter s t _ _ hm hh ht ?_
        simp [QThread.toG, hpc, DurableQueue.Pc.toG]
    | deqHelpHead =>
      simp only [DurableQueue.step, hpc, DurableQueue.casHead] at hs
      cases h2 : (s.threads t).next with
      | none =>
        simp only [h2] at hs
        cases hs
      | some x =>
        simp only [h2, Except.ok.injEq] at hs
        subst hs
        refine ⟨DurableQueue.dq_published_next hci _ _ _ (DurableQueue.dq_pub_old hci (by rw [hpc]; rfl) _ rfl), Or.inr ⟨.step, ?_⟩⟩
        rw [DurableQueue.dq_proj_next]
        by_cases h1 : s.queue.head = (s.threads t).first <;>
          simp [GState.step, hthr, QThread.toG, hpc, DurableQueue.Pc.toG, GState.setThr,
            DurableQueue.proj, h1, h2]

theorem LogQueue.lq_valueAt_congr {q q1 : LogQueue} (h : q1.mem = q.mem) (p : Option Nat) :
    q1.valueAt p = q.valueAt p := by
  simp only [LogQueue.valueAt, h]

theorem LogQueue.lq_threadG_congr {q q1 : LogQueue} (h : q1.mem = q.mem)
    (th : QThread LogQueue.Pc) : LogQueue.threadG q1 th = LogQueue.threadG q th := by
  simp only [LogQueue.threadG, LogQueue.lq_valueAt_congr h]

theorem LogQueue.lq_threadG_push {q q1 : LogQueue} {n : LogQueue.NodeWithLog}
    (h : q1.mem = q.mem ++ [n]) (th : QThread LogQueue.Pc)
    (hth : th.pc.claimed = true → ∃ x, th.next = some x ∧ x < q.mem.length) :
    LogQueue.threadG q1 th = LogQueue.threadG q th := by
  simp only [LogQueue.threadG]
  cases hc : th.pc.claimed with
  | false => rfl
  | true =>
    obtain ⟨x, hx, hlt⟩ := hth hc
    simp only [LogQueue.valueAt, hx, h, heap_push_old _ _ _ hlt]

theorem LogQueue.lq_threadG_set {q : LogQueue} {p : Nat} {n : LogQueue.NodeWithLog}
    (hm : q.mem[p]? = some n) (n1 : LogQueue.NodeWithLog) (hv : n1.value = n.value)
    (th : QThread LogQueue.Pc) :
    LogQueue.threadG { q with mem := q.mem.set p n1 } th = LogQueue.threadG q th := by
  have : ∀ x, LogQueue.valueAt { q with mem := q.mem.set p n1 } x = q.valueAt x := by
    intro x
    cases x with
    | none => rfl
    | some x =>
      simp only [LogQueue.valueAt]
      by_cases hx : x = p
      · subst hx
        rw [heap_set_self _ _ _ (heap_lt hm), hm]
        simp [hv]
      · rw [heap_set_other _ _ _ _ hx]
  simp only [LogQueue.threadG, this]

theorem LogQueue.lq_threadG_next {q : LogQueue} {p : Nat} {n : LogQueue.NodeWithLog}
    (hm : q.mem[p]? = some n) (x : Option Nat) (th : QThread LogQueue.Pc) :
    LogQueue.threadG { q with mem := q.mem.set p { n with next := x } } th
      = LogQueue.threadG q th :=
  LogQueue.lq_threadG_set hm { n with next := x } rfl th

theorem LogQueue.lq_threadG_logDeq {q : LogQueue} {p : Nat} {n : LogQueue.NodeWithLog}
    (hm : q.mem[p]? = some n) (x : Option Nat) (th : QThread LogQueue.Pc) :
    LogQueue.threadG { q with mem := q.mem.set p { n with logDeq := x } } th
      = LogQueue.threadG q th :=
  LogQueue.lq_threadG_set hm { n with logDeq := x } rfl th

theorem LogQueue.lq_casTail_mem (q : LogQueue) (a b : Nat) : (q.casTail a b).2.mem = q.mem := by
  unfold LogQueue.casTail
  split <;> rfl

theorem LogQueue.lq_casHead_mem (q : LogQueue) (a b : Nat) : (q.casHead a b).2.mem = q.mem := by
  unfold LogQueue.casHead
  split <;> rfl

theorem LogQueue.lq_proj_next (s : QSystem LogQueue LogQueue.Pc) (t : Nat)
    (q : LogQueue) (th : QThread LogQueue.Pc)
    (hst : ∀ t1, t1 ≠ t →
      LogQueue.threadG q (s.threads t1) = LogQueue.threadG s.queue (s.threads t1)) :
    LogQueue.proj (s.next t q th)
      = ⟨q.mem.map fun n => ⟨n.value, n.next, n.logDeq.isSome⟩, q.head, q.tail,
          Function.update (LogQueue.proj s).thr t (LogQueue.threadG q th), s.hist⟩ := by
  apply GState.lin_ext <;> try rfl
  intro t1
  by_cases h : t1 = t
  · subst h
    simp [LogQueue.proj, QSystem.next]
  · simp only [LogQueue.proj, QSystem.next, Function.update_noteq h]
    exact hst t1 h

theorem LogQueue.lq_proj_emit (s : QSystem LogQueue LogQueue.Pc) (t : Nat)
    (e : Event) (th : QThread LogQueue.Pc) :
    LogQueue.proj (s.emit t e th)
      = ⟨(LogQueue.proj s).mem, (LogQueue.proj s).head, (LogQueue.proj s).tail,
          Function.update (LogQueue.proj s).thr t (LogQueue.threadG s.queue th),
          s.hist ++ [e]⟩ := by
  apply GState.lin_ext <;> try rfl
  intro t1
  by_cases h : t1 = t
  · subst h
    simp [LogQueue.proj, QSystem.emit]
  · simp [LogQueue.proj, QSystem.emit, Function.update_noteq h]

/-- A step on `logs` or on a log entry leaves the state of the scheme as it is. -/
theorem LogQueue.lq_proj_stutter (s : QSystem LogQueue LogQueue.Pc) (t : Nat)
    (q : LogQueue) (th : QThread LogQueue.Pc) (hm : q.mem = s.queue.mem)
    (hh : q.head = s.queue.head) (ht : q.tail = s.queue.tail)
    (hth : LogQueue.threadG s.queue th = LogQueue.threadG s.queue (s.threads t)) :
    LogQueue.proj (s.next t q th) = LogQueue.proj s := by
  rw [LogQueue.lq_proj_next s t q th (fun t1 _ => LogQueue.lq_threadG_congr hm _), hm, hh, ht,
    LogQueue.lq_threadG_congr hm, hth]
  apply GState.lin_ext <;> try rfl
  intro t1
  by_cases h : t1 = t
  · subst h
    simp [LogQueue.proj]
  · simp [LogQueue.proj, Function.update_noteq h]

theorem LogQueue.lq_claimed_next {s : QSystem LogQueue LogQueue.Pc}
    (h : LogQueue.Claimed s) (t : Nat) (q : LogQueue) (th : QThread LogQueue.Pc)
    (hlen : s.queue.mem.length ≤ q.mem.length)
    (hth : th.pc.claimed = true → ∃ x, th.next = some x ∧ x < q.mem.length) :
    LogQueue.Claimed (s.next t q th) := by
  intro t1
  by_cases ht : t1 = t
  · subst ht
    simp only [QSystem.next, Function.update_same]
    exact hth
  · simp only [QSystem.next, Function.update_noteq ht]
    intro hp
    obtain ⟨x, hx, hlt⟩ := h t1 hp
    exact ⟨x, hx, lt_of_lt_of_le hlt hlen⟩

theorem LogQueue.lq_claimed_emit {s : QSystem LogQueue LogQueue.Pc}
    (h : LogQueue.Claimed s) (t : Nat) (e : Event) (th : QThread LogQueue.Pc)
    (hth : th.pc.claimed = false) : LogQueue.Claimed (s.emit t e th) := by
  intro t1
  by_cases ht : t1 = t
  · subst ht
    simp only [QSystem.emit, Function.update_same]
    intro hp
    rw [hth] at hp
    cases hp
  · simp only [QSystem.emit, Function.update_noteq ht]
    exact h t1

theorem LogQueue.lq_cl_not {q : LogQueue} (th : QThread LogQueue.Pc)
    (h : th.pc.claimed = false) :
    th.pc.claimed = true → ∃ x, th.next = some x ∧ x < q.mem.length := by
  intro hp
  rw [h] at hp
  cases hp

theorem LogQueue.lq_cl_old {s : QSystem LogQueue LogQueue.Pc} {t : Nat} {q : LogQueue}
    (h : LogQueue.Claimed s) (hold : (s.threads t).pc.claimed = true)
    (th : QThread LogQueue.Pc) (hn : th.next = (s.threads t).next)
    (hlen : s.queue.mem.length ≤ q.mem.length) :
    th.pc.claimed = true → ∃ x, th.next = some x ∧ x < q.mem.length := by
  intro _
  obtain ⟨x, hx, hlt⟩ := h t hold
  exact ⟨x, hn ▸ hx, lt_of_lt_of_le hlt hlen⟩

theorem LogQueue.lq_setNode_frame {q q1 : LogQueue} {p n : Option Nat}
    (h : q.setNode p n = .ok q1) :
    q1.mem = q.mem ∧ q1.head = q.head ∧ q1.tail = q.tail := by
  unfold LogQueue.setNode at h
  cases p with
  | none => cases h
  | some e =>
    simp only at h
    split at h
    · simp only [Except.ok.injEq] at h
      subst h
      exact ⟨rfl, rfl, rfl⟩
    · cases h

theorem LogQueue.lq_setStatus_frame {q q1 : LogQueue} {p : Option Nat} {b : Bool}
    (h : q.setStatus p b = .ok q1) :
    q1.mem = q.mem ∧ q1.head = q.head ∧ q1.tail = q.tail := by
  unfold LogQueue.setStatus at h
  cases p with
  | none => cases h
  | some e =>
    simp only at h
    split at h
    · simp only [Except.ok.injEq] at h
      subst h
      exact ⟨rfl, rfl, rfl⟩
    · cases h

theorem LogQueue.lq_setLog_frame {q q1 : LogQueue} {threadID : Int} {log : Option Nat}
    (h : q.setLog threadID log = .ok q1) :
    q1.mem = q.mem ∧ q1.head = q.head ∧ q1.tail = q.tail := by
  unfold LogQueue.setLog at h
  split at h
  · cases h
  · split at h
    · simp only [Except.ok.injEq] at h
      subst h
      exact ⟨rfl, rfl, rfl⟩
    · cases h

theorem LogQueue.lq_createDeqLog_frame {q q1 : LogQueue} {threadID operationNumber : Int}
    {log : Nat} (h : q.createDeqLog threadID operationNumber = .ok (log, q1)) :
    q1.mem = q.mem ∧ q1.head = q.head ∧ q1.tail = q.tail := by
  unfold LogQueue.createDeqLog at h
  simp only at h
  split at h
  · cases h
  · rename_i q2 hq
    simp only [Except.ok.injEq, Prod.mk.injEq] at h
    obtain ⟨_, h⟩ := h
    subst h
    simpa using LogQueue.lq_setLog_frame hq

theorem LogQueue.lq_createEnq_frame {q q1 : LogQueue} {v threadID operationNumber : Int}
    {node : Nat} (h : q.createEnqLogAndNode v threadID operationNumber = .ok (node, q1)) :
    node = q.mem.length ∧ q1.mem = q.mem ++ [⟨v, none, some q.entries.length, none⟩] ∧
      q1.head = q.head ∧ q1.tail = q.tail := by
  unfold LogQueue.createEnqLogAndNode at h
  simp only at h
  split at h
  · cases h
  · rename_i q2 hq
    simp only [Except.ok.injEq, Prod.mk.injEq] at h
    obtain ⟨h1, h⟩ := h
    subst h
    obtain ⟨hm, hh, ht⟩ := LogQueue.lq_setLog_frame hq
    simp only at hm hh ht
    exact ⟨h1.symm, hm, hh, ht⟩

/-- Every step of the detectable queue is a step of the scheme in which a node
is taken by a claim and the value is read afterwards, or leaves the state of the
scheme as it is. -/
theorem LogQueue.lq_sim (s : QSystem LogQueue LogQueue.Pc) (t : Nat) (a : Act)
    (s1 : QSystem LogQueue LogQueue.Pc) (hci : LogQueue.Claimed s)
    (hs : LogQueue.step s t a = .ok s1) :
    LogQueue.Claimed s1 ∧ (LogQueue.proj s1 = LogQueue.proj s ∨
      ∃ b, (LogQueue.proj s).step true true t b = some (LogQueue.proj s1)) := by
  have hthr : (LogQueue.proj s).thr t = LogQueue.threadG s.queue (s.threads t) := rfl
  have hsame : ∀ t1, t1 ≠ t → LogQueue.threadG s.queue (s.threads t1)
      = LogQueue.threadG s.queue (s.threads t1) := fun _ _ => rfl
  cases a with
  | call c =>
    simp only [LogQueue.step] at hs
    split at hs
    · rename_i hpc
      cases c with
      | enq v tid op =>
        simp only [Except.ok.injEq] at hs
        subst hs
        refine ⟨LogQueue.lq_claimed_emit hci _ _ _ rfl, Or.inr ⟨.call (.enq v), ?_⟩⟩
        rw [LogQueue.lq_proj_emit]
        simp [GState.step, hthr, LogQueue.threadG, hpc, LogQueue.Pc.toG, LogQueue.Pc.claimed,
          GState.setThr, LogQueue.proj]
      | deq tid op =>
        simp only [Except.ok.injEq] at hs
        subst hs
        refine ⟨LogQueue.lq_claimed_emit hci _ _ _ rfl, Or.inr ⟨.call .deq, ?_⟩⟩
        rw [LogQueue.lq_proj_emit]
        simp [GState.step, hthr, LogQueue.threadG, hpc, LogQueue.Pc.toG, LogQueue.Pc.claimed,
          GState.setThr, LogQueue.proj]
    · simp only [Except.ok.injEq] at hs
      subst hs
      exact ⟨hci, Or.inl rfl⟩
  | step =>
    cases hpc : (s.threads t).pc with
    | idle =>
      simp only [LogQueue.step, hpc, Except.ok.injEq] at hs
      subst hs
      exact ⟨hci, Or.inl rfl⟩
    | enqCreate =>
      simp only [LogQueue.step, hpc] at hs
      cases hq : s.queue.createEnqLogAndNode (s.threads t).arg (s.threads t).threadID
          (s.threads t).operationNumber with
      | error e =>
        simp only [hq] at hs
        cases hs
      | ok r =>
        obtain ⟨node, q1⟩ := r
        simp only [hq, Except.ok.injEq] at hs
        subst hs
        obtain ⟨hn, hm1, hh, ht⟩ := LogQueue.lq_createEnq_frame hq
        refine ⟨LogQueue.lq_claimed_next hci _ _ _ (by rw [hm1]; simp) (LogQueue.lq_cl_not _ rfl),
          Or.inr ⟨.step, ?_⟩⟩
        rw [LogQueue.lq_proj_next _ _ _ _
          (fun t1 _ => LogQueue.lq_threadG_push hm1 _ (hci t1)), hm1, hh, ht, hn]
        simp [GState.step, hthr, LogQueue.threadG, hpc, LogQueue.Pc.toG, LogQueue.Pc.claimed,
          GState.setThr, LogQueue.proj]
    | enqLoadTail =>
      simp only [LogQueue.step, hpc] at hs
      simp only [Except.ok.injEq] at hs
      subst hs
      refine ⟨LogQueue.lq_claimed_next hci _ _ _ (le_refl _) (LogQueue.lq_cl_not _ rfl),
        Or.inr ⟨.step, ?_⟩⟩
      rw [LogQueue.lq_proj_next _ _ _ _ hsame]
      simp [GState.step, hthr, LogQueue.threadG, hpc, LogQueue.Pc.toG, LogQueue.Pc.claimed,
        GState.setThr, LogQueue.proj]
    | enqLoadNext =>
      simp only [LogQueue.step, hpc, LogQueue.load] at hs
      cases hm : s.queue.mem[(s.threads t).last]? with
      | none =>
        simp only [hm] at hs
        cases hs
      | some n =>
        simp only [hm] at hs
        simp only [Except.ok.injEq] at hs
        subst hs
        refine ⟨LogQueue.lq_claimed_next hci _ _ _ (le_refl _) (LogQueue.lq_cl_not _ rfl),
          Or.inr ⟨.step, ?_⟩⟩
        rw [LogQueue.lq_proj_next _ _ _ _ hsame]
        simp [GState.step, hthr, LogQueue.threadG, hpc, LogQueue.Pc.toG, LogQueue.Pc.claimed,
          GState.setThr, LogQueue.proj, hm]
    | enqCheck =>
      simp only [LogQueue.step, hpc] at hs
      split at hs
      · rename_i h1
        split at hs
        · rename_i h2
          simp only [Except.ok.injEq] at hs
          subst hs
          refine ⟨LogQueue.lq_claimed_next hci _ _ _ (le_refl _) (LogQueue.lq_cl_not _ rfl),
            Or.inr ⟨.step, ?_⟩⟩
          rw [LogQueue.lq_proj_next _ _ _ _ hsame]
          simp [GState.step, hthr, LogQueue.threadG, hpc, LogQueue.Pc.toG, LogQueue.Pc.claimed,
            GState.setThr, LogQueue.proj, h1, h2]
        · rename_i x h2
          simp only [Except.ok.injEq] at hs
          subst hs
          refine ⟨LogQueue.lq_claimed_next hci _ _ _ (le_refl _) (LogQueue.lq_cl_not _ rfl),
            Or.inr ⟨.step, ?_⟩⟩
          rw [LogQueue.lq_proj_next _ _ _ _ hsame]
          simp [GState.step, hthr, LogQueue.threadG, hpc, LogQueue.Pc.toG, LogQueue.Pc.claimed,
            GState.setThr, LogQueue.proj, h1, h2]
      · rename_i h1
        simp only [Except.ok.injEq] at hs
        subst hs
        refine ⟨LogQueue.lq_claimed_next hci _ _ _ (le_refl _) (LogQueue.lq_cl_not _ rfl),
          Or.inr ⟨.step, ?_⟩⟩
        rw [LogQueue.lq_proj_next _ _ _ _ hsame]
        simp [GState.step, hthr, LogQueue.threadG, hpc, LogQueue.Pc.toG, LogQueue.Pc.claimed,
          GState.setThr, LogQueue.proj, h1]
    | enqCasNext =>
      simp only [LogQueue.step, hpc, LogQueue.casNext] at hs
      cases hm : s.queue.mem[(s.threads t).last]? with
      | none =>
        simp only [hm] at hs
        cases hs
      | some n =>
        simp only [hm] at hs
        by_cases h1 : n.next = (s.threads t).next
        · simp only [h1, if_true, Except.ok.injEq] at hs
          subst hs
          refine ⟨LogQueue.lq_claimed_next hci _ _ _ (by simp) (LogQueue.lq_cl_not _ rfl),
            Or.inr ⟨.step, ?_⟩⟩
          rw [LogQueue.lq_proj_next _ _ _ _
            (fun t1 _ => LogQueue.lq_threadG_next hm _ _)]
          simp [GState.step, hthr, LogQueue.threadG, hpc, LogQueue.Pc.toG, LogQueue.Pc.claimed,
            GState.setThr, LogQueue.proj, hm, h1, List.map_set]
        · simp only [h1, if_false] at hs
          simp only [Except.ok.injEq] at hs
          subst hs
          refine ⟨LogQueue.lq_claimed_next hci _ _ _ (le_refl _) (LogQueue.lq_cl_not _ rfl),
            Or.inr ⟨.step, ?_⟩⟩
          rw [LogQueue.lq_proj_next _ _ _ _ hsame]
          simp [GState.step, hthr, LogQueue.threadG, hpc, LogQueue.Pc.toG, LogQueue.Pc.claimed,
            GState.setThr, LogQueue.proj, hm, h1]
    | enqCasTail =>
      simp only [LogQueue.step, hpc, Except.ok.injEq] at hs
      subst hs
      refine ⟨LogQueue.lq_claimed_next hci _ _ _
        (le_of_eq (by rw [LogQueue.lq_casTail_mem])) (LogQueue.lq_cl_not _ rfl), Or.inr ⟨.step, ?_⟩⟩
      rw [LogQueue.lq_proj_next _ _ _ _
        (fun t1 _ => LogQueue.lq_threadG_congr (LogQueue.lq_casTail_mem _ _ _) _)]
      by_cases h1 : s.queue.tail = (s.threads t).last <;>
        simp [GState.step, hthr, LogQueue.threadG, hpc, LogQueue.Pc.toG, LogQueue.Pc.claimed,
          GState.setThr, LogQueue.proj, LogQueue.casTail, LogQueue.valueAt, h1]
    | enqHelp =>
      simp only [LogQueue.step, hpc] at hs
      cases h2 : (s.threads t).next with
      | none =>
        simp only [h2] at hs
        cases hs
      | some x =>
        simp only [h2, Except.ok.injEq] at hs
        subst hs
        refine ⟨LogQueue.lq_claimed_next hci _ _ _
          (le_of_eq (by rw [LogQueue.lq_casTail_mem])) (LogQueue.lq_cl_not _ rfl), Or.inr ⟨.step, ?_⟩⟩
        rw [LogQueue.lq_proj_next _ _ _ _
          (fun t1 _ => LogQueue.lq_threadG_congr (LogQueue.lq_casTail_mem _ _ _) _)]
        by_cases h1 : s.queue.tail = (s.threads t).last <;>
          simp [GState.step, hthr, LogQueue.threadG, hpc, LogQueue.Pc.toG, LogQueue.Pc.claimed,
            GState.setThr, LogQueue.proj, LogQueue.casTail, LogQueue.valueAt, h1, h2]
    | enqReturn =>
      simp only [LogQueue.step, hpc] at hs
      simp only [Except.ok.injEq] at hs
      subst hs
      refine ⟨LogQueue.lq_claimed_emit hci _ _ _ rfl, Or.inr ⟨.step, ?_⟩⟩
      rw [LogQueue.lq_proj_emit]
      simp [GState.step, hthr, LogQueue.threadG, hpc, LogQueue.Pc.toG, LogQueue.Pc.claimed,
        GState.setThr, LogQueue.proj]
    | deqCreate =>
      simp only [LogQueue.step, hpc] at hs
      cases hq : s.queue.createDeqLog (s.threads t).threadID (s.threads t).operationNumber with
      | error e =>
        simp only [hq] at hs
        cases hs
      | ok r =>
        obtain ⟨log, q1⟩ := r
        simp only [hq, Except.ok.injEq] at hs
        subst hs
        obtain ⟨hm1, hh, ht⟩ := LogQueue.lq_createDeqLog_frame hq
        refine ⟨LogQueue.lq_claimed_next hci _ _ _ (le_of_eq (by rw [hm1])) (LogQueue.lq_cl_not _ rfl),
          Or.inl ?_⟩
        refine LogQueue.lq_proj_stutter s t _ _ hm1 hh ht ?_
        simp [LogQueue.threadG, hpc, LogQueue.Pc.toG, LogQueue.Pc.claimed]
    | deqLoadHead =>
      simp only [LogQueue.step, hpc] at hs
      simp only [Except.ok.injEq] at hs
      subst hs
      refine ⟨LogQueue.lq_claimed_next hci _ _ _ (le_refl _) (LogQueue.lq_cl_not _ rfl),
        Or.inr ⟨.step, ?_⟩⟩
      rw [LogQueue.lq_proj_next _ _ _ _ hsame]
      simp [GState.step, hthr, LogQueue.threadG, hpc, LogQueue.Pc.toG, LogQueue.Pc.claimed,
        GState.setThr, LogQueue.proj]
    | deqLoadTail =>
      simp only [LogQueue.step, hpc] at hs
      simp only [Except.ok.injEq] at hs
      subst hs
      refine ⟨LogQueue.lq_claimed_next hci _ _ _ (le_refl _) (LogQueue.lq_cl_not _ rfl),
        Or.inr ⟨.step, ?_⟩⟩
      rw [LogQueue.lq_proj_next _ _ _ _ hsame]
      simp [GState.step, hthr, LogQueue.threadG, hpc, LogQueue.Pc.toG, LogQueue.Pc.claimed,
        GState.setThr, LogQueue.proj]
    | deqLoadNext =>
      simp only [LogQueue.step, hpc, LogQueue.load] at hs
      cases hm : s.queue.mem[(s.threads t).first]? with
      | none =>
        simp only [hm] at hs
        cases hs
      | some n =>
        simp only [hm] at hs
        simp only [Except.ok.injEq] at hs
        subst hs
        refine ⟨LogQueue.lq_claimed_next hci _ _ _ (le_refl _) (LogQueue.lq_cl_not _ rfl),
          Or.inr ⟨.step, ?_⟩⟩
        rw [LogQueue.lq_proj_next _ _ _ _ hsame]
        simp [GState.step, hthr, LogQueue.threadG, hpc, LogQueue.Pc.toG, LogQueue.Pc.claimed,
          GState.setThr, LogQueue.proj, hm]
    | deqCheck =>
      simp only [LogQueue.step, hpc] at hs
      split at hs
      · rename_i h1
        split at hs
        · rename_i h3
          have h4 : s.queue.head = (s.threads t).last := h1 ▸ h3
          split at hs
          · rename_i h2
            simp only [Except.ok.injEq] at hs
            subst hs
            refine ⟨LogQueue.lq_claimed_next hci _ _ _ (le_refl _) (LogQueue.lq_cl_not _ rfl),
              Or.inr ⟨.step, ?_⟩⟩
            rw [LogQueue.lq_proj_next _ _ _ _ hsame]
            simp [GState.step, hthr, LogQueue.threadG, hpc, LogQueue.Pc.toG, LogQueue.Pc.claimed,
              GState.setThr, LogQueue.proj, h1, h2, h4]
          · rename_i x h2
            simp only [Except.ok.injEq] at hs
            subst hs
            refine ⟨LogQueue.lq_claimed_next hci _ _ _ (le_refl _) (LogQueue.lq_cl_not _ rfl),
              Or.inr ⟨.step, ?_⟩⟩
            rw [LogQueue.lq_proj_next _ _ _ _ hsame]
            simp [GState.step, hthr, LogQueue.threadG, hpc, LogQueue.Pc.toG, LogQueue.Pc.claimed,
              GState.setThr, LogQueue.proj, h1, h2, h4]
        · rename_i h3
          have h4 : ¬ s.queue.head = (s.threads t).last := h1 ▸ h3
          simp only [Except.ok.injEq] at hs
          subst hs
          refine ⟨LogQueue.lq_claimed_next hci _ _ _ (le_refl _) (LogQueue.lq_cl_not _ rfl),
            Or.inr ⟨.step, ?_⟩⟩
          rw [LogQueue.lq_proj_next _ _ _ _ hsame]
          simp [GState.step, hthr, LogQueue.threadG, hpc, LogQueue.Pc.toG, LogQueue.Pc.claimed,
            GState.setThr, LogQueue.proj, h1, h4]
      · rename_i h1
        simp only [Except.ok.injEq] at hs
        subst hs
        refine ⟨LogQueue.lq_claimed_next hci _ _ _ (le_refl _) (LogQueue.lq_cl_not _ rfl),
          Or.inr ⟨.step, ?_⟩⟩
        rw [LogQueue.lq_proj_next _ _ _ _ hsame]
        simp [GState.step, hthr, LogQueue.threadG, hpc, LogQueue.Pc.toG, LogQueue.Pc.claimed,
          GState.setThr, LogQueue.proj, h1]
    | deqSetStatus =>
      simp only [LogQueue.step, hpc] at hs
      cases hp : s.queue.logPtr (s.threads t).threadID with
      | error e =>
        simp only [hp] at hs
        cases hs
      | ok p =>
        simp only [hp] at hs
        cases hq : s.queue.setStatus p true with
        | error e =>
          simp only [hq] at hs
          cases hs
        | ok q1 =>
          simp only [hq, Except.ok.injEq] at hs
          subst hs
          obtain ⟨hm1, hh, ht⟩ := LogQueue.lq_setStatus_frame hq
          refine ⟨LogQueue.lq_claimed_next hci _ _ _ (le_of_eq (by rw [hm1])) (LogQueue.lq_cl_not _ rfl),
            Or.inl ?_⟩
          refine LogQueue.lq_proj_stutter s t _ _ hm1 hh ht ?_
          simp [LogQueue.threadG, hpc, LogQueue.Pc.toG, LogQueue.Pc.claimed]
    | deqReturnEmpty =>
      simp only [LogQueue.step, hpc] at hs
      simp only [Except.ok.injEq] at hs
      subst hs
      refine ⟨LogQueue.lq_claimed_emit hci _ _ _ rfl, Or.inr ⟨.step, ?_⟩⟩
      rw [LogQueue.lq_proj_emit]
      simp [GState.step, hthr, LogQueue.threadG, hpc, LogQueue.Pc.toG, LogQueue.Pc.claimed,
        GState.setThr, LogQueue.proj]
    | deqHelp =>
      simp only [LogQueue.step, hpc] at hs
      cases h2 : (s.threads t).next with
      | none =>
        simp only [h2] at hs
        cases hs
      | some x =>
        simp only [h2, Except.ok.injEq] at hs
        subst hs
        refine ⟨LogQueue.lq_claimed_next hci _ _ _
          (le_of_eq (by rw [LogQueue.lq_casTail_mem])) (LogQueue.lq_cl_not _ rfl), Or.inr ⟨.step, ?_⟩⟩
        rw [LogQueue.lq_proj_next _ _ _ _
          (fun t1 _ => LogQueue.lq_threadG_congr (LogQueue.lq_casTail_mem _ _ _) _)]
        by_cases h1 : s.queue.tail = (s.threads t).last <;>
          simp [GState.step, hthr, LogQueue.threadG, hpc, LogQueue.Pc.toG, LogQueue.Pc.claimed,
            GState.setThr, LogQueue.proj, LogQueue.casTail, LogQueue.valueAt, h1, h2]
    | deqCasLogDeq =>
      simp only [LogQueue.step, hpc, LogQueue.casLogDeq] at hs
      cases h2 : (s.threads t).next with
      | none =>
        simp only [h2] at hs
        cases hs
      | some x =>
        simp only [h2] at hs
        cases hm : s.queue.mem[x]? with
        | none =>
          simp only [hm] at hs
          cases hs
        | some n =>
          simp only [hm] at hs
          by_cases h1 : n.logDeq = none
          · simp only [h1, if_true, Except.ok.injEq] at hs
            subst hs
            refine ⟨LogQueue.lq_claimed_next hci _ _ _ (by simp)
              (fun _ => ⟨x, rfl, by simpa using heap_lt hm⟩), Or.inr ⟨.step, ?_⟩⟩
            rw [LogQueue.lq_proj_next _ _ _ _
              (fun t1 _ => LogQueue.lq_threadG_logDeq hm _ _)]
            simp [GState.step, hthr, LogQueue.threadG, hpc, LogQueue.Pc.toG, LogQueue.Pc.claimed,
              GState.setThr, LogQueue.proj, h2, hm, h1, List.map_set, LogQueue.valueAt,
              heap_set_self _ _ _ (heap_lt hm)]
          · simp only [h1, if_false] at hs
            simp only [Except.ok.injEq] at hs
            subst hs
            refine ⟨LogQueue.lq_claimed_next hci _ _ _ (le_refl _) (LogQueue.lq_cl_not _ rfl),
              Or.inr ⟨.step, ?_⟩⟩
            rw [LogQueue.lq_proj_next _ _ _ _ hsame]
            simp [GState.step, hthr, LogQueue.threadG, hpc, LogQueue.Pc.toG, LogQueue.Pc.claimed,
              GState.setThr, LogQueue.proj, h2, hm, h1]
    | deqSetNode =>
      simp only [LogQueue.step, hpc, LogQueue.load] at hs
      cases h2 : (s.threads t).next with
      | none =>
        simp only [h2] at hs
        cases hs
      | some x =>
        simp only [h2] at hs
        cases hm : s.queue.mem[x]? with
        | none =>
          simp only [hm] at hs
          cases hs
        | some n =>
          simp only [hm] at hs
          cases hq : s.queue.setNode n.logDeq (some x) with
          | error e =>
            simp only [hq] at hs
            cases hs
          | ok q1 =>
            simp only [hq, Except.ok.injEq] at hs
            subst hs
            obtain ⟨hm1, hh, ht⟩ := LogQueue.lq_setNode_frame hq
            refine ⟨LogQueue.lq_claimed_next hci _ _ _ (le_of_eq (by rw [hm1]))
              (LogQueue.lq_cl_old hci (by rw [hpc]; rfl) _ h2.symm (le_of_eq (by rw [hm1]))), Or.inl ?_⟩
            refine LogQueue.lq_proj_stutter s t _ _ hm1 hh ht ?_
            simp [LogQueue.threadG, hpc, LogQueue.Pc.toG, LogQueue.Pc.claimed, h2]
    | deqCasHead =>
      simp only [LogQueue.step, hpc] at hs
      cases h2 : (s.threads t).next with
      | none =>
        simp only [h2] at hs
        cases hs
      | some x =>
        simp only [h2, Except.ok.injEq] at hs
        subst hs
        refine ⟨LogQueue.lq_claimed_next hci _ _ _
          (le_of_eq (by rw [LogQueue.lq_casHead_mem])) (LogQueue.lq_cl_old hci (by rw [hpc]; rfl) _ h2.symm
          (le_of_eq (by rw [LogQueue.lq_casHead_mem]))), Or.inr ⟨.step, ?_⟩⟩
        rw [LogQueue.lq_proj_next _ _ _ _
          (fun t1 _ => LogQueue.lq_threadG_congr (LogQueue.lq_casHead_mem _ _ _) _)]
        by_cases h1 : s.queue.head = (s.threads t).first <;>
          simp [GState.step, hthr, LogQueue.threadG, hpc, LogQueue.Pc.toG, LogQueue.Pc.claimed,
            GState.setThr, LogQueue.proj, LogQueue.casHead, LogQueue.valueAt, h1, h2]
    | deqReturnValue =>
      simp only [LogQueue.step, hpc, LogQueue.load] at hs
      cases h2 : (s.threads t).next with
      | none =>
        simp only [h2] at hs
        cases hs
      | some x =>
        simp only [h2] at hs
        cases hm : s.queue.mem[x]? with
        | none =>
          simp only [hm] at hs
          cases hs
        | some n =>
          simp only [hm] at hs
          simp only [Except.ok.injEq] at hs
          subst hs
          refine ⟨LogQueue.lq_claimed_emit hci _ _ _ rfl, Or.inr ⟨.step, ?_⟩⟩
          rw [LogQueue.lq_proj_emit]
          simp [GState.step, hthr, LogQueue.threadG, hpc, LogQueue.Pc.toG, LogQueue.Pc.claimed,
            GState.setThr, LogQueue.proj, h2, hm, LogQueue.valueAt]
    | deqCheckSame =>
      simp only [LogQueue.step, hpc] at hs
      split at hs
      · rename_i h1
        simp only [Except.ok.injEq] at hs
        subst hs
        refine ⟨LogQueue.lq_claimed_next hci _ _ _ (le_refl _) (LogQueue.lq_cl_not _ rfl),
          Or.inr ⟨.step, ?_⟩⟩
        rw [LogQueue.lq_proj_next _ _ _ _ hsame]
        simp [GState.step, hthr, LogQueue.threadG, hpc, LogQueue.Pc.toG, LogQueue.Pc.claimed,
          GState.setThr, LogQueue.proj, h1]
      · rename_i h1
        simp only [Except.ok.injEq] at hs
        subst hs
        refine ⟨LogQueue.lq_claimed_next hci _ _ _ (le_refl _) (LogQueue.lq_cl_not _ rfl),
          Or.inr ⟨.step, ?_⟩⟩
        rw [LogQueue.lq_proj_next _ _ _ _ hsame]
        simp [GState.step, hthr, LogQueue.threadG, hpc, LogQueue.Pc.toG, LogQueue.Pc.claimed,
          GState.setThr, LogQueue.proj, h1]
    | deqHelpSetNode =>
      simp only [LogQueue.step, hpc, LogQueue.load] at hs
      cases h2 : (s.threads t).next with
      | none =>
        simp only [h2] at hs
        cases hs
      | some x =>
        simp only [h2] at hs
        cases hm : s.queue.mem[x]? with
        | none =>
          simp only [hm] at hs
          cases hs
        | some n =>
          simp only [hm] at hs
          cases hq : s.queue.setNode n.logDeq (some x) with
          | error e =>
            simp only [hq] at hs
            cases hs
          | ok q1 =>
            simp only [hq, Except.ok.injEq] at hs
            subst hs
            obtain ⟨hm1, hh, ht⟩ := LogQueue.lq_setNode_frame hq
            refine ⟨LogQueue.lq_claimed_next hci _ _ _ (le_of_eq (by rw [hm1]))
              (LogQueue.lq_cl_not _ rfl), Or.inl ?_⟩
            refine LogQueue.lq_proj_stutter s t _ _ hm1 hh ht ?_
            simp [LogQueue.threadG, hpc, LogQueue.Pc.toG, LogQueue.Pc.claimed, h2]
    | deqHelpHead =>
      simp only [LogQueue.step, hpc] at hs
      cases h2 : (s.threads t).next with
      | none =>
        simp only [h2] at hs
        cases hs
      | some x =>
        simp only [h2, Except.ok.injEq] at hs
        subst hs
        refine ⟨LogQueue.lq_claimed_next hci _ _ _
          (le_of_eq (by rw [LogQueue.lq_casHead_mem])) (LogQueue.lq_cl_not _ rfl), Or.inr ⟨.step, ?_⟩⟩
        rw [LogQueue.lq_proj_next _ _ _ _
          (fun t1 _ => LogQueue.lq_threadG_congr (LogQueue.lq_casHead_mem _ _ _) _)]
        by_cases h1 : s.queue.head = (s.threads t).first <;>
          simp [GState.step, hthr, LogQueue.threadG, hpc, LogQueue.Pc.toG, LogQueue.Pc.claimed,
            GState.setThr, LogQueue.proj, LogQueue.casHead, LogQueue.valueAt, h1, h2]

theorem RelaxedQueue.rq_proj_next (s : QSystem RelaxedQueue RelaxedQueue.Pc) (t : Nat)
    (q : RelaxedQueue) (th : QThread RelaxedQueue.Pc) :
    RelaxedQueue.proj (s.next t q th)
      = ⟨q.mem.map fun n => ⟨n.value, n.next, false⟩, q.head, q.tail,
          Function.update (RelaxedQueue.proj s).thr t (th.toG RelaxedQueue.Pc.toG), s.hist⟩ := by
  apply GState.lin_ext <;> try rfl
  intro t1
  by_cases h : t1 = t
  · subst h
    simp [RelaxedQueue.proj, QSystem.next]
  · simp [RelaxedQueue.proj, QSystem.next, Function.update_noteq h]

theorem RelaxedQueue.rq_proj_emit (s : QSystem RelaxedQueue RelaxedQueue.Pc) (t : Nat)
    (e : Event) (th : QThread RelaxedQueue.Pc) :
    RelaxedQueue.proj (s.emit t e th)
      = ⟨(RelaxedQueue.proj s).mem, (RelaxedQueue.proj s).head, (RelaxedQueue.proj s).tail,
          Function.update (RelaxedQueue.proj s).thr t (th.toG RelaxedQueue.Pc.toG),
          s.hist ++ [e]⟩ := by
  apply GState.lin_ext <;> try rfl
  intro t1
  by_cases h : t1 = t
  · subst h
    simp [RelaxedQueue.proj, QSystem.emit]
  · simp [RelaxedQueue.proj, QSystem.emit, Function.update_noteq h]

theorem RelaxedQueue.rq_unmarked_next {s : QSystem RelaxedQueue RelaxedQueue.Pc}
    (h : RelaxedQueue.Unmarked s) (t : Nat) (q : RelaxedQueue)
    (th : QThread RelaxedQueue.Pc)
    (hmem : ∀ (a : Nat) (n : RelaxedQueue.Node), q.mem[a]? = some n → n.invalid = none)
    (hth : th.pc.marker = false) : RelaxedQueue.Unmarked (s.next t q th) := by
  refine ⟨hmem, ?_⟩
  intro t1
  by_cases ht : t1 = t
  · subst ht
    simp only [QSystem.next, Function.update_same]
    exact hth
  · simp only [QSystem.next, Function.update_noteq ht]
    exact h.2 t1

theorem RelaxedQueue.rq_unmarked_emit {s : QSystem RelaxedQueue RelaxedQueue.Pc}
    (h : RelaxedQueue.Unmarked s) (t : Nat) (e : Event) (th : QThread RelaxedQueue.Pc)
    (hth : th.pc.marker = false) : RelaxedQueue.Unmarked (s.emit t e th) := by
  refine ⟨h.1, ?_⟩
  intro t1
  by_cases ht : t1 = t
  · subst ht
    simp only [QSystem.emit, Function.update_same]
    exact hth
  · simp only [QSystem.emit, Function.update_noteq ht]
    exact h.2 t1

theorem RelaxedQueue.rq_unmarked_push {q : RelaxedQueue} (v : Int)
    (h : ∀ (a : Nat) (n : RelaxedQueue.Node), q.mem[a]? = some n → n.invalid = none) :
    ∀ (a : Nat) (n : RelaxedQueue.Node),
      (q.mem ++ [(⟨v, none, none⟩ : RelaxedQueue.Node)])[a]? = some n → n.invalid = none := by
  intro a n hn
  by_cases ha : a < q.mem.length
  · rw [heap_push_old _ _ _ ha] at hn
    exact h a n hn
  · by_cases ha1 : a = q.mem.length
    · subst ha1
      rw [heap_push_new] at hn
      injection hn with hn
      subst hn
      rfl
    · rw [List.getElem?_eq_none (by simp only [List.length_append, List.length_singleton]; omega)] at hn
      cases hn

theorem RelaxedQueue.rq_unmarked_set {q : RelaxedQueue} {p : Nat} {m : RelaxedQueue.Node}
    (hm : q.mem[p]? = some m) (x : Option Nat)
    (h : ∀ (a : Nat) (n : RelaxedQueue.Node), q.mem[a]? = some n → n.invalid = none) :
    ∀ (a : Nat) (n : RelaxedQueue.Node),
      (q.mem.set p { m with next := x })[a]? = some n → n.invalid = none := by
  intro a n hn
  by_cases ha : a = p
  · subst ha
    rw [heap_set_self _ _ _ (heap_lt hm)] at hn
    injection hn with hn
    subst hn
    exact h a m hm
  · rw [heap_set_other _ _ _ _ ha] at hn
    exact h a n hn

theorem RelaxedQueue.rq_casTail_mem (q : RelaxedQueue) (a b : Nat) :
    (q.casTail a b).2.mem = q.mem := by
  unfold RelaxedQueue.casTail
  split <;> rfl

/-- Every step of the buffered-relaxed queue on which no `sync` has run is a
step of the scheme in which a node is taken by the compare-and-swap on `head`. -/
theorem RelaxedQueue.rq_sim (s : QSystem RelaxedQueue RelaxedQueue.Pc) (t : Nat) (a : Act)
    (s1 : QSystem RelaxedQueue RelaxedQueue.Pc) (hci : RelaxedQueue.Unmarked s)
    (hs : RelaxedQueue.step s t a = .ok s1) :
    RelaxedQueue.Unmarked s1 ∧ (RelaxedQueue.proj s1 = RelaxedQueue.proj s ∨
      ∃ b, (RelaxedQueue.proj s).step false false t b = some (RelaxedQueue.proj s1)) := by
  have hthr : (RelaxedQueue.proj s).thr t = (s.threads t).toG RelaxedQueue.Pc.toG := rfl
  cases a with
  | call c =>
    simp only [RelaxedQueue.step] at hs
    split at hs
    · rename_i hpc
      cases hc : c.toMS with
      | enq v =>
        simp only [hc, Except.ok.injEq] at hs
        subst hs
        refine ⟨RelaxedQueue.rq_unmarked_emit hci _ _ _ rfl, Or.inr ⟨.call (.enq v), ?_⟩⟩
        rw [RelaxedQueue.rq_proj_emit]
        simp [GState.step, hthr, QThread.toG, hpc, RelaxedQueue.Pc.toG, GState.setThr,
          RelaxedQueue.proj]
      | deq =>
        simp only [hc, Except.ok.injEq] at hs
        subst hs
        refine ⟨RelaxedQueue.rq_unmarked_emit hci _ _ _ rfl, Or.inr ⟨.call .deq, ?_⟩⟩
        rw [RelaxedQueue.rq_proj_emit]
        simp [GState.step, hthr, QThread.toG, hpc, RelaxedQueue.Pc.toG, GState.setThr,
          RelaxedQueue.proj]
    · simp only [Except.ok.injEq] at hs
      subst hs
      exact ⟨hci, Or.inl rfl⟩
  | step =>
    cases hpc : (s.threads t).pc with
    | idle =>
      simp only [RelaxedQueue.step, hpc, Except.ok.injEq] at hs
      subst hs
      exact ⟨hci, Or.inl rfl⟩
    | enqNew =>
      simp only [RelaxedQueue.step, hpc] at hs
      simp only [Except.ok.injEq] at hs
      subst hs
      refine ⟨RelaxedQueue.rq_unmarked_next hci _ _ _ (RelaxedQueue.rq_unmarked_push _ hci.1) rfl,
        Or.inr ⟨.step, ?_⟩⟩
      rw [RelaxedQueue.rq_proj_next]
      simp [GState.step, hthr, QThread.toG, hpc, RelaxedQueue.Pc.toG, GState.setThr,
        RelaxedQueue.proj]
    | enqLoadTail =>
      simp only [RelaxedQueue.step, hpc] at hs
      simp only [Except.ok.injEq] at hs
      subst hs
      refine ⟨RelaxedQueue.rq_unmarked_next hci _ _ _ (hci.1) rfl,
        Or.inr ⟨.step, ?_⟩⟩
      rw [RelaxedQueue.rq_proj_next]
      simp [GState.step, hthr, QThread.toG, hpc, RelaxedQueue.Pc.toG, GState.setThr,
        RelaxedQueue.proj]
    | enqLoadNext =>
      simp only [RelaxedQueue.step, hpc, RelaxedQueue.load] at hs
      cases hm : s.queue.mem[(s.threads t).last]? with
      | none =>
        simp only [hm] at hs
        cases hs
      | some n =>
        simp only [hm] at hs
        simp only [Except.ok.injEq] at hs
        subst hs
        refine ⟨RelaxedQueue.rq_unmarked_next hci _ _ _ (hci.1) rfl,
          Or.inr ⟨.step, ?_⟩⟩
        rw [RelaxedQueue.rq_proj_next]
        simp [GState.step, hthr, QThread.toG, hpc, RelaxedQueue.Pc.toG, GState.setThr,
          RelaxedQueue.proj, hm]
    | enqCheck =>
      simp only [RelaxedQueue.step, hpc] at hs
      split at hs
      · rename_i h1
        split at hs
        · rename_i h2
          simp only [Except.ok.injEq] at hs
          subst hs
          refine ⟨RelaxedQueue.rq_unmarked_next hci _ _ _ (hci.1) rfl,
            Or.inr ⟨.step, ?_⟩⟩
          rw [RelaxedQueue.rq_proj_next]
          simp [GState.step, hthr, QThread.toG, hpc, RelaxedQueue.Pc.toG, GState.setThr,
            RelaxedQueue.proj, h1, h2]
        · rename_i x h2
          simp only [RelaxedQueue.isInvalid] at hs
          cases hx : s.queue.mem[x]? with
          | none =>
            simp only [hx] at hs
            cases hs
          | some nx =>
            simp only [hx, hci.1 x nx hx, Option.isSome_none] at hs
            simp only [Except.ok.injEq] at hs
            subst hs
            refine ⟨RelaxedQueue.rq_unmarked_next hci _ _ _ (hci.1) rfl,
              Or.inr ⟨.step, ?_⟩⟩
            rw [RelaxedQueue.rq_proj_next]
            simp [GState.step, hthr, QThread.toG, hpc, RelaxedQueue.Pc.toG, GState.setThr,
              RelaxedQueue.proj, h1, h2]
      · rename_i h1
        simp only [Except.ok.injEq] at hs
        subst hs
        refine ⟨RelaxedQueue.rq_unmarked_next hci _ _ _ (hci.1) rfl,
          Or.inr ⟨.step, ?_⟩⟩
        rw [RelaxedQueue.rq_proj_next]
        simp [GState.step, hthr, QThread.toG, hpc, RelaxedQueue.Pc.toG, GState.setThr,
          RelaxedQueue.proj, h1]
    | enqCasNext =>
      simp only [RelaxedQueue.step, hpc, RelaxedQueue.casNext] at hs
      cases hm : s.queue.mem[(s.threads t).last]? with
      | none =>
        simp only [hm] at hs
        cases hs
      | some n =>
        simp only [hm] at hs
        by_cases h1 : n.next = (s.threads t).next
        · simp only [h1, if_true] at hs
          simp only [Except.ok.injEq] at hs
          subst hs
          refine ⟨RelaxedQueue.rq_unmarked_next hci _ _ _ (RelaxedQueue.rq_unmarked_set hm _ hci.1) rfl,
            Or.inr ⟨.step, ?_⟩⟩
          rw [RelaxedQueue.rq_proj_next]
          simp [GState.step, hthr, QThread.toG, hpc, RelaxedQueue.Pc.toG, GState.setThr,
            RelaxedQueue.proj, hm, h1, List.map_set]
        · simp only [h1, if_false] at hs
          simp only [Except.ok.injEq] at hs
          subst hs
          refine ⟨RelaxedQueue.rq_unmarked_next hci _ _ _ (hci.1) rfl,
            Or.inr ⟨.step, ?_⟩⟩
          rw [RelaxedQueue.rq_proj_next]
          simp [GState.step, hthr, QThread.toG, hpc, RelaxedQueue.Pc.toG, GState.setThr,
            RelaxedQueue.proj, hm, h1]
    | enqCasTail =>
      simp only [RelaxedQueue.step, hpc, Except.ok.injEq] at hs
      subst hs
      refine ⟨RelaxedQueue.rq_unmarked_next hci _ _ _
        (by rw [RelaxedQueue.rq_casTail_mem]; exact hci.1) rfl, Or.inr ⟨.step, ?_⟩⟩
      rw [RelaxedQueue.rq_proj_next]
      by_cases h1 : s.queue.tail = (s.threads t).last <;>
        simp [GState.step, hthr, QThread.toG, hpc, RelaxedQueue.Pc.toG, GState.setThr,
          RelaxedQueue.proj, RelaxedQueue.casTail, h1]
    | enqMarker =>
      have := hci.2 t
      rw [hpc] at this
      cases this
    | enqHelp =>
      simp only [RelaxedQueue.step, hpc] at hs
      cases h2 : (s.threads t).next with
      | none =>
        simp only [h2] at hs
        cases hs
      | some x =>
        simp only [h2, Except.ok.injEq] at hs
        subst hs
        refine ⟨RelaxedQueue.rq_unmarked_next hci _ _ _
          (by rw [RelaxedQueue.rq_casTail_mem]; exact hci.1) rfl, Or.inr ⟨.step, ?_⟩⟩
        rw [RelaxedQueue.rq_proj_next]
        by_cases h1 : s.queue.tail = (s.threads t).last <;>
          simp [GState.step, hthr, QThread.toG, hpc, RelaxedQueue.Pc.toG, GState.setThr,
            RelaxedQueue.proj, RelaxedQueue.casTail, h1, h2]
    | enqReturn =>
      simp only [RelaxedQueue.step, hpc] at hs
      simp only [Except.ok.injEq] at hs
      subst hs
      refine ⟨RelaxedQueue.rq_unmarked_emit hci _ _ _ rfl, Or.inr ⟨.step, ?_⟩⟩
      rw [RelaxedQueue.rq_proj_emit]
      simp [GState.step, hthr, QThread.toG, hpc, RelaxedQueue.Pc.toG, GState.setThr,
        RelaxedQueue.proj]
    | deqLoadHead =>
      simp only [RelaxedQueue.step, hpc] at hs
      simp only [Except.ok.injEq] at hs
      subst hs
      refine ⟨RelaxedQueue.rq_unmarked_next hci _ _ _ (hci.1) rfl,
        Or.inr ⟨.step, ?_⟩⟩
      rw [RelaxedQueue.rq_proj_next]
      simp [GState.step, hthr, QThread.toG, hpc, RelaxedQueue.Pc.toG, GState.setThr,
        RelaxedQueue.proj]
    | deqLoadTail =>
      simp only [RelaxedQueue.step, hpc] at hs
      simp only [Except.ok.injEq] at hs
      subst hs
      refine ⟨RelaxedQueue.rq_unmarked_next hci _ _ _ (hci.1) rfl,
        Or.inr ⟨.step, ?_⟩⟩
      rw [RelaxedQueue.rq_proj_next]
      simp [GState.step, hthr, QThread.toG, hpc, RelaxedQueue.Pc.toG, GState.setThr,
        RelaxedQueue.proj]
    | deqLoadNext =>
      simp only [RelaxedQueue.step, hpc, RelaxedQueue.load] at hs
      cases hm : s.queue.mem[(s.threads t).first]? with
      | none =>
        simp only [hm] at hs
        cases hs
      | some n =>
        simp only [hm] at hs
        simp only [Except.ok.injEq] at hs
        subst hs
        refine ⟨RelaxedQueue.rq_unmarked_next hci _ _ _ (hci.1) rfl,
          Or.inr ⟨.step, ?_⟩⟩
        rw [RelaxedQueue.rq_proj_next]
        simp [GState.step, hthr, QThread.toG, hpc, RelaxedQueue.Pc.toG, GState.setThr,
          RelaxedQueue.proj, hm]
    | deqCheck =>
      simp only [RelaxedQueue.step, hpc] at hs
      split at hs
      · rename_i h1
        split at hs
        · rename_i h3
          have h4 : s.queue.head = (s.threads t).last := h1 ▸ h3
          split at hs
          · rename_i h2
            simp only [Except.ok.injEq] at hs
            subst hs
            refine ⟨RelaxedQueue.rq_unmarked_next hci _ _ _ (hci.1) rfl,
              Or.inr ⟨.step, ?_⟩⟩
            rw [RelaxedQueue.rq_proj_next]
            simp [GState.step, hthr, QThread.toG, hpc, RelaxedQueue.Pc.toG, GState.setThr,
              RelaxedQueue.proj, h1, h2, h4]
          · rename_i x h2
            simp only [RelaxedQueue.isInvalid] at hs
            cases hx : s.queue.mem[x]? with
            | none =>
              simp only [hx] at hs
              cases hs
            | some nx =>
              simp only [hx, hci.1 x nx hx, Option.isSome_none] at hs
              simp only [Except.ok.injEq] at hs
              subst hs
              refine ⟨RelaxedQueue.rq_unmarked_next hci _ _ _ (hci.1) rfl,
                Or.inr ⟨.step, ?_⟩⟩
              rw [RelaxedQueue.rq_proj_next]
              simp [GState.step, hthr, QThread.toG, hpc, RelaxedQueue.Pc.toG, GState.setThr,
                RelaxedQueue.proj, h1, h2, h4]
        · rename_i h3
          have h4 : ¬ s.queue.head = (s.threads t).last := h1 ▸ h3
          simp only [Except.ok.injEq] at hs
          subst hs
          refine ⟨RelaxedQueue.rq_unmarked_next hci _ _ _ (hci.1) rfl,
            Or.inr ⟨.step, ?_⟩⟩
          rw [RelaxedQueue.rq_proj_next]
          simp [GState.step, hthr, QThread.toG, hpc, RelaxedQueue.Pc.toG, GState.setThr,
            RelaxedQueue.proj, h1, h4]
      · rename_i h1
        simp only [Except.ok.injEq] at hs
        subst hs
        refine ⟨RelaxedQueue.rq_unmarked_next hci _ _ _ (hci.1) rfl,
          Or.inr ⟨.step, ?_⟩⟩
        rw [RelaxedQueue.rq_proj_next]
        simp [GState.step, hthr, QThread.toG, hpc, RelaxedQueue.Pc.toG, GState.setThr,
          RelaxedQueue.proj, h1]
    | deqMarker =>
      have := hci.2 t
      rw [hpc] at this
      cases this
    | deqHelp =>
      simp only [RelaxedQueue.step, hpc] at hs
      cases h2 : (s.threads t).next with
      | none =>
        simp only [h2] at hs
        cases hs
      | some x =>
        simp only [h2, Except.ok.injEq] at hs
        subst hs
        refine ⟨RelaxedQueue.rq_unmarked_next hci _ _ _
          (by rw [RelaxedQueue.rq_casTail_mem]; exact hci.1) rfl, Or.inr ⟨.step, ?_⟩⟩
        rw [RelaxedQueue.rq_proj_next]
        by_cases h1 : s.queue.tail = (s.threads t).last <;>
          simp [GState.step, hthr, QThread.toG, hpc, RelaxedQueue.Pc.toG, GState.setThr,
            RelaxedQueue.proj, RelaxedQueue.casTail, h1, h2]
    | deqLoadValue =>
      simp only [RelaxedQueue.step, hpc, RelaxedQueue.loadPtr, RelaxedQueue.load] at hs
      cases h2 : (s.threads t).next with
      | none =>
        simp only [h2] at hs
        cases hs
      | some x =>
        simp only [h2] at hs
        cases hm : s.queue.mem[x]? with
        | none =>
          simp only [hm] at hs
          cases hs
        | some n =>
          simp only [hm] at hs
          simp only [Except.ok.injEq] at hs
          subst hs
          refine ⟨RelaxedQueue.rq_unmarked_next hci _ _ _ (hci.1) rfl,
            Or.inr ⟨.step, ?_⟩⟩
          rw [RelaxedQueue.rq_proj_next]
          simp [GState.step, hthr, QThread.toG, hpc, RelaxedQueue.Pc.toG, GState.setThr,
            RelaxedQueue.proj, h2, hm, GState.valAt]
    | deqCasHead =>
      simp only [RelaxedQueue.step, hpc, RelaxedQueue.casHead] at hs
      cases h2 : (s.threads t).next with
      | none =>
        simp only [h2] at hs
        cases hs
      | some x =>
        simp only [h2] at hs
        by_cases h1 : s.queue.head = (s.threads t).first
        · simp only [h1, if_true] at hs
          simp only [Except.ok.injEq] at hs
          subst hs
          refine ⟨RelaxedQueue.rq_unmarked_next hci _ _ _ (hci.1) rfl,
            Or.inr ⟨.step, ?_⟩⟩
          rw [RelaxedQueue.rq_proj_next]
          simp [GState.step, hthr, QThread.toG, hpc, RelaxedQueue.Pc.toG, GState.setThr,
            RelaxedQueue.proj, h1, h2]
        · simp only [h1, if_false] at hs
          simp only [Except.ok.injEq] at hs
          subst hs
          refine ⟨RelaxedQueue.rq_unmarked_next hci _ _ _ (hci.1) rfl,
            Or.inr ⟨.step, ?_⟩⟩
          rw [RelaxedQueue.rq_proj_next]
          simp [GState.step, hthr, QThread.toG, hpc, RelaxedQueue.Pc.toG, GState.setThr,
            RelaxedQueue.proj, h1, h2]
    | deqReturnEmpty =>
      simp only [RelaxedQueue.step, hpc] at hs
      simp only [Except.ok.injEq] at hs
      subst hs
      refine ⟨RelaxedQueue.rq_unmarked_emit hci _ _ _ rfl, Or.inr ⟨.step, ?_⟩⟩
      rw [RelaxedQueue.rq_proj_emit]
      simp [GState.step, hthr, QThread.toG, hpc, RelaxedQueue.Pc.toG, GState.setThr,
        RelaxedQueue.proj]
    | deqReturnValue =>
      simp only [RelaxedQueue.step, hpc] at hs
      simp only [Except.ok.injEq] at hs
      subst hs
      refine ⟨RelaxedQueue.rq_unmarked_emit hci _ _ _ rfl, Or.inr ⟨.step, ?_⟩⟩
      rw [RelaxedQueue.rq_proj_emit]
      simp [GState.step, hthr, QThread.toG, hpc, RelaxedQueue.Pc.toG, GState.setThr,
        RelaxedQueue.proj]

/-! ### Linearizability of the four variants -/

theorem MSQueue.ms_linearizable (schedule : List (Nat × Act)) (s : QSystem MSQueue MSQueue.Pc)
    (h : QSystem.run MSQueue.step schedule MSQueue.start = .ok s) : Linearizable s.hist := by
  have := QSystem.lin_of_sim MSQueue.step MSQueue.proj (fun _ => True) false false
    (fun s t a s1 _ hs => ⟨trivial, MSQueue.ms_sim s t a s1 hs⟩) schedule MSQueue.start s
    trivial (GReach.refl _) h
  exact GReach.linearizable (fun e => by cases e) this.2

theorem DurableQueue.dq_linearizable (schedule : List (Nat × Act))
    (s : QSystem DurableQueue DurableQueue.Pc)
    (h : QSystem.run DurableQueue.step schedule DurableQueue.start = .ok s) :
    Linearizable s.hist := by
  have := QSystem.lin_of_sim DurableQueue.step DurableQueue.proj DurableQueue.Published
    true false (fun s t a s1 hci hs => DurableQueue.dq_sim s t a s1 hci hs) schedule
    DurableQueue.start s (fun t hp => by cases hp) (GReach.refl _) h
  exact GReach.linearizable (fun e => by cases e) this.2

theorem LogQueue.lq_linearizable (schedule : List (Nat × Act))
    (s : QSystem LogQueue LogQueue.Pc)
    (h : QSystem.run LogQueue.step schedule LogQueue.start = .ok s) :
    Linearizable s.hist := by
  have := QSystem.lin_of_sim LogQueue.step LogQueue.proj LogQueue.Claimed
    true true (fun s t a s1 hci hs => LogQueue.lq_sim s t a s1 hci hs) schedule
    LogQueue.start s (fun t hp => by cases hp) (GReach.refl _) h
  exact GReach.linearizable (fun _ => rfl) this.2

theorem RelaxedQueue.rq_linearizable (schedule : List (Nat × Act))
    (s : QSystem RelaxedQueue RelaxedQueue.Pc)
    (h : QSystem.run RelaxedQueue.step schedule RelaxedQueue.start = .ok s) :
    Linearizable s.hist := by
  have hstart : RelaxedQueue.Unmarked RelaxedQueue.start := by
    refine ⟨?_, fun _ => rfl⟩
    intro a n hn
    cases a with
    | zero =>
      simp only [RelaxedQueue.start, RelaxedQueue.new, List.getElem?_cons_zero,
        Option.some.injEq] at hn
      subst hn
      rfl
    | succ a => simp [RelaxedQueue.start, RelaxedQueue.new] at hn
  have := QSystem.lin_of_sim RelaxedQueue.step RelaxedQueue.proj RelaxedQueue.Unmarked
    false false (fun s t a s1 hci hs => RelaxedQueue.rq_sim s t a s1 hci hs) schedule
    RelaxedQueue.start s hstart (GReach.refl _) h
  exact GReach.linearizable (fun e => by cases e) this.2

/-! ## Paths that end at a null pointer -/

theorem Linked.path_unique {nx : Nat → Option Nat} {a : Nat} {l1 l2 : List Nat}
    (h1 : Linked nx a l1) (h2 : Linked nx a l2) : l1 = l2 := by
  induction l1 generalizing a l2 with
  | nil =>
    cases l2 with
    | nil => rfl
    | cons b l2 =>
      have e1 : nx a = none := h1
      rw [h2.1] at e1
      cases e1
  | cons b l1 ih =>
    cases l2 with
    | nil =>
      have e2 : nx a = none := h2
      rw [h1.1] at e2
      cases e2
    | cons c l2 =>
      have e := h1.1
      rw [h2.1] at e
      injection e with e
      subst e
      rw [ih h1.2 h2.2]

theorem Linked.path_suffix {nx : Nat → Option Nat} {a : Nat} {l : List Nat}
    (h : Linked nx a l) : ∀ x ∈ l, ∃ l1, Linked nx x l1 ∧ l1.length < l.length := by
  induction l generalizing a with
  | nil =>
    intro x hx
    cases hx
  | cons b l ih =>
    intro x hx
    rcases List.mem_cons.1 hx with rfl | hx
    · exact ⟨l, h.2, by simp⟩
    · obtain ⟨l1, h1, h2⟩ := ih h.2 x hx
      exact ⟨l1, h1, by simp only [List.length_cons]; omega⟩

theorem Linked.path_nodup {nx : Nat → Option Nat} {a : Nat} {l : List Nat}
    (h : Linked nx a l) : (a :: l).Nodup := by
  induction l generalizing a with
  | nil => simp
  | cons b l ih =>
    refine List.nodup_cons.2 ⟨?_, ih h.2⟩
    intro ha
    obtain ⟨l1, h1, h2⟩ := h.path_suffix a ha
    have := Linked.path_unique h h1
    rw [← this] at h2
    exact lt_irrefl _ h2

/-! ## Versions of the snapshots of the Buffered-Relaxed queue -/

namespace RelaxedQueue

theorem rv_refl (q : RelaxedQueue) : q.SameVersions q (fun _ => False) :=
  ⟨rfl, rfl, rfl, fun _ _ e => Or.inl e⟩

theorem rv_casNext {q q1 : RelaxedQueue} {p e d : Option Nat} {b : Bool}
    (h : q.casNext p e d = .ok (b, q1)) : q.SameVersions q1 (fun _ => False) := by
  cases p with
  | none => simp [casNext] at h
  | some a =>
    simp only [casNext] at h
    cases hm : q.mem[a]? with
    | none => simp [hm] at h
    | some n =>
      simp only [hm] at h
      split at h
      · simp only [Except.ok.injEq, Prod.mk.injEq] at h
        obtain ⟨-, rfl⟩ := h
        refine ⟨rfl, rfl, rfl, ?_⟩
        intro x c hx
        left
        simp only [markerCounter] at hx ⊢
        by_cases hxa : x = a
        · subst hxa
          rw [heap_set_self _ _ _ (heap_lt hm)] at hx
          rw [hm]
          exact hx
        · rw [heap_set_other _ _ _ _ hxa] at hx
          exact hx
      · simp only [Except.ok.injEq, Prod.mk.injEq] at h
        obtain ⟨-, rfl⟩ := h
        exact rv_refl q

theorem rv_casInvalidHead {q q1 : RelaxedQueue} {i : Nat} {e d : Option Nat} {b : Bool}
    (h : q.casInvalidHead i e d = .ok (b, q1)) : q.SameVersions q1 (fun _ => False) := by
  simp only [casInvalidHead] at h
  cases hm : q.mem[i]? with
  | none => simp [hm] at h
  | some n =>
    simp only [hm] at h
    cases hv : n.invalid with
    | none => simp [hv] at h
    | some iv =>
      simp only [hv] at h
      split at h
      · simp only [Except.ok.injEq, Prod.mk.injEq] at h
        obtain ⟨-, rfl⟩ := h
        refine ⟨rfl, rfl, rfl, ?_⟩
        intro x c hx
        left
        simp only [markerCounter] at hx ⊢
        by_cases hxa : x = i
        · subst hxa
          rw [heap_set_self _ _ _ (heap_lt hm)] at hx
          rw [hm]
          simpa [hv] using hx
        · rw [heap_set_other _ _ _ _ hxa] at hx
          exact hx
      · simp only [Except.ok.injEq, Prod.mk.injEq] at h
        obtain ⟨-, rfl⟩ := h
        exact rv_refl q

theorem rv_setInvalid {q q1 : RelaxedQueue} {i : Nat} {f : InvalidPart → InvalidPart}
    (h : q.setInvalid i f = .ok q1) :
    q.SameVersions q1 (fun c => ∃ iv, q.loadInvalid i = .ok iv ∧ c = (f iv).counter) := by
  simp only [setInvalid] at h
  cases hm : q.mem[i]? with
  | none => simp [hm] at h
  | some n =>
    simp only [hm] at h
    cases hv : n.invalid with
    | none => simp [hv] at h
    | some iv =>
      simp only [hv, Except.ok.injEq] at h
      subst h
      refine ⟨rfl, rfl, rfl, ?_⟩
      intro x c hx
      simp only [markerCounter] at hx ⊢
      by_cases hxa : x = i
      · subst hxa
        rw [heap_set_self _ _ _ (heap_lt hm)] at hx
        right
        refine ⟨iv, by simp [loadInvalid, hm, hv], ?_⟩
        simpa using hx.symm
      · rw [heap_set_other _ _ _ _ hxa] at hx
        exact Or.inl hx

theorem rv_setInvalid_keep {q q1 : RelaxedQueue} {i : Nat} {f : InvalidPart → InvalidPart}
    (h : q.setInvalid i f = .ok q1) (hf : ∀ iv, (f iv).counter = iv.counter) :
    q.SameVersions q1 (fun _ => False) := by
  obtain ⟨h1, h2, h3, h4⟩ := rv_setInvalid h
  refine ⟨h1, h2, h3, ?_⟩
  intro a c e
  rcases h4 a c e with e1 | ⟨iv, e1, e2⟩
  · exact Or.inl e1
  · left
    simp only [setInvalid] at h
    simp only [loadInvalid] at e1
    cases hm : q.mem[i]? with
    | none => simp [hm] at h
    | some n =>
      simp only [hm] at h e1
      cases hv : n.invalid with
      | none => simp [hv] at h
      | some iv0 =>
        simp only [hv, Except.ok.injEq] at h e1
        subst h e1
        simp only [markerCounter] at e ⊢
        by_cases hxa : a = i
        · subst hxa
          rw [hm]
          simp [hv, e2, hf]
        · rw [heap_set_other _ _ _ _ hxa] at e
          exact e

theorem rv_casTail (q : RelaxedQueue) (a b : Nat) :
    q.SameVersions (q.casTail a b).2 (fun _ => False) := by
  simp only [casTail]
  split
  · exact ⟨rfl, rfl, rfl, fun _ _ e => Or.inl e⟩
  · exact rv_refl q

theorem rv_casHead (q : RelaxedQueue) (a b : Nat) :
    q.SameVersions (q.casHead a b).2 (fun _ => False) := by
  simp only [casHead]
  split
  · exact ⟨rfl, rfl, rfl, fun _ _ e => Or.inl e⟩
  · exact rv_refl q

theorem rv_push (q : RelaxedQueue) (n : Node) :
    q.SameVersions { q with mem := q.mem ++ [n] }
      (fun c => ∃ iv, n.invalid = some iv ∧ c = iv.counter) := by
  refine ⟨rfl, rfl, rfl, ?_⟩
  intro a c e
  simp only [markerCounter] at e ⊢
  by_cases ha : a < q.mem.length
  · rw [heap_push_old _ _ _ ha] at e
    exact Or.inl e
  · by_cases ha1 : a = q.mem.length
    · subst ha1
      rw [heap_push_new] at e
      right
      simp only [Option.some_bind, Option.map_eq_some'] at e
      obtain ⟨iv, e1, e2⟩ := e
      exact ⟨iv, e1, e2.symm⟩
    · rw [List.getElem?_eq_none (by simp only [List.length_append, List.length_singleton]; omega)]
        at e
      cases e

theorem rv_coop {q q1 : RelaxedQueue} {th th1 : RThread} {n : Nat} {hs : HelpStep}
    {r : Option HelpStep} (h : q.coop th n hs = .ok (q1, th1, r)) :
    q.SameVersions q1 (fun _ => False) ∧
      ∃ sh st, th1 = { th with seenHead := sh, seenTail := st } := by
  cases hs with
  | loadHead =>
    simp only [coop, Except.ok.injEq, Prod.mk.injEq] at h
    obtain ⟨rfl, rfl, -⟩ := h
    exact ⟨rv_refl q, _, _, rfl⟩
  | casHead =>
    simp only [coop] at h
    cases hc : q.casInvalidHead n none th.seenHead with
    | error e => simp [hc] at h
    | ok r1 =>
      obtain ⟨b, q2⟩ := r1
      simp only [hc, Except.ok.injEq, Prod.mk.injEq] at h
      obtain ⟨rfl, rfl, -⟩ := h
      exact ⟨rv_casInvalidHead hc, _, _, rfl⟩
  | loadTail =>
    simp only [coop] at h
    cases hc : q.loadInvalid n with
    | error e => simp [hc] at h
    | ok currI =>
      simp only [hc, Except.ok.injEq, Prod.mk.injEq] at h
      obtain ⟨rfl, rfl, -⟩ := h
      exact ⟨rv_refl q, _, _, rfl⟩
  | unblock =>
    simp only [coop] at h
    cases hc : q.casNext th.seenTail (some n) none with
    | error e => simp [hc] at h
    | ok r1 =>
      obtain ⟨b, q2⟩ := r1
      simp only [hc, Except.ok.injEq, Prod.mk.injEq] at h
      obtain ⟨rfl, rfl, -⟩ := h
      exact ⟨rv_casNext hc, _, _, rfl⟩

end RelaxedQueue

theorem TVer.same {q q1 : RelaxedQueue} {th : RThread} {extra : Int → Prop}
    (hq : q.SameVersions q1 extra) (h : TVer q th) : TVer q1 th := by
  obtain ⟨hc, hs, -, -⟩ := hq
  simp only [TVer] at h ⊢
  rw [hs, hc]
  exact h

theorem Versions.keep {s : RSystem} (h : Versions s) (t : Nat) {q1 : RelaxedQueue}
    (th1 : RThread) {extra : Int → Prop} (hq : s.queue.SameVersions q1 extra)
    (he : ∀ c, extra c → c < s.queue.counter ∨ c = 0) (ht : TVer s.queue th1) :
    Versions (s.next t q1 th1) := by
  have hq1 := hq
  obtain ⟨hc, hs, hd, hm⟩ := hq
  refine ⟨?_, ?_, ?_, ?_, ?_, ?_⟩
  · simp only [RSystem.next]
    rw [hc]
    exact h.pos
  · simp only [RSystem.next]
    rw [hc]
    exact h.top
  · simp only [RSystem.next]
    rw [hd, hs]
    exact h.data
  · simp only [RSystem.next]
    rw [hs, hc]
    exact h.snaps
  · simp only [RSystem.next]
    intro a c e
    rw [hc]
    rcases hm a c e with e1 | e1
    · exact h.markers a c e1
    · exact he c e1
  · intro u
    simp only [RSystem.next]
    by_cases hu : u = t
    · subst hu
      simp only [Function.update_same]
      exact ht.same hq1
    · simp only [Function.update_noteq hu]
      exact (h.threads u).same hq1

theorem Versions.start : Versions RSystem.start := by
  refine ⟨by decide, by decide, by decide, ?_, ?_, ?_⟩
  · intro i cd e
    have hi : i = 0 := by
      have := heap_lt e
      simp [RSystem.start, RelaxedQueue.new] at this
      exact this
    subst hi
    simp [RSystem.start, RelaxedQueue.new] at e
    subst e
    decide
  · intro a c e
    have ha : a = 0 := by
      simp only [RelaxedQueue.markerCounter] at e
      cases hm : RSystem.start.queue.mem[a]? with
      | none => simp [hm] at e
      | some n =>
        have := heap_lt hm
        simp [RSystem.start, RelaxedQueue.new] at this
        exact this
    subst ha
    simp [RelaxedQueue.markerCounter, RSystem.start, RelaxedQueue.new] at e
  · intro t
    simp [TVer, RSystem.start, RThread.init, RPc.inBlock, RPc.afterBlock]

theorem Versions.coop_step {s : RSystem} (h : Versions s) (t : Nat) {q1 : RelaxedQueue}
    {th1 : RThread} {n : Nat} {hs : HelpStep} {r : Option HelpStep} (pc1 : RPc)
    (hc : s.queue.coop (s.threads t) n hs = .ok (q1, th1, r))
    (ht : TVer s.queue { s.threads t with pc := pc1 }) :
    Versions (s.next t q1 { th1 with pc := pc1 }) := by
  obtain ⟨hq, sh, st, rfl⟩ := RelaxedQueue.rv_coop hc
  refine h.keep t _ hq (fun _ e => e.elim) ?_
  simpa [TVer] using ht

theorem Versions.next_step {s s1 : RSystem} {t : Nat} {a : RAct} (h : Versions s)
    (hs : s.step t a = .ok s1) (hw : s.wraps t a = false) : Versions s1 := by
  have ht := h.threads t
  cases a with
  | call op =>
    simp only [RSystem.step] at hs
    split at hs
    · rename_i hpc
      cases op <;>
      · simp only [Except.ok.injEq] at hs
        subst hs
        refine h.keep t _ (RelaxedQueue.rv_refl _) (fun _ e => e.elim) ?_
        simp [TVer, hpc, RPc.inBlock, RPc.afterBlock]
    · simp only [Except.ok.injEq] at hs
      subst hs
      exact h
  | step =>
    cases hpc : (s.threads t).pc with
    | idle =>
      simp only [RSystem.step, hpc, Except.ok.injEq] at hs
      subst hs
      exact h
    | enqNew =>
      simp only [RSystem.step, hpc, Except.ok.injEq] at hs
      subst hs
      refine h.keep t _ (RelaxedQueue.rv_push _ _) ?_ ?_
      · rintro c ⟨iv, e, -⟩
        cases e
      · simp [TVer, hpc, RPc.inBlock, RPc.afterBlock]
    | allocMarker =>
      simp only [RSystem.step, hpc, Except.ok.injEq] at hs
      subst hs
      refine h.keep t _ (RelaxedQueue.rv_push _ _) ?_ ?_
      · rintro c ⟨iv, e, rfl⟩
        simp only [Option.some.injEq] at e
        subst e
        exact Or.inr rfl
      · simp [TVer, hpc, RPc.inBlock, RPc.afterBlock]
    | blockLoadData =>
      simp only [RSystem.step, hpc, Except.ok.injEq] at hs
      subst hs
      refine h.keep t _ (RelaxedQueue.rv_refl _) (fun _ e => e.elim) ?_
      simp [TVer, hpc, RPc.inBlock, RPc.afterBlock]
      exact h.data
    | fetchAdd =>
      simp only [RSystem.step, hpc, Except.ok.injEq] at hs
      subst hs
      have hpos := h.pos
      have hlt : s.queue.counter < 2147483647 := by
        simp only [RSystem.wraps, hpc, true_and, decide_eq_false_iff_not, INT_MAX] at hw
        by_contra hc
        have hle := h.top
        simp only [INT_MAX] at hle
        omega
      have hwrap : wrapInt32 (s.queue.counter + 1) = s.queue.counter + 1 := by
        simp only [wrapInt32]
        omega
      simp [TVer, hpc, RPc.inBlock, RPc.afterBlock] at ht
      refine ⟨?_, ?_, h.data, ?_, ?_, ?_⟩
      · simp only [RSystem.next, hwrap]
        omega
      · simp only [RSystem.next, hwrap, INT_MAX]
        omega
      · intro i cd e
        have := h.snaps i cd e
        simp only [RSystem.next, hwrap]
        omega
      · intro a c e
        have := h.markers a c e
        simp only [RSystem.next, hwrap]
        omega
      · intro u
        simp only [RSystem.next, hwrap]
        by_cases hu : u = t
        · subst hu
          simp only [Function.update_same]
          simp [TVer, RPc.inBlock, RPc.afterBlock]
          refine ⟨ht, ?_, hpos⟩
          intro cd e
          exact h.snaps _ cd e
        · simp only [Function.update_noteq hu]
          have hu1 := h.threads u
          simp only [TVer] at hu1 ⊢
          refine ⟨hu1.1, ?_, ?_, ?_, hu1.2.2.2.2⟩
          · intro e
            have := hu1.2.1 e
            exact ⟨this.1, this.2.1, by omega⟩
          · intro e
            have := hu1.2.2.1 e
            omega
          · intro e
            have := hu1.2.2.2.1 e
            omega
    | setCounter =>
      simp only [RSystem.step, hpc] at hs
      split at hs
      · cases hs
      · rename_i q1 hq
        simp only [Except.ok.injEq] at hs
        subst hs
        simp [TVer, hpc, RPc.inBlock, RPc.afterBlock] at ht
        refine h.keep t _ (RelaxedQueue.rv_setInvalid hq) ?_ ?_
        · rintro c ⟨iv, -, rfl⟩
          simp only
          left
          exact ht.2.2.2
        · simp [TVer, hpc, RPc.inBlock, RPc.afterBlock]
          exact ht
    | copyStoreCounter =>
      simp only [RSystem.step, hpc] at hs
      split at hs
      · cases hs
      · rename_i q1 hq
        simp only [Except.ok.injEq] at hs
        subst hs
        simp [TVer, hpc, RPc.inBlock, RPc.afterBlock] at ht
        refine h.keep t _ (RelaxedQueue.rv_setInvalid hq) ?_ ?_
        · rintro c ⟨iv, -, rfl⟩
          simp only
          left
          exact ht.2.2
        · simp [TVer, hpc, RPc.inBlock, RPc.afterBlock]
          exact ⟨ht.1, ht.2.1⟩
    | copyLoadCounter =>
      simp only [RSystem.step, hpc] at hs
      split at hs
      · cases hs
      · rename_i n hn
        split at hs
        · cases hs
        · rename_i currI hq
          simp only [Except.ok.injEq] at hs
          subst hs
          simp [TVer, hpc, RPc.inBlock, RPc.afterBlock] at ht
          refine h.keep t _ (RelaxedQueue.rv_refl _) (fun _ e => e.elim) ?_
          simp [TVer, hpc, RPc.inBlock, RPc.afterBlock]
          refine ⟨ht.1, ht.2, ?_⟩
          have hm : s.queue.markerCounter n = some currI.counter := by
            simp only [RelaxedQueue.loadInvalid] at hq
            simp only [RelaxedQueue.markerCounter]
            cases hm : s.queue.mem[n]? with
            | none => simp [hm] at hq
            | some x =>
              simp only [hm] at hq
              cases hv : x.invalid with
              | none => simp [hv] at hq
              | some iv =>
                simp only [hv, Except.ok.injEq] at hq
                subst hq
                simp [hv]
          have := h.markers n _ hm
          omega
    | setTail =>
      simp only [RSystem.step, hpc] at hs
      split at hs
      · cases hs
      · rename_i q1 hq
        simp only [Except.ok.injEq] at hs
        subst hs
        simp [TVer, hpc, RPc.inBlock, RPc.afterBlock] at ht
        refine h.keep t _ (RelaxedQueue.rv_setInvalid_keep hq (fun _ => rfl))
          (fun _ e => e.elim) ?_
        simp [TVer, hpc, RPc.inBlock, RPc.afterBlock]
        exact ht
    | copyStoreTail =>
      simp only [RSystem.step, hpc] at hs
      split at hs
      · cases hs
      · rename_i q1 hq
        simp only [Except.ok.injEq] at hs
        subst hs
        simp [TVer, hpc, RPc.inBlock, RPc.afterBlock] at ht
        refine h.keep t _ (RelaxedQueue.rv_setInvalid_keep hq (fun _ => rfl))
          (fun _ e => e.elim) ?_
        simp [TVer, hpc, RPc.inBlock, RPc.afterBlock]
        exact ht
    | copyStoreHead =>
      simp only [RSystem.step, hpc] at hs
      split at hs
      · cases hs
      · rename_i q1 hq
        simp only [Except.ok.injEq] at hs
        subst hs
        simp [TVer, hpc, RPc.inBlock, RPc.afterBlock] at ht
        refine h.keep t _ (RelaxedQueue.rv_setInvalid_keep hq (fun _ => rfl))
          (fun _ e => e.elim) ?_
        simp [TVer, hpc, RPc.inBlock, RPc.afterBlock]
        omega
    | allocSnapshot =>
      simp only [RSystem.step, hpc] at hs
      split at hs
      · cases hs
      · rename_i iv hq
        simp only [Except.ok.injEq] at hs
        subst hs
        simp [TVer, hpc, RPc.inBlock, RPc.afterBlock] at ht
        have hm : s.queue.markerCounter (s.threads t).invalid = some iv.counter := by
          simp only [RelaxedQueue.loadInvalid] at hq
          simp only [RelaxedQueue.markerCounter]
          cases hm : s.queue.mem[(s.threads t).invalid]? with
          | none => simp [hm] at hq
          | some x =>
            simp only [hm] at hq
            cases hv : x.invalid with
            | none => simp [hv] at hq
            | some iv =>
              simp only [hv, Except.ok.injEq] at hq
              subst hq
              simp [hv]
        have hiv := h.markers _ _ hm
        refine ⟨h.pos, h.top, ?_, ?_, h.markers, ?_⟩
        · simp only [RSystem.next, List.length_append, List.length_singleton]
          have := h.data
          omega
        · intro i cd e
          simp only [RSystem.next] at e ⊢
          by_cases hi : i < s.queue.snaps.length
          · rw [heap_push_old _ _ _ hi] at e
            exact h.snaps i cd e
          · by_cases hi1 : i = s.queue.snaps.length
            · subst hi1
              rw [heap_push_new] at e
              simp only [Option.some.injEq] at e
              subst e
              simp only
              omega
            · rw [List.getElem?_eq_none
                (by simp only [List.length_append, List.length_singleton]; omega)] at e
              cases e
        · intro u
          have hmono : ∀ th, TVer s.queue th → TVer
              { s.queue with snaps := s.queue.snaps ++
                [RelaxedQueue.LastNVMData.mk iv.tail iv.head iv.counter] } th := by
            intro th hth
            simp only [TVer, List.length_append, List.length_singleton] at hth ⊢
            refine ⟨fun e => by have := hth.1 e; omega, ?_, hth.2.2.1, hth.2.2.2.1,
              fun e => by have := hth.2.2.2.2 e; omega⟩
            intro e
            have h1 := hth.2.1 e
            have h2 := hth.1 (Or.inr e)
            refine ⟨?_, h1.2⟩
            intro cd e1
            rw [heap_push_old _ _ _ h2] at e1
            exact h1.1 cd e1
          simp only [RSystem.next]
          by_cases hu : u = t
          · subst hu
            simp only [Function.update_same]
            simp [TVer, RPc.inBlock, RPc.afterBlock]
            exact ht
          · simp only [Function.update_noteq hu]
            exact hmono _ (h.threads u)
    | install =>
      simp only [RSystem.step, hpc] at hs
      simp [TVer, hpc, RPc.inBlock, RPc.afterBlock] at ht
      have hkeep : ∀ (d : Nat) (pc1 : RPc), d < s.queue.snaps.length →
          pc1.inBlock = false → pc1.afterBlock = false → pc1 ≠ .fetchAdd →
          Versions (s.next t { s.queue with data := d } { s.threads t with pc := pc1 }) := by
        intro d pc1 hd h1 h2 h3
        refine ⟨h.pos, h.top, hd, h.snaps, h.markers, ?_⟩
        intro u
        simp only [RSystem.next]
        by_cases hu : u = t
        · subst hu
          simp only [Function.update_same]
          simp [TVer, h1, h2, h3]
          refine ⟨fun e => ?_, fun e => ?_⟩ <;> subst e <;>
            simp [RPc.inBlock, RPc.afterBlock] at h1 h2
        · simp only [Function.update_noteq hu]
          exact h.threads u
      simp only [RelaxedQueue.casData] at hs
      split at hs
      · rename_i b q1 hq
        split at hq
        · simp only [Prod.mk.injEq] at hq
          obtain ⟨-, rfl⟩ := hq
          simp only [Except.ok.injEq] at hs
          subst hs
          exact hkeep _ _ ht.2 rfl rfl (by simp)
        · simp at hq
      · rename_i b q1 hq
        split at hq
        · simp at hq
        · simp only [Prod.mk.injEq] at hq
          obtain ⟨-, rfl⟩ := hq
          simp only [Except.ok.injEq] at hs
          subst hs
          exact hkeep _ _ h.data rfl rfl (by simp)
    | enqCoop hsx =>
      simp only [RSystem.step, hpc] at hs
      simp [TVer, hpc, RPc.inBlock, RPc.afterBlock] at ht
      split at hs
      · cases hs
      · split at hs
        · cases hs
        all_goals
          rename_i hc
          simp only [Except.ok.injEq] at hs
          subst hs
          refine h.coop_step t _ hc ?_
          simp [TVer, RPc.inBlock, RPc.afterBlock]
    | deqCoop hsx =>
      simp only [RSystem.step, hpc] at hs
      simp [TVer, hpc, RPc.inBlock, RPc.afterBlock] at ht
      split at hs
      · cases hs
      · split at hs
        · cases hs
        all_goals
          rename_i hc
          simp only [Except.ok.injEq] at hs
          subst hs
          refine h.coop_step t _ hc ?_
          simp [TVer, RPc.inBlock, RPc.afterBlock]
    | coop ride hsx =>
      simp only [RSystem.step, hpc] at hs
      simp [TVer, hpc, RPc.inBlock, RPc.afterBlock] at ht
      split at hs
      · cases hs
      · split at hs
        · cases hs
        · rename_i hc
          simp only [Except.ok.injEq] at hs
          subst hs
          refine h.coop_step t _ hc ?_
          simp [TVer, RPc.inBlock, RPc.afterBlock]
          exact ht
        · rename_i hc
          simp only [Except.ok.injEq] at hs
          subst hs
          refine h.coop_step t _ hc ?_
          cases ride <;> simp [TVer, RPc.inBlock, RPc.afterBlock] <;> exact ht
    | deqCasHead =>
      simp only [RSystem.step, hpc] at hs
      split at hs
      · cases hs
      · split at hs
        all_goals
          rename_i hq
          have hq1 := congrArg Prod.snd hq
          simp only at hq1
          subst hq1
          simp only [Except.ok.injEq] at hs
          subst hs
          refine h.keep t _ (RelaxedQueue.rv_casHead _ _ _) (fun _ e => e.elim) ?_
          simp [TVer, RPc.inBlock, RPc.afterBlock]
    | _ =>
      simp only [RSystem.step, hpc] at hs
      simp [TVer, hpc, RPc.inBlock, RPc.afterBlock] at ht
      repeat' first
        | (cases hs; done)
        | (simp only [Except.ok.injEq] at hs
           subst hs
           refine @Versions.keep _ h t _ _ (fun _ => False) ?_ (fun _ e => e.elim) ?_
           · first
              | exact RelaxedQueue.rv_refl _
              | exact RelaxedQueue.rv_casNext (by assumption)
              | exact RelaxedQueue.rv_casInvalidHead (by assumption)
              | exact RelaxedQueue.rv_casTail _ _ _
           · simp [TVer, RPc.inBlock, RPc.afterBlock]
             try first
              | exact ht
              | exact ⟨ht.1, ht.2.1⟩
              | omega
              | tauto)
        | split at hs

theorem Versions.run {schedule : List (Nat × RAct)} :
    ∀ {s s1 : RSystem}, Versions s → RSystem.run schedule s = .ok s1 →
      RSystem.noOverflow schedule s = true → Versions s1 := by
  induction schedule with
  | nil =>
    intro s s1 h hr _
    simp only [RSystem.run, Except.ok.injEq] at hr
    subst hr
    exact h
  | cons x rest ih =>
    intro s s1 h hr hn
    obtain ⟨t, a⟩ := x
    simp only [RSystem.run] at hr
    simp only [RSystem.noOverflow, Bool.and_eq_true, Bool.not_eq_true'] at hn
    cases hst : s.step t a with
    | error e => simp [hst] at hr
    | ok s2 =>
      simp only [hst] at hr hn
      exact ih (h.next_step hst hn.1) hr hn.2

/-- A step takes a thread to the `return` of `sync` only from the test of
`blockTheTail` that holds, or from the compare-and-swap on `data` that succeeds. -/
theorem RSystem.return_step {s s1 : RSystem} {t : Nat} (hs : s.step t .step = .ok s1)
    (h0 : (s.threads t).pc ≠ .syncReturn) (h1 : (s1.threads t).pc = .syncReturn) :
    ((s.threads t).pc = .check ∧ ∃ cd, s.queue.snaps[(s.threads t).blockData]? = some cd ∧
        cd.counter > (s.threads t).currentCounter) ∨
      ((s.threads t).pc = .install ∧ s.queue.data = (s.threads t).currData ∧
        s1.queue.data = (s.threads t).potential) := by
  cases hpc : (s.threads t).pc with
  | syncReturn => exact absurd hpc h0
  | check =>
    left
    simp only [RSystem.step, hpc] at hs
    split at hs
    · cases hs
    · rename_i cd hcd
      split at hs
      · rename_i hgt
        exact ⟨rfl, cd, hcd, hgt⟩
      · simp only [Except.ok.injEq] at hs
        subst hs
        simp [RSystem.next] at h1
  | install =>
    right
    simp only [RSystem.step, hpc, RelaxedQueue.casData] at hs
    split at hs
    · rename_i b q1 hq
      split at hq
      · rename_i hd
        simp only [Prod.mk.injEq] at hq
        obtain ⟨-, rfl⟩ := hq
        simp only [Except.ok.injEq] at hs
        subst hs
        exact ⟨rfl, hd, rfl⟩
      · simp at hq
    · simp only [Except.ok.injEq] at hs
      subst hs
      simp [RSystem.next] at h1
  | idle =>
    simp only [RSystem.step, hpc, Except.ok.injEq] at hs
    subst hs
    rw [hpc] at h1
    cases h1
  | coop ride hsx =>
    simp only [RSystem.step, hpc] at hs
    split at hs
    · cases hs
    · split at hs
      · cases hs
      · simp only [Except.ok.injEq] at hs
        subst hs
        simp [RSystem.next] at h1
      · simp only [Except.ok.injEq] at hs
        subst hs
        simp only [RSystem.next, Function.update_same] at h1
        split at h1 <;> cases h1
  | _ =>
    simp only [RSystem.step, hpc] at hs
    repeat' first
      | (cases hs; done)
      | (simp only [Except.ok.injEq] at hs
         subst hs
         simp [RSystem.next] at h1)
      | split at hs

/-! ## Markers of the Buffered-Relaxed queue in interleaved executions -/

namespace RelaxedQueue

theorem rm_isMarker_lt {q : RelaxedQueue} {a : Nat} (h : q.isMarker a = true) :
    a < q.mem.length := by
  simp only [isMarker] at h
  cases hm : q.mem[a]? with
  | none => simp [hm] at h
  | some n => exact heap_lt hm

theorem rm_isMarker_of {q : RelaxedQueue} {a : Nat} {n : Node} (h : q.mem[a]? = some n) :
    q.isMarker a = n.invalid.isSome := by
  simp [isMarker, h]

theorem rm_hide_some {q : RelaxedQueue} {p : Option Nat} {x : Nat} :
    q.hide p = some x ↔ p = some x ∧ q.isMarker x = false := by
  cases p with
  | none => simp [hide]
  | some a =>
    simp only [hide]
    by_cases hm : q.isMarker a = true
    · simp only [hm, if_true]
      constructor
      · intro e
        cases e
      · rintro ⟨e, h1⟩
        simp only [Option.some.injEq] at e
        subst e
        rw [hm] at h1
        cases h1
    · simp only [Bool.not_eq_true] at hm
      simp only [hm, Bool.false_eq_true, if_false, Option.some.injEq]
      constructor
      · rintro rfl
        exact ⟨rfl, hm⟩
      · rintro ⟨e, -⟩
        exact e

theorem rm_hide_marker {q : RelaxedQueue} {a : Nat} (h : q.isMarker a = true) :
    q.hide (some a) = none := by
  simp [hide, h]

theorem rm_hide_regular {q : RelaxedQueue} {a : Nat} (h : q.isMarker a = false) :
    q.hide (some a) = some a := by
  simp [hide, h]

theorem rm_hide_same {q q1 : RelaxedQueue} (h : ∀ a, q1.isMarker a = q.isMarker a)
    (p : Option Nat) : q1.hide p = q.hide p := by
  cases p with
  | none => rfl
  | some a => simp only [hide, h a]

theorem rm_hide_old {q q1 : RelaxedQueue} {p : Option Nat}
    (h : ∀ a, a < q.mem.length → q1.isMarker a = q.isMarker a)
    (hp : ∀ x, p = some x → x < q.mem.length) : q1.hide p = q.hide p := by
  cases p with
  | none => rfl
  | some a => simp only [hide, h a (hp a rfl)]

theorem rm_get (q : RelaxedQueue) (a : Nat) :
    q.regularMem[a]? = (q.mem[a]?).map fun n => ⟨n.value, q.hide n.next, false⟩ := by
  simp [regularMem]

theorem rm_length (q : RelaxedQueue) : q.regularMem.length = q.mem.length := by
  simp [regularMem]

theorem rm_nxtAt (q : RelaxedQueue) (a : Nat) :
    GState.nxtAt q.regularMem a = q.hide (q.nxt a) := by
  simp only [GState.nxtAt, rm_get, nxt]
  cases q.mem[a]? with
  | none => rfl
  | some n => rfl

theorem rm_valAt {q : RelaxedQueue} {a : Nat} {n : Node} (h : q.mem[a]? = some n) :
    GState.valAt q.regularMem a = n.value := by
  simp [GState.valAt, rm_get, h]

theorem rm_nxt_of {q : RelaxedQueue} {a : Nat} {n : Node} (h : q.mem[a]? = some n) :
    q.nxt a = n.next := by
  simp [nxt, h]

/-- A link of the list of regular nodes is a `next` pointer to a regular node. -/
theorem rm_link {q : RelaxedQueue} {a x : Nat} (h : GState.nxtAt q.regularMem a = some x) :
    q.nxt a = some x ∧ q.isMarker x = false := by
  rw [rm_nxtAt] at h
  exact rm_hide_some.1 h

theorem rm_shape_refl (q : RelaxedQueue) : q.Shape q := ⟨rfl, fun _ => rfl, rfl, rfl, rfl⟩

theorem rm_shape_of_mem {q q1 : RelaxedQueue} (hm : q1.mem = q.mem) (hh : q1.head = q.head)
    (ht : q1.tail = q.tail) : q.Shape q1 := by
  have hmk : ∀ a, q1.isMarker a = q.isMarker a := fun a => by simp only [isMarker, hm]
  refine ⟨by rw [hm], hmk, ?_, hh, ht⟩
  simp only [regularMem, hm]
  apply List.map_congr_left
  intro n _
  rw [rm_hide_same hmk]

theorem rm_qstruct_of_mem {q q1 : RelaxedQueue} (h : QStruct q) (hm : q1.mem = q.mem)
    (ht : q1.tail = q.tail) : QStruct q1 := by
  have hmk : ∀ a, q1.isMarker a = q.isMarker a := fun a => by simp only [isMarker, hm]
  refine ⟨?_, ?_, ?_⟩
  · intro a n x e1 e2
    rw [hm] at e1 ⊢
    exact h.valid a n x e1 e2
  · intro a n e1 e2
    rw [hm] at e1
    exact h.marker a n e1 e2
  · intro a m e1 e2
    rw [ht]
    rw [hmk] at e2
    simp only [nxt, hm] at e1
    exact h.atTail a m e1 e2

/-- A store to the object at `a` that keeps its value, its dynamic type and its
`next` pointer as the list of regular nodes has it. -/
theorem rm_shape_set {q : RelaxedQueue} {a : Nat} {n : Node} (hm : q.mem[a]? = some n)
    (n1 : Node) (hv : n1.value = n.value) (hi : n1.invalid.isSome = n.invalid.isSome)
    (hh : q.hide n1.next = q.hide n.next) : q.Shape { q with mem := q.mem.set a n1 } := by
  have hmk : ∀ x, isMarker { q with mem := q.mem.set a n1 } x = q.isMarker x := by
    intro x
    simp only [isMarker]
    by_cases hx : x = a
    · subst hx
      rw [heap_set_self _ _ _ (heap_lt hm), hm]
      exact hi
    · rw [heap_set_other _ _ _ _ hx]
  refine ⟨by simp, hmk, ?_, rfl, rfl⟩
  apply List.ext_getElem?
  intro x
  rw [rm_get, rm_get]
  by_cases hx : x = a
  · subst hx
    simp only [heap_set_self _ _ _ (heap_lt hm), hm, Option.map_some', rm_hide_same hmk, hv, hh]
  · simp only [heap_set_other _ _ _ _ hx]
    cases q.mem[x]? with
    | none => rfl
    | some y => simp only [Option.map_some', rm_hide_same hmk]

theorem rm_qstruct_set {q : RelaxedQueue} (h : QStruct q) {a : Nat} {n : Node}
    (hm : q.mem[a]? = some n) (n1 : Node) (hi : n1.invalid.isSome = n.invalid.isSome)
    (hval : ∀ x, n1.next = some x → x < q.mem.length)
    (hmk : n1.invalid.isSome = true → n1.next = none ∧ n1.value = 0)
    (hat : ∀ m, n1.next = some m → q.isMarker m = true → a = q.tail) :
    QStruct { q with mem := q.mem.set a n1 } := by
  have hmk1 : ∀ x, isMarker { q with mem := q.mem.set a n1 } x = q.isMarker x := by
    intro x
    simp only [isMarker]
    by_cases hx : x = a
    · subst hx
      rw [heap_set_self _ _ _ (heap_lt hm), hm]
      exact hi
    · rw [heap_set_other _ _ _ _ hx]
  refine ⟨?_, ?_, ?_⟩
  · intro x y z e1 e2
    simp only [List.length_set]
    simp only at e1
    by_cases hx : x = a
    · subst hx
      rw [heap_set_self _ _ _ (heap_lt hm)] at e1
      injection e1 with e1
      subst e1
      exact hval z e2
    · rw [heap_set_other _ _ _ _ hx] at e1
      exact h.valid x y z e1 e2
  · intro x y e1 e2
    simp only at e1
    by_cases hx : x = a
    · subst hx
      rw [heap_set_self _ _ _ (heap_lt hm)] at e1
      injection e1 with e1
      subst e1
      exact hmk e2
    · rw [heap_set_other _ _ _ _ hx] at e1
      exact h.marker x y e1 e2
  · intro x m e1 e2
    rw [hmk1] at e2
    simp only [nxt] at e1
    by_cases hx : x = a
    · subst hx
      rw [heap_set_self _ _ _ (heap_lt hm)] at e1
      exact hat m e1 e2
    · rw [heap_set_other _ _ _ _ hx] at e1
      exact h.atTail x m e1 e2

end RelaxedQueue

namespace RelaxedQueue

theorem rm_setInvalid {q q1 : RelaxedQueue} (h : QStruct q) {i : Nat}
    {f : InvalidPart → InvalidPart} (hs : q.setInvalid i f = .ok q1) :
    q.Shape q1 ∧ QStruct q1 := by
  simp only [setInvalid] at hs
  cases hm : q.mem[i]? with
  | none => simp [hm] at hs
  | some n =>
    simp only [hm] at hs
    cases hv : n.invalid with
    | none => simp [hv] at hs
    | some iv =>
      simp only [hv, Except.ok.injEq] at hs
      subst hs
      have hmk := h.marker i n hm (by simp [hv])
      refine ⟨rm_shape_set hm _ rfl (by simp [hv]) rfl,
        rm_qstruct_set h hm _ (by simp [hv]) ?_ (fun _ => hmk) ?_⟩
      · intro x e
        exact h.valid i n x hm e
      · intro m e
        simp only [hmk.1] at e
        cases e

theorem rm_casInvalidHead {q q1 : RelaxedQueue} (h : QStruct q) {i : Nat} {e d : Option Nat}
    {b : Bool} (hs : q.casInvalidHead i e d = .ok (b, q1)) : q.Shape q1 ∧ QStruct q1 := by
  simp only [casInvalidHead] at hs
  cases hm : q.mem[i]? with
  | none => simp [hm] at hs
  | some n =>
    simp only [hm] at hs
    cases hv : n.invalid with
    | none => simp [hv] at hs
    | some iv =>
      simp only [hv] at hs
      split at hs
      · simp only [Except.ok.injEq, Prod.mk.injEq] at hs
        obtain ⟨-, rfl⟩ := hs
        have hmk := h.marker i n hm (by simp [hv])
        refine ⟨rm_shape_set hm _ rfl (by simp [hv]) rfl,
          rm_qstruct_set h hm _ (by simp [hv]) ?_ (fun _ => hmk) ?_⟩
        · intro x e
          exact h.valid i n x hm e
        · intro m e
          simp only [hmk.1] at e
          cases e
      · simp only [Except.ok.injEq, Prod.mk.injEq] at hs
        obtain ⟨-, rfl⟩ := hs
        exact ⟨rm_shape_refl q, h⟩

/-- The compare-and-swap that removes the marker `n` from a `next` field. -/
theorem rm_unlink {q q1 : RelaxedQueue} (h : QStruct q) {p : Option Nat} {n : Nat} {b : Bool}
    (hs : q.casNext p (some n) none = .ok (b, q1)) (hn : q.isMarker n = true) :
    q.Shape q1 ∧ QStruct q1 := by
  cases p with
  | none => simp [casNext] at hs
  | some a =>
    simp only [casNext] at hs
    cases hm : q.mem[a]? with
    | none => simp [hm] at hs
    | some x =>
      simp only [hm] at hs
      split at hs
      · rename_i hx
        simp only [Except.ok.injEq, Prod.mk.injEq] at hs
        obtain ⟨-, rfl⟩ := hs
        refine ⟨rm_shape_set hm _ rfl rfl ?_, rm_qstruct_set h hm _ rfl ?_ ?_ ?_⟩
        · simp only [hx, rm_hide_marker hn]
          rfl
        · intro y e
          cases e
        · intro e
          exact ⟨rfl, (h.marker a x hm e).2⟩
        · intro m e
          cases e
      · simp only [Except.ok.injEq, Prod.mk.injEq] at hs
        obtain ⟨-, rfl⟩ := hs
        exact ⟨rm_shape_refl q, h⟩

/-- The compare-and-swap that links the marker `m` behind `tail`. -/
theorem rm_mark {q q1 : RelaxedQueue} (h : QStruct q) {m : Nat} {b : Bool}
    (hs : q.casNext (some q.tail) none (some m) = .ok (b, q1)) (hm : q.isMarker m = true)
    (hr : q.isMarker q.tail = false) : q.Shape q1 ∧ QStruct q1 := by
  simp only [casNext] at hs
  cases hx : q.mem[q.tail]? with
  | none => simp [hx] at hs
  | some x =>
    simp only [hx] at hs
    split at hs
    · rename_i hx1
      simp only [Except.ok.injEq, Prod.mk.injEq] at hs
      obtain ⟨-, rfl⟩ := hs
      have hreg : x.invalid.isSome = false := by
        rw [← rm_isMarker_of hx]
        exact hr
      refine ⟨rm_shape_set hx _ rfl rfl ?_, rm_qstruct_set h hx _ rfl ?_ ?_ ?_⟩
      · simp only [hx1, rm_hide_marker hm]
        rfl
      · intro y e
        simp only [Option.some.injEq] at e
        subst e
        exact rm_isMarker_lt hm
      · intro e
        simp only [hreg] at e
        cases e
      · intro _ _ _
        rfl
    · simp only [Except.ok.injEq, Prod.mk.injEq] at hs
      obtain ⟨-, rfl⟩ := hs
      exact ⟨rm_shape_refl q, h⟩

theorem rm_coop {q q1 : RelaxedQueue} (h : QStruct q) {th th1 : RThread} {n : Nat}
    {hs : HelpStep} {r : Option HelpStep} (hc : q.coop th n hs = .ok (q1, th1, r))
    (hn : q.isMarker n = true) :
    q.Shape q1 ∧ QStruct q1 ∧ ∃ sh st, th1 = { th with seenHead := sh, seenTail := st } := by
  cases hs with
  | loadHead =>
    simp only [coop, Except.ok.injEq, Prod.mk.injEq] at hc
    obtain ⟨rfl, rfl, -⟩ := hc
    exact ⟨rm_shape_refl q, h, _, _, rfl⟩
  | casHead =>
    simp only [coop] at hc
    cases hx : q.casInvalidHead n none th.seenHead with
    | error e => simp [hx] at hc
    | ok r1 =>
      obtain ⟨b, q2⟩ := r1
      simp only [hx, Except.ok.injEq, Prod.mk.injEq] at hc
      obtain ⟨rfl, rfl, -⟩ := hc
      exact ⟨(rm_casInvalidHead h hx).1, (rm_casInvalidHead h hx).2, _, _, rfl⟩
  | loadTail =>
    simp only [coop] at hc
    cases hx : q.loadInvalid n with
    | error e => simp [hx] at hc
    | ok currI =>
      simp only [hx, Except.ok.injEq, Prod.mk.injEq] at hc
      obtain ⟨rfl, rfl, -⟩ := hc
      exact ⟨rm_shape_refl q, h, _, _, rfl⟩
  | unblock =>
    simp only [coop] at hc
    cases hx : q.casNext th.seenTail (some n) none with
    | error e => simp [hx] at hc
    | ok r1 =>
      obtain ⟨b, q2⟩ := r1
      simp only [hx, Except.ok.injEq, Prod.mk.injEq] at hc
      obtain ⟨rfl, rfl, -⟩ := hc
      exact ⟨(rm_unlink h hx hn).1, (rm_unlink h hx hn).2, _, _, rfl⟩

end RelaxedQueue

theorem RThread.toG_shape {q q1 : RelaxedQueue} (h : q.Shape q1) (th : RThread) :
    th.toG q1 = th.toG q := by
  simp only [RThread.toG, RelaxedQueue.rm_hide_same h.2.1]

theorem RThread.ok_shape {q q1 : RelaxedQueue} (h : q.Shape q1) {th : RThread}
    (ht : th.Ok q) : th.Ok q1 := by
  obtain ⟨hl, hm, -, -, -⟩ := h
  simp only [RThread.Ok, hl, hm]
  exact ht

/-- The state of the scheme after a step that keeps the threads of the scheme
other than the acting one. -/
theorem RSystem.regular_next (s : RSystem) (t : Nat) (q1 : RelaxedQueue) (th1 : RThread)
    (h : ∀ u, u ≠ t → (s.threads u).toG q1 = (s.threads u).toG s.queue) :
    (s.next t q1 th1).regular =
      ⟨q1.regularMem, q1.head, q1.tail, Function.update s.regular.thr t (th1.toG q1), []⟩ := by
  simp only [RSystem.regular, RSystem.next]
  congr 1
  funext u
  by_cases hu : u = t
  · subst hu
    simp
  · simp only [Function.update_noteq hu]
    exact h u hu

/-- A step that keeps the list of regular nodes, the markers, `head` and
`tail`. -/
theorem RInv.shape_step {s : RSystem} {chain : List Nat} {hi ti : Nat}
    (hS : GStruct false false s.regular chain hi ti) (hR : RStruct s chain)
    (t : Nat) {q1 : RelaxedQueue}
    (th1 : RThread) (hq : s.queue.Shape q1 ∧ QStruct q1)
    (hown : (th1.toG s.queue).pc.holds = true →
      ((s.threads t).toG s.queue).pc.holds = true ∧
        (th1.toG s.queue).node = ((s.threads t).toG s.queue).node ∧
        (th1.toG s.queue).arg = ((s.threads t).toG s.queue).arg)
    (htinv : TInv false s.queue.regularMem chain hi ti (th1.toG s.queue))
    (hok : th1.Ok s.queue) : RInv (s.next t q1 th1) := by
  obtain ⟨hq, hq1⟩ := hq
  refine ⟨chain, hi, ti, ?_, ?_⟩
  · rw [RSystem.regular_next s t q1 th1 (fun u _ => RThread.toG_shape hq _),
      RThread.toG_shape hq, hq.2.2.1, hq.2.2.2.1, hq.2.2.2.2]
    exact hS.local_step t _ [] hown htinv
  · refine ⟨hq1, ?_, ?_⟩
    · intro a ha
      simp only [RSystem.next]
      rw [hq.2.1]
      exact hR.regular a ha
    · intro u
      simp only [RSystem.next]
      by_cases hu : u = t
      · subst hu
        simp only [Function.update_same]
        exact RThread.ok_shape hq hok
      · simp only [Function.update_noteq hu]
        exact RThread.ok_shape hq (hR.threads u)

/-- A step that changes the local variables of the acting thread only. -/
theorem RInv.local {s : RSystem} {chain : List Nat} {hi ti : Nat}
    (hS : GStruct false false s.regular chain hi ti) (hR : RStruct s chain)
    (t : Nat) (th1 : RThread)
    (hown : (th1.toG s.queue).pc.holds = true →
      ((s.threads t).toG s.queue).pc.holds = true ∧
        (th1.toG s.queue).node = ((s.threads t).toG s.queue).node ∧
        (th1.toG s.queue).arg = ((s.threads t).toG s.queue).arg)
    (htinv : TInv false s.queue.regularMem chain hi ti (th1.toG s.queue))
    (hok : th1.Ok s.queue) : RInv (s.next t s.queue th1) :=
  RInv.shape_step hS hR t th1 ⟨RelaxedQueue.rm_shape_refl _, hR.queue⟩ hown htinv hok

/-- The step `tail.compare_exchange_strong(last, x)` that succeeds. -/
theorem RInv.tail_swing {s : RSystem} {chain : List Nat} {hi ti : Nat}
    (hS : GStruct false false s.regular chain hi ti) (hR : RStruct s chain)
    (t : Nat) (th1 : RThread) (x : Nat) (hx : chain[ti + 1]? = some x)
    (hown : (th1.toG s.queue).pc.holds = true →
      ((s.threads t).toG s.queue).pc.holds = true ∧
        (th1.toG s.queue).node = ((s.threads t).toG s.queue).node ∧
        (th1.toG s.queue).arg = ((s.threads t).toG s.queue).arg)
    (htinv : TInv false s.queue.regularMem chain hi (ti + 1) (th1.toG s.queue))
    (hok : th1.Ok s.queue) : RInv (s.next t { s.queue with tail := x } th1) := by
  have hmk : ∀ a, RelaxedQueue.isMarker { s.queue with tail := x } a = s.queue.isMarker a :=
    fun _ => rfl
  have htg : ∀ th : RThread, th.toG { s.queue with tail := x } = th.toG s.queue := by
    intro th
    simp only [RThread.toG, RelaxedQueue.rm_hide_same hmk]
  have hlink := RelaxedQueue.rm_link
    (((hS.links ti s.queue.tail hS.tail).trans hx :
      GState.nxtAt s.queue.regularMem s.queue.tail = some x))
  refine ⟨chain, hi, ti + 1, ?_, ?_, ?_, ?_⟩
  · rw [RSystem.regular_next s t _ th1 (fun u _ => htg _), htg]
    have hm : RelaxedQueue.regularMem { s.queue with tail := x } = s.queue.regularMem := by
      simp only [RelaxedQueue.regularMem]
      apply List.map_congr_left
      intro n _
      rw [RelaxedQueue.rm_hide_same hmk]
    rw [hm]
    exact hS.tail_step t _ x hx hown htinv
  · refine ⟨hR.queue.valid, hR.queue.marker, ?_⟩
    intro a m e1 e2
    have ha := hR.queue.atTail a m e1 e2
    subst ha
    have e3 : s.queue.nxt s.queue.tail = some m := e1
    rw [hlink.1] at e3
    injection e3 with e3
    subst e3
    have e4 : s.queue.isMarker x = true := e2
    rw [hlink.2] at e4
    cases e4
  · exact hR.regular
  · intro u
    simp only [RSystem.next]
    by_cases hu : u = t
    · subst hu
      simp only [Function.update_same]
      exact hok
    · simp only [Function.update_noteq hu]
      exact hR.threads u

/-- The step `head.compare_exchange_strong(first, x)` that succeeds. -/
theorem RInv.head_swing {s : RSystem} {chain : List Nat} {hi ti : Nat}
    (hS : GStruct false false s.regular chain hi ti) (hR : RStruct s chain)
    (t : Nat) (th1 : RThread) (x : Nat) (hx : chain[hi + 1]? = some x) (hlt : hi < ti)
    (hown : (th1.toG s.queue).pc.holds = true →
      ((s.threads t).toG s.queue).pc.holds = true ∧
        (th1.toG s.queue).node = ((s.threads t).toG s.queue).node ∧
        (th1.toG s.queue).arg = ((s.threads t).toG s.queue).arg)
    (htinv : TInv false s.queue.regularMem chain (hi + 1) ti (th1.toG s.queue))
    (hok : th1.Ok s.queue) : RInv (s.next t { s.queue with head := x } th1) := by
  have hmk : ∀ a, RelaxedQueue.isMarker { s.queue with head := x } a = s.queue.isMarker a :=
    fun _ => rfl
  have htg : ∀ th : RThread, th.toG { s.queue with head := x } = th.toG s.queue := by
    intro th
    simp only [RThread.toG, RelaxedQueue.rm_hide_same hmk]
  refine ⟨chain, hi + 1, ti, ?_, ?_, ?_, ?_⟩
  · rw [RSystem.regular_next s t _ th1 (fun u _ => htg _), htg]
    have hm : RelaxedQueue.regularMem { s.queue with head := x } = s.queue.regularMem := by
      simp only [RelaxedQueue.regularMem]
      apply List.map_congr_left
      intro n _
      rw [RelaxedQueue.rm_hide_same hmk]
    rw [hm]
    exact hS.head_step t _ x hx hlt (fun e => by cases e) hown htinv
  · exact RelaxedQueue.rm_qstruct_of_mem hR.queue rfl rfl
  · exact hR.regular
  · intro u
    simp only [RSystem.next]
    by_cases hu : u = t
    · subst hu
      simp only [Function.update_same]
      exact hok
    · simp only [Function.update_noteq hu]
      exact hR.threads u

theorem RThread.ok_push {q : RelaxedQueue} (n : RelaxedQueue.Node) {th : RThread}
    (h : th.Ok q) : th.Ok { q with mem := q.mem ++ [n] } := by
  have hold : ∀ a, a < q.mem.length →
      RelaxedQueue.isMarker { q with mem := q.mem ++ [n] } a = q.isMarker a := by
    intro a ha
    simp only [RelaxedQueue.isMarker, heap_push_old _ _ _ ha]
  obtain ⟨h1, h2, h3, h4, h5⟩ := h
  refine ⟨?_, ?_, ?_, h4, ?_⟩
  · intro x e
    have := h1 x e
    simp only [List.length_append, List.length_singleton]
    omega
  · intro e
    rw [hold _ (RelaxedQueue.rm_isMarker_lt (h2 e))]
    exact h2 e
  · intro e1 e2
    obtain ⟨h6, h7⟩ := h3 e1 e2
    refine ⟨?_, ?_⟩
    · simp only [List.length_append, List.length_singleton]
      omega
    · rw [hold _ h6]
      exact h7
  · intro e
    obtain ⟨x, h6, h7⟩ := h5 e
    refine ⟨x, h6, ?_⟩
    rw [hold _ (RelaxedQueue.rm_isMarker_lt h7)]
    exact h7

/-- The steps `node = new Node(value)` and `invalid = new Invalid(currentCounter)`. -/
theorem RInv.alloc {s : RSystem} {chain : List Nat} {hi ti : Nat}
    (hS : GStruct false false s.regular chain hi ti) (hR : RStruct s chain)
    (t : Nat) (th1 : RThread) (n : RelaxedQueue.Node) (hnn : n.next = none)
    (hmk : n.invalid.isSome = true → n.value = 0)
    (hpc : th1.pc.toG = .eReadTail)
    (hnode : (if th1.pc.inSync then th1.invalid else th1.node) = s.queue.mem.length)
    (harg : (if th1.pc.inSync then 0 else th1.arg) = n.value)
    (hok : th1.Ok { s.queue with mem := s.queue.mem ++ [n] }) :
    RInv (s.next t { s.queue with mem := s.queue.mem ++ [n] } th1) := by
  have hold : ∀ a, a < s.queue.mem.length →
      RelaxedQueue.isMarker { s.queue with mem := s.queue.mem ++ [n] } a =
        s.queue.isMarker a := by
    intro a ha
    simp only [RelaxedQueue.isMarker, heap_push_old _ _ _ ha]
  have hget : ∀ a, a < s.queue.mem.length →
      (s.queue.mem ++ [n])[a]? = s.queue.mem[a]? := fun a ha => heap_push_old _ _ _ ha
  have hmem : RelaxedQueue.regularMem { s.queue with mem := s.queue.mem ++ [n] } =
      s.queue.regularMem ++ [⟨n.value, none, false⟩] := by
    simp only [RelaxedQueue.regularMem, List.map_append, List.map_cons, List.map_nil, hnn]
    congr 1
    apply List.map_congr_left
    intro n0 hn0
    obtain ⟨a, ha⟩ := List.mem_iff_getElem?.1 hn0
    rw [RelaxedQueue.rm_hide_old hold (fun x e => hR.queue.valid a n0 x ha e)]
  have htg : ∀ u, u ≠ t →
      (s.threads u).toG { s.queue with mem := s.queue.mem ++ [n] } =
        (s.threads u).toG s.queue := by
    intro u _
    simp only [RThread.toG, RelaxedQueue.rm_hide_old hold (hR.threads u).1]
  refine ⟨chain, hi, ti, ?_, ?_, ?_, ?_⟩
  · rw [RSystem.regular_next s t _ th1 htg, hmem]
    refine hS.alloc_step t _ n.value ?_ ?_ ?_
    · simp only [RThread.toG, RSystem.regular, RelaxedQueue.rm_length]
      exact hnode
    · simp only [RThread.toG]
      exact harg
    · simp only [TInv, RThread.toG, hpc]
  · refine ⟨?_, ?_, ?_⟩
    · intro a n0 x e1 e2
      simp only [RSystem.next, List.length_append, List.length_singleton] at e1 ⊢
      by_cases ha : a < s.queue.mem.length
      · rw [hget a ha] at e1
        have := hR.queue.valid a n0 x e1 e2
        omega
      · have ha1 : a = s.queue.mem.length := by
          have := heap_lt e1
          simp only [List.length_append, List.length_singleton] at this
          omega
        subst ha1
        rw [heap_push_new] at e1
        injection e1 with e1
        subst e1
        rw [hnn] at e2
        cases e2
    · intro a n0 e1 e2
      simp only [RSystem.next] at e1
      by_cases ha : a < s.queue.mem.length
      · rw [hget a ha] at e1
        exact hR.queue.marker a n0 e1 e2
      · have ha1 : a = s.queue.mem.length := by
          have := heap_lt e1
          simp only [List.length_append, List.length_singleton] at this
          omega
        subst ha1
        rw [heap_push_new] at e1
        injection e1 with e1
        subst e1
        exact ⟨hnn, hmk e2⟩
    · intro a m e1 e2
      simp only [RSystem.next, RelaxedQueue.nxt] at e1 e2 ⊢
      by_cases ha : a < s.queue.mem.length
      · rw [hget a ha] at e1
        have e3 : s.queue.nxt a = some m := e1
        obtain ⟨n0, hn0⟩ := heap_get _ _ ha
        have hm : m < s.queue.mem.length := by
          refine hR.queue.valid a n0 m hn0 ?_
          rw [← RelaxedQueue.rm_nxt_of hn0]
          exact e3
        rw [hold m hm] at e2
        exact hR.queue.atTail a m e3 e2
      · by_cases ha1 : a = s.queue.mem.length
        · subst ha1
          rw [heap_push_new] at e1
          simp only [Option.some_bind, hnn] at e1
          cases e1
        · rw [List.getElem?_eq_none
            (by simp only [List.length_append, List.length_singleton]; omega)] at e1
          cases e1
  · intro a ha
    have hb := hS.bound a ha
    simp only [RSystem.next]
    rw [hold a (by rw [← RelaxedQueue.rm_length]; exact hb)]
    exact hR.regular a ha
  · intro u
    simp only [RSystem.next]
    by_cases hu : u = t
    · subst hu
      simp only [Function.update_same]
      exact hok
    · simp only [Function.update_noteq hu]
      exact RThread.ok_push n (hR.threads u)

/-- The step `last->next.compare_exchange_strong(next, node)` of `enq` that
succeeds. -/
theorem RInv.enq_link {s : RSystem} {chain : List Nat} {hi ti : Nat}
    (hS : GStruct false false s.regular chain hi ti) (hR : RStruct s chain)
    (t : Nat) (cn : RelaxedQueue.Node) (hpc : (s.threads t).pc = .enqCasNext)
    (hm : s.queue.mem[(s.threads t).last]? = some cn) (hnn : cn.next = none) :
    RInv (s.next t
      { s.queue with mem := (s.queue.mem.set (s.threads t).last
          ({ cn with next := some (s.threads t).node })) }
      { s.threads t with pc := .enqCasTail }) := by
  have ht := hS.tinv t
  have hok := hR.threads t
  simp only [RSystem.regular, RThread.toG, hpc, RPc.toG, TInv] at ht
  obtain ⟨li, hl, hli, -⟩ := ht
  obtain ⟨-, -, hok3, -, -⟩ := hok
  obtain ⟨hnl, hnr⟩ := hok3 (by simp [hpc, RPc.toG, GPc.holds]) (by simp [hpc, RPc.inSync])
  have hmG : s.regular.mem[(s.threads t).last]? = some ⟨cn.value, none, false⟩ := by
    simp only [RSystem.regular, RelaxedQueue.rm_get, hm, Option.map_some', hnn,
      RelaxedQueue.hide]
  have hlen := hS.end_of_list hl hmG rfl
  have hold : (s.regular.thr t).pc.holds = true := by
    simp [RSystem.regular, RThread.toG, hpc, RPc.toG, GPc.holds]
  have hnode : (s.regular.thr t).node = (s.threads t).node := by
    simp [RSystem.regular, RThread.toG, hpc, RPc.inSync]
  have hlast : s.queue.isMarker (s.threads t).last = false := hR.regular _ (lin_get_mem hl)
  have hreg : cn.invalid.isSome = false := by
    rw [← RelaxedQueue.rm_isMarker_of hm]
    exact hlast
  have hmk : ∀ a, RelaxedQueue.isMarker
      { s.queue with mem := (s.queue.mem.set (s.threads t).last
          ({ cn with next := some (s.threads t).node })) } a = s.queue.isMarker a := by
    intro a
    simp only [RelaxedQueue.isMarker]
    by_cases ha : a = (s.threads t).last
    · rw [ha, heap_set_self _ _ _ (heap_lt hm), hm]
    · rw [heap_set_other _ _ _ _ ha]
  have htg : ∀ th : RThread, th.toG
      { s.queue with mem := (s.queue.mem.set (s.threads t).last
          ({ cn with next := some (s.threads t).node })) } = th.toG s.queue := by
    intro th
    simp only [RThread.toG, RelaxedQueue.rm_hide_same hmk]
  have hmem : RelaxedQueue.regularMem
      { s.queue with mem := (s.queue.mem.set (s.threads t).last
          ({ cn with next := some (s.threads t).node })) } =
      s.regular.mem.set (s.threads t).last
        { (⟨cn.value, none, false⟩ : GNode) with next := some (s.regular.thr t).node } := by
    apply List.ext_getElem?
    intro a
    rw [RelaxedQueue.rm_get]
    by_cases ha : a = (s.threads t).last
    · subst ha
      rw [heap_set_self _ _ _ (heap_lt hm), heap_set_self _ _ _ (heap_lt hmG), hnode]
      simp only [Option.map_some', RelaxedQueue.rm_hide_same hmk,
        RelaxedQueue.rm_hide_regular hnr]
    · rw [heap_set_other _ _ _ _ ha, heap_set_other _ _ _ _ ha]
      simp only [RSystem.regular, RelaxedQueue.rm_get]
      cases s.queue.mem[a]? with
      | none => rfl
      | some y => simp only [Option.map_some', RelaxedQueue.rm_hide_same hmk]
  refine ⟨chain ++ [(s.threads t).node], hi, ti, ?_, ?_, ?_, ?_⟩
  · rw [RSystem.regular_next s t _ _ (fun u _ => htg _), htg, hmem, ← hnode]
    refine (hS.link_step t _ li _ _ hl hli hmG rfl hold ?_ ?_).2
    · simp [RThread.toG, RPc.toG, GPc.holds]
    · simp only [TInv, RThread.toG, RPc.toG, RPc.inSync, Bool.false_eq_true, if_false]
      refine ⟨li, lin_get_append hl, ?_⟩
      rw [← hlen, List.getElem?_append_right (le_refl _), hnode]
      simp
  · refine RelaxedQueue.rm_qstruct_set hR.queue hm _ rfl ?_ ?_ ?_
    · intro x e
      simp only [Option.some.injEq] at e
      subst e
      exact hnl
    · intro e
      simp only [hreg] at e
      cases e
    · intro m e1 e2
      simp only [Option.some.injEq] at e1
      subst e1
      rw [hnr] at e2
      cases e2
  · intro a ha
    simp only [RSystem.next]
    rw [hmk]
    rcases List.mem_append.1 ha with h1 | h1
    · exact hR.regular a h1
    · simp only [List.mem_singleton] at h1
      subst h1
      exact hnr
  · have hsh : ∀ th : RThread, th.Ok s.queue → th.Ok
        { s.queue with mem := (s.queue.mem.set (s.threads t).last
            ({ cn with next := some (s.threads t).node })) } := by
      intro th h
      simp only [RThread.Ok, hmk, List.length_set]
      exact h
    intro u
    simp only [RSystem.next]
    by_cases hu : u = t
    · subst hu
      simp only [Function.update_same]
      apply hsh
      have h := hR.threads u
      simp only [RThread.Ok, hpc, RPc.toG, RPc.inSync, RPc.blank, RPc.helping, GPc.holds]
        at h ⊢
      simp only [Bool.false_eq_true, false_implies, and_true, true_and] at h ⊢
      exact h.1
    · simp only [Function.update_noteq hu]
      exact hsh _ (hR.threads u)

theorem RThread.ok_of {q : RelaxedQueue} {th th1 : RThread} (h : th.Ok q)
    (hinv : th1.invalid = th.invalid) (hnode : th1.node = th.node)
    (hnext : ∀ x, th1.next = some x → x < q.mem.length)
    (h2 : th1.pc.inSync = true → th.pc.inSync = true)
    (h3 : th1.pc.toG.holds = true → th1.pc.inSync = false →
      th.pc.toG.holds = true ∧ th.pc.inSync = false)
    (h4 : th1.pc.blank = true → th1.next = none)
    (h5 : th1.pc.helping = true → ∃ n, th1.next = some n ∧ q.isMarker n = true) :
    th1.Ok q := by
  refine ⟨hnext, ?_, ?_, h4, h5⟩
  · intro e
    rw [hinv]
    exact h.2.1 (h2 e)
  · intro e1 e2
    rw [hnode]
    exact h.2.2.1 (h3 e1 e2).1 (h3 e1 e2).2

namespace RelaxedQueue

theorem rm_casNext_cases {q q1 : RelaxedQueue} {a : Nat} {e d : Option Nat} {b : Bool}
    (h : q.casNext (some a) e d = .ok (b, q1)) :
    ∃ n, q.mem[a]? = some n ∧
      ((b = true ∧ n.next = e ∧ q1 = { q with mem := q.mem.set a { n with next := d } }) ∨
        (b = false ∧ q1 = q)) := by
  simp only [casNext] at h
  cases hm : q.mem[a]? with
  | none => simp [hm] at h
  | some n =>
    simp only [hm] at h
    refine ⟨n, rfl, ?_⟩
    split at h
    · rename_i hx
      simp only [Except.ok.injEq, Prod.mk.injEq] at h
      exact Or.inl ⟨h.1.symm, hx, h.2.symm⟩
    · simp only [Except.ok.injEq, Prod.mk.injEq] at h
      exact Or.inr ⟨h.1.symm, h.2.symm⟩

theorem rm_load {q : RelaxedQueue} {a : Nat} {n : Node} (h : q.load a = .ok n) :
    q.mem[a]? = some n := by
  simp only [load] at h
  split at h
  · rename_i x hx
    injection h with h
    subst h
    exact hx
  · cases h

theorem rm_isInvalid {q : RelaxedQueue} {a : Nat} {b : Bool} (h : q.isInvalid a = .ok b) :
    q.isMarker a = b := by
  simp only [isInvalid] at h
  split at h
  · rename_i x hx
    injection h with h
    subst h
    exact rm_isMarker_of hx
  · cases h

theorem rm_casTail (q : RelaxedQueue) (a b : Nat) :
    (q.casTail a b).2 = if q.tail = a then { q with tail := b } else q := by
  simp only [casTail]
  split <;> rfl

end RelaxedQueue

/-- A step `tail.compare_exchange_strong(last, x)`, succeeding or not, after
which the thread continues at a program point that knows nothing of the list. -/
theorem RInv.try_tail {s : RSystem} {chain : List Nat} {hi ti : Nat}
    (hS : GStruct false false s.regular chain hi ti) (hR : RStruct s chain)
    (t : Nat) (th1 : RThread) (li x : Nat) (hl : chain[li]? = some (s.threads t).last)
    (hx : chain[li + 1]? = some x)
    (hown : (th1.toG s.queue).pc.holds = true →
      ((s.threads t).toG s.queue).pc.holds = true ∧
        (th1.toG s.queue).node = ((s.threads t).toG s.queue).node ∧
        (th1.toG s.queue).arg = ((s.threads t).toG s.queue).arg)
    (htinv : ∀ ti1, TInv false s.queue.regularMem chain hi ti1 (th1.toG s.queue))
    (hok : th1.Ok s.queue) :
    RInv (s.next t (s.queue.casTail (s.threads t).last x).2 th1) := by
  rw [RelaxedQueue.rm_casTail]
  by_cases hc : s.queue.tail = (s.threads t).last
  · rw [if_pos hc]
    have : li = ti := lin_nodup_index hS.nodup hl (hc ▸ hS.tail)
    subst this
    exact RInv.tail_swing hS hR t th1 x hx hown (htinv _) hok
  · rw [if_neg hc]
    exact RInv.local hS hR t th1 hown (htinv _) hok

theorem RInv.at_enqNew {s s1 : RSystem} {t : Nat} {chain : List Nat} {hi ti : Nat}
    (hS : GStruct false false s.regular chain hi ti) (hR : RStruct s chain)
    (hpc : (s.threads t).pc = .enqNew) (hs : s.step t .step = .ok s1) : RInv s1 := by
  have ht := hS.tinv t
  have hok := hR.threads t
  simp only [RSystem.regular, RThread.toG, hpc, RPc.toG, TInv] at ht
  simp only [RSystem.step, hpc, Except.ok.injEq] at hs
  subst hs
  refine RInv.alloc hS hR t _ ⟨(s.threads t).arg, none, none⟩ rfl (by simp) rfl
    (by simp [RPc.inSync]) (by simp [RPc.inSync]) ?_
  refine ⟨?_, by simp [RPc.inSync], ?_, by simp [RPc.blank], by simp [RPc.helping]⟩
  · intro x e
    have := hok.1 x e
    simp only [List.length_append, List.length_singleton]
    omega
  · intro _ _
    simp [RelaxedQueue.isMarker]

theorem RInv.at_enqLoadTail {s s1 : RSystem} {t : Nat} {chain : List Nat} {hi ti : Nat}
    (hS : GStruct false false s.regular chain hi ti) (hR : RStruct s chain)
    (hpc : (s.threads t).pc = .enqLoadTail) (hs : s.step t .step = .ok s1) : RInv s1 := by
  have ht := hS.tinv t
  have hok := hR.threads t
  simp only [RSystem.regular, RThread.toG, hpc, RPc.toG, TInv] at ht
  simp only [RSystem.step, hpc, Except.ok.injEq] at hs
  subst hs
  refine RInv.local hS hR t _ (by simp [RThread.toG, hpc, RPc.toG, RPc.inSync, GPc.holds]) ?_ (RThread.ok_of hok rfl rfl hok.1 (by simp [hpc, RPc.inSync]) (by simp [hpc, RPc.toG, RPc.inSync, GPc.holds]) (by simp [RPc.blank]) (by simp [RPc.helping]))
  simp only [TInv, RThread.toG, RPc.toG]
  exact ⟨ti, hS.tail, le_refl _⟩

theorem RInv.at_enqLoadNext {s s1 : RSystem} {t : Nat} {chain : List Nat} {hi ti : Nat}
    (hS : GStruct false false s.regular chain hi ti) (hR : RStruct s chain)
    (hpc : (s.threads t).pc = .enqLoadNext) (hs : s.step t .step = .ok s1) : RInv s1 := by
  have ht := hS.tinv t
  have hok := hR.threads t
  simp only [RSystem.regular, RThread.toG, hpc, RPc.toG, TInv] at ht
  obtain ⟨li, hl, hli⟩ := ht
  simp only [RSystem.step, hpc] at hs
  split at hs
  · cases hs
  · rename_i lastNode hm
    have hn := RelaxedQueue.rm_load hm
    simp only [Except.ok.injEq] at hs
    subst hs
    refine RInv.local hS hR t _ (by simp [RThread.toG, hpc, RPc.toG, RPc.inSync, GPc.holds]) ?_
      (RThread.ok_of hok rfl rfl (fun x e => hR.queue.valid _ _ x hn e) (by simp [hpc, RPc.inSync]) (by simp [hpc, RPc.toG, RPc.inSync, GPc.holds]) (by simp [RPc.blank]) (by simp [RPc.helping]))
    simp only [TInv, RThread.toG, RPc.toG]
    refine ⟨li, hl, hli, ?_⟩
    intro x hx
    rw [← hS.links li _ hl]
    simp only [RSystem.regular, RelaxedQueue.rm_nxtAt, RelaxedQueue.rm_nxt_of hn]
    exact hx

theorem RInv.at_enqCheck {s s1 : RSystem} {t : Nat} {chain : List Nat} {hi ti : Nat}
    (hS : GStruct false false s.regular chain hi ti) (hR : RStruct s chain)
    (hpc : (s.threads t).pc = .enqCheck) (hs : s.step t .step = .ok s1) : RInv s1 := by
  have ht := hS.tinv t
  have hok := hR.threads t
  simp only [RSystem.regular, RThread.toG, hpc, RPc.toG, TInv] at ht
  obtain ⟨li, hl, hli, hx⟩ := ht
  simp only [RSystem.step, hpc] at hs
  split at hs
  · split at hs
    · rename_i hn
      simp only [Except.ok.injEq] at hs
      subst hs
      refine RInv.local hS hR t _ (by simp [RThread.toG, hpc, RPc.toG, RPc.inSync, GPc.holds]) ?_
        (RThread.ok_of hok rfl rfl hok.1 (by simp [hpc, RPc.inSync]) (by simp [hpc, RPc.toG, RPc.inSync, GPc.holds]) (fun _ => hn) (by simp [RPc.helping]))
      simp only [TInv, RThread.toG, RPc.toG, hn]
      exact ⟨li, hl, hli, rfl⟩
    · rename_i n hn
      split at hs
      · cases hs
      · rename_i hinv
        have hmk := RelaxedQueue.rm_isInvalid hinv
        simp only [Except.ok.injEq] at hs
        subst hs
        exact RInv.local hS hR t _ (by simp [RThread.toG, hpc, RPc.toG, RPc.inSync, GPc.holds]) (by simp only [TInv, RThread.toG, RPc.toG])
          (RThread.ok_of hok rfl rfl hok.1 (by simp [hpc, RPc.inSync]) (by simp [hpc, RPc.toG, RPc.inSync, GPc.holds]) (by simp [RPc.blank]) (fun _ => ⟨n, hn, hmk⟩))
      · rename_i hinv
        have hmk := RelaxedQueue.rm_isInvalid hinv
        simp only [Except.ok.injEq] at hs
        subst hs
        refine RInv.local hS hR t _ (by simp [RThread.toG, hpc, RPc.toG, RPc.inSync, GPc.holds]) ?_ (RThread.ok_of hok rfl rfl hok.1 (by simp [hpc, RPc.inSync]) (by simp [hpc, RPc.toG, RPc.inSync, GPc.holds]) (by simp [RPc.blank]) (by simp [RPc.helping]))
        have hh : s.queue.hide (s.threads t).next = some n := by
          rw [hn]
          exact RelaxedQueue.rm_hide_regular hmk
        simp only [TInv, RThread.toG, RPc.toG]
        exact ⟨li, n, hl, hli, hh, hx n hh⟩
  · simp only [Except.ok.injEq] at hs
    subst hs
    exact RInv.local hS hR t _ (by simp [RThread.toG, hpc, RPc.toG, RPc.inSync, GPc.holds]) (by simp only [TInv, RThread.toG, RPc.toG]) (RThread.ok_of hok rfl rfl hok.1 (by simp [hpc, RPc.inSync]) (by simp [hpc, RPc.toG, RPc.inSync, GPc.holds]) (by simp [RPc.blank]) (by simp [RPc.helping]))

theorem RInv.at_enqCasNext {s s1 : RSystem} {t : Nat} {chain : List Nat} {hi ti : Nat}
    (hS : GStruct false false s.regular chain hi ti) (hR : RStruct s chain)
    (hpc : (s.threads t).pc = .enqCasNext) (hs : s.step t .step = .ok s1) : RInv s1 := by
  have ht := hS.tinv t
  have hok := hR.threads t
  simp only [RSystem.regular, RThread.toG, hpc, RPc.toG, TInv] at ht
  have hnone : (s.threads t).next = none := hok.2.2.2.1 (by simp [hpc, RPc.blank])
  simp only [RSystem.step, hpc] at hs
  split at hs
  · cases hs
  · rename_i q1 hc
    simp only [Except.ok.injEq] at hs
    subst hs
    obtain ⟨cn, hm, hcase⟩ := RelaxedQueue.rm_casNext_cases hc
    rcases hcase with ⟨-, hnn, rfl⟩ | ⟨hb, -⟩
    · exact RInv.enq_link hS hR t cn hpc hm (hnn.trans hnone)
    · cases hb
  · rename_i q1 hc
    simp only [Except.ok.injEq] at hs
    subst hs
    obtain ⟨cn, hm, hcase⟩ := RelaxedQueue.rm_casNext_cases hc
    rcases hcase with ⟨hb, -, -⟩ | ⟨-, rfl⟩
    · cases hb
    · exact RInv.local hS hR t _ (by simp [RThread.toG, hpc, RPc.toG, RPc.inSync, GPc.holds]) (by simp only [TInv, RThread.toG, RPc.toG]) (RThread.ok_of hok rfl rfl hok.1 (by simp [hpc, RPc.inSync]) (by simp [hpc, RPc.toG, RPc.inSync, GPc.holds]) (by simp [RPc.blank]) (by simp [RPc.helping]))

theorem RInv.at_enqCasTail {s s1 : RSystem} {t : Nat} {chain : List Nat} {hi ti : Nat}
    (hS : GStruct false false s.regular chain hi ti) (hR : RStruct s chain)
    (hpc : (s.threads t).pc = .enqCasTail) (hs : s.step t .step = .ok s1) : RInv s1 := by
  have ht := hS.tinv t
  have hok := hR.threads t
  simp only [RSystem.regular, RThread.toG, hpc, RPc.toG, TInv] at ht
  obtain ⟨li, hl, hx⟩ := ht
  simp only [RPc.inSync, Bool.false_eq_true, if_false] at hx
  simp only [RSystem.step, hpc, Except.ok.injEq] at hs
  subst hs
  exact RInv.try_tail hS hR t _ li _ hl hx (by simp [RThread.toG, hpc, RPc.toG, RPc.inSync, GPc.holds]) (fun _ => (by simp only [TInv, RThread.toG, RPc.toG])) (RThread.ok_of hok rfl rfl hok.1 (by simp [hpc, RPc.inSync]) (by simp [hpc, RPc.toG, RPc.inSync, GPc.holds]) (by simp [RPc.blank]) (by simp [RPc.helping]))

theorem RInv.at_enqCoop {s s1 : RSystem} {t : Nat} {chain : List Nat} {hi ti : Nat}
    (hS : GStruct false false s.regular chain hi ti) (hR : RStruct s chain)
    (hpc : (s.threads t).pc = .enqCoop hx) (hs : s.step t .step = .ok s1) : RInv s1 := by
  have ht := hS.tinv t
  have hok := hR.threads t
  simp only [RSystem.regular, RThread.toG, hpc, RPc.toG, TInv] at ht
  obtain ⟨n, hn, hmk⟩ := hok.2.2.2.2 (by simp [hpc, RPc.helping])
  simp only [RSystem.step, hpc, hn] at hs
  split at hs
  · cases hs
  · rename_i q1 th1 h1 hc
    simp only [Except.ok.injEq] at hs
    subst hs
    obtain ⟨hsh, hq1, sh, st, rfl⟩ := RelaxedQueue.rm_coop hR.queue hc hmk
    exact RInv.shape_step hS hR t _ ⟨hsh, hq1⟩ (by simp [RThread.toG, hpc, RPc.toG, RPc.inSync, GPc.holds]) (by simp only [TInv, RThread.toG, RPc.toG])
      (RThread.ok_of hok rfl rfl hok.1 (by simp [hpc, RPc.inSync]) (by simp [hpc, RPc.toG, RPc.inSync, GPc.holds]) (by simp [RPc.blank]) (fun _ => ⟨n, hn, hmk⟩))
  · rename_i q1 th1 hc
    simp only [Except.ok.injEq] at hs
    subst hs
    obtain ⟨hsh, hq1, sh, st, rfl⟩ := RelaxedQueue.rm_coop hR.queue hc hmk
    exact RInv.shape_step hS hR t _ ⟨hsh, hq1⟩ (by simp [RThread.toG, hpc, RPc.toG, RPc.inSync, GPc.holds]) (by simp only [TInv, RThread.toG, RPc.toG])
      (RThread.ok_of hok rfl rfl hok.1 (by simp [hpc, RPc.inSync]) (by simp [hpc, RPc.toG, RPc.inSync, GPc.holds]) (by simp [RPc.blank]) (by simp [RPc.helping]))

theorem RInv.at_enqHelp {s s1 : RSystem} {t : Nat} {chain : List Nat} {hi ti : Nat}
    (hS : GStruct false false s.regular chain hi ti) (hR : RStruct s chain)
    (hpc : (s.threads t).pc = .enqHelp) (hs : s.step t .step = .ok s1) : RInv s1 := by
  have ht := hS.tinv t
  have hok := hR.threads t
  simp only [RSystem.regular, RThread.toG, hpc, RPc.toG, TInv] at ht
  obtain ⟨li, x, hl, hli, hh, hx⟩ := ht
  obtain ⟨hn, -⟩ := RelaxedQueue.rm_hide_some.1 hh
  simp only [RSystem.step, hpc] at hs
  split at hs
  · cases hs
  · rename_i nx hnx
    rw [hn] at hnx
    injection hnx with hnx
    subst hnx
    simp only [Except.ok.injEq] at hs
    subst hs
    exact RInv.try_tail hS hR t _ li _ hl hx (by simp [RThread.toG, hpc, RPc.toG, RPc.inSync, GPc.holds]) (fun _ => (by simp only [TInv, RThread.toG, RPc.toG])) (RThread.ok_of hok rfl rfl hok.1 (by simp [hpc, RPc.inSync]) (by simp [hpc, RPc.toG, RPc.inSync, GPc.holds]) (by simp [RPc.blank]) (by simp [RPc.helping]))

theorem RInv.at_deqLoadHead {s s1 : RSystem} {t : Nat} {chain : List Nat} {hi ti : Nat}
    (hS : GStruct false false s.regular chain hi ti) (hR : RStruct s chain)
    (hpc : (s.threads t).pc = .deqLoadHead) (hs : s.step t .step = .ok s1) : RInv s1 := by
  have ht := hS.tinv t
  have hok := hR.threads t
  simp only [RSystem.regular, RThread.toG, hpc, RPc.toG, TInv] at ht
  simp only [RSystem.step, hpc, Except.ok.injEq] at hs
  subst hs
  refine RInv.local hS hR t _ (by simp [RThread.toG, hpc, RPc.toG, RPc.inSync, GPc.holds]) ?_ (RThread.ok_of hok rfl rfl hok.1 (by simp [hpc, RPc.inSync]) (by simp [hpc, RPc.toG, RPc.inSync, GPc.holds]) (by simp [RPc.blank]) (by simp [RPc.helping]))
  simp only [TInv, RThread.toG, RPc.toG]
  exact ⟨hi, hS.head, le_refl _⟩

theorem RInv.at_deqLoadTail {s s1 : RSystem} {t : Nat} {chain : List Nat} {hi ti : Nat}
    (hS : GStruct false false s.regular chain hi ti) (hR : RStruct s chain)
    (hpc : (s.threads t).pc = .deqLoadTail) (hs : s.step t .step = .ok s1) : RInv s1 := by
  have ht := hS.tinv t
  have hok := hR.threads t
  simp only [RSystem.regular, RThread.toG, hpc, RPc.toG, TInv] at ht
  obtain ⟨fi, hf, hfi⟩ := ht
  simp only [RSystem.step, hpc, Except.ok.injEq] at hs
  subst hs
  refine RInv.local hS hR t _ (by simp [RThread.toG, hpc, RPc.toG, RPc.inSync, GPc.holds]) ?_ (RThread.ok_of hok rfl rfl hok.1 (by simp [hpc, RPc.inSync]) (by simp [hpc, RPc.toG, RPc.inSync, GPc.holds]) (by simp [RPc.blank]) (by simp [RPc.helping]))
  simp only [TInv, RThread.toG, RPc.toG]
  exact ⟨fi, ti, hf, hfi, hS.tail, le_trans hfi hS.hle, le_refl _⟩

theorem RInv.at_deqLoadNext {s s1 : RSystem} {t : Nat} {chain : List Nat} {hi ti : Nat}
    (hS : GStruct false false s.regular chain hi ti) (hR : RStruct s chain)
    (hpc : (s.threads t).pc = .deqLoadNext) (hs : s.step t .step = .ok s1) : RInv s1 := by
  have ht := hS.tinv t
  have hok := hR.threads t
  simp only [RSystem.regular, RThread.toG, hpc, RPc.toG, TInv] at ht
  obtain ⟨fi, li, hf, hfi, hl, hfl, hli⟩ := ht
  simp only [RSystem.step, hpc] at hs
  split at hs
  · cases hs
  · rename_i firstNode hm
    have hn := RelaxedQueue.rm_load hm
    simp only [Except.ok.injEq] at hs
    subst hs
    refine RInv.local hS hR t _ (by simp [RThread.toG, hpc, RPc.toG, RPc.inSync, GPc.holds]) ?_
      (RThread.ok_of hok rfl rfl (fun x e => hR.queue.valid _ _ x hn e) (by simp [hpc, RPc.inSync]) (by simp [hpc, RPc.toG, RPc.inSync, GPc.holds]) (by simp [RPc.blank]) (by simp [RPc.helping]))
    have hlk : s.queue.hide firstNode.next = chain[fi + 1]? := by
      rw [← hS.links fi _ hf]
      simp only [RSystem.regular, RelaxedQueue.rm_nxtAt, RelaxedQueue.rm_nxt_of hn]
    simp only [TInv, RThread.toG, RPc.toG]
    refine ⟨fi, li, hf, hfi, hl, hfl, hli, ?_, ?_⟩
    · intro x hx
      rw [← hlk]
      exact hx
    · intro hlt
      rw [hlk]
      have h1 := lin_get_lt hl
      rw [List.getElem?_eq_getElem (by omega)]
      simp

theorem RInv.at_deqCheck {s s1 : RSystem} {t : Nat} {chain : List Nat} {hi ti : Nat}
    (hS : GStruct false false s.regular chain hi ti) (hR : RStruct s chain)
    (hpc : (s.threads t).pc = .deqCheck) (hs : s.step t .step = .ok s1) : RInv s1 := by
  have ht := hS.tinv t
  have hok := hR.threads t
  simp only [RSystem.regular, RThread.toG, hpc, RPc.toG, TInv] at ht
  obtain ⟨fi, li, hf, hfi, hl, hfl, hli, hx, hne⟩ := ht
  simp only [RSystem.step, hpc] at hs
  split at hs
  · split at hs
    · rename_i hfl1
      split at hs
      · simp only [Except.ok.injEq] at hs
        subst hs
        exact RInv.local hS hR t _ (by simp [RThread.toG, hpc, RPc.toG, RPc.inSync, GPc.holds]) (by simp only [TInv, RThread.toG, RPc.toG]) (RThread.ok_of hok rfl rfl hok.1 (by simp [hpc, RPc.inSync]) (by simp [hpc, RPc.toG, RPc.inSync, GPc.holds]) (by simp [RPc.blank]) (by simp [RPc.helping]))
      · rename_i n hn
        split at hs
        · cases hs
        · rename_i hinv
          have hmk := RelaxedQueue.rm_isInvalid hinv
          simp only [Except.ok.injEq] at hs
          subst hs
          exact RInv.local hS hR t _ (by simp [RThread.toG, hpc, RPc.toG, RPc.inSync, GPc.holds]) (by simp only [TInv, RThread.toG, RPc.toG])
            (RThread.ok_of hok rfl rfl hok.1 (by simp [hpc, RPc.inSync]) (by simp [hpc, RPc.toG, RPc.inSync, GPc.holds]) (by simp [RPc.blank]) (fun _ => ⟨n, hn, hmk⟩))
        · rename_i hinv
          have hmk := RelaxedQueue.rm_isInvalid hinv
          simp only [Except.ok.injEq] at hs
          subst hs
          refine RInv.local hS hR t _ (by simp [RThread.toG, hpc, RPc.toG, RPc.inSync, GPc.holds]) ?_ (RThread.ok_of hok rfl rfl hok.1 (by simp [hpc, RPc.inSync]) (by simp [hpc, RPc.toG, RPc.inSync, GPc.holds]) (by simp [RPc.blank]) (by simp [RPc.helping]))
          have hh : s.queue.hide (s.threads t).next = some n := by
            rw [hn]
            exact RelaxedQueue.rm_hide_regular hmk
          simp only [TInv, RThread.toG, RPc.toG]
          exact ⟨fi, n, hfl1 ▸ hf, le_trans hfl hli, hh, hx n hh⟩
    · rename_i hfl1
      simp only [Except.ok.injEq] at hs
      subst hs
      refine RInv.local hS hR t _ (by simp [RThread.toG, hpc, RPc.toG, RPc.inSync, GPc.holds]) ?_ (RThread.ok_of hok rfl rfl hok.1 (by simp [hpc, RPc.inSync]) (by simp [hpc, RPc.toG, RPc.inSync, GPc.holds]) (by simp [RPc.blank]) (by simp [RPc.helping]))
      have hlt : fi < li := by
        rcases Nat.lt_or_ge fi li with h1 | h1
        · exact h1
        · have : fi = li := le_antisymm hfl h1
          subst this
          rw [hf] at hl
          injection hl with hl
          exact absurd hl hfl1
      obtain ⟨x, hh⟩ := Option.ne_none_iff_exists.1 (hne hlt)
      simp only [TInv, RThread.toG, RPc.toG]
      exact ⟨fi, x, hf, hfi, by omega, hh.symm, hx x hh.symm⟩
  · simp only [Except.ok.injEq] at hs
    subst hs
    exact RInv.local hS hR t _ (by simp [RThread.toG, hpc, RPc.toG, RPc.inSync, GPc.holds]) (by simp only [TInv, RThread.toG, RPc.toG]) (RThread.ok_of hok rfl rfl hok.1 (by simp [hpc, RPc.inSync]) (by simp [hpc, RPc.toG, RPc.inSync, GPc.holds]) (by simp [RPc.blank]) (by simp [RPc.helping]))

theorem RInv.at_deqCoop {s s1 : RSystem} {t : Nat} {chain : List Nat} {hi ti : Nat}
    (hS : GStruct false false s.regular chain hi ti) (hR : RStruct s chain)
    (hpc : (s.threads t).pc = .deqCoop hx) (hs : s.step t .step = .ok s1) : RInv s1 := by
  have ht := hS.tinv t
  have hok := hR.threads t
  simp only [RSystem.regular, RThread.toG, hpc, RPc.toG, TInv] at ht
  obtain ⟨n, hn, hmk⟩ := hok.2.2.2.2 (by simp [hpc, RPc.helping])
  simp only [RSystem.step, hpc, hn] at hs
  split at hs
  · cases hs
  · rename_i q1 th1 h1 hc
    simp only [Except.ok.injEq] at hs
    subst hs
    obtain ⟨hsh, hq1, sh, st, rfl⟩ := RelaxedQueue.rm_coop hR.queue hc hmk
    exact RInv.shape_step hS hR t _ ⟨hsh, hq1⟩ (by simp [RThread.toG, hpc, RPc.toG, RPc.inSync, GPc.holds]) (by simp only [TInv, RThread.toG, RPc.toG])
      (RThread.ok_of hok rfl rfl hok.1 (by simp [hpc, RPc.inSync]) (by simp [hpc, RPc.toG, RPc.inSync, GPc.holds]) (by simp [RPc.blank]) (fun _ => ⟨n, hn, hmk⟩))
  · rename_i q1 th1 hc
    simp only [Except.ok.injEq] at hs
    subst hs
    obtain ⟨hsh, hq1, sh, st, rfl⟩ := RelaxedQueue.rm_coop hR.queue hc hmk
    exact RInv.shape_step hS hR t _ ⟨hsh, hq1⟩ (by simp [RThread.toG, hpc, RPc.toG, RPc.inSync, GPc.holds]) (by simp only [TInv, RThread.toG, RPc.toG])
      (RThread.ok_of hok rfl rfl hok.1 (by simp [hpc, RPc.inSync]) (by simp [hpc, RPc.toG, RPc.inSync, GPc.holds]) (by simp [RPc.blank]) (by simp [RPc.helping]))

theorem RInv.at_deqHelp {s s1 : RSystem} {t : Nat} {chain : List Nat} {hi ti : Nat}
    (hS : GStruct false false s.regular chain hi ti) (hR : RStruct s chain)
    (hpc : (s.threads t).pc = .deqHelp) (hs : s.step t .step = .ok s1) : RInv s1 := by
  have ht := hS.tinv t
  have hok := hR.threads t
  simp only [RSystem.regular, RThread.toG, hpc, RPc.toG, TInv] at ht
  obtain ⟨li, x, hl, hli, hh, hx⟩ := ht
  obtain ⟨hn, -⟩ := RelaxedQueue.rm_hide_some.1 hh
  simp only [RSystem.step, hpc] at hs
  split at hs
  · cases hs
  · rename_i nx hnx
    rw [hn] at hnx
    injection hnx with hnx
    subst hnx
    simp only [Except.ok.injEq] at hs
    subst hs
    exact RInv.try_tail hS hR t _ li _ hl hx (by simp [RThread.toG, hpc, RPc.toG, RPc.inSync, GPc.holds]) (fun _ => (by simp only [TInv, RThread.toG, RPc.toG])) (RThread.ok_of hok rfl rfl hok.1 (by simp [hpc, RPc.inSync]) (by simp [hpc, RPc.toG, RPc.inSync, GPc.holds]) (by simp [RPc.blank]) (by simp [RPc.helping]))

theorem RInv.at_deqLoadValue {s s1 : RSystem} {t : Nat} {chain : List Nat} {hi ti : Nat}
    (hS : GStruct false false s.regular chain hi ti) (hR : RStruct s chain)
    (hpc : (s.threads t).pc = .deqLoadValue) (hs : s.step t .step = .ok s1) : RInv s1 := by
  have ht := hS.tinv t
  have hok := hR.threads t
  simp only [RSystem.regular, RThread.toG, hpc, RPc.toG, TInv] at ht
  obtain ⟨fi, x, hf, hfi, hlt, hh, hx⟩ := ht
  obtain ⟨hn, -⟩ := RelaxedQueue.rm_hide_some.1 hh
  simp only [RSystem.step, hpc] at hs
  split at hs
  · cases hs
  · rename_i nextNode hm
    simp only [hn, RelaxedQueue.loadPtr] at hm
    have hm1 := RelaxedQueue.rm_load hm
    simp only [Except.ok.injEq] at hs
    subst hs
    refine RInv.local hS hR t _ (by simp [RThread.toG, hpc, RPc.toG, RPc.inSync, GPc.holds]) ?_ (RThread.ok_of hok rfl rfl hok.1 (by simp [hpc, RPc.inSync]) (by simp [hpc, RPc.toG, RPc.inSync, GPc.holds]) (by simp [RPc.blank]) (by simp [RPc.helping]))
    simp only [TInv, RThread.toG, RPc.toG]
    exact ⟨fi, x, hf, hfi, hlt, hh, hx, fun _ => (RelaxedQueue.rm_valAt hm1).symm⟩

theorem RInv.at_deqCasHead {s s1 : RSystem} {t : Nat} {chain : List Nat} {hi ti : Nat}
    (hS : GStruct false false s.regular chain hi ti) (hR : RStruct s chain)
    (hpc : (s.threads t).pc = .deqCasHead) (hs : s.step t .step = .ok s1) : RInv s1 := by
  have ht := hS.tinv t
  have hok := hR.threads t
  simp only [RSystem.regular, RThread.toG, hpc, RPc.toG, TInv] at ht
  obtain ⟨fi, x, hf, hfi, hlt, hh, hx, -⟩ := ht
  obtain ⟨hn, -⟩ := RelaxedQueue.rm_hide_some.1 hh
  simp only [RSystem.step, hpc] at hs
  split at hs
  · cases hs
  · rename_i nx hnx
    rw [hn] at hnx
    injection hnx with hnx
    subst hnx
    simp only [RelaxedQueue.casHead] at hs
    by_cases hc : s.queue.head = (s.threads t).first
    · simp only [hc, if_true, Except.ok.injEq] at hs
      subst hs
      have : fi = hi := lin_nodup_index hS.nodup hf (hc ▸ hS.head)
      subst this
      exact RInv.head_swing hS hR t _ x hx hlt (by simp [RThread.toG, hpc, RPc.toG, RPc.inSync, GPc.holds]) (by simp only [TInv, RThread.toG, RPc.toG]) (RThread.ok_of hok rfl rfl hok.1 (by simp [hpc, RPc.inSync]) (by simp [hpc, RPc.toG, RPc.inSync, GPc.holds]) (by simp [RPc.blank]) (by simp [RPc.helping]))
    · simp only [hc, if_false, Except.ok.injEq] at hs
      subst hs
      exact RInv.local hS hR t _ (by simp [RThread.toG, hpc, RPc.toG, RPc.inSync, GPc.holds]) (by simp only [TInv, RThread.toG, RPc.toG]) (RThread.ok_of hok rfl rfl hok.1 (by simp [hpc, RPc.inSync]) (by simp [hpc, RPc.toG, RPc.inSync, GPc.holds]) (by simp [RPc.blank]) (by simp [RPc.helping]))

theorem RInv.at_allocMarker {s s1 : RSystem} {t : Nat} {chain : List Nat} {hi ti : Nat}
    (hS : GStruct false false s.regular chain hi ti) (hR : RStruct s chain)
    (hpc : (s.threads t).pc = .allocMarker) (hs : s.step t .step = .ok s1) : RInv s1 := by
  have ht := hS.tinv t
  have hok := hR.threads t
  simp only [RSystem.regular, RThread.toG, hpc, RPc.toG, TInv] at ht
  simp only [RSystem.step, hpc, Except.ok.injEq] at hs
  subst hs
  refine RInv.alloc hS hR t _ ⟨0, none, some ⟨0, none, none⟩⟩ rfl (by simp) rfl
    (by simp [RPc.inSync]) (by simp [RPc.inSync]) ?_
  refine ⟨?_, ?_, by simp [RPc.inSync], by simp [RPc.blank], by simp [RPc.helping]⟩
  · intro x e
    have := hok.1 x e
    simp only [List.length_append, List.length_singleton]
    omega
  · intro _
    simp [RelaxedQueue.isMarker]

theorem RInv.at_fetchAdd {s s1 : RSystem} {t : Nat} {chain : List Nat} {hi ti : Nat}
    (hS : GStruct false false s.regular chain hi ti) (hR : RStruct s chain)
    (hpc : (s.threads t).pc = .fetchAdd) (hs : s.step t .step = .ok s1) : RInv s1 := by
  have ht := hS.tinv t
  have hok := hR.threads t
  simp only [RSystem.regular, RThread.toG, hpc, RPc.toG, TInv] at ht
  simp only [RSystem.step, hpc, Except.ok.injEq] at hs
  subst hs
  exact RInv.shape_step hS hR t _
    ⟨RelaxedQueue.rm_shape_of_mem rfl rfl rfl, RelaxedQueue.rm_qstruct_of_mem hR.queue rfl rfl⟩
    (by simp [RThread.toG, hpc, RPc.toG, RPc.inSync, GPc.holds]) (by simp only [TInv, RThread.toG, RPc.toG]) (RThread.ok_of hok rfl rfl hok.1 (by simp [hpc, RPc.inSync]) (by simp [hpc, RPc.toG, RPc.inSync, GPc.holds]) (by simp [RPc.blank]) (by simp [RPc.helping]))

theorem RInv.at_setCounter {s s1 : RSystem} {t : Nat} {chain : List Nat} {hi ti : Nat}
    (hS : GStruct false false s.regular chain hi ti) (hR : RStruct s chain)
    (hpc : (s.threads t).pc = .setCounter) (hs : s.step t .step = .ok s1) : RInv s1 := by
  have ht := hS.tinv t
  have hok := hR.threads t
  simp only [RSystem.regular, RThread.toG, hpc, RPc.toG, TInv] at ht
  simp only [RSystem.step, hpc] at hs
  split at hs
  · cases hs
  · rename_i q1 hq
    simp only [Except.ok.injEq] at hs
    subst hs
    exact RInv.shape_step hS hR t _ (RelaxedQueue.rm_setInvalid hR.queue hq) (by simp [RThread.toG, hpc, RPc.toG, RPc.inSync, GPc.holds]) (by simp only [TInv, RThread.toG, RPc.toG])
      (RThread.ok_of hok rfl rfl hok.1 (by simp [hpc, RPc.inSync]) (by simp [hpc, RPc.toG, RPc.inSync, GPc.holds])
        (by simp [RPc.blank]) (by simp [RPc.helping]))

theorem RInv.at_loadTail {s s1 : RSystem} {t : Nat} {chain : List Nat} {hi ti : Nat}
    (hS : GStruct false false s.regular chain hi ti) (hR : RStruct s chain)
    (hpc : (s.threads t).pc = .loadTail) (hs : s.step t .step = .ok s1) : RInv s1 := by
  have ht := hS.tinv t
  have hok := hR.threads t
  simp only [RSystem.regular, RThread.toG, hpc, RPc.toG, TInv] at ht
  simp only [RSystem.step, hpc, Except.ok.injEq] at hs
  subst hs
  refine RInv.local hS hR t _ (by simp [RThread.toG, hpc, RPc.toG, RPc.inSync, GPc.holds]) ?_ (RThread.ok_of hok rfl rfl hok.1 (by simp [hpc, RPc.inSync]) (by simp [hpc, RPc.toG, RPc.inSync, GPc.holds]) (by simp [RPc.blank]) (by simp [RPc.helping]))
  simp only [TInv, RThread.toG, RPc.toG]
  exact ⟨ti, hS.tail, le_refl _⟩

theorem RInv.at_loadNext {s s1 : RSystem} {t : Nat} {chain : List Nat} {hi ti : Nat}
    (hS : GStruct false false s.regular chain hi ti) (hR : RStruct s chain)
    (hpc : (s.threads t).pc = .loadNext) (hs : s.step t .step = .ok s1) : RInv s1 := by
  have ht := hS.tinv t
  have hok := hR.threads t
  simp only [RSystem.regular, RThread.toG, hpc, RPc.toG, TInv] at ht
  obtain ⟨li, hl, hli⟩ := ht
  simp only [RSystem.step, hpc] at hs
  split at hs
  · cases hs
  · rename_i lastNode hm
    have hn := RelaxedQueue.rm_load hm
    simp only [Except.ok.injEq] at hs
    subst hs
    refine RInv.local hS hR t _ (by simp [RThread.toG, hpc, RPc.toG, RPc.inSync, GPc.holds]) ?_
      (RThread.ok_of hok rfl rfl (fun x e => hR.queue.valid _ _ x hn e) (by simp [hpc, RPc.inSync]) (by simp [hpc, RPc.toG, RPc.inSync, GPc.holds]) (by simp [RPc.blank]) (by simp [RPc.helping]))
    simp only [TInv, RThread.toG, RPc.toG]
    refine ⟨li, hl, hli, ?_⟩
    intro x hx
    rw [← hS.links li _ hl]
    simp only [RSystem.regular, RelaxedQueue.rm_nxtAt, RelaxedQueue.rm_nxt_of hn]
    exact hx

theorem RInv.at_recheck {s s1 : RSystem} {t : Nat} {chain : List Nat} {hi ti : Nat}
    (hS : GStruct false false s.regular chain hi ti) (hR : RStruct s chain)
    (hpc : (s.threads t).pc = .recheck) (hs : s.step t .step = .ok s1) : RInv s1 := by
  have ht := hS.tinv t
  have hok := hR.threads t
  simp only [RSystem.regular, RThread.toG, hpc, RPc.toG, TInv] at ht
  obtain ⟨li, hl, hli, hx⟩ := ht
  simp only [RSystem.step, hpc] at hs
  split at hs
  · split at hs
    · rename_i hn
      simp only [Except.ok.injEq] at hs
      subst hs
      refine RInv.local hS hR t _ (by simp [RThread.toG, hpc, RPc.toG, RPc.inSync, GPc.holds]) ?_
        (RThread.ok_of hok rfl rfl hok.1 (by simp [hpc, RPc.inSync]) (by simp [hpc, RPc.toG, RPc.inSync, GPc.holds]) (fun _ => hn) (by simp [RPc.helping]))
      simp only [TInv, RThread.toG, RPc.toG, hn]
      exact ⟨li, hl, hli, rfl⟩
    · rename_i n hn
      split at hs
      · cases hs
      · rename_i hinv
        have hmk := RelaxedQueue.rm_isInvalid hinv
        simp only [Except.ok.injEq] at hs
        subst hs
        exact RInv.local hS hR t _ (by simp [RThread.toG, hpc, RPc.toG, RPc.inSync, GPc.holds]) (by simp only [TInv, RThread.toG, RPc.toG])
          (RThread.ok_of hok rfl rfl hok.1 (by simp [hpc, RPc.inSync]) (by simp [hpc, RPc.toG, RPc.inSync, GPc.holds]) (by simp [RPc.blank]) (fun _ => ⟨n, hn, hmk⟩))
      · rename_i hinv
        have hmk := RelaxedQueue.rm_isInvalid hinv
        simp only [Except.ok.injEq] at hs
        subst hs
        refine RInv.local hS hR t _ (by simp [RThread.toG, hpc, RPc.toG, RPc.inSync, GPc.holds]) ?_ (RThread.ok_of hok rfl rfl hok.1 (by simp [hpc, RPc.inSync]) (by simp [hpc, RPc.toG, RPc.inSync, GPc.holds]) (by simp [RPc.blank]) (by simp [RPc.helping]))
        have hh : s.queue.hide (s.threads t).next = some n := by
          rw [hn]
          exact RelaxedQueue.rm_hide_regular hmk
        simp only [TInv, RThread.toG, RPc.toG]
        exact ⟨li, n, hl, hli, hh, hx n hh⟩
  · simp only [Except.ok.injEq] at hs
    subst hs
    exact RInv.local hS hR t _ (by simp [RThread.toG, hpc, RPc.toG, RPc.inSync, GPc.holds]) (by simp only [TInv, RThread.toG, RPc.toG]) (RThread.ok_of hok rfl rfl hok.1 (by simp [hpc, RPc.inSync]) (by simp [hpc, RPc.toG, RPc.inSync, GPc.holds]) (by simp [RPc.blank]) (by simp [RPc.helping]))

theorem RInv.at_setTail {s s1 : RSystem} {t : Nat} {chain : List Nat} {hi ti : Nat}
    (hS : GStruct false false s.regular chain hi ti) (hR : RStruct s chain)
    (hpc : (s.threads t).pc = .setTail) (hs : s.step t .step = .ok s1) : RInv s1 := by
  have ht := hS.tinv t
  have hok := hR.threads t
  simp only [RSystem.regular, RThread.toG, hpc, RPc.toG, TInv] at ht
  simp only [RSystem.step, hpc] at hs
  split at hs
  · cases hs
  · rename_i q1 hq
    simp only [Except.ok.injEq] at hs
    subst hs
    exact RInv.shape_step hS hR t _ (RelaxedQueue.rm_setInvalid hR.queue hq) (by simp [RThread.toG, hpc, RPc.toG, RPc.inSync, GPc.holds]) (by simp only [TInv, RThread.toG, RPc.toG]; exact ht)
      (RThread.ok_of hok rfl rfl hok.1 (by simp [hpc, RPc.inSync]) (by simp [hpc, RPc.toG, RPc.inSync, GPc.holds])
        (fun _ => hok.2.2.2.1 (by simp [hpc, RPc.blank])) (by simp [RPc.helping]))

theorem RInv.at_block {s s1 : RSystem} {t : Nat} {chain : List Nat} {hi ti : Nat}
    (hS : GStruct false false s.regular chain hi ti) (hR : RStruct s chain)
    (hpc : (s.threads t).pc = .block) (hs : s.step t .step = .ok s1) : RInv s1 := by
  have ht := hS.tinv t
  have hok := hR.threads t
  simp only [RSystem.regular, RThread.toG, hpc, RPc.toG, TInv] at ht
  obtain ⟨li, hl, hli, -⟩ := ht
  have hnone : (s.threads t).next = none := hok.2.2.2.1 (by simp [hpc, RPc.blank])
  have hmk : s.queue.isMarker (s.threads t).invalid = true := hok.2.1 (by simp [hpc, RPc.inSync])
  simp only [RSystem.step, hpc] at hs
  split at hs
  · cases hs
  · rename_i q1 hc
    simp only [Except.ok.injEq] at hs
    subst hs
    rw [hnone] at hc
    obtain ⟨cn, hm, hcase⟩ := RelaxedQueue.rm_casNext_cases hc
    rcases hcase with ⟨-, hnn, -⟩ | ⟨hb, -⟩
    · have hmG : s.regular.mem[(s.threads t).last]? = some ⟨cn.value, none, false⟩ := by
        simp only [RSystem.regular, RelaxedQueue.rm_get, hm, Option.map_some', hnn,
          RelaxedQueue.hide]
      have hlen := hS.end_of_list hl hmG rfl
      have hlt := lin_get_lt hS.tail
      have hli1 : li = ti := by omega
      subst hli1
      have hlast : (s.threads t).last = s.queue.tail := by
        have h1 := hS.tail
        rw [hl] at h1
        injection h1
      rw [hlast] at hc
      exact RInv.shape_step hS hR t _
        (RelaxedQueue.rm_mark hR.queue hc hmk (hR.regular _ (lin_get_mem hS.tail)))
        (by simp [RThread.toG, hpc, RPc.toG, RPc.inSync, GPc.holds]) (by simp only [TInv, RThread.toG, RPc.toG]) (RThread.ok_of hok rfl rfl hok.1 (by simp [hpc, RPc.inSync]) (by simp [hpc, RPc.toG, RPc.inSync, GPc.holds]) (by simp [RPc.blank]) (by simp [RPc.helping]))
    · cases hb
  · rename_i q1 hc
    simp only [Except.ok.injEq] at hs
    subst hs
    obtain ⟨cn, hm, hcase⟩ := RelaxedQueue.rm_casNext_cases hc
    rcases hcase with ⟨hb, -, -⟩ | ⟨-, rfl⟩
    · cases hb
    · exact RInv.local hS hR t _ (by simp [RThread.toG, hpc, RPc.toG, RPc.inSync, GPc.holds]) (by simp only [TInv, RThread.toG, RPc.toG]) (RThread.ok_of hok rfl rfl hok.1 (by simp [hpc, RPc.inSync]) (by simp [hpc, RPc.toG, RPc.inSync, GPc.holds]) (by simp [RPc.blank]) (by simp [RPc.helping]))

theorem RInv.at_ownCasHead {s s1 : RSystem} {t : Nat} {chain : List Nat} {hi ti : Nat}
    (hS : GStruct false false s.regular chain hi ti) (hR : RStruct s chain)
    (hpc : (s.threads t).pc = .ownCasHead) (hs : s.step t .step = .ok s1) : RInv s1 := by
  have ht := hS.tinv t
  have hok := hR.threads t
  simp only [RSystem.regular, RThread.toG, hpc, RPc.toG, TInv] at ht
  simp only [RSystem.step, hpc] at hs
  split at hs
  · cases hs
  · rename_i b q1 hq
    simp only [Except.ok.injEq] at hs
    subst hs
    exact RInv.shape_step hS hR t _ (RelaxedQueue.rm_casInvalidHead hR.queue hq) (by simp [RThread.toG, hpc, RPc.toG, RPc.inSync, GPc.holds]) (by simp only [TInv, RThread.toG, RPc.toG])
      (RThread.ok_of hok rfl rfl hok.1 (by simp [hpc, RPc.inSync]) (by simp [hpc, RPc.toG, RPc.inSync, GPc.holds]) (by simp [RPc.blank]) (by simp [RPc.helping]))

theorem RInv.at_unblock {s s1 : RSystem} {t : Nat} {chain : List Nat} {hi ti : Nat}
    (hS : GStruct false false s.regular chain hi ti) (hR : RStruct s chain)
    (hpc : (s.threads t).pc = .unblock) (hs : s.step t .step = .ok s1) : RInv s1 := by
  have ht := hS.tinv t
  have hok := hR.threads t
  simp only [RSystem.regular, RThread.toG, hpc, RPc.toG, TInv] at ht
  have hmk : s.queue.isMarker (s.threads t).invalid = true := hok.2.1 (by simp [hpc, RPc.inSync])
  simp only [RSystem.step, hpc] at hs
  split at hs
  · cases hs
  · rename_i b q1 hq
    simp only [Except.ok.injEq] at hs
    subst hs
    exact RInv.shape_step hS hR t _ (RelaxedQueue.rm_unlink hR.queue hq hmk) (by simp [RThread.toG, hpc, RPc.toG, RPc.inSync, GPc.holds]) (by simp only [TInv, RThread.toG, RPc.toG])
      (RThread.ok_of hok rfl rfl hok.1 (by simp [hpc, RPc.inSync]) (by simp [hpc, RPc.toG, RPc.inSync, GPc.holds]) (by simp [RPc.blank]) (by simp [RPc.helping]))

theorem RInv.at_coop {s s1 : RSystem} {t : Nat} {chain : List Nat} {hi ti : Nat}
    (hS : GStruct false false s.regular chain hi ti) (hR : RStruct s chain)
    (hpc : (s.threads t).pc = .coop ride hx) (hs : s.step t .step = .ok s1) : RInv s1 := by
  have ht := hS.tinv t
  have hok := hR.threads t
  simp only [RSystem.regular, RThread.toG, hpc, RPc.toG, TInv] at ht
  obtain ⟨n, hn, hmk⟩ := hok.2.2.2.2 (by simp [hpc, RPc.helping])
  simp only [RSystem.step, hpc, hn] at hs
  split at hs
  · cases hs
  · rename_i q1 th1 h1 hc
    simp only [Except.ok.injEq] at hs
    subst hs
    obtain ⟨hsh, hq1, sh, st, rfl⟩ := RelaxedQueue.rm_coop hR.queue hc hmk
    exact RInv.shape_step hS hR t _ ⟨hsh, hq1⟩ (by simp [RThread.toG, hpc, RPc.toG, RPc.inSync, GPc.holds]) (by simp only [TInv, RThread.toG, RPc.toG])
      (RThread.ok_of hok rfl rfl hok.1 (by simp [hpc, RPc.inSync]) (by simp [hpc, RPc.toG, RPc.inSync, GPc.holds]) (by simp [RPc.blank]) (fun _ => ⟨n, hn, hmk⟩))
  · rename_i q1 th1 hc
    simp only [Except.ok.injEq] at hs
    subst hs
    obtain ⟨hsh, hq1, sh, st, rfl⟩ := RelaxedQueue.rm_coop hR.queue hc hmk
    refine RInv.shape_step hS hR t _ ⟨hsh, hq1⟩ ?_ ?_ ?_
    · cases ride <;> simp [RThread.toG, hpc, RPc.toG, RPc.inSync, GPc.holds]
    · cases ride <;> simp only [TInv, RThread.toG, RPc.toG, if_true, Bool.false_eq_true, if_false]
    · refine RThread.ok_of hok rfl rfl hok.1 ?_ ?_ ?_ ?_
      · cases ride <;> simp [hpc, RPc.inSync]
      · cases ride <;> simp [hpc, RPc.toG, RPc.inSync, GPc.holds]
      · cases ride <;> simp [RPc.blank]
      · cases ride <;> simp [RPc.helping]

theorem RInv.at_copyStoreCounter {s s1 : RSystem} {t : Nat} {chain : List Nat} {hi ti : Nat}
    (hS : GStruct false false s.regular chain hi ti) (hR : RStruct s chain)
    (hpc : (s.threads t).pc = .copyStoreCounter) (hs : s.step t .step = .ok s1) : RInv s1 := by
  have ht := hS.tinv t
  have hok := hR.threads t
  simp only [RSystem.regular, RThread.toG, hpc, RPc.toG, TInv] at ht
  simp only [RSystem.step, hpc] at hs
  split at hs
  · cases hs
  · rename_i q1 hq
    simp only [Except.ok.injEq] at hs
    subst hs
    exact RInv.shape_step hS hR t _ (RelaxedQueue.rm_setInvalid hR.queue hq) (by simp [RThread.toG, hpc, RPc.toG, RPc.inSync, GPc.holds]) (by simp only [TInv, RThread.toG, RPc.toG])
      (RThread.ok_of hok rfl rfl hok.1 (by simp [hpc, RPc.inSync]) (by simp [hpc, RPc.toG, RPc.inSync, GPc.holds])
        (by simp [RPc.blank]) (by simp [RPc.helping]))

theorem RInv.at_copyStoreTail {s s1 : RSystem} {t : Nat} {chain : List Nat} {hi ti : Nat}
    (hS : GStruct false false s.regular chain hi ti) (hR : RStruct s chain)
    (hpc : (s.threads t).pc = .copyStoreTail) (hs : s.step t .step = .ok s1) : RInv s1 := by
  have ht := hS.tinv t
  have hok := hR.threads t
  simp only [RSystem.regular, RThread.toG, hpc, RPc.toG, TInv] at ht
  simp only [RSystem.step, hpc] at hs
  split at hs
  · cases hs
  · rename_i q1 hq
    simp only [Except.ok.injEq] at hs
    subst hs
    exact RInv.shape_step hS hR t _ (RelaxedQueue.rm_setInvalid hR.queue hq) (by simp [RThread.toG, hpc, RPc.toG, RPc.inSync, GPc.holds]) (by simp only [TInv, RThread.toG, RPc.toG])
      (RThread.ok_of hok rfl rfl hok.1 (by simp [hpc, RPc.inSync]) (by simp [hpc, RPc.toG, RPc.inSync, GPc.holds])
        (by simp [RPc.blank]) (by simp [RPc.helping]))

theorem RInv.at_copyStoreHead {s s1 : RSystem} {t : Nat} {chain : List Nat} {hi ti : Nat}
    (hS : GStruct false false s.regular chain hi ti) (hR : RStruct s chain)
    (hpc : (s.threads t).pc = .copyStoreHead) (hs : s.step t .step = .ok s1) : RInv s1 := by
  have ht := hS.tinv t
  have hok := hR.threads t
  simp only [RSystem.regular, RThread.toG, hpc, RPc.toG, TInv] at ht
  simp only [RSystem.step, hpc] at hs
  split at hs
  · cases hs
  · rename_i q1 hq
    simp only [Except.ok.injEq] at hs
    subst hs
    exact RInv.shape_step hS hR t _ (RelaxedQueue.rm_setInvalid hR.queue hq) (by simp [RThread.toG, hpc, RPc.toG, RPc.inSync, GPc.holds]) (by simp only [TInv, RThread.toG, RPc.toG])
      (RThread.ok_of hok rfl rfl hok.1 (by simp [hpc, RPc.inSync]) (by simp [hpc, RPc.toG, RPc.inSync, GPc.holds])
        (by simp [RPc.blank]) (by simp [RPc.helping]))

theorem RInv.at_helpTail {s s1 : RSystem} {t : Nat} {chain : List Nat} {hi ti : Nat}
    (hS : GStruct false false s.regular chain hi ti) (hR : RStruct s chain)
    (hpc : (s.threads t).pc = .helpTail) (hs : s.step t .step = .ok s1) : RInv s1 := by
  have ht := hS.tinv t
  have hok := hR.threads t
  simp only [RSystem.regular, RThread.toG, hpc, RPc.toG, TInv] at ht
  obtain ⟨li, x, hl, hli, hh, hx⟩ := ht
  obtain ⟨hn, -⟩ := RelaxedQueue.rm_hide_some.1 hh
  simp only [RSystem.step, hpc] at hs
  split at hs
  · cases hs
  · rename_i nx hnx
    rw [hn] at hnx
    injection hnx with hnx
    subst hnx
    simp only [Except.ok.injEq] at hs
    subst hs
    exact RInv.try_tail hS hR t _ li _ hl hx (by simp [RThread.toG, hpc, RPc.toG, RPc.inSync, GPc.holds]) (fun _ => (by simp only [TInv, RThread.toG, RPc.toG])) (RThread.ok_of hok rfl rfl hok.1 (by simp [hpc, RPc.inSync]) (by simp [hpc, RPc.toG, RPc.inSync, GPc.holds]) (by simp [RPc.blank]) (by simp [RPc.helping]))

theorem RInv.at_allocSnapshot {s s1 : RSystem} {t : Nat} {chain : List Nat} {hi ti : Nat}
    (hS : GStruct false false s.regular chain hi ti) (hR : RStruct s chain)
    (hpc : (s.threads t).pc = .allocSnapshot) (hs : s.step t .step = .ok s1) : RInv s1 := by
  have ht := hS.tinv t
  have hok := hR.threads t
  simp only [RSystem.regular, RThread.toG, hpc, RPc.toG, TInv] at ht
  simp only [RSystem.step, hpc] at hs
  split at hs
  · cases hs
  · simp only [Except.ok.injEq] at hs
    subst hs
    exact RInv.shape_step hS hR t _
      ⟨RelaxedQueue.rm_shape_of_mem rfl rfl rfl, RelaxedQueue.rm_qstruct_of_mem hR.queue rfl rfl⟩
      (by simp [RThread.toG, hpc, RPc.toG, RPc.inSync, GPc.holds]) (by simp only [TInv, RThread.toG, RPc.toG]) (RThread.ok_of hok rfl rfl hok.1 (by simp [hpc, RPc.inSync]) (by simp [hpc, RPc.toG, RPc.inSync, GPc.holds]) (by simp [RPc.blank]) (by simp [RPc.helping]))

theorem RInv.at_install {s s1 : RSystem} {t : Nat} {chain : List Nat} {hi ti : Nat}
    (hS : GStruct false false s.regular chain hi ti) (hR : RStruct s chain)
    (hpc : (s.threads t).pc = .install) (hs : s.step t .step = .ok s1) : RInv s1 := by
  have ht := hS.tinv t
  have hok := hR.threads t
  simp only [RSystem.regular, RThread.toG, hpc, RPc.toG, TInv] at ht
  simp only [RSystem.step, hpc, RelaxedQueue.casData] at hs
  by_cases hc : s.queue.data = (s.threads t).currData
  · simp only [hc, if_true, Except.ok.injEq] at hs
    subst hs
    exact RInv.shape_step hS hR t _
      ⟨RelaxedQueue.rm_shape_of_mem rfl rfl rfl, RelaxedQueue.rm_qstruct_of_mem hR.queue rfl rfl⟩
      (by simp [RThread.toG, hpc, RPc.toG, RPc.inSync, GPc.holds]) (by simp only [TInv, RThread.toG, RPc.toG]) (RThread.ok_of hok rfl rfl hok.1 (by simp [hpc, RPc.inSync]) (by simp [hpc, RPc.toG, RPc.inSync, GPc.holds]) (by simp [RPc.blank]) (by simp [RPc.helping]))
  · simp only [hc, if_false, Except.ok.injEq] at hs
    subst hs
    exact RInv.local hS hR t _ (by simp [RThread.toG, hpc, RPc.toG, RPc.inSync, GPc.holds]) (by simp only [TInv, RThread.toG, RPc.toG]) (RThread.ok_of hok rfl rfl hok.1 (by simp [hpc, RPc.inSync]) (by simp [hpc, RPc.toG, RPc.inSync, GPc.holds]) (by simp [RPc.blank]) (by simp [RPc.helping]))

/-- A step of a thread preserves the invariant. -/
theorem RInv.keep_step {s s1 : RSystem} {t : Nat} {a : RAct} (h : RInv s)
    (hs : s.step t a = .ok s1) : RInv s1 := by
  obtain ⟨chain, hi, ti, hS, hR⟩ := h
  have hok := hR.threads t
  cases a with
  | call op =>
    simp only [RSystem.step] at hs
    split at hs
    · rename_i hpc
      cases op <;>
      · simp only [Except.ok.injEq] at hs
        subst hs
        exact RInv.local hS hR t _ (by simp [RThread.toG, hpc, RPc.toG, RPc.inSync, GPc.holds]) (by simp only [TInv, RThread.toG, RPc.toG]) (RThread.ok_of hok rfl rfl hok.1 (by simp [hpc, RPc.inSync]) (by simp [hpc, RPc.toG, RPc.inSync, GPc.holds]) (by simp [RPc.blank]) (by simp [RPc.helping]))
    · simp only [Except.ok.injEq] at hs
      subst hs
      exact ⟨chain, hi, ti, hS, hR⟩
  | step =>
    cases hpc : (s.threads t).pc with
    | idle =>
      simp only [RSystem.step, hpc, Except.ok.injEq] at hs
      subst hs
      exact ⟨chain, hi, ti, hS, hR⟩
    | enqNew => exact RInv.at_enqNew hS hR hpc hs
    | enqLoadTail => exact RInv.at_enqLoadTail hS hR hpc hs
    | enqLoadNext => exact RInv.at_enqLoadNext hS hR hpc hs
    | enqCheck => exact RInv.at_enqCheck hS hR hpc hs
    | enqCasNext => exact RInv.at_enqCasNext hS hR hpc hs
    | enqCasTail => exact RInv.at_enqCasTail hS hR hpc hs
    | enqCoop hx => exact RInv.at_enqCoop hS hR hpc hs
    | enqHelp => exact RInv.at_enqHelp hS hR hpc hs
    | deqLoadHead => exact RInv.at_deqLoadHead hS hR hpc hs
    | deqLoadTail => exact RInv.at_deqLoadTail hS hR hpc hs
    | deqLoadNext => exact RInv.at_deqLoadNext hS hR hpc hs
    | deqCheck => exact RInv.at_deqCheck hS hR hpc hs
    | deqCoop hx => exact RInv.at_deqCoop hS hR hpc hs
    | deqHelp => exact RInv.at_deqHelp hS hR hpc hs
    | deqLoadValue => exact RInv.at_deqLoadValue hS hR hpc hs
    | deqCasHead => exact RInv.at_deqCasHead hS hR hpc hs
    | allocMarker => exact RInv.at_allocMarker hS hR hpc hs
    | fetchAdd => exact RInv.at_fetchAdd hS hR hpc hs
    | setCounter => exact RInv.at_setCounter hS hR hpc hs
    | loadTail => exact RInv.at_loadTail hS hR hpc hs
    | loadNext => exact RInv.at_loadNext hS hR hpc hs
    | recheck => exact RInv.at_recheck hS hR hpc hs
    | setTail => exact RInv.at_setTail hS hR hpc hs
    | block => exact RInv.at_block hS hR hpc hs
    | ownCasHead => exact RInv.at_ownCasHead hS hR hpc hs
    | unblock => exact RInv.at_unblock hS hR hpc hs
    | coop ride hx => exact RInv.at_coop hS hR hpc hs
    | copyStoreCounter => exact RInv.at_copyStoreCounter hS hR hpc hs
    | copyStoreTail => exact RInv.at_copyStoreTail hS hR hpc hs
    | copyStoreHead => exact RInv.at_copyStoreHead hS hR hpc hs
    | helpTail => exact RInv.at_helpTail hS hR hpc hs
    | allocSnapshot => exact RInv.at_allocSnapshot hS hR hpc hs
    | install => exact RInv.at_install hS hR hpc hs
    | _ =>
      simp only [RSystem.step, hpc] at hs
      repeat' first
        | (cases hs; done)
        | (simp only [Except.ok.injEq] at hs
           subst hs
           exact RInv.local hS hR t _ (by simp [RThread.toG, hpc, RPc.toG, RPc.inSync, GPc.holds]) (by simp only [TInv, RThread.toG, RPc.toG]) (RThread.ok_of hok rfl rfl hok.1 (by simp [hpc, RPc.inSync]) (by simp [hpc, RPc.toG, RPc.inSync, GPc.holds]) (by simp [RPc.blank]) (by first | (simp [RPc.helping]; done) | exact fun _ => hok.2.2.2.2 (by simp [hpc, RPc.helping]))))
        | split at hs

theorem RInv.initial : RInv RSystem.start := by
  have hreg : RSystem.start.regular = GState.init := by
    simp only [RSystem.regular, RSystem.start, GState.init, RelaxedQueue.new,
      RelaxedQueue.regularMem, RThread.toG, RThread.init, RPc.toG, RPc.inSync,
      RelaxedQueue.hide, List.map_cons, List.map_nil]
    rfl
  obtain ⟨chain, hi, ti, hS, -⟩ := GInv.init false false
  refine ⟨chain, hi, ti, hreg ▸ hS, ?_, ?_, ?_⟩
  · refine ⟨?_, ?_, ?_⟩
    · intro a n x e1 e2
      have ha : a = 0 := by
        have := heap_lt e1
        simp [RSystem.start, RelaxedQueue.new] at this
        exact this
      subst ha
      simp [RSystem.start, RelaxedQueue.new] at e1
      subst e1
      cases e2
    · intro a n e1 e2
      have ha : a = 0 := by
        have := heap_lt e1
        simp [RSystem.start, RelaxedQueue.new] at this
        exact this
      subst ha
      simp [RSystem.start, RelaxedQueue.new] at e1
      subst e1
      cases e2
    · intro a m e1 e2
      have hm := RelaxedQueue.rm_isMarker_lt e2
      have hm0 : m = 0 := by
        simp [RSystem.start, RelaxedQueue.new] at hm
        exact hm
      subst hm0
      simp [RSystem.start, RelaxedQueue.new, RelaxedQueue.isMarker] at e2
  · intro a ha
    have hb := hS.bound a ha
    have ha0 : a = 0 := by
      simp [GState.init] at hb
      exact hb
    subst ha0
    simp [RSystem.start, RelaxedQueue.new, RelaxedQueue.isMarker]
  · intro t
    refine ⟨?_, ?_, ?_, ?_, ?_⟩ <;>
      simp [RSystem.start, RThread.init, RPc.inSync, RPc.toG, GPc.holds, RPc.blank,
        RPc.helping]

theorem RInv.reachable {schedule : List (Nat × RAct)} :
    ∀ {s s1 : RSystem}, RInv s → RSystem.run schedule s = .ok s1 → RInv s1 := by
  induction schedule with
  | nil =>
    intro s s1 h hr
    simp only [RSystem.run, Except.ok.injEq] at hr
    subst hr
    exact h
  | cons x rest ih =>
    intro s s1 h hr
    obtain ⟨t, a⟩ := x
    simp only [RSystem.run] at hr
    cases hst : s.step t a with
    | error e => simp [hst] at hr
    | ok s2 =>
      simp only [hst] at hr
      exact ih (h.keep_step hst) hr

/-- The nodes of the list from an element on form a path of `next` pointers
that ends at the last element of the list. -/
theorem RInv.path {s : RSystem} {chain : List Nat} {hi ti : Nat}
    (hS : GStruct false false s.regular chain hi ti) :
    ∀ (l : List Nat) (i a : Nat), chain.drop i = a :: l →
      Seg s.queue.nxt a l ∧ chain[chain.length - 1]? = some (chainLast a l) := by
  intro l
  induction l with
  | nil =>
    intro i a h
    refine ⟨trivial, ?_⟩
    have hlen : chain.length = i + 1 := by
      have := congrArg List.length h
      simp only [List.length_drop, List.length_singleton] at this
      omega
    have ha : chain[i]? = some a := by
      have := congrArg (fun l => l[0]?) h
      simpa using this
    simp only [chainLast, hlen, Nat.add_sub_cancel]
    exact ha
  | cons b l ih =>
    intro i a h
    have ha : chain[i]? = some a := by
      have := congrArg (fun l => l[0]?) h
      simpa using this
    have hb : chain[i + 1]? = some b := by
      have := congrArg (fun l => l[1]?) h
      simpa using this
    have hd : chain.drop (i + 1) = b :: l := by
      have := congrArg List.tail h
      simpa using this
    obtain ⟨h1, h2⟩ := ih (i + 1) b hd
    have hlk := RelaxedQueue.rm_link ((hS.links i a ha).trans hb)
    exact ⟨⟨hlk.1, h1⟩, h2⟩

/-- What the invariant says about the markers of a state. -/
theorem RInv.single_marker {s : RSystem} (h : RInv s) :
    s.queue.isMarker s.queue.head = false ∧ s.queue.isMarker s.queue.tail = false ∧
    ∀ a m, s.queue.nxt a = some m → s.queue.isMarker m = true →
      (∀ b m1, s.queue.nxt b = some m1 → s.queue.isMarker m1 = true → b = a) ∧
      a = s.queue.tail ∧ s.queue.nxt m = none ∧
      ∃ l, Seg s.queue.nxt s.queue.head l ∧ chainLast s.queue.head l = a ∧
        ∀ x ∈ s.queue.head :: l, s.queue.isMarker x = false := by
  obtain ⟨chain, hi, ti, hS, hR⟩ := h
  refine ⟨hR.regular _ (lin_get_mem hS.head), hR.regular _ (lin_get_mem hS.tail), ?_⟩
  intro a m e1 e2
  have ha := hR.queue.atTail a m e1 e2
  refine ⟨fun b m1 e3 e4 => (hR.queue.atTail b m1 e3 e4).trans ha.symm, ha, ?_, ?_⟩
  · obtain ⟨n, hn⟩ := heap_get _ _ (RelaxedQueue.rm_isMarker_lt e2)
    rw [RelaxedQueue.rm_nxt_of hn]
    refine (hR.queue.marker m n hn ?_).1
    rw [← RelaxedQueue.rm_isMarker_of hn]
    exact e2
  · have hlt := lin_get_lt hS.head
    have hd : chain.drop hi = s.queue.head :: chain.drop (hi + 1) := by
      rw [List.drop_eq_getElem_cons hlt]
      congr 1
      have h1 := hS.head
      rw [List.getElem?_eq_getElem hlt] at h1
      injection h1
    obtain ⟨h1, h2⟩ := RInv.path hS _ hi _ hd
    refine ⟨chain.drop (hi + 1), h1, ?_, ?_⟩
    · subst ha
      have hend : chain.length = ti + 1 := by
        have h4 : GState.nxtAt s.regular.mem s.queue.tail = none := by
          simp only [RSystem.regular, RelaxedQueue.rm_nxtAt, e1]
          exact RelaxedQueue.rm_hide_marker e2
        have h3 : none = chain[ti + 1]? := h4.symm.trans (hS.links ti _ hS.tail)
        have h5 := lin_get_lt hS.tail
        by_contra hc
        rw [List.getElem?_eq_getElem (by omega)] at h3
        cases h3
      rw [hend, Nat.add_sub_cancel, hS.tail] at h2
      injection h2 with h2
      exact h2.symm
    · intro x hx
      refine hR.regular x ?_
      rcases List.mem_cons.1 hx with rfl | hx
      · exact lin_get_mem hS.head
      · exact List.mem_of_mem_drop hx

/-! ## Detectable queue: retry loops on a cyclic list -/

namespace LogQueue

/-- On a list in which `tail` lies on a cycle of `next` pointers the loop of
`enq` helps `tail` around the cycle and never returns. -/
theorem lq_enqLoop_cycle (C : Nat → Prop) (node : Nat) :
    ∀ (fuel : Nat) (q : LogQueue),
      (∀ a, C a → ∃ n b, q.mem[a]? = some n ∧ n.next = some b ∧ C b) → C q.tail →
      enqLoop node fuel q = .error .fuel := by
  intro fuel
  induction fuel with
  | zero =>
    intro q _ _
    rfl
  | succ k ih =>
    intro q hC ht
    obtain ⟨n, b, hn, hb, hcb⟩ := hC q.tail ht
    simp only [enqLoop, load, hn, hb, if_true]
    apply ih
    · intro a ha
      simpa [casTail] using hC a ha
    · simpa [casTail] using hcb

/-- On a list in which `head` and `tail` lie on a cycle of `next` pointers all
of whose nodes carry a `logDeq` entry, the loop of `deq` helps `tail` and `head`
around the cycle and never returns. -/
theorem lq_deqLoop_cycle (C : Nat → Prop) (threadID : Int) (log : Nat) :
    ∀ (fuel : Nat) (q : LogQueue),
      (∀ a, C a → ∃ n b e, q.mem[a]? = some n ∧ n.next = some b ∧ C b ∧
        n.logDeq = some e ∧ e < q.entries.length) →
      C q.head → C q.tail → deqLoop threadID log fuel q = .error .fuel := by
  intro fuel
  induction fuel with
  | zero =>
    intro q _ _ _
    rfl
  | succ k ih =>
    intro q hC hh ht
    obtain ⟨n, b, e, hn, hb, hcb, -, -⟩ := hC q.head hh
    obtain ⟨nb, b2, eb, hnb, -, -, heb, hlt⟩ := hC b hcb
    obtain ⟨x, hx⟩ := heap_get _ _ hlt
    simp only [deqLoop, load, hn, hb, if_true]
    by_cases hft : q.head = q.tail
    · simp only [hft, if_true]
      apply ih
      · intro a ha
        simpa [casTail] using hC a ha
      · simpa [casTail] using hh
      · simpa [casTail, hft] using hcb
    · simp only [hft, if_false, casLogDeq, hnb, heb, load, setNode, hx]
      simp only [reduceCtorEq, if_false, if_true, hnb, heb, hx]
      apply ih
      · intro a ha
        obtain ⟨n1, b1, e1, h1, h2, h3, h4, h5⟩ := hC a ha
        refine ⟨n1, b1, e1, ?_, h2, h3, h4, ?_⟩
        · simpa [casHead] using h1
        · simpa [casHead] using h5
      · simpa [casHead] using hcb
      · simpa [casHead] using ht

end LogQueue

/-- A thread that runs `enq` alone on a list whose `tail` lies on a cycle of
`next` pointers never returns. -/
theorem LogQueue.lq_enq_spin (C : Nat → Prop) (q : LogQueue) (v t op : Int) (fuel : Nat)
    (h0 : 0 ≤ t) (h1 : t < MAX_THREADS) (harr : (q.arrays[q.logs]?).isSome = true)
    (hC : ∀ a, C a → ∃ b, q.nxt a = some b ∧ C b) (ht : C q.tail) :
    q.enq fuel v t op = .error .fuel := by
  obtain ⟨f, hf⟩ := Option.isSome_iff_exists.1 harr
  simp only [LogQueue.enq, LogQueue.createEnqLogAndNode, LogQueue.setLog, slot_eq h0 h1, hf]
  refine LogQueue.lq_enqLoop_cycle C _ fuel _ ?_ ht
  intro a ha
  obtain ⟨b, hb, hcb⟩ := hC a ha
  simp only [LogQueue.nxt] at hb
  cases hm : q.mem[a]? with
  | none => simp [hm] at hb
  | some n =>
    simp only [hm, Option.some_bind] at hb
    exact ⟨n, b, by simp only [heap_push_old _ _ _ (heap_lt hm), hm], hb, hcb⟩

/-- A thread that runs `deq` alone on a list whose `head` and `tail` lie on a
cycle of `next` pointers, all of whose nodes carry a `logDeq` entry, never
returns. -/
theorem LogQueue.lq_deq_spin (C : Nat → Prop) (q : LogQueue) (t op : Int) (fuel : Nat)
    (h0 : 0 ≤ t) (h1 : t < MAX_THREADS) (harr : (q.arrays[q.logs]?).isSome = true)
    (hC : ∀ a, C a → ∃ b e, q.nxt a = some b ∧ C b ∧
      (q.mem[a]?).bind (·.logDeq) = some e ∧ e < q.entries.length)
    (hh : C q.head) (ht : C q.tail) :
    q.deq fuel t op = .error .fuel := by
  obtain ⟨f, hf⟩ := Option.isSome_iff_exists.1 harr
  simp only [LogQueue.deq, LogQueue.createDeqLog, LogQueue.setLog, slot_eq h0 h1, hf]
  refine LogQueue.lq_deqLoop_cycle C _ _ fuel _ ?_ hh ht
  intro a ha
  obtain ⟨b, e, hb, hcb, he, hlt⟩ := hC a ha
  simp only [LogQueue.nxt] at hb
  cases hm : q.mem[a]? with
  | none => simp [hm] at hb
  | some n =>
    simp only [hm, Option.some_bind] at hb he
    refine ⟨n, b, e, rfl, hb, hcb, he, ?_⟩
    simp only [List.length_append, List.length_singleton]
    omega

/-! ## Durable queue: claims of nodes in interleaved executions -/

theorem QSystem.qs_run_append {Q Pc : Type}
    (step : QSystem Q Pc → Nat → Act → Except Err (QSystem Q Pc)) (a b : List (Nat × Act)) :
    ∀ s : QSystem Q Pc, QSystem.run step (a ++ b) s =
      match QSystem.run step a s with
      | .error e => .error e
      | .ok s1 => QSystem.run step b s1 := by
  induction a with
  | nil => intro s; rfl
  | cons c rest ih =>
    intro s
    obtain ⟨t, x⟩ := c
    simp only [List.cons_append, QSystem.run]
    cases step s t x with
    | error e => rfl
    | ok s1 => exact ih s1

namespace DurableQueue

theorem dq_casThreadID_claim {q q1 : DurableQueue} {p : Nat} {id : Int} {b : Bool}
    (h : q.casThreadID p (-1) id = .ok (b, q1)) :
    (q.tid p = some (-1) ∧ b = true ∧ q1.tid p = some id ∧
        ∀ a, a ≠ p → q1.tid a = q.tid a) ∨
      (q.tid p ≠ some (-1) ∧ b = false ∧ q1 = q) := by
  unfold DurableQueue.casThreadID at h
  split at h
  · rename_i n hn
    split at h
    · rename_i hv
      simp only [Except.ok.injEq, Prod.mk.injEq] at h
      obtain ⟨rfl, rfl⟩ := h
      left
      refine ⟨by simp [DurableQueue.tid, hn, hv], rfl, ?_, ?_⟩
      · simp [DurableQueue.tid, heap_set_self _ _ _ (heap_lt hn)]
      · intro a ha
        simp [DurableQueue.tid, heap_set_other _ _ _ _ ha]
    · rename_i hv
      simp only [Except.ok.injEq, Prod.mk.injEq] at h
      obtain ⟨rfl, rfl⟩ := h
      right
      refine ⟨?_, rfl, rfl⟩
      simp only [DurableQueue.tid, hn, Option.map_some', ne_eq, Option.some.injEq]
      exact hv
  · cases h

theorem dq_alloc_tid (q : DurableQueue) (n : NodeWithID) (hn : n.threadID = -1) (x : Nat) :
    DurableQueue.tid { q with mem := q.mem ++ [n] } x = q.tid x ∨
      (q.tid x = none ∧ DurableQueue.tid { q with mem := q.mem ++ [n] } x = some (-1)) := by
  simp only [DurableQueue.tid]
  rcases Nat.lt_trichotomy x q.mem.length with h | h | h
  · left
    rw [List.getElem?_append_left h]
  · right
    subst h
    simp [hn]
  · left
    rw [List.getElem?_eq_none (by simp; omega), List.getElem?_eq_none (by omega)]

/-- One action either makes no claim, and then changes no `threadID` except for
the `-1` of the node that `enq` allocates, or makes one claim, which takes the
`threadID` of the node from `-1` to the thread id of the call. -/
theorem dq_step_tid (s : QSystem DurableQueue Pc) (t : Nat) (a : Act)
    (s1 : QSystem DurableQueue Pc) (hp : Published s) (hs : step s t a = .ok s1) :
    (claimOf s t a = [] ∧ ∀ x, s1.queue.tid x = s.queue.tid x ∨
        (s.queue.tid x = none ∧ s1.queue.tid x = some (-1) ∧ (s.threads t).pc = .enqNew)) ∨
      (∃ y, claimOf s t a = [(y, (s.threads t).threadID)] ∧
        (s.threads t).pc = .deqCasThreadID ∧ (s.threads t).next = some y ∧
        (s.threads t).threadID ≠ -1 ∧ s.queue.tid y = some (-1) ∧
        s1.queue.tid y = some (s.threads t).threadID ∧
        ∀ x, x ≠ y → s1.queue.tid x = s.queue.tid x) := by
  cases a with
  | call c =>
    left
    simp only [step] at hs
    refine ⟨rfl, fun x => Or.inl ?_⟩
    split at hs
    · cases c <;> (simp only [Except.ok.injEq] at hs; subst hs; rfl)
    · simp only [Except.ok.injEq] at hs
      subst hs
      rfl
  | step =>
    cases hpc : (s.threads t).pc with
    | enqNew =>
      left
      refine ⟨by simp [claimOf, hpc], fun x => ?_⟩
      simp only [step, hpc, Except.ok.injEq] at hs
      subst hs
      simp only [QSystem.next]
      rcases dq_alloc_tid s.queue ⟨(s.threads t).arg, none, -1⟩ rfl x with h | h
      · exact Or.inl h
      · exact Or.inr ⟨h.1, h.2, trivial⟩
    | deqCasThreadID =>
      simp only [step, hpc] at hs
      cases hn : (s.threads t).next with
      | none =>
        simp only [hn] at hs
        cases hs
      | some nx =>
        simp only [hn] at hs
        cases hc : s.queue.casThreadID nx (-1) (s.threads t).threadID with
        | error e =>
          simp only [hc] at hs
          cases hs
        | ok r =>
          obtain ⟨b, q1⟩ := r
          have hid : (s.threads t).threadID ≠ -1 := hp t (by rw [hpc]; rfl)
          rcases dq_casThreadID_claim hc with ⟨h1, rfl, h3, h4⟩ | ⟨h1, rfl, rfl⟩
          · right
            simp only [hc, Except.ok.injEq] at hs
            subst hs
            exact ⟨nx, by simp [claimOf, hpc, hn, h1], rfl, rfl, hid, h1, h3, h4⟩
          · left
            simp only [hc, Except.ok.injEq] at hs
            subst hs
            exact ⟨by simp [claimOf, hpc, hn, h1], fun x => Or.inl rfl⟩
    | _ =>
      left
      refine ⟨by simp [claimOf, hpc], fun x => Or.inl ?_⟩
      simp only [step, hpc] at hs
      repeat' first
        | (cases hs; done)
        | (simp only [Except.ok.injEq] at hs
           subst hs
           first
             | rfl
             | exact dq_tid_congr (dq_casTail_mem _ _ _) x
             | exact dq_tid_congr (dq_casHead_mem _ _ _) x
             | (simp only [QSystem.next]
                first
                  | exact dq_casNext_tid (by assumption) x
                  | exact dq_tid_congr (dq_storeRemoved_mem (by assumption)) x
                  | exact dq_tid_congr (dq_storeAt_mem (by assumption)) x))
        | split at hs

/-- A thread inside `deq` was inside `deq` with the same thread id before the
action, or the action is its invocation of `deq` with this thread id. -/
theorem dq_step_threadID (s : QSystem DurableQueue Pc) (t : Nat) (a : Act)
    (s1 : QSystem DurableQueue Pc) (hs : step s t a = .ok s1) (t1 : Nat)
    (h1 : (s1.threads t1).pc.inDeq = true) :
    ((s.threads t1).pc.inDeq = true ∧ (s1.threads t1).threadID = (s.threads t1).threadID) ∨
      (t1 = t ∧ ∃ op, a = .call (.deq (s1.threads t1).threadID op)) := by
  by_cases ht : t1 = t
  · subst ht
    cases a with
    | call c =>
      simp only [step] at hs
      split at hs
      · cases c with
        | enq v id op =>
          simp only [Except.ok.injEq] at hs
          subst hs
          simp [QSystem.emit, Pc.inDeq] at h1
        | deq id op =>
          simp only [Except.ok.injEq] at hs
          subst hs
          right
          exact ⟨rfl, op, by simp [QSystem.emit]⟩
      · simp only [Except.ok.injEq] at hs
        subst hs
        exact Or.inl ⟨h1, rfl⟩
    | step =>
      left
      cases hpc : (s.threads t1).pc <;> simp only [step, hpc] at hs <;>
        repeat' first
          | (cases hs; done)
          | (simp only [Except.ok.injEq] at hs
             subst hs
             first
               | exact ⟨rfl, by simp [QSystem.next, QSystem.emit]⟩
               | (simp [QSystem.next, QSystem.emit, Pc.inDeq, hpc] at h1))
          | split at hs
  · left
    have hsame : s1.threads t1 = s.threads t1 := by
      cases a with
      | call c =>
        simp only [step] at hs
        split at hs
        · cases c <;>
            (simp only [Except.ok.injEq] at hs; subst hs
             simp [QSystem.emit, Function.update_noteq ht])
        · simp only [Except.ok.injEq] at hs
          subst hs
          rfl
      | step =>
        cases hpc : (s.threads t).pc <;> simp only [step, hpc] at hs <;>
          repeat' first
            | (cases hs; done)
            | (simp only [Except.ok.injEq] at hs
               subst hs
               first
                 | rfl
                 | (simp [QSystem.next, QSystem.emit, Function.update_noteq ht]))
            | split at hs
    rw [hsame] at h1 ⊢
    exact ⟨h1, rfl⟩

/-- The claims along a schedule: no address is claimed twice; a claimed address
held `-1` or was absent before and holds the thread id of the claim after, a
value other than `-1`; every other address keeps its `threadID`, or was absent
and holds `-1`. -/
theorem dq_claims (schedule : List (Nat × Act)) :
    ∀ s s1 : QSystem DurableQueue Pc, Published s →
      QSystem.run step schedule s = .ok s1 →
      Published s1 ∧ ((claimsOf schedule s).map Prod.fst).Nodup ∧
      (∀ x id, (x, id) ∈ claimsOf schedule s →
        (s.queue.tid x = some (-1) ∨ s.queue.tid x = none) ∧
          s1.queue.tid x = some id ∧ id ≠ -1) ∧
      (∀ x, x ∉ (claimsOf schedule s).map Prod.fst →
        s1.queue.tid x = s.queue.tid x ∨
          (s.queue.tid x = none ∧ s1.queue.tid x = some (-1))) := by
  induction schedule with
  | nil =>
    intro s s1 hp hrun
    simp only [QSystem.run, Except.ok.injEq] at hrun
    subst hrun
    exact ⟨hp, by simp [claimsOf], by simp [claimsOf], fun x _ => Or.inl rfl⟩
  | cons c rest ih =>
    intro s s1 hp hrun
    obtain ⟨t, a⟩ := c
    simp only [QSystem.run] at hrun
    cases hst : step s t a with
    | error e =>
      simp only [hst] at hrun
      cases hrun
    | ok s2 =>
      simp only [hst] at hrun
      have hp2 := (dq_sim s t a s2 hp hst).1
      obtain ⟨hp1, hnd, hcl, hoth⟩ := ih s2 s1 hp2 hrun
      have hco : claimsOf ((t, a) :: rest) s = claimOf s t a ++ claimsOf rest s2 := by
        simp only [claimsOf, hst]
      rw [hco]
      rcases dq_step_tid s t a s2 hp hst with ⟨h0, hx⟩ | ⟨y, h0, -, -, hid, hy, hy2, hx⟩
      · rw [h0, List.nil_append]
        refine ⟨hp1, hnd, ?_, ?_⟩
        · intro x id hmem
          obtain ⟨h1, h2, h3⟩ := hcl x id hmem
          refine ⟨?_, h2, h3⟩
          rcases hx x with h | ⟨h, -, -⟩
          · rw [← h]
            exact h1
          · exact Or.inr h
        · intro x hmem
          rcases hoth x hmem with h | ⟨h, h2⟩
          · rcases hx x with h3 | ⟨h3, h4, -⟩
            · exact Or.inl (h.trans h3)
            · exact Or.inr ⟨h3, h.trans h4⟩
          · rcases hx x with h3 | ⟨h3, h4, -⟩
            · exact Or.inr ⟨h3 ▸ h, h2⟩
            · rw [h4] at h
              cases h
      · rw [h0]
        have hynot : y ∉ (claimsOf rest s2).map Prod.fst := by
          intro hmem
          obtain ⟨⟨y1, id⟩, hm, rfl⟩ := List.mem_map.1 hmem
          rcases (hcl _ _ hm).1 with h | h
          · rw [hy2] at h
            exact hid (Option.some.inj h)
          · rw [hy2] at h
            cases h
        have hykeep : s1.queue.tid y = some (s.threads t).threadID := by
          rcases hoth y hynot with h | ⟨h, -⟩
          · rw [h, hy2]
          · rw [hy2] at h
            cases h
        refine ⟨hp1, ?_, ?_, ?_⟩
        · simp only [List.singleton_append, List.map_cons, List.nodup_cons]
          exact ⟨hynot, hnd⟩
        · intro x id hmem
          simp only [List.singleton_append, List.mem_cons, Prod.mk.injEq] at hmem
          rcases hmem with ⟨rfl, rfl⟩ | hmem
          · exact ⟨Or.inl hy, hykeep, hid⟩
          · obtain ⟨h1, h2, h3⟩ := hcl x id hmem
            refine ⟨?_, h2, h3⟩
            have hxy : x ≠ y := by
              rintro rfl
              exact hynot (List.mem_map.2 ⟨(x, id), hmem, rfl⟩)
            rw [← hx x hxy]
            exact h1
        · intro x hmem
          simp only [List.singleton_append, List.map_cons, List.mem_cons, not_or] at hmem
          rcases hoth x hmem.2 with h | ⟨h, h2⟩
          · exact Or.inl (h.trans (hx x hmem.1))
          · exact Or.inr ⟨(hx x hmem.1) ▸ h, h2⟩

/-- Every claim along a schedule carries the thread id of a thread that was
inside `deq` at the start, or of an invocation of `deq` in the schedule. -/
theorem dq_claims_id (schedule : List (Nat × Act)) :
    ∀ (P : Int → Prop) (s s1 : QSystem DurableQueue Pc),
      (∀ t, (s.threads t).pc.inDeq = true → P (s.threads t).threadID) →
      QSystem.run step schedule s = .ok s1 →
      ∀ x id, (x, id) ∈ claimsOf schedule s →
        P id ∨ ∃ t op, (t, Act.call (Call.deq id op)) ∈ schedule := by
  induction schedule with
  | nil =>
    intro P s s1 _ _ x id hmem
    simp [claimsOf] at hmem
  | cons c rest ih =>
    intro P s s1 hP hrun x id hmem
    obtain ⟨t, a⟩ := c
    simp only [QSystem.run] at hrun
    cases hst : step s t a with
    | error e =>
      simp only [hst] at hrun
      cases hrun
    | ok s2 =>
      simp only [hst] at hrun
      simp only [claimsOf, hst, List.mem_append] at hmem
      rcases hmem with hmem | hmem
      · left
        cases a with
        | call c => simp [claimOf] at hmem
        | step =>
          simp only [claimOf] at hmem
          split at hmem
          · rename_i hpc hn
            split at hmem
            · simp only [List.mem_singleton, Prod.mk.injEq] at hmem
              rw [hmem.2]
              exact hP t (by rw [hpc]; rfl)
            · simp at hmem
          · simp at hmem
      · have h2 : ∀ t1, (s2.threads t1).pc.inDeq = true →
            (P (s2.threads t1).threadID ∨
              ∃ op, a = .call (.deq (s2.threads t1).threadID op)) := by
          intro t1 h1
          rcases dq_step_threadID s t a s2 hst t1 h1 with ⟨h3, h4⟩ | ⟨-, op, h3⟩
          · rw [h4]
            exact Or.inl (hP t1 h3)
          · exact Or.inr ⟨op, h3⟩
        rcases ih (fun i => P i ∨ ∃ op, a = .call (.deq i op)) s2 s1 h2 hrun x id hmem with
          (h | ⟨op, h⟩) | ⟨t1, op, h⟩
        · exact Or.inl h
        · exact Or.inr ⟨t, op, by rw [h]; exact List.mem_cons_self _ _⟩
        · exact Or.inr ⟨t1, op, List.mem_cons_of_mem _ h⟩

theorem dq_start_tid (x : Nat) :
    start.queue.tid x = none ∨ start.queue.tid x = some (-1) := by
  cases x with
  | zero => right; rfl
  | succ n => left; rfl

theorem dq_published_start : Published start := by
  intro t h
  simp [start, Pc.published] at h

end DurableQueue

/-! ## Buffered-Relaxed queue: the tails that `sync` samples -/

theorem seg_append {nx : Nat → Option Nat} {l2 : List Nat} :
    ∀ {l1 : List Nat} {a : Nat}, Seg nx a l1 → Seg nx (chainLast a l1) l2 →
      Seg nx a (l1 ++ l2) ∧ chainLast a (l1 ++ l2) = chainLast (chainLast a l1) l2 := by
  intro l1
  induction l1 with
  | nil =>
    intro a _ h2
    exact ⟨h2, rfl⟩
  | cons b l ih =>
    intro a h1 h2
    obtain ⟨h3, h4⟩ := ih h1.2 h2
    exact ⟨⟨h1.1, h3⟩, h4⟩

theorem reach_refl (nx : Nat → Option Nat) (a : Nat) : Reachable nx a a :=
  ⟨[], trivial, rfl⟩

theorem reach_trans {nx : Nat → Option Nat} {a b c : Nat} (h1 : Reachable nx a b)
    (h2 : Reachable nx b c) : Reachable nx a c := by
  obtain ⟨l1, s1, e1⟩ := h1
  obtain ⟨l2, s2, e2⟩ := h2
  subst e1
  obtain ⟨h3, h4⟩ := seg_append s1 s2
  exact ⟨l1 ++ l2, h3, h4.trans e2⟩

theorem reach_next {nx : Nat → Option Nat} {a b : Nat} (h : nx a = some b) :
    Reachable nx a b :=
  ⟨[b], ⟨h, trivial⟩, rfl⟩

theorem reach_mono {nx nx1 : Nat → Option Nat} (h : ∀ a b, nx a = some b → nx1 a = some b)
    {a b : Nat} (hr : Reachable nx a b) : Reachable nx1 a b := by
  obtain ⟨l, hs, e⟩ := hr
  refine ⟨l, ?_, e⟩
  clear e
  induction l generalizing a with
  | nil => trivial
  | cons c l ih => exact ⟨h _ _ hs.1, ih hs.2⟩

namespace RelaxedQueue

theorem up_refl (q : RelaxedQueue) (a : Nat) : q.Up a a := reach_refl _ a

theorem up_trans {q : RelaxedQueue} {a b c : Nat} (h1 : q.Up a b) (h2 : q.Up b c) :
    q.Up a c := reach_trans h1 h2

theorem up_grow {q q1 : RelaxedQueue} (h : q.Grows q1) {a b : Nat} (hr : q.Up a b) :
    q1.Up a b := reach_mono h.link hr

/-- A path along `next` pointers to regular nodes is a path along `next`
pointers. -/
theorem up_nxt {q : RelaxedQueue} {a b : Nat} (h : q.Up a b) : Reachable q.nxt a b :=
  reach_mono (fun _ _ e => (rm_link e).1) h

theorem grows_refl (q : RelaxedQueue) : q.Grows q :=
  ⟨fun _ _ => rfl, fun _ _ e => e, up_refl q _, fun _ _ => rfl,
    fun _ y0 e => ⟨y0, e, up_refl q _⟩⟩

/-- A step that keeps the list of regular nodes, the markers, `tail`, the
snapshots and the `tail` fields of the markers. -/
theorem grows_shape {q q1 : RelaxedQueue} (h : q.Shape q1) (hs : q1.snaps = q.snaps)
    (hm : ∀ m y0, q.markerTail m = some y0 → ∃ y, q1.markerTail m = some y ∧ q.Up y0 y) :
    q.Grows q1 := by
  obtain ⟨-, h2, h3, -, h5⟩ := h
  refine ⟨fun a _ => h2 a, ?_, ?_, ?_, ?_⟩
  · intro a b e
    rw [h3]
    exact e
  · rw [h5]
    exact up_refl q1 _
  · intro i _
    rw [hs]
  · intro m y0 e
    obtain ⟨y, e1, e2⟩ := hm m y0 e
    refine ⟨y, e1, ?_⟩
    simp only [Up, h3]
    exact e2

theorem up_shape {q q1 : RelaxedQueue} (h : q.Shape q1) {a b : Nat} :
    q1.Up a b ↔ q.Up a b := by
  simp only [Up, h.2.2.1]

theorem mt_casNext {q q1 : RelaxedQueue} {p e d : Option Nat} {b : Bool}
    (h : q.casNext p e d = .ok (b, q1)) (m : Nat) : q1.markerTail m = q.markerTail m := by
  cases p with
  | none => simp [casNext] at h
  | some a =>
    obtain ⟨n, hn, ⟨-, -, rfl⟩ | ⟨-, rfl⟩⟩ := rm_casNext_cases h
    · simp only [markerTail]
      by_cases hma : m = a
      · subst hma
        rw [heap_set_self _ _ _ (heap_lt hn), hn]
        rfl
      · rw [heap_set_other _ _ _ _ hma]
    · rfl

theorem mt_casInvalidHead {q q1 : RelaxedQueue} {i : Nat} {e d : Option Nat} {b : Bool}
    (h : q.casInvalidHead i e d = .ok (b, q1)) (m : Nat) :
    q1.markerTail m = q.markerTail m := by
  simp only [casInvalidHead] at h
  cases hm : q.mem[i]? with
  | none => simp [hm] at h
  | some n =>
    simp only [hm] at h
    cases hv : n.invalid with
    | none => simp [hv] at h
    | some iv =>
      simp only [hv] at h
      split at h
      · simp only [Except.ok.injEq, Prod.mk.injEq] at h
        obtain ⟨-, rfl⟩ := h
        simp only [markerTail]
        by_cases hxa : m = i
        · subst hxa
          rw [heap_set_self _ _ _ (heap_lt hm), hm]
          simp [hv]
        · rw [heap_set_other _ _ _ _ hxa]
      · simp only [Except.ok.injEq, Prod.mk.injEq] at h
        obtain ⟨-, rfl⟩ := h
        rfl

theorem mt_setInvalid {q q1 : RelaxedQueue} {i : Nat} {f : InvalidPart → InvalidPart}
    (h : q.setInvalid i f = .ok q1) :
    ∃ iv, q.loadInvalid i = .ok iv ∧ q1.markerTail i = (f iv).tail ∧
      ∀ m, m ≠ i → q1.markerTail m = q.markerTail m := by
  simp only [setInvalid] at h
  cases hm : q.mem[i]? with
  | none => simp [hm] at h
  | some n =>
    simp only [hm] at h
    cases hv : n.invalid with
    | none => simp [hv] at h
    | some iv =>
      simp only [hv, Except.ok.injEq] at h
      subst h
      refine ⟨iv, by simp [loadInvalid, hm, hv], ?_, ?_⟩
      · simp [markerTail, heap_set_self _ _ _ (heap_lt hm)]
      · intro m hmi
        simp only [markerTail]
        rw [heap_set_other _ _ _ _ hmi]

theorem mt_loadInvalid {q : RelaxedQueue} {i : Nat} {iv : InvalidPart}
    (h : q.loadInvalid i = .ok iv) : q.markerTail i = iv.tail := by
  simp only [loadInvalid] at h
  cases hm : q.mem[i]? with
  | none => simp [hm] at h
  | some n =>
    simp only [hm] at h
    cases hv : n.invalid with
    | none => simp [hv] at h
    | some iv0 =>
      simp only [hv, Except.ok.injEq] at h
      subst h
      simp [markerTail, hm, hv]

theorem mt_marker {q : RelaxedQueue} {m y : Nat} (h : q.markerTail m = some y) :
    q.isMarker m = true := by
  simp only [markerTail] at h
  cases hm : q.mem[m]? with
  | none => simp [hm] at h
  | some n =>
    cases hv : n.invalid with
    | none => simp [hm, hv] at h
    | some iv => simp [isMarker, hm, hv]

theorem mt_push (q : RelaxedQueue) (n : Node) (hn : ∀ iv, n.invalid = some iv → iv.tail = none)
    (m : Nat) : markerTail { q with mem := q.mem ++ [n] } m = q.markerTail m := by
  simp only [markerTail]
  by_cases ha : m < q.mem.length
  · rw [heap_push_old _ _ _ ha]
  · rw [List.getElem?_eq_none (l := q.mem) (by omega)]
    by_cases ha1 : m = q.mem.length
    · subst ha1
      rw [heap_push_new]
      cases hv : n.invalid with
      | none => simp [hv]
      | some iv => simp [hv, hn iv hv]
    · rw [List.getElem?_eq_none (by simp only [List.length_append, List.length_singleton]; omega)]

end RelaxedQueue

theorem RPc.sync_holds {pc : RPc} (h : pc.inSync = true) : pc.toG.holds = true := by
  cases pc <;> first | rfl | (simp [RPc.inSync] at h)

theorem RPc.loaded_sync {pc : RPc} (h : pc.loaded = true) : pc.inSync = true := by
  cases pc <;> first | rfl | (simp [RPc.loaded] at h)

theorem RPc.ranged_loaded {pc : RPc} (h : pc.ranged = true) : pc.loaded = true := by
  cases pc <;> first | rfl | (simp [RPc.ranged] at h)

theorem RPc.owning_ranged {pc : RPc} (h : pc.owning = true) : pc.ranged = true := by
  cases pc <;> first | rfl | (simp [RPc.owning] at h)

theorem RPc.linking_owning {pc : RPc} (h : pc.linking = true) : pc.owning = true := by
  cases pc <;> first | rfl | (simp [RPc.linking] at h)

theorem RPc.watching_ranged {pc : RPc} (h : pc.watching = true) : pc.ranged = true := by
  cases pc <;> first | rfl | (simp [RPc.watching] at h)

theorem RPc.sampled_loaded {pc : RPc} (h : pc.sampled = true) : pc.loaded = true := by
  cases pc <;> first | rfl | (simp [RPc.sampled] at h)

/-- The facts that the sampled tails use follow from the invariant of the
list. -/
theorem RInv.facts {s : RSystem} (h : RInv s) : RFacts s := by
  obtain ⟨chain, hi, ti, hS, hR⟩ := h
  refine ⟨hR.threads, hR.queue, ?_, ?_, ?_⟩
  · intro u v huv hu hv
    have := hS.distinct u v huv
      (by simp only [RSystem.regular, RThread.toG]; exact RPc.sync_holds hu)
      (by simp only [RSystem.regular, RThread.toG]; exact RPc.sync_holds hv)
    simpa only [RSystem.regular, RThread.toG, hu, hv, if_true] using this
  · intro u hpc
    have ht := hS.tinv u
    simp only [RSystem.regular, RThread.toG, hpc, RPc.toG, TInv] at ht
    obtain ⟨li, hl, hx⟩ := ht
    simp only [RPc.inSync, Bool.false_eq_true, if_false] at hx
    exact (hS.links li _ hl).trans hx
  · intro u x hpc hn
    have ht := hS.tinv u
    have hok := hR.threads u
    rcases hpc with hpc | hpc | hpc
    all_goals
      simp only [RSystem.regular, RThread.toG, hpc, RPc.toG, TInv] at ht
      obtain ⟨li, x1, hl, -, hh, hx⟩ := ht
      obtain ⟨hn1, -⟩ := RelaxedQueue.rm_hide_some.1 hh
      rw [hn] at hn1
      injection hn1 with hn1
      subst hn1
      exact (hS.links li _ hl).trans hx

namespace RelaxedQueue

theorem st_lt {q : RelaxedQueue} {i a : Nat} (h : q.snapTail i = some a) :
    i < q.snaps.length := by
  simp only [snapTail] at h
  cases hm : q.snaps[i]? with
  | none => simp [hm] at h
  | some n => exact heap_lt hm

theorem st_grow {q q1 : RelaxedQueue} (hg : q.Grows q1) {i : Nat} (hi : i < q.snaps.length) :
    q1.snapTail i = q.snapTail i := by
  simp only [snapTail, hg.snaps i hi]

theorem grows_slen {q q1 : RelaxedQueue} (hg : q.Grows q1) {i : Nat}
    (hi : i < q.snaps.length) : i < q1.snaps.length := by
  obtain ⟨x, hx⟩ := heap_get _ _ hi
  have := hg.snaps i hi
  rw [hx] at this
  exact heap_lt this

theorem rm_regularMem_congr {q q1 : RelaxedQueue} (hm : q1.mem = q.mem) :
    q1.regularMem = q.regularMem := by
  have hmk : ∀ a, q1.isMarker a = q.isMarker a := fun a => by simp only [isMarker, hm]
  simp only [regularMem, hm]
  apply List.map_congr_left
  intro n _
  rw [rm_hide_same hmk]

/-- A step that keeps the heap of nodes. -/
theorem grows_of_mem {q q1 : RelaxedQueue} (hm : q1.mem = q.mem)
    (ht : q1.tail = q.tail ∨ GState.nxtAt q.regularMem q.tail = some q1.tail)
    (hs : ∀ i, i < q.snaps.length → q1.snaps[i]? = q.snaps[i]?) : q.Grows q1 := by
  have hr := rm_regularMem_congr hm
  refine ⟨fun a _ => by simp only [isMarker, hm], ?_, ?_, hs, ?_⟩
  · intro a b e
    rw [hr]
    exact e
  · simp only [Up, hr]
    rcases ht with ht | ht
    · rw [ht]
      exact reach_refl _ _
    · exact reach_next ht
  · intro m y0 e
    refine ⟨y0, ?_, up_refl _ _⟩
    simp only [markerTail, hm] at e ⊢
    exact e

/-- A step that keeps the class of every object and every `next` pointer to a
regular node. -/
theorem grows_of_nxt {q q1 : RelaxedQueue} (hq : QStruct q)
    (hmk : ∀ a, a < q.mem.length → q1.isMarker a = q.isMarker a)
    (hnx : ∀ a b, q.nxt a = some b → q.isMarker b = false → q1.nxt a = some b)
    (ht : q1.tail = q.tail) (hs : q1.snaps = q.snaps)
    (hmt : ∀ m y0, q.markerTail m = some y0 → ∃ y, q1.markerTail m = some y ∧ q1.Up y0 y) :
    q.Grows q1 := by
  refine ⟨hmk, ?_, ?_, ?_, hmt⟩
  · intro a b e
    obtain ⟨e1, e2⟩ := rm_link e
    have hb : b < q.mem.length := by
      simp only [nxt] at e1
      cases hm : q.mem[a]? with
      | none => simp [hm] at e1
      | some n =>
        simp only [hm, Option.some_bind] at e1
        exact hq.valid a n b hm e1
    rw [rm_nxtAt, hnx a b e1 e2]
    exact rm_hide_regular ((hmk b hb).trans e2)
  · rw [ht]
    exact up_refl _ _
  · intro i _
    rw [hs]

end RelaxedQueue

/-- A thread that does not act keeps what it knows about tails when the queue
grows and the `tail` field of its marker is not written. -/
theorem TTail.grow {q q1 : RelaxedQueue} {th : RThread} (h : TTail q th) (hg : q.Grows q1)
    (hnext : ∀ x, th.next = some x → x < q.mem.length)
    (hown : th.pc.inSync = true → q1.markerTail th.invalid = q.markerTail th.invalid) :
    TTail q1 th := by
  refine ⟨?_, ?_, ?_, ?_, ?_, ?_, ?_, ?_, ?_, ?_⟩
  · intro e
    exact RelaxedQueue.grows_slen hg (h.loaded e)
  · intro e
    exact RelaxedQueue.up_trans (RelaxedQueue.up_grow hg (h.last e)) hg.tail
  · intro e a ha
    rw [RelaxedQueue.st_grow hg (h.loaded (RPc.ranged_loaded e))] at ha
    exact RelaxedQueue.up_grow hg (h.snap e a ha)
  · intro e y hy
    rw [hown (RPc.loaded_sync (RPc.ranged_loaded e))] at hy
    exact RelaxedQueue.up_grow hg (h.own e y hy)
  · intro e
    rw [hown (RPc.loaded_sync (RPc.ranged_loaded (RPc.owning_ranged e)))]
    exact h.owning e
  · intro e n hn hm
    rw [hg.marker n (hnext n hn)] at hm
    obtain ⟨y0, h1, h2⟩ := h.recheck e n hn hm
    obtain ⟨y, h3, h4⟩ := hg.markers n y0 h1
    exact ⟨y, h3, RelaxedQueue.up_trans (RelaxedQueue.up_grow hg h2) h4⟩
  · intro e
    obtain ⟨n, y0, hn, h1, h2⟩ := h.watching e
    obtain ⟨y, h3, h4⟩ := hg.markers n y0 h1
    exact ⟨n, y, hn, h3, RelaxedQueue.up_trans (RelaxedQueue.up_grow hg h2) h4⟩
  · intro e
    obtain ⟨y, h1, h2, h3⟩ := h.seen e
    exact ⟨y, h1, RelaxedQueue.up_grow hg h2,
      RelaxedQueue.up_trans (RelaxedQueue.up_grow hg h3) hg.tail⟩
  · intro e
    obtain ⟨a, y, h1, h2, h3⟩ := h.sampled e
    refine ⟨a, y, ?_, ?_, RelaxedQueue.up_grow hg h3⟩
    · rw [RelaxedQueue.st_grow hg (RelaxedQueue.st_lt h1)]
      exact h1
    · rw [hown (RPc.loaded_sync (RPc.sampled_loaded e))]
      exact h2
  · intro e
    obtain ⟨a, b, h1, h2, h3⟩ := h.install e
    refine ⟨a, b, ?_, ?_, RelaxedQueue.up_grow hg h3⟩
    · rw [RelaxedQueue.st_grow hg (RelaxedQueue.st_lt h1)]
      exact h1
    · rw [RelaxedQueue.st_grow hg (RelaxedQueue.st_lt h2)]
      exact h2

/-- A thread outside `sync`, or before `sync` has loaded `data`, knows nothing
about tails. -/
theorem TTail.of_unloaded (q : RelaxedQueue) {th : RThread} (h : th.pc.loaded = false) :
    TTail q th := by
  refine ⟨?_, ?_, ?_, ?_, ?_, ?_, ?_, ?_, ?_, ?_⟩
  · intro e
    rw [h] at e
    cases e
  · intro e
    rw [RPc.ranged_loaded e] at h
    cases h
  · intro e
    rw [RPc.ranged_loaded e] at h
    cases h
  · intro e
    rw [RPc.ranged_loaded e] at h
    cases h
  · intro e
    rw [RPc.ranged_loaded (RPc.owning_ranged e)] at h
    cases h
  · intro e
    rw [e] at h
    cases h
  · intro e
    rw [RPc.ranged_loaded (RPc.watching_ranged e)] at h
    cases h
  · intro e
    rw [e] at h
    cases h
  · intro e
    rw [RPc.sampled_loaded e] at h
    cases h
  · intro e
    rw [e] at h
    cases h

/-- A step of a thread that keeps the variables that hold tails, to a program
point at which the thread knows no more than before. -/
theorem TTail.step_of {q : RelaxedQueue} {th th1 : RThread} (h : TTail q th)
    (hl : th1.last = th.last) (hn : th1.next = th.next) (hc : th1.currData = th.currData)
    (hi : th1.invalid = th.invalid) (hp : th1.potential = th.potential)
    (c1 : th1.pc.loaded = true → th.pc.loaded = true)
    (c2 : th1.pc.ranged = true → th.pc.ranged = true)
    (c3 : th1.pc.owning = true → th.pc.owning = true)
    (c4 : th1.pc = .recheck → th.pc = .recheck)
    (c5 : th1.pc.watching = true → th.pc.watching = true)
    (c6 : th1.pc = .copyStoreTail → th.pc = .copyStoreTail ∧ th1.seenTail = th.seenTail)
    (c7 : th1.pc.sampled = true → th.pc.sampled = true)
    (c8 : th1.pc = .install → th.pc = .install) : TTail q th1 := by
  refine ⟨?_, ?_, ?_, ?_, ?_, ?_, ?_, ?_, ?_, ?_⟩
  · intro e
    rw [hc]
    exact h.loaded (c1 e)
  · intro e
    rw [hl]
    exact h.last (c2 e)
  · intro e
    rw [hl, hc]
    exact h.snap (c2 e)
  · intro e
    rw [hl, hi]
    exact h.own (c2 e)
  · intro e
    rw [hl, hi]
    exact h.owning (c3 e)
  · intro e
    rw [hl, hn]
    exact h.recheck (c4 e)
  · intro e
    rw [hl, hn]
    exact h.watching (c5 e)
  · intro e
    rw [hl, (c6 e).2]
    exact h.seen (c6 e).1
  · intro e
    rw [hc, hi]
    exact h.sampled (c7 e)
  · intro e
    rw [hc, hp]
    exact h.install (c8 e)

/-- The invariant of the sampled tails after a step of thread `t`. -/
theorem Tails.keep_all {s : RSystem} (h : Tails s) (hf : RFacts s) (t : Nat) {q1 : RelaxedQueue}
    (th1 : RThread) (hg : s.queue.Grows q1) (hdata : q1.data < q1.snaps.length)
    (hsn : ∀ i, s.queue.snaps.length ≤ i → i < q1.snaps.length →
      ∃ a, q1.snapTail i = some a ∧ q1.Up a q1.tail)
    (hmk : ∀ m y, q1.markerTail m = some y → q1.Up y q1.tail)
    (hown : ∀ u, u ≠ t → (s.threads u).pc.inSync = true →
      q1.markerTail (s.threads u).invalid = s.queue.markerTail (s.threads u).invalid)
    (hlk1 : ∀ a m, q1.nxt a = some m → q1.isMarker m = true →
      (s.queue.nxt a = some m ∧ s.queue.isMarker m = true) ∨
        (th1.pc.linking = true ∧ th1.invalid = m ∧ th1.last = a))
    (hlk2 : (s.threads t).pc.linking = true →
      (th1.pc.linking = true ∧ th1.invalid = (s.threads t).invalid ∧
          th1.last = (s.threads t).last) ∨
        q1.nxt (s.threads t).last ≠ some (s.threads t).invalid)
    (hth : TTail q1 th1) : Tails (s.next t q1 th1) ∧ s.queue.Grows q1 := by
  refine ⟨⟨hdata, ?_, hmk, ?_, ?_⟩, hg⟩
  · intro i hi
    simp only [RSystem.next] at hi ⊢
    by_cases hold : i < s.queue.snaps.length
    · obtain ⟨a, h1, h2⟩ := h.snaps i hold
      refine ⟨a, ?_, RelaxedQueue.up_trans (RelaxedQueue.up_grow hg h2) hg.tail⟩
      rw [RelaxedQueue.st_grow hg hold]
      exact h1
    · exact hsn i (by omega) hi
  · intro a m e1 e2
    simp only [RSystem.next] at e1 e2 ⊢
    rcases hlk1 a m e1 e2 with ⟨e3, e4⟩ | e3
    · obtain ⟨u, h1, h2, h3⟩ := h.linked a m e3 e4
      by_cases hu : u = t
      · subst hu
        rcases hlk2 h1 with e5 | e5
        · refine ⟨u, ?_⟩
          simp only [Function.update_same]
          exact ⟨e5.1, e5.2.1.trans h2, e5.2.2.trans h3⟩
        · rw [h2, h3] at e5
          exact absurd e1 e5
      · refine ⟨u, ?_⟩
        simp only [Function.update_noteq hu]
        exact ⟨h1, h2, h3⟩
    · refine ⟨t, ?_⟩
      simp only [Function.update_same]
      exact e3
  · intro u
    simp only [RSystem.next]
    by_cases hu : u = t
    · subst hu
      simp only [Function.update_same]
      exact hth
    · simp only [Function.update_noteq hu]
      exact (h.threads u).grow hg (hf.ok u).1 (hown u hu)

/-- The invariant after a step that keeps the snapshots, `data` and the `tail`
fields of the markers, and links no marker. -/
theorem Tails.keep_same {s : RSystem} (h : Tails s) (hf : RFacts s) (t : Nat)
    {q1 : RelaxedQueue} (th1 : RThread) (hg : s.queue.Grows q1)
    (hd : q1.data = s.queue.data) (hs : q1.snaps = s.queue.snaps)
    (hmt : ∀ m, q1.markerTail m = s.queue.markerTail m)
    (hlk1 : ∀ a m, q1.nxt a = some m → q1.isMarker m = true →
      (s.queue.nxt a = some m ∧ s.queue.isMarker m = true) ∨
        (th1.pc.linking = true ∧ th1.invalid = m ∧ th1.last = a))
    (hlk2 : (s.threads t).pc.linking = true →
      (th1.pc.linking = true ∧ th1.invalid = (s.threads t).invalid ∧
          th1.last = (s.threads t).last) ∨
        q1.nxt (s.threads t).last ≠ some (s.threads t).invalid)
    (hth : TTail q1 th1) : Tails (s.next t q1 th1) ∧ s.queue.Grows q1 := by
  refine h.keep_all hf t th1 hg ?_ ?_ ?_ ?_ hlk1 hlk2 hth
  · rw [hd, hs]
    exact h.data
  · intro i h1 h2
    rw [hs] at h2
    omega
  · intro m y e
    rw [hmt] at e
    exact RelaxedQueue.up_trans (RelaxedQueue.up_grow hg (h.markers m y e)) hg.tail
  · intro u _ _
    exact hmt _

/-- The invariant after a step that changes only the variables of the
thread. -/
theorem Tails.keep_local {s : RSystem} (h : Tails s) (hf : RFacts s) (t : Nat) (th1 : RThread)
    (hlk2 : (s.threads t).pc.linking = true →
      th1.pc.linking = true ∧ th1.invalid = (s.threads t).invalid ∧
        th1.last = (s.threads t).last)
    (hth : TTail s.queue th1) : Tails (s.next t s.queue th1) ∧ s.queue.Grows s.queue :=
  h.keep_same hf t th1 (RelaxedQueue.grows_refl _) rfl rfl (fun _ => rfl)
    (fun _ _ e1 e2 => Or.inl ⟨e1, e2⟩) (fun e => Or.inl (hlk2 e)) hth

namespace RelaxedQueue

theorem nx_casNext_cases {q q1 : RelaxedQueue} {a : Nat} {e d : Option Nat} {b : Bool}
    (h : q.casNext (some a) e d = .ok (b, q1)) :
    ∃ n, q.mem[a]? = some n ∧
      ((b = true ∧ n.next = e ∧ q1 = { q with mem := q.mem.set a { n with next := d } }) ∨
        (b = false ∧ n.next ≠ e ∧ q1 = q)) := by
  simp only [casNext] at h
  cases hm : q.mem[a]? with
  | none => simp [hm] at h
  | some n =>
    simp only [hm] at h
    refine ⟨n, rfl, ?_⟩
    split at h
    · rename_i hx
      simp only [Except.ok.injEq, Prod.mk.injEq] at h
      exact Or.inl ⟨h.1.symm, hx, h.2.symm⟩
    · rename_i hx
      simp only [Except.ok.injEq, Prod.mk.injEq] at h
      exact Or.inr ⟨h.1.symm, hx, h.2.symm⟩

/-- The heap after a store to the `next` field of the node at `a`. -/
theorem nx_set {q : RelaxedQueue} {a : Nat} {n : Node} (hm : q.mem[a]? = some n)
    (d : Option Nat) :
    (∀ x, isMarker { q with mem := q.mem.set a { n with next := d } } x = q.isMarker x) ∧
    (∀ x, nxt { q with mem := q.mem.set a { n with next := d } } x =
      if x = a then d else q.nxt x) ∧
    (∀ m, markerTail { q with mem := q.mem.set a { n with next := d } } m =
      q.markerTail m) := by
  refine ⟨?_, ?_, ?_⟩
  · intro x
    simp only [isMarker]
    by_cases hx : x = a
    · subst hx
      rw [heap_set_self _ _ _ (heap_lt hm), hm]
    · rw [heap_set_other _ _ _ _ hx]
  · intro x
    simp only [nxt]
    by_cases hx : x = a
    · subst hx
      rw [heap_set_self _ _ _ (heap_lt hm)]
      simp
    · rw [heap_set_other _ _ _ _ hx]
      simp [hx]
  · intro m
    simp only [markerTail]
    by_cases hx : m = a
    · subst hx
      rw [heap_set_self _ _ _ (heap_lt hm), hm]
      rfl
    · rw [heap_set_other _ _ _ _ hx]

theorem nx_setInvalid {q q1 : RelaxedQueue} {i : Nat} {f : InvalidPart → InvalidPart}
    (h : q.setInvalid i f = .ok q1) (a : Nat) : q1.nxt a = q.nxt a := by
  simp only [setInvalid] at h
  cases hm : q.mem[i]? with
  | none => simp [hm] at h
  | some n =>
    simp only [hm] at h
    cases hv : n.invalid with
    | none => simp [hv] at h
    | some iv =>
      simp only [hv, Except.ok.injEq] at h
      subst h
      simp only [nxt]
      by_cases hx : a = i
      · subst hx
        rw [heap_set_self _ _ _ (heap_lt hm), hm]
        rfl
      · rw [heap_set_other _ _ _ _ hx]

theorem nx_casInvalidHead {q q1 : RelaxedQueue} {i : Nat} {e d : Option Nat} {b : Bool}
    (h : q.casInvalidHead i e d = .ok (b, q1)) (a : Nat) : q1.nxt a = q.nxt a := by
  simp only [casInvalidHead] at h
  cases hm : q.mem[i]? with
  | none => simp [hm] at h
  | some n =>
    simp only [hm] at h
    cases hv : n.invalid with
    | none => simp [hv] at h
    | some iv =>
      simp only [hv] at h
      split at h
      · simp only [Except.ok.injEq, Prod.mk.injEq] at h
        obtain ⟨-, rfl⟩ := h
        simp only [nxt]
        by_cases hx : a = i
        · subst hx
          rw [heap_set_self _ _ _ (heap_lt hm), hm]
          rfl
        · rw [heap_set_other _ _ _ _ hx]
      · simp only [Except.ok.injEq, Prod.mk.injEq] at h
        obtain ⟨-, rfl⟩ := h
        rfl

/-- A compare-and-swap that writes null into a `next` field links nothing. -/
theorem nx_unlink {q q1 : RelaxedQueue} {p e : Option Nat} {b : Bool}
    (h : q.casNext p e none = .ok (b, q1)) (a m : Nat) (hx : q1.nxt a = some m) :
    q.nxt a = some m := by
  cases p with
  | none => simp [casNext] at h
  | some x =>
    obtain ⟨n, hn, ⟨-, -, rfl⟩ | ⟨-, -, rfl⟩⟩ := nx_casNext_cases h
    · rw [(nx_set hn none).2.1] at hx
      split at hx
      · cases hx
      · exact hx
    · exact hx

theorem mt_coop {q q1 : RelaxedQueue} {th th1 : RThread} {n : Nat} {hs : HelpStep}
    {r : Option HelpStep} (h : q.coop th n hs = .ok (q1, th1, r)) :
    (∀ m, q1.markerTail m = q.markerTail m) ∧
      ∀ a m, q1.nxt a = some m → q.nxt a = some m := by
  cases hs with
  | loadHead =>
    simp only [coop, Except.ok.injEq, Prod.mk.injEq] at h
    obtain ⟨rfl, -, -⟩ := h
    exact ⟨fun _ => rfl, fun _ _ e => e⟩
  | casHead =>
    simp only [coop] at h
    cases hc : q.casInvalidHead n none th.seenHead with
    | error e => simp [hc] at h
    | ok r1 =>
      obtain ⟨b, q2⟩ := r1
      simp only [hc, Except.ok.injEq, Prod.mk.injEq] at h
      obtain ⟨rfl, -, -⟩ := h
      exact ⟨mt_casInvalidHead hc, fun a m e => (nx_casInvalidHead hc a) ▸ e⟩
  | loadTail =>
    simp only [coop] at h
    cases hc : q.loadInvalid n with
    | error e => simp [hc] at h
    | ok currI =>
      simp only [hc, Except.ok.injEq, Prod.mk.injEq] at h
      obtain ⟨rfl, -, -⟩ := h
      exact ⟨fun _ => rfl, fun _ _ e => e⟩
  | unblock =>
    simp only [coop] at h
    cases hc : q.casNext th.seenTail (some n) none with
    | error e => simp [hc] at h
    | ok r1 =>
      obtain ⟨b, q2⟩ := r1
      simp only [hc, Except.ok.injEq, Prod.mk.injEq] at h
      obtain ⟨rfl, -, -⟩ := h
      exact ⟨mt_casNext hc, nx_unlink hc⟩

/-- The heap after an allocation. -/
theorem nx_push {q : RelaxedQueue} (hq : QStruct q) (n : Node) (hnn : n.next = none) :
    (∀ x, x < q.mem.length → isMarker { q with mem := q.mem ++ [n] } x = q.isMarker x) ∧
    (∀ x y, q.nxt x = some y → nxt { q with mem := q.mem ++ [n] } x = some y) ∧
    (∀ x m, nxt { q with mem := q.mem ++ [n] } x = some m →
      isMarker { q with mem := q.mem ++ [n] } m = true →
      q.nxt x = some m ∧ q.isMarker m = true) := by
  have h1 : ∀ x, x < q.mem.length →
      isMarker { q with mem := q.mem ++ [n] } x = q.isMarker x := by
    intro x hx
    simp only [isMarker, heap_push_old _ _ _ hx]
  have hlt : ∀ x y, q.nxt x = some y → x < q.mem.length ∧ y < q.mem.length := by
    intro x y e
    simp only [nxt] at e
    cases hm : q.mem[x]? with
    | none => simp [hm] at e
    | some k =>
      simp only [hm, Option.some_bind] at e
      exact ⟨heap_lt hm, hq.valid x k y hm e⟩
  refine ⟨h1, ?_, ?_⟩
  · intro x y e
    simp only [nxt, heap_push_old _ _ _ (hlt x y e).1]
    exact e
  · intro x m e1 e2
    have hx : x < q.mem.length := by
      by_contra hc
      simp only [nxt] at e1
      by_cases hx1 : x = q.mem.length
      · subst hx1
        rw [heap_push_new] at e1
        simp [hnn] at e1
      · rw [List.getElem?_eq_none
          (by simp only [List.length_append, List.length_singleton]; omega)] at e1
        cases e1
    have e3 : q.nxt x = some m := by
      simp only [nxt, heap_push_old _ _ _ hx] at e1
      exact e1
    refine ⟨e3, ?_⟩
    rw [← h1 m (hlt x m e3).2]
    exact e2

end RelaxedQueue

/-- The invariant after a step that keeps the list of regular nodes, the
markers with their `tail` fields, the snapshots and `data`, and links nothing. -/
theorem Tails.keep_shape {s : RSystem} (h : Tails s) (hf : RFacts s) (t : Nat)
    {q1 : RelaxedQueue} (th1 : RThread) {extra : Int → Prop} (hsh : s.queue.Shape q1)
    (hv : s.queue.SameVersions q1 extra)
    (hmt : ∀ m, q1.markerTail m = s.queue.markerTail m)
    (hnx : ∀ a m, q1.nxt a = some m → s.queue.nxt a = some m)
    (hlk2 : (s.threads t).pc.linking = true →
      (th1.pc.linking = true ∧ th1.invalid = (s.threads t).invalid ∧
          th1.last = (s.threads t).last) ∨
        q1.nxt (s.threads t).last ≠ some (s.threads t).invalid)
    (hth : TTail q1 (s.threads t) → TTail q1 th1) : Tails (s.next t q1 th1) ∧ s.queue.Grows q1 := by
  have hg : s.queue.Grows q1 :=
    RelaxedQueue.grows_shape hsh hv.2.1 (fun m y0 e => ⟨y0, (hmt m).trans e,
      RelaxedQueue.up_refl _ _⟩)
  refine h.keep_same hf t th1 hg hv.2.2.1 hv.2.1 hmt ?_ hlk2
    (hth ((h.threads t).grow hg (hf.ok t).1 (fun _ => hmt _)))
  intro a m e1 e2
  exact Or.inl ⟨hnx a m e1, (hsh.2.1 m).symm.trans e2⟩

/-- The invariant after a step that keeps the heap of nodes, the snapshots and
`data`. -/
theorem Tails.keep_mem {s : RSystem} (h : Tails s) (hf : RFacts s) (t : Nat)
    {q1 : RelaxedQueue} (th1 : RThread) (hm : q1.mem = s.queue.mem)
    (hs : q1.snaps = s.queue.snaps) (hd : q1.data = s.queue.data)
    (ht : q1.tail = s.queue.tail ∨
      GState.nxtAt s.queue.regularMem s.queue.tail = some q1.tail)
    (hlk2 : (s.threads t).pc.linking = true →
      th1.pc.linking = true ∧ th1.invalid = (s.threads t).invalid ∧
        th1.last = (s.threads t).last)
    (hth : TTail q1 (s.threads t) → TTail q1 th1) : Tails (s.next t q1 th1) ∧ s.queue.Grows q1 := by
  have hg : s.queue.Grows q1 := RelaxedQueue.grows_of_mem hm ht (fun i _ => by rw [hs])
  have hmt : ∀ m, q1.markerTail m = s.queue.markerTail m := by
    intro m
    simp only [RelaxedQueue.markerTail, hm]
  refine h.keep_same hf t th1 hg hd hs hmt ?_ (fun e => Or.inl (hlk2 e))
    (hth ((h.threads t).grow hg (hf.ok t).1 (fun _ => hmt _)))
  intro a m e1 e2
  simp only [RelaxedQueue.nxt, RelaxedQueue.isMarker, hm] at e1 e2
  exact Or.inl ⟨e1, e2⟩

/-- The invariant after `tail.compare_exchange_strong(a, b)` when `b` follows
`a` in the list of regular nodes. -/
theorem Tails.keep_tail {s : RSystem} (h : Tails s) (hf : RFacts s) (t : Nat)
    (th1 : RThread) (a b : Nat) (hab : GState.nxtAt s.queue.regularMem a = some b)
    (hlk2 : (s.threads t).pc.linking = true →
      th1.pc.linking = true ∧ th1.invalid = (s.threads t).invalid ∧
        th1.last = (s.threads t).last)
    (hth : TTail (s.queue.casTail a b).2 (s.threads t) → TTail (s.queue.casTail a b).2 th1) :
    Tails (s.next t (s.queue.casTail a b).2 th1) ∧ s.queue.Grows (s.queue.casTail a b).2 := by
  refine h.keep_mem hf t th1 ?_ ?_ ?_ ?_ hlk2 hth
  · simp only [RelaxedQueue.casTail]
    split <;> rfl
  · simp only [RelaxedQueue.casTail]
    split <;> rfl
  · simp only [RelaxedQueue.casTail]
    split <;> rfl
  · simp only [RelaxedQueue.casTail]
    split
    · rename_i e
      right
      rw [e]
      exact hab
    · exact Or.inl rfl

/-- The invariant after an allocation of a node or of a marker. -/
theorem Tails.keep_push {s : RSystem} (h : Tails s) (hf : RFacts s) (t : Nat)
    (th1 : RThread) (n : RelaxedQueue.Node) (hnn : n.next = none)
    (hiv : ∀ iv, n.invalid = some iv → iv.tail = none)
    (hnl : (s.threads t).pc.linking = false) (hth : th1.pc.loaded = false) :
    Tails (s.next t { s.queue with mem := s.queue.mem ++ [n] } th1) ∧
      s.queue.Grows { s.queue with mem := s.queue.mem ++ [n] } := by
  obtain ⟨h1, h2, h3⟩ := RelaxedQueue.nx_push hf.queue n hnn
  have hmt := RelaxedQueue.mt_push s.queue n hiv
  have hg : s.queue.Grows { s.queue with mem := s.queue.mem ++ [n] } :=
    RelaxedQueue.grows_of_nxt hf.queue h1 (fun a b e _ => h2 a b e) rfl rfl
      (fun m y0 e => ⟨y0, (hmt m).trans e, RelaxedQueue.up_refl _ _⟩)
  refine h.keep_same hf t th1 hg rfl rfl hmt (fun a m e1 e2 => Or.inl (h3 a m e1 e2)) ?_
    (TTail.of_unloaded _ hth)
  intro e
  rw [hnl] at e
  cases e

/-- The invariant after a compare-and-swap on a `next` field that expects null
or a marker. -/
theorem Tails.keep_cas {s : RSystem} (h : Tails s) (hf : RFacts s) (t : Nat)
    {q1 : RelaxedQueue} (th1 : RThread) {a : Nat} {e d : Option Nat} {b : Bool}
    (hc : s.queue.casNext (some a) e d = .ok (b, q1)) (he : s.queue.hide e = none)
    (hd : ∀ m, b = true → d = some m → s.queue.isMarker m = true →
      th1.pc.linking = true ∧ th1.invalid = m ∧ th1.last = a)
    (hlk2 : (s.threads t).pc.linking = true →
      (th1.pc.linking = true ∧ th1.invalid = (s.threads t).invalid ∧
          th1.last = (s.threads t).last) ∨
        q1.nxt (s.threads t).last ≠ some (s.threads t).invalid)
    (hth : TTail q1 (s.threads t) → TTail q1 th1) : Tails (s.next t q1 th1) ∧ s.queue.Grows q1 := by
  obtain ⟨n, hn, ⟨hb, hne, rfl⟩ | ⟨-, -, rfl⟩⟩ := RelaxedQueue.nx_casNext_cases hc
  · obtain ⟨h1, h2, h3⟩ := RelaxedQueue.nx_set hn d
    have hg : s.queue.Grows { s.queue with mem := s.queue.mem.set a { n with next := d } } := by
      refine RelaxedQueue.grows_of_nxt hf.queue (fun x _ => h1 x) ?_ rfl rfl
        (fun m y0 e => ⟨y0, (h3 m).trans e, RelaxedQueue.up_refl _ _⟩)
      intro x y e1 e2
      rw [h2]
      split
      · rename_i hx
        subst hx
        rw [RelaxedQueue.rm_nxt_of hn, hne] at e1
        rw [e1, RelaxedQueue.rm_hide_regular e2] at he
        cases he
      · exact e1
    refine h.keep_same hf t th1 hg rfl rfl h3 ?_ hlk2
      (hth ((h.threads t).grow hg (hf.ok t).1 (fun _ => h3 _)))
    intro x m e1 e2
    rw [h1] at e2
    rw [h2] at e1
    split at e1
    · rename_i hx
      subst hx
      exact Or.inr (hd m hb e1 e2)
    · exact Or.inl ⟨e1, e2⟩
  · refine h.keep_same hf t th1 (RelaxedQueue.grows_refl _) rfl rfl (fun _ => rfl)
      (fun x m e1 e2 => Or.inl ⟨e1, e2⟩) hlk2
      (hth ((h.threads t).grow (RelaxedQueue.grows_refl _) (hf.ok t).1 (fun _ => rfl)))

/-- The invariant after a store of the tail `y` to the `tail` field of the
marker of the thread. -/
theorem Tails.keep_tag {s : RSystem} (h : Tails s) (hf : RFacts s) (t : Nat)
    {q1 : RelaxedQueue} (th1 : RThread) (y : Nat)
    (hset : s.queue.setInvalid (s.threads t).invalid (fun iv => { iv with tail := some y }) =
      .ok q1)
    (hsync : (s.threads t).pc.inSync = true) (hnl : (s.threads t).pc.linking = false)
    (hy0 : ∀ y0, s.queue.markerTail (s.threads t).invalid = some y0 → s.queue.Up y0 y)
    (hyt : s.queue.Up y s.queue.tail)
    (hth : (∀ a b, q1.Up a b ↔ s.queue.Up a b) → q1.snaps = s.queue.snaps →
      q1.tail = s.queue.tail → q1.markerTail (s.threads t).invalid = some y →
      TTail q1 th1) : Tails (s.next t q1 th1) ∧ s.queue.Grows q1 := by
  obtain ⟨hsh, -⟩ := RelaxedQueue.rm_setInvalid hf.queue hset
  have hv := RelaxedQueue.rv_setInvalid hset
  obtain ⟨iv, -, hm1, hm2⟩ := RelaxedQueue.mt_setInvalid hset
  have hup : ∀ a b, q1.Up a b ↔ s.queue.Up a b := fun a b => RelaxedQueue.up_shape hsh
  have hg : s.queue.Grows q1 := by
    refine RelaxedQueue.grows_shape hsh hv.2.1 ?_
    intro m y0 e
    by_cases hm : m = (s.threads t).invalid
    · subst hm
      exact ⟨y, hm1, hy0 y0 e⟩
    · exact ⟨y0, (hm2 m hm).trans e, RelaxedQueue.up_refl _ _⟩
  refine h.keep_all hf t th1 hg ?_ ?_ ?_ ?_ ?_ ?_
    (hth hup hv.2.1 hsh.2.2.2.2 hm1)
  · rw [hv.2.2.1, hv.2.1]
    exact h.data
  · intro i h1 h2
    rw [hv.2.1] at h2
    omega
  · intro m z e
    rw [hup, hsh.2.2.2.2]
    by_cases hm : m = (s.threads t).invalid
    · subst hm
      rw [hm1] at e
      injection e with e
      subst e
      exact hyt
    · rw [hm2 m hm] at e
      exact h.markers m z e
  · intro u hu hus
    exact hm2 _ (hf.distinct u t hu hus hsync)
  · intro a m e1 e2
    rw [RelaxedQueue.nx_setInvalid hset] at e1
    rw [hsh.2.1] at e2
    exact Or.inl ⟨e1, e2⟩
  · intro e
    rw [hnl] at e
    cases e

theorem RelaxedQueue.mt_setInvalid_keep {q q1 : RelaxedQueue} {i : Nat}
    {f : RelaxedQueue.InvalidPart → RelaxedQueue.InvalidPart}
    (h : q.setInvalid i f = .ok q1) (hf : ∀ iv, (f iv).tail = iv.tail) (m : Nat) :
    q1.markerTail m = q.markerTail m := by
  obtain ⟨iv, h1, h2, h3⟩ := RelaxedQueue.mt_setInvalid h
  by_cases hm : m = i
  · subst hm
    rw [h2, hf, RelaxedQueue.mt_loadInvalid h1]
  · exact h3 m hm

theorem Tails.on_enqLoadTail {s s1 : RSystem} {t : Nat} (hT : Tails s) (hf : RFacts s)
    (hpc : (s.threads t).pc = .enqLoadTail) (hs : s.step t .step = .ok s1) :
    Tails s1 ∧ s.queue.Grows s1.queue := by
  simp only [RSystem.step, hpc, Except.ok.injEq] at hs
  subst hs
  exact hT.keep_local hf t _ (fun e => by simp [hpc, RPc.linking] at e) (TTail.of_unloaded _ rfl)

theorem Tails.on_enqReturn {s s1 : RSystem} {t : Nat} (hT : Tails s) (hf : RFacts s)
    (hpc : (s.threads t).pc = .enqReturn) (hs : s.step t .step = .ok s1) :
    Tails s1 ∧ s.queue.Grows s1.queue := by
  simp only [RSystem.step, hpc, Except.ok.injEq] at hs
  subst hs
  exact hT.keep_local hf t _ (fun e => by simp [hpc, RPc.linking] at e) (TTail.of_unloaded _ rfl)

theorem Tails.on_deqLoadHead {s s1 : RSystem} {t : Nat} (hT : Tails s) (hf : RFacts s)
    (hpc : (s.threads t).pc = .deqLoadHead) (hs : s.step t .step = .ok s1) :
    Tails s1 ∧ s.queue.Grows s1.queue := by
  simp only [RSystem.step, hpc, Except.ok.injEq] at hs
  subst hs
  exact hT.keep_local hf t _ (fun e => by simp [hpc, RPc.linking] at e) (TTail.of_unloaded _ rfl)

theorem Tails.on_deqLoadTail {s s1 : RSystem} {t : Nat} (hT : Tails s) (hf : RFacts s)
    (hpc : (s.threads t).pc = .deqLoadTail) (hs : s.step t .step = .ok s1) :
    Tails s1 ∧ s.queue.Grows s1.queue := by
  simp only [RSystem.step, hpc, Except.ok.injEq] at hs
  subst hs
  exact hT.keep_local hf t _ (fun e => by simp [hpc, RPc.linking] at e) (TTail.of_unloaded _ rfl)

theorem Tails.on_deqReturnEmpty {s s1 : RSystem} {t : Nat} (hT : Tails s) (hf : RFacts s)
    (hpc : (s.threads t).pc = .deqReturnEmpty) (hs : s.step t .step = .ok s1) :
    Tails s1 ∧ s.queue.Grows s1.queue := by
  simp only [RSystem.step, hpc, Except.ok.injEq] at hs
  subst hs
  exact hT.keep_local hf t _ (fun e => by simp [hpc, RPc.linking] at e) (TTail.of_unloaded _ rfl)

theorem Tails.on_deqReturnValue {s s1 : RSystem} {t : Nat} (hT : Tails s) (hf : RFacts s)
    (hpc : (s.threads t).pc = .deqReturnValue) (hs : s.step t .step = .ok s1) :
    Tails s1 ∧ s.queue.Grows s1.queue := by
  simp only [RSystem.step, hpc, Except.ok.injEq] at hs
  subst hs
  exact hT.keep_local hf t _ (fun e => by simp [hpc, RPc.linking] at e) (TTail.of_unloaded _ rfl)

theorem Tails.on_syncReturn {s s1 : RSystem} {t : Nat} (hT : Tails s) (hf : RFacts s)
    (hpc : (s.threads t).pc = .syncReturn) (hs : s.step t .step = .ok s1) :
    Tails s1 ∧ s.queue.Grows s1.queue := by
  simp only [RSystem.step, hpc, Except.ok.injEq] at hs
  subst hs
  exact hT.keep_local hf t _ (fun e => by simp [hpc, RPc.linking] at e) (TTail.of_unloaded _ rfl)

theorem Tails.on_enqLoadNext {s s1 : RSystem} {t : Nat} (hT : Tails s) (hf : RFacts s)
    (hpc : (s.threads t).pc = .enqLoadNext) (hs : s.step t .step = .ok s1) :
    Tails s1 ∧ s.queue.Grows s1.queue := by
  simp only [RSystem.step, hpc] at hs
  repeat' first
    | (cases hs; done)
    | (simp only [Except.ok.injEq] at hs
       subst hs
       exact hT.keep_local hf t _ (fun e => by simp [hpc, RPc.linking] at e) (TTail.of_unloaded _ rfl))
    | split at hs

theorem Tails.on_enqCheck {s s1 : RSystem} {t : Nat} (hT : Tails s) (hf : RFacts s)
    (hpc : (s.threads t).pc = .enqCheck) (hs : s.step t .step = .ok s1) :
    Tails s1 ∧ s.queue.Grows s1.queue := by
  simp only [RSystem.step, hpc] at hs
  repeat' first
    | (cases hs; done)
    | (simp only [Except.ok.injEq] at hs
       subst hs
       exact hT.keep_local hf t _ (fun e => by simp [hpc, RPc.linking] at e) (TTail.of_unloaded _ rfl))
    | split at hs

theorem Tails.on_deqLoadNext {s s1 : RSystem} {t : Nat} (hT : Tails s) (hf : RFacts s)
    (hpc : (s.threads t).pc = .deqLoadNext) (hs : s.step t .step = .ok s1) :
    Tails s1 ∧ s.queue.Grows s1.queue := by
  simp only [RSystem.step, hpc] at hs
  repeat' first
    | (cases hs; done)
    | (simp only [Except.ok.injEq] at hs
       subst hs
       exact hT.keep_local hf t _ (fun e => by simp [hpc, RPc.linking] at e) (TTail.of_unloaded _ rfl))
    | split at hs

theorem Tails.on_deqCheck {s s1 : RSystem} {t : Nat} (hT : Tails s) (hf : RFacts s)
    (hpc : (s.threads t).pc = .deqCheck) (hs : s.step t .step = .ok s1) :
    Tails s1 ∧ s.queue.Grows s1.queue := by
  simp only [RSystem.step, hpc] at hs
  repeat' first
    | (cases hs; done)
    | (simp only [Except.ok.injEq] at hs
       subst hs
       exact hT.keep_local hf t _ (fun e => by simp [hpc, RPc.linking] at e) (TTail.of_unloaded _ rfl))
    | split at hs

theorem Tails.on_deqLoadValue {s s1 : RSystem} {t : Nat} (hT : Tails s) (hf : RFacts s)
    (hpc : (s.threads t).pc = .deqLoadValue) (hs : s.step t .step = .ok s1) :
    Tails s1 ∧ s.queue.Grows s1.queue := by
  simp only [RSystem.step, hpc] at hs
  repeat' first
    | (cases hs; done)
    | (simp only [Except.ok.injEq] at hs
       subst hs
       exact hT.keep_local hf t _ (fun e => by simp [hpc, RPc.linking] at e) (TTail.of_unloaded _ rfl))
    | split at hs

theorem Tails.on_blockLoadData {s s1 : RSystem} {t : Nat} (hT : Tails s) (hf : RFacts s)
    (hpc : (s.threads t).pc = .blockLoadData) (hs : s.step t .step = .ok s1) :
    Tails s1 ∧ s.queue.Grows s1.queue := by
  simp only [RSystem.step, hpc, Except.ok.injEq] at hs
  subst hs
  exact hT.keep_local hf t _ (fun e => by simp [hpc, RPc.linking] at e) ((hT.threads t).step_of rfl rfl rfl rfl rfl (by simp [hpc, RPc.loaded]) (by simp [hpc, RPc.ranged]) (by simp [hpc, RPc.owning]) (by simp [hpc]) (by simp [hpc, RPc.watching]) (by simp [hpc]) (by simp [hpc, RPc.sampled]) (by simp [hpc]))

theorem Tails.on_check {s s1 : RSystem} {t : Nat} (hT : Tails s) (hf : RFacts s)
    (hpc : (s.threads t).pc = .check) (hs : s.step t .step = .ok s1) :
    Tails s1 ∧ s.queue.Grows s1.queue := by
  simp only [RSystem.step, hpc] at hs
  split at hs
  · cases hs
  · split at hs
    · simp only [Except.ok.injEq] at hs
      subst hs
      exact hT.keep_local hf t _ (fun e => by simp [hpc, RPc.linking] at e) (TTail.of_unloaded _ rfl)
    · simp only [Except.ok.injEq] at hs
      subst hs
      exact hT.keep_local hf t _ (fun e => by simp [hpc, RPc.linking] at e) ((hT.threads t).step_of rfl rfl rfl rfl rfl (by simp [hpc, RPc.loaded]) (by simp [hpc, RPc.ranged]) (by simp [hpc, RPc.owning]) (by simp [hpc]) (by simp [hpc, RPc.watching]) (by simp [hpc]) (by simp [hpc, RPc.sampled]) (by simp [hpc]))

theorem Tails.on_inspectCounter {s s1 : RSystem} {t : Nat} (hT : Tails s) (hf : RFacts s)
    (hpc : (s.threads t).pc = .inspectCounter) (hs : s.step t .step = .ok s1) :
    Tails s1 ∧ s.queue.Grows s1.queue := by
  simp only [RSystem.step, hpc] at hs
  repeat' first
    | (cases hs; done)
    | (simp only [Except.ok.injEq] at hs
       subst hs
       exact hT.keep_local hf t _ (fun e => by simp [hpc, RPc.linking] at e) ((hT.threads t).step_of rfl rfl rfl rfl rfl (by simp [hpc, RPc.loaded]) (by simp [hpc, RPc.ranged]) (by simp [hpc, RPc.owning]) (by simp [hpc]) (by simp [hpc, RPc.watching]) (by simp [hpc]) (by simp [hpc, RPc.sampled]) (by simp [hpc])))
    | split at hs

theorem Tails.on_inspectHead {s s1 : RSystem} {t : Nat} (hT : Tails s) (hf : RFacts s)
    (hpc : (s.threads t).pc = .inspectHead) (hs : s.step t .step = .ok s1) :
    Tails s1 ∧ s.queue.Grows s1.queue := by
  simp only [RSystem.step, hpc] at hs
  repeat' first
    | (cases hs; done)
    | (simp only [Except.ok.injEq] at hs
       subst hs
       exact hT.keep_local hf t _ (fun e => by simp [hpc, RPc.linking] at e) ((hT.threads t).step_of rfl rfl rfl rfl rfl (by simp [hpc, RPc.loaded]) (by simp [hpc, RPc.ranged]) (by simp [hpc, RPc.owning]) (by simp [hpc]) (by simp [hpc, RPc.watching]) (by simp [hpc]) (by simp [hpc, RPc.sampled]) (by simp [hpc])))
    | split at hs

theorem Tails.on_copyLoadCounter {s s1 : RSystem} {t : Nat} (hT : Tails s) (hf : RFacts s)
    (hpc : (s.threads t).pc = .copyLoadCounter) (hs : s.step t .step = .ok s1) :
    Tails s1 ∧ s.queue.Grows s1.queue := by
  simp only [RSystem.step, hpc] at hs
  repeat' first
    | (cases hs; done)
    | (simp only [Except.ok.injEq] at hs
       subst hs
       exact hT.keep_local hf t _ (fun e => by simp [hpc, RPc.linking] at e) ((hT.threads t).step_of rfl rfl rfl rfl rfl (by simp [hpc, RPc.loaded]) (by simp [hpc, RPc.ranged]) (by simp [hpc, RPc.owning]) (by simp [hpc]) (by simp [hpc, RPc.watching]) (by simp [hpc]) (by simp [hpc, RPc.sampled]) (by simp [hpc])))
    | split at hs

theorem Tails.on_copyLoadHead {s s1 : RSystem} {t : Nat} (hT : Tails s) (hf : RFacts s)
    (hpc : (s.threads t).pc = .copyLoadHead) (hs : s.step t .step = .ok s1) :
    Tails s1 ∧ s.queue.Grows s1.queue := by
  simp only [RSystem.step, hpc] at hs
  repeat' first
    | (cases hs; done)
    | (simp only [Except.ok.injEq] at hs
       subst hs
       exact hT.keep_local hf t _ (fun e => by simp [hpc, RPc.linking] at e) ((hT.threads t).step_of rfl rfl rfl rfl rfl (by simp [hpc, RPc.loaded]) (by simp [hpc, RPc.ranged]) (by simp [hpc, RPc.owning]) (by simp [hpc]) (by simp [hpc, RPc.watching]) (by simp [hpc]) (by simp [hpc, RPc.sampled]) (by simp [hpc])))
    | split at hs

theorem Tails.on_durableStart {s s1 : RSystem} {t : Nat} (hT : Tails s) (hf : RFacts s)
    (hpc : (s.threads t).pc = .durableStart) (hs : s.step t .step = .ok s1) :
    Tails s1 ∧ s.queue.Grows s1.queue := by
  simp only [RSystem.step, hpc] at hs
  repeat' first
    | (cases hs; done)
    | (simp only [Except.ok.injEq] at hs
       subst hs
       exact hT.keep_local hf t _ (fun e => by simp [hpc, RPc.linking] at e) ((hT.threads t).step_of rfl rfl rfl rfl rfl (by simp [hpc, RPc.loaded]) (by simp [hpc, RPc.ranged]) (by simp [hpc, RPc.owning]) (by simp [hpc]) (by simp [hpc, RPc.watching]) (by simp [hpc]) (by simp [hpc, RPc.sampled]) (by simp [hpc])))
    | split at hs

theorem Tails.on_durableLoop {s s1 : RSystem} {t : Nat} (hT : Tails s) (hf : RFacts s)
    (hpc : (s.threads t).pc = .durableLoop) (hs : s.step t .step = .ok s1) :
    Tails s1 ∧ s.queue.Grows s1.queue := by
  simp only [RSystem.step, hpc] at hs
  repeat' first
    | (cases hs; done)
    | (simp only [Except.ok.injEq] at hs
       subst hs
       exact hT.keep_local hf t _ (fun e => by simp [hpc, RPc.linking] at e) ((hT.threads t).step_of rfl rfl rfl rfl rfl (by simp [hpc, RPc.loaded]) (by simp [hpc, RPc.ranged]) (by simp [hpc, RPc.owning]) (by simp [hpc]) (by simp [hpc, RPc.watching]) (by simp [hpc]) (by simp [hpc, RPc.sampled]) (by simp [hpc])))
    | split at hs

theorem Tails.on_enqNew {s s1 : RSystem} {t : Nat} (hT : Tails s) (hf : RFacts s)
    (hpc : (s.threads t).pc = .enqNew) (hs : s.step t .step = .ok s1) :
    Tails s1 ∧ s.queue.Grows s1.queue := by
  simp only [RSystem.step, hpc, Except.ok.injEq] at hs
  subst hs
  exact hT.keep_push hf t _ _ rfl (fun iv e => by cases e) (by simp [hpc, RPc.linking]) rfl

theorem Tails.on_allocMarker {s s1 : RSystem} {t : Nat} (hT : Tails s) (hf : RFacts s)
    (hpc : (s.threads t).pc = .allocMarker) (hs : s.step t .step = .ok s1) :
    Tails s1 ∧ s.queue.Grows s1.queue := by
  simp only [RSystem.step, hpc, Except.ok.injEq] at hs
  subst hs
  exact hT.keep_push hf t _ _ rfl (fun iv e => by cases e; rfl) (by simp [hpc, RPc.linking]) rfl

theorem Tails.on_enqCasTail {s s1 : RSystem} {t : Nat} (hT : Tails s) (hf : RFacts s)
    (hpc : (s.threads t).pc = .enqCasTail) (hs : s.step t .step = .ok s1) :
    Tails s1 ∧ s.queue.Grows s1.queue := by
  simp only [RSystem.step, hpc, Except.ok.injEq] at hs
  subst hs
  exact hT.keep_tail hf t _ _ _ (hf.swing t hpc) (fun e => by simp [hpc, RPc.linking] at e) (fun _ => TTail.of_unloaded _ rfl)

theorem Tails.on_enqHelp {s s1 : RSystem} {t : Nat} (hT : Tails s) (hf : RFacts s)
    (hpc : (s.threads t).pc = .enqHelp) (hs : s.step t .step = .ok s1) :
    Tails s1 ∧ s.queue.Grows s1.queue := by
  simp only [RSystem.step, hpc] at hs
  split at hs
  · cases hs
  · rename_i nx hnx
    simp only [Except.ok.injEq] at hs
    subst hs
    exact hT.keep_tail hf t _ _ _ (hf.help t nx (Or.inl hpc) hnx) (fun e => by simp [hpc, RPc.linking] at e) (fun _ => TTail.of_unloaded _ rfl)

theorem Tails.on_deqHelp {s s1 : RSystem} {t : Nat} (hT : Tails s) (hf : RFacts s)
    (hpc : (s.threads t).pc = .deqHelp) (hs : s.step t .step = .ok s1) :
    Tails s1 ∧ s.queue.Grows s1.queue := by
  simp only [RSystem.step, hpc] at hs
  split at hs
  · cases hs
  · rename_i nx hnx
    simp only [Except.ok.injEq] at hs
    subst hs
    exact hT.keep_tail hf t _ _ _ (hf.help t nx (Or.inr (Or.inl hpc)) hnx) (fun e => by simp [hpc, RPc.linking] at e) (fun _ => TTail.of_unloaded _ rfl)

theorem Tails.on_helpTail {s s1 : RSystem} {t : Nat} (hT : Tails s) (hf : RFacts s)
    (hpc : (s.threads t).pc = .helpTail) (hs : s.step t .step = .ok s1) :
    Tails s1 ∧ s.queue.Grows s1.queue := by
  simp only [RSystem.step, hpc] at hs
  split at hs
  · cases hs
  · rename_i nx hnx
    simp only [Except.ok.injEq] at hs
    subst hs
    exact hT.keep_tail hf t _ _ _ (hf.help t nx (Or.inr (Or.inr hpc)) hnx) (fun e => by simp [hpc, RPc.linking] at e) (fun h0 => h0.step_of rfl rfl rfl rfl rfl (by simp [hpc, RPc.loaded]) (by simp [hpc, RPc.ranged]) (by simp [hpc, RPc.owning]) (by simp [hpc]) (by simp [hpc, RPc.watching]) (by simp [hpc]) (by simp [hpc, RPc.sampled]) (by simp [hpc]))

theorem Tails.on_enqCoop {s s1 : RSystem} {t : Nat} {hx : HelpStep} (hT : Tails s) (hf : RFacts s)
    (hpc : (s.threads t).pc = .enqCoop hx) (hs : s.step t .step = .ok s1) :
    Tails s1 ∧ s.queue.Grows s1.queue := by
  obtain ⟨n, hn, hmk⟩ := (hf.ok t).2.2.2.2 (by simp [hpc, RPc.helping])
  simp only [RSystem.step, hpc, hn] at hs
  split at hs
  · cases hs
  · rename_i q1 th1 h1 hc
    simp only [Except.ok.injEq] at hs
    subst hs
    obtain ⟨hsh, -, sh, st, rfl⟩ := RelaxedQueue.rm_coop hf.queue hc hmk
    obtain ⟨hmt, hnx⟩ := RelaxedQueue.mt_coop hc
    exact hT.keep_shape hf t _ hsh (RelaxedQueue.rv_coop hc).1 hmt hnx (fun e => by simp [hpc, RPc.linking] at e) (fun _ => TTail.of_unloaded _ rfl)
  · rename_i q1 th1 hc
    simp only [Except.ok.injEq] at hs
    subst hs
    obtain ⟨hsh, -, sh, st, rfl⟩ := RelaxedQueue.rm_coop hf.queue hc hmk
    obtain ⟨hmt, hnx⟩ := RelaxedQueue.mt_coop hc
    exact hT.keep_shape hf t _ hsh (RelaxedQueue.rv_coop hc).1 hmt hnx (fun e => by simp [hpc, RPc.linking] at e) (fun _ => TTail.of_unloaded _ rfl)

theorem Tails.on_deqCoop {s s1 : RSystem} {t : Nat} {hx : HelpStep} (hT : Tails s) (hf : RFacts s)
    (hpc : (s.threads t).pc = .deqCoop hx) (hs : s.step t .step = .ok s1) :
    Tails s1 ∧ s.queue.Grows s1.queue := by
  obtain ⟨n, hn, hmk⟩ := (hf.ok t).2.2.2.2 (by simp [hpc, RPc.helping])
  simp only [RSystem.step, hpc, hn] at hs
  split at hs
  · cases hs
  · rename_i q1 th1 h1 hc
    simp only [Except.ok.injEq] at hs
    subst hs
    obtain ⟨hsh, -, sh, st, rfl⟩ := RelaxedQueue.rm_coop hf.queue hc hmk
    obtain ⟨hmt, hnx⟩ := RelaxedQueue.mt_coop hc
    exact hT.keep_shape hf t _ hsh (RelaxedQueue.rv_coop hc).1 hmt hnx (fun e => by simp [hpc, RPc.linking] at e) (fun _ => TTail.of_unloaded _ rfl)
  · rename_i q1 th1 hc
    simp only [Except.ok.injEq] at hs
    subst hs
    obtain ⟨hsh, -, sh, st, rfl⟩ := RelaxedQueue.rm_coop hf.queue hc hmk
    obtain ⟨hmt, hnx⟩ := RelaxedQueue.mt_coop hc
    exact hT.keep_shape hf t _ hsh (RelaxedQueue.rv_coop hc).1 hmt hnx (fun e => by simp [hpc, RPc.linking] at e) (fun _ => TTail.of_unloaded _ rfl)

theorem Tails.on_coop {s s1 : RSystem} {t : Nat} {ride : Bool} {hx : HelpStep} (hT : Tails s) (hf : RFacts s)
    (hpc : (s.threads t).pc = .coop ride hx) (hs : s.step t .step = .ok s1) :
    Tails s1 ∧ s.queue.Grows s1.queue := by
  obtain ⟨n, hn, hmk⟩ := (hf.ok t).2.2.2.2 (by simp [hpc, RPc.helping])
  simp only [RSystem.step, hpc, hn] at hs
  split at hs
  · cases hs
  · rename_i q1 th1 h1 hc
    simp only [Except.ok.injEq] at hs
    subst hs
    obtain ⟨hsh, -, sh, st, rfl⟩ := RelaxedQueue.rm_coop hf.queue hc hmk
    obtain ⟨hmt, hnx⟩ := RelaxedQueue.mt_coop hc
    exact hT.keep_shape hf t _ hsh (RelaxedQueue.rv_coop hc).1 hmt hnx (fun e => by simp [hpc, RPc.linking] at e) (fun h0 => h0.step_of rfl rfl rfl rfl rfl (by simp [hpc, RPc.loaded]) (by simp [hpc, RPc.ranged]) (by simp [hpc, RPc.owning]) (by simp [hpc]) (by simp [hpc, RPc.watching]) (by simp [hpc]) (by simp [hpc, RPc.sampled]) (by simp [hpc]))
  · rename_i q1 th1 hc
    simp only [Except.ok.injEq] at hs
    subst hs
    obtain ⟨hsh, -, sh, st, rfl⟩ := RelaxedQueue.rm_coop hf.queue hc hmk
    obtain ⟨hmt, hnx⟩ := RelaxedQueue.mt_coop hc
    cases ride
    · exact hT.keep_shape hf t _ hsh (RelaxedQueue.rv_coop hc).1 hmt hnx (fun e => by simp [hpc, RPc.linking] at e) (fun h0 => h0.step_of rfl rfl rfl rfl rfl (by simp [hpc, RPc.loaded]) (by simp [hpc, RPc.ranged]) (by simp [hpc, RPc.owning]) (by simp [hpc]) (by simp [hpc, RPc.watching]) (by simp [hpc]) (by simp [hpc, RPc.sampled]) (by simp [hpc]))
    · exact hT.keep_shape hf t _ hsh (RelaxedQueue.rv_coop hc).1 hmt hnx (fun e => by simp [hpc, RPc.linking] at e) (fun h0 => h0.step_of rfl rfl rfl rfl rfl (by simp [hpc, RPc.loaded]) (by simp [hpc, RPc.ranged]) (by simp [hpc, RPc.owning]) (by simp [hpc]) (by simp [hpc, RPc.watching]) (by simp [hpc]) (by simp [hpc, RPc.sampled]) (by simp [hpc]))

theorem Tails.on_setCounter {s s1 : RSystem} {t : Nat} (hT : Tails s) (hf : RFacts s)
    (hpc : (s.threads t).pc = .setCounter) (hs : s.step t .step = .ok s1) :
    Tails s1 ∧ s.queue.Grows s1.queue := by
  simp only [RSystem.step, hpc] at hs
  split at hs
  · cases hs
  · rename_i q1 hc
    simp only [Except.ok.injEq] at hs
    subst hs
    obtain ⟨hsh, -⟩ := RelaxedQueue.rm_setInvalid hf.queue hc
    exact hT.keep_shape hf t _ hsh (RelaxedQueue.rv_setInvalid hc)
      (RelaxedQueue.mt_setInvalid_keep hc (fun _ => rfl))
      (fun a m e => (RelaxedQueue.nx_setInvalid hc a).symm.trans e) (fun e => by simp [hpc, RPc.linking] at e) (fun h0 => h0.step_of rfl rfl rfl rfl rfl (by simp [hpc, RPc.loaded]) (by simp [hpc, RPc.ranged]) (by simp [hpc, RPc.owning]) (by simp [hpc]) (by simp [hpc, RPc.watching]) (by simp [hpc]) (by simp [hpc, RPc.sampled]) (by simp [hpc]))

theorem Tails.on_copyStoreCounter {s s1 : RSystem} {t : Nat} (hT : Tails s) (hf : RFacts s)
    (hpc : (s.threads t).pc = .copyStoreCounter) (hs : s.step t .step = .ok s1) :
    Tails s1 ∧ s.queue.Grows s1.queue := by
  simp only [RSystem.step, hpc] at hs
  split at hs
  · cases hs
  · rename_i q1 hc
    simp only [Except.ok.injEq] at hs
    subst hs
    obtain ⟨hsh, -⟩ := RelaxedQueue.rm_setInvalid hf.queue hc
    exact hT.keep_shape hf t _ hsh (RelaxedQueue.rv_setInvalid hc)
      (RelaxedQueue.mt_setInvalid_keep hc (fun _ => rfl))
      (fun a m e => (RelaxedQueue.nx_setInvalid hc a).symm.trans e) (fun e => by simp [hpc, RPc.linking] at e) (fun h0 => h0.step_of rfl rfl rfl rfl rfl (by simp [hpc, RPc.loaded]) (by simp [hpc, RPc.ranged]) (by simp [hpc, RPc.owning]) (by simp [hpc]) (by simp [hpc, RPc.watching]) (by simp [hpc]) (by simp [hpc, RPc.sampled]) (by simp [hpc]))

theorem Tails.on_copyStoreHead {s s1 : RSystem} {t : Nat} (hT : Tails s) (hf : RFacts s)
    (hpc : (s.threads t).pc = .copyStoreHead) (hs : s.step t .step = .ok s1) :
    Tails s1 ∧ s.queue.Grows s1.queue := by
  simp only [RSystem.step, hpc] at hs
  split at hs
  · cases hs
  · rename_i q1 hc
    simp only [Except.ok.injEq] at hs
    subst hs
    obtain ⟨hsh, -⟩ := RelaxedQueue.rm_setInvalid hf.queue hc
    exact hT.keep_shape hf t _ hsh (RelaxedQueue.rv_setInvalid hc)
      (RelaxedQueue.mt_setInvalid_keep hc (fun _ => rfl))
      (fun a m e => (RelaxedQueue.nx_setInvalid hc a).symm.trans e) (fun e => by simp [hpc, RPc.linking] at e) (fun h0 => h0.step_of rfl rfl rfl rfl rfl (by simp [hpc, RPc.loaded]) (by simp [hpc, RPc.ranged]) (by simp [hpc, RPc.owning]) (by simp [hpc]) (by simp [hpc, RPc.watching]) (by simp [hpc]) (by simp [hpc, RPc.sampled]) (by simp [hpc]))

theorem Tails.on_fetchAdd {s s1 : RSystem} {t : Nat} (hT : Tails s) (hf : RFacts s)
    (hpc : (s.threads t).pc = .fetchAdd) (hs : s.step t .step = .ok s1) :
    Tails s1 ∧ s.queue.Grows s1.queue := by
  simp only [RSystem.step, hpc, Except.ok.injEq] at hs
  subst hs
  exact hT.keep_mem hf t _ rfl rfl rfl (Or.inl rfl) (fun e => by simp [hpc, RPc.linking] at e) (fun h0 => h0.step_of rfl rfl rfl rfl rfl (by simp [hpc, RPc.loaded]) (by simp [hpc, RPc.ranged]) (by simp [hpc, RPc.owning]) (by simp [hpc]) (by simp [hpc, RPc.watching]) (by simp [hpc]) (by simp [hpc, RPc.sampled]) (by simp [hpc]))

theorem Tails.on_ownLoadHead {s s1 : RSystem} {t : Nat} (hT : Tails s) (hf : RFacts s)
    (hpc : (s.threads t).pc = .ownLoadHead) (hs : s.step t .step = .ok s1) :
    Tails s1 ∧ s.queue.Grows s1.queue := by
  simp only [RSystem.step, hpc, Except.ok.injEq] at hs
  subst hs
  exact hT.keep_local hf t _ (fun _ => ⟨rfl, rfl, rfl⟩) ((hT.threads t).step_of rfl rfl rfl rfl rfl (by simp [hpc, RPc.loaded]) (by simp [hpc, RPc.ranged]) (by simp [hpc, RPc.owning]) (by simp [hpc]) (by simp [hpc, RPc.watching]) (by simp [hpc]) (by simp [hpc, RPc.sampled]) (by simp [hpc]))

theorem Tails.on_ownCasHead {s s1 : RSystem} {t : Nat} (hT : Tails s) (hf : RFacts s)
    (hpc : (s.threads t).pc = .ownCasHead) (hs : s.step t .step = .ok s1) :
    Tails s1 ∧ s.queue.Grows s1.queue := by
  simp only [RSystem.step, hpc] at hs
  split at hs
  · cases hs
  · rename_i b q1 hc
    simp only [Except.ok.injEq] at hs
    subst hs
    obtain ⟨hsh, -⟩ := RelaxedQueue.rm_casInvalidHead hf.queue hc
    exact hT.keep_shape hf t _ hsh (RelaxedQueue.rv_casInvalidHead hc)
      (RelaxedQueue.mt_casInvalidHead hc)
      (fun a m e => (RelaxedQueue.nx_casInvalidHead hc a).symm.trans e)
      (fun _ => Or.inl ⟨rfl, rfl, rfl⟩) (fun h0 => h0.step_of rfl rfl rfl rfl rfl (by simp [hpc, RPc.loaded]) (by simp [hpc, RPc.ranged]) (by simp [hpc, RPc.owning]) (by simp [hpc]) (by simp [hpc, RPc.watching]) (by simp [hpc]) (by simp [hpc, RPc.sampled]) (by simp [hpc]))

theorem Tails.on_enqCasNext {s s1 : RSystem} {t : Nat} (hT : Tails s) (hf : RFacts s)
    (hpc : (s.threads t).pc = .enqCasNext) (hs : s.step t .step = .ok s1) :
    Tails s1 ∧ s.queue.Grows s1.queue := by
  have hok := hf.ok t
  have hnone : (s.threads t).next = none := hok.2.2.2.1 (by simp [hpc, RPc.blank])
  have hreg := (hok.2.2.1 (by simp [hpc, RPc.toG, GPc.holds]) (by simp [hpc, RPc.inSync])).2
  simp only [RSystem.step, hpc] at hs
  split at hs
  · cases hs
  · rename_i q1 hc
    simp only [Except.ok.injEq] at hs
    subst hs
    refine hT.keep_cas hf t _ hc (by rw [hnone]; rfl) ?_ (fun e => by simp [hpc, RPc.linking] at e) (fun _ => TTail.of_unloaded _ rfl)
    intro m _ e1 e2
    injection e1 with e1
    subst e1
    rw [hreg] at e2
    cases e2
  · rename_i q1 hc
    simp only [Except.ok.injEq] at hs
    subst hs
    exact hT.keep_cas hf t _ hc (by rw [hnone]; rfl) (fun m hb => by cases hb) (fun e => by simp [hpc, RPc.linking] at e) (fun _ => TTail.of_unloaded _ rfl)

theorem Tails.on_block {s s1 : RSystem} {t : Nat} (hT : Tails s) (hf : RFacts s)
    (hpc : (s.threads t).pc = .block) (hs : s.step t .step = .ok s1) :
    Tails s1 ∧ s.queue.Grows s1.queue := by
  have hnone : (s.threads t).next = none := (hf.ok t).2.2.2.1 (by simp [hpc, RPc.blank])
  simp only [RSystem.step, hpc] at hs
  split at hs
  · cases hs
  · rename_i q1 hc
    simp only [Except.ok.injEq] at hs
    subst hs
    refine hT.keep_cas hf t _ hc (by rw [hnone]; rfl) ?_ (fun e => by simp [hpc, RPc.linking] at e) (fun h0 => h0.step_of rfl rfl rfl rfl rfl (by simp [hpc, RPc.loaded]) (by simp [hpc, RPc.ranged]) (by simp [hpc, RPc.owning]) (by simp [hpc]) (by simp [hpc, RPc.watching]) (by simp [hpc]) (by simp [hpc, RPc.sampled]) (by simp [hpc]))
    intro m _ e1 _
    injection e1 with e1
    exact ⟨rfl, e1, rfl⟩
  · rename_i q1 hc
    simp only [Except.ok.injEq] at hs
    subst hs
    exact hT.keep_cas hf t _ hc (by rw [hnone]; rfl) (fun m hb => by cases hb) (fun e => by simp [hpc, RPc.linking] at e) (fun h0 => h0.step_of rfl rfl rfl rfl rfl (by simp [hpc, RPc.loaded]) (by simp [hpc, RPc.ranged]) (by simp [hpc, RPc.owning]) (by simp [hpc]) (by simp [hpc, RPc.watching]) (by simp [hpc]) (by simp [hpc, RPc.sampled]) (by simp [hpc]))

theorem Tails.on_deqCasHead {s s1 : RSystem} {t : Nat} (hT : Tails s) (hf : RFacts s)
    (hpc : (s.threads t).pc = .deqCasHead) (hs : s.step t .step = .ok s1) :
    Tails s1 ∧ s.queue.Grows s1.queue := by
  have hfacts : ∀ a b, (s.queue.casHead a b).2.mem = s.queue.mem ∧
      (s.queue.casHead a b).2.snaps = s.queue.snaps ∧
      (s.queue.casHead a b).2.data = s.queue.data ∧
      (s.queue.casHead a b).2.tail = s.queue.tail := by
    intro a b
    simp only [RelaxedQueue.casHead]
    split <;> exact ⟨rfl, rfl, rfl, rfl⟩
  simp only [RSystem.step, hpc] at hs
  split at hs
  · cases hs
  · rename_i nx hnx
    obtain ⟨h1, h2, h3, h4⟩ := hfacts (s.threads t).first nx
    split at hs
    · rename_i q1 hc
      simp only [Except.ok.injEq] at hs
      subst hs
      have e : q1 = (s.queue.casHead (s.threads t).first nx).2 := by rw [hc]
      subst e
      exact hT.keep_mem hf t _ h1 h2 h3 (Or.inl h4)
        (fun e => by simp [hpc, RPc.linking] at e) (fun _ => TTail.of_unloaded _ rfl)
    · rename_i q1 hc
      simp only [Except.ok.injEq] at hs
      subst hs
      have e : q1 = (s.queue.casHead (s.threads t).first nx).2 := by rw [hc]
      subst e
      exact hT.keep_mem hf t _ h1 h2 h3 (Or.inl h4)
        (fun e => by simp [hpc, RPc.linking] at e) (fun _ => TTail.of_unloaded _ rfl)

theorem Tails.on_loadData {s s1 : RSystem} {t : Nat} (hT : Tails s) (hf : RFacts s)
    (hpc : (s.threads t).pc = .loadData) (hs : s.step t .step = .ok s1) :
    Tails s1 ∧ s.queue.Grows s1.queue := by
  simp only [RSystem.step, hpc, Except.ok.injEq] at hs
  subst hs
  refine hT.keep_local hf t _ (fun e => by simp [hpc, RPc.linking] at e) ?_
  refine ⟨fun _ => hT.data, ?_, ?_, ?_, ?_, ?_, ?_, ?_, ?_, ?_⟩
  all_goals (intro e; simp [RPc.loaded, RPc.ranged, RPc.owning, RPc.watching, RPc.sampled] at e)

theorem Tails.on_loadTail {s s1 : RSystem} {t : Nat} (hT : Tails s) (hf : RFacts s)
    (hpc : (s.threads t).pc = .loadTail) (hs : s.step t .step = .ok s1) :
    Tails s1 ∧ s.queue.Grows s1.queue := by
  simp only [RSystem.step, hpc, Except.ok.injEq] at hs
  subst hs
  have h0 := hT.threads t
  have hl := h0.loaded (by simp [hpc, RPc.loaded])
  refine hT.keep_local hf t _ (fun e => by simp [hpc, RPc.linking] at e) ?_
  refine ⟨fun _ => hl, fun _ => RelaxedQueue.up_refl _ _, ?_, fun _ y hy => hT.markers _ y hy,
    ?_, ?_, ?_, ?_, ?_, ?_⟩
  · intro _ a ha
    obtain ⟨a1, h1, h2⟩ := hT.snaps _ hl
    have ha1 : s.queue.snapTail (s.threads t).currData = some a := ha
    rw [h1] at ha1
    injection ha1 with ha1
    subst ha1
    exact h2
  all_goals (intro e; simp [RPc.loaded, RPc.ranged, RPc.owning, RPc.watching, RPc.sampled] at e)

theorem Tails.on_loadNext {s s1 : RSystem} {t : Nat} (hT : Tails s) (hf : RFacts s)
    (hpc : (s.threads t).pc = .loadNext) (hs : s.step t .step = .ok s1) :
    Tails s1 ∧ s.queue.Grows s1.queue := by
  have h0 := hT.threads t
  have hr : (s.threads t).pc.ranged = true := by simp [hpc, RPc.ranged]
  simp only [RSystem.step, hpc] at hs
  split at hs
  · cases hs
  · rename_i lastNode hl
    simp only [Except.ok.injEq] at hs
    subst hs
    refine hT.keep_local hf t _ (fun e => by simp [hpc, RPc.linking] at e) ?_
    refine ⟨fun _ => h0.loaded (RPc.ranged_loaded hr), fun _ => h0.last hr,
      fun _ => h0.snap hr, fun _ => h0.own hr, ?_, ?_, ?_, ?_, ?_, ?_⟩
    · intro e
      simp [RPc.owning] at e
    · intro _ n hn hm
      have hn1 : lastNode.next = some n := hn
      have hnx : s.queue.nxt (s.threads t).last = some n := by
        rw [RelaxedQueue.rm_nxt_of (RelaxedQueue.rm_load hl)]
        exact hn1
      obtain ⟨u, h1, h2, h3⟩ := hT.linked _ n hnx hm
      have h4 := (hT.threads u).owning (RPc.linking_owning h1)
      rw [h2, h3] at h4
      exact ⟨(s.threads t).last, h4, RelaxedQueue.up_refl _ _⟩
    all_goals (intro e; simp [RPc.loaded, RPc.ranged, RPc.owning, RPc.watching, RPc.sampled] at e)

theorem Tails.on_recheck {s s1 : RSystem} {t : Nat} (hT : Tails s) (hf : RFacts s)
    (hpc : (s.threads t).pc = .recheck) (hs : s.step t .step = .ok s1) :
    Tails s1 ∧ s.queue.Grows s1.queue := by
  have h0 := hT.threads t
  have hr : (s.threads t).pc.ranged = true := by simp [hpc, RPc.ranged]
  simp only [RSystem.step, hpc] at hs
  split at hs
  · split at hs
    · simp only [Except.ok.injEq] at hs
      subst hs
      exact hT.keep_local hf t _ (fun e => by simp [hpc, RPc.linking] at e)
        (h0.step_of rfl rfl rfl rfl rfl (by simp [hpc, RPc.loaded]) (by simp [hpc, RPc.ranged])
          (by simp [hpc, RPc.owning]) (by simp [hpc]) (by simp [hpc, RPc.watching])
          (by simp [hpc]) (by simp [hpc, RPc.sampled]) (by simp [hpc]))
    · rename_i n hn
      split at hs
      · cases hs
      · rename_i hiv
        simp only [Except.ok.injEq] at hs
        subst hs
        obtain ⟨y, h1, h2⟩ := h0.recheck hpc n hn (RelaxedQueue.rm_isInvalid hiv)
        refine hT.keep_local hf t _ (fun e => by simp [hpc, RPc.linking] at e) ?_
        refine ⟨fun _ => h0.loaded (RPc.ranged_loaded hr), fun _ => h0.last hr,
          fun _ => h0.snap hr, fun _ => h0.own hr, ?_, ?_, fun _ => ⟨n, y, hn, h1, h2⟩,
          ?_, ?_, ?_⟩
        all_goals
          (intro e; simp [RPc.loaded, RPc.ranged, RPc.owning, RPc.watching, RPc.sampled] at e)
      · simp only [Except.ok.injEq] at hs
        subst hs
        exact hT.keep_local hf t _ (fun e => by simp [hpc, RPc.linking] at e)
          (h0.step_of rfl rfl rfl rfl rfl (by simp [hpc, RPc.loaded])
            (by simp [hpc, RPc.ranged]) (by simp [hpc, RPc.owning]) (by simp [hpc])
            (by simp [hpc, RPc.watching]) (by simp [hpc]) (by simp [hpc, RPc.sampled])
            (by simp [hpc]))
  · simp only [Except.ok.injEq] at hs
    subst hs
    exact hT.keep_local hf t _ (fun e => by simp [hpc, RPc.linking] at e)
      (h0.step_of rfl rfl rfl rfl rfl (by simp [hpc, RPc.loaded]) (by simp [hpc, RPc.ranged])
        (by simp [hpc, RPc.owning]) (by simp [hpc]) (by simp [hpc, RPc.watching])
        (by simp [hpc]) (by simp [hpc, RPc.sampled]) (by simp [hpc]))

theorem Tails.on_setTail {s s1 : RSystem} {t : Nat} (hT : Tails s) (hf : RFacts s)
    (hpc : (s.threads t).pc = .setTail) (hs : s.step t .step = .ok s1) :
    Tails s1 ∧ s.queue.Grows s1.queue := by
  have h0 := hT.threads t
  have hr : (s.threads t).pc.ranged = true := by simp [hpc, RPc.ranged]
  simp only [RSystem.step, hpc] at hs
  split at hs
  · cases hs
  · rename_i q1 hc
    simp only [Except.ok.injEq] at hs
    subst hs
    refine hT.keep_tag hf t _ _ hc (by simp [hpc, RPc.inSync]) (by simp [hpc, RPc.linking])
      (h0.own hr) (h0.last hr) ?_
    intro hup hsn htl hm
    refine ⟨?_, ?_, ?_, ?_, fun _ => hm, ?_, ?_, ?_, ?_, ?_⟩
    · intro _
      rw [hsn]
      exact h0.loaded (RPc.ranged_loaded hr)
    · intro _
      rw [hup, htl]
      exact h0.last hr
    · intro _ a ha
      rw [hup]
      simp only [RelaxedQueue.snapTail, hsn] at ha
      exact h0.snap hr a ha
    · intro _ y hy
      have hy1 : q1.markerTail (s.threads t).invalid = some y := hy
      rw [hm] at hy1
      injection hy1 with hy1
      subst hy1
      exact RelaxedQueue.up_refl _ _
    all_goals (intro e; simp [RPc.loaded, RPc.ranged, RPc.owning, RPc.watching, RPc.sampled] at e)

theorem Tails.on_unblock {s s1 : RSystem} {t : Nat} (hT : Tails s) (hf : RFacts s)
    (hpc : (s.threads t).pc = .unblock) (hs : s.step t .step = .ok s1) :
    Tails s1 ∧ s.queue.Grows s1.queue := by
  have h0 := hT.threads t
  have hr : (s.threads t).pc.ranged = true := by simp [hpc, RPc.ranged]
  have hmk := (hf.ok t).2.1 (by simp [hpc, RPc.inSync])
  simp only [RSystem.step, hpc] at hs
  split at hs
  · cases hs
  · rename_i b q1 hc
    simp only [Except.ok.injEq] at hs
    subst hs
    have hsn : q1.snaps = s.queue.snaps := (RelaxedQueue.rv_casNext hc).2.1
    refine hT.keep_cas hf t _ hc (RelaxedQueue.rm_hide_marker hmk) (fun m _ e => by cases e)
      ?_ ?_
    · intro _
      right
      obtain ⟨n, hn, ⟨-, -, rfl⟩ | ⟨-, hne, rfl⟩⟩ := RelaxedQueue.nx_casNext_cases hc
      · rw [(RelaxedQueue.nx_set hn none).2.1]
        simp
      · rw [RelaxedQueue.rm_nxt_of hn]
        exact hne
    · intro h1
      obtain ⟨a, ha, -⟩ := hT.snaps _ (h0.loaded (RPc.ranged_loaded hr))
      have ha1 : q1.snapTail (s.threads t).currData = some a := by
        simp only [RelaxedQueue.snapTail, hsn]
        exact ha
      refine ⟨fun _ => h1.loaded (RPc.ranged_loaded hr), ?_, ?_, ?_, ?_, ?_, ?_, ?_,
        fun _ => ⟨a, _, ha1, h1.owning (by simp [hpc, RPc.owning]), h1.snap hr a ha1⟩, ?_⟩
      all_goals
        (intro e; simp [RPc.loaded, RPc.ranged, RPc.owning, RPc.watching, RPc.sampled] at e)

theorem Tails.on_copyLoadTail {s s1 : RSystem} {t : Nat} (hT : Tails s) (hf : RFacts s)
    (hpc : (s.threads t).pc = .copyLoadTail) (hs : s.step t .step = .ok s1) :
    Tails s1 ∧ s.queue.Grows s1.queue := by
  have h0 := hT.threads t
  have hr : (s.threads t).pc.ranged = true := by simp [hpc, RPc.ranged]
  obtain ⟨n1, y, hn1, hy, hup⟩ := h0.watching (by simp [hpc, RPc.watching])
  simp only [RSystem.step, hpc] at hs
  split at hs
  · cases hs
  · rename_i n hn
    rw [hn1] at hn
    injection hn with hn
    subst hn
    split at hs
    · cases hs
    · rename_i currI hl
      simp only [Except.ok.injEq] at hs
      subst hs
      have hst : currI.tail = some y := (RelaxedQueue.mt_loadInvalid hl).symm.trans hy
      refine hT.keep_local hf t _ (fun e => by simp [hpc, RPc.linking] at e) ?_
      refine ⟨fun _ => h0.loaded (RPc.ranged_loaded hr), fun _ => h0.last hr,
        fun _ => h0.snap hr, fun _ => h0.own hr, ?_, ?_, ?_,
        fun _ => ⟨y, hst, hup, hT.markers _ y hy⟩, ?_, ?_⟩
      all_goals
        (intro e; simp [RPc.loaded, RPc.ranged, RPc.owning, RPc.watching, RPc.sampled] at e)

theorem Tails.on_copyStoreTail {s s1 : RSystem} {t : Nat} (hT : Tails s) (hf : RFacts s)
    (hpc : (s.threads t).pc = .copyStoreTail) (hs : s.step t .step = .ok s1) :
    Tails s1 ∧ s.queue.Grows s1.queue := by
  have h0 := hT.threads t
  have hr : (s.threads t).pc.ranged = true := by simp [hpc, RPc.ranged]
  obtain ⟨y, hy, hup, hyt⟩ := h0.seen hpc
  simp only [RSystem.step, hpc] at hs
  split at hs
  · cases hs
  · rename_i q1 hc
    simp only [Except.ok.injEq] at hs
    subst hs
    rw [hy] at hc
    refine hT.keep_tag hf t _ y hc (by simp [hpc, RPc.inSync]) (by simp [hpc, RPc.linking])
      (fun y0 e => RelaxedQueue.up_trans (h0.own hr y0 e) hup) hyt ?_
    intro hU hsn htl hm
    obtain ⟨a, ha, -⟩ := hT.snaps _ (h0.loaded (RPc.ranged_loaded hr))
    have ha1 : q1.snapTail (s.threads t).currData = some a := by
      simp only [RelaxedQueue.snapTail, hsn]
      exact ha
    refine ⟨?_, ?_, ?_, ?_, ?_, ?_, ?_, ?_,
      fun _ => ⟨a, y, ha1, hm, (hU _ _).2 (RelaxedQueue.up_trans (h0.snap hr a ha) hup)⟩, ?_⟩
    · intro _
      rw [hsn]
      exact h0.loaded (RPc.ranged_loaded hr)
    all_goals (intro e; simp [RPc.loaded, RPc.ranged, RPc.owning, RPc.watching, RPc.sampled] at e)

theorem Tails.on_allocSnapshot {s s1 : RSystem} {t : Nat} (hT : Tails s) (hf : RFacts s)
    (hpc : (s.threads t).pc = .allocSnapshot) (hs : s.step t .step = .ok s1) :
    Tails s1 ∧ s.queue.Grows s1.queue := by
  have h0 := hT.threads t
  obtain ⟨a, y, ha, hy, hup⟩ := h0.sampled (by simp [hpc, RPc.sampled])
  simp only [RSystem.step, hpc] at hs
  split at hs
  · cases hs
  · rename_i iv hl
    simp only [Except.ok.injEq] at hs
    subst hs
    have hiv : iv.tail = some y := (RelaxedQueue.mt_loadInvalid hl).symm.trans hy
    have hold : ∀ i, i < s.queue.snaps.length →
        (s.queue.snaps ++ [RelaxedQueue.LastNVMData.mk iv.tail iv.head iv.counter])[i]? =
          s.queue.snaps[i]? := fun i hi => heap_push_old _ _ _ hi
    have hg : s.queue.Grows { s.queue with snaps := s.queue.snaps ++
        [RelaxedQueue.LastNVMData.mk iv.tail iv.head iv.counter] } :=
      RelaxedQueue.grows_of_mem rfl (Or.inl rfl) hold
    have hnew : RelaxedQueue.snapTail { s.queue with snaps := s.queue.snaps ++
        [RelaxedQueue.LastNVMData.mk iv.tail iv.head iv.counter] } s.queue.snaps.length =
          some y := by
      simp only [RelaxedQueue.snapTail, heap_push_new, Option.some_bind]
      exact hiv
    refine hT.keep_all hf t _ hg ?_ ?_ ?_ ?_ ?_ ?_ ?_
    · have := hT.data
      simp only [List.length_append, List.length_singleton]
      omega
    · intro i h1 h2
      simp only [List.length_append, List.length_singleton] at h2
      have hi : i = s.queue.snaps.length := by omega
      subst hi
      exact ⟨y, hnew, RelaxedQueue.up_grow hg (hT.markers _ y hy)⟩
    · intro m z e
      exact RelaxedQueue.up_grow hg (hT.markers m z e)
    · intro u _ _
      rfl
    · intro x m e1 e2
      exact Or.inl ⟨e1, e2⟩
    · intro e
      simp [hpc, RPc.linking] at e
    · refine ⟨?_, ?_, ?_, ?_, ?_, ?_, ?_, ?_, ?_, fun _ => ⟨a, y, ?_, hnew,
        RelaxedQueue.up_grow hg hup⟩⟩
      · intro _
        exact RelaxedQueue.grows_slen hg (RelaxedQueue.st_lt ha)
      case refine_10 =>
        rw [RelaxedQueue.st_grow hg (RelaxedQueue.st_lt ha)]
        exact ha
      all_goals
        (intro e; simp [RPc.loaded, RPc.ranged, RPc.owning, RPc.watching, RPc.sampled] at e)

theorem Tails.on_install {s s1 : RSystem} {t : Nat} (hT : Tails s) (hf : RFacts s)
    (hpc : (s.threads t).pc = .install) (hs : s.step t .step = .ok s1) :
    Tails s1 ∧ s.queue.Grows s1.queue := by
  have h0 := hT.threads t
  obtain ⟨a, b, -, hb, -⟩ := h0.install hpc
  have hfacts : (s.queue.casData (s.threads t).currData (s.threads t).potential).2.mem =
        s.queue.mem ∧
      (s.queue.casData (s.threads t).currData (s.threads t).potential).2.snaps =
        s.queue.snaps ∧
      (s.queue.casData (s.threads t).currData (s.threads t).potential).2.tail =
        s.queue.tail ∧
      (s.queue.casData (s.threads t).currData (s.threads t).potential).2.data <
        s.queue.snaps.length := by
    simp only [RelaxedQueue.casData]
    split
    · exact ⟨rfl, rfl, rfl, RelaxedQueue.st_lt hb⟩
    · exact ⟨rfl, rfl, rfl, hT.data⟩
  have key : ∀ (q1 : RelaxedQueue) (th1 : RThread),
      q1 = (s.queue.casData (s.threads t).currData (s.threads t).potential).2 →
      th1.pc.loaded = false → Tails (s.next t q1 th1) ∧ s.queue.Grows q1 := by
    intro q1 th1 e hth
    subst e
    obtain ⟨h1, h2, h3, h4⟩ := hfacts
    have hg := RelaxedQueue.grows_of_mem h1 (Or.inl h3) (fun i _ => by rw [h2])
    have hmt : ∀ m, RelaxedQueue.markerTail
        (s.queue.casData (s.threads t).currData (s.threads t).potential).2 m =
          s.queue.markerTail m := by
      intro m
      simp only [RelaxedQueue.markerTail, h1]
    refine hT.keep_all hf t th1 hg ?_ ?_ ?_ ?_ ?_ ?_ (TTail.of_unloaded _ hth)
    · rw [h2]
      exact h4
    · intro i i1 i2
      rw [h2] at i2
      omega
    · intro m z e
      rw [hmt] at e
      exact RelaxedQueue.up_trans (RelaxedQueue.up_grow hg (hT.markers m z e)) hg.tail
    · intro u _ _
      exact hmt _
    · intro x m e1 e2
      simp only [RelaxedQueue.nxt, RelaxedQueue.isMarker, h1] at e1 e2
      exact Or.inl ⟨e1, e2⟩
    · intro e
      simp [hpc, RPc.linking] at e
  simp only [RSystem.step, hpc] at hs
  split at hs
  · rename_i q1 hc
    simp only [Except.ok.injEq] at hs
    subst hs
    exact key _ _ (by rw [hc]) rfl
  · rename_i q1 hc
    simp only [Except.ok.injEq] at hs
    subst hs
    exact key _ _ (by rw [hc]) rfl

/-- Every action keeps the invariant of the sampled tails. -/
theorem Tails.after_step {s s1 : RSystem} {t : Nat} {a : RAct} (hT : Tails s) (hI : RInv s)
    (hs : s.step t a = .ok s1) : Tails s1 ∧ s.queue.Grows s1.queue := by
  have hf := hI.facts
  cases a with
  | call op =>
    simp only [RSystem.step] at hs
    split at hs
    · rename_i hpc
      cases op <;>
      · simp only [Except.ok.injEq] at hs
        subst hs
        exact hT.keep_local hf t _ (fun e => by simp [hpc, RPc.linking] at e)
          (TTail.of_unloaded _ rfl)
    · simp only [Except.ok.injEq] at hs
      subst hs
      exact ⟨hT, RelaxedQueue.grows_refl _⟩
  | step =>
    cases hpc : (s.threads t).pc with
    | idle =>
      simp only [RSystem.step, hpc, Except.ok.injEq] at hs
      subst hs
      exact ⟨hT, RelaxedQueue.grows_refl _⟩
    | enqNew => exact hT.on_enqNew hf hpc hs
    | enqLoadTail => exact hT.on_enqLoadTail hf hpc hs
    | enqLoadNext => exact hT.on_enqLoadNext hf hpc hs
    | enqCheck => exact hT.on_enqCheck hf hpc hs
    | enqCasNext => exact hT.on_enqCasNext hf hpc hs
    | enqCasTail => exact hT.on_enqCasTail hf hpc hs
    | enqCoop hx => exact hT.on_enqCoop hf hpc hs
    | enqHelp => exact hT.on_enqHelp hf hpc hs
    | enqReturn => exact hT.on_enqReturn hf hpc hs
    | deqLoadHead => exact hT.on_deqLoadHead hf hpc hs
    | deqLoadTail => exact hT.on_deqLoadTail hf hpc hs
    | deqLoadNext => exact hT.on_deqLoadNext hf hpc hs
    | deqCheck => exact hT.on_deqCheck hf hpc hs
    | deqCoop hx => exact hT.on_deqCoop hf hpc hs
    | deqHelp => exact hT.on_deqHelp hf hpc hs
    | deqLoadValue => exact hT.on_deqLoadValue hf hpc hs
    | deqCasHead => exact hT.on_deqCasHead hf hpc hs
    | deqReturnEmpty => exact hT.on_deqReturnEmpty hf hpc hs
    | deqReturnValue => exact hT.on_deqReturnValue hf hpc hs
    | allocMarker => exact hT.on_allocMarker hf hpc hs
    | loadData => exact hT.on_loadData hf hpc hs
    | blockLoadData => exact hT.on_blockLoadData hf hpc hs
    | fetchAdd => exact hT.on_fetchAdd hf hpc hs
    | check => exact hT.on_check hf hpc hs
    | setCounter => exact hT.on_setCounter hf hpc hs
    | loadTail => exact hT.on_loadTail hf hpc hs
    | loadNext => exact hT.on_loadNext hf hpc hs
    | recheck => exact hT.on_recheck hf hpc hs
    | setTail => exact hT.on_setTail hf hpc hs
    | block => exact hT.on_block hf hpc hs
    | ownLoadHead => exact hT.on_ownLoadHead hf hpc hs
    | ownCasHead => exact hT.on_ownCasHead hf hpc hs
    | unblock => exact hT.on_unblock hf hpc hs
    | inspectCounter => exact hT.on_inspectCounter hf hpc hs
    | inspectHead => exact hT.on_inspectHead hf hpc hs
    | coop ride hx => exact hT.on_coop hf hpc hs
    | copyLoadCounter => exact hT.on_copyLoadCounter hf hpc hs
    | copyStoreCounter => exact hT.on_copyStoreCounter hf hpc hs
    | copyLoadTail => exact hT.on_copyLoadTail hf hpc hs
    | copyStoreTail => exact hT.on_copyStoreTail hf hpc hs
    | copyLoadHead => exact hT.on_copyLoadHead hf hpc hs
    | copyStoreHead => exact hT.on_copyStoreHead hf hpc hs
    | helpTail => exact hT.on_helpTail hf hpc hs
    | durableStart => exact hT.on_durableStart hf hpc hs
    | durableLoop => exact hT.on_durableLoop hf hpc hs
    | allocSnapshot => exact hT.on_allocSnapshot hf hpc hs
    | install => exact hT.on_install hf hpc hs
    | syncReturn => exact hT.on_syncReturn hf hpc hs

/-- A step changes `data` only by the compare-and-swap of `sync` that
succeeds. -/
theorem RSystem.data_step {s s1 : RSystem} {t : Nat} {a : RAct} (hs : s.step t a = .ok s1) :
    s1.queue.data = s.queue.data ∨
      (a = .step ∧ (s.threads t).pc = .install ∧ s.queue.data = (s.threads t).currData ∧
        s1.queue.data = (s.threads t).potential) := by
  cases a with
  | call op =>
    left
    simp only [RSystem.step] at hs
    split at hs
    · cases op <;> (simp only [Except.ok.injEq] at hs; subst hs; rfl)
    · simp only [Except.ok.injEq] at hs
      subst hs
      rfl
  | step =>
    cases hpc : (s.threads t).pc with
    | install =>
      simp only [RSystem.step, hpc, RelaxedQueue.casData] at hs
      split at hs
      · rename_i b q1 hq
        split at hq
        · rename_i hd
          simp only [Prod.mk.injEq] at hq
          obtain ⟨-, rfl⟩ := hq
          simp only [Except.ok.injEq] at hs
          subst hs
          exact Or.inr ⟨rfl, rfl, hd, rfl⟩
        · simp at hq
      · rename_i b q1 hq
        split at hq
        · simp at hq
        · simp only [Prod.mk.injEq] at hq
          obtain ⟨-, rfl⟩ := hq
          simp only [Except.ok.injEq] at hs
          subst hs
          exact Or.inl rfl
    | deqCasHead =>
      left
      simp only [RSystem.step, hpc, RelaxedQueue.casHead] at hs
      split at hs
      · cases hs
      · split at hs
        · rename_i b q1 hq
          split at hq
          · simp only [Prod.mk.injEq] at hq
            obtain ⟨-, rfl⟩ := hq
            simp only [Except.ok.injEq] at hs
            subst hs
            rfl
          · simp at hq
        · rename_i b q1 hq
          split at hq
          · simp at hq
          · simp only [Prod.mk.injEq] at hq
            obtain ⟨-, rfl⟩ := hq
            simp only [Except.ok.injEq] at hs
            subst hs
            rfl
    | _ =>
      left
      simp only [RSystem.step, hpc] at hs
      repeat' first
        | (cases hs; done)
        | (simp only [Except.ok.injEq] at hs
           subst hs
           first
             | rfl
             | exact (RelaxedQueue.rv_casTail _ _ _).2.2.1
             | (simp only [RSystem.next]
                first
                  | exact (RelaxedQueue.rv_casNext (by assumption)).2.2.1
                  | exact (RelaxedQueue.rv_setInvalid (by assumption)).2.2.1
                  | exact (RelaxedQueue.rv_casInvalidHead (by assumption)).2.2.1
                  | exact (RelaxedQueue.rv_coop (by assumption)).1.2.2.1))
        | split at hs

theorem Tails.at_start : Tails RSystem.start := by
  refine ⟨by decide, ?_, ?_, ?_, ?_⟩
  · intro i hi
    have hi0 : i = 0 := by
      simp [RSystem.start, RelaxedQueue.new] at hi
      exact hi
    subst hi0
    exact ⟨0, rfl, RelaxedQueue.up_refl _ _⟩
  · intro m y e
    exfalso
    simp only [RelaxedQueue.markerTail] at e
    cases hm : RSystem.start.queue.mem[m]? with
    | none => simp [hm] at e
    | some n =>
      have hlt := heap_lt hm
      have hm0 : m = 0 := by
        simp [RSystem.start, RelaxedQueue.new] at hlt
        exact hlt
      subst hm0
      simp [RSystem.start, RelaxedQueue.new] at e
  · intro a m e1 e2
    exfalso
    simp only [RelaxedQueue.nxt] at e1
    cases hm : RSystem.start.queue.mem[a]? with
    | none => simp [hm] at e1
    | some n =>
      have hlt := heap_lt hm
      have hm0 : a = 0 := by
        simp [RSystem.start, RelaxedQueue.new] at hlt
        exact hlt
      subst hm0
      simp [RSystem.start, RelaxedQueue.new] at e1
  · intro t
    exact TTail.of_unloaded _ rfl

/-- The snapshot in `data` after a step: its tail is reached from the tail of
the snapshot in `data` before the step. -/
theorem Tails.data_tail {s s1 : RSystem} {t : Nat} {a : RAct} (hT : Tails s) (hI : RInv s)
    (hs : s.step t a = .ok s1) :
    ∃ x y, s.queue.snapTail s.queue.data = some x ∧ s1.queue.snapTail s1.queue.data = some y ∧
      s1.queue.Up x y := by
  obtain ⟨-, hg⟩ := hT.after_step hI hs
  obtain ⟨x, hx, -⟩ := hT.snaps _ hT.data
  rcases RSystem.data_step hs with hd | ⟨-, hpc, hd, hd1⟩
  · refine ⟨x, x, hx, ?_, RelaxedQueue.up_refl _ _⟩
    rw [hd, RelaxedQueue.st_grow hg hT.data]
    exact hx
  · obtain ⟨a1, b1, h1, h2, h3⟩ := (hT.threads t).install hpc
    rw [← hd, hx] at h1
    injection h1 with h1
    subst h1
    refine ⟨x, b1, hx, ?_, RelaxedQueue.up_grow hg h3⟩
    rw [hd1, RelaxedQueue.st_grow hg (RelaxedQueue.st_lt h2)]
    exact h2

/-- Along a run the invariants hold, the `next` pointers to regular nodes are
kept, and the tail of the snapshot in `data` moves along them. -/
theorem Tails.along {schedule : List (Nat × RAct)} :
    ∀ {s s1 : RSystem}, RInv s → Tails s → RSystem.run schedule s = .ok s1 →
      RInv s1 ∧ Tails s1 ∧ (∀ a b, s.queue.Up a b → s1.queue.Up a b) ∧
      ∃ x y, s.queue.snapTail s.queue.data = some x ∧
        s1.queue.snapTail s1.queue.data = some y ∧ s1.queue.Up x y := by
  induction schedule with
  | nil =>
    intro s s1 hI hT hr
    simp only [RSystem.run, Except.ok.injEq] at hr
    subst hr
    obtain ⟨x, hx, -⟩ := hT.snaps _ hT.data
    exact ⟨hI, hT, fun _ _ e => e, x, x, hx, hx, RelaxedQueue.up_refl _ _⟩
  | cons c rest ih =>
    intro s s1 hI hT hr
    obtain ⟨t, a⟩ := c
    simp only [RSystem.run] at hr
    cases hst : s.step t a with
    | error e => simp [hst] at hr
    | ok s2 =>
      simp only [hst] at hr
      obtain ⟨hT2, hg⟩ := hT.after_step hI hst
      obtain ⟨x, y, hx, hy, hxy⟩ := hT.data_tail hI hst
      obtain ⟨hI1, hT1, hup, y1, z, hy1, hz, hyz⟩ := ih (hI.keep_step hst) hT2 hr
      rw [hy] at hy1
      injection hy1 with hy1
      subst hy1
      exact ⟨hI1, hT1, fun a b e => hup a b (RelaxedQueue.up_grow hg e), x, z, hx, hz,
        RelaxedQueue.up_trans (hup _ _ hxy) hyz⟩

theorem RSystem.rs_run_append (a b : List (Nat × RAct)) :
    ∀ s : RSystem, RSystem.run (a ++ b) s =
      match RSystem.run a s with
      | .error e => .error e
      | .ok s1 => RSystem.run b s1 := by
  induction a with
  | nil => intro s; rfl
  | cons c rest ih =>
    intro s
    obtain ⟨t, x⟩ := c
    simp only [List.cons_append, RSystem.run]
    cases s.step t x with
    | error e => rfl
    | ok s1 => exact ih s1
/-! ## Claims -/

/-- C1. Volatile queue, single-threaded: for every finite sequence of `enq v`
(`v ≠ INT_MIN`) and `deq` calls on a freshly constructed `MSQueue`, with any
positive retry budget, every call returns, each `deq` returns the oldest
enqueued value not yet returned, and it returns `INT_MIN` exactly when every
enqueued value has already been returned. -/
theorem C1_msqueue_fifo (ops : List MSOp) (fuel : Nat) (hfuel : 0 < fuel)
    (hv : ∀ v, MSOp.enq v ∈ ops → v ≠ INT_MIN) :
    ∃ rs q, MSQueue.run fuel ops MSQueue.new = .ok (rs, q) ∧
      List.Forall₂ (fun r o => (∀ v, o = some v → r = v) ∧ (r = INT_MIN ↔ o = none))
        rs (fifoSpec [] ops) := by
  obtain ⟨k, rfl⟩ : ∃ k, fuel = k + 1 := ⟨fuel - 1, by omega⟩
  obtain ⟨q, _, _, e, _⟩ := MSQueue.ms_run_abs MSQueue.ms_new_abs k ops
  exact ⟨_, q, e, fifoSpec_sentinel [] ops (by simp) hv⟩

/-- Witness of C1 on the literal scenario enq(10), enq(20), deq, deq, deq. -/
theorem C1_msqueue_fifo_witness :
    (∀ v, MSOp.enq v ∈ [MSOp.enq 10, MSOp.enq 20, MSOp.deq, MSOp.deq, MSOp.deq] → v ≠ INT_MIN) ∧
    MSQueue.run 1 [MSOp.enq 10, MSOp.enq 20, MSOp.deq, MSOp.deq, MSOp.deq] MSQueue.new
      = .ok ([10, 20, INT_MIN],
          ⟨[⟨INT_MAX, some 1⟩, ⟨10, some 2⟩, ⟨20, none⟩], 2, 2⟩) ∧
    fifoSpec [] [MSOp.enq 10, MSOp.enq 20, MSOp.deq, MSOp.deq, MSOp.deq]
      = [some 10, some 20, none] ∧
    ∃ rs q, MSQueue.run 1 [MSOp.enq 10, MSOp.enq 20, MSOp.deq, MSOp.deq, MSOp.deq] MSQueue.new
        = .ok (rs, q) ∧
      List.Forall₂ (fun r o => (∀ v, o = some v → r = v) ∧ (r = INT_MIN ↔ o = none))
        rs (fifoSpec [] [MSOp.enq 10, MSOp.enq 20, MSOp.deq, MSOp.deq, MSOp.deq]) :=
  have hv : ∀ v, MSOp.enq v ∈ [MSOp.enq 10, MSOp.enq 20, MSOp.deq, MSOp.deq, MSOp.deq] →
      v ≠ INT_MIN := by
    intro v hm
    simp at hm
    rcases hm with rfl | rfl <;> decide
  ⟨hv, by decide, by decide, C1_msqueue_fifo _ 1 (by decide) hv⟩

/-- C2. For every single-threaded sequence of enqueue and dequeue calls, with
thread ids in `[0, MAX_THREADS)` and any operation numbers, applied to freshly
constructed queues with any positive retry budget, `DurableQueue::deq` and
`LogQueue::deq` return exactly the values that `MSQueue::deq` returns. -/
theorem C2_durable_log_refine_msqueue (calls : List Call) (fuel : Nat) (hfuel : 0 < fuel)
    (ht : ∀ c ∈ calls, 0 ≤ c.threadID ∧ c.threadID < MAX_THREADS) :
    ∃ rs qm qd ql,
      MSQueue.run fuel (calls.map Call.toMS) MSQueue.new = .ok (rs, qm) ∧
      DurableQueue.run fuel calls DurableQueue.new = .ok (rs, qd) ∧
      LogQueue.run fuel calls LogQueue.new = .ok (rs, ql) := by
  obtain ⟨k, rfl⟩ : ∃ k, fuel = k + 1 := ⟨fuel - 1, by omega⟩
  obtain ⟨qm, _, _, em, _⟩ := MSQueue.ms_run_abs MSQueue.ms_new_abs k (calls.map Call.toMS)
  obtain ⟨qd, _, _, ed, _⟩ := DurableQueue.dq_run_abs DurableQueue.dq_new_abs k calls ht
  obtain ⟨ql, _, _, el, _⟩ := LogQueue.lq_run_abs LogQueue.lq_new_abs k calls ht
  exact ⟨_, qm, qd, ql, em, ed, el⟩

/-- Witness of C2: two threads enqueue 1 and 2, three dequeues by threads 2, 0
and 143 return 1, 2 and `INT_MIN` on all three queues. -/
theorem C2_durable_log_refine_msqueue_witness :
    (∀ c ∈ [Call.enq 1 0 0, Call.enq 2 1 0, Call.deq 2 0, Call.deq 0 1, Call.deq 143 5],
        0 ≤ c.threadID ∧ c.threadID < MAX_THREADS) ∧
    (MSQueue.run 1 ([Call.enq 1 0 0, Call.enq 2 1 0, Call.deq 2 0, Call.deq 0 1,
        Call.deq 143 5].map Call.toMS) MSQueue.new).map Prod.fst = .ok [1, 2, INT_MIN] ∧
    (DurableQueue.run 1 [Call.enq 1 0 0, Call.enq 2 1 0, Call.deq 2 0, Call.deq 0 1,
        Call.deq 143 5] DurableQueue.new).map Prod.fst = .ok [1, 2, INT_MIN] ∧
    (LogQueue.run 1 [Call.enq 1 0 0, Call.enq 2 1 0, Call.deq 2 0, Call.deq 0 1,
        Call.deq 143 5] LogQueue.new).map Prod.fst = .ok [1, 2, INT_MIN] ∧
    ∃ rs qm qd ql,
      MSQueue.run 1 ([Call.enq 1 0 0, Call.enq 2 1 0, Call.deq 2 0, Call.deq 0 1,
        Call.deq 143 5].map Call.toMS) MSQueue.new = .ok (rs, qm) ∧
      DurableQueue.run 1 [Call.enq 1 0 0, Call.enq 2 1 0, Call.deq 2 0, Call.deq 0 1,
        Call.deq 143 5] DurableQueue.new = .ok (rs, qd) ∧
      LogQueue.run 1 [Call.enq 1 0 0, Call.enq 2 1 0, Call.deq 2 0, Call.deq 0 1,
        Call.deq 143 5] LogQueue.new = .ok (rs, ql) :=
  ⟨by decide, by decide, by decide, by decide,
    C2_durable_log_refine_msqueue _ 1 (by decide) (by decide)⟩

/-- C4. Durable queue: after any single-threaded history on a fresh queue, a call
`deq(tid)` with any positive retry budget returns some `r` (a dequeued value, or
`INT_MIN` for an empty queue) and at return the cell that
`removedValues[tid * PADDING]` points to holds `r`. -/
theorem C4_durable_deq_records_result (calls : List Call) (t : Int) (fuel : Nat)
    (hfuel : 0 < fuel) (hc : ∀ c ∈ calls, 0 ≤ c.threadID ∧ c.threadID < MAX_THREADS)
    (h0 : 0 ≤ t) (h1 : t < MAX_THREADS) :
    ∃ rs q r q', DurableQueue.run fuel calls DurableQueue.new = .ok (rs, q) ∧
      q.deq fuel t = .ok (r, q') ∧
      ∃ c, q'.removedPtr t = .ok (some c) ∧ q'.cells[c]? = some r := by
  obtain ⟨k, rfl⟩ : ∃ k, fuel = k + 1 := ⟨fuel - 1, by omega⟩
  obtain ⟨q, post, pend, e, a⟩ := DurableQueue.dq_run_abs DurableQueue.dq_new_abs k calls hc
  obtain ⟨q', e', -, c, hc1, hc2⟩ := DurableQueue.dq_deq_spec a h0 h1 k
  exact ⟨_, q, _, q', e, e', c, by simp [DurableQueue.removedPtr, slot_eq h0 h1, hc1], hc2⟩

/-- Witness of C4: thread 3 dequeues after enq(7), enq(8), deq by other threads. -/
theorem C4_durable_deq_records_result_witness :
    (∀ c ∈ [Call.enq 7 0 0, Call.enq 8 1 0, Call.deq 2 0],
        0 ≤ c.threadID ∧ c.threadID < MAX_THREADS) ∧
    (∃ rs q r q', DurableQueue.run 1 [Call.enq 7 0 0, Call.enq 8 1 0, Call.deq 2 0]
          DurableQueue.new = .ok (rs, q) ∧
      q.deq 1 3 = .ok (r, q') ∧
      ∃ c, q'.removedPtr 3 = .ok (some c) ∧ q'.cells[c]? = some r) :=
  ⟨by decide, C4_durable_deq_records_result _ 3 1 (by decide) (by decide) (by decide)
    (by decide)⟩

/-- C5. Detectable queue: after any single-threaded history on a fresh queue, a
call `deq(tid, op)` returns some `r`, and then `logs[tid * PADDING]` is an entry
with action `remove` and operation number `op`; if the queue was empty then
`r = INT_MIN`, the entry has `status = true` and a null `node`, and `head`, `tail`
and all nodes are unchanged; otherwise the entry's `node` is the removed node (the
old successor of `head`), whose value is `r`, whose `logDeq` is this entry and at
which `head` now points, and the entry's `status` is false. -/
theorem C5_log_deq_entry (calls : List Call) (t op : Int) (fuel : Nat)
    (hfuel : 0 < fuel) (hc : ∀ c ∈ calls, 0 ≤ c.threadID ∧ c.threadID < MAX_THREADS)
    (h0 : 0 ≤ t) (h1 : t < MAX_THREADS) :
    ∃ rs q r q' e ent, LogQueue.run fuel calls LogQueue.new = .ok (rs, q) ∧
      q.deq fuel t op = .ok (r, q') ∧
      q'.logPtr t = .ok (some e) ∧ q'.entries[e]? = some ent ∧
      ent.action = .remove ∧ ent.operationNum = op ∧
      ((q.nxt q.head = none ∧ r = INT_MIN ∧ ent.status = true ∧ ent.node = none ∧
          q'.head = q.head ∧ q'.tail = q.tail ∧ q'.mem = q.mem) ∨
       (∃ b nd, q.nxt q.head = some b ∧ ent.node = some b ∧ q'.mem[b]? = some nd ∧
          nd.value = r ∧ nd.logDeq = some e ∧ q'.head = b ∧ ent.status = false)) := by
  obtain ⟨k, rfl⟩ : ∃ k, fuel = k + 1 := ⟨fuel - 1, by omega⟩
  obtain ⟨q, post, pend, e, a⟩ := LogQueue.lq_run_abs LogQueue.lq_new_abs k calls hc
  obtain ⟨f, hf⟩ := heap_get q.arrays q.logs a.2.2
  have hl : q.logs < q.arrays.length := a.2.2
  cases post with
  | nil =>
    obtain ⟨e', -⟩ := LogQueue.lq_deq_eval_nil a hf h0 h1 k op
    refine ⟨_, q, _, _, q.entries.length, LogQueue.LogEntry.mk op .remove true none, e, e',
      ?_, ?_, rfl, rfl, Or.inl ?_⟩
    · simp [LogQueue.logPtr, LogQueue.readArray, slot_eq h0 h1, slot_lt h0 h1, hl]
    · simp
    · exact ⟨a.1.nil_inv.1, rfl, rfl, rfl, rfl, rfl, rfl⟩
  | cons b post =>
    obtain ⟨h1', h2, h3, hb, v, pend', rfl, h5, h6⟩ := a.1.cons_inv
    obtain ⟨m, hm⟩ := heap_get q.mem b h3
    have e' := LogQueue.lq_deq_eval_cons a hm hf h0 h1 k op
    refine ⟨_, q, _, _, q.entries.length, LogQueue.LogEntry.mk op .remove false (some b), e, e',
      ?_, ?_, rfl, rfl, Or.inr ?_⟩
    · simp [LogQueue.logPtr, LogQueue.readArray, slot_eq h0 h1, slot_lt h0 h1, hl]
    · simp
    · exact ⟨b, _, h1', rfl, heap_set_self _ _ _ h3, rfl, rfl, rfl, rfl⟩

/-- Witness of C5: thread 3 dequeues after enq(7), enq(8), deq by other threads. -/
theorem C5_log_deq_entry_witness :
    (∀ c ∈ [Call.enq 7 0 0, Call.enq 8 1 0, Call.deq 2 0],
        0 ≤ c.threadID ∧ c.threadID < MAX_THREADS) ∧
    (∃ rs q r q' e ent, LogQueue.run 1 [Call.enq 7 0 0, Call.enq 8 1 0, Call.deq 2 0]
          LogQueue.new = .ok (rs, q) ∧
      q.deq 1 3 9 = .ok (r, q') ∧
      q'.logPtr 3 = .ok (some e) ∧ q'.entries[e]? = some ent ∧
      ent.action = .remove ∧ ent.operationNum = 9 ∧
      ((q.nxt q.head = none ∧ r = INT_MIN ∧ ent.status = true ∧ ent.node = none ∧
          q'.head = q.head ∧ q'.tail = q.tail ∧ q'.mem = q.mem) ∨
       (∃ b nd, q.nxt q.head = some b ∧ ent.node = some b ∧ q'.mem[b]? = some nd ∧
          nd.value = r ∧ nd.logDeq = some e ∧ q'.head = b ∧ ent.status = false))) :=
  ⟨by decide, C5_log_deq_entry _ 3 9 1 (by decide) (by decide) (by decide) (by decide)⟩

/-- C6. Detectable queue: after any single-threaded history on a fresh queue, a
call `enq(v, tid, op)` returns, and then `logs[tid * PADDING]` is an entry with
action `insert` and operation number `op` whose node has value `v`, has this
entry as `logEnq`, a null `logDeq` and a null `next`; `tail` points at that node
and it is the last node of the chain that starts at `head`. -/
theorem C6_log_enq_entry (calls : List Call) (v t op : Int) (fuel : Nat)
    (hfuel : 0 < fuel) (hc : ∀ c ∈ calls, 0 ≤ c.threadID ∧ c.threadID < MAX_THREADS)
    (h0 : 0 ≤ t) (h1 : t < MAX_THREADS) :
    ∃ rs q q' e ent n nd post, LogQueue.run fuel calls LogQueue.new = .ok (rs, q) ∧
      q.enq fuel v t op = .ok q' ∧
      q'.logPtr t = .ok (some e) ∧ q'.entries[e]? = some ent ∧
      ent.action = .insert ∧ ent.operationNum = op ∧ ent.node = some n ∧
      q'.mem[n]? = some nd ∧ nd.value = v ∧ nd.logEnq = some e ∧ nd.logDeq = none ∧
      nd.next = none ∧ q'.tail = n ∧
      Linked q'.nxt q'.head post ∧ chainLast q'.head post = n := by
  obtain ⟨k, rfl⟩ : ∃ k, fuel = k + 1 := ⟨fuel - 1, by omega⟩
  obtain ⟨q, post, pend, e, a⟩ := LogQueue.lq_run_abs LogQueue.lq_new_abs k calls hc
  obtain ⟨f, hf⟩ := heap_get q.arrays q.logs a.2.2
  have hl : q.logs < q.arrays.length := a.2.2
  have ht : q.tail < q.mem.length := a.1.tail_lt
  obtain ⟨n, hn1⟩ := heap_get q.mem q.tail ht
  have hn2 : n.next = none := by simpa [LogQueue.nxt, hn1] using a.1.tail_none
  have e' := LogQueue.lq_enq_eval k v op hn1 hn2 hf h0 h1
  obtain ⟨q1, e1, a1⟩ := LogQueue.lq_enq_abs a h0 h1 k v op
  rw [e'] at e1
  cases e1
  refine ⟨_, q, _, q.entries.length, LogQueue.LogEntry.mk op .insert false (some q.mem.length),
    q.mem.length, LogQueue.NodeWithLog.mk v none (some q.entries.length) none, _, e, e',
    ?_, ?_, rfl, rfl, rfl, ?_, rfl, rfl, rfl, rfl, rfl, a1.1.linked, a1.1.last⟩
  · simp [LogQueue.logPtr, LogQueue.readArray, slot_eq h0 h1, slot_lt h0 h1, hl]
  · simp
  · rw [heap_set_other _ _ _ _ (Nat.ne_of_gt ht), heap_push_new]

/-- Witness of C6: thread 3 enqueues 5 after enq(7), enq(8), deq by other threads. -/
theorem C6_log_enq_entry_witness :
    (∀ c ∈ [Call.enq 7 0 0, Call.enq 8 1 0, Call.deq 2 0],
        0 ≤ c.threadID ∧ c.threadID < MAX_THREADS) ∧
    (∃ rs q q' e ent n nd post, LogQueue.run 1 [Call.enq 7 0 0, Call.enq 8 1 0, Call.deq 2 0]
          LogQueue.new = .ok (rs, q) ∧
      q.enq 1 5 3 9 = .ok q' ∧
      q'.logPtr 3 = .ok (some e) ∧ q'.entries[e]? = some ent ∧
      ent.action = .insert ∧ ent.operationNum = 9 ∧ ent.node = some n ∧
      q'.mem[n]? = some nd ∧ nd.value = 5 ∧ nd.logEnq = some e ∧ nd.logDeq = none ∧
      nd.next = none ∧ q'.tail = n ∧
      Linked q'.nxt q'.head post ∧ chainLast q'.head post = n) :=
  ⟨by decide, C6_log_enq_entry _ 5 3 9 1 (by decide) (by decide) (by decide) (by decide)⟩

/-- C3. For every single-threaded sequence of `enq`, `deq` and `sync` calls on a
fresh `RelaxedQueue` (retry budget above the number of calls), every call
returns and the `deq` calls return what `MSQueue::deq` returns for the same
sequence with the `sync` calls deleted; a further `sync` returns and leaves
`head`, `tail` and every node allocated before the call unchanged. -/
theorem C3_relaxed_refines_msqueue (ops : List ROp) (t : Int) (fuel : Nat)
    (hfuel : ops.length < fuel) :
    ∃ rs q qm fl q', RelaxedQueue.run fuel ops RelaxedQueue.new = .ok (rs, q) ∧
      MSQueue.run fuel (ops.filterMap ROp.toMS) MSQueue.new = .ok (rs, qm) ∧
      q.sync fuel t = .ok (fl, q') ∧ q'.head = q.head ∧ q'.tail = q.tail ∧
      ∀ a, a < q.mem.length → q'.mem[a]? = q.mem[a]? := by
  obtain ⟨k, rfl⟩ : ∃ k, fuel = k + 1 := ⟨fuel - 1, by omega⟩
  obtain ⟨q, post, pend, s, l, e, a, b, -⟩ :=
    RelaxedQueue.rq_run_abs RelaxedQueue.rq_new_abs (k + 1) ops (by simp; omega)
  obtain ⟨qm, _, _, em, _⟩ := MSQueue.ms_run_abs MSQueue.ms_new_abs k (ops.filterMap ROp.toMS)
  obtain ⟨fl, q', -, -, e', -, -, hh, ht, hm, -, -⟩ :=
    RelaxedQueue.rq_sync_spec a k (by simp at b; omega) t
  exact ⟨_, q, qm, fl, q', e, em, e', hh, ht, hm⟩

/-- Witness of C3: enq 1, enq 2, sync, deq, enq 3, sync, deq, deq, deq returns
1, 2, 3, `INT_MIN`, as the volatile queue does without the two `sync` calls. -/
theorem C3_relaxed_refines_msqueue_witness :
    (RelaxedQueue.run 10 [ROp.enq 1, ROp.enq 2, ROp.sync 0, ROp.deq, ROp.enq 3, ROp.sync 1,
        ROp.deq, ROp.deq, ROp.deq] RelaxedQueue.new).map Prod.fst = .ok [1, 2, 3, INT_MIN] ∧
    ∃ rs q qm fl q',
      RelaxedQueue.run 10 [ROp.enq 1, ROp.enq 2, ROp.sync 0, ROp.deq, ROp.enq 3, ROp.sync 1,
        ROp.deq, ROp.deq, ROp.deq] RelaxedQueue.new = .ok (rs, q) ∧
      MSQueue.run 10 ([ROp.enq 1, ROp.enq 2, ROp.sync 0, ROp.deq, ROp.enq 3, ROp.sync 1,
        ROp.deq, ROp.deq, ROp.deq].filterMap ROp.toMS) MSQueue.new = .ok (rs, qm) ∧
      q.sync 10 0 = .ok (fl, q') ∧ q'.head = q.head ∧ q'.tail = q.tail ∧
      ∀ a, a < q.mem.length → q'.mem[a]? = q.mem[a]? :=
  ⟨by decide, C3_relaxed_refines_msqueue _ 0 10 (by decide)⟩

/-- C7, amended. When `sync` is called after a single-threaded history with fewer
than `2^31 - 1` earlier `sync` calls (the 32-bit `counter` has not reached
`INT_MAX`), on a queue whose head is `H` and whose last node is `L`, it returns
with `data` pointing at a newly allocated snapshot with `NVMTail = L`,
`NVMHead = H` and version equal to the value of `counter` before the call, and
`counter` is incremented by exactly 1. -/
theorem C7_sync_snapshot (ops : List ROp) (t : Int) (fuel : Nat)
    (hfuel : ops.length < fuel) (hs : syncCount ops < 2147483647) :
    ∃ rs q fl q' post, RelaxedQueue.run fuel ops RelaxedQueue.new = .ok (rs, q) ∧
      q.sync fuel t = .ok (fl, q') ∧ Linked q.nxt q.head post ∧
      q'.data = q.snaps.length ∧
      q'.snaps[q'.data]? = some ⟨some (chainLast q.head post), some q.head, q.counter⟩ ∧
      q'.counter = q.counter + 1 := by
  obtain ⟨k, rfl⟩ : ∃ k, fuel = k + 1 := ⟨fuel - 1, by omega⟩
  obtain ⟨q, post, pend, s, l, e, a, b, hcount⟩ :=
    RelaxedQueue.rq_run_abs RelaxedQueue.rq_new_abs (k + 1) ops (by simp; omega)
  have hc : q.Count (syncCount ops) := by
    have := hcount 0 RelaxedQueue.rq_new_count (by omega)
    simpa using this
  obtain ⟨fl, q', -, -, e', -, -, -, -, -, hn, -⟩ :=
    RelaxedQueue.rq_sync_spec a k (by simp at b; omega) t
  obtain ⟨-, -, hd, hsn, hctr⟩ := hn _ hc (by omega)
  refine ⟨_, q, fl, q', post, e, e', a.chain.linked, hd, ?_, ?_⟩
  · rw [hd, hsn, a.chain.last]
    exact heap_push_new _ _
  · rw [hctr, hc.2, wrapInt32_succ, wrapInt32_small _ (by omega), wrapInt32_small _ (by omega)]
    push_cast
    rfl

/-- Witness of C7 on the queue holding 1, 2, 3: the snapshot tail is the node
holding 3 (address 3), the snapshot head is the dummy, the version is 0. -/
theorem C7_sync_snapshot_witness :
    syncCount [ROp.enq 1, ROp.enq 2, ROp.enq 3] < 2147483647 ∧
    (RelaxedQueue.run 4 [ROp.enq 1, ROp.enq 2, ROp.enq 3] RelaxedQueue.new).bind
        (fun r => (r.2.sync 4 0).map (fun x => (x.2.snaps[x.2.data]?, x.2.counter)))
      = .ok (some ⟨some 3, some 0, 0⟩, 1) ∧
    ∃ rs q fl q' post,
      RelaxedQueue.run 4 [ROp.enq 1, ROp.enq 2, ROp.enq 3] RelaxedQueue.new = .ok (rs, q) ∧
      q.sync 4 0 = .ok (fl, q') ∧ Linked q.nxt q.head post ∧
      q'.data = q.snaps.length ∧
      q'.snaps[q'.data]? = some ⟨some (chainLast q.head post), some q.head, q.counter⟩ ∧
      q'.counter = q.counter + 1 :=
  ⟨by decide, by decide, C7_sync_snapshot _ 0 4 (by decide) (by decide)⟩

/-- C7 fails as stated: after `2^31` calls of `sync` on a fresh queue the 32-bit
`counter` has wrapped to `INT_MIN` while the current snapshot has version
`INT_MAX`; the next `sync` returns without installing a snapshot: `data` still
points at the old snapshot, whose version is not the value `counter` held before
the call. -/
theorem C7_sync_snapshot_counterexample :
    ∃ rs q fl q' cd,
      RelaxedQueue.run 2147483649 (List.replicate 2147483648 (ROp.sync 0)) RelaxedQueue.new
        = .ok (rs, q) ∧
      q.sync 2147483649 0 = .ok (fl, q') ∧ q'.data = q.data ∧ q'.snaps = q.snaps ∧
      q'.snaps[q'.data]? = some cd ∧ cd.counter = 2147483647 ∧
      q.counter = -2147483648 := by
  obtain ⟨q, post, pend, s, l, e, a, b, hcount⟩ :=
    RelaxedQueue.rq_run_abs RelaxedQueue.rq_new_abs 2147483649
      (List.replicate 2147483648 (ROp.sync 0))
      (by rw [List.length_replicate]; exact Nat.lt_succ_self _)
  have hc : q.Count 2147483648 := by
    have := hcount 0 RelaxedQueue.rq_new_count
      (by rw [syncCount_replicate])
    rw [syncCount_replicate, Nat.zero_add] at this
    exact this
  obtain ⟨⟨cd, hcd, hv⟩, hq⟩ := hc
  have hq' : q.counter = -2147483648 := by
    rw [hq]
    unfold wrapInt32
    omega
  have hv' : cd.counter = 2147483647 := by
    rw [hv]
    omega
  rw [List.length_replicate] at b
  obtain ⟨fl, q', -, -, e', -, -, -, -, -, -, hst⟩ :=
    RelaxedQueue.rq_sync_spec a 2147483648 (by simpa using b) 0
  obtain ⟨hd, hsn⟩ := hst cd hcd (by omega)
  exact ⟨_, q, fl, q', cd, e, e', hd, hsn, by rw [hd, hsn]; exact hcd, hv', hq'⟩

/-- C8, failing input. Thread 2 calls `enq(5, 2, 0)` on a fresh queue and the
process stops after `createEnqLogAndNode`: the surviving log of thread 2 is an
insert entry with `status = false` whose node is not reachable from `head`, and
every other log slot is null.  `recover` does not link the node: for every
positive budget it faults, in `updateTailAndStatus`, on the null `logEnq` of the
dummy node that `head` points at. -/
theorem C8_recover_faults_on_fresh_queue (nextName : Nat → Option Nat → Option Nat) :
    ∃ n q, LogQueue.new.createEnqLogAndNode 5 2 0 = .ok (n, q) ∧
      q.logPtr 2 = .ok (some 0) ∧
      q.entries[0]? = some ⟨0, .insert, false, some n⟩ ∧
      q.nxt q.head = none ∧ n ≠ q.head ∧
      (∀ i, i < MAX_THREADS → i ≠ 2 → q.readArray q.logs (i * PADDING) = .ok none) ∧
      ∀ fuel, LogQueue.recover nextName (fuel + 1) q.logs q = .error .fault :=
  ⟨_, _, rfl, by decide, by decide, by decide, by decide, by decide, fun _ => rfl⟩

/-- C9, failing input. Thread 2 runs `enq(1)`, `deq`, `enq(2)`; a first recovery
is interrupted after `updateHead` and `updateTailAndStatus`, which leaves the state
`completedInsert`.  There the surviving log of thread 2 is an insert entry with
`status = true` whose node is reachable from `head`.  `recover` does not
terminate: for every budget it runs out of iterations, in `finishInsert`, whose
loop has no exit when the status is true. -/
theorem C9_recover_spins_on_completed_insert (nextName : Nat → Option Nat → Option Nat) :
    (∃ rs q0 q1,
      LogQueue.run 1 [Call.enq 1 2 0, Call.deq 2 1, Call.enq 2 2 2] LogQueue.new = .ok (rs, q0) ∧
      LogQueue.updateHead nextName 1 q0.head q0 = .ok q1 ∧
      LogQueue.updateTailAndStatus 1 q1.head q1.tail q1 = .ok LogQueue.completedInsert) ∧
    LogQueue.completedInsert.logPtr 2 = .ok (some 2) ∧
    LogQueue.completedInsert.entries[2]? = some ⟨2, .insert, true, some 2⟩ ∧
    LogQueue.completedInsert.nxt LogQueue.completedInsert.head = some 2 ∧
    ∀ fuel, LogQueue.recover nextName fuel LogQueue.completedInsert.logs
        LogQueue.completedInsert = .error .fuel := by
  refine ⟨⟨_, _, _, rfl, rfl, rfl⟩, by decide, by decide, by decide, ?_⟩
  intro fuel
  cases fuel with
  | zero => rfl
  | succ k =>
    have hrange : List.range MAX_THREADS = 0 :: 1 :: 2 :: List.range' 3 141 := by decide
    have h1 : LogQueue.updateHead nextName (k + 1) LogQueue.completedInsert.head
        LogQueue.completedInsert = .ok LogQueue.completedInsert := rfl
    have h2 : LogQueue.updateTailAndStatus (k + 1) LogQueue.completedInsert.head
        LogQueue.completedInsert.tail LogQueue.completedInsert
          = .ok LogQueue.completedInsert := rfl
    refine LogQueue.lq_recover_stuck h1 h2 ?_
    unfold LogQueue.finishPrevOperations
    rw [hrange, LogQueue.lq_finishPrevLoop_skip _ _ (by decide),
      LogQueue.lq_finishPrevLoop_skip _ _ (by decide)]
    exact @LogQueue.lq_finishPrevLoop_spin _ _ _ 2 ⟨2, none, some 2, none⟩
      ⟨2, .insert, true, some 2⟩ _ _ (by decide) (by decide) rfl rfl (by decide)

/-- C10, failing input. Thread 0 runs `enq(1)`, `enq(2)`, `deq` (which returns 1);
at this quiescent point `recover` is called on the surviving logs.  `finishRemove`
runs the completed dequeue of thread 0 a second time and removes the node
holding 2, so the first dequeue after recovery reports an empty queue: the
enqueued value 2 is returned by no dequeue. -/
theorem C10_recover_drops_value (nextName : Nat → Option Nat → Option Nat) :
    ∃ q q2 q3,
      LogQueue.run 1 [Call.enq 1 0 0, Call.enq 2 0 1, Call.deq 0 2] LogQueue.new
        = .ok ([1], q) ∧
      q.nxt q.head = some 2 ∧ q.val 2 = some 2 ∧
      LogQueue.recover nextName 1 q.logs q = .ok q2 ∧
      q2.head = 2 ∧ q2.nxt q2.head = none ∧
      q2.deq 1 0 3 = .ok (INT_MIN, q3) :=
  ⟨_, _, _, rfl, by decide, by decide, rfl, by decide, by decide, rfl⟩

/-- C11, failing input. On a freshly constructed queue, and also after
`enq(1, 0, 0)`, `enq(2, 1, 0)`, `head` is the initial dummy node, whose `logEnq` is
null.  `recover` does not return normally: for every positive budget and every
reading of the undeclared name in `updateHead` it faults, in
`updateTailAndStatus`, on `temp->logEnq.load()->status = true`. -/
theorem C11_recover_faults_on_dummy_head (nextName : Nat → Option Nat → Option Nat) :
    (LogQueue.new.mem[LogQueue.new.head]?).map (·.logEnq) = some none ∧
    (∀ fuel, LogQueue.recover nextName (fuel + 1) LogQueue.new.logs LogQueue.new
      = .error .fault) ∧
    ∃ rs q, LogQueue.run 1 [Call.enq 1 0 0, Call.enq 2 1 0] LogQueue.new = .ok (rs, q) ∧
      (q.mem[q.head]?).map (·.logEnq) = some none ∧
      ∀ fuel, LogQueue.recover nextName (fuel + 1) q.logs q = .error .fault :=
  ⟨by decide, fun _ => rfl, _, _, rfl, by decide, fun _ => rfl⟩

/-- C12, failing inputs. (a) Thread 0 runs `enq(1)`, `enq(2)`, `deq` (returns 1);
its remove entry has a non-null `node` and `status = false`.  After the first
two steps of `recover`, `finishRemove` on that entry claims the node holding 2:
it sets that node's `logDeq`, overwrites the entry's `node` and advances `head`.
(b) Thread 0 runs `enq(1)`, `deq` (returns 1) and `deq` on the empty queue (entry
with null `node` and `status = true`), then thread 1 runs `enq(5)`; after the
first two steps of `recover`, `finishRemove` on the last entry of thread 0
claims the node holding 5 and advances `head`. -/
theorem C12_finishRemove_reruns_finished (nextName : Nat → Option Nat → Option Nat) :
    (∃ q q1 q2 q3,
      LogQueue.run 1 [Call.enq 1 0 0, Call.enq 2 0 1, Call.deq 0 2] LogQueue.new
        = .ok ([1], q) ∧
      LogQueue.updateHead nextName 1 q.head q = .ok q1 ∧
      LogQueue.updateTailAndStatus 1 q1.head q1.tail q1 = .ok q2 ∧
      q2.logPtr 0 = .ok (some 2) ∧
      q2.entries[2]? = some ⟨2, .remove, false, some 1⟩ ∧
      q2.head = 1 ∧ (q2.mem[2]?).map (·.logDeq) = some none ∧
      LogQueue.finishRemove 2 1 q2 = .ok q3 ∧
      q3.head = 2 ∧ (q3.mem[2]?).map (·.logDeq) = some (some 2) ∧
      q3.entries[2]? = some ⟨2, .remove, false, some 2⟩) ∧
    (∃ q q1 q2 q3,
      LogQueue.run 1 [Call.enq 1 0 0, Call.deq 0 1, Call.deq 0 2, Call.enq 5 1 3] LogQueue.new
        = .ok ([1, INT_MIN], q) ∧
      LogQueue.updateHead nextName 1 q.head q = .ok q1 ∧
      LogQueue.updateTailAndStatus 1 q1.head q1.tail q1 = .ok q2 ∧
      q2.logPtr 0 = .ok (some 2) ∧
      q2.entries[2]? = some ⟨2, .remove, true, none⟩ ∧
      q2.head = 1 ∧ (q2.mem[2]?).map (·.logDeq) = some none ∧
      LogQueue.finishRemove 2 1 q2 = .ok q3 ∧
      q3.head = 2 ∧ (q3.mem[2]?).map (·.logDeq) = some (some 2) ∧
      q3.entries[2]? = some ⟨2, .remove, true, some 2⟩) :=
  ⟨⟨_, _, _, _, rfl, rfl, rfl, by decide, by decide, by decide, by decide, rfl, by decide,
      by decide, by decide⟩,
    ⟨_, _, _, _, rfl, rfl, rfl, by decide, by decide, by decide, by decide, rfl, by decide,
      by decide, by decide⟩⟩

/-- C13 fails as stated: after `enq(5, 2, 0)` on a fresh queue has linked its node
and returned, the node's `logEnq` entry, which is the entry in
`logs[2 * PADDING]`, has `status = false`. -/
theorem C13_enq_status_counterexample :
    ∃ q e ent n, LogQueue.new.enq 1 5 2 0 = .ok q ∧
      q.logPtr 2 = .ok (some e) ∧ q.entries[e]? = some ent ∧ ent.node = some n ∧
      (q.mem[n]?).map (·.logEnq) = some (some e) ∧ q.nxt q.head = some n ∧
      ent.status = false :=
  ⟨_, 0, ⟨0, .insert, false, some 1⟩, 1, rfl, by decide, by decide, rfl, by decide,
    by decide, rfl⟩

/-- C13, amended. After any single-threaded history on a fresh queue, a call
`enq(v, tid, op)` links its node after the old tail and returns, and then that
node's `logEnq` entry, which is the entry in `logs[tid * PADDING]`, has
`status = false`: the enqueue does not write the status. -/
theorem C13_enq_leaves_status_false (calls : List Call) (v t op : Int) (fuel : Nat)
    (hfuel : 0 < fuel) (hc : ∀ c ∈ calls, 0 ≤ c.threadID ∧ c.threadID < MAX_THREADS)
    (h0 : 0 ≤ t) (h1 : t < MAX_THREADS) :
    ∃ rs q q' e ent n, LogQueue.run fuel calls LogQueue.new = .ok (rs, q) ∧
      q.enq fuel v t op = .ok q' ∧
      q'.logPtr t = .ok (some e) ∧ q'.entries[e]? = some ent ∧ ent.node = some n ∧
      (q'.mem[n]?).map (·.logEnq) = some (some e) ∧ q'.nxt q.tail = some n ∧
      ent.status = false := by
  obtain ⟨k, rfl⟩ : ∃ k, fuel = k + 1 := ⟨fuel - 1, by omega⟩
  obtain ⟨q, post, pend, e, a⟩ := LogQueue.lq_run_abs LogQueue.lq_new_abs k calls hc
  obtain ⟨f, hf⟩ := heap_get q.arrays q.logs a.2.2
  have hl : q.logs < q.arrays.length := a.2.2
  have ht : q.tail < q.mem.length := a.1.tail_lt
  obtain ⟨n, hn1⟩ := heap_get q.mem q.tail ht
  have hn2 : n.next = none := by simpa [LogQueue.nxt, hn1] using a.1.tail_none
  have e' := LogQueue.lq_enq_eval k v op hn1 hn2 hf h0 h1
  have ht' : q.tail <
      (q.mem ++ [LogQueue.NodeWithLog.mk v none (some q.entries.length) none]).length := by
    simp; omega
  refine ⟨_, q, _, q.entries.length, LogQueue.LogEntry.mk op .insert false (some q.mem.length),
    q.mem.length, e, e', ?_, ?_, rfl, ?_, ?_, rfl⟩
  · simp [LogQueue.logPtr, LogQueue.readArray, slot_eq h0 h1, slot_lt h0 h1, hl]
  · simp
  · show Option.map _ ((List.set _ _ _)[q.mem.length]?) = _
    rw [heap_set_other _ _ _ _ (Nat.ne_of_gt ht), heap_push_new]
    rfl
  · show Option.bind ((List.set _ _ _)[q.tail]?) _ = _
    rw [heap_set_self _ _ _ ht']
    rfl

/-- Witness of C13, amended: thread 3 enqueues 5 after enq(7), enq(8), deq. -/
theorem C13_enq_leaves_status_false_witness :
    (∀ c ∈ [Call.enq 7 0 0, Call.enq 8 1 0, Call.deq 2 0],
        0 ≤ c.threadID ∧ c.threadID < MAX_THREADS) ∧
    (∃ rs q q' e ent n, LogQueue.run 1 [Call.enq 7 0 0, Call.enq 8 1 0, Call.deq 2 0]
          LogQueue.new = .ok (rs, q) ∧
      q.enq 1 5 3 9 = .ok q' ∧
      q'.logPtr 3 = .ok (some e) ∧ q'.entries[e]? = some ent ∧ ent.node = some n ∧
      (q'.mem[n]?).map (·.logEnq) = some (some e) ∧ q'.nxt q.tail = some n ∧
      ent.status = false) :=
  ⟨by decide, C13_enq_leaves_status_false _ 5 3 9 1 (by decide) (by decide) (by decide)
    (by decide)⟩

/-- C14 fails as stated: thread 3 dequeues from the queue holding 7.  At the
first two program points after its successful CAS on `next->threadID` (after the
CAS and after the `BARRIER` on it) the node is already claimed by thread 3 but
the cell of `removedValues[3 * PADDING]` holds `INT_MAX`, not the dequeued 7. -/
theorem C14_cell_after_cas_counterexample :
    ∃ rs q p1 p2 rest, DurableQueue.run 1 [Call.enq 7 0 0] DurableQueue.new = .ok (rs, q) ∧
      q.deqPoints 1 3 = .ok (7, p1 :: p2 :: rest) ∧
      (p1.mem[1]?).map (·.threadID) = some 3 ∧ (p1.mem[1]?).map (·.value) = some 7 ∧
      p1.removedCell 3 = some INT_MAX ∧ p2.removedCell 3 = some INT_MAX ∧
      INT_MAX ≠ 7 :=
  ⟨_, _, _, _, _, rfl, rfl, by decide, by decide, by decide, by decide, by decide⟩

/-- C14, amended. After any single-threaded history on a fresh queue, a call
`deq(tid)` either meets an empty queue (no CAS on a `threadID` succeeds), or its
CAS on `next->threadID` succeeds and five program points follow before the
return.  At the first two (after the CAS, after the `BARRIER` on the `threadID`)
the cell of `removedValues[tid * PADDING]` still holds its initial `INT_MAX`; at
every program point after the store `*removedValues[tid * PADDING] = value`
(after the store, after the `BARRIER_OPT`, after the CAS on `head`) it holds the
dequeued node's value, which is the value returned. -/
theorem C14_cell_after_store (calls : List Call) (t : Int) (fuel : Nat)
    (hfuel : 0 < fuel) (hc : ∀ c ∈ calls, 0 ≤ c.threadID ∧ c.threadID < MAX_THREADS)
    (h0 : 0 ≤ t) (h1 : t < MAX_THREADS) :
    ∃ rs q r pts q', DurableQueue.run fuel calls DurableQueue.new = .ok (rs, q) ∧
      q.deqPoints fuel t = .ok (r, pts) ∧ q.deq fuel t = .ok (r, q') ∧
      ((q.nxt q.head = none ∧ pts = []) ∨
       (∃ b p1 p2 p3 p4, q.nxt q.head = some b ∧ pts = [p1, p2, p3, p4, q'] ∧
          q.val b = some r ∧ (p1.mem[b]?).map (·.threadID) = some t ∧
          p1.removedCell t = some INT_MAX ∧ p2.removedCell t = some INT_MAX ∧
          p3.removedCell t = some r ∧ p4.removedCell t = some r ∧
          q'.removedCell t = some r)) := by
  obtain ⟨k, rfl⟩ : ∃ k, fuel = k + 1 := ⟨fuel - 1, by omega⟩
  obtain ⟨q, post, pend, e, a⟩ := DurableQueue.dq_run_abs DurableQueue.dq_new_abs k calls hc
  cases post with
  | nil =>
    have e1 := DurableQueue.dq_deqPoints_eval_nil a h0 h1 k
    obtain ⟨e2, -⟩ := DurableQueue.dq_deq_eval_nil a h0 h1 k
    exact ⟨_, q, _, _, _, e, e1, e2, Or.inl ⟨a.1.nil_inv.1, rfl⟩⟩
  | cons b post =>
    obtain ⟨h1', h2, h3, hb, v, pend', rfl, h5, h6⟩ := a.1.cons_inv
    obtain ⟨m, hm⟩ := heap_get q.mem b h3
    have hmv : q.val b = some m.value := by simp [DurableQueue.val, hm]
    have e1 := DurableQueue.dq_deqPoints_eval_cons a hm h0 h1 k
    have e2 := DurableQueue.dq_deq_eval_cons a hm h0 h1 k
    refine ⟨_, q, _, _, _, e, e1, e2, Or.inr ⟨b, _, _, _, _, h1', rfl, hmv, ?_, ?_, ?_, ?_, ?_,
      ?_⟩⟩
    · simp [heap_set_self _ _ _ h3]
    all_goals simp [DurableQueue.removedCell, DurableQueue.removedPtr, slot_eq h0 h1]

/-- Witness of C14, amended: thread 3 dequeues after enq(7), enq(8), deq. -/
theorem C14_cell_after_store_witness :
    (∀ c ∈ [Call.enq 7 0 0, Call.enq 8 1 0, Call.deq 2 0],
        0 ≤ c.threadID ∧ c.threadID < MAX_THREADS) ∧
    (∃ rs q r pts q', DurableQueue.run 1 [Call.enq 7 0 0, Call.enq 8 1 0, Call.deq 2 0]
          DurableQueue.new = .ok (rs, q) ∧
      q.deqPoints 1 3 = .ok (r, pts) ∧ q.deq 1 3 = .ok (r, q') ∧
      ((q.nxt q.head = none ∧ pts = []) ∨
       (∃ b p1 p2 p3 p4, q.nxt q.head = some b ∧ pts = [p1, p2, p3, p4, q'] ∧
          q.val b = some r ∧ (p1.mem[b]?).map (·.threadID) = some 3 ∧
          p1.removedCell 3 = some INT_MAX ∧ p2.removedCell 3 = some INT_MAX ∧
          p3.removedCell 3 = some r ∧ p4.removedCell 3 = some r ∧
          q'.removedCell 3 = some r))) :=
  ⟨by decide, C14_cell_after_store _ 3 1 (by decide) (by decide) (by decide) (by decide)⟩

/-- C16 fails as stated: on a fresh queue the prologue of `deq(3)` stores into
`removedValues[3 * PADDING]` a cell whose content is `INT_MAX`, while `deq`
returns the empty sentinel `INT_MIN` for this empty queue. -/
theorem C16_prologue_cell_counterexample :
    ∃ q0, DurableQueue.new.deqPrologue 3 = .ok q0 ∧
      q0.removedCell 3 = some INT_MAX ∧
      (DurableQueue.new.deq 1 3).map Prod.fst = .ok INT_MIN ∧ INT_MAX ≠ INT_MIN :=
  ⟨_, rfl, by decide, by decide, by decide⟩

/-- C16, amended. From every state, for a thread id in `[0, MAX_THREADS)`,
`deq(tid)` is its prologue followed by its retry loop, and the prologue stores
into `removedValues[tid * PADDING]` a freshly allocated cell whose content is
`INT_MAX`. -/
theorem C16_prologue_cell (q : DurableQueue) (t : Int) (fuel : Nat)
    (h0 : 0 ≤ t) (h1 : t < MAX_THREADS) :
    ∃ q0, q.deqPrologue t = .ok q0 ∧ q.deq fuel t = DurableQueue.deqLoop t fuel q0 ∧
      q0.removedPtr t = .ok (some q.cells.length) ∧ q.cells[q.cells.length]? = none ∧
      q0.removedCell t = some INT_MAX := by
  have hp : q.deqPrologue t = .ok
      { q with cells := q.cells ++ [INT_MAX],
               removedValues :=
                 Function.update q.removedValues (t * PADDING).toNat (some q.cells.length) } := by
    simp [DurableQueue.deqPrologue, slot_eq h0 h1]
  refine ⟨_, hp, ?_, ?_, by simp, ?_⟩
  · rw [DurableQueue.dq_deq_prologue]
    simp [DurableQueue.deqPrologue, slot_eq h0 h1]
  · simp [DurableQueue.removedPtr, slot_eq h0 h1]
  · simp [DurableQueue.removedCell, DurableQueue.removedPtr, slot_eq h0 h1]

/-- Witness of C16, amended, on a fresh queue and thread 3. -/
theorem C16_prologue_cell_witness :
    (0 : Int) ≤ 3 ∧ (3 : Int) < MAX_THREADS ∧
    ∃ q0, DurableQueue.new.deqPrologue 3 = .ok q0 ∧
      DurableQueue.new.deq 1 3 = DurableQueue.deqLoop 3 1 q0 ∧
      q0.removedPtr 3 = .ok (some DurableQueue.new.cells.length) ∧
      DurableQueue.new.cells[DurableQueue.new.cells.length]? = none ∧
      q0.removedCell 3 = some INT_MAX :=
  ⟨by decide, by decide, C16_prologue_cell DurableQueue.new 3 1 (by decide) (by decide)⟩

/-- Calls executed one after the other on the durable queue, from an arbitrary
state `q` to `q'`.  For every address: the `threadID` stored there is unchanged,
or the address was absent or unclaimed (`-1`) in `q` and in `q'` is unclaimed or
carries the thread id of one of the `deq` calls (`TidStep`).  A `threadID` other
than `-1` never changes afterwards. -/
theorem dq_calls_threadID_once (q : DurableQueue) (calls : List Call) (fuel : Nat)
    (rs : List Int) (q' : DurableQueue)
    (h : DurableQueue.run fuel calls q = .ok (rs, q')) :
    DurableQueue.TidStep calls q q' ∧
      (∀ a x, q.tid a = some x → x ≠ -1 → q'.tid a = some x) := by
  have hs := DurableQueue.dq_run_tidStep fuel calls q rs q' h
  refine ⟨hs, ?_⟩
  intro a x hx hne
  rcases hs a with h1 | ⟨h1 | h1, -⟩
  · rw [h1, hx]
  · rw [hx] at h1
    cases h1
  · rw [hx] at h1
    simp only [Option.some.injEq] at h1
    exact absurd h1 hne

/-- C18 fails as stated: `sync`, `enq(1)`, `sync` on a fresh queue installs one
after the other a snapshot whose `NVMTail` is the dummy node (address 0) and a
snapshot whose `NVMTail` is the node holding 1 (address 2).  The `next` field of
the later tail is null, so the earlier tail is not reachable from it. -/
theorem C18_snapshot_tail_counterexample :
    ∃ rs q fl q',
      RelaxedQueue.run 3 [ROp.sync 0, ROp.enq 1] RelaxedQueue.new = .ok (rs, q) ∧
      q.sync 3 0 = .ok (fl, q') ∧ q'.data ≠ q.data ∧
      (q.snaps[q.data]?).map (·.NVMTail) = some (some 0) ∧
      (q'.snaps[q'.data]?).map (·.NVMTail) = some (some 2) ∧
      q'.val 2 = some 1 ∧ q'.nxt 2 = none ∧ ¬ Reachable q'.nxt 2 0 := by
  have hq : RelaxedQueue.run 3 [ROp.sync 0, ROp.enq 1] RelaxedQueue.new = .ok ([],
      { mem := [⟨INT_MAX, some 2, none⟩, ⟨0, none, some ⟨0, some 0, some 0⟩⟩, ⟨1, none, none⟩],
        snaps := [⟨some 0, some 0, -1⟩, ⟨some 0, some 0, 0⟩],
        head := 0, tail := 2, data := 1, counter := 1 }) := by decide
  have hq' : RelaxedQueue.sync 3 0
      { mem := [⟨INT_MAX, some 2, none⟩, ⟨0, none, some ⟨0, some 0, some 0⟩⟩, ⟨1, none, none⟩],
        snaps := [⟨some 0, some 0, -1⟩, ⟨some 0, some 0, 0⟩],
        head := 0, tail := 2, data := 1, counter := 1 } = .ok ([0, 2],
      { mem := [⟨INT_MAX, some 2, none⟩, ⟨0, none, some ⟨0, some 0, some 0⟩⟩, ⟨1, none, none⟩,
                ⟨0, none, some ⟨1, some 2, some 0⟩⟩],
        snaps := [⟨some 0, some 0, -1⟩, ⟨some 0, some 0, 0⟩, ⟨some 2, some 0, 1⟩],
        head := 0, tail := 2, data := 2, counter := 2 }) := by decide
  refine ⟨_, _, _, _, hq, hq', by decide, by decide, by decide, by decide, by decide, ?_⟩
  rintro ⟨l, hs, hl⟩
  cases l with
  | nil => exact absurd hl (by decide)
  | cons b l =>
    have h1 := hs.1
    rw [show RelaxedQueue.nxt
      { mem := [⟨INT_MAX, some 2, none⟩, ⟨0, none, some ⟨0, some 0, some 0⟩⟩, ⟨1, none, none⟩,
                ⟨0, none, some ⟨1, some 2, some 0⟩⟩],
        snaps := [⟨some 0, some 0, -1⟩, ⟨some 0, some 0, 0⟩, ⟨some 2, some 0, 1⟩],
        head := 0, tail := 2, data := 2, counter := 2 } 2 = none from by decide] at h1
    cases h1

/-- Calls executed one after the other on a fresh Buffered-Relaxed queue: a
further call of `sync` either installs nothing (`data` unchanged) or replaces
the snapshot in `data` by a new one, and then the NVMTail of the new snapshot is
reachable from the NVMTail of the snapshot it replaces by following next
pointers. -/
theorem rq_sync_tail_forward (ops : List ROp) (t : Int) (fuel : Nat)
    (hfuel : ops.length < fuel) :
    ∃ rs q fl q', RelaxedQueue.run fuel ops RelaxedQueue.new = .ok (rs, q) ∧
      q.sync fuel t = .ok (fl, q') ∧
      (q'.data = q.data ∨
        ∃ old new a b, q.snaps[q.data]? = some old ∧ q'.snaps[q'.data]? = some new ∧
          q'.data = q.snaps.length ∧ old.NVMTail = some a ∧ new.NVMTail = some b ∧
          Reachable q'.nxt a b) := by
  obtain ⟨k, rfl⟩ : ∃ k, fuel = k + 1 := ⟨fuel - 1, by omega⟩
  obtain ⟨q, post, pend, s, l, e, a, b, -⟩ :=
    RelaxedQueue.rq_run_abs RelaxedQueue.rq_new_abs (k + 1) ops (by simp; omega)
  obtain ⟨cd, hcd, hs, hcase⟩ := RelaxedQueue.rq_sync_cases a k (by simp at b; omega) t
  rcases hcase with ⟨-, e'⟩ | ⟨-, e'⟩
  · refine ⟨_, q, _, _, e, e', Or.inr ⟨cd, ⟨some q.tail, some q.head, q.counter⟩, s, q.tail,
      hcd, heap_push_new _ _, rfl, hs, rfl, l, ?_, a.pathLast⟩⟩
    refine a.path.seg.congr_seg ?_
    intro x hx
    simp only [RelaxedQueue.nxt, heap_push_old _ _ _ (a.pathBound x hx)]
  · exact ⟨_, q, _, _, e, e', Or.inl rfl⟩

/-- Example: enq 1, sync, enq 2, enq 3, then sync; the old snapshot tail is the
node holding 1 (address 1), the new one the node holding 3 (address 4), reached
through the node holding 2 (address 3). -/
theorem rq_sync_tail_forward_example :
    [ROp.enq 1, ROp.sync 0, ROp.enq 2, ROp.enq 3].length < 5 ∧
    (RelaxedQueue.run 5 [ROp.enq 1, ROp.sync 0, ROp.enq 2, ROp.enq 3] RelaxedQueue.new).bind
        (fun r => (r.2.sync 5 0).map
          (fun x => ((r.2.snaps[r.2.data]?).map (·.NVMTail),
            (x.2.snaps[x.2.data]?).map (·.NVMTail), x.2.nxt 1, x.2.nxt 3)))
      = .ok (some (some 1), some (some 4), some 3, some 4) ∧
    ∃ rs q fl q',
      RelaxedQueue.run 5 [ROp.enq 1, ROp.sync 0, ROp.enq 2, ROp.enq 3] RelaxedQueue.new
        = .ok (rs, q) ∧
      q.sync 5 0 = .ok (fl, q') ∧
      (q'.data = q.data ∨
        ∃ old new a b, q.snaps[q.data]? = some old ∧ q'.snaps[q'.data]? = some new ∧
          q'.data = q.snaps.length ∧ old.NVMTail = some a ∧ new.NVMTail = some b ∧
          Reachable q'.nxt a b) :=
  ⟨by decide, by decide, rq_sync_tail_forward _ 0 5 (by decide)⟩

/-- C17 (defect of the code): three calls of `sync` overlap on a fresh queue.
Thread 0 executes up to `atomic_fetch_add` (it holds `currentCounter = 0`);
thread 1 executes a whole `sync` and installs the snapshot of version 1; thread
2 loads that snapshot as `currData` and executes up to `atomic_fetch_add`
(`currentCounter = 2`); thread 0 goes on and links its marker, of counter 0,
into `tail->next`; thread 2 finds this marker with `head == nullptr`, helps it,
copies it by `*invalid = *currI` and builds its `potential` from the copy.  Its
`data.compare_exchange_strong(currData, potential)` then succeeds and replaces
the snapshot of version 1 by a snapshot of version 0. -/
theorem C17_install_lowers_version :
    ∃ s1 s2 : SyncSystem,
      SyncSystem.run (List.replicate 4 0 ++ List.replicate 17 1 ++ List.replicate 4 2 ++
          List.replicate 7 0 ++ List.replicate 12 2)
        ⟨RelaxedQueue.new, [SyncThread.init, SyncThread.init, SyncThread.init]⟩ = .ok s1 ∧
      s1.pcOf 1 = some .done ∧ s1.pcOf 2 = some .install ∧ s1.version = some 1 ∧
      s1.step 2 = .ok s2 ∧ s2.pcOf 2 = some .done ∧
      s2.queue.data ≠ s1.queue.data ∧ s2.version = some 0 := by
  refine ⟨_, _, rfl, by decide, by decide, by decide, rfl, by decide, by decide, by decide⟩


/-- C19, as stated, fails when two calls of `sync` overlap: thread 0 runs `sync`
up to the end of `blockTheTail` (its marker is linked and unlinked), thread 1
then runs `sync` up to the compare-and-swap that links its own marker into
`tail->next`, and thread 0 finishes `makeDurble`, installs its snapshot and
returns.  In the state in which the call of thread 0 has returned, the `next`
field of the node at address 0 holds the address 2 of the marker of thread 1. -/
theorem C19_marker_after_return_counterexample :
    ∃ s : SyncSystem,
      SyncSystem.run (List.replicate 13 0 ++ List.replicate 11 1 ++ List.replicate 4 0)
        ⟨RelaxedQueue.new, [SyncThread.init, SyncThread.init]⟩ = .ok s ∧
      s.pcOf 0 = some .done ∧ s.pcOf 1 = some .ownHead ∧
      s.queue.nxt 0 = some 2 ∧ s.queue.isInvalid 2 = .ok true ∧ ¬ s.queue.NoMarker := by
  refine ⟨_, rfl, by decide, by decide, by decide, by decide, ?_⟩
  intro h
  have := h 0 2 (by decide)
  revert this
  decide

/-- C19 (amended): in a single-threaded history of `enq`, `deq` and `sync` calls
on a fresh Buffered-Relaxed queue, with a retry budget above the number of
calls, every call returns, and in the state after the last call (so in every
state between two calls, and in every state in which a `sync` has returned) no
`next` field holds the address of an `Invalid` marker: every `next` field that
is not null holds the address of an object of class `Node` proper. -/
theorem C19_no_marker_between_calls (ops : List ROp) (fuel : Nat) (hfuel : ops.length < fuel) :
    ∃ r q, RelaxedQueue.new.run fuel ops = .ok (r, q) ∧
      ∀ a b, q.nxt a = some b → q.isInvalid b = .ok false := by
  obtain ⟨r, q, img, post, pend, s, l, e, d, -⟩ :=
    RelaxedQueue.rq_runP_durable RelaxedQueue.rq_durable_new fuel ops (by simpa using hfuel)
  have hl := RelaxedQueue.rq_runP_queue fuel ops RelaxedQueue.new RelaxedQueue.newImage
  rw [e] at hl
  exact ⟨r, q, hl.symm, d.noMarker⟩

theorem C19_no_marker_between_calls_witness :
    ∃ r q, RelaxedQueue.new.run 5 [.enq 1, .sync 0, .deq, .sync 1] = .ok (r, q) ∧
      ∀ a b, q.nxt a = some b → q.isInvalid b = .ok false :=
  C19_no_marker_between_calls [.enq 1, .sync 0, .deq, .sync 1] 5 (by decide)

/-- C20: in a single-threaded history on a fresh Buffered-Relaxed queue (whose
constructor has flushed the dummy node), with a retry budget above the number of
calls, a further call of `sync` returns; when fewer than 2^31 calls of `sync`
came before, it installs a snapshot; and whenever it installs a snapshot, with
head `hd`, tail `tl` and the nodes `post` on the `next`-chain from `hd` to `tl`,
the image written by the `BARRIER`s holds, for every node of `hd :: post`, the
value of the node, and for every such node other than `tl` also its `next`
pointer. -/
theorem C20_durable_prefix (ops : List ROp) (t : Int) (fuel : Nat)
    (hfuel : ops.length < fuel) :
    ∃ r q img q' img',
      RelaxedQueue.new.runP fuel ops RelaxedQueue.newImage = .ok (r, q, img) ∧
      q.syncP fuel t img = .ok (q', img') ∧
      (syncCount ops < 2147483648 → q'.data ≠ q.data) ∧
      (q'.data ≠ q.data →
        ∃ hd tl v post, q'.snaps[q'.data]? = some ⟨some tl, some hd, v⟩ ∧
          Linked q'.nxt hd post ∧ chainLast hd post = tl ∧
          ∀ a ∈ hd :: post, q'.UpToDate img' a (a ≠ tl)) := by
  obtain ⟨k, rfl⟩ : ∃ k, fuel = k + 1 := ⟨fuel - 1, by omega⟩
  obtain ⟨r, q, img, post, pend, s, l, e, d, b⟩ :=
    RelaxedQueue.rq_runP_durable RelaxedQueue.rq_durable_new (k + 1) ops (by simpa using hfuel)
  obtain ⟨q', img', s', l', e', d', -, hc⟩ :=
    RelaxedQueue.rq_durable_sync d k (by simp at b; omega) t
  refine ⟨r, q, img, q', img', e, e', ?_, ?_⟩
  · intro hn
    rcases hc with ⟨-, cd, hcd, hgt⟩ | ⟨hne, -⟩
    · exfalso
      obtain ⟨⟨cd', hcd', hv⟩, hq⟩ := RelaxedQueue.rq_runP_count (k + 1) ops hfuel e (by omega)
      rw [hcd] at hcd'
      cases hcd'
      rw [hq, wrapInt32_small _ hn, hv] at hgt
      omega
    · exact hne
  · intro hne
    rcases hc with ⟨heq, -⟩ | ⟨-, hsn, hh, ht, hs, hl⟩
    · exact absurd heq hne
    · subst hs hl
      refine ⟨q.head, q.tail, q.counter, post, hsn, ?_, ?_, ?_⟩
      · have := d'.abs.chain.linked
        rwa [hh] at this
      · have := d'.abs.chain.last
        rwa [hh, ht] at this
      · intro a ha
        have hnode := RelaxedQueue.rq_durable_chain_node d' a (by rw [hh]; exact ha)
        exact d'.image a hnode (by simp)

theorem C20_durable_prefix_witness :
    ∃ r q img q' img',
      RelaxedQueue.new.runP 6 [.enq 1, .enq 2, .sync 0, .deq, .enq 3]
        RelaxedQueue.newImage = .ok (r, q, img) ∧
      q.syncP 6 1 img = .ok (q', img') ∧
      (syncCount [.enq 1, .enq 2, .sync 0, .deq, .enq 3] < 2147483648 → q'.data ≠ q.data) ∧
      (q'.data ≠ q.data →
        ∃ hd tl v post, q'.snaps[q'.data]? = some ⟨some tl, some hd, v⟩ ∧
          Linked q'.nxt hd post ∧ chainLast hd post = tl ∧
          ∀ a ∈ hd :: post, q'.UpToDate img' a (a ≠ tl)) :=
  C20_durable_prefix [.enq 1, .enq 2, .sync 0, .deq, .enq 3] 1 6 (by decide)

/-- C21 (defect of the code). (a) Thread 0 runs `enq(1)` and `deq` (returns 1):
its remove entry is done(value), `node` set and `status = false`.  `recover`
returns, and afterwards the same entry has `node` set and `status = true`.
(b) Thread 0 runs `deq` on the empty queue (entry done(empty): `node` null,
`status = true`), then thread 1 runs `enq(1)`, `enq(5)`, `deq` (returns 1).
`recover` returns, and afterwards both remove entries have `node` set and
`status = true`; the entry of thread 0 now points at the node holding 5. -/
theorem C21_recover_breaks_trichotomy (nextName : Nat → Option Nat → Option Nat) :
    (∃ q q', LogQueue.run 1 [Call.enq 1 0 0, Call.deq 0 1] LogQueue.new = .ok ([1], q) ∧
      q.logPtr 0 = .ok (some 1) ∧
      q.entries[1]? = some ⟨1, .remove, false, some 1⟩ ∧
      LogQueue.recover nextName 1 q.logs q = .ok q' ∧
      q'.entries[1]? = some ⟨1, .remove, true, some 1⟩) ∧
    (∃ q q', LogQueue.run 1 [Call.deq 0 0, Call.enq 1 1 0, Call.enq 5 1 1, Call.deq 1 2]
          LogQueue.new = .ok ([INT_MIN, 1], q) ∧
      q.logPtr 0 = .ok (some 0) ∧ q.logPtr 1 = .ok (some 3) ∧
      q.entries[0]? = some ⟨0, .remove, true, none⟩ ∧
      q.entries[3]? = some ⟨2, .remove, false, some 1⟩ ∧
      LogQueue.recover nextName 2 q.logs q = .ok q' ∧
      q'.entries[0]? = some ⟨0, .remove, true, some 2⟩ ∧ q'.val 2 = some 5 ∧
      q'.entries[3]? = some ⟨2, .remove, true, some 1⟩) :=
  ⟨⟨_, _, rfl, by decide, by decide, rfl, by decide⟩,
    ⟨_, _, rfl, by decide, by decide, by decide, by decide, rfl, by decide, by decide,
      by decide⟩⟩

/-- C24 (defect of the code). Thread 0 runs `enq(1)`, `enq(2)`, `enq(3)` and `deq`
(returns 1); every call has returned, so all its barriers are complete.  Without
a crash, two further dequeues return 2 and 3.  After a crash at this point,
`recover` returns, and two dequeues on the recovered queue return 3 and the
empty sentinel: the recovered state holds `[3]`, not `[2, 3]`, although the
enqueue of 2 was complete and no dequeue returned 2. -/
theorem C24_recovered_state_loses_enqueue (nextName : Nat → Option Nat → Option Nat) :
    ∃ q q',
      LogQueue.run 1 [Call.enq 1 0 0, Call.enq 2 0 1, Call.enq 3 0 2, Call.deq 0 3]
        LogQueue.new = .ok ([1], q) ∧
      (LogQueue.run 1 [Call.deq 1 4, Call.deq 1 5] q).map Prod.fst = .ok [2, 3] ∧
      LogQueue.recover nextName 2 q.logs q = .ok q' ∧
      q'.val q'.head = some 2 ∧
      (LogQueue.run 1 [Call.deq 1 4, Call.deq 1 5] q').map Prod.fst = .ok [3, INT_MIN] :=
  ⟨_, _, rfl, by decide, rfl, by decide, by decide⟩

/-- C25 (defect of the code). Thread 0 runs `enq(1)`; thread 1 runs `enq(2)`,
`enq(3)`, `deq` (returns 1), `deq` (returns 2).  The chain is then
`head = 2 → 3 = tail`.  `recover` returns with `head = 3`, `tail = 1` and the
`next` pointers `3 → 1 → 2 → 3`: the insert entry of thread 0 (status still
false) makes `finishInsert` link the dequeued node 1 after node 3.  The chain
from `head` is cyclic and never reaches a node whose `next` is null. -/
theorem C25_recover_builds_cycle (nextName : Nat → Option Nat → Option Nat) :
    ∃ q q',
      LogQueue.run 1 [Call.enq 1 0 0, Call.enq 2 1 0, Call.enq 3 1 1, Call.deq 1 2,
        Call.deq 1 3] LogQueue.new = .ok ([1, 2], q) ∧
      q.head = 2 ∧ q.tail = 3 ∧ q.nxt 2 = some 3 ∧ q.nxt 3 = none ∧
      LogQueue.recover nextName 2 q.logs q = .ok q' ∧
      q'.head = 3 ∧ q'.tail = 1 ∧
      q'.nxt 3 = some 1 ∧ q'.nxt 1 = some 2 ∧ q'.nxt 2 = some 3 ∧
      Seg q'.nxt q'.head [1, 2, 3] ∧ (∀ post, ¬ Linked q'.nxt q'.head post) := by
  have key : ∀ nx : Nat → Option Nat, nx 3 = some 1 → nx 1 = some 2 → nx 2 = some 3 →
      ∀ post a, a = 1 ∨ a = 2 ∨ a = 3 → ¬ Linked nx a post := by
    intro nx h3 h1 h2 post
    induction post with
    | nil =>
      intro a ha hl
      simp only [Linked] at hl
      rcases ha with rfl | rfl | rfl
      · rw [h1] at hl; cases hl
      · rw [h2] at hl; cases hl
      · rw [h3] at hl; cases hl
    | cons b post ih =>
      intro a ha hl
      obtain ⟨hb, hl⟩ := hl
      rcases ha with rfl | rfl | rfl
      · rw [h1] at hb; cases hb; exact ih 2 (by simp) hl
      · rw [h2] at hb; cases hb; exact ih 3 (by simp) hl
      · rw [h3] at hb; cases hb; exact ih 1 (by simp) hl
  refine ⟨_, _, rfl, by decide, by decide, by decide, by decide, rfl, by decide, by decide,
    by decide, by decide, by decide, ⟨by decide, by decide, by decide, trivial⟩, ?_⟩
  intro post
  exact key _ (by decide) (by decide) (by decide) post 3 (by simp)

/-- C29 (defect of the code). (a) After `enq(1)`, thread 1 starts `deq` and stops
after its compare-and-swap on `logDeq`: node 1, the successor of `head`, is
claimed and is the last node of the list.  `updateHead(head)` then returns with
`head` unchanged (the dummy, address 0) and the `node` field of the claiming
entry still null, for every budget of at least two rounds.  (b) With a second
node behind the claimed one, `updateHead` does advance `head` to node 1, and
stores in the entry's `node` field what the undeclared name `next` stands for. -/
theorem C29_updateHead_misses_last_node (nextName : Nat → Option Nat → Option Nat) :
    (∃ q log q1 q2, LogQueue.run 1 [Call.enq 1 0 0] LogQueue.new = .ok ([], q) ∧
      q.createDeqLog 1 1 = .ok (log, q1) ∧ q1.casLogDeq 1 none (some log) = .ok (true, q2) ∧
      q2.head = 0 ∧ q2.nxt 0 = some 1 ∧ q2.nxt 1 = none ∧
      (q2.mem[1]?).map (·.logDeq) = some (some 1) ∧
      q2.entries[1]? = some ⟨1, .remove, false, none⟩ ∧
      ∀ fuel, ∃ q3, LogQueue.updateHead nextName (fuel + 2) q2.head q2 = .ok q3 ∧
        q3.head = 0 ∧ q3.entries[1]? = some ⟨1, .remove, false, none⟩) ∧
    (∃ q log q1 q2, LogQueue.run 1 [Call.enq 1 0 0, Call.enq 2 0 1] LogQueue.new = .ok ([], q) ∧
      q.createDeqLog 1 1 = .ok (log, q1) ∧ q1.casLogDeq 1 none (some log) = .ok (true, q2) ∧
      q2.head = 0 ∧ q2.nxt 0 = some 1 ∧ q2.nxt 1 = some 2 ∧
      (q2.mem[1]?).map (·.logDeq) = some (some 2) ∧ (q2.mem[2]?).map (·.logDeq) = some none ∧
      ∀ fuel, ∃ q3, LogQueue.updateHead nextName (fuel + 1) q2.head q2 = .ok q3 ∧
        q3.head = 1 ∧ q3.entries[2]? = some ⟨1, .remove, false, nextName 1 (some 2)⟩) :=
  ⟨⟨_, _, _, _, rfl, rfl, rfl, by decide, by decide, by decide, by decide, by decide,
      fun _ => ⟨_, rfl, by decide, by decide⟩⟩,
    ⟨_, _, _, _, rfl, rfl, rfl, by decide, by decide, by decide, by decide, by decide,
      fun _ => ⟨_, rfl, rfl, rfl⟩⟩⟩

/-- C30. On a chain `head :: post` that ends in a node whose `next` is null and
in which every node has a `logEnq` entry, `updateTailAndStatus(head, tail)`
returns within `post.length + 1` rounds of its loop; afterwards `tail` is the
last node of the chain (the node whose `next` is null), the `logEnq` entry of
every node of the chain has `status = true`, and the heap of nodes (so every
`next` pointer) and `head` are unchanged. -/
theorem C30_updateTailAndStatus_post (q : LogQueue) (post : List Nat) (fuel : Nat)
    (hl : Linked q.nxt q.head post) (hs : ∀ a ∈ q.head :: post, (q.enqStatus a).isSome)
    (hf : post.length < fuel) :
    ∃ q', LogQueue.updateTailAndStatus fuel q.head q.tail q = .ok q' ∧
      q'.tail = chainLast q.head post ∧ q'.nxt q'.tail = none ∧
      (∀ a ∈ q.head :: post, q'.enqStatus a = some true) ∧
      q'.mem = q.mem ∧ q'.head = q.head := by
  have hsh := hs q.head (by simp)
  obtain ⟨n, e, x, hn, -, -⟩ := LogQueue.lq_enqStatus_some hsh
  obtain ⟨q1, e1, m1, h1, t1, sb, mono⟩ := LogQueue.lq_setStatus_enq hn hsh
  have hl1 : Linked q1.nxt q.head post :=
    hl.congr fun a _ => by simp only [LogQueue.nxt, m1]
  have hs1 : ∀ a ∈ q.head :: post, (q1.enqStatus a).isSome := by
    intro a ha
    rcases mono a with h | h
    · rw [h]; rfl
    · rw [h]; exact hs a ha
  obtain ⟨q', e', m', h', t', mono', all'⟩ :=
    LogQueue.lq_updateTailLoop q.tail post q.head q1 fuel hl1 hs1 hf
  have ht : q'.tail = chainLast q.head post := by
    rw [t', t1]
    simp
  refine ⟨q', ?_, ht, ?_, ?_, m'.trans m1, h'.trans h1⟩
  · simp [LogQueue.updateTailAndStatus, LogQueue.load, hn, e1, e']
  · rw [ht]
    have := hl.last_none
    simpa only [LogQueue.nxt, m', m1] using this
  · intro a ha
    rcases List.mem_cons.1 ha with rfl | ha
    · rcases mono' q.head with h | h
      · exact h
      · rw [h]; exact sb
    · exact all' a ha

/-- Witness of C30: after `enq(1)`, `enq(2)` by thread 0, `enq(3)` by thread 1 and
a `deq` by thread 2 the chain is `1 → 2 → 3`, with `head = 1`. -/
theorem C30_updateTailAndStatus_post_witness :
    Linked (LogQueue.afterCalls
        [Call.enq 1 0 0, Call.enq 2 0 1, Call.enq 3 1 0, Call.deq 2 0]).nxt 1 [2, 3] ∧
    (LogQueue.afterCalls
        [Call.enq 1 0 0, Call.enq 2 0 1, Call.enq 3 1 0, Call.deq 2 0]).enqStatus 3
      = some false ∧
    ∃ q', LogQueue.updateTailAndStatus 3 1 3
        (LogQueue.afterCalls [Call.enq 1 0 0, Call.enq 2 0 1, Call.enq 3 1 0, Call.deq 2 0])
        = .ok q' ∧
      q'.tail = chainLast 1 [2, 3] ∧ q'.nxt q'.tail = none ∧
      (∀ a ∈ [1, 2, 3], q'.enqStatus a = some true) ∧
      q'.mem = (LogQueue.afterCalls
        [Call.enq 1 0 0, Call.enq 2 0 1, Call.enq 3 1 0, Call.deq 2 0]).mem ∧
      q'.head = 1 :=
  ⟨by decide, by decide,
    C30_updateTailAndStatus_post
      (LogQueue.afterCalls [Call.enq 1 0 0, Call.enq 2 0 1, Call.enq 3 1 0, Call.deq 2 0])
      [2, 3] 3 (by decide) (by decide) (by decide)⟩

/-- C26. Let the chain be `head → N → post`, with `N` claimed by the entry `eA`
(of a thread A) and the nodes of `post` unclaimed, and let thread B call
`deq(B, op)` with a budget of at least two rounds.  The call returns; it sets
`eA.node = N` and moves `head` past the old first node, so that a later
compare-and-swap of `head` from the old first node to `N` fails and changes
nothing; and either `N` has no successor, `head` is `N`, B's entry has
`status = true` and the call returns the empty sentinel, or `N` has a successor
`M`, which the call claims with B's own entry (whose `node` is `M`), `head` is
`M` and the call returns the value of `M`, not that of `N`. -/
theorem C26_detectable_helping (q : LogQueue) (N eA : Nat) (post : List Nat)
    (pend : List Int) (entA : LogQueue.LogEntry) (B op : Int) (fuel : Nat)
    (hc : Chain q.nxt q.val q.mem.length q.head q.tail (N :: post) pend)
    (hN : (q.mem[N]?).map (·.logDeq) = some (some eA))
    (hA : q.entries[eA]? = some entA)
    (hp : ∀ a ∈ post, (q.mem[a]?).map (·.logDeq) = some none)
    (hlogs : q.logs < q.arrays.length) (h0 : 0 ≤ B) (h1 : B < MAX_THREADS)
    (hfuel : 2 ≤ fuel) :
    ∃ r q', q.deq fuel B op = .ok (r, q') ∧
      q'.entries[eA]? = some { entA with node := some N } ∧
      q'.logPtr B = .ok (some q.entries.length) ∧
      q'.casHead q.head N = (false, q') ∧
      ((post = [] ∧ r = INT_MIN ∧ q'.head = N ∧
          q'.entries[q.entries.length]? = some ⟨op, .remove, true, none⟩) ∨
       (∃ M post', post = M :: post' ∧ M ≠ N ∧ q.val M = some r ∧ q'.head = M ∧
          (q'.mem[M]?).map (·.logDeq) = some (some q.entries.length) ∧
          q'.entries[q.entries.length]? = some ⟨op, .remove, false, some M⟩)) := by
  obtain ⟨k, rfl⟩ : ∃ k, fuel = k + 2 := ⟨fuel - 2, by omega⟩
  obtain ⟨c1, c2, c3, c4, v, pend', rfl, c5, c6⟩ := hc.cons_inv
  obtain ⟨h, hh⟩ := heap_get q.mem q.head (hc.bound _ (by simp))
  have hhn : h.next = some N := by simpa [LogQueue.nxt, hh] using c1
  obtain ⟨n, hn⟩ := heap_get q.mem N c3
  have hnA : n.logDeq = some eA := by simpa [hn] using hN
  obtain ⟨f, hf⟩ := heap_get q.arrays q.logs hlogs
  have hlt : eA < q.entries.length := heap_lt hA
  have hnd := hc.nodup
  have hNh : q.head ≠ N := by
    intro e
    rw [List.nodup_cons] at hnd
    exact hnd.1 (by rw [e]; simp)
  cases post with
  | nil =>
    obtain ⟨d1, d2, -⟩ := c6.nil_inv
    have hnn : n.next = none := by simpa [LogQueue.nxt, hn] using d1
    have e := LogQueue.lq_deq_help_nil hh hhn c2 hn hnA hA hnn d2.symm hf h0 h1 k op
    refine ⟨_, _, e, ?_, ?_, ?_, Or.inl ⟨rfl, rfl, rfl, ?_⟩⟩
    · simp [List.getElem?_append_left, hlt]
    · simp [LogQueue.logPtr, LogQueue.readArray, slot_eq h0 h1, slot_lt h0 h1, hlogs]
    · simp [LogQueue.casHead, Ne.symm hNh]
    · simp
  | cons M post' =>
    obtain ⟨d1, d2, d3, d4, w, pend'', rfl, d5, d6⟩ := c6.cons_inv
    have hnn : n.next = some M := by simpa [LogQueue.nxt, hn] using d1
    obtain ⟨m, hm⟩ := heap_get q.mem M d3
    have hmd : m.logDeq = none := by simpa [hm] using hp M (by simp)
    have hmv : q.val M = some m.value := by simp [LogQueue.val, hm]
    have hMN : M ≠ N := by
      intro e
      rw [List.nodup_cons, List.nodup_cons] at hnd
      exact hnd.2.1 (by rw [e]; simp)
    have hMh : q.head ≠ M := by
      intro e
      rw [List.nodup_cons] at hnd
      exact hnd.1 (by rw [e]; simp)
    have e := LogQueue.lq_deq_help_cons hh hhn c2 hn hnA hA hnn d2 hm hmd hf h0 h1 k op
    refine ⟨_, _, e, ?_, ?_, ?_, Or.inr ⟨M, post', rfl, hMN, hmv, rfl, ?_, ?_⟩⟩
    · simp [List.getElem?_append_left, hlt]
    · simp [LogQueue.logPtr, LogQueue.readArray, slot_eq h0 h1, slot_lt h0 h1, hlogs]
    · simp [LogQueue.casHead, Ne.symm hMh]
    · simp [heap_set_self _ _ _ d3]
    · simp

/-- Witness of C26: after `enq(1)`, `enq(2)`, thread 1 has claimed the node
holding 1 and stopped; thread 2 then calls `deq`. -/
theorem C26_detectable_helping_witness :
    Chain (LogQueue.claimedFirst [Call.enq 1 0 0, Call.enq 2 0 1] 1 7).nxt
      (LogQueue.claimedFirst [Call.enq 1 0 0, Call.enq 2 0 1] 1 7).val 3 0 2 [1, 2] [1, 2] ∧
    (∃ r q', (LogQueue.claimedFirst [Call.enq 1 0 0, Call.enq 2 0 1] 1 7).deq 2 2 9
        = .ok (r, q') ∧
      q'.entries[2]? = some ⟨7, .remove, false, some 1⟩ ∧
      q'.logPtr 2 = .ok (some 3) ∧
      q'.casHead 0 1 = (false, q') ∧
      (([2] = ([] : List Nat) ∧ r = INT_MIN ∧ q'.head = 1 ∧
          q'.entries[3]? = some ⟨9, .remove, true, none⟩) ∨
       (∃ M post', [2] = M :: post' ∧ M ≠ 1 ∧
          (LogQueue.claimedFirst [Call.enq 1 0 0, Call.enq 2 0 1] 1 7).val M = some r ∧
          q'.head = M ∧ (q'.mem[M]?).map (·.logDeq) = some (some 3) ∧
          q'.entries[3]? = some ⟨9, .remove, false, some M⟩))) :=
  ⟨⟨by decide, by decide, by decide, by decide, by decide⟩,
    C26_detectable_helping (LogQueue.claimedFirst [Call.enq 1 0 0, Call.enq 2 0 1] 1 7)
      1 2 [2] [1, 2] ⟨7, .remove, false, none⟩ 2 9 2
      ⟨by decide, by decide, by decide, by decide, by decide⟩ (by decide) (by decide)
      (by decide) (by decide) (by decide) (by decide) (by decide)⟩

/-- C27. Let the chain be `head → N → post`, with `N` claimed by thread `a`
(`a ≠ -1`, in range, `removedValues[a * PADDING]` pointing at an allocated cell)
and the nodes of `post` unclaimed, and let thread `b ≠ a` call `deq(b)` with a
budget of at least two rounds.  The call returns; the cell of thread `a` then
holds the value of `N`; the cell of thread `b` holds the value returned; and
either `N` has no successor, `head` is `N` and the call returns the empty
sentinel, or `N` has a successor `M`, which the call claims for `b`, `head` is
`M` and the call returns the value of `M`, not that of `N`. -/
theorem C27_durable_helping (q : DurableQueue) (N ca : Nat) (post : List Nat)
    (pend : List Int) (a b : Int) (fuel : Nat)
    (hc : Chain q.nxt q.val q.mem.length q.head q.tail (N :: post) pend)
    (hN : (q.mem[N]?).map (·.threadID) = some a) (ha : a ≠ -1)
    (ha0 : 0 ≤ a) (ha1 : a < MAX_THREADS)
    (hca : q.removedValues (a * PADDING).toNat = some ca) (hcl : ca < q.cells.length)
    (hp : ∀ x ∈ post, (q.mem[x]?).map (·.threadID) = some (-1))
    (hb0 : 0 ≤ b) (hb1 : b < MAX_THREADS) (hab : a ≠ b) (hfuel : 2 ≤ fuel) :
    ∃ r q', q.deq fuel b = .ok (r, q') ∧
      q'.cells[ca]? = q.val N ∧
      q'.removedCell a = q.val N ∧ q'.removedCell b = some r ∧
      ((post = [] ∧ r = INT_MIN ∧ q'.head = N) ∨
       (∃ M post', post = M :: post' ∧ M ≠ N ∧ q.val M = some r ∧ q'.head = M ∧
          (q'.mem[M]?).map (·.threadID) = some b)) := by
  obtain ⟨k, rfl⟩ : ∃ k, fuel = k + 2 := ⟨fuel - 2, by omega⟩
  obtain ⟨c1, c2, c3, c4, v, pend', rfl, c5, c6⟩ := hc.cons_inv
  obtain ⟨h, hh⟩ := heap_get q.mem q.head (hc.bound _ (by simp))
  have hhn : h.next = some N := by simpa [DurableQueue.nxt, hh] using c1
  obtain ⟨n, hn⟩ := heap_get q.mem N c3
  have hna : n.threadID = a := by simpa [hn] using hN
  have hnv : q.val N = some n.value := by simp [DurableQueue.val, hn]
  have hs := slot_ne ha0 hb0 hab
  have hnd := hc.nodup
  cases post with
  | nil =>
    obtain ⟨d1, d2, -⟩ := c6.nil_inv
    have hnn : n.next = none := by simpa [DurableQueue.nxt, hn] using d1
    have e := DurableQueue.dq_deq_help_nil hh hhn c2 hn hna ha ha0 ha1 hca hcl hnn d2.symm
      hb0 hb1 hab k
    refine ⟨_, _, e, ?_, ?_, ?_, Or.inl ⟨rfl, rfl, rfl⟩⟩
    · simp [hnv, List.getElem?_append_left, hcl]
    · simp [DurableQueue.removedCell, DurableQueue.removedPtr, slot_eq ha0 ha1, hnv,
        Function.update_noteq hs, hca, List.getElem?_append_left, hcl]
    · simp [DurableQueue.removedCell, DurableQueue.removedPtr, slot_eq hb0 hb1]
  | cons M post' =>
    obtain ⟨d1, d2, d3, d4, w, pend'', rfl, d5, d6⟩ := c6.cons_inv
    have hnn : n.next = some M := by simpa [DurableQueue.nxt, hn] using d1
    obtain ⟨m, hm⟩ := heap_get q.mem M d3
    have hmt : m.threadID = -1 := by simpa [hm] using hp M (by simp)
    have hmv : q.val M = some m.value := by simp [DurableQueue.val, hm]
    have hMN : M ≠ N := by
      intro e
      rw [List.nodup_cons, List.nodup_cons] at hnd
      exact hnd.2.1 (by rw [e]; simp)
    have e := DurableQueue.dq_deq_help_cons hh hhn c2 hn hna ha ha0 ha1 hca hcl hnn d2 hm hmt
      hb0 hb1 hab k
    refine ⟨_, _, e, ?_, ?_, ?_, Or.inr ⟨M, post', rfl, hMN, hmv, rfl, ?_⟩⟩
    · simp [hnv, List.getElem?_append_left, hcl]
    · simp [DurableQueue.removedCell, DurableQueue.removedPtr, slot_eq ha0 ha1, hnv,
        Function.update_noteq hs, hca, List.getElem?_append_left, hcl]
    · simp [DurableQueue.removedCell, DurableQueue.removedPtr, slot_eq hb0 hb1]
    · simp [heap_set_self _ _ _ d3]

/-- Witness of C27: after `enq(7)`, `enq(8)`, thread 1 has claimed the node
holding 7 and stopped; thread 2 then calls `deq`. -/
theorem C27_durable_helping_witness :
    Chain (DurableQueue.claimedFirst [Call.enq 7 0 0, Call.enq 8 0 1] 1).nxt
      (DurableQueue.claimedFirst [Call.enq 7 0 0, Call.enq 8 0 1] 1).val 3 0 2 [1, 2] [7, 8] ∧
    (DurableQueue.claimedFirst [Call.enq 7 0 0, Call.enq 8 0 1] 1).removedCell 1
      = some INT_MAX ∧
    (∃ r q', (DurableQueue.claimedFirst [Call.enq 7 0 0, Call.enq 8 0 1] 1).deq 2 2
        = .ok (r, q') ∧
      q'.cells[0]? = (DurableQueue.claimedFirst [Call.enq 7 0 0, Call.enq 8 0 1] 1).val 1 ∧
      q'.removedCell 1 = (DurableQueue.claimedFirst [Call.enq 7 0 0, Call.enq 8 0 1] 1).val 1 ∧
      q'.removedCell 2 = some r ∧
      (([2] = ([] : List Nat) ∧ r = INT_MIN ∧ q'.head = 1) ∨
       (∃ M post', [2] = M :: post' ∧ M ≠ 1 ∧
          (DurableQueue.claimedFirst [Call.enq 7 0 0, Call.enq 8 0 1] 1).val M = some r ∧
          q'.head = M ∧ (q'.mem[M]?).map (·.threadID) = some 2))) :=
  ⟨⟨by decide, by decide, by decide, by decide, by decide⟩, by decide,
    C27_durable_helping (DurableQueue.claimedFirst [Call.enq 7 0 0, Call.enq 8 0 1] 1)
      1 0 [2] [7, 8] 1 2 2
      ⟨by decide, by decide, by decide, by decide, by decide⟩ (by decide) (by decide)
      (by decide) (by decide) (by decide) (by decide) (by decide) (by decide) (by decide)
      (by decide) (by decide)⟩

/-- C28. Let `tail` point at the node `L`, whose `next` holds an `Invalid` marker
`m` with `m.tail == L`.  A call `enq(v)` with a budget of at least two rounds
returns; afterwards `m.head` is non-null (the old `head` if it was null,
otherwise unchanged), `L.next` is the new node, which holds `v`, `tail` points at
it, the other `next` pointers are unchanged and no `next` field holds `m` (if
none but `L.next` did before).  If moreover `head == L`, a call `deq()` returns
the empty sentinel; afterwards `m.head` is non-null in the same way, `L.next` is
null and no `next` field holds `m`. -/
theorem C28_marker_cooperation (q : RelaxedQueue) (l mk : RelaxedQueue.Node)
    (iv : RelaxedQueue.InvalidPart) (m : Nat) (v : Int) (fuel : Nat)
    (hL : q.mem[q.tail]? = some l) (hln : l.next = some m) (hli : l.invalid = none)
    (hm : q.mem[m]? = some mk) (hiv : mk.invalid = some iv) (hit : iv.tail = some q.tail)
    (hfuel : 2 ≤ fuel) :
    (∃ q', q.enq fuel v = .ok q' ∧
      (q'.loadInvalid m).map (·.head)
        = .ok (if iv.head = none then some q.head else iv.head) ∧
      q'.nxt q.tail = some q.mem.length ∧ q'.mem[q.mem.length]? = some ⟨v, none, none⟩ ∧
      q'.tail = q.mem.length ∧ q'.head = q.head ∧
      (∀ a, a ≠ q.tail → a ≠ q.mem.length → q'.nxt a = q.nxt a) ∧
      ((∀ a, a ≠ q.tail → q.nxt a ≠ some m) → ∀ a, q'.nxt a ≠ some m)) ∧
    (q.head = q.tail → ∃ q', q.deq fuel = .ok (INT_MIN, q') ∧
      (q'.loadInvalid m).map (·.head)
        = .ok (if iv.head = none then some q.head else iv.head) ∧
      q'.nxt q.tail = none ∧ q'.head = q.head ∧ q'.tail = q.tail ∧
      (∀ a, a ≠ q.tail → q'.nxt a = q.nxt a) ∧
      ((∀ a, a ≠ q.tail → q.nxt a ≠ some m) → ∀ a, q'.nxt a ≠ some m)) := by
  obtain ⟨k, rfl⟩ : ∃ k, fuel = k + 2 := ⟨fuel - 2, by omega⟩
  have ht : q.tail < q.mem.length := heap_lt hL
  have hmlt : m < q.mem.length := heap_lt hm
  have hne : m ≠ q.tail := by
    intro e
    rw [e, hL] at hm
    cases hm
    rw [hli] at hiv
    cases hiv
  constructor
  · obtain ⟨q', e, hmem, htl, hhd⟩ : ∃ q', q.enq (k + 2) v = .ok q' ∧
        q'.mem = (((q.mem ++ [RelaxedQueue.Node.mk v none none]).set m
          (RelaxedQueue.Node.mk mk.value mk.next (some ⟨iv.counter, iv.tail,
            if iv.head = none then some q.head else iv.head⟩))).set q.tail
          (RelaxedQueue.Node.mk l.value none l.invalid)).set q.tail
          (RelaxedQueue.Node.mk l.value (some q.mem.length) l.invalid) ∧
        q'.tail = q.mem.length ∧ q'.head = q.head :=
      ⟨_, RelaxedQueue.rq_enq_marker hL hln hli hm hiv hit k v, rfl, rfl, rfl⟩
    have hm1 : m < (q.mem ++ [RelaxedQueue.Node.mk v none none]).length := by simp; omega
    have ht2 : q.tail < (((q.mem ++ [RelaxedQueue.Node.mk v none none]).set m
        (RelaxedQueue.Node.mk mk.value mk.next (some ⟨iv.counter, iv.tail,
          if iv.head = none then some q.head else iv.head⟩))).set q.tail
        (RelaxedQueue.Node.mk l.value none l.invalid)).length := by simp; omega
    have nx : ∀ a, a ≠ q.tail → a ≠ q.mem.length → q'.nxt a = q.nxt a := by
      intro a hat hal
      simp only [RelaxedQueue.nxt, hmem, heap_set_other _ _ _ _ hat]
      by_cases ham : a = m
      · subst ham
        rw [heap_set_self _ _ _ hm1, hm]
        rfl
      · rw [heap_set_other _ _ _ _ ham]
        rcases Nat.lt_or_gt_of_ne hal with h | h
        · rw [heap_push_old _ _ _ h]
        · rw [List.getElem?_eq_none (by simp; omega), List.getElem?_eq_none (by omega)]
    have nxT : q'.nxt q.tail = some q.mem.length := by
      simp only [RelaxedQueue.nxt, hmem, heap_set_self _ _ _ ht2, Option.bind]
    have nxN : q'.mem[q.mem.length]? = some (RelaxedQueue.Node.mk v none none) := by
      rw [hmem, heap_set_other _ _ _ _ (Nat.ne_of_gt ht),
        heap_set_other _ _ _ _ (Nat.ne_of_gt ht),
        heap_set_other _ _ _ _ (Nat.ne_of_gt hmlt), heap_push_new]
    refine ⟨q', e, ?_, nxT, nxN, htl, hhd, nx, ?_⟩
    · simp only [RelaxedQueue.loadInvalid, hmem, heap_set_other _ _ _ _ hne,
        heap_set_self _ _ _ hm1, Except.map]
    · intro hno a
      by_cases hat : a = q.tail
      · subst hat
        rw [nxT]
        intro h
        injection h with h
        omega
      · by_cases hal : a = q.mem.length
        · subst hal
          simp only [RelaxedQueue.nxt, nxN, Option.bind]
          intro h
          cases h
        · rw [nx a hat hal]
          exact hno a hat
  · intro hht
    obtain ⟨q', e, hmem, htl, hhd⟩ : ∃ q', q.deq (k + 2) = .ok (INT_MIN, q') ∧
        q'.mem = (q.mem.set m
          (RelaxedQueue.Node.mk mk.value mk.next (some ⟨iv.counter, iv.tail,
            if iv.head = none then some q.head else iv.head⟩))).set q.tail
          (RelaxedQueue.Node.mk l.value none l.invalid) ∧
        q'.tail = q.tail ∧ q'.head = q.head :=
      ⟨_, RelaxedQueue.rq_deq_marker hL hln hli hm hiv hit hht (k + 1), rfl, rfl, rfl⟩
    have ht2 : q.tail < (q.mem.set m
        (RelaxedQueue.Node.mk mk.value mk.next (some ⟨iv.counter, iv.tail,
          if iv.head = none then some q.head else iv.head⟩))).length := by simp; omega
    have nx : ∀ a, a ≠ q.tail → q'.nxt a = q.nxt a := by
      intro a hat
      simp only [RelaxedQueue.nxt, hmem, heap_set_other _ _ _ _ hat]
      by_cases ham : a = m
      · subst ham
        rw [heap_set_self _ _ _ hmlt, hm]
        rfl
      · rw [heap_set_other _ _ _ _ ham]
    have nxT : q'.nxt q.tail = none := by
      simp only [RelaxedQueue.nxt, hmem, heap_set_self _ _ _ ht2, Option.bind]
    refine ⟨q', e, ?_, nxT, hhd, htl, nx, ?_⟩
    · simp only [RelaxedQueue.loadInvalid, hmem, heap_set_other _ _ _ _ hne,
        heap_set_self _ _ _ hmlt, Except.map]
    · intro hno a
      by_cases hat : a = q.tail
      · subst hat
        rw [nxT]
        intro h
        cases h
      · rw [nx a hat]
        exact hno a hat

/-- Witness of C28: after `enq(1)`, `deq` a thread has linked its marker (address
2) behind the node holding 1 (address 1), which is both `head` and `tail`. -/
theorem C28_marker_cooperation_witness :
    (RelaxedQueue.blocked [.enq 1, .deq]).head = 1 ∧
    (RelaxedQueue.blocked [.enq 1, .deq]).nxt 1 = some 2 ∧
    (RelaxedQueue.blocked [.enq 1, .deq]).isInvalid 2 = .ok true ∧
    ((∃ q', (RelaxedQueue.blocked [.enq 1, .deq]).enq 2 5 = .ok q' ∧
      (q'.loadInvalid 2).map (·.head)
        = .ok (if (none : Option Nat) = none then some 1 else none) ∧
      q'.nxt 1 = some 3 ∧ q'.mem[3]? = some ⟨5, none, none⟩ ∧
      q'.tail = 3 ∧ q'.head = 1 ∧
      (∀ a, a ≠ 1 → a ≠ 3 → q'.nxt a = (RelaxedQueue.blocked [.enq 1, .deq]).nxt a) ∧
      ((∀ a, a ≠ 1 → (RelaxedQueue.blocked [.enq 1, .deq]).nxt a ≠ some 2) →
        ∀ a, q'.nxt a ≠ some 2)) ∧
    ((1 : Nat) = 1 → ∃ q', (RelaxedQueue.blocked [.enq 1, .deq]).deq 2 = .ok (INT_MIN, q') ∧
      (q'.loadInvalid 2).map (·.head)
        = .ok (if (none : Option Nat) = none then some 1 else none) ∧
      q'.nxt 1 = none ∧ q'.head = 1 ∧ q'.tail = 1 ∧
      (∀ a, a ≠ 1 → q'.nxt a = (RelaxedQueue.blocked [.enq 1, .deq]).nxt a) ∧
      ((∀ a, a ≠ 1 → (RelaxedQueue.blocked [.enq 1, .deq]).nxt a ≠ some 2) →
        ∀ a, q'.nxt a ≠ some 2))) :=
  ⟨by decide, by decide, by decide,
    C28_marker_cooperation (RelaxedQueue.blocked [.enq 1, .deq]) ⟨1, some 2, none⟩
      ⟨0, none, some ⟨0, some 1, none⟩⟩ ⟨0, some 1, none⟩ 2 5 2
      (by decide) (by decide) (by decide) (by decide) (by decide) (by decide) (by decide)⟩

/-- Solo termination before any recovery.  After any single-threaded history of
complete calls of `enq` and `deq` (and `sync`) on a fresh queue (thread ids in
`[0, MAX_THREADS)`), with no other thread running: `enq` and
`deq` of the volatile, the durable, the detectable and the Buffered-Relaxed
queue return within one round of their retry loop, and with the same result for
every larger budget (in particular two rounds); `sync` of the Buffered-Relaxed
queue returns within a budget of one round per earlier call plus one for each of
its loops, and a thread that runs `sync` alone reaches its end after at most
`17 + ops.length` statements. -/
theorem solo_termination_of_histories (calls : List Call) (ops : List ROp) (v t op : Int)
    (fuel : Nat)
    (hc : ∀ c ∈ calls, 0 ≤ c.threadID ∧ c.threadID < MAX_THREADS)
    (h0 : 0 ≤ t) (h1 : t < MAX_THREADS) (hfuel : 1 ≤ fuel) :
    (∃ rs q, MSQueue.run 1 (calls.map Call.toMS) MSQueue.new = .ok (rs, q) ∧
      (∃ q', q.enq 1 v = .ok q' ∧ q.enq fuel v = .ok q') ∧
      ∃ r q', q.deq 1 = .ok (r, q') ∧ q.deq fuel = .ok (r, q')) ∧
    (∃ rs q, DurableQueue.run 1 calls DurableQueue.new = .ok (rs, q) ∧
      (∃ q', q.enq 1 v = .ok q' ∧ q.enq fuel v = .ok q') ∧
      ∃ r q', q.deq 1 t = .ok (r, q') ∧ q.deq fuel t = .ok (r, q')) ∧
    (∃ rs q, LogQueue.run 1 calls LogQueue.new = .ok (rs, q) ∧
      (∃ q', q.enq 1 v t op = .ok q' ∧ q.enq fuel v t op = .ok q') ∧
      ∃ r q', q.deq 1 t op = .ok (r, q') ∧ q.deq fuel t op = .ok (r, q')) ∧
    (∃ rs q, RelaxedQueue.run (ops.length + 1) ops RelaxedQueue.new = .ok (rs, q) ∧
      (∃ q', q.enq 1 v = .ok q' ∧ q.enq fuel v = .ok q') ∧
      (∃ r q', q.deq 1 = .ok (r, q') ∧ q.deq fuel = .ok (r, q')) ∧
      ∃ fl q', q.sync (ops.length + 1) t = .ok (fl, q') ∧
        ∃ k s, k ≤ 17 + ops.length ∧
          SyncSystem.run (List.replicate k 0) ⟨q, [SyncThread.init]⟩ = .ok s ∧
          s.pcOf 0 = some .done ∧ s.queue = q') := by
  obtain ⟨k, rfl⟩ : ∃ k, fuel = k + 1 := ⟨fuel - 1, by omega⟩
  refine ⟨?_, ?_, ?_, ?_⟩
  · obtain ⟨q, post, pend, e, a⟩ := MSQueue.ms_run_abs MSQueue.ms_new_abs 0 (calls.map Call.toMS)
    exact ⟨_, q, e, MSQueue.ms_solo a k v⟩
  · obtain ⟨q, post, pend, e, a⟩ := DurableQueue.dq_run_abs DurableQueue.dq_new_abs 0 calls hc
    exact ⟨_, q, e, DurableQueue.dq_solo a h0 h1 k v⟩
  · obtain ⟨q, post, pend, e, a⟩ := LogQueue.lq_run_abs LogQueue.lq_new_abs 0 calls hc
    exact ⟨_, q, e, LogQueue.lq_solo a h0 h1 k v op⟩
  · obtain ⟨q, post, pend, s, l, e, a, b, -⟩ :=
      RelaxedQueue.rq_run_abs RelaxedQueue.rq_new_abs (ops.length + 1) ops (by simp)
    have hl : l.length ≤ ops.length := by simpa using b
    obtain ⟨s1, s2⟩ := RelaxedQueue.rq_solo a k v
    obtain ⟨n, fl, st, hn, hrun, hpc, hsync⟩ := SyncSystem.solo_refines_sync a t
    obtain ⟨cd, hcd, -, hcase⟩ := RelaxedQueue.rq_sync_cases a ops.length hl t
    obtain ⟨cd', hcd', -, hcase'⟩ := RelaxedQueue.rq_sync_cases a l.length (le_refl _) t
    rw [hcd] at hcd'
    cases hcd'
    refine ⟨_, q, e, s1, s2, ?_⟩
    rcases hcase with ⟨hle, e1⟩ | ⟨hgt, e1⟩
    · rcases hcase' with ⟨-, e2⟩ | ⟨hgt', -⟩
      · rw [e2] at hsync
        injection hsync with hsync
        injection hsync with _ hq
        exact ⟨_, _, e1, n, st, by omega, hrun, hpc, hq.symm⟩
      · omega
    · rcases hcase' with ⟨hle', -⟩ | ⟨-, e2⟩
      · omega
      · rw [e2] at hsync
        injection hsync with hsync
        injection hsync with _ hq
        exact ⟨_, _, e1, n, st, by omega, hrun, hpc, hq.symm⟩

/-- Example of solo termination on the history `enq`, `enq`, `deq` (with a
`sync` for the Buffered-Relaxed queue) and a budget of two rounds. -/
theorem solo_termination_of_histories_example :
    (∀ c ∈ [Call.enq 7 0 0, Call.enq 8 1 0, Call.deq 2 0],
        0 ≤ c.threadID ∧ c.threadID < MAX_THREADS) ∧
    ((∃ rs q, MSQueue.run 1 ([Call.enq 7 0 0, Call.enq 8 1 0, Call.deq 2 0].map Call.toMS)
          MSQueue.new = .ok (rs, q) ∧
      (∃ q', q.enq 1 5 = .ok q' ∧ q.enq 2 5 = .ok q') ∧
      ∃ r q', q.deq 1 = .ok (r, q') ∧ q.deq 2 = .ok (r, q')) ∧
    (∃ rs q, DurableQueue.run 1 [Call.enq 7 0 0, Call.enq 8 1 0, Call.deq 2 0]
          DurableQueue.new = .ok (rs, q) ∧
      (∃ q', q.enq 1 5 = .ok q' ∧ q.enq 2 5 = .ok q') ∧
      ∃ r q', q.deq 1 3 = .ok (r, q') ∧ q.deq 2 3 = .ok (r, q')) ∧
    (∃ rs q, LogQueue.run 1 [Call.enq 7 0 0, Call.enq 8 1 0, Call.deq 2 0]
          LogQueue.new = .ok (rs, q) ∧
      (∃ q', q.enq 1 5 3 9 = .ok q' ∧ q.enq 2 5 3 9 = .ok q') ∧
      ∃ r q', q.deq 1 3 9 = .ok (r, q') ∧ q.deq 2 3 9 = .ok (r, q')) ∧
    (∃ rs q, RelaxedQueue.run ([ROp.enq 7, ROp.enq 8, ROp.sync 0, ROp.deq].length + 1)
          [ROp.enq 7, ROp.enq 8, ROp.sync 0, ROp.deq] RelaxedQueue.new = .ok (rs, q) ∧
      (∃ q', q.enq 1 5 = .ok q' ∧ q.enq 2 5 = .ok q') ∧
      (∃ r q', q.deq 1 = .ok (r, q') ∧ q.deq 2 = .ok (r, q')) ∧
      ∃ fl q', q.sync ([ROp.enq 7, ROp.enq 8, ROp.sync 0, ROp.deq].length + 1) 3 = .ok (fl, q') ∧
        ∃ k s, k ≤ 17 + [ROp.enq 7, ROp.enq 8, ROp.sync 0, ROp.deq].length ∧
          SyncSystem.run (List.replicate k 0) ⟨q, [SyncThread.init]⟩ = .ok s ∧
          s.pcOf 0 = some .done ∧ s.queue = q')) :=
  ⟨by decide, solo_termination_of_histories [Call.enq 7 0 0, Call.enq 8 1 0, Call.deq 2 0]
    [ROp.enq 7, ROp.enq 8, ROp.sync 0, ROp.deq] 5 3 9 2 (by decide) (by decide) (by decide)
    (by decide)⟩

/-- C23. Linearizability: on each of the four variants, every interleaving of the
statements of concurrent `enq` and `deq` calls of any number of threads, run on
the constructed queue, yields a history of invocations and responses that the
atomic FIFO queue produces (`Linearizable`): every call takes effect at one
instant between its invocation and its response.  Hence (`NoDuplication`) no
value other than `INT_MIN` is returned more often than it was enqueued. -/
theorem C23_linearizable (schedule : List (Nat × Act)) :
    (∀ s, QSystem.run MSQueue.step schedule MSQueue.start = .ok s →
      Linearizable s.hist ∧ NoDuplication s.hist) ∧
    (∀ s, QSystem.run DurableQueue.step schedule DurableQueue.start = .ok s →
      Linearizable s.hist ∧ NoDuplication s.hist) ∧
    (∀ s, QSystem.run LogQueue.step schedule LogQueue.start = .ok s →
      Linearizable s.hist ∧ NoDuplication s.hist) ∧
    (∀ s, QSystem.run RelaxedQueue.step schedule RelaxedQueue.start = .ok s →
      Linearizable s.hist ∧ NoDuplication s.hist) :=
  ⟨fun s h => ⟨MSQueue.ms_linearizable schedule s h,
      (MSQueue.ms_linearizable schedule s h).noDuplication⟩,
    fun s h => ⟨DurableQueue.dq_linearizable schedule s h,
      (DurableQueue.dq_linearizable schedule s h).noDuplication⟩,
    fun s h => ⟨LogQueue.lq_linearizable schedule s h,
      (LogQueue.lq_linearizable schedule s h).noDuplication⟩,
    fun s h => ⟨RelaxedQueue.rq_linearizable schedule s h,
      (RelaxedQueue.rq_linearizable schedule s h).noDuplication⟩⟩

/-- Witness of C23: on every variant the schedule `overlapSchedule`, in which a
`deq` overlaps an `enq(5)`, runs; the `deq` returns 5 before the `enq` returns. -/
theorem C23_linearizable_witness :
    (∃ s, QSystem.run MSQueue.step overlapSchedule MSQueue.start = .ok s ∧
      s.hist = [.inv 0 (.enq 5), .inv 1 .deq, .ret 1 (some 5), .ret 0 none] ∧
      Linearizable s.hist ∧ NoDuplication s.hist) ∧
    (∃ s, QSystem.run DurableQueue.step overlapSchedule DurableQueue.start = .ok s ∧
      s.hist = [.inv 0 (.enq 5), .inv 1 .deq, .ret 1 (some 5), .ret 0 none] ∧
      Linearizable s.hist ∧ NoDuplication s.hist) ∧
    (∃ s, QSystem.run LogQueue.step overlapSchedule LogQueue.start = .ok s ∧
      s.hist = [.inv 0 (.enq 5), .inv 1 .deq, .ret 1 (some 5), .ret 0 none] ∧
      Linearizable s.hist ∧ NoDuplication s.hist) ∧
    (∃ s, QSystem.run RelaxedQueue.step overlapSchedule RelaxedQueue.start = .ok s ∧
      s.hist = [.inv 0 (.enq 5), .inv 1 .deq, .ret 1 (some 5), .ret 0 none] ∧
      Linearizable s.hist ∧ NoDuplication s.hist) :=
  ⟨⟨_, rfl, rfl, (C23_linearizable overlapSchedule).1 _ rfl⟩,
    ⟨_, rfl, rfl, (C23_linearizable overlapSchedule).2.1 _ rfl⟩,
    ⟨_, rfl, rfl, (C23_linearizable overlapSchedule).2.2.1 _ rfl⟩,
    ⟨_, rfl, rfl, (C23_linearizable overlapSchedule).2.2.2 _ rfl⟩⟩


/-- C34. In a single-threaded history of `enq`, `deq` and `sync` calls on a fresh
Buffered-Relaxed queue, with a retry budget above the number of calls, a further
call of `sync` either calls `makeDurble` not at all (`blockTheTail` has returned
false) or calls it once, with `start` the NVMTail of the snapshot in `data` and
`end` the tail sampled in the marker, and then, in the state in which
`makeDurble` runs, following `next` from `start` leads through the nodes `l` to
`end` (where `next` is null); `makeDurble` returns without a fault, and the
addresses it has passed to `BARRIER` are `start :: l`: the nodes from `start` to
`end` inclusive, each once. -/
theorem C34_makeDurble_walk (ops : List ROp) (t : Int) (fuel : Nat)
    (hfuel : ops.length < fuel) :
    ∃ rs q, RelaxedQueue.new.run fuel ops = .ok (rs, q) ∧
      ((∃ q1, RelaxedQueue.blockTheTail fuel q.mem.length
            { q with mem := q.mem ++ [⟨0, none, some ⟨0, none, none⟩⟩] } = .ok (false, q1) ∧
          q.sync fuel t = .ok ([], q1)) ∨
        ∃ q1 cd iv start l q2,
          RelaxedQueue.blockTheTail fuel q.mem.length
            { q with mem := q.mem ++ [⟨0, none, some ⟨0, none, none⟩⟩] } = .ok (true, q1) ∧
          q1.snaps[q.data]? = some cd ∧ q1.loadInvalid q.mem.length = .ok iv ∧
          cd.NVMTail = some start ∧ iv.tail = some q1.tail ∧
          Linked q1.nxt start l ∧ chainLast start l = q1.tail ∧ (start :: l).Nodup ∧
          RelaxedQueue.makeDurble fuel cd.NVMTail iv.tail q1 = .ok (start :: l) ∧
          q.sync fuel t = .ok (start :: l, q2)) := by
  obtain ⟨k, rfl⟩ : ∃ k, fuel = k + 1 := ⟨fuel - 1, by omega⟩
  obtain ⟨q, post, pend, s, l, e, a, b, -⟩ :=
    RelaxedQueue.rq_run_abs RelaxedQueue.rq_new_abs (k + 1) ops (by simp; omega)
  refine ⟨_, q, e, ?_⟩
  have ht : q.tail < q.mem.length := a.chain.tail_lt
  have hn : q.nxt q.tail = none := a.chain.tail_none
  obtain ⟨n, hn1⟩ := heap_get q.mem q.tail ht
  have hn2 : n.next = none := by simpa [RelaxedQueue.nxt, hn1] using hn
  obtain ⟨cd, hcd, hs⟩ := a.snap
  have hlen : l.length ≤ k := by simp at b; omega
  by_cases hle : cd.counter ≤ q.counter
  · right
    have hb := RelaxedQueue.rq_block_eval k hn1 hn2 hcd hle
    have hsync := RelaxedQueue.rq_sync_eval_ok k t hn1 hn2 hcd hle hs a.path a.pathLast
      a.pathBound hlen
    have hpath : Linked (RelaxedQueue.nxt
        { q with mem := q.mem ++ [⟨0, none, some ⟨q.counter, some q.tail, some q.head⟩⟩],
                 counter := wrapInt32 (q.counter + 1) }) s l := by
      refine a.path.congr ?_
      intro x hx
      simp only [RelaxedQueue.nxt, heap_push_old _ _ _ (a.pathBound x hx)]
    have hwalk : RelaxedQueue.makeDurbleLoop
        { q with mem := q.mem ++ [⟨0, none, some ⟨q.counter, some q.tail, some q.head⟩⟩],
                 counter := wrapInt32 (q.counter + 1) } (some q.tail) (k + 1) s = .ok l := by
      refine RelaxedQueue.rq_makeDurble_path hpath a.pathLast ?_ (k + 1) (by omega)
      intro x hx
      have := a.pathBound x hx
      simp only [List.length_append, List.length_singleton]
      omega
    refine ⟨_, cd, ⟨q.counter, some q.tail, some q.head⟩, s, l, _, hb, hcd, ?_, hs, rfl, hpath,
      a.pathLast, hpath.path_nodup, ?_, hsync⟩
    · simp [RelaxedQueue.loadInvalid]
    · simp only [RelaxedQueue.makeDurble, hs, hwalk]
  · left
    have hgt : q.counter < cd.counter := not_le.1 hle
    refine ⟨_, ?_, RelaxedQueue.rq_sync_eval_stale k t hcd hgt⟩
    simp [RelaxedQueue.blockTheTail, RelaxedQueue.blockLoop, hcd, hgt]

/-- Witness of C34: enq 1, sync, enq 2, enq 3, then sync: `makeDurble` walks from
the node holding 1 (address 1) through the node holding 2 (address 3) to the
node holding 3 (address 4). -/
theorem C34_makeDurble_walk_witness :
    [ROp.enq 1, ROp.sync 0, ROp.enq 2, ROp.enq 3].length < 5 ∧
    (RelaxedQueue.run 5 [ROp.enq 1, ROp.sync 0, ROp.enq 2, ROp.enq 3] RelaxedQueue.new).bind
        (fun r => (r.2.sync 5 0).map Prod.fst) = .ok [1, 3, 4] ∧
    ∃ rs q, RelaxedQueue.new.run 5 [ROp.enq 1, ROp.sync 0, ROp.enq 2, ROp.enq 3] = .ok (rs, q) ∧
      ((∃ q1, RelaxedQueue.blockTheTail 5 q.mem.length
            { q with mem := q.mem ++ [⟨0, none, some ⟨0, none, none⟩⟩] } = .ok (false, q1) ∧
          q.sync 5 0 = .ok ([], q1)) ∨
        ∃ q1 cd iv start l q2,
          RelaxedQueue.blockTheTail 5 q.mem.length
            { q with mem := q.mem ++ [⟨0, none, some ⟨0, none, none⟩⟩] } = .ok (true, q1) ∧
          q1.snaps[q.data]? = some cd ∧ q1.loadInvalid q.mem.length = .ok iv ∧
          cd.NVMTail = some start ∧ iv.tail = some q1.tail ∧
          Linked q1.nxt start l ∧ chainLast start l = q1.tail ∧ (start :: l).Nodup ∧
          RelaxedQueue.makeDurble 5 cd.NVMTail iv.tail q1 = .ok (start :: l) ∧
          q.sync 5 0 = .ok (start :: l, q2)) :=
  ⟨by decide, by decide, C34_makeDurble_walk _ 0 5 (by decide)⟩

/-- C32 (failing input). In `staleSchedule` thread 0 passes the marker at
address 2 to `blockTheTail` twice.  The first call splices it onto node 1 while
`head` is node 0 and leaves `tail = 1`, `head = 0` in it (view after 27
actions).  After the `deq` of thread 2, `head` is node 1; the compare-and-swap
of thread 0 on `data` fails (action 57), and the second call splices the same
marker onto node 1 (action 67) and returns true (action 70, the thread is about
to enter `makeDurble`).  In every state in which the marker is linked `head` is
node 1, but the `head` field of the marker is still node 0, because
`invalid->head.compare_exchange_strong(valid, head)` expects null; its `tail`
field is node 1.  The call of `sync` then installs the snapshot
`(NVMTail = 1, NVMHead = 0)` and returns. -/
theorem C32_retried_marker_keeps_head :
    RSystem.viewAfter staleSchedule 27 0 =
      some ⟨.install, 2, 1, none, 0, some ⟨0, some 1, some 0⟩⟩ ∧
    RSystem.viewAfter staleSchedule 56 0 =
      some ⟨.install, 2, 1, none, 1, some ⟨0, some 1, some 0⟩⟩ ∧
    (List.range' 57 14).map (fun k => RSystem.viewAfter staleSchedule k 0) =
      [some ⟨.loadData, 2, 1, none, 1, some ⟨0, some 1, some 0⟩⟩,
       some ⟨.blockLoadData, 2, 1, none, 1, some ⟨0, some 1, some 0⟩⟩,
       some ⟨.fetchAdd, 2, 1, none, 1, some ⟨0, some 1, some 0⟩⟩,
       some ⟨.check, 2, 1, none, 1, some ⟨0, some 1, some 0⟩⟩,
       some ⟨.setCounter, 2, 1, none, 1, some ⟨0, some 1, some 0⟩⟩,
       some ⟨.loadTail, 2, 1, none, 1, some ⟨2, some 1, some 0⟩⟩,
       some ⟨.loadNext, 2, 1, none, 1, some ⟨2, some 1, some 0⟩⟩,
       some ⟨.recheck, 2, 1, none, 1, some ⟨2, some 1, some 0⟩⟩,
       some ⟨.setTail, 2, 1, none, 1, some ⟨2, some 1, some 0⟩⟩,
       some ⟨.block, 2, 1, none, 1, some ⟨2, some 1, some 0⟩⟩,
       some ⟨.ownLoadHead, 2, 1, some 2, 1, some ⟨2, some 1, some 0⟩⟩,
       some ⟨.ownCasHead, 2, 1, some 2, 1, some ⟨2, some 1, some 0⟩⟩,
       some ⟨.unblock, 2, 1, some 2, 1, some ⟨2, some 1, some 0⟩⟩,
       some ⟨.durableStart, 2, 1, none, 1, some ⟨2, some 1, some 0⟩⟩] ∧
    ∃ s, RSystem.run staleSchedule RSystem.start = .ok s ∧ (s.threads 0).pc = .idle ∧
      s.queue.head = 1 ∧ s.queue.tail = 1 ∧
      s.queue.snaps[s.queue.data]? = some ⟨some 1, some 0, 2⟩ := by
  refine ⟨by decide!, by decide!, by decide!, ?_⟩
  cases h : RSystem.run staleSchedule RSystem.start with
  | error e =>
    have h1 : (RSystem.run staleSchedule RSystem.start).toBool = true := by decide!
    rw [h] at h1
    cases h1
  | ok s =>
    have h1 : (match RSystem.run staleSchedule RSystem.start with
      | .ok s => decide ((s.threads 0).pc = .idle ∧ s.queue.head = 1 ∧ s.queue.tail = 1 ∧
          s.queue.snaps[s.queue.data]? = some ⟨some 1, some 0, 2⟩)
      | .error _ => false) = true := by decide!
    rw [h] at h1
    exact ⟨s, rfl, of_decide_eq_true h1⟩

/-- C33. In every state that the Buffered-Relaxed queue reaches by interleaved
accesses of `enq`, `deq` and `sync` without an overflow of `counter`: the
version of the snapshot that `data` points at is below `counter`; for a thread
at the test `currData->counter > currentCounter` of `blockTheTail` the snapshot
exists and the test is false, so that the step goes on to
`invalid->counter = currentCounter` and `blockTheTail` does not return false;
and a step takes a thread to the `return` of `sync` only from its
compare-and-swap on `data`, which has found `currData` in `data` and has stored
`potential`. -/
theorem C33_version_below_counter (schedule : List (Nat × RAct)) (s : RSystem)
    (hrun : RSystem.run schedule RSystem.start = .ok s)
    (hno : RSystem.noOverflow schedule RSystem.start = true) :
    (∃ cd, s.queue.snaps[s.queue.data]? = some cd ∧ cd.counter < s.queue.counter) ∧
    (∀ t, (s.threads t).pc = .check →
      ∃ cd, s.queue.snaps[(s.threads t).blockData]? = some cd ∧
        ¬ cd.counter > (s.threads t).currentCounter ∧
        s.step t .step = .ok (s.next t s.queue { s.threads t with pc := .setCounter })) ∧
    (∀ t s1, s.step t .step = .ok s1 → (s.threads t).pc ≠ .syncReturn →
      (s1.threads t).pc = .syncReturn →
      (s.threads t).pc = .install ∧ s.queue.data = (s.threads t).currData ∧
        s1.queue.data = (s.threads t).potential) := by
  have h := Versions.start.run hrun hno
  have hcheck : ∀ t, (s.threads t).pc = .check →
      ∃ cd, s.queue.snaps[(s.threads t).blockData]? = some cd ∧
        ¬ cd.counter > (s.threads t).currentCounter := by
    intro t hpc
    have ht := h.threads t
    simp [TVer, hpc, RPc.inBlock, RPc.afterBlock] at ht
    obtain ⟨cd, hcd⟩ := heap_get _ _ ht.1
    exact ⟨cd, hcd, not_lt.2 (le_of_lt (ht.2.1 cd hcd))⟩
  refine ⟨?_, ?_, ?_⟩
  · obtain ⟨cd, hcd⟩ := heap_get _ _ h.data
    exact ⟨cd, hcd, h.snaps _ cd hcd⟩
  · intro t hpc
    obtain ⟨cd, hcd, hle⟩ := hcheck t hpc
    refine ⟨cd, hcd, hle, ?_⟩
    simp only [RSystem.step, hpc, hcd, if_neg hle]
  · intro t s1 hs h0 h1
    rcases RSystem.return_step hs h0 h1 with ⟨hpc, cd, hcd, hgt⟩ | h2
    · obtain ⟨cd1, hcd1, hle⟩ := hcheck t hpc
      rw [hcd] at hcd1
      injection hcd1 with e
      subst e
      exact absurd hgt hle
    · exact h2

/-- Witness of C33: the schedule `staleSchedule`, in which two threads call
`sync` and one of them retries, runs without a fault and without an overflow. -/
theorem C33_version_below_counter_witness :
    RSystem.noOverflow staleSchedule RSystem.start = true ∧
    ∃ s, RSystem.run staleSchedule RSystem.start = .ok s ∧
      (∃ cd, s.queue.snaps[s.queue.data]? = some cd ∧ cd.counter < s.queue.counter) ∧
      (∀ t, (s.threads t).pc = .check →
        ∃ cd, s.queue.snaps[(s.threads t).blockData]? = some cd ∧
          ¬ cd.counter > (s.threads t).currentCounter ∧
          s.step t .step = .ok (s.next t s.queue { s.threads t with pc := .setCounter })) ∧
      (∀ t s1, s.step t .step = .ok s1 → (s.threads t).pc ≠ .syncReturn →
        (s1.threads t).pc = .syncReturn →
        (s.threads t).pc = .install ∧ s.queue.data = (s.threads t).currData ∧
          s1.queue.data = (s.threads t).potential) := by
  have hno : RSystem.noOverflow staleSchedule RSystem.start = true := by decide!
  refine ⟨hno, ?_⟩
  cases h : RSystem.run staleSchedule RSystem.start with
  | error e =>
    have h1 : (RSystem.run staleSchedule RSystem.start).toBool = true := by decide!
    rw [h] at h1
    cases h1
  | ok s => exact ⟨s, rfl, C33_version_below_counter staleSchedule s h hno⟩

/-- C31. In every state that the Buffered-Relaxed queue reaches by interleaved
accesses of `enq`, `deq` and `sync`, `head` and `tail` point at regular nodes,
and whenever the `next` field of a node `a` holds a marker `m`: no other `next`
field holds a marker, `a` is the node that `tail` points at, the marker has no
successor, and `a` is reached from `head` along `next` pointers through regular
nodes only, so that `a` is the last regular node of the list. -/
theorem C31_single_marker (schedule : List (Nat × RAct)) (s : RSystem)
    (hrun : RSystem.run schedule RSystem.start = .ok s) :
    s.queue.isMarker s.queue.head = false ∧ s.queue.isMarker s.queue.tail = false ∧
    ∀ a m, s.queue.nxt a = some m → s.queue.isMarker m = true →
      (∀ b m1, s.queue.nxt b = some m1 → s.queue.isMarker m1 = true → b = a) ∧
      a = s.queue.tail ∧ s.queue.nxt m = none ∧
      ∃ l, Seg s.queue.nxt s.queue.head l ∧ chainLast s.queue.head l = a ∧
        ∀ x ∈ s.queue.head :: l, s.queue.isMarker x = false :=
  (RInv.initial.reachable hrun).single_marker

/-- Witness of C31: after the first 67 actions of `staleSchedule` the marker at
address 2 is linked behind node 1, which is `head` and `tail`. -/
theorem C31_single_marker_witness :
    ∃ s, RSystem.run (staleSchedule.take 67) RSystem.start = .ok s ∧
      s.queue.nxt 1 = some 2 ∧ s.queue.isMarker 2 = true ∧ s.queue.head = 1 ∧
      s.queue.isMarker s.queue.head = false ∧ s.queue.isMarker s.queue.tail = false ∧
      ∀ a m, s.queue.nxt a = some m → s.queue.isMarker m = true →
        (∀ b m1, s.queue.nxt b = some m1 → s.queue.isMarker m1 = true → b = a) ∧
        a = s.queue.tail ∧ s.queue.nxt m = none ∧
        ∃ l, Seg s.queue.nxt s.queue.head l ∧ chainLast s.queue.head l = a ∧
          ∀ x ∈ s.queue.head :: l, s.queue.isMarker x = false := by
  cases h : RSystem.run (staleSchedule.take 67) RSystem.start with
  | error e =>
    have h1 : (RSystem.run (staleSchedule.take 67) RSystem.start).toBool = true := by decide!
    rw [h] at h1
    cases h1
  | ok s =>
    have h1 : (match RSystem.run (staleSchedule.take 67) RSystem.start with
      | .ok s => decide (s.queue.nxt 1 = some 2 ∧ s.queue.isMarker 2 = true ∧ s.queue.head = 1)
      | .error _ => false) = true := by decide!
    rw [h] at h1
    have h2 := of_decide_eq_true h1
    exact ⟨s, rfl, h2.1, h2.2.1, h2.2.2, C31_single_marker _ s h⟩

/-- C22 (defect of the code). The history of C25 (`enq(1)` by thread 0;
`enq(2)`, `enq(3)`, `deq`, `deq` by thread 1) and then `recover` are complete
operations: each returns.  In the state that `recover` leaves, `head = 3`,
`tail = 1` and the `next` pointers form the cycle `3 → 1 → 2 → 3`, on which
every node carries a `logDeq` entry.  A thread that then runs `enq(4)` alone, or
`deq` alone, never returns: with every budget of rounds the retry loop is still
running when the budget is used up, because `enq` and `deq` only help `tail`
(and `deq` also `head`) around the cycle. -/
theorem C22_solo_spins_after_recover (nextName : Nat → Option Nat → Option Nat)
    (fuel : Nat) :
    ∃ q q',
      LogQueue.run 1 [Call.enq 1 0 0, Call.enq 2 1 0, Call.enq 3 1 1, Call.deq 1 2,
        Call.deq 1 3] LogQueue.new = .ok ([1, 2], q) ∧
      LogQueue.recover nextName 2 q.logs q = .ok q' ∧
      q'.head = 3 ∧ q'.tail = 1 ∧
      q'.nxt 3 = some 1 ∧ q'.nxt 1 = some 2 ∧ q'.nxt 2 = some 3 ∧
      q'.enq fuel 4 0 4 = .error .fuel ∧ q'.deq fuel 0 4 = .error .fuel := by
  refine ⟨_, _, rfl, rfl, by decide, by decide, by decide, by decide, by decide, ?_, ?_⟩
  · refine LogQueue.lq_enq_spin (fun a => a = 1 ∨ a = 2 ∨ a = 3) _ 4 0 4 fuel (by decide)
      (by decide) (by decide) ?_ (by decide)
    rintro a (rfl | rfl | rfl)
    · exact ⟨2, by decide, by simp⟩
    · exact ⟨3, by decide, by simp⟩
    · exact ⟨1, by decide, by simp⟩
  · refine LogQueue.lq_deq_spin (fun a => a = 1 ∨ a = 2 ∨ a = 3) _ 0 4 fuel (by decide)
      (by decide) (by decide) ?_ (by decide) (by decide)
    rintro a (rfl | rfl | rfl)
    · exact ⟨2, 3, by decide, by simp, by decide, by decide⟩
    · exact ⟨3, 4, by decide, by simp, by decide, by decide⟩
    · exact ⟨1, 4, by decide, by simp, by decide, by decide⟩

/-- C15. Durable queue claim uniqueness, for every interleaving.  Let any
schedule of invocations and single statements of `enq` and `deq`, by any
threads and interleaved in any way, lead from the constructed queue to a state
`s` (calls may be in the middle of their bodies), and let any further schedule
lead from `s` to `s1`.  The claims made on the way to `s` (`claimsOf`: the
executions of the compare-and-swap on `next->threadID` that found `-1`) claim
no address twice.  A claimed address holds in `s` the thread id of its one
claim, which is not `-1` and is the thread id of an invocation of `deq` in the
schedule; every other address is absent or holds `-1`.  A `threadID` other than
`-1` in `s` is the same in `s1`.  Every single action from `s` leaves each
`threadID` as it is, or creates it as `-1` in the allocation of `enq`, or takes
it from `-1` to the thread id of the `deq` that executes the compare-and-swap
(`TidAct`). -/
theorem C15_threadID_claimed_once (pre post : List (Nat × Act))
    (s s1 : QSystem DurableQueue DurableQueue.Pc)
    (hpre : QSystem.run DurableQueue.step pre DurableQueue.start = .ok s)
    (hpost : QSystem.run DurableQueue.step post s = .ok s1) :
    ((DurableQueue.claimsOf pre DurableQueue.start).map Prod.fst).Nodup ∧
    (∀ x id, (x, id) ∈ DurableQueue.claimsOf pre DurableQueue.start →
      id ≠ -1 ∧ s.queue.tid x = some id ∧
        ∃ t op, (t, Act.call (Call.deq id op)) ∈ pre) ∧
    (∀ x, x ∉ (DurableQueue.claimsOf pre DurableQueue.start).map Prod.fst →
      s.queue.tid x = none ∨ s.queue.tid x = some (-1)) ∧
    (∀ x id, s.queue.tid x = some id → id ≠ -1 → s1.queue.tid x = some id) ∧
    (∀ t a s2, DurableQueue.step s t a = .ok s2 → ∀ x, DurableQueue.TidAct s s2 t x) := by
  obtain ⟨hp, hnd, hcl, hoth⟩ :=
    DurableQueue.dq_claims pre _ s DurableQueue.dq_published_start hpre
  obtain ⟨-, -, hcl1, hoth1⟩ := DurableQueue.dq_claims post s s1 hp hpost
  refine ⟨hnd, ?_, ?_, ?_, ?_⟩
  · intro x id hmem
    obtain ⟨-, h2, h3⟩ := hcl x id hmem
    refine ⟨h3, h2, ?_⟩
    rcases DurableQueue.dq_claims_id pre (fun _ => False) _ s
      (fun t h => by simp [DurableQueue.start, DurableQueue.Pc.inDeq] at h) hpre x id hmem
      with h | h
    · exact h.elim
    · exact h
  · intro x hmem
    rcases hoth x hmem with h | ⟨-, h⟩
    · rw [h]
      exact DurableQueue.dq_start_tid x
    · exact Or.inr h
  · intro x id hx hid
    by_cases hmem : x ∈ (DurableQueue.claimsOf post s).map Prod.fst
    · obtain ⟨⟨x1, id1⟩, hm, rfl⟩ := List.mem_map.1 hmem
      rcases (hcl1 _ _ hm).1 with h | h
      · rw [hx] at h
        exact absurd (Option.some.inj h) hid
      · rw [hx] at h
        cases h
    · rcases hoth1 x hmem with h | ⟨h, -⟩
      · rw [h, hx]
      · rw [hx] at h
        cases h
  · intro t a s2 hst x
    rcases DurableQueue.dq_step_tid s t a s2 hp hst with ⟨-, hx⟩ | ⟨y, -, hpc, hn, hid, hy, hy2, hx⟩
    · rcases hx x with h | h
      · exact Or.inl h
      · exact Or.inr (Or.inl h)
    · by_cases hxy : x = y
      · subst hxy
        exact Or.inr (Or.inr ⟨hy, hy2, hid, hpc, hn⟩)
      · exact Or.inl (hx x hxy)

/-- Witness of C15: two calls of `deq` contend for one node.  After
`raceSchedule` threads 1 and 2 both stand before the compare-and-swap on the
`threadID` of the node at address 1, which holds `-1`.  Thread 2 executes it
first and wins, thread 1 executes it next and fails: the one claim of
`contendSchedule` is that of address 1 with thread id 2, thread 2 goes on to
store the value and thread 1 to help.  After both calls have run to their ends
the node still holds thread id 2. -/
theorem C15_threadID_claimed_once_witness :
    (∃ s0, QSystem.run DurableQueue.step DurableQueue.raceSchedule DurableQueue.start = .ok s0 ∧
      (s0.threads 1).pc = .deqCasThreadID ∧ (s0.threads 1).next = some 1 ∧
      (s0.threads 2).pc = .deqCasThreadID ∧ (s0.threads 2).next = some 1 ∧
      s0.queue.tid 1 = some (-1)) ∧
    DurableQueue.claimsOf DurableQueue.contendSchedule DurableQueue.start = [(1, 2)] ∧
    ∃ s s1,
      QSystem.run DurableQueue.step DurableQueue.contendSchedule DurableQueue.start = .ok s ∧
      QSystem.run DurableQueue.step DurableQueue.finishSchedule s = .ok s1 ∧
      (s.threads 2).pc = .deqStoreValue ∧ (s.threads 1).pc = .deqLoadAddress ∧
      s.queue.tid 1 = some 2 ∧ s1.queue.tid 1 = some 2 ∧
      (s1.threads 1).pc = .idle ∧ (s1.threads 2).pc = .idle ∧
      (((DurableQueue.claimsOf DurableQueue.contendSchedule DurableQueue.start).map
          Prod.fst).Nodup ∧
        (∀ x id, (x, id) ∈ DurableQueue.claimsOf DurableQueue.contendSchedule
            DurableQueue.start →
          id ≠ -1 ∧ s.queue.tid x = some id ∧
            ∃ t op, (t, Act.call (Call.deq id op)) ∈ DurableQueue.contendSchedule) ∧
        (∀ x, x ∉ (DurableQueue.claimsOf DurableQueue.contendSchedule
            DurableQueue.start).map Prod.fst →
          s.queue.tid x = none ∨ s.queue.tid x = some (-1)) ∧
        (∀ x id, s.queue.tid x = some id → id ≠ -1 → s1.queue.tid x = some id) ∧
        (∀ t a s2, DurableQueue.step s t a = .ok s2 →
          ∀ x, DurableQueue.TidAct s s2 t x)) := by
  refine ⟨?_, by decide!, ?_⟩
  · cases h : QSystem.run DurableQueue.step DurableQueue.raceSchedule DurableQueue.start with
    | error e =>
      have h1 : (QSystem.run DurableQueue.step DurableQueue.raceSchedule
        DurableQueue.start).toBool = true := by decide!
      rw [h] at h1
      cases h1
    | ok s0 =>
      have h1 : (match QSystem.run DurableQueue.step DurableQueue.raceSchedule
          DurableQueue.start with
        | .ok s0 => decide ((s0.threads 1).pc = .deqCasThreadID ∧ (s0.threads 1).next = some 1 ∧
            (s0.threads 2).pc = .deqCasThreadID ∧ (s0.threads 2).next = some 1 ∧
            s0.queue.tid 1 = some (-1))
        | .error _ => false) = true := by decide!
      rw [h] at h1
      exact ⟨s0, rfl, of_decide_eq_true h1⟩
  · cases h : QSystem.run DurableQueue.step DurableQueue.contendSchedule DurableQueue.start with
    | error e =>
      have h1 : (QSystem.run DurableQueue.step DurableQueue.contendSchedule
        DurableQueue.start).toBool = true := by decide!
      rw [h] at h1
      cases h1
    | ok s =>
      have happ := QSystem.qs_run_append DurableQueue.step DurableQueue.contendSchedule
        DurableQueue.finishSchedule DurableQueue.start
      rw [h] at happ
      simp only at happ
      cases h2 : QSystem.run DurableQueue.step DurableQueue.finishSchedule s with
      | error e =>
        have h1 : (QSystem.run DurableQueue.step
          (DurableQueue.contendSchedule ++ DurableQueue.finishSchedule)
          DurableQueue.start).toBool = true := by decide!
        rw [happ, h2] at h1
        cases h1
      | ok s1 =>
        have h1 : (match QSystem.run DurableQueue.step DurableQueue.contendSchedule
            DurableQueue.start with
          | .ok s => decide ((s.threads 2).pc = .deqStoreValue ∧
              (s.threads 1).pc = .deqLoadAddress ∧ s.queue.tid 1 = some 2)
          | .error _ => false) = true := by decide!
        have h3 : (match QSystem.run DurableQueue.step
            (DurableQueue.contendSchedule ++ DurableQueue.finishSchedule)
            DurableQueue.start with
          | .ok s1 => decide (s1.queue.tid 1 = some 2 ∧ (s1.threads 1).pc = .idle ∧
              (s1.threads 2).pc = .idle)
          | .error _ => false) = true := by decide!
        rw [h] at h1
        rw [happ, h2] at h3
        obtain ⟨a1, a2, a3⟩ := of_decide_eq_true h1
        obtain ⟨b1, b2, b3⟩ := of_decide_eq_true h3
        exact ⟨s, s1, rfl, h2, a1, a2, a3, b1, b2, b3,
          C15_threadID_claimed_once DurableQueue.contendSchedule DurableQueue.finishSchedule
            s s1 h h2⟩

/-- C18, amended, for every interleaving.  Let any schedule of invocations and
single accesses of `enq`, `deq` and `sync`, by any threads and interleaved in
any way, lead from the constructed queue to a state `s`, and let any further
schedule lead from `s` to a state `s1`.  In both states `data` points at a
snapshot, and the `NVMTail` of the snapshot of the later state `s1` is reachable
from the `NVMTail` of the snapshot of the earlier state `s` by following the
`next` pointers of `s1`.  The snapshot in `data` is replaced only by the
compare-and-swap of `sync`, so the two snapshots are any two that `sync`
installs one after the other (or the snapshot of the constructor and one that
`sync` installs). -/
theorem C18_snapshot_tail_forward (pre post : List (Nat × RAct)) (s s1 : RSystem)
    (hpre : RSystem.run pre RSystem.start = .ok s) (hpost : RSystem.run post s = .ok s1) :
    (∃ old new x y, s.queue.snaps[s.queue.data]? = some old ∧
      s1.queue.snaps[s1.queue.data]? = some new ∧
      old.NVMTail = some x ∧ new.NVMTail = some y ∧ Reachable s1.queue.nxt x y) ∧
    (∀ t a s2, s.step t a = .ok s2 → s2.queue.data ≠ s.queue.data →
      a = .step ∧ (s.threads t).pc = .install ∧ s.queue.data = (s.threads t).currData ∧
        s2.queue.data = (s.threads t).potential) := by
  obtain ⟨hI, hT, -, -⟩ := Tails.along RInv.initial Tails.at_start hpre
  obtain ⟨-, -, -, x, y, hx, hy, hxy⟩ := Tails.along hI hT hpost
  refine ⟨?_, ?_⟩
  · simp only [RelaxedQueue.snapTail] at hx hy
    cases ho : s.queue.snaps[s.queue.data]? with
    | none => simp [ho] at hx
    | some old =>
      cases hn : s1.queue.snaps[s1.queue.data]? with
      | none => simp [hn] at hy
      | some new =>
        rw [ho] at hx
        rw [hn] at hy
        exact ⟨old, new, x, y, rfl, rfl, hx, hy, RelaxedQueue.up_nxt hxy⟩
  · intro t a s2 hst hne
    rcases RSystem.data_step hst with h | h
    · exact absurd h hne
    · exact h

/-- Witness of C18, amended: `sync` overlaps two calls of `enq`.  After
`syncOnceSchedule` the snapshot in `data` has `NVMTail` at address 1 (the node
holding 1).  During `syncAgainSchedule` the nodes holding 2 and 3 (addresses 4
and 5) are linked while `sync` runs, and `sync` installs a snapshot with
`NVMTail` at address 5, reached from address 1 through address 4. -/
theorem C18_snapshot_tail_forward_witness :
    ∃ s s1, RSystem.run syncOnceSchedule RSystem.start = .ok s ∧
      RSystem.run syncAgainSchedule s = .ok s1 ∧
      s.queue.snapTail s.queue.data = some 1 ∧ s1.queue.snapTail s1.queue.data = some 5 ∧
      s1.queue.data ≠ s.queue.data ∧ s1.queue.nxt 1 = some 4 ∧ s1.queue.nxt 4 = some 5 ∧
      ((∃ old new x y, s.queue.snaps[s.queue.data]? = some old ∧
          s1.queue.snaps[s1.queue.data]? = some new ∧
          old.NVMTail = some x ∧ new.NVMTail = some y ∧ Reachable s1.queue.nxt x y) ∧
        (∀ t a s2, s.step t a = .ok s2 → s2.queue.data ≠ s.queue.data →
          a = .step ∧ (s.threads t).pc = .install ∧
            s.queue.data = (s.threads t).currData ∧
            s2.queue.data = (s.threads t).potential)) := by
  cases h : RSystem.run syncOnceSchedule RSystem.start with
  | error e =>
    have h1 : (RSystem.run syncOnceSchedule RSystem.start).toBool = true := by decide!
    rw [h] at h1
    cases h1
  | ok s =>
    have happ := RSystem.rs_run_append syncOnceSchedule syncAgainSchedule RSystem.start
    rw [h] at happ
    simp only at happ
    cases h2 : RSystem.run syncAgainSchedule s with
    | error e =>
      have h1 : (RSystem.run (syncOnceSchedule ++ syncAgainSchedule)
        RSystem.start).toBool = true := by decide!
      rw [happ, h2] at h1
      cases h1
    | ok s1 =>
      have h1 : (match RSystem.run syncOnceSchedule RSystem.start with
        | .ok s => decide (s.queue.snapTail s.queue.data = some 1 ∧ s.queue.data = 1)
        | .error _ => false) = true := by decide!
      have h3 : (match RSystem.run (syncOnceSchedule ++ syncAgainSchedule)
          RSystem.start with
        | .ok s1 => decide (s1.queue.snapTail s1.queue.data = some 5 ∧ s1.queue.data = 2 ∧
            s1.queue.nxt 1 = some 4 ∧ s1.queue.nxt 4 = some 5)
        | .error _ => false) = true := by decide!
      rw [h] at h1
      rw [happ, h2] at h3
      obtain ⟨a1, a2⟩ := of_decide_eq_true h1
      obtain ⟨b1, b2, b3, b4⟩ := of_decide_eq_true h3
      refine ⟨s, s1, rfl, h2, a1, b1, ?_, b3, b4,
        C18_snapshot_tail_forward syncOnceSchedule syncAgainSchedule s s1 h h2⟩
      rw [a2, b2]
      decide

end PersistentQueue
